import Mathlib

/-!
# PUMA compiler back end

A shallow embedding of the PUMA compiler passes (partitioner, placer, coalescer,
linearizer, register allocator) together with theorems about them.

Conventions of the embedding.

* An `Operation*` is a natural number; the pointer order that `std::set` and
  `std::map` iterate in is the order carried by the lists of the model.
* `unsigned int` values are natural numbers; where the source relies on the
  arithmetic of `unsigned int` the reduction modulo `UINT_MOD` is explicit.
* A failed `assert` and an out-of-range `std::vector` access make the embedded
  function return `none`.
-/

namespace Puma

/-! ## Constants (`common.h`) -/

def MVMU_DIM : Nat := 128
def N_CONSTANT_MVMUS_PER_CORE : Nat := 6
def N_TRAINING_MVMUS_PER_CORE : Nat := 2
def N_CORES_PER_TILE : Nat := 8
def MAX_LOAD_STORE_WIDTH : Nat := 16
def MAX_SEND_RECV_WIDTH : Nat := 16
def N_TRAINING_OPERATIONS : Nat := 3
def N_INPUT_REGISTERS : Nat :=
  MVMU_DIM * (if N_CONSTANT_MVMUS_PER_CORE ≥ N_TRAINING_OPERATIONS * N_TRAINING_MVMUS_PER_CORE
    then N_CONSTANT_MVMUS_PER_CORE else N_TRAINING_OPERATIONS * N_TRAINING_MVMUS_PER_CORE)
def N_OUTPUT_REGISTERS : Nat := N_INPUT_REGISTERS
def INPUT_REGISTERS_START_ADDRESS : Nat := 0
def OUTPUT_REGISTERS_START_ADDRESS : Nat := INPUT_REGISTERS_START_ADDRESS + N_INPUT_REGISTERS
def REGISTER_FILE_START_ADDRESS : Nat := OUTPUT_REGISTERS_START_ADDRESS + N_OUTPUT_REGISTERS
def REGISTER_FILE_SIZE : Nat := N_INPUT_REGISTERS + N_OUTPUT_REGISTERS
def REGISTERS_PER_CORE : Nat := N_INPUT_REGISTERS + N_OUTPUT_REGISTERS + REGISTER_FILE_SIZE

/-- The modulus of `unsigned int` arithmetic. -/
def UINT_MOD : Nat := 4294967296

/-- The enumeration `ModelImpl::ModelType`. -/
inductive ModelType where
  | UNSPECIALIZED
  | INFERENCE
  | TRAINING
  deriving DecidableEq, Repr

/-- The local `nMVMUSPerCore` of `Partitioner::assignVCoresInVMVMUOrder` and
`Placer::assignPMVMUs`. -/
def nMVMUSPerCore (modelType : ModelType) : Nat :=
  if modelType = ModelType.INFERENCE then N_CONSTANT_MVMUS_PER_CORE else N_TRAINING_MVMUS_PER_CORE

/-! ## Vectors of `unsigned int` -/

/-- The assignment `v[i] = x` on a `std::vector`; `none` when `i` is out of range. -/
def vecSet (v : List Nat) (i x : Nat) : Option (List Nat) :=
  if i < v.length then some (v.set i x) else none

/-! ## Partitioner: roll-up in virtual MVMU order (`partitioner.cpp`) -/

/-- `Partitioner::assignVCoresInVMVMUOrder`: returns `nVCores_` and `vmvmu2vcore_`. -/
def assignVCoresInVMVMUOrder (modelType : ModelType) (nVMVMUs : Nat) :
    Option (Nat × List Nat) := do
  let v ← vecSet (List.replicate nVMVMUs 0) 0 0
  let v ← vecSet v 1 1
  let k := nMVMUSPerCore modelType
  let nVCores := (2 + ((nVMVMUs + UINT_MOD - 2 - 1) % UINT_MOD / k + 1)) % UINT_MOD
  let v ← (List.range' 2 (nVMVMUs - 2)).foldlM
    (fun v vMVMU => vecSet v vMVMU (((vMVMU - 2) / k + 2) % UINT_MOD)) v
  some (nVCores, v)

/-- `Partitioner::assignVTilesInVMVMUOrder`: returns `nVTiles_` and `vcore2vtile_`. -/
def assignVTilesInVMVMUOrder (nVCores : Nat) : Option (Nat × List Nat) := do
  let v ← vecSet (List.replicate nVCores 0) 0 0
  let v ← vecSet v 1 1
  let nVTiles :=
    (2 + ((nVCores + UINT_MOD - 2 - 1) % UINT_MOD / N_CORES_PER_TILE + 1)) % UINT_MOD
  let v ← (List.range' 2 (nVCores - 2)).foldlM
    (fun v vCore => vecSet v vCore (((vCore - 2) / N_CORES_PER_TILE + 2) % UINT_MOD)) v
  some (nVTiles, v)

/-- The tables of the `Partitioner` that the `Placer` reads. -/
structure PartitionTables where
  nVMVMUs : Nat
  nVCores : Nat
  nVTiles : Nat
  vmvmu2vcore : List Nat
  vcore2vtile : List Nat
  deriving Repr

/-- The two roll-up calls the `Partitioner` constructor makes for the row-major,
column-major and random schemes, after `nVMVMUs` virtual MVMUs were handed out. -/
def rollUpInVMVMUOrder (modelType : ModelType) (nVMVMUs : Nat) : Option PartitionTables := do
  let (nVCores, vmvmu2vcore) ← assignVCoresInVMVMUOrder modelType nVMVMUs
  let (nVTiles, vcore2vtile) ← assignVTilesInVMVMUOrder nVCores
  some { nVMVMUs := nVMVMUs, nVCores := nVCores, nVTiles := nVTiles,
         vmvmu2vcore := vmvmu2vcore, vcore2vtile := vcore2vtile }

/-! ## Placer (`placer.cpp`) -/

/-- The tables of the `Placer`. -/
structure Placer where
  nPTiles : Nat
  nPCores : Nat
  nPMVMUs : Nat
  vtile2ptile : List Nat
  vcore2pcore : List Nat
  vmvmu2pmvmu : List Nat
  deriving Repr

/-- `Placer::assignPTiles`: returns `vtile2ptile_`. -/
def assignPTiles (p : PartitionTables) : Option (List Nat) := do
  let v ← vecSet (List.replicate p.nVTiles 0) 0 0
  let v ← vecSet v 1 1
  (List.range' 2 (p.nVTiles - 2)).foldlM (fun v vTile => vecSet v vTile vTile) v

/-- One iteration of the loop of `Placer::assignPCores`; the state is
`vcore2pcore_` and the counters `nPCoresPerPTile`. -/
def assignPCoresStep (p : PartitionTables) (vtile2ptile : List Nat)
    (s : List Nat × List Nat) (vCore : Nat) : Option (List Nat × List Nat) := do
  let vTile ← p.vcore2vtile[vCore]?
  let pTile ← vtile2ptile[vTile]?
  let pCore ← s.2[pTile]?
  let counters ← vecSet s.2 pTile ((pCore + 1) % UINT_MOD)
  if pCore < N_CORES_PER_TILE then
    let v ← vecSet s.1 vCore pCore
    some (v, counters)
  else none

/-- `Placer::assignPCores`: returns `vcore2pcore_`. -/
def assignPCores (p : PartitionTables) (nPTiles : Nat) (vtile2ptile : List Nat) :
    Option (List Nat) := do
  let s ← (List.range p.nVCores).foldlM (assignPCoresStep p vtile2ptile)
    (List.replicate p.nVCores 0, List.replicate nPTiles 0)
  some s.1

/-- One iteration of the loop of `Placer::assignPMVMUs`; the state is
`vmvmu2pmvmu_` and the counters `nPMVMUsPerPCore`. -/
def assignPMVMUsStep (modelType : ModelType) (p : PartitionTables)
    (vtile2ptile vcore2pcore : List Nat)
    (s : List Nat × List Nat) (vMVMU : Nat) : Option (List Nat × List Nat) := do
  let vCore ← p.vmvmu2vcore[vMVMU]?
  let pCore ← vcore2pcore[vCore]?
  let vTile ← p.vcore2vtile[vCore]?
  let pTile ← vtile2ptile[vTile]?
  let idx := (pTile * N_CORES_PER_TILE + pCore) % UINT_MOD
  let pMVMU ← s.2[idx]?
  let counters ← vecSet s.2 idx ((pMVMU + 1) % UINT_MOD)
  if pMVMU < nMVMUSPerCore modelType then
    let v ← vecSet s.1 vMVMU pMVMU
    some (v, counters)
  else none

/-- `Placer::assignPMVMUs`: returns `vmvmu2pmvmu_`. -/
def assignPMVMUs (modelType : ModelType) (p : PartitionTables) (nPCores : Nat)
    (vtile2ptile vcore2pcore : List Nat) : Option (List Nat) := do
  let s ← (List.range p.nVMVMUs).foldlM (assignPMVMUsStep modelType p vtile2ptile vcore2pcore)
    (List.replicate p.nVMVMUs 0, List.replicate nPCores 0)
  some s.1

/-- The constructor `Placer::Placer`. -/
def Placer.create (modelType : ModelType) (p : PartitionTables) : Option Placer := do
  let nPTiles := p.nVTiles
  let vtile2ptile ← assignPTiles p
  let nPCores := (nPTiles * N_CORES_PER_TILE) % UINT_MOD
  let vcore2pcore ← assignPCores p nPTiles vtile2ptile
  let nPMVMUs := (nPCores * nMVMUSPerCore modelType) % UINT_MOD
  let vmvmu2pmvmu ← assignPMVMUs modelType p nPCores vtile2ptile vcore2pcore
  some { nPTiles := nPTiles, nPCores := nPCores, nPMVMUs := nPMVMUs,
         vtile2ptile := vtile2ptile, vcore2pcore := vcore2pcore, vmvmu2pmvmu := vmvmu2pmvmu }

/-! ## The operation DAG (`operations.h`, `operations.cpp`) -/

/-- The enumeration `TrainingMatrixOperation::OpType`. -/
inductive OpType where
  | MVM
  | MVM_TRANSPOSE
  | OUTER_PRODUCT
  deriving DecidableEq, Repr

/-- The numeric value of a `TrainingMatrixOperation::OpType`. -/
def OpType.toNat : OpType → Nat
  | OpType.MVM => 0
  | OpType.MVM_TRANSPOSE => 1
  | OpType.OUTER_PRODUCT => 2

/-- The dynamic class of an `Operation`. -/
inductive OpClass where
  | MVMOperation
  | TrainingMatrixOperation (opType : OpType)
  | ALUVectorOperation
  | SetImmediateOperation
  | CopyOperation
  | LoadOperation
  | StoreOperation
  | SendOperation
  | ReceiveOperation
  | WriteInputOperation
  | ReadOutputOperation
  | PseudoInputOperation
  | PseudoOutputOperation
  deriving DecidableEq, Repr

/-- `dynamic_cast<MVMOperation*>(op) != NULL`. -/
def OpClass.isMVM : OpClass → Bool
  | OpClass.MVMOperation => true
  | _ => false

/-- `dynamic_cast<TrainingMatrixOperation*>(op) != NULL`. -/
def OpClass.isTraining : OpClass → Bool
  | OpClass.TrainingMatrixOperation _ => true
  | _ => false

/-- An MVM or a training matrix operation. -/
def OpClass.isMatrix (c : OpClass) : Bool := c.isMVM || c.isTraining

/-- `dynamic_cast<ProducerOperation*>(op) != NULL`. -/
def OpClass.isProducer : OpClass → Bool
  | OpClass.MVMOperation => true
  | OpClass.TrainingMatrixOperation _ => true
  | OpClass.ALUVectorOperation => true
  | OpClass.SetImmediateOperation => true
  | OpClass.CopyOperation => true
  | OpClass.LoadOperation => true
  | OpClass.PseudoInputOperation => true
  | _ => false

/-- `dynamic_cast<ConsumerOperation*>(op) != NULL`. -/
def OpClass.isConsumer : OpClass → Bool
  | OpClass.MVMOperation => true
  | OpClass.TrainingMatrixOperation _ => true
  | OpClass.ALUVectorOperation => true
  | OpClass.CopyOperation => true
  | OpClass.LoadOperation => true
  | OpClass.StoreOperation => true
  | OpClass.PseudoOutputOperation => true
  | _ => false

/-- `dynamic_cast<TileMemoryWriteOperation*>(op) != NULL`. -/
def OpClass.isTileMemoryWrite : OpClass → Bool
  | OpClass.StoreOperation => true
  | OpClass.ReceiveOperation => true
  | OpClass.WriteInputOperation => true
  | _ => false

/-- `dynamic_cast<TileMemoryReadOperation*>(op) != NULL`. -/
def OpClass.isTileMemoryRead : OpClass → Bool
  | OpClass.LoadOperation => true
  | OpClass.SendOperation => true
  | OpClass.ReadOutputOperation => true
  | _ => false

/-- `dynamic_cast<CoreOperation*>(op) != NULL`. -/
def OpClass.isCore : OpClass → Bool
  | OpClass.MVMOperation => true
  | OpClass.TrainingMatrixOperation _ => true
  | OpClass.ALUVectorOperation => true
  | OpClass.SetImmediateOperation => true
  | OpClass.CopyOperation => true
  | OpClass.LoadOperation => true
  | OpClass.StoreOperation => true
  | _ => false

/-- `dynamic_cast<TileOperation*>(op) != NULL`. -/
def OpClass.isTile : OpClass → Bool
  | OpClass.SendOperation => true
  | OpClass.ReceiveOperation => true
  | OpClass.WriteInputOperation => true
  | OpClass.ReadOutputOperation => true
  | _ => false

/-- Insertion into a `std::set` of pointers: no duplicates, increasing order. -/
def setInsert (l : List Nat) (x : Nat) : List Nat :=
  if x ∈ l then l else l.orderedInsert (fun a b => a ≤ b) x

/-- `std::set::erase` of a key. -/
def setErase (l : List Nat) (x : Nat) : List Nat := l.filter (fun y => y ≠ x)

/-- Update of a map at one key. -/
@[noinline] def upd {α : Type} (f : Nat → α) (i : Nat) (v : α) : Nat → α :=
  fun j => if j = i then v else f j

/-- The operations of a model with their edges. An operation is named by its address;
`operations` is `ModelImpl::operations_` in iteration order. `fresh` is the address the next
`new` returns; it lies above every address in use. -/
structure Graph where
  operations : List Nat
  cls : Nat → OpClass
  length : Nat → Nat
  operands : Nat → List Nat
  users : Nat → List Nat
  srcs : Nat → List Nat
  readers : Nat → List Nat
  recvSrc : Nat → Option Nat
  sendDst : Nat → Option Nat
  imm : Nat → Nat
  mat : Nat → Nat
  ioTile : Nat → Nat
  fresh : Nat

/-- `Operation::Operation` for an object of class `c`: the object gets the address
`g.fresh`, all its containers are empty, and `ModelImpl::addOperation` records it. -/
def Graph.alloc (g : Graph) (c : OpClass) (len : Nat) : Graph :=
  { operations := setInsert g.operations g.fresh
    cls := upd g.cls g.fresh c
    length := upd g.length g.fresh len
    operands := upd g.operands g.fresh []
    users := upd g.users g.fresh []
    srcs := upd g.srcs g.fresh []
    readers := upd g.readers g.fresh []
    recvSrc := upd g.recvSrc g.fresh none
    sendDst := upd g.sendDst g.fresh none
    imm := upd g.imm g.fresh 0
    mat := upd g.mat g.fresh 0
    ioTile := upd g.ioTile g.fresh 0
    fresh := g.fresh + 1 }

/-- `ProducerOperation::addUser`. -/
def Graph.addUser (g : Graph) (producer user : Nat) : Graph :=
  { g with users := upd g.users producer (setInsert (g.users producer) user) }

/-- `ProducerOperation::removeUser`. -/
def Graph.removeUser (g : Graph) (producer user : Nat) : Graph :=
  { g with users := upd g.users producer (setErase (g.users producer) user) }

/-- `TileMemoryWriteOperation::addUser`. -/
def Graph.addReader (g : Graph) (write read : Nat) : Graph :=
  { g with readers := upd g.readers write (setInsert (g.readers write) read) }

/-- `TileMemoryWriteOperation::removeUser`. -/
def Graph.removeReader (g : Graph) (write read : Nat) : Graph :=
  { g with readers := upd g.readers write (setErase (g.readers write) read) }

/-- A constructor of a class derived from `ConsumerOperation` with one operand
(`CopyOperation`, `StoreOperation`): returns the new object and the graph. -/
def Graph.newConsumer (g : Graph) (c : OpClass) (src : Nat) : Nat × Graph :=
  let id := g.fresh
  let g := g.alloc c (g.length src)
  let g := { g with operands := upd g.operands id [src] }
  (id, g.addUser src id)

/-- `CopyOperation::CopyOperation`. -/
def Graph.newCopy (g : Graph) (src : Nat) : Nat × Graph :=
  g.newConsumer OpClass.CopyOperation src

/-- `StoreOperation::StoreOperation`. -/
def Graph.newStore (g : Graph) (src : Nat) : Nat × Graph :=
  g.newConsumer OpClass.StoreOperation src

/-- A constructor of a class derived from `TileMemoryReadOperation` with one source and no
operand (`LoadOperation`, `SendOperation`, `ReadOutputOperation`). -/
def Graph.newRead (g : Graph) (c : OpClass) (src : Nat) : Nat × Graph :=
  let id := g.fresh
  let g := g.alloc c (g.length src)
  let g := { g with srcs := upd g.srcs id [src] }
  (id, g.addReader src id)

/-- `LoadOperation::LoadOperation`. -/
def Graph.newLoad (g : Graph) (src : Nat) : Nat × Graph :=
  g.newRead OpClass.LoadOperation src

/-- `SendOperation::SendOperation`. -/
def Graph.newSend (g : Graph) (src : Nat) : Nat × Graph :=
  g.newRead OpClass.SendOperation src

/-- `ReadOutputOperation::ReadOutputOperation`; the assertion compares the lengths of the
source and of the output tile. -/
def Graph.newReadOutput (g : Graph) (src dst dstLength : Nat) : Option (Nat × Graph) :=
  if g.length src = dstLength then
    let r := g.newRead OpClass.ReadOutputOperation src
    some (r.1, { r.2 with ioTile := upd r.2.ioTile r.1 dst })
  else none

/-- `ReceiveOperation::ReceiveOperation`, which calls `SendOperation::setDst`. -/
def Graph.newReceive (g : Graph) (send : Nat) : Option (Nat × Graph) :=
  let id := g.fresh
  let g := g.alloc OpClass.ReceiveOperation (g.length send)
  let g := { g with recvSrc := upd g.recvSrc id (some send) }
  if (g.sendDst send).isSome then none
  else some (id, { g with sendDst := upd g.sendDst send (some id) })

/-- `WriteInputOperation::WriteInputOperation`. -/
def Graph.newWriteInput (g : Graph) (src srcLength : Nat) : Nat × Graph :=
  let id := g.fresh
  let g := g.alloc OpClass.WriteInputOperation srcLength
  (id, { g with ioTile := upd g.ioTile id src })

/-- `SetImmediateOperation::SetImmediateOperation`. -/
def Graph.newSetImmediate (g : Graph) (imm : Nat) (len : Nat) : Nat × Graph :=
  let id := g.fresh
  let g := g.alloc OpClass.SetImmediateOperation len
  (id, { g with imm := upd g.imm id imm })

/-- `ConsumerOperation::uses`. -/
def Graph.uses (g : Graph) (consumer op : Nat) : Bool :=
  (g.operands consumer).contains op

/-- `ConsumerOperation::replaceOperand`: every occurrence of `op` among the operands is
overwritten; each occurrence erases the consumer from the users of `op` and inserts it
into the users of `replacement`. -/
def Graph.replaceOperand (g : Graph) (consumer op replacement : Nat) : Graph :=
  if g.uses consumer op then
    let replaced := (g.operands consumer).map (fun x => if x = op then replacement else x)
    let g := { g with operands := upd g.operands consumer replaced }
    (g.removeUser op consumer).addUser replacement consumer
  else g

/-- `TileMemoryReadOperation::replaceSrc`: the first occurrence of `old` is overwritten;
the assertion fails when there is none. -/
def Graph.replaceSrc (g : Graph) (read old replacement : Nat) : Option Graph :=
  match (g.srcs read).indexOf? old with
  | some i =>
    let g := { g with srcs := upd g.srcs read ((g.srcs read).set i replacement) }
    some ((g.removeReader old read).addReader replacement read)
  | none => none

/-- `LoadOperation::addTileMemoryAddressOperand`. -/
def Graph.addLoadAddressOperand (g : Graph) (load address : Nat) : Option Graph :=
  if (g.operands load).length = 0 ∧ g.length address = 1 then
    some (Graph.addUser
      { g with operands := upd g.operands load (g.operands load ++ [address]) } address load)
  else none

/-- `StoreOperation::addTileMemoryAddressOperand`. -/
def Graph.addStoreAddressOperand (g : Graph) (store address : Nat) : Option Graph :=
  if (g.operands store).length = 1 ∧ g.length address = 1 then
    some (Graph.addUser
      { g with operands := upd g.operands store (g.operands store ++ [address]) } address store)
  else none

/-- `ModelImpl::unlink`. -/
def Graph.unlink (g : Graph) (op : Nat) : Graph :=
  { g with operations := setErase g.operations op }

/-! ## Partitioner: virtual MVMU assignment (`partitioner.cpp`) -/

/-- `Partitioner::assignVMVMU` on the map `op2vmvmu_`. -/
def assignVMVMU (a : Nat → Option Nat) (op vMVMU : Nat) : Option (Nat → Option Nat) :=
  if (a op).isSome then none else some (upd a op (some vMVMU))

/-- `Partitioner::cloneAssignment` on the map `op2vmvmu_`. -/
def cloneAssignment (a : Nat → Option Nat) (cloneFrom cloneTo : Nat) :
    Option (Nat → Option Nat) :=
  match a cloneFrom with
  | some v => assignVMVMU a cloneTo v
  | none => some a

/-- `Partitioner::spreadVMVMUAffinityToOperands`; the first argument bounds the depth of the
recursion. -/
def spreadVMVMUAffinityToOperands (g : Graph) :
    Nat → Nat → (Nat → Option Nat) → Option (Nat → Option Nat)
  | 0, _, _ => none
  | fuel + 1, op, a =>
    (g.operands op).foldlM (fun a producer =>
      if (a producer).isNone && !(g.cls producer).isMVM && !(g.cls producer).isTraining then
        if (g.users producer).all (fun consumer => (a consumer).isSome) then
          (cloneAssignment a op producer).bind (fun a =>
            if (g.cls producer).isConsumer then spreadVMVMUAffinityToOperands g fuel producer a
            else some a)
        else some a
      else some a) a

/-- `Partitioner::spreadVMVMUAffinityToUsers`; the first argument bounds the depth of the
recursion. -/
def spreadVMVMUAffinityToUsers (g : Graph) :
    Nat → Nat → (Nat → Option Nat) → Option (Nat → Option Nat)
  | 0, _, _ => none
  | fuel + 1, op, a =>
    (g.users op).foldlM (fun a consumer =>
      if (a consumer).isNone && !(g.cls consumer).isMVM && !(g.cls consumer).isTraining then
        if (g.operands consumer).all (fun producer => (a producer).isSome) then
          (cloneAssignment a op consumer).bind (fun a =>
            if (g.cls consumer).isProducer then spreadVMVMUAffinityToUsers g fuel consumer a
            else some a)
        else some a
      else some a) a

/-- The state of `Partitioner::assignVMVMUsAndSpreadAffinity`: `nVMVMUs_`, the tile map
`cmat2vmvmu_` (or `tmat2vmvmu_`) and `op2vmvmu_`. -/
structure Assignment where
  nVMVMUs : Nat
  mat2vmvmu : Nat → Option Nat
  op2vmvmu : Nat → Option Nat

/-- The first loop of `Partitioner::assignVMVMUsAndSpreadAffinity` for one matrix tile whose
users are `tileUsers tile`. -/
def assignTile (g : Graph) (fuel : Nat) (tileUsers : Nat → List Nat) (s : Assignment)
    (tile : Nat) : Option Assignment :=
  let vMVMU := s.nVMVMUs
  ((tileUsers tile).foldlM (fun a mvm =>
      (assignVMVMU a mvm vMVMU).bind (fun a =>
        (spreadVMVMUAffinityToOperands g fuel mvm a).bind (fun a =>
          spreadVMVMUAffinityToUsers g fuel mvm a))) s.op2vmvmu).map
    (fun a => { nVMVMUs := (vMVMU + 1) % UINT_MOD,
                mat2vmvmu := upd s.mat2vmvmu tile (some vMVMU), op2vmvmu := a })

/-- The inner loop of the second pass of `Partitioner::assignVMVMUsAndSpreadAffinity`: the
first assigned operand among `operandsLeft` decides. -/
def resolveFromOperands (g : Graph) (fuel : Nat) (consumer : Nat) :
    List Nat → (Nat → Option Nat) → Option (Nat → Option Nat)
  | [], a => some a
  | operand :: rest, a =>
    if (a operand).isSome then
      (cloneAssignment a operand consumer).bind (fun a =>
        (spreadVMVMUAffinityToOperands g fuel consumer a).bind (fun a =>
          if (g.cls consumer).isProducer then spreadVMVMUAffinityToUsers g fuel consumer a
          else some a))
    else resolveFromOperands g fuel consumer rest a

/-- `Partitioner::assignVMVMUsAndSpreadAffinity`. `matTiles` is `cmatTiles_` for an
inference model and `tmatTiles_` for a training model, in the order of the partitioning
scheme. -/
def assignVMVMUsAndSpreadAffinity (g : Graph) (fuel : Nat) (modelType : ModelType)
    (matTiles : List Nat) (tileUsers : Nat → List Nat) : Option Assignment :=
  let s0 : Assignment := { nVMVMUs := 2, mat2vmvmu := fun _ => none, op2vmvmu := fun _ => none }
  let s1 := if modelType = ModelType.UNSPECIALIZED then some s0
    else matTiles.foldlM (assignTile g fuel tileUsers) s0
  s1.bind (fun s =>
    (g.operations.foldlM (fun a op =>
      if (g.cls op).isConsumer && (a op).isNone then
        resolveFromOperands g fuel op (g.operands op) a
      else some a) s.op2vmvmu).map (fun a => { s with op2vmvmu := a }))

/-! ## Partitioner: DAG legalization (`partitioner.cpp`) -/

/-- The members of `Partitioner` that the legalization and the later passes use. -/
structure Partitioner where
  nVMVMUs : Nat
  nVCores : Nat
  nVTiles : Nat
  op2vmvmu : Nat → Option Nat
  mat2vmvmu : Nat → Option Nat
  vmvmu2vcore : List Nat
  vcore2vtile : List Nat
  numLoads : Nat
  numStores : Nat
  numSends : Nat
  numReceives : Nat

/-- `Partitioner::getVMVMU(Operation*)`. -/
def Partitioner.getVMVMU (pt : Partitioner) (op : Nat) : Option Nat := pt.op2vmvmu op

/-- `Partitioner::getVCore(Operation*)`. -/
def Partitioner.getVCore (pt : Partitioner) (op : Nat) : Option Nat :=
  (pt.getVMVMU op).bind (fun v => pt.vmvmu2vcore[v]?)

/-- `Partitioner::getVTile(Operation*)`. -/
def Partitioner.getVTile (pt : Partitioner) (op : Nat) : Option Nat :=
  (pt.getVCore op).bind (fun c => pt.vcore2vtile[c]?)

/-- `Partitioner::cloneAssignment`. -/
def Partitioner.cloneAssignment (pt : Partitioner) (cloneFrom cloneTo : Nat) :
    Option Partitioner :=
  (Puma.cloneAssignment pt.op2vmvmu cloneFrom cloneTo).map (fun (a : Nat → Option Nat) => { pt with op2vmvmu := a })

/-- The model's DAG together with the partitioner. -/
structure PState where
  g : Graph
  pt : Partitioner

/-- The local variables `store` and `loads` of `Partitioner::insertLoadsAndStores`. -/
structure LoadStoreLoop where
  st : PState
  store : Option Nat
  loads : Nat → Option Nat

/-- The body of the loop over the users of `producer` in
`Partitioner::insertLoadsAndStores`. -/
def insertLoadsAndStoresUser (producer : Nat) (l : LoadStoreLoop) (consumer : Nat) :
    Option LoadStoreLoop :=
  (l.st.pt.getVCore producer).bind fun vp =>
  (l.st.pt.getVCore consumer).bind fun vc =>
  if vp ≠ vc then
    (match l.store with
      | some store => some (l.st, store)
      | none =>
        let r := l.st.g.newStore producer
        (l.st.pt.cloneAssignment producer r.1).map fun (pt : Partitioner) =>
          (PState.mk r.2 { pt with
              numStores := (pt.numStores + r.2.length r.1) % UINT_MOD }, r.1)).bind
    fun (p : PState × Nat) =>
    (match l.loads vc with
      | some load => some (p.1, load)
      | none =>
        let r := p.1.g.newLoad p.2
        (p.1.pt.cloneAssignment consumer r.1).map fun (pt : Partitioner) =>
          (PState.mk r.2 { pt with
              numLoads := (pt.numLoads + r.2.length r.1) % UINT_MOD }, r.1)).bind
    fun (q : PState × Nat) =>
    some { st := { q.1 with g := q.1.g.replaceOperand consumer producer q.2 }
           store := some p.2
           loads := upd l.loads vc (some q.2) }
  else some l

/-- The body of the loop over the operations in `Partitioner::insertLoadsAndStores`. The
users of the producer are those at the start of the inner loop: the Store that the loop
inserts among them is on the core of the producer and is skipped by the loop. -/
def insertLoadsAndStoresAt (st : PState) (op : Nat) : Option PState :=
  if (st.g.cls op).isProducer then
    ((st.g.users op).foldlM (insertLoadsAndStoresUser op)
      { st := st, store := none, loads := fun _ => none }).map (fun l => l.st)
  else some st

/-- `Partitioner::insertLoadsAndStores`. The loop runs over the operations present at its
start: on the Stores and Loads it creates the body does nothing. -/
def insertLoadsAndStores (st : PState) : Option PState :=
  st.g.operations.foldlM insertLoadsAndStoresAt st

/-- The local variable `recvs` of `Partitioner::insertSendsAndRecives`. -/
structure SendRecvLoop where
  st : PState
  recvs : Nat → Option Nat

/-- The body of the loop over the readers of `store` in
`Partitioner::insertSendsAndRecives`. -/
def insertSendsAndRecivesUser (store : Nat) (l : SendRecvLoop) (read : Nat) :
    Option SendRecvLoop :=
  (l.st.pt.getVTile store).bind fun ts =>
  (l.st.pt.getVTile read).bind fun tr =>
  if ts ≠ tr then
    (match l.recvs tr with
      | some recv => some (l.st, recv)
      | none =>
        let r := l.st.g.newSend store
        (l.st.pt.cloneAssignment store r.1).bind fun (pt : Partitioner) =>
        let pt := { pt with numSends := (pt.numSends + r.2.length r.1) % UINT_MOD }
        (r.2.newReceive r.1).bind fun (r2 : Nat × Graph) =>
        (pt.cloneAssignment read r2.1).map fun (pt : Partitioner) =>
          (PState.mk r2.2 { pt with
              numReceives := (pt.numReceives + r2.2.length r2.1) % UINT_MOD }, r2.1)).bind
    fun (p : PState × Nat) =>
    (p.1.g.replaceSrc read store p.2).map fun g =>
      { st := { p.1 with g := g }, recvs := upd l.recvs tr (some p.2) }
  else some l

/-- The body of the loop over the operations in `Partitioner::insertSendsAndRecives`. The
readers of the Store are those at the start of the inner loop: the Sends that the loop
inserts among them are on the tile of the Store and are skipped by the loop. -/
def insertSendsAndRecivesAt (st : PState) (op : Nat) : Option PState :=
  if st.g.cls op = OpClass.StoreOperation then
    ((st.g.readers op).foldlM (insertSendsAndRecivesUser op)
      { st := st, recvs := fun _ => none }).map (fun l => l.st)
  else some st

/-- `Partitioner::insertSendsAndRecives`. -/
def insertSendsAndRecives (st : PState) : Option PState :=
  st.g.operations.foldlM insertSendsAndRecivesAt st

/-- The body of the loop over the operands in `Partitioner::insertCopies`. -/
def insertCopiesOperand (consumer : Nat) (st : PState) (o : Nat) : Option PState :=
  match (st.g.operands consumer)[o]? with
  | none => none
  | some producer =>
    let producerIsMatrixOperation :=
      (st.g.cls consumer).isMVM || (st.g.cls consumer).isTraining
    let producerHasMultipleUsers := decide ((st.g.users producer).length > 1)
    if producerIsMatrixOperation || producerHasMultipleUsers then
      let r := st.g.newCopy producer
      (st.pt.cloneAssignment consumer r.1).map fun (pt : Partitioner) =>
        { g := r.2.replaceOperand consumer producer r.1, pt := pt }
    else some st

/-- The body of the loop over the operations in `Partitioner::insertCopies`. -/
def insertCopiesAt (st : PState) (op : Nat) : Option PState :=
  if (st.g.cls op).isConsumer then
    let isMatrixOperation := (st.g.cls op).isMVM || (st.g.cls op).isTraining
    if isMatrixOperation then
      (List.range (st.g.operands op).length).foldlM (insertCopiesOperand op) st
    else some st
  else some st

/-- `Partitioner::insertCopies`. The loop runs over the operations present at its start:
the operations it creates are Copies, on which the body does nothing. -/
def insertCopies (st : PState) : Option PState :=
  st.g.operations.foldlM insertCopiesAt st

/-- `Partitioner::unlink`. -/
def PState.unlink (st : PState) (op : Nat) : PState :=
  { g := st.g.unlink op, pt := { st.pt with op2vmvmu := upd st.pt.op2vmvmu op none } }

/-- The local maps `loads`, `recvs` and `inputs` of `Partitioner::insertInputAndOutput`,
keyed by input tile and by virtual core or tile. -/
structure InputLoop where
  st : PState
  loads : Nat → Nat → Option Nat
  recvs : Nat → Nat → Option Nat
  inputs : Nat → Option Nat

/-- The body of the loop over the users of a pseudo input in
`Partitioner::insertInputAndOutput`. -/
def insertInputUser (pseudoInput src : Nat) (l : InputLoop) (consumer : Nat) :
    Option InputLoop :=
  (l.st.pt.getVCore consumer).bind fun vc =>
  (match l.loads src vc with
    | some load => some (l, load)
    | none =>
      (l.st.pt.getVTile consumer).bind fun vt =>
      (match l.recvs src vt with
        | some recv => some (l, recv)
        | none =>
          (match l.inputs src with
            | some input => some (l, input)
            | none =>
              let r := l.st.g.newWriteInput src (l.st.g.length pseudoInput)
              (assignVMVMU l.st.pt.op2vmvmu r.1 0).map fun (a : Nat → Option Nat) =>
                ({ l with st := { g := r.2, pt := { l.st.pt with op2vmvmu := a } }
                          inputs := upd l.inputs src (some r.1) }, r.1)).bind
          fun (p : InputLoop × Nat) =>
          let r := p.1.st.g.newSend p.2
          (p.1.st.pt.cloneAssignment p.2 r.1).bind fun (pt : Partitioner) =>
          let pt := { pt with numSends := (pt.numSends + r.2.length r.1) % UINT_MOD }
          (r.2.newReceive r.1).bind fun (r2 : Nat × Graph) =>
          (pt.cloneAssignment consumer r2.1).map fun (pt : Partitioner) =>
            ({ p.1 with
                st := { g := r2.2, pt := { pt with
                  numReceives := (pt.numReceives + r2.2.length r2.1) % UINT_MOD } }
                recvs := upd p.1.recvs src (upd (p.1.recvs src) vt (some r2.1)) }, r2.1)).bind
      fun (p : InputLoop × Nat) =>
      let r := p.1.st.g.newLoad p.2
      (p.1.st.pt.cloneAssignment consumer r.1).map fun (pt : Partitioner) =>
        ({ p.1 with
            st := { g := r.2, pt := { pt with
              numLoads := (pt.numLoads + r.2.length r.1) % UINT_MOD } }
            loads := upd p.1.loads src (upd (p.1.loads src) vc (some r.1)) }, r.1)).bind
  fun (p : InputLoop × Nat) =>
  some { p.1 with st := { p.1.st with g := p.1.st.g.replaceOperand consumer pseudoInput p.2 } }

/-- The body of the loop over the operands of a pseudo output in
`Partitioner::insertInputAndOutput`. -/
def insertOutputOperand (pseudoOutput dst : Nat) (st : PState) (o : Nat) : Option PState :=
  match (st.g.operands pseudoOutput)[o]? with
  | none => none
  | some producer =>
    let r := st.g.newStore producer
    (st.pt.cloneAssignment pseudoOutput r.1).bind fun (pt : Partitioner) =>
    let pt := { pt with numStores := (pt.numStores + r.2.length r.1) % UINT_MOD }
    let r2 := r.2.newSend r.1
    (pt.cloneAssignment pseudoOutput r2.1).bind fun (pt : Partitioner) =>
    let pt := { pt with numSends := (pt.numSends + r2.2.length r2.1) % UINT_MOD }
    (r2.2.newReceive r2.1).bind fun (r3 : Nat × Graph) =>
    let pt := { pt with numReceives := (pt.numReceives + r3.2.length r3.1) % UINT_MOD }
    (assignVMVMU pt.op2vmvmu r3.1 1).bind fun (a : Nat → Option Nat) =>
    let pt := { pt with op2vmvmu := a }
    (r3.2.newReadOutput r3.1 dst (r3.2.length pseudoOutput)).bind fun (r4 : Nat × Graph) =>
    (pt.cloneAssignment r3.1 r4.1).map fun (pt : Partitioner) =>
      { g := r4.2.removeUser producer pseudoOutput, pt := pt }

/-- The body of the loop over the operations in `Partitioner::insertInputAndOutput`. -/
def insertInputAndOutputAt (l : InputLoop) (op : Nat) : Option InputLoop :=
  if l.st.g.cls op = OpClass.PseudoInputOperation then
    ((l.st.g.users op).foldlM (insertInputUser op (l.st.g.ioTile op)) l).map fun l =>
      { l with st := l.st.unlink op }
  else if l.st.g.cls op = OpClass.PseudoOutputOperation then
    ((List.range (l.st.g.operands op).length).foldlM
      (insertOutputOperand op (l.st.g.ioTile op)) l.st).map fun st =>
      { l with st := st.unlink op }
  else some l

/-- `Partitioner::insertInputAndOutput`. -/
def insertInputAndOutput (st : PState) : Option PState :=
  (st.g.operations.foldlM insertInputAndOutputAt
    { st := st, loads := fun _ _ => none, recvs := fun _ _ => none,
      inputs := fun _ => none }).map (fun l => l.st)

/-- The four legalization passes in the order of the `Partitioner` constructor. -/
def legalize (st : PState) : Option PState :=
  (insertLoadsAndStores st).bind fun st =>
  (insertSendsAndRecives st).bind fun st =>
  (insertInputAndOutput st).bind insertCopies

/-- The constructor `Partitioner::Partitioner` for the row-major, column-major and random
schemes; `matTiles` lists the matrix tiles in the order of the scheme. -/
def Partitioner.create (g : Graph) (fuel : Nat) (modelType : ModelType)
    (matTiles : List Nat) (tileUsers : Nat → List Nat) : Option PState :=
  (assignVMVMUsAndSpreadAffinity g fuel modelType matTiles tileUsers).bind fun (a : Assignment) =>
  (rollUpInVMVMUOrder modelType a.nVMVMUs).bind fun t =>
  legalize { g := g, pt :=
    { nVMVMUs := t.nVMVMUs, nVCores := t.nVCores, nVTiles := t.nVTiles,
      op2vmvmu := a.op2vmvmu, mat2vmvmu := a.mat2vmvmu,
      vmvmu2vcore := t.vmvmu2vcore, vcore2vtile := t.vcore2vtile,
      numLoads := 0, numStores := 0, numSends := 0, numReceives := 0 } }

/-! ## Placer: lookups (`placer.cpp`) -/

/-- `Placer::getPTile(Operation*)`. -/
def Placer.getPTile (P : Placer) (pt : Partitioner) (op : Nat) : Option Nat :=
  (pt.getVTile op).bind (fun t => P.vtile2ptile[t]?)

/-- `Placer::getPCore(Operation*)`. -/
def Placer.getPCore (P : Placer) (pt : Partitioner) (op : Nat) : Option Nat :=
  (pt.getVCore op).bind (fun c => P.vcore2pcore[c]?)

/-- `Placer::getPMVMU(Operation*)`. -/
def Placer.getPMVMU (P : Placer) (pt : Partitioner) (op : Nat) : Option Nat :=
  (pt.getVMVMU op).bind (fun v => P.vmvmu2pmvmu[v]?)

/-- The index `pTile*N_CORES_PER_TILE + pCore` of the core of an operation in the per-core
vectors of the coalescer and the linearizer. -/
def Placer.coreIndex (P : Placer) (pt : Partitioner) (op : Nat) : Option Nat :=
  (P.getPTile pt op).bind fun pTile =>
  (P.getPCore pt op).map fun pCore => (pTile * N_CORES_PER_TILE + pCore) % UINT_MOD

/-! ## Memory allocator (`memalloc.cpp`) -/

/-- The members of `MemoryAllocator`. -/
structure MemoryAllocator where
  op2mem : Nat → Option Nat
  vTileAvailableMemory : List Nat

/-- `MemoryAllocator::memalloc`: returns the address and the new allocator. -/
def MemoryAllocator.memalloc (m : MemoryAllocator) (vTile size : Nat) :
    Option (Nat × MemoryAllocator) :=
  (m.vTileAvailableMemory[vTile]?).bind fun address =>
  (vecSet m.vTileAvailableMemory vTile ((address + size) % UINT_MOD)).map fun v =>
    (address, { m with vTileAvailableMemory := v })

/-- `MemoryAllocator::assignTileMemoryAddress`. -/
def MemoryAllocator.assignTileMemoryAddress (m : MemoryAllocator) (op address : Nat) :
    Option MemoryAllocator :=
  if (m.op2mem op).isSome then none else some { m with op2mem := upd m.op2mem op (some address) }

/-- `MemoryAllocator::getTileMemoryAddress`. -/
def MemoryAllocator.getTileMemoryAddress (m : MemoryAllocator) (op : Nat) : Option Nat :=
  m.op2mem op

/-- The DAG, the partitioner and the memory allocator. -/
structure MState where
  g : Graph
  pt : Partitioner
  mem : MemoryAllocator

/-- The body of the loop over the readers of a tile memory write in
`MemoryAllocator::memoryAllocation`. -/
def memoryAllocationReader (address : Nat) (st : MState) (read : Nat) : Option MState :=
  if st.g.cls read = OpClass.LoadOperation then
    let r := st.g.newSetImmediate address 1
    (st.pt.cloneAssignment read r.1).bind fun (pt : Partitioner) =>
    (r.2.addLoadAddressOperand read r.1).map fun (g : Graph) =>
      { st with g := g, pt := pt }
  else some st

/-- The body of the loop over the operations in `MemoryAllocator::memoryAllocation`. -/
def memoryAllocationAt (st : MState) (op : Nat) : Option MState :=
  if (st.g.cls op).isTileMemoryWrite then
    (st.pt.getVTile op).bind fun vTile =>
    (st.mem.memalloc vTile (st.g.length op)).bind fun (a : Nat × MemoryAllocator) =>
    (a.2.assignTileMemoryAddress op a.1).bind fun (mem : MemoryAllocator) =>
    (if st.g.cls op = OpClass.StoreOperation then
      let r := st.g.newSetImmediate a.1 1
      (st.pt.cloneAssignment op r.1).bind fun (pt : Partitioner) =>
      (r.2.addStoreAddressOperand op r.1).map fun (g : Graph) =>
        MState.mk g pt mem
     else some { st with mem := mem }).bind fun (st : MState) =>
    (st.g.readers op).foldlM (memoryAllocationReader a.1) st
  else some st

/-- The constructor `MemoryAllocator::MemoryAllocator`. The loop runs over the operations
present at its start: it creates SetImmediate operations only, which write no tile memory. -/
def MemoryAllocator.create (st : PState) : Option MState :=
  st.g.operations.foldlM memoryAllocationAt
    { g := st.g, pt := st.pt,
      mem := { op2mem := fun _ => none,
               vTileAvailableMemory := List.replicate st.pt.nVTiles 0 } }

/-! ## Coalesced sets (`operations.cpp`) and the coalescer (`coalescer.cpp`) -/

/-- The `CoalescedMVMSet` and `CoalescedTrainingOperationSet` objects with the back links
of the operations, and the per-core vectors of the `Coalescer`. A set is named by its
address; `freshSet` is the address of the next set. -/
structure Coalescer where
  mvms : Nat → List (Option Nat)
  coalescedSet : Nat → Option Nat
  coalescedMVMSets : List (List Nat)
  trainOps : Nat → List (Option Nat)
  coalescedTrainingSet : Nat → Option Nat
  coalescedTrainingOperationSets : List (List Nat)
  freshSet : Nat

/-- No coalesced set: the state of the back links when the coalescer does not run. -/
def Coalescer.none : Coalescer :=
  { mvms := fun _ => [], coalescedSet := fun _ => Option.none, coalescedMVMSets := [],
    trainOps := fun _ => [], coalescedTrainingSet := fun _ => Option.none,
    coalescedTrainingOperationSets := [], freshSet := 0 }

/-- `new CoalescedMVMSet()`. -/
def Coalescer.newMVMSet (c : Coalescer) : Nat × Coalescer :=
  (c.freshSet, { c with mvms := upd c.mvms c.freshSet
                          (List.replicate N_CONSTANT_MVMUS_PER_CORE Option.none)
                        freshSet := c.freshSet + 1 })

/-- `CoalescedMVMSet::usesPMVMU`. -/
def Coalescer.usesPMVMU (c : Coalescer) (s pMVMU : Nat) : Option Bool :=
  ((c.mvms s)[pMVMU]?).map (fun m => m.isSome)

/-- `CoalescedMVMSet::add` with `MVMOperation::setCoalescedSet`. -/
def Coalescer.addMVM (c : Coalescer) (s mvm pMVMU : Nat) : Option Coalescer :=
  match (c.mvms s)[pMVMU]? with
  | some Option.none =>
    if (c.coalescedSet mvm).isSome then Option.none
    else some { c with mvms := upd c.mvms s ((c.mvms s).set pMVMU (some mvm))
                       coalescedSet := upd c.coalescedSet mvm (some s) }
  | _ => Option.none

/-- `CoalescedMVMSet::removeAll` with `MVMOperation::resetCoalescedSet`. -/
def Coalescer.removeAllMVM (c : Coalescer) (s : Nat) : Coalescer :=
  { c with mvms := upd c.mvms s ((c.mvms s).map (fun _ => Option.none))
           coalescedSet := fun op => if some op ∈ c.mvms s then Option.none
                                     else c.coalescedSet op }

/-- `CoalescedMVMSet::isComplete`. -/
def Coalescer.isCompleteMVM (c : Coalescer) (s : Nat) : Bool :=
  (c.mvms s).all (fun m => m.isSome)

/-- `CoalescedMVMSet::isSetLeader`; the assertion fails on a set without member. -/
def Coalescer.isSetLeaderMVM (c : Coalescer) (s mvm : Nat) : Option Bool :=
  ((c.mvms s).find? (fun m => m.isSome)).map (fun m => m == some mvm)

/-- `new CoalescedTrainingOperationSet()`. -/
def Coalescer.newTrainingSet (c : Coalescer) : Nat × Coalescer :=
  (c.freshSet, { c with trainOps := upd c.trainOps c.freshSet
                          (List.replicate (N_TRAINING_MVMUS_PER_CORE * N_TRAINING_OPERATIONS)
                            Option.none)
                        freshSet := c.freshSet + 1 })

/-- `CoalescedTrainingOperationSet::usesPMVMUForOp`. -/
def Coalescer.usesPMVMUForOp (c : Coalescer) (s pMVMU : Nat) (opType : OpType) :
    Option Bool :=
  ((c.trainOps s)[(pMVMU * N_TRAINING_OPERATIONS + opType.toNat) % UINT_MOD]?).map
    (fun m => m.isSome)

/-- `CoalescedTrainingOperationSet::add` with `TrainingMatrixOperation::setCoalescedSet`;
`opType` is `trainOp->getOpType()`. -/
def Coalescer.addTraining (c : Coalescer) (s trainOp pMVMU : Nat) (opType : OpType) :
    Option Coalescer :=
  let index := (pMVMU * N_TRAINING_OPERATIONS + opType.toNat) % UINT_MOD
  match (c.trainOps s)[index]? with
  | some Option.none =>
    if (c.coalescedTrainingSet trainOp).isSome then Option.none
    else some { c with trainOps := upd c.trainOps s ((c.trainOps s).set index (some trainOp))
                       coalescedTrainingSet := upd c.coalescedTrainingSet trainOp (some s) }
  | _ => Option.none

/-- `CoalescedTrainingOperationSet::removeAll`. -/
def Coalescer.removeAllTraining (c : Coalescer) (s : Nat) : Coalescer :=
  { c with trainOps := upd c.trainOps s ((c.trainOps s).map (fun _ => Option.none))
           coalescedTrainingSet := fun op => if some op ∈ c.trainOps s then Option.none
                                             else c.coalescedTrainingSet op }

/-- `push_back` on the vector `v[idx]` of a vector of vectors. -/
def pushAt (v : List (List Nat)) (idx x : Nat) : Option (List (List Nat)) :=
  (v[idx]?).map (fun l => v.set idx (l ++ [x]))

/-- Insertion of a key with a fresh value into the local `std::map` of
`Coalescer::coalesceMVMOperations`, kept in increasing order of `(pTile, pCore)`. -/
def localInsert (l : List ((Nat × Nat) × Nat)) (k : Nat × Nat) (s : Nat) :
    List ((Nat × Nat) × Nat) :=
  match l with
  | [] => [(k, s)]
  | (k1, s1) :: rest =>
    if k.1 < k1.1 ∨ (k.1 = k1.1 ∧ k.2 < k1.2) then (k, s) :: (k1, s1) :: rest
    else (k1, s1) :: localInsert rest k s

/-- Lookup in the local `std::map` of `Coalescer::coalesceMVMOperations`. -/
def localFind (l : List ((Nat × Nat) × Nat)) (k : Nat × Nat) : Option Nat :=
  (l.find? (fun e => e.1 == k)).map (fun e => e.2)

/-- The first loop over one coalesceable set in `Coalescer::coalesceMVMOperations`: the
body for one MVM. -/
def extractLocalSet (P : Placer) (pt : Partitioner)
    (s : Coalescer × List ((Nat × Nat) × Nat)) (mvm : Nat) :
    Option (Coalescer × List ((Nat × Nat) × Nat)) :=
  (P.getPMVMU pt mvm).bind fun pMVMU =>
  (P.getPCore pt mvm).bind fun pCore =>
  (P.getPTile pt mvm).bind fun pTile =>
  let r : (Coalescer × List ((Nat × Nat) × Nat)) × Nat :=
    match localFind s.2 (pTile, pCore) with
    | some cs => (s, cs)
    | Option.none =>
      let n := s.1.newMVMSet
      ((n.2, localInsert s.2 (pTile, pCore) n.1), n.1)
  (r.1.1.addMVM r.2 mvm pMVMU).map fun (c : Coalescer) => (c, r.1.2)

/-- The second loop over one coalesceable set in `Coalescer::coalesceMVMOperations`: the
body for one extracted set. -/
def keepIfComplete (c : Coalescer) (e : (Nat × Nat) × Nat) : Option Coalescer :=
  if c.isCompleteMVM e.2 then
    (pushAt c.coalescedMVMSets ((e.1.1 * N_CORES_PER_TILE + e.1.2) % UINT_MOD) e.2).map
      fun v => { c with coalescedMVMSets := v }
  else some (c.removeAllMVM e.2)

/-- The loop over the coalesceable sets in `Coalescer::coalesceMVMOperations` (the
hint-based phase): the body for one set, whose members are listed in increasing order. -/
def coalesceHintSet (P : Placer) (pt : Partitioner) (c : Coalescer)
    (coalesceableMVMSet : List Nat) : Option Coalescer :=
  (coalesceableMVMSet.foldlM (extractLocalSet P pt) (c, [])).bind
    fun (s : Coalescer × List ((Nat × Nat) × Nat)) => s.2.foldlM keepIfComplete s.1

/-- Union into a `std::set`: `a.insert(b.begin(), b.end())`. -/
def setUnion (a b : List Nat) : List Nat := b.foldl setInsert a

/-- The set `mvmPredecessors[op]` after the statements that
`Coalescer::findMVMPredecessors` executes once the recursive call for a predecessor has
returned: the predecessors of `predecessor` are inserted, and `predecessor` itself when
`insertSelf` holds. -/
def mergedPredecessors (t : Nat → Option (List Nat)) (op predecessor : Nat)
    (insertSelf : Bool) : List Nat :=
  let merged := setUnion ((t op).getD []) ((t predecessor).getD [])
  if insertSelf then setInsert merged predecessor else merged

/-- `Coalescer::findMVMPredecessors`; the first argument bounds the depth of the recursion.
The map `mvmPredecessors` is `t`. -/
def findMVMPredecessors (g : Graph) (c : Coalescer) :
    Nat → Nat → (Nat → Option (List Nat)) → Option (Nat → Option (List Nat))
  | 0, _, _ => Option.none
  | fuel + 1, op, t =>
    if (t op).isSome then some t
    else
      let t := upd t op (some [])
      (if (g.cls op).isMVM then
        match c.coalescedSet op with
        | some cs =>
          if c.isCompleteMVM cs then
            (c.mvms cs).foldlM (fun t m =>
              m.bind fun m =>
              ((g.operands m)[0]?).bind fun predecessor =>
              (findMVMPredecessors g c fuel predecessor t).map fun t =>
                upd t op (some (mergedPredecessors t op predecessor false))) t
          else Option.none
        | Option.none =>
          ((g.operands op)[0]?).bind fun predecessor =>
          (findMVMPredecessors g c fuel predecessor t).map fun t =>
            upd t op (some (mergedPredecessors t op predecessor false))
      else if (g.cls op).isConsumer then
        (g.operands op).foldlM (fun t predecessor =>
          (findMVMPredecessors g c fuel predecessor t).bind fun t =>
            if (g.cls predecessor).isMVM then
              match c.coalescedSet predecessor with
              | Option.none =>
                some (upd t op (some (mergedPredecessors t op predecessor true)))
              | some cs =>
                if c.isCompleteMVM cs then
                  some (upd t op (some (mergedPredecessors t op predecessor false)))
                else Option.none
            else some (upd t op (some (mergedPredecessors t op predecessor false)))) t
      else some t).bind fun t =>
      (if (g.cls op).isTileMemoryRead then
        (g.srcs op).foldlM (fun t predecessor =>
          (findMVMPredecessors g c fuel predecessor t).map fun t =>
            upd t op (some (mergedPredecessors t op predecessor false))) t
      else some t).bind fun t =>
      if g.cls op = OpClass.ReceiveOperation then
        (g.recvSrc op).bind fun predecessor =>
        (findMVMPredecessors g c fuel predecessor t).map fun t =>
          upd t op (some (mergedPredecessors t op predecessor false))
      else some t

/-- The maps `mvmPredecessorsOfMVMs` and `mvmSuccessorsOfMVMs`, the set `isVisited` and
the coalesced sets during the greedy phase of `Coalescer::coalesceMVMOperations`. -/
structure CoalesceLoop where
  c : Coalescer
  isVisited : List Nat
  preds : Nat → List Nat
  succs : Nat → List Nat

/-- The pair of statements `preds[t].insert(p); succs[p].insert(t);`. -/
def CoalesceLoop.relate (l : CoalesceLoop) (p t : Nat) : CoalesceLoop :=
  { l with preds := upd l.preds t (setInsert (l.preds t) p)
           succs := upd l.succs p (setInsert (l.succs p) t) }

/-- One of the two nested loops of the update in `Coalescer::coalesceMVMPredecessors`:
every predecessor of `src` becomes a predecessor of `dst` and of the successors of `dst`.
The outer loop runs over the predecessors of `src` at its start, the inner loop over the
successors of `dst` at its start. -/
def CoalesceLoop.makePredecessors (l : CoalesceLoop) (src dst : Nat) : CoalesceLoop :=
  (l.preds src).foldl (fun l p =>
    let l := l.relate p dst
    (l.succs dst).foldl (fun l s => l.relate p s) l) l

/-- The test `hasDataHazard` of `Coalescer::coalesceMVMPredecessors`. -/
def CoalesceLoop.hasDataHazard (l : CoalesceLoop) (mvm cs : Nat) : Bool :=
  (l.c.mvms cs).any (fun m =>
    match m with
    | some m => decide (m ∈ l.preds mvm) || decide (m ∈ l.succs mvm)
    | Option.none => false)

/-- The search loop of `Coalescer::coalesceMVMPredecessors` over the sets of the core. -/
def CoalesceLoop.findCandidate (l : CoalesceLoop) (mvm pMVMU : Nat) :
    List Nat → Option (Option Nat)
  | [] => some Option.none
  | cs :: rest =>
    (l.c.usesPMVMU cs pMVMU).bind fun uses =>
      if !uses && !l.hasDataHazard mvm cs then some (some cs)
      else l.findCandidate mvm pMVMU rest

/-- The body of `if(mvm->getCoalescedSet() == NULL)` in
`Coalescer::coalesceMVMPredecessors`. -/
def CoalesceLoop.coalesce (P : Placer) (pt : Partitioner) (l : CoalesceLoop) (mvm : Nat) :
    Option CoalesceLoop :=
  (P.coreIndex pt mvm).bind fun idx =>
  (l.c.coalescedMVMSets[idx]?).bind fun coreCoalescedSets =>
  (P.getPMVMU pt mvm).bind fun pMVMU =>
  (l.findCandidate mvm pMVMU coreCoalescedSets).bind fun found =>
  (match found with
    | some cs => some (l, cs)
    | Option.none =>
      let n := l.c.newMVMSet
      (pushAt n.2.coalescedMVMSets idx n.1).map fun v =>
        ({ l with c := { n.2 with coalescedMVMSets := v } }, n.1)).bind
  fun (r : CoalesceLoop × Nat) =>
  let l := (r.1.c.mvms r.2).foldl (fun (l : CoalesceLoop) m =>
    match m with
    | some m => (l.makePredecessors mvm m).makePredecessors m mvm
    | Option.none => l) r.1
  (l.c.addMVM r.2 mvm pMVMU).map fun (c : Coalescer) => { l with c := c }

/-- `Coalescer::coalesceMVMPredecessors`; the first argument bounds the depth of the
recursion. -/
def coalesceMVMPredecessors (g : Graph) (P : Placer) (pt : Partitioner) :
    Nat → Nat → CoalesceLoop → Option CoalesceLoop
  | 0, _, _ => Option.none
  | fuel + 1, op, l =>
    if op ∈ l.isVisited then some l
    else
      (if (g.cls op).isConsumer then
        ((g.operands op).foldlM (fun l predecessor =>
          coalesceMVMPredecessors g P pt fuel predecessor l) l).bind fun l =>
        if (g.cls op).isMVM then
          if (l.c.coalescedSet op).isNone then l.coalesce P pt op else some l
        else some l
      else some l).bind fun l =>
      (if (g.cls op).isTileMemoryRead then
        (g.srcs op).foldlM (fun l predecessor =>
          coalesceMVMPredecessors g P pt fuel predecessor l) l
      else some l).bind fun l =>
      (if g.cls op = OpClass.ReceiveOperation then
        (g.recvSrc op).bind fun predecessor =>
          coalesceMVMPredecessors g P pt fuel predecessor l
      else some l).map fun l => { l with isVisited := setInsert l.isVisited op }

/-- The loop "Extract useful information" of `Coalescer::coalesceMVMOperations`: the body
for the key `op` of the map `t`. The keys of the map are operations of the model. -/
def extractMVMRelation (g : Graph) (t : Nat → Option (List Nat)) (l : CoalesceLoop)
    (op : Nat) : CoalesceLoop :=
  match t op with
  | some predecessors =>
    if (g.cls op).isMVM then predecessors.foldl (fun l predMVM => l.relate predMVM op) l
    else l
  | Option.none => l

/-- The analysis of `Coalescer::coalesceMVMOperations` that follows the hint-based
phase: the map `mvmPredecessors`. -/
def analyzeMVMPredecessors (g : Graph) (c : Coalescer) (fuel : Nat) :
    Option (Nat → Option (List Nat)) :=
  g.operations.foldlM (fun t op =>
    if g.cls op = OpClass.ReadOutputOperation then findMVMPredecessors g c fuel op t
    else some t) (fun _ => Option.none)

/-- `Coalescer::coalesceMVMOperations`. `coalesceableMVMSets` is the vector of hint sets
recorded by the front end. -/
def coalesceMVMOperations (g : Graph) (P : Placer) (pt : Partitioner) (fuel : Nat)
    (coalesceableMVMSets : List (List Nat)) : Option CoalesceLoop :=
  let c0 : Coalescer := { Coalescer.none with
    coalescedMVMSets := List.replicate P.nPCores [] }
  (coalesceableMVMSets.foldlM (coalesceHintSet P pt) c0).bind fun (c : Coalescer) =>
  (analyzeMVMPredecessors g c fuel).bind fun t =>
  let l0 : CoalesceLoop := g.operations.foldl (extractMVMRelation g t)
    { c := c, isVisited := [], preds := fun _ => [], succs := fun _ => [] }
  g.operations.foldlM (fun l op =>
    if g.cls op = OpClass.ReadOutputOperation then coalesceMVMPredecessors g P pt fuel op l
    else some l) l0

/-- `Coalescer::findImmediateTrainingOperationPredecessors`; the first argument bounds the
depth of the recursion. -/
def findImmediateTrainingOperationPredecessors (g : Graph) :
    Nat → Nat → List Nat → Option (List Nat)
  | 0, _, _ => Option.none
  | fuel + 1, op, foundSet =>
    (if (g.cls op).isConsumer then
      (g.operands op).foldlM (fun foundSet predecessor =>
        if (g.cls predecessor).isTraining then some (setInsert foundSet predecessor)
        else findImmediateTrainingOperationPredecessors g fuel predecessor foundSet) foundSet
    else some foundSet).bind fun foundSet =>
    (if (g.cls op).isTileMemoryRead then
      (g.srcs op).foldlM (fun foundSet predecessor =>
        findImmediateTrainingOperationPredecessors g fuel predecessor foundSet) foundSet
    else some foundSet).bind fun foundSet =>
    if g.cls op = OpClass.ReceiveOperation then
      (g.recvSrc op).bind fun predecessor =>
        findImmediateTrainingOperationPredecessors g fuel predecessor foundSet
    else some foundSet

/-- `Coalescer::findAllTrainingOperationPredecessors`; the first argument bounds the depth
of the recursion. -/
def findAllTrainingOperationPredecessors (immediate : Nat → List Nat) :
    Nat → Nat → List Nat → Option (List Nat)
  | 0, _, _ => Option.none
  | fuel + 1, trainOp, foundSet =>
    (immediate trainOp).foldlM (fun foundSet predecessor =>
      findAllTrainingOperationPredecessors immediate fuel predecessor
        (setInsert foundSet predecessor)) foundSet

/-- The test `hasDataHazard` of `Coalescer::coalesceTrainingOperationPredecessors`. -/
def CoalesceLoop.hasTrainingDataHazard (l : CoalesceLoop) (trainOp cs : Nat) : Bool :=
  (l.c.trainOps cs).any (fun t =>
    match t with
    | some t => decide (t ∈ l.preds trainOp) || decide (t ∈ l.succs trainOp)
    | Option.none => false)

/-- The search loop of `Coalescer::coalesceTrainingOperationPredecessors`. -/
def CoalesceLoop.findTrainingCandidate (l : CoalesceLoop) (trainOp pMVMU : Nat)
    (opType : OpType) : List Nat → Option (Option Nat)
  | [] => some Option.none
  | cs :: rest =>
    (l.c.usesPMVMUForOp cs pMVMU opType).bind fun uses =>
      if !uses && !l.hasTrainingDataHazard trainOp cs then some (some cs)
      else l.findTrainingCandidate trainOp pMVMU opType rest

/-- The body of `if(trainOp->getCoalescedSet() == NULL)` in
`Coalescer::coalesceTrainingOperationPredecessors`; `opType` is `trainOp->getOpType()`. -/
def CoalesceLoop.coalesceTraining (P : Placer) (pt : Partitioner) (l : CoalesceLoop)
    (trainOp : Nat) (opType : OpType) : Option CoalesceLoop :=
  (P.coreIndex pt trainOp).bind fun idx =>
  (l.c.coalescedTrainingOperationSets[idx]?).bind fun coreCoalescedSets =>
  (P.getPMVMU pt trainOp).bind fun pMVMU =>
  (l.findTrainingCandidate trainOp pMVMU opType coreCoalescedSets).bind fun found =>
  (match found with
    | some cs => some (l, cs)
    | Option.none =>
      let n := l.c.newTrainingSet
      (pushAt n.2.coalescedTrainingOperationSets idx n.1).map fun v =>
        ({ l with c := { n.2 with coalescedTrainingOperationSets := v } }, n.1)).bind
  fun (r : CoalesceLoop × Nat) =>
  let l := (r.1.c.trainOps r.2).foldl (fun (l : CoalesceLoop) t =>
    match t with
    | some t => (l.makePredecessors trainOp t).makePredecessors t trainOp
    | Option.none => l) r.1
  (l.c.addTraining r.2 trainOp pMVMU opType).map fun (c : Coalescer) => { l with c := c }

/-- `Coalescer::coalesceTrainingOperationPredecessors`; the first argument bounds the depth
of the recursion. -/
def coalesceTrainingOperationPredecessors (g : Graph) (P : Placer) (pt : Partitioner) :
    Nat → Nat → CoalesceLoop → Option CoalesceLoop
  | 0, _, _ => Option.none
  | fuel + 1, op, l =>
    if op ∈ l.isVisited then some l
    else
      (if (g.cls op).isConsumer then
        ((g.operands op).foldlM (fun l predecessor =>
          coalesceTrainingOperationPredecessors g P pt fuel predecessor l) l).bind fun l =>
        match g.cls op with
        | OpClass.TrainingMatrixOperation opType =>
          if (l.c.coalescedTrainingSet op).isNone then l.coalesceTraining P pt op opType
          else some l
        | _ => some l
      else some l).bind fun l =>
      (if (g.cls op).isTileMemoryRead then
        (g.srcs op).foldlM (fun l predecessor =>
          coalesceTrainingOperationPredecessors g P pt fuel predecessor l) l
      else some l).bind fun l =>
      (if g.cls op = OpClass.ReceiveOperation then
        (g.recvSrc op).bind fun predecessor =>
          coalesceTrainingOperationPredecessors g P pt fuel predecessor l
      else some l).map fun l => { l with isVisited := setInsert l.isVisited op }

/-- `Coalescer::coalesceTrainingOperations`. -/
def coalesceTrainingOperations (g : Graph) (P : Placer) (pt : Partitioner) (fuel : Nat) :
    Option CoalesceLoop :=
  let c0 : Coalescer := { Coalescer.none with
    coalescedTrainingOperationSets := List.replicate P.nPCores [] }
  (g.operations.foldlM (fun (imm : Nat → List Nat) op =>
    if (g.cls op).isTraining then
      (findImmediateTrainingOperationPredecessors g fuel op (imm op)).map fun s => upd imm op s
    else some imm) (fun _ => [])).bind fun immediate =>
  (g.operations.foldlM (fun (all : Nat → List Nat) op =>
    if (g.cls op).isTraining then
      (findAllTrainingOperationPredecessors immediate fuel op (all op)).map fun s =>
        upd all op s
    else some all) (fun _ => [])).bind fun predecessors =>
  let l0 : CoalesceLoop := g.operations.foldl (fun (l : CoalesceLoop) trainOp =>
      if (g.cls trainOp).isTraining then
        (predecessors trainOp).foldl (fun l predecessor =>
          let successors := setInsert (l.succs predecessor) trainOp
          { l with succs := upd l.succs predecessor successors }) l
      else l)
    { c := c0, isVisited := [], preds := predecessors, succs := fun _ => [] }
  g.operations.foldlM (fun l op =>
    if (g.cls op).isTraining then
      if g.cls op = OpClass.TrainingMatrixOperation OpType.OUTER_PRODUCT then
        coalesceTrainingOperationPredecessors g P pt fuel op l
      else some l
    else if g.cls op = OpClass.ReadOutputOperation then
      coalesceTrainingOperationPredecessors g P pt fuel op l
    else some l) l0

/-- The constructor `Coalescer::Coalescer`. -/
def Coalescer.create (g : Graph) (P : Placer) (pt : Partitioner) (fuel : Nat)
    (modelType : ModelType) (coalesceableMVMSets : List (List Nat)) : Option CoalesceLoop :=
  if modelType = ModelType.INFERENCE then
    coalesceMVMOperations g P pt fuel coalesceableMVMSets
  else coalesceTrainingOperations g P pt fuel

/-! ## Linearizer (`linearizer.cpp`) -/

/-- The members of `Linearizer`, the sets `isVisited` and `wasAddedEarly` of
`Linearizer::linearize`, and the DAG and partitioner that the linearizer modifies. -/
structure Linearizer where
  g : Graph
  pt : Partitioner
  isVisited : List Nat
  wasAddedEarly : List Nat
  coreOperationLists : List (List Nat)
  tileOperationLists : List (List Nat)

/-- `Linearizer::addToList`. -/
def Linearizer.addToList (P : Placer) (L : Linearizer) (op : Nat) : Option Linearizer :=
  if op ∈ L.isVisited then none
  else
    (if (L.g.cls op).isCore then
      (P.coreIndex L.pt op).bind fun idx =>
      (pushAt L.coreOperationLists idx op).map fun v => { L with coreOperationLists := v }
    else some L).bind fun (L : Linearizer) =>
    (if (L.g.cls op).isTile then
      (P.getPTile L.pt op).bind fun pTile =>
      (pushAt L.tileOperationLists pTile op).map fun v => { L with tileOperationLists := v }
    else some L).map fun (L : Linearizer) =>
    { L with isVisited := setInsert L.isVisited op }

/-- `Linearizer::addConsumersToList`. -/
def Linearizer.addConsumersToList (P : Placer) (L : Linearizer) (producer : Nat) :
    Option Linearizer :=
  let allConsumersCanBeAdded := (L.g.users producer).all fun consumer =>
    (L.g.operands consumer).all fun operand => decide (operand ∈ L.isVisited)
  if allConsumersCanBeAdded then
    (L.g.users producer).foldlM (fun (L : Linearizer) consumer =>
      if consumer ∈ L.wasAddedEarly then some L
      else (L.addToList P consumer).map fun (L : Linearizer) =>
        { L with wasAddedEarly := setInsert L.wasAddedEarly consumer }) L
  else
    let r := L.g.newCopy producer
    (L.pt.cloneAssignment producer r.1).bind fun (pt : Partitioner) =>
    (Linearizer.addToList P { L with g := r.2, pt := pt } r.1).map fun (L : Linearizer) =>
    (L.g.users producer).foldl (fun (L : Linearizer) consumer =>
      if consumer ≠ r.1 then { L with g := L.g.replaceOperand consumer producer r.1 }
      else L) L

/-- The second loop of the coalesced branches of `Linearizer::linearizeWithPredecessors`:
the body for operand `o` of the member `m`. -/
def Linearizer.addOperandToList (P : Placer) (m : Nat) (L : Linearizer) (o : Nat) :
    Option Linearizer :=
  ((L.g.operands m)[o]?).bind fun operand =>
  if operand ∈ L.wasAddedEarly then
    let r := L.g.newCopy operand
    (L.pt.cloneAssignment operand r.1).bind fun (pt : Partitioner) =>
    Linearizer.addToList P { L with g := r.2.replaceOperand m operand r.1, pt := pt } r.1
  else L.addToList P operand

/-- The members of a coalesced set that are not `NULL`, in slot order. -/
def members (slots : List (Option Nat)) : List Nat := slots.filterMap id

/-- `Linearizer::linearizeWithPredecessors`; the first argument bounds the depth of the
recursion. -/
def linearizeWithPredecessors (P : Placer) (c : Coalescer) :
    Nat → Nat → Bool → Linearizer → Option Linearizer
  | 0, _, _, _ => none
  | fuel + 1, op, addSelf, L =>
    if op ∈ L.isVisited then some L
    else if (L.g.cls op).isMVM then
      if !addSelf then none
      else match c.coalescedSet op with
      | some cs =>
        ((members (c.mvms cs)).foldlM (fun (L : Linearizer) m =>
          if (L.g.operands m).length = 1 then
            ((L.g.operands m)[0]?).bind fun operand =>
              linearizeWithPredecessors P c fuel operand false L
          else none) L).bind fun L =>
        ((members (c.mvms cs)).foldlM (fun (L : Linearizer) m =>
          if (L.g.operands m).length = 1 then L.addOperandToList P m 0 else none) L).bind
        fun L =>
        ((members (c.mvms cs)).foldlM (fun (L : Linearizer) m => L.addToList P m) L).bind
        fun L =>
        (members (c.mvms cs)).foldlM (fun (L : Linearizer) m => L.addConsumersToList P m) L
      | none =>
        if (L.g.operands op).length = 1 then
          ((L.g.operands op)[0]?).bind fun operand =>
          (linearizeWithPredecessors P c fuel operand true L).bind fun L =>
          (L.addToList P op).bind fun L => L.addConsumersToList P op
        else none
    else if (L.g.cls op).isTraining then
      if !addSelf then none
      else match c.coalescedTrainingSet op with
      | some cs =>
        ((members (c.trainOps cs)).foldlM (fun (L : Linearizer) t =>
          (List.range (L.g.operands t).length).foldlM (fun (L : Linearizer) o =>
            ((L.g.operands t)[o]?).bind fun operand =>
              linearizeWithPredecessors P c fuel operand false L) L) L).bind fun L =>
        ((members (c.trainOps cs)).foldlM (fun (L : Linearizer) t =>
          (List.range (L.g.operands t).length).foldlM (Linearizer.addOperandToList P t) L)
          L).bind fun L =>
        ((members (c.trainOps cs)).foldlM (fun (L : Linearizer) t => L.addToList P t) L).bind
        fun L =>
        (members (c.trainOps cs)).foldlM (fun (L : Linearizer) t => L.addConsumersToList P t) L
      | none =>
        ((List.range (L.g.operands op).length).foldlM (fun (L : Linearizer) o =>
          ((L.g.operands op)[o]?).bind fun operand =>
            linearizeWithPredecessors P c fuel operand true L) L).bind fun L =>
        (L.addToList P op).bind fun L => L.addConsumersToList P op
    else
      (if (L.g.cls op).isConsumer then
        (List.range (L.g.operands op).length).foldlM (fun (L : Linearizer) o =>
          ((L.g.operands op)[o]?).bind fun operand =>
            linearizeWithPredecessors P c fuel operand true L) L
      else some L).bind fun L =>
      (if (L.g.cls op).isTileMemoryRead then
        ((List.range (L.g.srcs op).length).foldlM (fun (L : Linearizer) i =>
          ((L.g.srcs op)[i]?).bind fun src =>
            linearizeWithPredecessors P c fuel src true L) L).bind fun L =>
        if op ∈ L.wasAddedEarly then none else some L
      else some L).bind fun L =>
      (if L.g.cls op = OpClass.ReceiveOperation then
        (L.g.recvSrc op).bind fun src =>
        (linearizeWithPredecessors P c fuel src true L).bind fun L =>
        if op ∈ L.wasAddedEarly then none else some L
      else some L).bind fun L =>
      if addSelf then
        if op ∈ L.wasAddedEarly then some L else L.addToList P op
      else some L

/-- The constructor `Linearizer::Linearizer` with `Linearizer::linearize`. The loop runs over
the operations present at its start: the operations the linearizer creates are Copies. -/
def Linearizer.create (g : Graph) (pt : Partitioner) (P : Placer) (c : Coalescer)
    (fuel : Nat) : Option Linearizer :=
  g.operations.foldlM (fun (L : Linearizer) op =>
    if (L.g.cls op).isTraining then
      if L.g.cls op = OpClass.TrainingMatrixOperation OpType.OUTER_PRODUCT then
        linearizeWithPredecessors P c fuel op true L
      else some L
    else if L.g.cls op = OpClass.ReadOutputOperation then
      linearizeWithPredecessors P c fuel op true L
    else some L)
    { g := g, pt := pt, isVisited := [], wasAddedEarly := [],
      coreOperationLists := List.replicate P.nPCores [],
      tileOperationLists := List.replicate P.nPTiles [] }

/-- `Linearizer::getCoreOperationList`. -/
def Linearizer.getCoreOperationList (L : Linearizer) (pTile pCore : Nat) : List Nat :=
  (L.coreOperationLists[(pTile * N_CORES_PER_TILE + pCore) % UINT_MOD]?).getD []

/-- The result of the passes up to linearization. -/
structure Compiled where
  P : Placer
  mem : MemoryAllocator
  c : Coalescer
  L : Linearizer

/-- `ModelImpl::compile` up to linearization, for the row-major, column-major and random
partitioning schemes. -/
def compileToLists (g : Graph) (fuel : Nat) (modelType : ModelType) (matTiles : List Nat)
    (tileUsers : Nat → List Nat) (coalesceableMVMSets : List (List Nat))
    (coalesceMVMOperations : Bool) : Option Compiled :=
  (Partitioner.create g fuel modelType matTiles tileUsers).bind fun (st : PState) =>
  (Placer.create modelType
    { nVMVMUs := st.pt.nVMVMUs, nVCores := st.pt.nVCores, nVTiles := st.pt.nVTiles,
      vmvmu2vcore := st.pt.vmvmu2vcore, vcore2vtile := st.pt.vcore2vtile }).bind
  fun (P : Placer) =>
  (MemoryAllocator.create st).bind fun (ms : MState) =>
  (if coalesceMVMOperations then
    (Coalescer.create ms.g P ms.pt fuel modelType coalesceableMVMSets).map fun l => l.c
   else some Coalescer.none).bind fun (c : Coalescer) =>
  (Linearizer.create ms.g ms.pt P c fuel).map fun (L : Linearizer) =>
    { P := P, mem := ms.mem, c := c, L := L }

/-! ## Register allocator (`regalloc.cpp`) -/

/-- The class `CoreAllocator`: the bit set `memPool_`. -/
structure CoreAllocator where
  memPool : Nat → Bool

/-- `CoreAllocator::OUT_OF_REGISTERS`. -/
def OUT_OF_REGISTERS : Nat := REGISTERS_PER_CORE

/-- The inner loop of `CoreAllocator::allocate`: the first `j` with `i ≤ j < i + n` whose bit
is set, and `i + n` when there is none. Reading a bit outside the bit set gives `none`. -/
def CoreAllocator.scan (a : CoreAllocator) : Nat → Nat → Option Nat
  | 0, j => some j
  | n + 1, j =>
    if j < REGISTERS_PER_CORE then
      if a.memPool j then some j else a.scan n (j + 1)
    else none

/-- The statements `memPool_.set(k)` for `i ≤ k < j`. -/
def CoreAllocator.setRange (a : CoreAllocator) (i j : Nat) : CoreAllocator :=
  { memPool := fun k => if i ≤ k ∧ k < j then true else a.memPool k }

/-- The outer loop of `CoreAllocator::allocate` from index `i` on; the first argument
bounds the number of iterations. `last` is `REGISTER_FILE_SIZE - size`. -/
def CoreAllocator.allocateFrom (a : CoreAllocator) (size last : Nat) :
    Nat → Nat → Option (Nat × CoreAllocator)
  | 0, _ => none
  | fuel + 1, i =>
    if i ≤ last then
      (a.scan size i).bind fun j =>
        if j = i + size then
          some ((REGISTER_FILE_START_ADDRESS + i) % UINT_MOD, a.setRange i j)
        else a.allocateFrom size last fuel (j + 1)
    else some (OUT_OF_REGISTERS, a)

/-- `CoreAllocator::allocate`. -/
def CoreAllocator.allocate (a : CoreAllocator) (size : Nat) : Option (Nat × CoreAllocator) :=
  a.allocateFrom size ((REGISTER_FILE_SIZE + UINT_MOD - size) % UINT_MOD)
    (REGISTERS_PER_CORE + 1) 0

/-- `CoreAllocator::free`. -/
def CoreAllocator.free (a : CoreAllocator) (reg size : Nat) : Option CoreAllocator :=
  let pos := (reg + UINT_MOD - REGISTER_FILE_START_ADDRESS) % UINT_MOD
  if (List.range size).all (fun k => decide (pos + k < REGISTERS_PER_CORE) && a.memPool (pos + k))
  then some { memPool := fun k => if pos ≤ k ∧ k < pos + size then false else a.memPool k }
  else none

/-- The class `SpillTracker`; `reloadKeys` lists the keys of `producer2reload` in
increasing order. -/
structure SpillTracker where
  producer2spill : Nat → Option Nat
  producer2reload : Nat → Option Nat
  reload2producer : Nat → Option Nat
  reloadKeys : List Nat

/-- `SpillTracker::setSpillOperation`. -/
def SpillTracker.setSpillOperation (s : SpillTracker) (producer store : Nat) :
    Option SpillTracker :=
  if (s.producer2spill producer).isSome then none
  else some { s with producer2spill := upd s.producer2spill producer (some store) }

/-- `SpillTracker::setLiveNowReload`. -/
def SpillTracker.setLiveNowReload (s : SpillTracker) (producer load : Nat) :
    Option SpillTracker :=
  if (s.producer2reload producer).isSome then none
  else some { s with producer2reload := upd s.producer2reload producer (some load)
                     reload2producer := upd s.reload2producer load (some producer)
                     reloadKeys := setInsert s.reloadKeys producer }

/-- `SpillTracker::killLiveNowReload`. -/
def SpillTracker.killLiveNowReload (s : SpillTracker) (load : Nat) : Option SpillTracker :=
  (s.reload2producer load).map fun producer =>
    { s with producer2reload := upd s.producer2reload producer none
             reload2producer := upd s.reload2producer load none
             reloadKeys := setErase s.reloadKeys producer }

/-- The members of `RegisterAllocator`. -/
structure RegisterAllocator where
  op2reg : Nat → Option Nat
  numLoadsFromSpilling : Nat
  numStoresFromSpilling : Nat
  numUnspilledRegAccesses : Nat
  numSpilledRegAccesses : Nat

/-- `RegisterAllocator::assignRegister`. -/
def RegisterAllocator.assignRegister (ra : RegisterAllocator) (producer reg : Nat) :
    Option RegisterAllocator :=
  if (ra.op2reg producer).isSome then none
  else some { ra with op2reg := upd ra.op2reg producer (some reg) }

/-- `RegisterAllocator::getRegister`. -/
def RegisterAllocator.getRegister (ra : RegisterAllocator) (producer : Nat) : Option Nat :=
  ra.op2reg producer

/-- `RegisterAllocator::readsFromReservedInputRegister`. -/
def readsFromReservedInputRegister (g : Graph) (consumer : Nat) : Bool :=
  (g.cls consumer).isMVM || (g.cls consumer).isTraining

/-- `RegisterAllocator::producerDoesNotWriteToRegister`. -/
def producerDoesNotWriteToRegister (g : Graph) (producer : Nat) : Bool :=
  decide (g.cls producer = OpClass.TrainingMatrixOperation OpType.OUTER_PRODUCT)

/-- `RegisterAllocator::writesToReservedOutputRegister`. -/
def writesToReservedOutputRegister (g : Graph) (producer : Nat) : Bool :=
  (g.cls producer).isMVM
    || ((g.cls producer).isTraining && !producerDoesNotWriteToRegister g producer)

/-- The register that `RegisterAllocator::assignReservedInputRegister` computes for
`producer`, whose single user is `consumer` on physical MVMU `pMVMU`. -/
def reservedInputRegister (g : Graph) (producer consumer pMVMU : Nat) : Option Nat :=
  match g.cls consumer with
  | OpClass.MVMOperation =>
    some ((INPUT_REGISTERS_START_ADDRESS + pMVMU * MVMU_DIM) % UINT_MOD)
  | OpClass.TrainingMatrixOperation OpType.MVM =>
    some ((INPUT_REGISTERS_START_ADDRESS + pMVMU * N_TRAINING_OPERATIONS * MVMU_DIM) % UINT_MOD)
  | OpClass.TrainingMatrixOperation OpType.MVM_TRANSPOSE =>
    some ((INPUT_REGISTERS_START_ADDRESS + (pMVMU * N_TRAINING_OPERATIONS + 1) * MVMU_DIM)
      % UINT_MOD)
  | OpClass.TrainingMatrixOperation OpType.OUTER_PRODUCT =>
    if (g.operands consumer)[0]? = some producer then
      some ((INPUT_REGISTERS_START_ADDRESS + (pMVMU * N_TRAINING_OPERATIONS + 2) * MVMU_DIM)
        % UINT_MOD)
    else if (g.operands consumer)[1]? = some producer then
      some ((OUTPUT_REGISTERS_START_ADDRESS + (pMVMU * N_TRAINING_OPERATIONS + 2) * MVMU_DIM)
        % UINT_MOD)
    else none
  | _ => none

/-- `RegisterAllocator::assignReservedInputRegister`. -/
def assignReservedInputRegister (g : Graph) (pt : Partitioner) (P : Placer)
    (ra : RegisterAllocator) (producer : Nat) : Option RegisterAllocator :=
  if writesToReservedOutputRegister g producer then none
  else if (g.users producer).length ≠ 1 then none
  else
    ((g.users producer)[0]?).bind fun consumer =>
    (if (g.cls consumer).isMVM || (g.cls consumer).isTraining then P.getPMVMU pt consumer
     else none).bind fun pMVMU =>
    (reservedInputRegister g producer consumer pMVMU).bind fun reg =>
    ra.assignRegister producer reg

/-- The register that `RegisterAllocator::assignReservedOutputRegister` computes. -/
def reservedOutputRegister (g : Graph) (producer pMVMU : Nat) : Option Nat :=
  match g.cls producer with
  | OpClass.MVMOperation =>
    some ((OUTPUT_REGISTERS_START_ADDRESS + pMVMU * MVMU_DIM) % UINT_MOD)
  | OpClass.TrainingMatrixOperation OpType.MVM =>
    some ((OUTPUT_REGISTERS_START_ADDRESS + pMVMU * N_TRAINING_OPERATIONS * MVMU_DIM) % UINT_MOD)
  | OpClass.TrainingMatrixOperation OpType.MVM_TRANSPOSE =>
    some ((OUTPUT_REGISTERS_START_ADDRESS + (pMVMU * N_TRAINING_OPERATIONS + 1) * MVMU_DIM)
      % UINT_MOD)
  | _ => none

/-- `RegisterAllocator::assignReservedOutputRegister`. -/
def assignReservedOutputRegister (g : Graph) (pt : Partitioner) (P : Placer)
    (ra : RegisterAllocator) (producer : Nat) : Option RegisterAllocator :=
  if !writesToReservedOutputRegister g producer then none
  else
    (if (g.cls producer).isMVM || (g.cls producer).isTraining then P.getPMVMU pt producer
     else none).bind fun pMVMU =>
    (reservedOutputRegister g producer pMVMU).bind fun reg =>
    ra.assignRegister producer reg

/-- The conflict check of the two reserved-register passes: `none` when a producer of
`liveNow` other than `producer` has the register of `producer`. -/
def checkNoConflict (ra : RegisterAllocator) (liveNow : List Nat) (producer : Nat) :
    Option Unit :=
  liveNow.foldlM (fun _ p =>
    (ra.getRegister p).bind fun rp =>
    (ra.getRegister producer).bind fun r =>
    if p ≠ producer ∧ rp = r then none else some ()) ()

/-- The state of the loops of the reserved-register passes. -/
structure ReservedLoop where
  ra : RegisterAllocator
  liveNow : List Nat

/-- The body of the loop of `RegisterAllocator::allocateReservedInputRegisters`. -/
def allocateReservedInputRegistersAt (g : Graph) (pt : Partitioner) (P : Placer)
    (l : ReservedLoop) (op : Nat) : Option ReservedLoop :=
  let l : ReservedLoop :=
    if (g.cls op).isProducer then { l with liveNow := setErase l.liveNow op } else l
  if (g.cls op).isConsumer && readsFromReservedInputRegister g op then
    (g.operands op).foldlM (fun (l : ReservedLoop) producer =>
      if producer ∈ l.liveNow then some l
      else
        let liveNow := setInsert l.liveNow producer
        (assignReservedInputRegister g pt P l.ra producer).bind fun ra =>
        (checkNoConflict ra liveNow producer).map fun _ => { ra := ra, liveNow := liveNow }) l
  else some l

/-- `RegisterAllocator::allocateReservedInputRegisters` on the list of one core. -/
def allocateReservedInputRegisters (g : Graph) (pt : Partitioner) (P : Placer)
    (ra : RegisterAllocator) (coreOperationList : List Nat) : Option RegisterAllocator :=
  (coreOperationList.reverse.foldlM (allocateReservedInputRegistersAt g pt P)
    { ra := ra, liveNow := [] }).map fun l => l.ra

/-- The body of the loop of `RegisterAllocator::allocateReservedOutputRegisters`. -/
def allocateReservedOutputRegistersAt (g : Graph) (pt : Partitioner) (P : Placer)
    (l : ReservedLoop) (op : Nat) : Option ReservedLoop :=
  let l : ReservedLoop :=
    if (g.cls op).isProducer then { l with liveNow := setErase l.liveNow op } else l
  if (g.cls op).isConsumer then
    (g.operands op).foldlM (fun (l : ReservedLoop) producer =>
      if writesToReservedOutputRegister g producer then
        if producer ∈ l.liveNow then some l
        else
          let liveNow := setInsert l.liveNow producer
          (assignReservedOutputRegister g pt P l.ra producer).bind fun ra =>
          (checkNoConflict ra liveNow producer).map fun _ => { ra := ra, liveNow := liveNow }
      else some l) l
  else some l

/-- `RegisterAllocator::allocateReservedOutputRegisters` on the list of one core. -/
def allocateReservedOutputRegisters (g : Graph) (pt : Partitioner) (P : Placer)
    (ra : RegisterAllocator) (coreOperationList : List Nat) : Option RegisterAllocator :=
  (coreOperationList.reverse.foldlM (allocateReservedOutputRegistersAt g pt P)
    { ra := ra, liveNow := [] }).map fun l => l.ra

/-! ## Closed forms used in the statements about the roll-up and the placer -/

/-- Closed form of the roll-up tables: unit `v` of the lower level goes to unit
`(v - 2) / k + 2` of the upper level, the reserved units 0 and 1 to themselves. -/
def rollOf (k v : Nat) : Nat := if v < 2 then v else (v - 2) / k + 2

/-- Closed form of the index of a unit among the units that share its parent. -/
def slotOf (k v : Nat) : Nat := if v < 2 then 0 else (v - 2) % k

/-- Closed form of the counter of parent `t` after the units `0, ..., c - 1` were placed;
the parents are numbered `0`, `one` and from `base` on. -/
def cntOf (k one base c t : Nat) : Nat :=
  if t = 0 then min c 1 else if t = one then min (c - 1) 1
  else if base ≤ t then min k (c - (k * (t - base) + 2)) else 0

/-! ## Example programs -/

/-- One operation of a graph given as a list. -/
structure OpSpec where
  id : Nat
  cls : OpClass
  operands : List Nat := []
  srcs : List Nat := []
  recvSrc : Option Nat := none
  length : Nat := 128
  imm : Nat := 0
  mat : Nat := 0
  ioTile : Nat := 0

/-- The graph that the constructors of the operations in `ops` build. -/
def Graph.ofList (ops : List OpSpec) : Graph :=
  let look (i : Nat) : Option OpSpec := ops.find? (fun o => o.id == i)
  { operations := ops.foldl (fun l o => setInsert l o.id) []
    cls := fun i => match look i with
      | some o => o.cls
      | none => OpClass.PseudoInputOperation
    length := fun i => match look i with
      | some o => o.length
      | none => 0
    operands := fun i => match look i with
      | some o => o.operands
      | none => []
    users := fun i => ops.foldl (fun l o => if i ∈ o.operands then setInsert l o.id else l) []
    srcs := fun i => match look i with
      | some o => o.srcs
      | none => []
    readers := fun i => ops.foldl (fun l o => if i ∈ o.srcs then setInsert l o.id else l) []
    recvSrc := fun i => match look i with
      | some o => o.recvSrc
      | none => none
    sendDst := fun i => (ops.find? (fun o => o.recvSrc == some i)).map (fun o => o.id)
    imm := fun i => match look i with
      | some o => o.imm
      | none => 0
    mat := fun i => match look i with
      | some o => o.mat
      | none => 0
    ioTile := fun i => match look i with
      | some o => o.ioTile
      | none => 0
    fresh := ops.foldl (fun m o => max m (o.id + 1)) 0 }


/-- The DAG that the front end builds for the program
`a = p + q; out1 = M * a; out2 = sig(a)` with input vectors `p`, `q` and a one-tile
constant matrix `M`: 1 and 2 are the pseudo inputs, 3 is the ADD, 4 the MVM, 5 the SIG, 6
and 7 the pseudo outputs. -/
def sharedSumGraph : Graph := Graph.ofList
  [ { id := 1, cls := OpClass.PseudoInputOperation, ioTile := 0 },
    { id := 2, cls := OpClass.PseudoInputOperation, ioTile := 1 },
    { id := 3, cls := OpClass.ALUVectorOperation, operands := [1, 2] },
    { id := 4, cls := OpClass.MVMOperation, operands := [3], mat := 0 },
    { id := 5, cls := OpClass.ALUVectorOperation, operands := [3] },
    { id := 6, cls := OpClass.PseudoOutputOperation, operands := [4], ioTile := 0 },
    { id := 7, cls := OpClass.PseudoOutputOperation, operands := [5], ioTile := 1 } ]

/-- The users of the matrix tiles of `sharedSumGraph`. -/
def sharedSumTileUsers : Nat → List Nat := fun t => if t = 0 then [4] else []

/-- The DAG that the front end builds for the program
`a = A * x; b = B * x; out1 = a + b; out2 = b + z` with input vectors `x`, `z` and one-tile
constant matrices `A`, `B`: 1 is the pseudo input of `x`, 2 and 3 are the MVMs, 4 is
`a + b`, 6 the pseudo input of `z`, 7 is `b + z`, 5 and 8 are the pseudo outputs. -/
def twoSumsGraph : Graph := Graph.ofList
  [ { id := 1, cls := OpClass.PseudoInputOperation, ioTile := 0 },
    { id := 2, cls := OpClass.MVMOperation, operands := [1], mat := 0 },
    { id := 3, cls := OpClass.MVMOperation, operands := [1], mat := 1 },
    { id := 4, cls := OpClass.ALUVectorOperation, operands := [2, 3] },
    { id := 5, cls := OpClass.PseudoOutputOperation, operands := [4], ioTile := 0 },
    { id := 6, cls := OpClass.PseudoInputOperation, ioTile := 1 },
    { id := 7, cls := OpClass.ALUVectorOperation, operands := [3, 6] },
    { id := 8, cls := OpClass.PseudoOutputOperation, operands := [7], ioTile := 1 } ]

/-- The users of the matrix tiles of `twoSumsGraph`. -/
def twoSumsTileUsers : Nat → List Nat :=
  fun t => if t = 0 then [2] else if t = 1 then [3] else []

/-- The DAG that the front end builds for the program
`y = M0 * x; out = M1 * sig(y) + M1 * y` with an input vector `x` and one-tile constant
matrices `M0`, `M1`: 1 is the pseudo input, 2 is `M0 * x`, 3 is `sig(y)`, 4 is
`M1 * sig(y)`, 5 is `M1 * y`, 6 is the ADD, 7 the pseudo output. -/
def reusedMatrixGraph : Graph := Graph.ofList
  [ { id := 1, cls := OpClass.PseudoInputOperation, ioTile := 0 },
    { id := 2, cls := OpClass.MVMOperation, operands := [1], mat := 0 },
    { id := 3, cls := OpClass.ALUVectorOperation, operands := [2] },
    { id := 4, cls := OpClass.MVMOperation, operands := [3], mat := 1 },
    { id := 5, cls := OpClass.MVMOperation, operands := [2], mat := 1 },
    { id := 6, cls := OpClass.ALUVectorOperation, operands := [4, 5] },
    { id := 7, cls := OpClass.PseudoOutputOperation, operands := [6], ioTile := 0 } ]

/-- The users of the matrix tiles of `reusedMatrixGraph`. -/
def reusedMatrixTileUsers : Nat → List Nat :=
  fun t => if t = 0 then [2] else if t = 1 then [4, 5] else []

/-- A register allocator that has assigned no register yet. -/
def RegisterAllocator.empty : RegisterAllocator :=
  { op2reg := fun _ => none, numLoadsFromSpilling := 0, numStoresFromSpilling := 0,
    numUnspilledRegAccesses := 0, numSpilledRegAccesses := 0 }

/-- The DAG `reusedMatrixGraph` with every operation on virtual MVMU 0, as a state of the
partitioner. -/
def reusedMatrixState : PState :=
  { g := reusedMatrixGraph,
    pt := { nVMVMUs := 1, nVCores := 1, nVTiles := 1,
            op2vmvmu := fun i => if i < 8 then some 0 else none,
            mat2vmvmu := fun _ => some 0,
            vmvmu2vcore := [0], vcore2vtile := [0],
            numLoads := 0, numStores := 0, numSends := 0, numReceives := 0 } }

/-! ## Properties of the coalesced sets used in the statements about the coalescer -/

/-- Every occupied slot `i` of every coalesced MVM set `s` holds an MVM whose physical MVMU
is `i` and whose back link is `s`. -/
def Coalescer.mvmSlotsAgree (P : Placer) (pt : Partitioner) (c : Coalescer) : Prop :=
  ∀ s i m, (c.mvms s)[i]? = some (some m) →
    P.getPMVMU pt m = some i ∧ c.coalescedSet m = some s

/-- Every occupied slot `i` of every coalesced training set `s` holds a training operation
with `pMVMU*N_TRAINING_OPERATIONS + opType = i` in unsigned arithmetic, whose back link is
`s`. -/
def Coalescer.trainingSlotsAgree (g : Graph) (P : Placer) (pt : Partitioner)
    (c : Coalescer) : Prop :=
  ∀ s i t, (c.trainOps s)[i]? = some (some t) →
    ∃ pMVMU opType, P.getPMVMU pt t = some pMVMU
      ∧ g.cls t = OpClass.TrainingMatrixOperation opType
      ∧ (pMVMU * N_TRAINING_OPERATIONS + opType.toNat) % UINT_MOD = i
      ∧ c.coalescedTrainingSet t = some s

/-- The DAG `reusedMatrixGraph` with operation `i` on virtual MVMU `i % 3`, each virtual
MVMU on a virtual core and a virtual tile of its own, as a state of the partitioner: the
producer 2 has the consumer 5 on its core and the consumer 3 on another core. -/
def spreadState : PState :=
  { g := reusedMatrixGraph,
    pt := { nVMVMUs := 3, nVCores := 3, nVTiles := 3,
            op2vmvmu := fun i => if 1 ≤ i ∧ i < 8 then some (i % 3) else none,
            mat2vmvmu := fun _ => none,
            vmvmu2vcore := [0, 1, 2], vcore2vtile := [0, 1, 2],
            numLoads := 0, numStores := 0, numSends := 0, numReceives := 0 } }

/-! ## Properties of the DAG used in the statements about the legalization passes -/

/-- The operand edges of the DAG are well formed and every operation is placed on a virtual
core: the operations lie below the next fresh address, fresh addresses carry no virtual
MVMU, operands are producers of the model, users are operations of the model, the user sets
are the inverse of the operand vectors, and every operation has a virtual core. -/
structure PState.OperandsLinked (s : PState) : Prop where
  lt_fresh : ∀ i, i ∈ s.g.operations → i < s.g.fresh
  unassigned : ∀ i, s.g.fresh ≤ i → s.pt.op2vmvmu i = none
  operands_mem : ∀ c p, c ∈ s.g.operations → p ∈ s.g.operands c →
    p ∈ s.g.operations ∧ (s.g.cls p).isProducer = true
  users_mem : ∀ p c, p ∈ s.g.operations → c ∈ s.g.users p → c ∈ s.g.operations
  inverse : ∀ c p, c ∈ s.g.operations → p ∈ s.g.operations →
    (c ∈ s.g.users p ↔ p ∈ s.g.operands c)
  assigned : ∀ i, i ∈ s.g.operations → ∃ v, s.pt.getVCore i = some v

/-- The state of the loop over the users of the producer `P` (on virtual core `vp`) in
`insertLoadsAndStores`, related to the state `s0` at the start of the loop after the users
in `seen` were visited: the DAG stays well formed, nothing that existed before changes
except the operands of the remote users visited and the users of `P`, and the only new
operations are the Store in `store` and the Loads in `loads`. -/
structure LoadStoreInv (s0 : PState) (P vp : Nat) (st : PState) (store : Option Nat)
    (loads : Nat → Option Nat) (seen : List Nat) : Prop where
  wf : st.OperandsLinked
  fresh_le : s0.g.fresh ≤ st.g.fresh
  tables : st.pt.vmvmu2vcore = s0.pt.vmvmu2vcore
  old_assign : ∀ i, i < s0.g.fresh → st.pt.op2vmvmu i = s0.pt.op2vmvmu i
  old_cls : ∀ i, i < s0.g.fresh → st.g.cls i = s0.g.cls i
  old_srcs : ∀ i, i < s0.g.fresh → st.g.srcs i = s0.g.srcs i
  old_users : ∀ q, q < s0.g.fresh → q ≠ P → st.g.users q = s0.g.users q
  ops_old : ∀ i, i ∈ s0.g.operations → i ∈ st.g.operations
  ops_new : ∀ i, i ∈ st.g.operations → i ∈ s0.g.operations ∨ s0.g.fresh ≤ i
  seen_sub : ∀ c, c ∈ seen → c ∈ s0.g.users P
  store_some : ∀ S, store = some S →
    s0.g.fresh ≤ S ∧ S ∈ st.g.operations ∧ st.g.cls S = OpClass.StoreOperation
      ∧ st.g.operands S = [P] ∧ st.pt.op2vmvmu S = s0.pt.op2vmvmu P
      ∧ ∃ c, c ∈ s0.g.users P ∧ s0.pt.getVCore c ≠ some vp
  loads_some : ∀ vc L, loads vc = some L →
    s0.g.fresh ≤ L ∧ L ∈ st.g.operations ∧ st.g.cls L = OpClass.LoadOperation
      ∧ st.g.operands L = [] ∧ (∃ S, store = some S ∧ st.g.srcs L = [S])
      ∧ st.pt.getVCore L = some vc ∧ vc ≠ vp
      ∧ ∀ c, c ∈ st.g.users L → s0.pt.getVCore c = some vc
  new_ops : ∀ n, s0.g.fresh ≤ n → n ∈ st.g.operations →
    store = some n ∨ ∃ vc, loads vc = some n
  operands_same : ∀ c, c < s0.g.fresh → (c ∉ seen ∨ s0.pt.getVCore c = some vp) →
    st.g.operands c = s0.g.operands c
  operands_remote : ∀ c vc, c ∈ seen → s0.pt.getVCore c = some vc → vc ≠ vp →
    ∃ L, loads vc = some L
      ∧ st.g.operands c = (s0.g.operands c).map (fun x => if x = P then L else x)
  users_P : ∀ c, c ∈ st.g.users P → c ∈ s0.g.users P ∨ store = some c

/-- The state `s` of `insertLoadsAndStores` after the producers in `done` were visited,
related to the state `st` at the start of the pass. -/
structure LoadStorePass (st s : PState) (done : List Nat) : Prop where
  wf : s.OperandsLinked
  old_lt : ∀ i, i ∈ st.g.operations → i < st.g.fresh
  fresh_le : st.g.fresh ≤ s.g.fresh
  tables : s.pt.vmvmu2vcore = st.pt.vmvmu2vcore
  old_assign : ∀ i, i < st.g.fresh → s.pt.op2vmvmu i = st.pt.op2vmvmu i
  old_cls : ∀ i, i < st.g.fresh → s.g.cls i = st.g.cls i
  ops_old : ∀ i, i ∈ st.g.operations → i ∈ s.g.operations
  ops_new : ∀ i, i ∈ s.g.operations → i ∈ st.g.operations ∨ st.g.fresh ≤ i
  done_sub : ∀ q, q ∈ done → q ∈ st.g.operations
  users_local : ∀ q c, q ∈ done → c ∈ s.g.users q → s.pt.getVCore c = s.pt.getVCore q
  new_ops : ∀ n, st.g.fresh ≤ n → n ∈ s.g.operations →
    (s.g.cls n = OpClass.StoreOperation ∧ ∃ q, q ∈ done ∧ s.g.operands n = [q]
      ∧ s.pt.op2vmvmu n = st.pt.op2vmvmu q)
    ∨ (s.g.cls n = OpClass.LoadOperation ∧ s.g.operands n = []
      ∧ (∃ S, s.g.srcs n = [S] ∧ S ∈ s.g.operations)
      ∧ ∀ c, c ∈ s.g.users n → s.pt.getVCore c = s.pt.getVCore n)
  operands : ∀ (c j q : Nat), c ∈ st.g.operations → (st.g.operands c)[j]? = some q →
    (s.g.operands c)[j]? = some q
    ∨ (st.pt.getVCore q ≠ st.pt.getVCore c
      ∧ ∃ (L S : Nat), (s.g.operands c)[j]? = some L
        ∧ st.g.fresh ≤ L ∧ L ∈ s.g.operations ∧ s.g.cls L = OpClass.LoadOperation
        ∧ s.g.srcs L = [S]
        ∧ st.g.fresh ≤ S ∧ S ∈ s.g.operations ∧ s.g.cls S = OpClass.StoreOperation
        ∧ s.g.operands S = [q] ∧ s.pt.op2vmvmu S = st.pt.op2vmvmu q
        ∧ s.pt.getVCore L = st.pt.getVCore c)
  stores_unique : ∀ S1 S2, st.g.fresh ≤ S1 → st.g.fresh ≤ S2 →
    S1 ∈ s.g.operations → S2 ∈ s.g.operations →
    s.g.cls S1 = OpClass.StoreOperation → s.g.cls S2 = OpClass.StoreOperation →
    s.g.operands S1 = s.g.operands S2 → S1 = S2
  loads_unique : ∀ L1 L2, st.g.fresh ≤ L1 → st.g.fresh ≤ L2 →
    L1 ∈ s.g.operations → L2 ∈ s.g.operations →
    s.g.cls L1 = OpClass.LoadOperation → s.g.cls L2 = OpClass.LoadOperation →
    s.g.srcs L1 = s.g.srcs L2 → s.pt.getVCore L1 = s.pt.getVCore L2 → L1 = L2

/-! ## Code generator (`codegen.cpp`) -/

/-- The character that `ss << 1` or `ss << 0` writes. -/
def bitChar (b : Bool) : Char := if b then '1' else '0'

/-- `CoalescedTrainingOperationSet::isSetLeader`; the assertion fails on a set without
member. -/
def Coalescer.isSetLeaderTraining (c : Coalescer) (s trainOp : Nat) : Option Bool :=
  ((c.trainOps s).find? (fun t => t.isSome)).map (fun t => t == some trainOp)

/-- `CodeGenerator::codegen(CoalescedMVMSet*)`. -/
def codegenCoalescedMVMSet (c : Coalescer) (s : Nat) : Option String :=
  ((List.range N_CONSTANT_MVMUS_PER_CORE).mapM fun i =>
    (c.usesPMVMU s i).map bitChar).map fun bits =>
  "mvm(['" ++ String.mk bits ++ "'])\n"

/-- The integer value `t` cast to `TrainingMatrixOperation::OpType`, for `t` below
`N_TRAINING_OPERATIONS`. -/
def OpType.cast : Nat → OpType
  | 0 => OpType.MVM
  | 1 => OpType.MVM_TRANSPOSE
  | _ => OpType.OUTER_PRODUCT

/-- `CodeGenerator::codegen(CoalescedTrainingOperationSet*)`. -/
def codegenCoalescedTrainingSet (c : Coalescer) (s : Nat) : Option String :=
  ((List.range N_TRAINING_MVMUS_PER_CORE).mapM fun pMVMU =>
    ((List.range N_TRAINING_OPERATIONS).mapM fun t =>
      (c.usesPMVMUForOp s pMVMU (OpType.cast t)).map bitChar).map fun bits =>
    "'" ++ String.mk bits ++ "'").map fun parts =>
  "train([" ++ String.join parts ++ "])\n"

/-- `CodeGenerator::codegen(MVMOperation*)`. -/
def codegenMVM (P : Placer) (pt : Partitioner) (c : Coalescer) (mvm : Nat) : Option String :=
  match c.coalescedSet mvm with
  | some s =>
    (c.isSetLeaderMVM s mvm).bind fun leader =>
      if leader then codegenCoalescedMVMSet c s else some ""
  | none =>
    ((List.range N_CONSTANT_MVMUS_PER_CORE).mapM fun i =>
      (P.getPMVMU pt mvm).map fun pMVMU => bitChar (i == pMVMU)).map fun bits =>
    "mvm(['" ++ String.mk bits ++ "'])\n"

/-- `CodeGenerator::codegen(TrainingMatrixOperation*)`; `opType` is `trainOp->getOpType()`.
In the branch of an operation without coalesced set the source writes the opening quote of
each group of bits and no closing quote. -/
def codegenTraining (P : Placer) (pt : Partitioner) (c : Coalescer) (trainOp : Nat)
    (opType : OpType) : Option String :=
  match c.coalescedTrainingSet trainOp with
  | some s =>
    (c.isSetLeaderTraining s trainOp).bind fun leader =>
      if leader then codegenCoalescedTrainingSet c s else some ""
  | none =>
    ((List.range N_TRAINING_MVMUS_PER_CORE).mapM fun pMVMU =>
      ((List.range N_TRAINING_OPERATIONS).mapM fun t =>
        (P.getPMVMU pt trainOp).map fun p =>
          bitChar (pMVMU == p && OpType.cast t == opType)).map fun bits =>
      "'" ++ String.mk bits).map fun parts =>
    "train([" ++ String.join parts ++ "])\n"

/-- The loop `for(width = max; !(length % width == 0); --width);` of the code generators of
Load, Store, Send and Receive, started at `width`. The remainder by zero is undefined. -/
def searchWidth (length : Nat) : Nat → Option Nat
  | 0 => none
  | width + 1 => if length % (width + 1) = 0 then some (width + 1) else searchWidth length width

/-- `CodeGenerator::codegen(LoadOperation*)`. -/
def codegenLoad (g : Graph) (ra : RegisterAllocator) (load : Nat) : Option String :=
  (searchWidth (g.length load) MAX_LOAD_STORE_WIDTH).bind fun loadWidth =>
  (ra.getRegister load).bind fun d1 =>
  ((g.operands load)[0]?).bind fun address =>
  (ra.getRegister address).map fun r1 =>
  "load(" ++ "d1=" ++ toString d1 ++ ", " ++ "r1=" ++ toString r1 ++ ", "
    ++ "load_width=" ++ toString loadWidth ++ ", "
    ++ "vec=" ++ toString (g.length load / loadWidth) ++ ")\n"

/-- `CodeGenerator::codegen(StoreOperation*)`. -/
def codegenStore (g : Graph) (ra : RegisterAllocator) (store : Nat) : Option String :=
  (searchWidth (g.length store) MAX_LOAD_STORE_WIDTH).bind fun storeWidth =>
  ((g.operands store)[1]?).bind fun address =>
  (ra.getRegister address).bind fun d1 =>
  ((g.operands store)[0]?).bind fun src =>
  (ra.getRegister src).map fun r1 =>
  "store(d1=" ++ toString d1 ++ ", " ++ "r1=" ++ toString r1 ++ ", "
    ++ "counter=" ++ toString (g.readers store).length ++ ", "
    ++ "store_width=" ++ toString storeWidth ++ ", "
    ++ "vec=" ++ toString (g.length store / storeWidth) ++ ")\n"

/-- `CodeGenerator::codegen(SendOperation*)`. -/
def codegenSend (g : Graph) (pt : Partitioner) (P : Placer) (mem : MemoryAllocator)
    (send : Nat) : Option String :=
  (searchWidth (g.length send) MAX_SEND_RECV_WIDTH).bind fun sendWidth =>
  ((g.srcs send)[0]?).bind fun src =>
  (mem.getTileMemoryAddress src).bind fun memAddr =>
  (P.getPTile pt send).bind fun vtileId =>
  (g.sendDst send).bind fun dst =>
  (P.getPTile pt dst).map fun targetAddr =>
  "send(" ++ "mem_addr=" ++ toString memAddr ++ ", " ++ "vtile_id=" ++ toString vtileId ++ ", "
    ++ "send_width=" ++ toString sendWidth ++ ", "
    ++ "target_addr=" ++ toString targetAddr ++ ", "
    ++ "vec=" ++ toString (g.length send / sendWidth) ++ ")\n"

/-- `CodeGenerator::codegen(ReceiveOperation*)`. -/
def codegenReceive (g : Graph) (pt : Partitioner) (P : Placer) (mem : MemoryAllocator)
    (recv : Nat) : Option String :=
  (searchWidth (g.length recv) MAX_SEND_RECV_WIDTH).bind fun recvWidth =>
  (mem.getTileMemoryAddress recv).bind fun memAddr =>
  (g.recvSrc recv).bind fun src =>
  (P.getPTile pt src).map fun vtileId =>
  "receive(mem_addr=" ++ toString memAddr ++ ", " ++ "vtile_id=" ++ toString vtileId ++ ", "
    ++ "receive_width=" ++ toString recvWidth ++ ", "
    ++ "counter=" ++ toString (g.readers recv).length ++ ", "
    ++ "vec=" ++ toString (g.length recv / recvWidth) ++ ")\n"

/-- A placer of one virtual MVMU, on physical MVMU 0 of core 0 of tile 0. -/
def onePlacer : Placer :=
  { nPTiles := 1, nPCores := 8, nPMVMUs := 48,
    vtile2ptile := [0], vcore2pcore := [0], vmvmu2pmvmu := [0] }

/-- The DAG that the front end builds for the program of `test/simple.cpp`
(`out = matrix * in` with a 5x5 constant matrix): 1 is the pseudo input, 2 is the MVM on
the single matrix tile, 3 the pseudo output. -/
def simpleGraph : Graph := Graph.ofList
  [ { id := 1, cls := OpClass.PseudoInputOperation, length := 5, ioTile := 0 },
    { id := 2, cls := OpClass.MVMOperation, operands := [1], length := 5, mat := 0 },
    { id := 3, cls := OpClass.PseudoOutputOperation, operands := [2], length := 5, ioTile := 0 } ]

/-- The users of the matrix tile of `simpleGraph`. -/
def simpleTileUsers : Nat → List Nat :=
  fun t => if t = 0 then [2] else []

/-- The DAG that the front end builds for `y = M * x` with a constant matrix `M` of two by
two tiles: 1 and 2 are the pseudo inputs of the tiles of `x`; 3 and 4 are the MVMs of the
first row of tiles, 5 their sum; 6 and 7 are the MVMs of the second row, 8 their sum; 9 and
10 are the pseudo outputs. The matrix tile `(h, w)` has the number `2 * h + w`. -/
def fourTileGraph : Graph := Graph.ofList
  [ { id := 1, cls := OpClass.PseudoInputOperation, ioTile := 0 },
    { id := 2, cls := OpClass.PseudoInputOperation, ioTile := 1 },
    { id := 3, cls := OpClass.MVMOperation, operands := [1], mat := 0 },
    { id := 4, cls := OpClass.MVMOperation, operands := [2], mat := 1 },
    { id := 5, cls := OpClass.ALUVectorOperation, operands := [4, 3] },
    { id := 6, cls := OpClass.MVMOperation, operands := [1], mat := 2 },
    { id := 7, cls := OpClass.MVMOperation, operands := [2], mat := 3 },
    { id := 8, cls := OpClass.ALUVectorOperation, operands := [7, 6] },
    { id := 9, cls := OpClass.PseudoOutputOperation, operands := [5], ioTile := 0 },
    { id := 10, cls := OpClass.PseudoOutputOperation, operands := [8], ioTile := 1 } ]

/-- The users of the matrix tiles of `fourTileGraph`. -/
def fourTileUsers : Nat → List Nat :=
  fun t => if t = 0 then [3] else if t = 1 then [4] else if t = 2 then [6]
    else if t = 3 then [7] else []

/-- The DAG that the front end builds for the training program `M -= OuterProduct(x, x)`
with a training matrix `M` of one tile: 1 is the pseudo input of `x`, 2 is the outer product,
whose two operands are both 1. -/
def selfOuterProductGraph : Graph := Graph.ofList
  [ { id := 1, cls := OpClass.PseudoInputOperation, ioTile := 0 },
    { id := 2, cls := OpClass.TrainingMatrixOperation OpType.OUTER_PRODUCT,
      operands := [1, 1], mat := 0 } ]

/-- The users of the matrix tile of `selfOuterProductGraph`. -/
def selfOuterProductTileUsers : Nat → List Nat :=
  fun t => if t = 0 then [2] else []

/-- The DAG that the front end builds for the training program `M -= OuterProduct(x, y)`
with a training matrix `M` of one tile: 1 and 2 are the pseudo inputs of `x` and `y`, 3 is
the outer product. -/
def outerProductGraph : Graph := Graph.ofList
  [ { id := 1, cls := OpClass.PseudoInputOperation, ioTile := 0 },
    { id := 2, cls := OpClass.PseudoInputOperation, ioTile := 1 },
    { id := 3, cls := OpClass.TrainingMatrixOperation OpType.OUTER_PRODUCT,
      operands := [1, 2], mat := 0 } ]

/-- The users of the matrix tile of `outerProductGraph`. -/
def outerProductTileUsers : Nat → List Nat :=
  fun t => if t = 0 then [3] else []

/-! ## Properties used in the statements about the memory allocator -/

/-- The number of tile-memory words that the tile-memory writes of `l` on the virtual tile
`t` occupy. -/
def tileMemoryDemand (g : Graph) (pt : Partitioner) (l : List Nat) (t : Nat) : Nat :=
  ((l.filter fun w => (g.cls w).isTileMemoryWrite && pt.getVTile w == some t).map
    g.length).sum

/-- The state `s'` extends the state `s`: nothing recorded about an operation of `s`
changes except its operands and users, and the tables of the partitioner are the same. -/
structure MState.Grows (s s' : MState) : Prop where
  fresh_le : s.g.fresh ≤ s'.g.fresh
  cls : ∀ i, i < s.g.fresh → s'.g.cls i = s.g.cls i
  length : ∀ i, i < s.g.fresh → s'.g.length i = s.g.length i
  imm : ∀ i, i < s.g.fresh → s'.g.imm i = s.g.imm i
  srcs : ∀ i, i < s.g.fresh → s'.g.srcs i = s.g.srcs i
  readers : ∀ i, i < s.g.fresh → s'.g.readers i = s.g.readers i
  assign : ∀ i, i < s.g.fresh → s'.pt.op2vmvmu i = s.pt.op2vmvmu i
  vcore : s'.pt.vmvmu2vcore = s.pt.vmvmu2vcore
  vtile : s'.pt.vcore2vtile = s.pt.vcore2vtile

/-- The invariant of the loop of `MemoryAllocator::memoryAllocation` after the operations
`done` of the DAG of `st`: the pointer of a tile is the number of words of the writes
visited so far on it, and a write has the address that the pointer had when the write was
visited. -/
structure MemoryAllocationInv (st : PState) (s : MState) (done : List Nat) : Prop where
  grows : MState.Grows (MState.mk st.g st.pt s.mem) s
  pointer : ∀ (t a : Nat), s.mem.vTileAvailableMemory[t]? = some a →
    a = tileMemoryDemand st.g st.pt done t
  address : ∀ (pre : List Nat) (w : Nat) (post : List Nat), done = pre ++ w :: post →
    (st.g.cls w).isTileMemoryWrite = true →
    ∃ t, st.pt.getVTile w = some t
      ∧ s.mem.op2mem w = some (tileMemoryDemand st.g st.pt pre t)
  only : ∀ (w a : Nat), s.mem.op2mem w = some a →
    w ∈ done ∧ (st.g.cls w).isTileMemoryWrite = true

/-- The operation `seti` is an address operand of the operation `x` for the address `a`:
a SetImmediate of length 1 with the immediate `a`, on the virtual MVMU of `x` when `x` has
one. -/
structure MState.AddressOperand (s : MState) (x seti a : Nat) : Prop where
  lt : seti < s.g.fresh
  cls : s.g.cls seti = OpClass.SetImmediateOperation
  length : s.g.length seti = 1
  imm : s.g.imm seti = a
  vmvmu : ∀ v, s.pt.getVMVMU x = some v → s.pt.getVMVMU seti = some v

/-- The tile memory edges of the DAG are well formed: the operations lie below the next
fresh address, and every Load has one source, a tile memory write of the model that has
the Load among its readers. -/
structure PState.TileMemoryLinked (st : PState) : Prop where
  below : ∀ i, i ∈ st.g.operations → i < st.g.fresh
  loads : ∀ l, l ∈ st.g.operations → st.g.cls l = OpClass.LoadOperation →
    (st.g.srcs l).length = 1
    ∧ ∀ w, w ∈ st.g.srcs l →
      w ∈ st.g.operations ∧ (st.g.cls w).isTileMemoryWrite = true ∧ l ∈ st.g.readers w

/-- The invariant of the loop over the readers of a tile memory write with the address `a`
in `MemoryAllocator::memoryAllocation`, which starts in the state `s0`, after the readers
`done`. -/
structure ReaderLoopInv (s0 : MState) (a : Nat) (s : MState) (done : List Nat) : Prop where
  grows : s0.Grows s
  mem : s.mem = s0.mem
  operands : ∀ i, i < s0.g.fresh →
    s.g.operands i = s0.g.operands i
    ∨ (s0.g.cls i = OpClass.LoadOperation ∧ i ∈ done ∧ s0.g.operands i = [])
  loads : ∀ i, i ∈ done → i < s0.g.fresh → s0.g.cls i = OpClass.LoadOperation →
    ∃ seti, s.g.operands i = [seti] ∧ s.AddressOperand i seti a

/-- The invariant of the loop of `MemoryAllocator::memoryAllocation` for the address
operands, after the operations `done` of the DAG of `st`. -/
structure AddressOperandInv (st : PState) (s : MState) (done : List Nat) : Prop where
  grows : MState.Grows (MState.mk st.g st.pt s.mem) s
  below : ∀ x, x ∈ done → x < st.g.fresh
  assigned : ∀ w, w ∈ done → (st.g.cls w).isTileMemoryWrite = true →
    ∃ a, s.mem.op2mem w = some a
  stores : ∀ x, x ∈ done → st.g.cls x = OpClass.StoreOperation →
    ∃ src seti a, st.g.operands x = [src] ∧ s.g.operands x = [src, seti]
      ∧ s.AddressOperand x seti a ∧ s.mem.op2mem x = some a
  loads : ∀ w, w ∈ done → (st.g.cls w).isTileMemoryWrite = true →
    ∀ l, l ∈ st.g.readers w → l < st.g.fresh → st.g.cls l = OpClass.LoadOperation →
    ∃ seti a, s.g.operands l = [seti] ∧ s.AddressOperand l seti a
      ∧ s.mem.op2mem w = some a
  untouched : ∀ x, x < st.g.fresh → st.g.cls x = OpClass.StoreOperation → x ∉ done →
    s.g.operands x = st.g.operands x

/-- The operations of `s'` that are not operations of `s` are SetImmediate operations at
addresses that were fresh in `s`. -/
structure MState.AddsSetImmediates (s s' : MState) : Prop where
  ops : ∀ x, x ∈ s'.g.operations → x ∈ s.g.operations ∨ (s.g.fresh ≤ x ∧ x < s'.g.fresh)
  cls : ∀ x, s.g.fresh ≤ x → x < s'.g.fresh → s'.g.cls x = OpClass.SetImmediateOperation

/-- The tile memory edges out of the Stores are well formed: the operations lie below the
next fresh address, no operation is listed twice, and every reader of a Store is an
operation of the model whose only source is that Store. -/
structure PState.ReadersLinked (s : PState) : Prop where
  below : ∀ i, i ∈ s.g.operations → i < s.g.fresh
  nodup : s.g.operations.Nodup
  readers : ∀ S, S ∈ s.g.operations → s.g.cls S = OpClass.StoreOperation →
    ∀ r, r ∈ s.g.readers S → r ∈ s.g.operations ∧ s.g.srcs r = [S]

/-- The Send `Snd` and the Receive `R` carry the Store `S` to the virtual tile `t`: both
were created at or after the address `lo`, the Send reads `S` and is on the virtual MVMU
of `S`, the Receive is on the tile `t`, and each is the other end of the other. -/
structure PState.Channel (s : PState) (lo S t R Snd : Nat) : Prop where
  recv_new : lo ≤ R
  recv_lt : R < s.g.fresh
  recv_mem : R ∈ s.g.operations
  recv_cls : s.g.cls R = OpClass.ReceiveOperation
  recv_tile : s.pt.getVTile R = some t
  send_new : lo ≤ Snd
  send_lt : Snd < s.g.fresh
  send_mem : Snd ∈ s.g.operations
  send_cls : s.g.cls Snd = OpClass.SendOperation
  send_srcs : s.g.srcs Snd = [S]
  send_reader : Snd ∈ s.g.readers S
  send_vmvmu : s.pt.getVMVMU Snd = s.pt.getVMVMU S
  recv_src : s.g.recvSrc R = some Snd
  send_dst : s.g.sendDst Snd = some R

/-- What the visit of the Store `S` by `insertSendsAndRecives`, from the state `s` to the
state `s'`, leaves unchanged. -/
structure VisitFrame (s s' : PState) (S : Nat) : Prop where
  fresh_le : s.g.fresh ≤ s'.g.fresh
  vcore : s'.pt.vmvmu2vcore = s.pt.vmvmu2vcore
  vtile : s'.pt.vcore2vtile = s.pt.vcore2vtile
  old_assign : ∀ i, i < s.g.fresh → s'.pt.op2vmvmu i = s.pt.op2vmvmu i
  old_cls : ∀ i, i < s.g.fresh → s'.g.cls i = s.g.cls i
  old_recvSrc : ∀ i, i < s.g.fresh → s'.g.recvSrc i = s.g.recvSrc i
  old_sendDst : ∀ i, i < s.g.fresh → s'.g.sendDst i = s.g.sendDst i
  old_srcs : ∀ i, i < s.g.fresh → i ∉ s.g.readers S → s'.g.srcs i = s.g.srcs i
  old_readers : ∀ w, w < s.g.fresh → w ≠ S → s'.g.readers w = s.g.readers w
  ops_old : ∀ i, i ∈ s.g.operations → i ∈ s'.g.operations
  ops_new : ∀ i, i ∈ s'.g.operations → i ∈ s.g.operations ∨ (s.g.fresh ≤ i ∧ i < s'.g.fresh)

/-- The state of the loop over the readers of the Store `S` in `insertSendsAndRecives`,
related to the state `s0` at the start of the loop after the readers in `seen` were
visited: the readers on the tile of `S` still read `S`, the readers visited on another
tile read the Receive that `recvs` holds for their tile, and the only new operations are
the Receives in `recvs` and their Sends. Every Receive is on the tile of a reader in
`served`. -/
structure SendRecvInv (s0 : PState) (S : Nat) (s : PState) (recvs : Nat → Option Nat)
    (seen served : List Nat) : Prop where
  frame : VisitFrame s0 s S
  kept : ∀ r, r ∈ s0.g.readers S → (r ∉ seen ∨ s0.pt.getVTile r = s0.pt.getVTile S) →
    s.g.srcs r = s0.g.srcs r ∧ r ∈ s.g.readers S
  remote : ∀ r tr, r ∈ seen → s0.pt.getVTile r = some tr → s0.pt.getVTile S ≠ some tr →
    ∃ R, recvs tr = some R ∧ s.g.srcs r = [R] ∧ r ∈ s.g.readers R ∧ r ∉ s.g.readers S
  chan : ∀ tr R, recvs tr = some R →
    s0.pt.getVTile S ≠ some tr ∧ (∃ Snd, s.Channel s0.g.fresh S tr R Snd)
      ∧ ∃ r, r ∈ served ∧ r ∈ s0.g.readers S ∧ s0.pt.getVTile r = some tr
  readers_S : ∀ x, x ∈ s.g.readers S →
    (x ∈ s0.g.readers S ∧ (x ∉ seen ∨ s0.pt.getVTile x = s0.pt.getVTile S))
    ∨ (s0.g.fresh ≤ x ∧ x < s.g.fresh ∧ s.g.srcs x = [S]
        ∧ s.pt.getVMVMU x = s0.pt.getVMVMU S)
  new_ops : ∀ n, s0.g.fresh ≤ n → n < s.g.fresh →
    ∃ tr R, recvs tr = some R ∧ (n = R ∨ s.g.recvSrc R = some n)
  tiles : ∀ r, r ∈ seen → ∃ tr ts, s0.pt.getVTile r = some tr ∧ s0.pt.getVTile S = some ts

/-- The state `s` of `insertSendsAndRecives` after the operations in `done` were visited,
related to the state `st` at the start of the pass. -/
structure SendRecvPass (st s : PState) (done : List Nat) : Prop where
  fresh_le : st.g.fresh ≤ s.g.fresh
  vcore : s.pt.vmvmu2vcore = st.pt.vmvmu2vcore
  vtile : s.pt.vcore2vtile = st.pt.vcore2vtile
  old_assign : ∀ i, i < st.g.fresh → s.pt.op2vmvmu i = st.pt.op2vmvmu i
  old_cls : ∀ i, i < st.g.fresh → s.g.cls i = st.g.cls i
  ops_old : ∀ i, i ∈ st.g.operations → i ∈ s.g.operations
  ops_new : ∀ i, i ∈ s.g.operations → i ∈ st.g.operations ∨ (st.g.fresh ≤ i ∧ i < s.g.fresh)
  done_sub : ∀ S, S ∈ done → S ∈ st.g.operations
  linked : ∀ S, S ∈ st.g.operations → st.g.cls S = OpClass.StoreOperation →
    ∀ r, r ∈ s.g.readers S → r < s.g.fresh ∧ s.g.srcs r = [S]
  pending : ∀ S, S ∈ st.g.operations → st.g.cls S = OpClass.StoreOperation → S ∉ done →
    s.g.readers S = st.g.readers S
  onTile : ∀ S, S ∈ done → st.g.cls S = OpClass.StoreOperation →
    ∀ x, x ∈ s.g.readers S → ∃ t, s.pt.getVTile x = some t ∧ s.pt.getVTile S = some t
  tiles : ∀ S, S ∈ done → st.g.cls S = OpClass.StoreOperation →
    ∀ r, r ∈ st.g.readers S → ∃ tr ts, st.pt.getVTile r = some tr ∧ st.pt.getVTile S = some ts
  kept : ∀ S, S ∈ done → st.g.cls S = OpClass.StoreOperation →
    ∀ r, r ∈ st.g.readers S → st.pt.getVTile r = st.pt.getVTile S →
    s.g.srcs r = [S] ∧ r ∈ s.g.readers S
  remote : ∀ S, S ∈ done → st.g.cls S = OpClass.StoreOperation →
    ∀ r tr, r ∈ st.g.readers S → st.pt.getVTile r = some tr → st.pt.getVTile S ≠ some tr →
    ∃ R Snd, s.g.srcs r = [R] ∧ r ∈ s.g.readers R ∧ r ∉ s.g.readers S
      ∧ s.Channel st.g.fresh S tr R Snd
  sameTile : ∀ S, S ∈ done → st.g.cls S = OpClass.StoreOperation →
    ∀ r1 r2, r1 ∈ st.g.readers S → r2 ∈ st.g.readers S →
    st.pt.getVTile r1 = st.pt.getVTile r2 → st.pt.getVTile r1 ≠ st.pt.getVTile S →
    s.g.srcs r1 = s.g.srcs r2
  new_ops : ∀ n, st.g.fresh ≤ n → n < s.g.fresh →
    ∃ S r R Snd t, S ∈ done ∧ st.g.cls S = OpClass.StoreOperation ∧ r ∈ st.g.readers S
      ∧ st.pt.getVTile r = some t ∧ st.pt.getVTile S ≠ some t ∧ s.g.srcs r = [R]
      ∧ s.Channel st.g.fresh S t R Snd ∧ (n = R ∨ n = Snd)

/-! ## Register allocator: data registers with spilling (`regalloc.cpp`) -/

/-- The state of the live range analysis of `RegisterAllocator::allocateDataRegisters`:
the map `liveIn`, in which the key `none` stands for `NULL`, and `nextOp`. -/
structure LiveLoop where
  liveIn : Option Nat → List Nat
  nextOp : Option Nat

/-- The body of the loop of the live range analysis. -/
def liveRangeAt (g : Graph) (l : LiveLoop) (op : Nat) : LiveLoop :=
  let s := (l.liveIn l.nextOp).foldl setInsert (l.liveIn (some op))
  let s := if (g.cls op).isProducer then setErase s op else s
  let s :=
    if (g.cls op).isConsumer && !readsFromReservedInputRegister g op then
      (g.operands op).foldl (fun s producer =>
        if !writesToReservedOutputRegister g producer then setInsert s producer else s) s
    else s
  { liveIn := fun k => if k = some op then s else l.liveIn k, nextOp := some op }

/-- The live range analysis of `RegisterAllocator::allocateDataRegisters`. -/
def liveRanges (g : Graph) (coreOperationList : List Nat) : Option Nat → List Nat :=
  (coreOperationList.reverse.foldl (liveRangeAt g)
    { liveIn := fun _ => [], nextOp := none }).liveIn

/-- The variables of the allocation loop of `RegisterAllocator::allocateDataRegisters`:
the DAG, the partitioner, the memory allocator and the register map, which the loop
modifies, its local variables, and in `out` the part of the core operation list before the
iterator of the loop, with the operations inserted there. -/
structure DataLoop where
  g : Graph
  pt : Partitioner
  mem : MemoryAllocator
  ra : RegisterAllocator
  allocator : CoreAllocator
  spillTracker : SpillTracker
  liveNow : List Nat
  out : List Nat

/-- The body of the first loop of `RegisterAllocator::allocateRegistersWithSpilling`, over
the live reloads; `found` holds the register once the function has returned. The loop is
modelled over the reloads present at its start. -/
def killReloadAt (length : Nat) (consumer : Option Nat) (s : Option Nat × DataLoop)
    (producerToKill : Nat) : Option (Option Nat × DataLoop) :=
  match s.1 with
  | some _ => some s
  | none =>
    let l := s.2
    (l.spillTracker.producer2reload producerToKill).bind fun reloadToKill =>
    if consumer = none ∨ (consumer.all fun c =>
        !l.g.uses c producerToKill && !l.g.uses c reloadToKill) then
      (l.spillTracker.killLiveNowReload reloadToKill).bind fun (t : SpillTracker) =>
      (l.ra.getRegister reloadToKill).bind fun r =>
      (l.allocator.free r (l.g.length reloadToKill)).bind fun (a : CoreAllocator) =>
      (a.allocate length).map fun (p : Nat × CoreAllocator) =>
        (if p.1 ≠ OUT_OF_REGISTERS then some p.1 else none,
          { l with spillTracker := t, allocator := p.2 })
    else some s

/-- The body of the second loop of `RegisterAllocator::allocateRegistersWithSpilling`, over
the live operations; `found` holds the register once the function has returned. The loop
is modelled over the operations live at its start. -/
def spillAt (length spillAddressReg : Nat) (consumer : Option Nat) (s : Option Nat × DataLoop)
    (spillCandidate : Nat) : Option (Option Nat × DataLoop) :=
  match s.1 with
  | some _ => some s
  | none =>
    let l := s.2
    if consumer = none ∨ (consumer.all fun c => !l.g.uses c spillCandidate) then
      (l.pt.getVTile spillCandidate).bind fun vTile =>
      (l.mem.memalloc vTile (l.g.length spillCandidate)).bind
      fun (m : Nat × MemoryAllocator) =>
      let r := l.g.newSetImmediate m.1 1
      (l.pt.cloneAssignment spillCandidate r.1).bind fun (pt : Partitioner) =>
      (l.ra.assignRegister r.1 spillAddressReg).bind fun (ra : RegisterAllocator) =>
      let r2 := r.2.newStore spillCandidate
      let ra := { ra with numStoresFromSpilling :=
        (ra.numStoresFromSpilling + r2.2.length r2.1) % UINT_MOD }
      (pt.cloneAssignment spillCandidate r2.1).bind fun (pt : Partitioner) =>
      (m.2.assignTileMemoryAddress r2.1 m.1).bind fun (mem : MemoryAllocator) =>
      (r2.2.addStoreAddressOperand r2.1 r.1).bind fun (g : Graph) =>
      (l.spillTracker.setSpillOperation spillCandidate r2.1).bind fun (t : SpillTracker) =>
      (ra.getRegister spillCandidate).bind fun reg =>
      (l.allocator.free reg (g.length spillCandidate)).bind fun (a : CoreAllocator) =>
      (a.allocate length).map fun (p : Nat × CoreAllocator) =>
        (if p.1 ≠ OUT_OF_REGISTERS then some p.1 else none,
          { g := g, pt := pt, mem := mem, ra := ra, allocator := p.2, spillTracker := t,
            liveNow := setErase l.liveNow spillCandidate, out := l.out ++ [r.1, r2.1] })
    else some s

/-- `RegisterAllocator::allocateRegistersWithSpilling` with the iterator at `op`: returns
the register and the new state. -/
def allocateRegistersWithSpilling (length spillAddressReg op : Nat) (l : DataLoop) :
    Option (Nat × DataLoop) :=
  let consumer : Option Nat := if (l.g.cls op).isConsumer then some op else none
  (l.allocator.allocate length).bind fun (p : Nat × CoreAllocator) =>
  if p.1 ≠ OUT_OF_REGISTERS then some (p.1, { l with allocator := p.2 })
  else
    (l.spillTracker.reloadKeys.foldlM (killReloadAt length consumer)
      ((none : Option Nat), { l with allocator := p.2 })).bind
    fun (s : Option Nat × DataLoop) =>
    match s.1 with
    | some reg => some (reg, s.2)
    | none =>
      (s.2.liveNow.foldlM (spillAt length spillAddressReg consumer) s).bind
      fun (s : Option Nat × DataLoop) => s.1.map fun reg => (reg, s.2)

/-- The reload of a spilled operand in `RegisterAllocator::allocateDataRegisters` when the
producer has no live reload. -/
def reloadOperand (spillAddressReg consumer producer : Nat) (l : DataLoop) :
    Option DataLoop :=
  let ra := { l.ra with numSpilledRegAccesses :=
    (l.ra.numSpilledRegAccesses + l.g.length producer) % UINT_MOD }
  (l.spillTracker.producer2spill producer).bind fun spillOp =>
  (l.mem.getTileMemoryAddress spillOp).bind fun address =>
  let r := l.g.newSetImmediate address 1
  (l.pt.cloneAssignment producer r.1).bind fun (pt : Partitioner) =>
  (ra.assignRegister r.1 spillAddressReg).bind fun (ra : RegisterAllocator) =>
  let r2 := r.2.newLoad spillOp
  let ra := { ra with numLoadsFromSpilling :=
    (ra.numLoadsFromSpilling + r2.2.length r2.1) % UINT_MOD }
  (r2.2.addLoadAddressOperand r2.1 r.1).bind fun (g : Graph) =>
  (pt.cloneAssignment producer r2.1).bind fun (pt : Partitioner) =>
  (allocateRegistersWithSpilling (g.length r2.1) spillAddressReg consumer
    { l with g := g, pt := pt, ra := ra }).bind fun (q : Nat × DataLoop) =>
  (q.2.ra.assignRegister r2.1 q.1).bind fun (ra : RegisterAllocator) =>
  (q.2.spillTracker.setLiveNowReload producer r2.1).map fun (t : SpillTracker) =>
    { q.2 with g := q.2.g.replaceOperand consumer producer r2.1, ra := ra,
               out := q.2.out ++ [r.1, r2.1], spillTracker := t }

/-- The body of the loop `Make sure all operands are available` of
`RegisterAllocator::allocateDataRegisters`. -/
def availableOperandAt (spillAddressReg consumer : Nat) (l : DataLoop) (o : Nat) :
    Option DataLoop :=
  ((l.g.operands consumer)[o]?).bind fun producer =>
  if !writesToReservedOutputRegister l.g producer then
    if producer ∈ l.liveNow
        ∨ (l.g.cls producer = OpClass.LoadOperation
            ∧ (l.spillTracker.reload2producer producer).isSome) then
      some { l with ra := { l.ra with numUnspilledRegAccesses :=
        (l.ra.numUnspilledRegAccesses + l.g.length producer) % UINT_MOD } }
    else if (l.spillTracker.producer2spill producer).isSome then
      match l.spillTracker.producer2reload producer with
      | some load =>
        some { l with
          ra := { l.ra with numUnspilledRegAccesses :=
            (l.ra.numUnspilledRegAccesses + l.g.length producer) % UINT_MOD }
          g := l.g.replaceOperand consumer producer load }
      | none => reloadOperand spillAddressReg consumer producer l
    else none
  else some l

/-- The body of the loop `Free registers for operands that are no longer live` of
`RegisterAllocator::allocateDataRegisters`. -/
def freeOperandAt (liveOut : List Nat) (consumer : Nat) (l : DataLoop) (o : Nat) :
    Option DataLoop :=
  ((l.g.operands consumer)[o]?).bind fun producer =>
  if !writesToReservedOutputRegister l.g producer then
    if producer ∈ l.liveNow then
      if producer ∉ liveOut then
        (l.ra.getRegister producer).bind fun r =>
        (l.allocator.free r (l.g.length producer)).map fun (a : CoreAllocator) =>
          { l with liveNow := setErase l.liveNow producer, allocator := a }
      else some l
    else if l.g.cls producer = OpClass.LoadOperation then
      (l.spillTracker.reload2producer producer).bind fun originalProducer =>
      if originalProducer ∉ liveOut then
        (l.spillTracker.killLiveNowReload producer).bind fun (t : SpillTracker) =>
        (l.ra.getRegister producer).bind fun r =>
        (l.allocator.free r (l.g.length producer)).map fun (a : CoreAllocator) =>
          { l with spillTracker := t, allocator := a }
      else some l
    else none
  else some l

/-- The body of the allocation loop of `RegisterAllocator::allocateDataRegisters` at the
operation `op`, which `nextOp` follows in the list. -/
def allocateDataRegistersAt (liveIn : Option Nat → List Nat) (spillAddressReg : Nat)
    (l : DataLoop) (x : Nat × Option Nat) : Option DataLoop :=
  let op := x.1
  let liveOut := liveIn x.2
  (if (l.g.cls op).isConsumer && !readsFromReservedInputRegister l.g op then
    ((List.range (l.g.operands op).length).foldlM
      (availableOperandAt spillAddressReg op) l).bind fun (l : DataLoop) =>
    (List.range (l.g.operands op).length).foldlM (freeOperandAt liveOut op) l
   else some l).bind fun (l : DataLoop) =>
  (if (l.g.cls op).isProducer then
    if op ∈ liveIn (some op) then none
    else if op ∈ liveOut then
      (allocateRegistersWithSpilling (l.g.length op) spillAddressReg op l).bind
      fun (q : Nat × DataLoop) =>
      (q.2.ra.assignRegister op q.1).map fun (ra : RegisterAllocator) =>
        { q.2 with ra := ra, liveNow := setInsert q.2.liveNow op }
    else if (l.ra.op2reg op).isSome || producerDoesNotWriteToRegister l.g op then some l
    else none
   else some l).map fun (l : DataLoop) => { l with out := l.out ++ [op] }

/-- The operations of a list, each with the operation that follows it. -/
def withNext : List Nat → List (Nat × Option Nat)
  | [] => []
  | [a] => [(a, none)]
  | a :: b :: l => (a, some b) :: withNext (b :: l)

/-- The state that the register allocator modifies: the DAG, the partitioner, the memory
allocator, the register map and the core operation lists of the linearizer. -/
structure RegState where
  g : Graph
  pt : Partitioner
  mem : MemoryAllocator
  ra : RegisterAllocator
  coreOperationLists : List (List Nat)

/-- `RegisterAllocator::allocateDataRegisters` on the list of one core: returns the new
state and the new list. -/
def allocateDataRegisters (s : RegState) (coreOperationList : List Nat) :
    Option DataLoop :=
  let liveIn := liveRanges s.g coreOperationList
  ((CoreAllocator.mk fun _ => false).allocate 1).bind fun (p : Nat × CoreAllocator) =>
  (withNext coreOperationList).foldlM (allocateDataRegistersAt liveIn p.1)
    { g := s.g, pt := s.pt, mem := s.mem, ra := s.ra, allocator := p.2,
      spillTracker := { producer2spill := fun _ => none, producer2reload := fun _ => none,
                        reload2producer := fun _ => none, reloadKeys := [] },
      liveNow := [], out := [] }

/-- The body of the loops of `RegisterAllocator::registerAllocation` for the core `pCore`
of the tile `pTile`. -/
def registerAllocationAt (P : Placer) (s : RegState) (x : Nat × Nat) : Option RegState :=
  let i := (x.1 * N_CORES_PER_TILE + x.2) % UINT_MOD
  (s.coreOperationLists[i]?).bind fun coreOperationList =>
  (allocateReservedInputRegisters s.g s.pt P s.ra coreOperationList).bind
  fun (ra : RegisterAllocator) =>
  (allocateReservedOutputRegisters s.g s.pt P ra coreOperationList).bind
  fun (ra : RegisterAllocator) =>
  (allocateDataRegisters { s with ra := ra } coreOperationList).map fun (l : DataLoop) =>
    { g := l.g, pt := l.pt, mem := l.mem, ra := l.ra,
      coreOperationLists := s.coreOperationLists.set i l.out }

/-- `RegisterAllocator::registerAllocation`. -/
def registerAllocation (P : Placer) (s : RegState) : Option RegState :=
  ((List.range P.nPTiles).flatMap fun pTile =>
    (List.range N_CORES_PER_TILE).map fun pCore => (pTile, pCore)).foldlM
    (registerAllocationAt P) s

/-- The Loads and Stores of the DAG `g` at the addresses from `f0` on are reloads and
spills: such a Store has two operands, the second one a SetImmediate that holds the tile
memory address of the Store; such a Load reads such a Store and has one operand, a
SetImmediate that holds the tile memory address of that Store. In an operand vector of an
operation below `f0`, whose operands at the start were `orig`, an entry is the entry at the
start or a Load from `f0` on that reads a Store whose first operand is the entry at the
start. -/
structure SpillInv (f0 : Nat) (orig : Nat → List Nat) (g : Graph) (mem : MemoryAllocator) :
    Prop where
  fresh_le : f0 ≤ g.fresh
  loads : ∀ L, f0 ≤ L → L < g.fresh → g.cls L = OpClass.LoadOperation →
    ∃ St seti a, g.srcs L = [St] ∧ f0 ≤ St ∧ St < g.fresh
      ∧ g.cls St = OpClass.StoreOperation ∧ g.operands L = [seti]
      ∧ f0 ≤ seti ∧ seti < g.fresh ∧ g.cls seti = OpClass.SetImmediateOperation
      ∧ g.imm seti = a ∧ mem.op2mem St = some a
  stores : ∀ St, f0 ≤ St → St < g.fresh → g.cls St = OpClass.StoreOperation →
    ∃ p setiS a, g.operands St = [p, setiS] ∧ p < f0
      ∧ f0 ≤ setiS ∧ setiS < g.fresh ∧ g.cls setiS = OpClass.SetImmediateOperation
      ∧ g.imm setiS = a ∧ mem.op2mem St = some a
  operands : ∀ (c j x : Nat), c < f0 → (g.operands c)[j]? = some x →
    (orig c)[j]? = some x
    ∨ (f0 ≤ x ∧ x < g.fresh ∧ g.cls x = OpClass.LoadOperation
        ∧ ∃ St p, g.srcs x = [St] ∧ f0 ≤ St ∧ St < g.fresh
          ∧ (g.operands St)[0]? = some p ∧ (orig c)[j]? = some p)

/-- The invariant of the allocation loop of `allocateDataRegisters`: the DAG satisfies
`SpillInv`, the live operations lie below `f0`, the spill that the tracker holds for a
producer is a Store from `f0` on whose first operand is the producer, and the live reload
that the tracker holds for a producer is a Load from `f0` on that reads the spill of the
producer. -/
structure DataInv (f0 : Nat) (orig : Nat → List Nat) (l : DataLoop) : Prop where
  spill : SpillInv f0 orig l.g l.mem
  live : ∀ p, p ∈ l.liveNow → p < f0
  spilled : ∀ p St, l.spillTracker.producer2spill p = some St →
    p < f0 ∧ f0 ≤ St ∧ St < l.g.fresh ∧ l.g.cls St = OpClass.StoreOperation
      ∧ (l.g.operands St)[0]? = some p
  reloaded : ∀ p L, l.spillTracker.producer2reload p = some L →
    f0 ≤ L ∧ L < l.g.fresh ∧ l.g.cls L = OpClass.LoadOperation
      ∧ ∃ St, l.spillTracker.producer2spill p = some St ∧ l.g.srcs L = [St]

/-- What `allocateRegistersWithSpilling` keeps, from the state `l` to the state `l'`: the
classes and the sources of the operations of `l`, and the spills that the tracker holds. -/
structure DataStable (l l' : DataLoop) : Prop where
  fresh_le : l.g.fresh ≤ l'.g.fresh
  cls : ∀ i, i < l.g.fresh → l'.g.cls i = l.g.cls i
  srcs : ∀ i, i < l.g.fresh → l'.g.srcs i = l.g.srcs i
  spilled : ∀ p St, l.spillTracker.producer2spill p = some St →
    l'.spillTracker.producer2spill p = some St

/-- The state of `registerAllocation` after the cores in `done`, related to the DAG at the
start, whose next fresh address was `f0` and whose operand vectors were `orig`: the DAG
satisfies `SpillInv`, and the lists of the cores not visited yet hold operations below
`f0`. -/
structure RegInv (f0 : Nat) (orig : Nat → List Nat) (s : RegState)
    (done : List (Nat × Nat)) : Prop where
  spill : SpillInv f0 orig s.g s.mem
  lists : ∀ (i : Nat) (list : List Nat), s.coreOperationLists[i]? = some list →
    (∀ y, y ∈ done → (y.1 * N_CORES_PER_TILE + y.2) % UINT_MOD ≠ i) →
    ∀ op, op ∈ list → op < f0

/-- A DAG on one core whose values do not fit into the register file together: 1, 2 and
3 are vectors of 512 elements, 4 adds 1 and 2, 5 adds 4 and 3, and the Store 7 writes 5 to
the address in 6. -/
def spillGraph : Graph := Graph.ofList
  [ { id := 1, cls := OpClass.SetImmediateOperation, length := 512 },
    { id := 2, cls := OpClass.SetImmediateOperation, length := 512 },
    { id := 3, cls := OpClass.SetImmediateOperation, length := 512 },
    { id := 4, cls := OpClass.ALUVectorOperation, operands := [1, 2], length := 512 },
    { id := 5, cls := OpClass.ALUVectorOperation, operands := [4, 3], length := 512 },
    { id := 6, cls := OpClass.SetImmediateOperation, length := 1 },
    { id := 7, cls := OpClass.StoreOperation, operands := [5, 6], length := 512 } ]

/-- The DAG `spillGraph` on virtual MVMU 0 with its core operation list, before register
allocation. -/
def spillState : RegState :=
  { g := spillGraph,
    pt := { nVMVMUs := 1, nVCores := 1, nVTiles := 1,
            op2vmvmu := fun i => if i < 8 then some 0 else none,
            mat2vmvmu := fun _ => none,
            vmvmu2vcore := [0], vcore2vtile := [0],
            numLoads := 0, numStores := 0, numSends := 0, numReceives := 0 },
    mem := { op2mem := fun _ => none, vTileAvailableMemory := [0] },
    ra := { op2reg := fun _ => none, numLoadsFromSpilling := 0, numStoresFromSpilling := 0,
            numUnspilledRegAccesses := 0, numSpilledRegAccesses := 0 },
    coreOperationLists := [[1, 2, 3, 4, 5, 6, 7], [], [], [], [], [], [], []] }

/-! ## Tensors (`tensors.h`, `tensors.cpp`) -/

/-- `AbstractVector::nTiles` (and the `nTiles` of `InputVectorImpl`, `OutputVectorImpl` and
`VectorImpl`): `(length_ - 1)/MVMU_DIM + 1` in unsigned arithmetic. -/
def AbstractVector.nTiles (length : Nat) : Nat :=
  ((length + UINT_MOD - 1) % UINT_MOD / MVMU_DIM + 1) % UINT_MOD

/-- The local `tileSize` of the loops of `InputVectorImpl::InputVectorImpl` and
`OutputVectorImpl::OutputVectorImpl` for tile `i`. -/
def vectorTileSize (length i : Nat) : Nat :=
  if i = (AbstractVector.nTiles length + UINT_MOD - 1) % UINT_MOD ∧ length % MVMU_DIM > 0 then
    length % MVMU_DIM
  else MVMU_DIM

/-- `InputVectorImpl::InputVectorImpl`: the lengths of the tiles `tiles_` that the
constructor creates. -/
def InputVectorImpl.tileLengths (length : Nat) : List Nat :=
  (List.range (AbstractVector.nTiles length)).map (vectorTileSize length)

/-- `OutputVectorImpl::OutputVectorImpl`: the lengths of the tiles `tiles_` that the
constructor creates. -/
def OutputVectorImpl.tileLengths (length : Nat) : List Nat :=
  (List.range (AbstractVector.nTiles length)).map (vectorTileSize length)
/-- A `ConstantMatrixImpl`: `width_`, `height_`, and the address `tile h w` of the tile
`tiles_[h][w]` that the constructor creates for `h < nHeightTiles()` and
`w < nWidthTiles()`. -/
structure ConstantMatrixImpl where
  width : Nat
  height : Nat
  tile : Nat → Nat → Nat

/-- `ConstantMatrixImpl::nHeightTiles`. -/
def ConstantMatrixImpl.nHeightTiles (mat : ConstantMatrixImpl) : Nat :=
  ((mat.height + UINT_MOD - 1) % UINT_MOD / MVMU_DIM + 1) % UINT_MOD

/-- `ConstantMatrixImpl::nWidthTiles`. -/
def ConstantMatrixImpl.nWidthTiles (mat : ConstantMatrixImpl) : Nat :=
  ((mat.width + UINT_MOD - 1) % UINT_MOD / MVMU_DIM + 1) % UINT_MOD

/-- The height that `ConstantMatrixImpl::ConstantMatrixImpl` gives to the tiles of row `h`
(the local `tileHeight`): `height()` of the tile `(h, w)`. -/
def ConstantMatrixImpl.tileHeight (mat : ConstantMatrixImpl) (h : Nat) : Nat :=
  if h = (mat.nHeightTiles + UINT_MOD - 1) % UINT_MOD ∧ mat.height % MVMU_DIM > 0 then
    mat.height % MVMU_DIM
  else MVMU_DIM

/-- The width that `ConstantMatrixImpl::ConstantMatrixImpl` gives to the tiles of column `w`
(the local `tileWidth`): `width()` of the tile `(h, w)`. -/
def ConstantMatrixImpl.tileWidth (mat : ConstantMatrixImpl) (w : Nat) : Nat :=
  if w = (mat.nWidthTiles + UINT_MOD - 1) % UINT_MOD ∧ mat.width % MVMU_DIM > 0 then
    mat.width % MVMU_DIM
  else MVMU_DIM

/-- `ConstantMatrixImpl::getTile`; an access outside `tiles_` is `none`. -/
def ConstantMatrixImpl.getTile (mat : ConstantMatrixImpl) (h w : Nat) : Option Nat :=
  if h < mat.nHeightTiles ∧ w < mat.nWidthTiles then some (mat.tile h w) else none

/-- A `ConvolutionalConstantMatrixImpl`: the kernel size, the numbers of channels, and the
address `tile kh kw h w` of the tile `tiles_[kh][kw][h][w]` that the constructor creates. -/
structure ConvolutionalConstantMatrixImpl where
  kernelWidth : Nat
  kernelHeight : Nat
  nInChannels : Nat
  nOutChannels : Nat
  tile : Nat → Nat → Nat → Nat → Nat

/-- `ConvolutionalConstantMatrixImpl::getNInChannelTiles`. -/
def ConvolutionalConstantMatrixImpl.getNInChannelTiles
    (mat : ConvolutionalConstantMatrixImpl) : Nat :=
  ((mat.nInChannels + UINT_MOD - 1) % UINT_MOD / MVMU_DIM + 1) % UINT_MOD

/-- `ConvolutionalConstantMatrixImpl::getNOutChannelTiles`. -/
def ConvolutionalConstantMatrixImpl.getNOutChannelTiles
    (mat : ConvolutionalConstantMatrixImpl) : Nat :=
  ((mat.nOutChannels + UINT_MOD - 1) % UINT_MOD / MVMU_DIM + 1) % UINT_MOD

/-- `ConvolutionalConstantMatrixImpl::getTile`; an access outside `tiles_` is `none`. -/
def ConvolutionalConstantMatrixImpl.getTile (mat : ConvolutionalConstantMatrixImpl)
    (kh kw h w : Nat) : Option Nat :=
  if kh < mat.kernelHeight ∧ kw < mat.kernelWidth ∧ h < mat.getNOutChannelTiles
      ∧ w < mat.getNInChannelTiles then some (mat.tile kh kw h w)
  else none

/-- A `TrainingMatrixImpl`: `width_`, `height_`, and the address `tile h w` of the tile
`tiles_[h][w]` that the constructor creates. -/
structure TrainingMatrixImpl where
  width : Nat
  height : Nat
  tile : Nat → Nat → Nat

/-- `TrainingMatrixImpl::nHeightTiles`. -/
def TrainingMatrixImpl.nHeightTiles (mat : TrainingMatrixImpl) : Nat :=
  ((mat.height + UINT_MOD - 1) % UINT_MOD / MVMU_DIM + 1) % UINT_MOD

/-- `TrainingMatrixImpl::nWidthTiles`. -/
def TrainingMatrixImpl.nWidthTiles (mat : TrainingMatrixImpl) : Nat :=
  ((mat.width + UINT_MOD - 1) % UINT_MOD / MVMU_DIM + 1) % UINT_MOD

/-- `TrainingMatrixImpl::getTile`; an access outside `tiles_` is `none`. -/
def TrainingMatrixImpl.getTile (mat : TrainingMatrixImpl) (h w : Nat) : Option Nat :=
  if h < mat.nHeightTiles ∧ w < mat.nWidthTiles then some (mat.tile h w) else none

/-! ## Data files of a model instance (`instance.cpp`) -/

/-- What `ModelInstanceImpl::generateData` writes for one position of a tile: the element
`matData[index]` of the bound data followed by a blank, or the text `0.0 `. -/
inductive WeightEntry where
  | data (index : Nat)
  | zero
  deriving DecidableEq, Repr

/-- The two inner loops of `ModelInstanceImpl::generateData` for the tile `(h, w)` of a
constant matrix: the entries written to the file of the tile, in order. The index is
computed in unsigned arithmetic. -/
def generateTileData (mat : ConstantMatrixImpl) (h w : Nat) : List WeightEntry :=
  (List.range MVMU_DIM).flatMap fun row =>
    (List.range MVMU_DIM).map fun col =>
      if row < mat.tileHeight h ∧ col < mat.tileWidth w then
        WeightEntry.data
          ((((((h * MVMU_DIM) % UINT_MOD + row) % UINT_MOD * mat.width) % UINT_MOD
            + (w * MVMU_DIM) % UINT_MOD) % UINT_MOD + col) % UINT_MOD)
      else WeightEntry.zero

/-- The loops of `ModelInstanceImpl::generateData` over the tiles of one constant matrix:
the contents of the files, in the order in which they are written. -/
def generateMatrixData (mat : ConstantMatrixImpl) : List (List WeightEntry) :=
  (List.range mat.nHeightTiles).flatMap fun h =>
    (List.range mat.nWidthTiles).map fun w => generateTileData mat h w
/-! ## The model (`model.h`, `model.cpp`) -/

/-- `ALUVectorOperation::OpCode`. -/
inductive OpCode where
  | ADD | SUB | MUL | DIV
  | MULI
  | AND | OR | NOT
  | EQ | NEQ | LT | LEQ | GT | GEQ
  | MIN | MAX
  | MSE
  | SIG | TANH | EXP | LOG | RELU | RELUD | LOG_SOFTMAX | LOG_SOFTMAXD | RNDCMP
  deriving DecidableEq, Repr

/-- The members of `ModelImpl` that the front end fills: `modelType_`, the vectors of
matrices, the operations with their edges, the member `opCode_` of the
`ALUVectorOperation`s among them, the users of the matrix tiles, and `coalesceableMVMSets_`
(each set in increasing order of address). -/
structure ModelImpl where
  modelType : ModelType
  constantMatrices : List ConstantMatrixImpl
  convolutionMatrices : List ConvolutionalConstantMatrixImpl
  trainingMatrices : List TrainingMatrixImpl
  g : Graph
  opCode : Nat → Option OpCode
  tileUsers : Nat → List Nat
  coalesceableMVMSets : List (List Nat)

/-- The constructor `ModelImpl::ModelImpl`. -/
def ModelImpl.create : ModelImpl :=
  { modelType := ModelType.UNSPECIALIZED, constantMatrices := [], convolutionMatrices := [],
    trainingMatrices := [], g := Graph.ofList [], opCode := fun _ => none,
    tileUsers := fun _ => [], coalesceableMVMSets := [] }

/-- `ModelImpl::addConstantMatrixImpl`; the failed assertion is `none`. -/
def ModelImpl.addConstantMatrixImpl (m : ModelImpl) (mat : ConstantMatrixImpl) :
    Option ModelImpl :=
  (if m.modelType = ModelType.UNSPECIALIZED then some ModelType.INFERENCE
   else if m.modelType = ModelType.INFERENCE then some m.modelType else none).map
    fun t => { m with modelType := t, constantMatrices := m.constantMatrices ++ [mat] }

/-- `ModelImpl::addConvolutionalConstantMatrixImpl`; the failed assertion is `none`. -/
def ModelImpl.addConvolutionalConstantMatrixImpl (m : ModelImpl)
    (mat : ConvolutionalConstantMatrixImpl) : Option ModelImpl :=
  (if m.modelType = ModelType.UNSPECIALIZED then some ModelType.INFERENCE
   else if m.modelType = ModelType.INFERENCE then some m.modelType else none).map
    fun t => { m with modelType := t, convolutionMatrices := m.convolutionMatrices ++ [mat] }

/-- `ModelImpl::addTrainingMatrixImpl`; the failed assertion is `none`. -/
def ModelImpl.addTrainingMatrixImpl (m : ModelImpl) (mat : TrainingMatrixImpl) :
    Option ModelImpl :=
  (if m.modelType = ModelType.UNSPECIALIZED then some ModelType.TRAINING
   else if m.modelType = ModelType.TRAINING then some m.modelType else none).map
    fun t => { m with modelType := t, trainingMatrices := m.trainingMatrices ++ [mat] }

/-- A matrix of one of the three kinds of the front end. -/
inductive AnyMatrix where
  | constant (mat : ConstantMatrixImpl)
  | convolutional (mat : ConvolutionalConstantMatrixImpl)
  | training (mat : TrainingMatrixImpl)

/-- The call of the `add...MatrixImpl` method that the constructor of the matrix makes. -/
def ModelImpl.addMatrix (m : ModelImpl) (x : AnyMatrix) : Option ModelImpl :=
  match x with
  | AnyMatrix.constant mat => m.addConstantMatrixImpl mat
  | AnyMatrix.convolutional mat => m.addConvolutionalConstantMatrixImpl mat
  | AnyMatrix.training mat => m.addTrainingMatrixImpl mat

/-- The model holds a training matrix. -/
def ModelImpl.holdsTraining (m : ModelImpl) : Bool := !m.trainingMatrices.isEmpty

/-- The model holds a constant or a convolutional matrix. -/
def ModelImpl.holdsInference (m : ModelImpl) : Bool :=
  !m.constantMatrices.isEmpty || !m.convolutionMatrices.isEmpty

/-- The model type agrees with the matrices of the model: it is UNSPECIALIZED when the
model holds no matrix, INFERENCE when it holds constant or convolutional matrices only, and
TRAINING when it holds training matrices only. -/
def ModelImpl.Typed (m : ModelImpl) : Prop :=
  (m.modelType = ModelType.UNSPECIALIZED ∧ m.holdsInference = false ∧ m.holdsTraining = false)
  ∨ (m.modelType = ModelType.INFERENCE ∧ m.holdsInference = true ∧ m.holdsTraining = false)
  ∨ (m.modelType = ModelType.TRAINING ∧ m.holdsInference = false ∧ m.holdsTraining = true)
/-! ## Partitioner: the order of the matrix tiles (`partitioner.cpp`) -/

/-- The loops of `Partitioner::assignVMVMUsInRowMajor` over the tiles of one
`ConstantMatrixImpl`; each tile is appended to `cmatTiles_`. -/
def Partitioner.pushConstantRowMajor (mat : ConstantMatrixImpl) (tiles : List Nat) :
    Option (List Nat) :=
  (List.range mat.nHeightTiles).foldlM (fun tiles h =>
    (List.range mat.nWidthTiles).foldlM (fun tiles w =>
      (mat.getTile h w).map fun t => tiles ++ [t]) tiles) tiles

/-- The loops of `Partitioner::assignVMVMUsInRowMajor` over the tiles of one
`ConvolutionalConstantMatrixImpl`. -/
def Partitioner.pushConvolutionalRowMajor (mat : ConvolutionalConstantMatrixImpl)
    (tiles : List Nat) : Option (List Nat) :=
  (List.range mat.kernelHeight).foldlM (fun tiles kh =>
    (List.range mat.kernelWidth).foldlM (fun tiles kw =>
      (List.range mat.getNOutChannelTiles).foldlM (fun tiles h =>
        (List.range mat.getNInChannelTiles).foldlM (fun tiles w =>
          (mat.getTile kh kw h w).map fun t => tiles ++ [t]) tiles) tiles) tiles) tiles

/-- The loops of `Partitioner::assignVMVMUsInRowMajor` over the tiles of one
`TrainingMatrixImpl`; each tile is appended to `tmatTiles_`. -/
def Partitioner.pushTrainingRowMajor (mat : TrainingMatrixImpl) (tiles : List Nat) :
    Option (List Nat) :=
  (List.range mat.nHeightTiles).foldlM (fun tiles h =>
    (List.range mat.nWidthTiles).foldlM (fun tiles w =>
      (mat.getTile h w).map fun t => tiles ++ [t]) tiles) tiles

/-- The loops of `Partitioner::assignVMVMUsInColMajor` over the tiles of one
`ConstantMatrixImpl`. -/
def Partitioner.pushConstantColMajor (mat : ConstantMatrixImpl) (tiles : List Nat) :
    Option (List Nat) :=
  (List.range mat.nWidthTiles).foldlM (fun tiles w =>
    (List.range mat.nHeightTiles).foldlM (fun tiles h =>
      (mat.getTile h w).map fun t => tiles ++ [t]) tiles) tiles

/-- The loops of `Partitioner::assignVMVMUsInColMajor` over the tiles of one
`ConvolutionalConstantMatrixImpl`. -/
def Partitioner.pushConvolutionalColMajor (mat : ConvolutionalConstantMatrixImpl)
    (tiles : List Nat) : Option (List Nat) :=
  (List.range mat.kernelHeight).foldlM (fun tiles kh =>
    (List.range mat.kernelWidth).foldlM (fun tiles kw =>
      (List.range mat.getNInChannelTiles).foldlM (fun tiles w =>
        (List.range mat.getNOutChannelTiles).foldlM (fun tiles h =>
          (mat.getTile kh kw h w).map fun t => tiles ++ [t]) tiles) tiles) tiles) tiles

/-- The loops of `Partitioner::assignVMVMUsInColMajor` over the tiles of one
`TrainingMatrixImpl`. -/
def Partitioner.pushTrainingColMajor (mat : TrainingMatrixImpl) (tiles : List Nat) :
    Option (List Nat) :=
  (List.range mat.nWidthTiles).foldlM (fun tiles w =>
    (List.range mat.nHeightTiles).foldlM (fun tiles h =>
      (mat.getTile h w).map fun t => tiles ++ [t]) tiles) tiles

/-- The extraction of the matrix tiles at the start of
`Partitioner::assignVMVMUsInRowMajor`: `cmatTiles_` for an inference model, `tmatTiles_` for
a training model. -/
def Partitioner.extractRowMajor (m : ModelImpl) : Option (List Nat) :=
  if m.modelType = ModelType.INFERENCE then
    (m.constantMatrices.foldlM (fun tiles mat =>
        Partitioner.pushConstantRowMajor mat tiles) []).bind fun tiles =>
      m.convolutionMatrices.foldlM (fun tiles mat =>
        Partitioner.pushConvolutionalRowMajor mat tiles) tiles
  else if m.modelType = ModelType.TRAINING then
    m.trainingMatrices.foldlM (fun tiles mat => Partitioner.pushTrainingRowMajor mat tiles) []
  else some []

/-- The extraction of the matrix tiles at the start of
`Partitioner::assignVMVMUsInColMajor`. -/
def Partitioner.extractColMajor (m : ModelImpl) : Option (List Nat) :=
  if m.modelType = ModelType.INFERENCE then
    (m.constantMatrices.foldlM (fun tiles mat =>
        Partitioner.pushConstantColMajor mat tiles) []).bind fun tiles =>
      m.convolutionMatrices.foldlM (fun tiles mat =>
        Partitioner.pushConvolutionalColMajor mat tiles) tiles
  else if m.modelType = ModelType.TRAINING then
    m.trainingMatrices.foldlM (fun tiles mat => Partitioner.pushTrainingColMajor mat tiles) []
  else some []

/-- `Partitioner::assignVMVMUsInRowMajor`. -/
def Partitioner.assignVMVMUsInRowMajor (m : ModelImpl) (fuel : Nat) : Option Assignment :=
  (Partitioner.extractRowMajor m).bind fun tiles =>
    assignVMVMUsAndSpreadAffinity m.g fuel m.modelType tiles m.tileUsers

/-- `Partitioner::assignVMVMUsInColMajor`. -/
def Partitioner.assignVMVMUsInColMajor (m : ModelImpl) (fuel : Nat) : Option Assignment :=
  (Partitioner.extractColMajor m).bind fun tiles =>
    assignVMVMUsAndSpreadAffinity m.g fuel m.modelType tiles m.tileUsers

/-- The matrix is a `ConstantMatrixImpl`. -/
def AnyMatrix.isConstant : AnyMatrix → Bool
  | AnyMatrix.constant _ => true
  | _ => false

/-- The matrix is a `ConvolutionalConstantMatrixImpl`. -/
def AnyMatrix.isConvolutional : AnyMatrix → Bool
  | AnyMatrix.convolutional _ => true
  | _ => false

/-- The matrix is a `TrainingMatrixImpl`. -/
def AnyMatrix.isTraining : AnyMatrix → Bool
  | AnyMatrix.training _ => true
  | _ => false

/-- The tiles of a matrix, rows of tiles first; for a convolutional matrix the kernel
position comes first. -/
def AnyMatrix.rowMajorTiles : AnyMatrix → List Nat
  | AnyMatrix.constant mat =>
    (List.range mat.nHeightTiles).flatMap fun h =>
      (List.range mat.nWidthTiles).map fun w => mat.tile h w
  | AnyMatrix.convolutional mat =>
    (List.range mat.kernelHeight).flatMap fun kh =>
      (List.range mat.kernelWidth).flatMap fun kw =>
        (List.range mat.getNOutChannelTiles).flatMap fun h =>
          (List.range mat.getNInChannelTiles).map fun w => mat.tile kh kw h w
  | AnyMatrix.training mat =>
    (List.range mat.nHeightTiles).flatMap fun h =>
      (List.range mat.nWidthTiles).map fun w => mat.tile h w

/-- The tiles of a matrix, columns of tiles first; for a convolutional matrix the kernel
position comes first. -/
def AnyMatrix.colMajorTiles : AnyMatrix → List Nat
  | AnyMatrix.constant mat =>
    (List.range mat.nWidthTiles).flatMap fun w =>
      (List.range mat.nHeightTiles).map fun h => mat.tile h w
  | AnyMatrix.convolutional mat =>
    (List.range mat.kernelHeight).flatMap fun kh =>
      (List.range mat.kernelWidth).flatMap fun kw =>
        (List.range mat.getNInChannelTiles).flatMap fun w =>
          (List.range mat.getNOutChannelTiles).map fun h => mat.tile kh kw h w
  | AnyMatrix.training mat =>
    (List.range mat.nWidthTiles).flatMap fun w =>
      (List.range mat.nHeightTiles).map fun h => mat.tile h w

/-- The matrices created in the order `l`, in the order in which the partitioner visits
them: the constant matrices, then the convolutional matrices, then the training matrices,
each kind in the order of creation. -/
def AnyMatrix.visitOrder (l : List AnyMatrix) : List AnyMatrix :=
  l.filter AnyMatrix.isConstant ++ l.filter AnyMatrix.isConvolutional
    ++ l.filter AnyMatrix.isTraining

/-- The matrix tiles `tiles` are numbered in their order from virtual MVMU 2 on, and every
user of a tile has the virtual MVMU of the tile. -/
structure Assignment.NumbersTiles (s : Assignment) (tileUsers : Nat → List Nat)
    (tiles : List Nat) : Prop where
  count : s.nVMVMUs = 2 + tiles.length
  tile : ∀ (i : Nat) (t : Nat), tiles[i]? = some t → s.mat2vmvmu t = some (2 + i)
  other : ∀ t, t ∉ tiles → s.mat2vmvmu t = none
  distinct : ∀ t t', t ∈ tiles → t' ∈ tiles → t ≠ t' → s.mat2vmvmu t ≠ s.mat2vmvmu t'
  user : ∀ t op, t ∈ tiles → op ∈ tileUsers t → s.op2vmvmu op = s.mat2vmvmu t

/-- The partitioner visits the tiles of `A` before those of `B` whenever `A` is created
before `B`: both are of the same kind, or `A` is a constant and `B` a convolutional
matrix. -/
def AnyMatrix.visitedInCreationOrder (A B : AnyMatrix) : Bool :=
  (A.isConstant && B.isConstant) || (A.isConvolutional && B.isConvolutional)
    || (A.isTraining && B.isTraining) || (A.isConstant && B.isConvolutional)

/-- A convolutional matrix with a kernel of one by one, one input and one output channel,
whose only tile has the address 100. -/
def pointwiseKernel : ConvolutionalConstantMatrixImpl :=
  { kernelWidth := 1, kernelHeight := 1, nInChannels := 1, nOutChannels := 1,
    tile := fun _ _ _ _ => 100 }

/-- A constant matrix of one tile, which has the address 200. -/
def oneTileMatrix : ConstantMatrixImpl :=
  { width := 1, height := 1, tile := fun _ _ => 200 }

/-- The constant matrix of `fourTileGraph`: 200 by 200 elements in two by two tiles; the
tile `(h, w)` has the number `2 * h + w`. -/
def fourTileMatrix : ConstantMatrixImpl :=
  { width := 200, height := 200, tile := fun h w => 2 * h + w }

/-- A training matrix of one tile, which has the address 300. -/
def oneTileTrainingMatrix : TrainingMatrixImpl :=
  { width := 1, height := 1, tile := fun _ _ => 300 }

/-! ## The front end: the matrix-vector product (`tensors.cpp`, `operations.cpp`) -/

/-- A `VectorImpl`: `length_` and `tiles_`; an entry of `tiles_` is `NULL` (`none`) until
`setTile` fills it. -/
structure VectorImpl where
  length : Nat
  tiles : List (Option Nat)

/-- `VectorImpl::VectorImpl`. -/
def VectorImpl.create (length : Nat) : VectorImpl :=
  { length := length, tiles := List.replicate (AbstractVector.nTiles length) none }

/-- `VectorImpl::nTiles`. -/
def VectorImpl.nTiles (v : VectorImpl) : Nat := AbstractVector.nTiles v.length

/-- `VectorImpl::getTile`; the failed assertion and an access outside `tiles_` are `none`. -/
def VectorImpl.getTile (v : VectorImpl) (t : Nat) : Option Nat := (v.tiles[t]?).bind id

/-- `VectorImpl::setTile`; the failed assertion and an access outside `tiles_` are `none`. -/
def VectorImpl.setTile (v : VectorImpl) (t producer : Nat) : Option VectorImpl :=
  match v.tiles[t]? with
  | some none => some { v with tiles := v.tiles.set t (some producer) }
  | _ => none

/-- `MVMOperation::MVMOperation` for the matrix tile `mat`, whose `width()` and `height()`
are `matWidth` and `matHeight`, and the operand `op`; returns the new object and the
model. -/
def ModelImpl.newMVM (m : ModelImpl) (mat matWidth matHeight op : Nat) :
    Option (Nat × ModelImpl) :=
  if matWidth = m.g.length op ∧ matWidth ≤ MVMU_DIM ∧ matHeight ≤ MVMU_DIM then
    let id := m.g.fresh
    let g := m.g.alloc OpClass.MVMOperation matHeight
    let g := Graph.addUser { g with operands := upd g.operands id [op] } op id
    some (id, { m with g := { g with mat := upd g.mat id mat },
                       tileUsers := upd m.tileUsers mat (m.tileUsers mat ++ [id]) })
  else none

/-- The operation codes in the `switch` of `ALUVectorOperation::ALUVectorOperation`, which
take two operands. -/
def OpCode.isBinary : OpCode → Bool
  | OpCode.ADD | OpCode.SUB | OpCode.MUL | OpCode.DIV | OpCode.AND | OpCode.OR | OpCode.EQ
  | OpCode.NEQ | OpCode.LT | OpCode.LEQ | OpCode.GT | OpCode.GEQ | OpCode.MIN | OpCode.MAX
  | OpCode.MSE => true
  | _ => false

/-- `ALUVectorOperation::ALUVectorOperation(model, opCode, src1, src2)` with two operands
that are not `NULL`; returns the new object and the model. -/
def ModelImpl.newALUVector (m : ModelImpl) (opCode : OpCode) (src1 src2 : Nat) :
    Option (Nat × ModelImpl) :=
  if opCode = OpCode.MULI then none
  else if opCode.isBinary = true ∧ m.g.length src1 ≠ m.g.length src2 then none
  else
    let id := m.g.fresh
    let g := m.g.alloc OpClass.ALUVectorOperation (m.g.length src1)
    let g := Graph.addUser { g with operands := upd g.operands id [src1] } src1 id
    let g := Graph.addUser { g with operands := upd g.operands id (g.operands id ++ [src2]) }
      src2 id
    some (id, { m with g := g, opCode := upd m.opCode id (some opCode) })

/-- The state of the loops of `operator*(ConstantMatrix, Vector)`: the result `y`, the array
`accum` of the current row (an entry not yet written is `none`), the model and
`coalesceableMVMSet`. -/
structure ProductState where
  y : VectorImpl
  accum : Nat → Option Nat
  model : ModelImpl
  coalesceableMVMSet : List Nat

/-- The body of the inner loop of `operator*(ConstantMatrix, Vector)` for the tile
`(h, w)`. -/
def productTile (M : ConstantMatrixImpl) (x : VectorImpl) (h : Nat) (st : ProductState)
    (w : Nat) : Option ProductState :=
  (M.getTile h w).bind fun mat =>
  (x.getTile w).bind fun op =>
  (st.model.newMVM mat (M.tileWidth w) (M.tileHeight h) op).bind fun r =>
  let set := setInsert st.coalesceableMVMSet r.1
  if w = 0 then
    some { st with accum := upd st.accum w (some r.1), model := r.2,
                   coalesceableMVMSet := set }
  else
    (st.accum (w - 1)).bind fun previous =>
    (r.2.newALUVector OpCode.ADD r.1 previous).map fun a =>
      { st with accum := upd st.accum w (some a.1), model := a.2, coalesceableMVMSet := set }

/-- The body of the outer loop of `operator*(ConstantMatrix, Vector)` for the row `h` of
tiles. -/
def productRow (M : ConstantMatrixImpl) (x : VectorImpl) (st : ProductState) (h : Nat) :
    Option ProductState :=
  ((List.range x.nTiles).foldlM (productTile M x h) { st with accum := fun _ => none }).bind
    fun st =>
  (st.accum ((x.nTiles + UINT_MOD - 1) % UINT_MOD)).bind fun last =>
  (st.y.setTile h last).map fun y => { st with y := y }

/-- `operator*(ConstantMatrix, Vector)`: returns the vector `y` and the model. -/
def operatorMulConstantMatrix (M : ConstantMatrixImpl) (m : ModelImpl) (x : VectorImpl) :
    Option (VectorImpl × ModelImpl) :=
  let y := VectorImpl.create M.height
  if M.width = x.length then
    ((List.range y.nTiles).foldlM (productRow M x)
      { y := y, accum := fun _ => none, model := m, coalesceableMVMSet := [] }).map fun st =>
      (st.y, { st.model with
        coalesceableMVMSets := st.model.coalesceableMVMSets ++ [st.coalesceableMVMSet] })
  else none

/-- The address of the MVM of the tile `(h, w)` in a product of `W` columns of tiles whose
first new operation has the address `first`. -/
def productMVM (first W h w : Nat) : Nat := first + h * (2 * W - 1) + (2 * w - 1)

/-- The address of the partial sum of the tiles `(h, 0)` to `(h, w)`: the MVM for `w = 0`,
an ADD otherwise. -/
def productSum (first W h w : Nat) : Nat := first + h * (2 * W - 1) + 2 * w

/-- The tile `(h', w')` comes before the tile `(h, k)` in the loops of the product. -/
def productDone (W h k h' w' : Nat) : Prop := (h' < h ∧ w' < W) ∨ (h' = h ∧ w' < k)

/-- The model `mc` when `operator*(ConstantMatrix, Vector)` on the model `m` is about to
visit the tile `(h, k)`: the operations created for the tiles before `(h, k)`, and nothing
else changed. -/
structure ProductInv (M : ConstantMatrixImpl) (m : ModelImpl) (x : VectorImpl) (h k : Nat)
    (mc : ModelImpl) : Prop where
  fresh : mc.g.fresh = productMVM m.g.fresh M.nWidthTiles h k
  operations : ∀ i, i ∈ mc.g.operations ↔
    i ∈ m.g.operations ∨ (m.g.fresh ≤ i ∧ i < mc.g.fresh)
  old : ∀ i, i < m.g.fresh → mc.g.cls i = m.g.cls i ∧ mc.g.operands i = m.g.operands i
    ∧ mc.g.length i = m.g.length i ∧ mc.g.mat i = m.g.mat i ∧ mc.opCode i = m.opCode i
  mvm : ∀ h' w', productDone M.nWidthTiles h k h' w' →
    productMVM m.g.fresh M.nWidthTiles h' w' < mc.g.fresh
    ∧ mc.g.cls (productMVM m.g.fresh M.nWidthTiles h' w') = OpClass.MVMOperation
    ∧ (∃ p, x.getTile w' = some p
        ∧ mc.g.operands (productMVM m.g.fresh M.nWidthTiles h' w') = [p])
    ∧ mc.g.mat (productMVM m.g.fresh M.nWidthTiles h' w') = M.tile h' w'
    ∧ mc.g.length (productMVM m.g.fresh M.nWidthTiles h' w') = M.tileHeight h'
    ∧ productMVM m.g.fresh M.nWidthTiles h' w' ∈ mc.tileUsers (M.tile h' w')
  add : ∀ h' w', 1 ≤ w' → productDone M.nWidthTiles h k h' w' →
    productSum m.g.fresh M.nWidthTiles h' w' < mc.g.fresh
    ∧ mc.g.cls (productSum m.g.fresh M.nWidthTiles h' w') = OpClass.ALUVectorOperation
    ∧ mc.opCode (productSum m.g.fresh M.nWidthTiles h' w') = some OpCode.ADD
    ∧ mc.g.operands (productSum m.g.fresh M.nWidthTiles h' w')
        = [productMVM m.g.fresh M.nWidthTiles h' w',
           productSum m.g.fresh M.nWidthTiles h' (w' - 1)]
    ∧ mc.g.length (productSum m.g.fresh M.nWidthTiles h' w') = M.tileHeight h'
  created : ∀ i, m.g.fresh ≤ i → i < mc.g.fresh →
    ∃ h' w', productDone M.nWidthTiles h k h' w'
      ∧ (i = productMVM m.g.fresh M.nWidthTiles h' w'
        ∨ (1 ≤ w' ∧ i = productSum m.g.fresh M.nWidthTiles h' w'))
  sets : mc.coalesceableMVMSets = m.coalesceableMVMSets
  matrices : mc.modelType = m.modelType ∧ mc.constantMatrices = m.constantMatrices
    ∧ mc.convolutionMatrices = m.convolutionMatrices
    ∧ mc.trainingMatrices = m.trainingMatrices

/-- The MVMs of the tiles before `(h, k)`, in the order of creation. -/
def productMVMs (first W h k : Nat) : List Nat :=
  ((List.range h).flatMap fun h' => (List.range W).map (productMVM first W h'))
    ++ (List.range k).map (productMVM first W h)

/-- The state of the inner loop of the product before the tile `(h, k)`. -/
structure ProductTileInv (M : ConstantMatrixImpl) (m : ModelImpl) (x : VectorImpl)
    (y : VectorImpl) (h k : Nat) (st : ProductState) : Prop where
  model : ProductInv M m x h k st.model
  accum : ∀ w, w < k → st.accum w = some (productSum m.g.fresh M.nWidthTiles h w)
  set : st.coalesceableMVMSet = productMVMs m.g.fresh M.nWidthTiles h k
  below : ∀ a, a ∈ st.coalesceableMVMSet → a < st.model.g.fresh
  result : st.y = y

/-- The state of the outer loop of the product before the row `h`. -/
structure ProductRowInv (M : ConstantMatrixImpl) (m : ModelImpl) (x : VectorImpl) (h : Nat)
    (st : ProductState) : Prop where
  model : ProductInv M m x h 0 st.model
  set : st.coalesceableMVMSet = productMVMs m.g.fresh M.nWidthTiles h 0
  below : ∀ a, a ∈ st.coalesceableMVMSet → a < st.model.g.fresh
  length : st.y.length = M.height
  tiles : st.y.tiles = (List.range h).map (fun h' =>
      some (productSum m.g.fresh M.nWidthTiles h' (M.nWidthTiles - 1)))
    ++ List.replicate (M.nHeightTiles - h) none

/-- The effect of the body of the inner loop of the product for the tile `(h, k)` on the
model: `mc` before, `m'` after. -/
structure ProductStep (M : ConstantMatrixImpl) (m : ModelImpl) (x : VectorImpl) (h k : Nat)
    (mc m' : ModelImpl) : Prop where
  fresh : m'.g.fresh = productMVM m.g.fresh M.nWidthTiles h (k + 1)
  operations : ∀ i, i ∈ m'.g.operations ↔
    i ∈ mc.g.operations ∨ (mc.g.fresh ≤ i ∧ i < m'.g.fresh)
  old : ∀ i, i < mc.g.fresh → m'.g.cls i = mc.g.cls i ∧ m'.g.operands i = mc.g.operands i
    ∧ m'.g.length i = mc.g.length i ∧ m'.g.mat i = mc.g.mat i ∧ m'.opCode i = mc.opCode i
  users : ∀ t a, a ∈ mc.tileUsers t → a ∈ m'.tileUsers t
  mvm : m'.g.cls (productMVM m.g.fresh M.nWidthTiles h k) = OpClass.MVMOperation
    ∧ (∃ p, x.getTile k = some p
        ∧ m'.g.operands (productMVM m.g.fresh M.nWidthTiles h k) = [p])
    ∧ m'.g.mat (productMVM m.g.fresh M.nWidthTiles h k) = M.tile h k
    ∧ m'.g.length (productMVM m.g.fresh M.nWidthTiles h k) = M.tileHeight h
    ∧ productMVM m.g.fresh M.nWidthTiles h k ∈ m'.tileUsers (M.tile h k)
  add : 1 ≤ k →
    m'.g.cls (productSum m.g.fresh M.nWidthTiles h k) = OpClass.ALUVectorOperation
    ∧ m'.opCode (productSum m.g.fresh M.nWidthTiles h k) = some OpCode.ADD
    ∧ m'.g.operands (productSum m.g.fresh M.nWidthTiles h k)
        = [productMVM m.g.fresh M.nWidthTiles h k,
           productSum m.g.fresh M.nWidthTiles h (k - 1)]
    ∧ m'.g.length (productSum m.g.fresh M.nWidthTiles h k) = M.tileHeight h
  sets : m'.coalesceableMVMSets = mc.coalesceableMVMSets
  matrices : m'.modelType = mc.modelType ∧ m'.constantMatrices = mc.constantMatrices
    ∧ m'.convolutionMatrices = mc.convolutionMatrices
    ∧ m'.trainingMatrices = mc.trainingMatrices

/-- The result `y` and the model `m'` of `operator*(ConstantMatrix, Vector)` on the matrix
`M` and the model `m`, where `H` by `W` are the numbers of tiles of `M`: the new operations
have the `H * (2 * W - 1)` addresses from `m.g.fresh` on; the MVM of the tile `(h, w)` has
the address `productMVM`, uses the tile and reads the tile `w` of `x`; for `w ≥ 1` the ADD at
the address `productSum` adds this MVM to the partial sum of the tiles before it; every new
operation is one of these, and different positions give different operations; the tile `h`
of `y` is the last partial sum of the row; one hint set is appended, which holds the
`H * W` MVMs; the operations that existed are unchanged. -/
structure ProductResult (M : ConstantMatrixImpl) (m : ModelImpl) (x y : VectorImpl)
    (m' : ModelImpl) : Prop where
  fresh : m'.g.fresh = m.g.fresh + M.nHeightTiles * (2 * M.nWidthTiles - 1)
  operations : ∀ i, i ∈ m'.g.operations ↔
    i ∈ m.g.operations
      ∨ (m.g.fresh ≤ i ∧ i < m.g.fresh + M.nHeightTiles * (2 * M.nWidthTiles - 1))
  old : ∀ i, i < m.g.fresh → m'.g.cls i = m.g.cls i ∧ m'.g.operands i = m.g.operands i
    ∧ m'.g.length i = m.g.length i ∧ m'.g.mat i = m.g.mat i ∧ m'.opCode i = m.opCode i
  mvm : ∀ h w, h < M.nHeightTiles → w < M.nWidthTiles →
    productMVM m.g.fresh M.nWidthTiles h w ∈ m'.g.operations
    ∧ m'.g.cls (productMVM m.g.fresh M.nWidthTiles h w) = OpClass.MVMOperation
    ∧ (∃ p, x.getTile w = some p
        ∧ m'.g.operands (productMVM m.g.fresh M.nWidthTiles h w) = [p])
    ∧ m'.g.mat (productMVM m.g.fresh M.nWidthTiles h w) = M.tile h w
    ∧ m'.g.length (productMVM m.g.fresh M.nWidthTiles h w) = M.tileHeight h
    ∧ productMVM m.g.fresh M.nWidthTiles h w ∈ m'.tileUsers (M.tile h w)
  add : ∀ h w, h < M.nHeightTiles → 1 ≤ w → w < M.nWidthTiles →
    productSum m.g.fresh M.nWidthTiles h w ∈ m'.g.operations
    ∧ m'.g.cls (productSum m.g.fresh M.nWidthTiles h w) = OpClass.ALUVectorOperation
    ∧ m'.opCode (productSum m.g.fresh M.nWidthTiles h w) = some OpCode.ADD
    ∧ m'.g.operands (productSum m.g.fresh M.nWidthTiles h w)
        = [productMVM m.g.fresh M.nWidthTiles h w,
           productSum m.g.fresh M.nWidthTiles h (w - 1)]
  created : ∀ i, m.g.fresh ≤ i → i < m'.g.fresh →
    ∃ h w, h < M.nHeightTiles ∧ w < M.nWidthTiles
      ∧ (i = productMVM m.g.fresh M.nWidthTiles h w
        ∨ (1 ≤ w ∧ i = productSum m.g.fresh M.nWidthTiles h w))
  distinct : ∀ h w h' w', w < M.nWidthTiles → w' < M.nWidthTiles →
    (productMVM m.g.fresh M.nWidthTiles h w = productMVM m.g.fresh M.nWidthTiles h' w' →
      h = h' ∧ w = w')
    ∧ (productSum m.g.fresh M.nWidthTiles h w = productSum m.g.fresh M.nWidthTiles h' w' →
      h = h' ∧ w = w')
  length : y.length = M.height
  tiles : y.tiles = (List.range M.nHeightTiles).map fun h =>
    some (productSum m.g.fresh M.nWidthTiles h (M.nWidthTiles - 1))
  sets : m'.coalesceableMVMSets = m.coalesceableMVMSets
    ++ [(List.range M.nHeightTiles).flatMap fun h =>
          (List.range M.nWidthTiles).map (productMVM m.g.fresh M.nWidthTiles h)]
  count : ((List.range M.nHeightTiles).flatMap fun h =>
      (List.range M.nWidthTiles).map (productMVM m.g.fresh M.nWidthTiles h)).length
    = M.nHeightTiles * M.nWidthTiles

/-- The model of the program `y = M * x` before the product: the pseudo inputs 1 and 2 of
the two tiles of `x`, of 128 and 72 elements. -/
def twoInputsModel : ModelImpl :=
  { ModelImpl.create with
    modelType := ModelType.INFERENCE, constantMatrices := [fourTileMatrix],
    g := Graph.ofList
      [ { id := 1, cls := OpClass.PseudoInputOperation, ioTile := 0 },
        { id := 2, cls := OpClass.PseudoInputOperation, length := 72, ioTile := 1 } ] }

/-- The vector `x` of 200 elements of `twoInputsModel`. -/
def twoInputsVector : VectorImpl := { length := 200, tiles := [some 1, some 2] }

/-! ## The front end: the convolution (`tensors.cpp`, `operations.cpp`) -/

/-- An `ImagePixelStreamTile`: the image size, `nChannels_` and `stream_`, whose entries are
`NULL` (`none`) until `add` fills them. -/
structure ImagePixelStreamTile where
  imageWidth : Nat
  imageHeight : Nat
  nChannels : Nat
  stream : Nat → Nat → Option Nat

/-- `ImagePixelStreamTile::ImagePixelStreamTile`. -/
def ImagePixelStreamTile.create (imageWidth imageHeight nChannels : Nat) :
    ImagePixelStreamTile :=
  { imageWidth := imageWidth, imageHeight := imageHeight, nChannels := nChannels,
    stream := fun _ _ => none }

/-- `ImagePixelStreamTile::add` of the operation `vec` of length `vecLength`; the failed
assertion and an access outside `stream_` are `none`. -/
def ImagePixelStreamTile.add (t : ImagePixelStreamTile) (h w vec vecLength : Nat) :
    Option ImagePixelStreamTile :=
  if vecLength = t.nChannels ∧ h < t.imageHeight ∧ w < t.imageWidth then
    some { t with stream := fun i j => if i = h ∧ j = w then some vec else t.stream i j }
  else none

/-- `ImagePixelStreamTile::get`; `NULL` and an access outside `stream_` are `none`. -/
def ImagePixelStreamTile.get (t : ImagePixelStreamTile) (h w : Nat) : Option Nat :=
  if h < t.imageHeight ∧ w < t.imageWidth then t.stream h w else none

/-- An `ImagePixelStreamImpl`: the image size, `nChannels_` and the tiles `tiles_`. -/
structure ImagePixelStreamImpl where
  imageWidth : Nat
  imageHeight : Nat
  nChannels : Nat
  tiles : List ImagePixelStreamTile

/-- `ImagePixelStreamImpl::ImagePixelStreamImpl`. -/
def ImagePixelStreamImpl.create (imageWidth imageHeight nChannels : Nat) :
    ImagePixelStreamImpl :=
  { imageWidth := imageWidth, imageHeight := imageHeight, nChannels := nChannels,
    tiles := (List.range (AbstractVector.nTiles nChannels)).map fun i =>
      ImagePixelStreamTile.create imageWidth imageHeight (vectorTileSize nChannels i) }

/-- `ImagePixelStreamImpl::getTile`; an access outside `tiles_` is `none`. -/
def ImagePixelStreamImpl.getTile (s : ImagePixelStreamImpl) (t : Nat) :
    Option ImagePixelStreamTile := s.tiles[t]?

/-- The height that `ConvolutionalConstantMatrixImpl::ConvolutionalConstantMatrixImpl` gives
to the tiles of the output channel tile `h`. -/
def ConvolutionalConstantMatrixImpl.tileHeight (mat : ConvolutionalConstantMatrixImpl)
    (h : Nat) : Nat :=
  if h = (mat.getNOutChannelTiles + UINT_MOD - 1) % UINT_MOD ∧ mat.nOutChannels % MVMU_DIM > 0
  then mat.nOutChannels % MVMU_DIM
  else MVMU_DIM

/-- The width that `ConvolutionalConstantMatrixImpl::ConvolutionalConstantMatrixImpl` gives
to the tiles of the input channel tile `w`. -/
def ConvolutionalConstantMatrixImpl.tileWidth (mat : ConvolutionalConstantMatrixImpl)
    (w : Nat) : Nat :=
  if w = (mat.getNInChannelTiles + UINT_MOD - 1) % UINT_MOD ∧ mat.nInChannels % MVMU_DIM > 0
  then mat.nInChannels % MVMU_DIM
  else MVMU_DIM

/-- `SetImmediateOperation::SetImmediateOperation` on the model. -/
def ModelImpl.newSetImmediate (m : ModelImpl) (imm len : Nat) : Nat × ModelImpl :=
  ((m.g.newSetImmediate imm len).1, { m with g := (m.g.newSetImmediate imm len).2 })

/-- The state of the loops of `operator*(ConvolutionalConstantMatrix, ImagePixelStream)`:
the array `ys` (an entry not yet written is `none`) and the model. -/
structure ConvolutionState where
  ys : Nat → Option ImagePixelStreamImpl
  model : ModelImpl

/-- The values `lo, lo + 1, ...` of an `int` loop variable that takes `n` values. -/
def intRange (lo : Int) (n : Nat) : List Int := (List.range n).map fun i => lo + i

/-- The body of the two innermost loops of the convolution for the padded pixel
`(hi, wi)`; `accumStreamIn` is `none` for `NULL`. -/
def convolutionPixel (M : ConvolutionalConstantMatrixImpl) (xs : ImagePixelStreamImpl)
    (kh kw h w accumIdx mat : Nat) (imageStream : ImagePixelStreamTile)
    (accumStreamIn : Option ImagePixelStreamTile) (st : ConvolutionState) (hi wi : Int) :
    Option ConvolutionState :=
  let ho : Int := hi + (M.kernelHeight / 2 : Nat) - kh
  let wo : Int := wi + (M.kernelWidth / 2 : Nat) - kw
  let inputInBounds : Bool :=
    decide (0 ≤ hi ∧ hi < xs.imageHeight ∧ 0 ≤ wi ∧ wi < xs.imageWidth)
  let outputInBounds : Bool :=
    decide (0 ≤ ho ∧ ho < xs.imageHeight ∧ 0 ≤ wo ∧ wo < xs.imageWidth)
  if outputInBounds then
    (if inputInBounds then
      (imageStream.get hi.toNat wi.toNat).bind fun pixel =>
        st.model.newMVM mat (M.tileWidth w) (M.tileHeight h) pixel
    else some (st.model.newSetImmediate 0 (M.tileHeight h))).bind fun producer =>
    (if accumIdx = 0 then some producer
    else
      (accumStreamIn.bind fun s => s.get ho.toNat wo.toNat).bind fun previous =>
        producer.2.newALUVector OpCode.ADD producer.1 previous).bind fun sum =>
    (st.ys accumIdx).bind fun y =>
    (y.getTile h).bind fun accumStreamOut =>
    (accumStreamOut.add ho.toNat wo.toNat sum.1 (sum.2.g.length sum.1)).map fun tile =>
      { ys := upd st.ys accumIdx (some { y with tiles := y.tiles.set h tile }),
        model := sum.2 }
  else some st

/-- The body of the loop over the output channel tiles `h` of the convolution. -/
def convolutionTile (M : ConvolutionalConstantMatrixImpl) (xs : ImagePixelStreamImpl)
    (kh kw w accumIdx : Nat) (st : ConvolutionState) (h : Nat) : Option ConvolutionState :=
  (M.getTile kh kw h w).bind fun mat =>
  (xs.getTile w).bind fun imageStream =>
  (if accumIdx = 0 then some none
   else ((st.ys (accumIdx - 1)).bind fun y => y.getTile h).map some).bind fun accumStreamIn =>
  ((st.ys accumIdx).bind fun y => y.getTile h).bind fun _ =>
  (intRange (-((M.kernelHeight / 2 : Nat) : Int))
      (xs.imageHeight + M.kernelHeight / 2 + M.kernelHeight / 2)).foldlM (fun st hi =>
    (intRange (-((M.kernelHeight / 2 : Nat) : Int))
        (xs.imageWidth + M.kernelHeight / 2 + M.kernelHeight / 2)).foldlM (fun st wi =>
      convolutionPixel M xs kh kw h w accumIdx mat imageStream accumStreamIn st hi wi) st) st

/-- The body of the loop over the input channel tiles `w` of the convolution. -/
def convolutionAccumulation (M : ConvolutionalConstantMatrixImpl) (xs : ImagePixelStreamImpl)
    (kh kw : Nat) (st : ConvolutionState) (w : Nat) : Option ConvolutionState :=
  let accumIdx := (kh * M.kernelWidth + kw) * M.getNInChannelTiles + w
  (List.range M.getNOutChannelTiles).foldlM (convolutionTile M xs kh kw w accumIdx)
    { st with
      ys := upd st.ys accumIdx
        (some (ImagePixelStreamImpl.create xs.imageWidth xs.imageHeight M.nOutChannels)) }

/-- `operator*(ConvolutionalConstantMatrix, ImagePixelStream)`: returns the stream
`ys[kernelHeight*kernelWidth*nInChannelTiles - 1]` and the model. -/
def operatorMulConvolutionalConstantMatrix (M : ConvolutionalConstantMatrixImpl)
    (m : ModelImpl) (xs : ImagePixelStreamImpl) : Option (ImagePixelStreamImpl × ModelImpl) :=
  if M.nInChannels = xs.nChannels then
    ((List.range M.kernelHeight).foldlM (fun st kh =>
      (List.range M.kernelWidth).foldlM (fun st kw =>
        (List.range M.getNInChannelTiles).foldlM (convolutionAccumulation M xs kh kw) st) st)
      { ys := fun _ => none, model := m }).bind fun st =>
    if M.kernelHeight * M.kernelWidth * M.getNInChannelTiles = 0 then none
    else (st.ys (M.kernelHeight * M.kernelWidth * M.getNInChannelTiles - 1)).map fun y =>
      (y, st.model)
  else none

/-- A convolutional matrix with a kernel of one by one, one input channel and 129 output
channels, that is one input channel tile and two output channel tiles. -/
def twoOutputTilesKernel : ConvolutionalConstantMatrixImpl :=
  { kernelWidth := 1, kernelHeight := 1, nInChannels := 1, nOutChannels := 129,
    tile := fun _ _ h _ => 100 + h }

/-- The model of a convolution of an image of one pixel before the product: the pseudo
input 1 of the pixel, of one channel. -/
def onePixelModel : ModelImpl :=
  { ModelImpl.create with
    modelType := ModelType.INFERENCE, convolutionMatrices := [twoOutputTilesKernel],
    g := Graph.ofList [ { id := 1, cls := OpClass.PseudoInputOperation, length := 1 } ] }

/-- The image pixel stream of `onePixelModel`: one tile, whose pixel `(0, 0)` is the
operation 1. -/
def onePixelStream : ImagePixelStreamImpl :=
  { imageWidth := 1, imageHeight := 1, nChannels := 1,
    tiles := [ { imageWidth := 1, imageHeight := 1, nChannels := 1,
                 stream := fun _ _ => some 1 } ] }

/-- The coalesced sets during the hint-based phase of `Coalescer::coalesceMVMOperations`,
while the hint set `H` is handled and `loc` is the local map of its sets: a slot holds an
MVM whose back link is the set, and a back link leads to a set that holds the MVM and lies
below the next fresh address; a set with a member is complete or is a set of the local map;
the members of a set belong to one hint set; the sets of the local map lie below the next
fresh address and their members belong to `H`. With no local set this is the state between
two hint sets and after the phase. -/
structure HintInv (hints : List (List Nat)) (H : List Nat) (c : Coalescer)
    (loc : List ((Nat × Nat) × Nat)) : Prop where
  link : ∀ (cs i m : Nat), (c.mvms cs)[i]? = some (some m) → c.coalescedSet m = some cs
  back : ∀ (m cs : Nat), c.coalescedSet m = some cs →
    ∃ (i : Nat), (c.mvms cs)[i]? = some (some m)
  bound : ∀ (m cs : Nat), c.coalescedSet m = some cs → cs < c.freshSet
  whole : ∀ (cs i m : Nat), (c.mvms cs)[i]? = some (some m) →
    c.isCompleteMVM cs = true ∨ ∃ e ∈ loc, e.2 = cs
  backed : ∀ (cs i m : Nat), (c.mvms cs)[i]? = some (some m) →
    ∃ H' ∈ hints, ∀ (j m' : Nat), (c.mvms cs)[j]? = some (some m') → m' ∈ H'
  inLocal : ∀ e ∈ loc, e.2 < c.freshSet ∧
    ∀ (j m' : Nat), (c.mvms e.2)[j]? = some (some m') → m' ∈ H

/-- More of the state of the hint-based phase of `Coalescer::coalesceMVMOperations`, while
`loc` is the local map of the hint set at hand: every set has
`N_CONSTANT_MVMUS_PER_CORE` slots; the MVM in slot `i` is on the physical MVMU `i`; the
members of a set are on one physical tile and core, which is the key of the set in the
local map; the sets of the local map are distinct, lie below the next fresh address and are
not retained; a retained set is complete; a set with a member is in the local map or
retained; a retained set is in the vector of the core of its members. -/
structure RetainInv (P : Placer) (pt : Partitioner) (c : Coalescer)
    (loc : List ((Nat × Nat) × Nat)) : Prop where
  size : ∀ cs, cs < c.freshSet → (c.mvms cs).length = N_CONSTANT_MVMUS_PER_CORE
  place : ∀ (cs i m : Nat), (c.mvms cs)[i]? = some (some m) → P.getPMVMU pt m = some i
  core : ∀ (cs i m j m' : Nat), (c.mvms cs)[i]? = some (some m) →
    (c.mvms cs)[j]? = some (some m') →
    P.getPTile pt m = P.getPTile pt m' ∧ P.getPCore pt m = P.getPCore pt m'
  localKey : ∀ e ∈ loc, ∀ (i m : Nat), (c.mvms e.2)[i]? = some (some m) →
    P.getPTile pt m = some e.1.1 ∧ P.getPCore pt m = some e.1.2
  localDistinct : (loc.map fun e => e.2).Nodup
  localBound : ∀ e ∈ loc, e.2 < c.freshSet
  localFresh : ∀ e ∈ loc, e.2 ∉ c.coalescedMVMSets.flatten
  retained : ∀ cs, cs ∈ c.coalescedMVMSets.flatten →
    cs < c.freshSet ∧ c.isCompleteMVM cs = true
  kept : ∀ (cs i m : Nat), (c.mvms cs)[i]? = some (some m) →
    (∃ e ∈ loc, e.2 = cs) ∨ cs ∈ c.coalescedMVMSets.flatten
  index : ∀ (idx : Nat) (l : List Nat) (cs i m : Nat), c.coalescedMVMSets[idx]? = some l →
    cs ∈ l → (c.mvms cs)[i]? = some (some m) →
    ∃ pTile pCore, P.getPTile pt m = some pTile ∧ P.getPCore pt m = some pCore
      ∧ idx = (pTile * N_CORES_PER_TILE + pCore) % UINT_MOD

/-- The state `c` of the coalesced sets after the hint-based phase for the hint sets
`hints`: an MVM with a coalesced set is in a slot of the set; the set is retained in the
vector of the physical core of the MVM; each of its `N_CONSTANT_MVMUS_PER_CORE` slots holds
an MVM; its members belong to one hint set and are on the physical tile and core of the MVM,
the member of slot `j` on the physical MVMU `j`. A set that was built and is not retained
has no member, and no MVM has it as coalesced set. -/
structure HintPhaseResult (hints : List (List Nat)) (P : Placer) (pt : Partitioner)
    (c : Coalescer) : Prop where
  member : ∀ (m cs : Nat), c.coalescedSet m = some cs →
    ∃ (i : Nat), (c.mvms cs)[i]? = some (some m)
  retained : ∀ (m cs : Nat), c.coalescedSet m = some cs →
    ∃ pTile pCore l, P.getPTile pt m = some pTile ∧ P.getPCore pt m = some pCore
      ∧ c.coalescedMVMSets[(pTile * N_CORES_PER_TILE + pCore) % UINT_MOD]? = some l ∧ cs ∈ l
  complete : ∀ (m cs : Nat), c.coalescedSet m = some cs →
    (c.mvms cs).length = N_CONSTANT_MVMUS_PER_CORE
    ∧ ∀ (i : Nat), i < N_CONSTANT_MVMUS_PER_CORE → ∃ m', (c.mvms cs)[i]? = some (some m')
  hinted : ∀ (m cs : Nat), c.coalescedSet m = some cs →
    ∃ H ∈ hints, ∀ (j m' : Nat), (c.mvms cs)[j]? = some (some m') → m' ∈ H
  core : ∀ (m cs : Nat), c.coalescedSet m = some cs →
    ∀ (j m' : Nat), (c.mvms cs)[j]? = some (some m') →
      P.getPTile pt m' = P.getPTile pt m ∧ P.getPCore pt m' = P.getPCore pt m
      ∧ P.getPMVMU pt m' = some j ∧ c.coalescedSet m' = some cs
  demolished : ∀ cs, cs < c.freshSet → cs ∉ c.coalescedMVMSets.flatten →
    (∀ (i m : Nat), (c.mvms cs)[i]? ≠ some (some m)) ∧ ∀ m, c.coalescedSet m ≠ some cs

/-- A partitioner for the MVMs 10 to 15 on the virtual MVMUs 2 to 7 and the MVMs 20 and 21
on the virtual MVMUs 8 and 9, with the tables of the roll-up of ten virtual MVMUs. -/
def hintPhasePartitioner : Partitioner :=
  { nVMVMUs := 10, nVCores := 4, nVTiles := 3,
    op2vmvmu := fun op => if 10 ≤ op ∧ op ≤ 15 then some (op - 8)
      else if op = 20 then some 8 else if op = 21 then some 9 else none,
    mat2vmvmu := fun _ => none,
    vmvmu2vcore := [0, 1, 2, 2, 2, 2, 2, 2, 3, 3], vcore2vtile := [0, 1, 2, 2],
    numLoads := 0, numStores := 0, numSends := 0, numReceives := 0 }

/-- The placer of `hintPhasePartitioner`: the virtual MVMUs 2 to 7 are the six physical
MVMUs of core 0 of tile 2, the virtual MVMUs 8 and 9 are the physical MVMUs 0 and 1 of
core 1 of tile 2. -/
def hintPhasePlacer : Placer :=
  { nPTiles := 3, nPCores := 24, nPMVMUs := 144, vtile2ptile := [0, 1, 2],
    vcore2pcore := [0, 0, 0, 1], vmvmu2pmvmu := [0, 0, 0, 1, 2, 3, 4, 5, 0, 1] }

/-! ## Properties of the DAG used in the statement about `insertInputAndOutput` -/

/-- A pseudo input or a pseudo output. -/
def OpClass.isPseudo : OpClass → Bool
  | OpClass.PseudoInputOperation => true
  | OpClass.PseudoOutputOperation => true
  | _ => false

/-- What `insertInputAndOutput` leaves unchanged from a state `s` to a later state `s'`:
the tables of the roll-up; the class, the sources, the Send of a Receive and the external
tile of every address in use; the virtual MVMU of every address in use that is not a pseudo
operation; the operations that are not pseudo operations stay in the model, and the new
operations lie at the addresses that were fresh and are not pseudo operations. -/
structure InputFrame (s s' : PState) : Prop where
  fresh_le : s.g.fresh ≤ s'.g.fresh
  vcore : s'.pt.vmvmu2vcore = s.pt.vmvmu2vcore
  vtile : s'.pt.vcore2vtile = s.pt.vcore2vtile
  cls : ∀ i, i < s.g.fresh → s'.g.cls i = s.g.cls i
  srcs : ∀ i, i < s.g.fresh → s'.g.srcs i = s.g.srcs i
  recvSrc : ∀ i, i < s.g.fresh → s'.g.recvSrc i = s.g.recvSrc i
  ioTile : ∀ i, i < s.g.fresh → s'.g.ioTile i = s.g.ioTile i
  assign : ∀ i, i < s.g.fresh → (s.g.cls i).isPseudo = false →
    s'.pt.op2vmvmu i = s.pt.op2vmvmu i
  ops_old : ∀ i, i ∈ s.g.operations → i < s.g.fresh → (s.g.cls i).isPseudo = false →
    i ∈ s'.g.operations
  ops_new : ∀ i, i ∈ s'.g.operations → i ∈ s.g.operations ∨ (s.g.fresh ≤ i ∧ i < s'.g.fresh)
  fresh_cls : ∀ i, s.g.fresh ≤ i → i < s'.g.fresh → (s'.g.cls i).isPseudo = false

/-- The effect of a step of the visit of the pseudo operation `op` by
`insertInputAndOutput` on the operand edges: an operand other than `op` stays where it is,
a user other than `op` of a producer other than `op` stays a user, and the users stay below
the next fresh address. -/
structure InputStep (s s' : PState) (op : Nat) : Prop where
  frame : InputFrame s s'
  operands_keep : ∀ (c j q : Nat), c < s.g.fresh → (s.g.operands c)[j]? = some q → q ≠ op →
    (s'.g.operands c)[j]? = some q
  users_keep : ∀ q x, q < s.g.fresh → q ≠ op → x ≠ op → x ∈ s.g.users q → x ∈ s'.g.users q
  users_lt : (∀ q, q < s.g.fresh → ∀ x, x ∈ s.g.users q → x < s.g.fresh) →
    ∀ q, q < s'.g.fresh → ∀ x, x ∈ s'.g.users q → x < s'.g.fresh

/-- The operation `W` is a WriteInput of the external tile `src` that
`insertInputAndOutput` created (its address is not below `lo`) and placed on virtual MVMU
0. -/
def InputEntry (lo : Nat) (s : PState) (src W : Nat) : Prop :=
  lo ≤ W ∧ W < s.g.fresh ∧ W ∈ s.g.operations
  ∧ s.g.cls W = OpClass.WriteInputOperation ∧ s.g.ioTile W = src
  ∧ s.pt.op2vmvmu W = some 0

/-- The operation `R` is a Receive on the virtual tile `vt` whose Send reads a WriteInput
of the external tile `src`. -/
def RecvEntry (lo : Nat) (s : PState) (src vt R : Nat) : Prop :=
  lo ≤ R ∧ R < s.g.fresh ∧ R ∈ s.g.operations
  ∧ s.g.cls R = OpClass.ReceiveOperation ∧ s.pt.getVTile R = some vt
  ∧ ∃ S W, s.g.recvSrc R = some S ∧ lo ≤ S ∧ S < s.g.fresh ∧ S ∈ s.g.operations
    ∧ s.g.cls S = OpClass.SendOperation ∧ s.g.srcs S = [W] ∧ InputEntry lo s src W

/-- The operation `L` is a Load on the virtual core `vc` whose source is a Receive on the
virtual tile of that core, whose Send reads a WriteInput of the external tile `src`. -/
def LoadEntry (lo : Nat) (s : PState) (src vc L : Nat) : Prop :=
  lo ≤ L ∧ L < s.g.fresh ∧ L ∈ s.g.operations
  ∧ s.g.cls L = OpClass.LoadOperation ∧ s.pt.getVCore L = some vc
  ∧ ∃ R vt, s.g.srcs L = [R] ∧ s.pt.vcore2vtile[vc]? = some vt ∧ RecvEntry lo s src vt R

/-- The local maps of `insertInputAndOutput` in the state `l`, where `lo` is the first
address that the pass used: an entry of `inputs` is a WriteInput of the tile on virtual
MVMU 0; an entry of `recvs` is a Receive on the virtual tile of its key, whose Send reads
a WriteInput of the tile; an entry of `loads` is a Load on the virtual core of its key,
which reads a Receive of the tile on the virtual tile of that core; and every WriteInput
that the pass created is the entry of `inputs` for its tile. -/
structure InputMaps (lo : Nat) (l : InputLoop) : Prop where
  inputs : ∀ src W, l.inputs src = some W → InputEntry lo l.st src W
  recvs : ∀ src vt R, l.recvs src vt = some R → RecvEntry lo l.st src vt R
  loads : ∀ src vc L, l.loads src vc = some L → LoadEntry lo l.st src vc L
  unique : ∀ W, lo ≤ W → W < l.st.g.fresh → l.st.g.cls W = OpClass.WriteInputOperation →
    l.inputs (l.st.g.ioTile W) = some W

/-- The graph `g'` is the graph `g` with one new operation of class `c` at the fresh
address: nothing else changes at the addresses in use, except that the new operation may
become a user or a reader of existing operations. -/
structure Graph.Creates (g g' : Graph) (c : OpClass) : Prop where
  fresh : g'.fresh = g.fresh + 1
  operations : g'.operations = setInsert g.operations g.fresh
  cls_new : g'.cls g.fresh = c
  cls : ∀ i, i ≠ g.fresh → g'.cls i = g.cls i
  srcs : ∀ i, i ≠ g.fresh → g'.srcs i = g.srcs i
  recvSrc : ∀ i, i ≠ g.fresh → g'.recvSrc i = g.recvSrc i
  ioTile : ∀ i, i ≠ g.fresh → g'.ioTile i = g.ioTile i
  operands : ∀ i, i ≠ g.fresh → g'.operands i = g.operands i
  users_keep : ∀ q x, q ≠ g.fresh → x ∈ g.users q → x ∈ g'.users q
  users_new : ∀ q x, x ∈ g'.users q → (q ≠ g.fresh ∧ x ∈ g.users q) ∨ x = g.fresh

/-- The loop state `l` is reached from the loop state `l0` by steps of one iteration of
the loop over the users of the pseudo input `p`: the local maps are sound, the virtual
MVMU of every operation of `l0` is unchanged, and the entries of `loads` are kept. -/
structure InputReach (lo p : Nat) (l0 l : InputLoop) : Prop where
  step : InputStep l0.st l.st p
  maps : InputMaps lo l
  assign : ∀ i, i < l0.st.g.fresh → l.st.pt.op2vmvmu i = l0.st.pt.op2vmvmu i
  loads : ∀ s v L, l0.loads s v = some L → l.loads s v = some L

/-- A step of the visit of the pseudo operation `op` that creates no WriteInput. -/
structure InputQuiet (s s' : PState) (op : Nat) : Prop where
  step : InputStep s s' op
  quiet : ∀ i, s.g.fresh ≤ i → i < s'.g.fresh → s'.g.cls i ≠ OpClass.WriteInputOperation

/-- The invariant of the loop over the operations in `insertInputAndOutput`, where `st` is
the state at the start of the pass, `l` the current loop state and `done` the operations
visited so far: the consumers of a pseudo input that is still to be visited are still
among its users, every consumer of a visited pseudo input has a Load of the tile on its
virtual core, and the visited pseudo operations have left the model. -/
structure InputPass (st : PState) (l : InputLoop) (done : List Nat) : Prop where
  frame : InputFrame st l.st
  maps : InputMaps st.g.fresh l
  users_lt : ∀ q, q < l.st.g.fresh → ∀ x, x ∈ l.st.g.users q → x < l.st.g.fresh
  pending : ∀ p, p ∉ done → p < st.g.fresh → ∀ c, c ∈ st.g.users p →
    (st.g.cls c).isPseudo = false → c ∈ l.st.g.users p
  routed : ∀ p, p ∈ done → st.g.cls p = OpClass.PseudoInputOperation →
    ∀ c, c ∈ st.g.users p → (st.g.cls c).isPseudo = false →
      ∃ vc L, st.pt.getVCore c = some vc ∧ l.loads (st.g.ioTile p) vc = some L
  removed : ∀ p, p ∈ done → p < st.g.fresh → (st.g.cls p).isPseudo = true →
    p ∉ l.st.g.operations

/-- The DAG that the front end builds for `y = M * x` with an input vector `x` of one tile
and a constant matrix `M` of seven tiles in one column: 1 is the pseudo input, 2 to 8 are
the MVMs on the matrix tiles 0 to 6, each reading the pseudo input, and 9 to 15 are the
pseudo outputs of the seven tiles of `y`. -/
def sevenRowGraph : Graph := Graph.ofList
  [ { id := 1, cls := OpClass.PseudoInputOperation, ioTile := 0 },
    { id := 2, cls := OpClass.MVMOperation, operands := [1], mat := 0 },
    { id := 3, cls := OpClass.MVMOperation, operands := [1], mat := 1 },
    { id := 4, cls := OpClass.MVMOperation, operands := [1], mat := 2 },
    { id := 5, cls := OpClass.MVMOperation, operands := [1], mat := 3 },
    { id := 6, cls := OpClass.MVMOperation, operands := [1], mat := 4 },
    { id := 7, cls := OpClass.MVMOperation, operands := [1], mat := 5 },
    { id := 8, cls := OpClass.MVMOperation, operands := [1], mat := 6 },
    { id := 9, cls := OpClass.PseudoOutputOperation, operands := [2], ioTile := 0 },
    { id := 10, cls := OpClass.PseudoOutputOperation, operands := [3], ioTile := 1 },
    { id := 11, cls := OpClass.PseudoOutputOperation, operands := [4], ioTile := 2 },
    { id := 12, cls := OpClass.PseudoOutputOperation, operands := [5], ioTile := 3 },
    { id := 13, cls := OpClass.PseudoOutputOperation, operands := [6], ioTile := 4 },
    { id := 14, cls := OpClass.PseudoOutputOperation, operands := [7], ioTile := 5 },
    { id := 15, cls := OpClass.PseudoOutputOperation, operands := [8], ioTile := 6 } ]

/-- The users of the seven matrix tiles of `sevenRowGraph`. -/
def sevenRowUsers : Nat → List Nat := fun t => if t < 7 then [t + 2] else []

/-! ## Partitioner: affinity graphs for KaHIP (`partitioner.cpp`) -/

/-- The local variables `numEdges` and `edges` of `assignVCoresWithKaHIP` and
`assignVTilesWithKaHIP`: `edges[n]` lists the pairs of neighbour node and weight of node
`n`. -/
structure AffinityGraph where
  numEdges : Nat
  edges : List (List (Nat × Nat))

/-- The statement `edges[node].push_back(e)`. -/
def pushEdge (edges : List (List (Nat × Nat))) (node : Nat) (e : Nat × Nat) :
    Option (List (List (Nat × Nat))) :=
  (edges[node]?).map fun l => edges.set node (l ++ [e])

/-- The body of the test `producerNodeID != consumerNodeID` in the graph-building loops:
one entry in the list of each end and one more edge. -/
def AffinityGraph.addEdge (a : AffinityGraph) (producerNodeID consumerNodeID len : Nat) :
    Option AffinityGraph :=
  (pushEdge a.edges producerNodeID (consumerNodeID, len)).bind fun e =>
  (pushEdge e consumerNodeID (producerNodeID, len)).map fun e =>
    { numEdges := (a.numEdges + 1) % UINT_MOD, edges := e }

/-- The graph-building loop of `Partitioner::assignVCoresWithKaHIP`: the nodes are the
virtual MVMUs from 2 on, and the node of the consumer is `getVMVMU(consumer) - 2`. -/
def mvmuAffinityGraph (g : Graph) (pt : Partitioner) : Option AffinityGraph :=
  g.operations.foldlM (fun (a : AffinityGraph) op =>
    if (g.cls op).isProducer then
      (pt.getVMVMU op).bind fun vp =>
      let producerNodeID := (vp + UINT_MOD - 2) % UINT_MOD
      (g.users op).foldlM (fun (a : AffinityGraph) consumer =>
        (pt.getVMVMU consumer).bind fun vc =>
        let consumerNodeID := (vc + UINT_MOD - 2) % UINT_MOD
        if producerNodeID ≠ consumerNodeID then
          a.addEdge producerNodeID consumerNodeID (g.length op)
        else some a) a
    else some a)
    { numEdges := 0
      edges := List.replicate ((pt.nVMVMUs + UINT_MOD - 2) % UINT_MOD) [] }

/-- The graph-building loop of `Partitioner::assignVTilesWithKaHIP`: the nodes are the
virtual cores from 2 on, and the node of the consumer is computed by the source as
`getVCore(producer) - 2`. -/
def coreAffinityGraph (g : Graph) (pt : Partitioner) : Option AffinityGraph :=
  g.operations.foldlM (fun (a : AffinityGraph) op =>
    if (g.cls op).isProducer then
      (pt.getVCore op).bind fun vp =>
      let producerNodeID := (vp + UINT_MOD - 2) % UINT_MOD
      (g.users op).foldlM (fun (a : AffinityGraph) _ =>
        (pt.getVCore op).bind fun vc =>
        let consumerNodeID := (vc + UINT_MOD - 2) % UINT_MOD
        if producerNodeID ≠ consumerNodeID then
          a.addEdge producerNodeID consumerNodeID (g.length op)
        else some a) a
    else some a)
    { numEdges := 0
      edges := List.replicate ((pt.nVCores + UINT_MOD - 2) % UINT_MOD) [] }

/-- The partitioner tables of `sevenRowGraph` before the legalization passes: the virtual
MVMUs of the row-major assignment, with the virtual MVMUs 2 to 7 on virtual core 2 and the
virtual MVMU 8 on virtual core 3. -/
def sevenRowTables : Option Partitioner :=
  (assignVMVMUsAndSpreadAffinity sevenRowGraph 64 ModelType.INFERENCE [0, 1, 2, 3, 4, 5, 6]
    sevenRowUsers).bind fun (a : Assignment) =>
  (rollUpInVMVMUOrder ModelType.INFERENCE a.nVMVMUs).map fun t =>
    { nVMVMUs := t.nVMVMUs, nVCores := t.nVCores, nVTiles := t.nVTiles,
      op2vmvmu := a.op2vmvmu, mat2vmvmu := a.mat2vmvmu,
      vmvmu2vcore := t.vmvmu2vcore, vcore2vtile := t.vcore2vtile,
      numLoads := 0, numStores := 0, numSends := 0, numReceives := 0 }
/-- The window of `size` general registers that starts at index `i` lies inside the
general register file and all its bits are free. -/
def CoreAllocator.fits (a : CoreAllocator) (size i : Nat) : Prop :=
  i + size ≤ REGISTER_FILE_SIZE ∧ ∀ k, i ≤ k → k < i + size → a.memPool k = false
/-- The tables of the partitioner that the `Placer` constructor reads. -/
def Partitioner.tables (pt : Partitioner) : PartitionTables :=
  { nVMVMUs := pt.nVMVMUs, nVCores := pt.nVCores, nVTiles := pt.nVTiles,
    vmvmu2vcore := pt.vmvmu2vcore, vcore2vtile := pt.vcore2vtile }

/-- The physical tile and core of a virtual core: `vtile2ptile_[vcore2vtile_[vCore]]` and
`vcore2pcore_[vCore]`. -/
def Placer.coreOf (P : Placer) (p : PartitionTables) (vCore : Nat) : Option (Nat × Nat) :=
  (p.vcore2vtile[vCore]?).bind fun vTile =>
  (P.vtile2ptile[vTile]?).bind fun pTile =>
  (P.vcore2pcore[vCore]?).map fun pCore => (pTile, pCore)

/-- The physical tile, core and MVMU of a virtual MVMU. -/
def Placer.mvmuOf (P : Placer) (p : PartitionTables) (vMVMU : Nat) :
    Option (Nat × Nat × Nat) :=
  (p.vmvmu2vcore[vMVMU]?).bind fun vCore =>
  (P.coreOf p vCore).bind fun c =>
  (P.vmvmu2pmvmu[vMVMU]?).map fun pMVMU => (c.1, c.2, pMVMU)

/-- `Partitioner::getVMVMU(ConstantMatrixTile*)` and `getVMVMU(TrainingMatrixTile*)`. -/
def Partitioner.getTileVMVMU (pt : Partitioner) (tile : Nat) : Option Nat := pt.mat2vmvmu tile

/-- `Partitioner::getVCore(ConstantMatrixTile*)` and `getVCore(TrainingMatrixTile*)`. -/
def Partitioner.getTileVCore (pt : Partitioner) (tile : Nat) : Option Nat :=
  (pt.getTileVMVMU tile).bind (fun v => pt.vmvmu2vcore[v]?)

/-- `Partitioner::getVTile(ConstantMatrixTile*)` and `getVTile(TrainingMatrixTile*)`. -/
def Partitioner.getTileVTile (pt : Partitioner) (tile : Nat) : Option Nat :=
  (pt.getTileVCore tile).bind (fun c => pt.vcore2vtile[c]?)

/-- `Placer::getPTile(ConstantMatrixTile*)` and `getPTile(TrainingMatrixTile*)`. -/
def Placer.getTilePTile (P : Placer) (pt : Partitioner) (tile : Nat) : Option Nat :=
  (pt.getTileVTile tile).bind (fun t => P.vtile2ptile[t]?)

/-- `Placer::getPCore(ConstantMatrixTile*)` and `getPCore(TrainingMatrixTile*)`. -/
def Placer.getTilePCore (P : Placer) (pt : Partitioner) (tile : Nat) : Option Nat :=
  (pt.getTileVCore tile).bind (fun c => P.vcore2pcore[c]?)

/-- `Placer::getPMVMU(ConstantMatrixTile*)` and `getPMVMU(TrainingMatrixTile*)`. -/
def Placer.getTilePMVMU (P : Placer) (pt : Partitioner) (tile : Nat) : Option Nat :=
  (pt.getTileVMVMU tile).bind (fun v => P.vmvmu2pmvmu[v]?)

/-- Partitioner tables that are not a roll-up in virtual MVMU order: virtual MVMUs 2 and 3
are on the virtual cores 3 and 2, which share virtual tile 2; tiles 100 and 200 have the
virtual MVMUs 3 and 2. -/
def crossedTables : Partitioner :=
  { nVMVMUs := 4, nVCores := 4, nVTiles := 3,
    op2vmvmu := fun _ => none,
    mat2vmvmu := fun t => if t = 100 then some 3 else if t = 200 then some 2 else none,
    vmvmu2vcore := [0, 1, 3, 2], vcore2vtile := [0, 1, 2, 2],
    numLoads := 0, numStores := 0, numSends := 0, numReceives := 0 }

/-- The invariant of the loop over the live reloads in `allocateRegistersWithSpilling`,
started in the state `l` with the keys `keys`. -/
structure KillInv (consumer : Option Nat) (keys : List Nat) (l : DataLoop)
    (s : Option Nat × DataLoop) : Prop where
  g : s.2.g = l.g
  ra : s.2.ra = l.ra
  liveNow : s.2.liveNow = l.liveNow
  out : s.2.out = l.out
  cons : ∀ p, p ∈ keys → ∀ r, s.2.spillTracker.producer2reload p = some r →
    s.2.spillTracker.reload2producer r = some p
  kept : ∀ p, p ∈ keys → ∀ r, l.spillTracker.producer2reload p = some r →
    s.2.spillTracker.producer2reload p = some r
    ∨ (s.2.spillTracker.producer2reload p = none
      ∧ (consumer = none ∨ ∃ c, consumer = some c ∧ l.g.uses c p = false
          ∧ l.g.uses c r = false))
  other : ∀ p, p ∉ keys →
    s.2.spillTracker.producer2reload p = l.spillTracker.producer2reload p

/-- A state of the allocation loop on one core in which every general register is in use:
the producer 1 was spilled and has the live reload 4 in the registers 1 to 4 of the general
register file, and the next operation 3 reads the producer 2 only. -/
def killState : DataLoop :=
  { g := Graph.ofList
      [ { id := 1, cls := OpClass.SetImmediateOperation, length := 4 },
        { id := 2, cls := OpClass.SetImmediateOperation, length := 4 },
        { id := 3, cls := OpClass.ALUVectorOperation, operands := [2], length := 4 },
        { id := 4, cls := OpClass.LoadOperation, length := 4 } ],
    pt := { nVMVMUs := 1, nVCores := 1, nVTiles := 1,
            op2vmvmu := fun i => if i < 5 then some 0 else none,
            mat2vmvmu := fun _ => none,
            vmvmu2vcore := [0], vcore2vtile := [0],
            numLoads := 0, numStores := 0, numSends := 0, numReceives := 0 },
    mem := { op2mem := fun _ => none, vTileAvailableMemory := [0] },
    ra := { op2reg := fun i => if i = 4 then some (REGISTER_FILE_START_ADDRESS + 1)
              else if i = 2 then some (REGISTER_FILE_START_ADDRESS + 5) else none,
            numLoadsFromSpilling := 0, numStoresFromSpilling := 0,
            numUnspilledRegAccesses := 0, numSpilledRegAccesses := 0 },
    allocator := { memPool := fun _ => true },
    spillTracker := { producer2spill := fun _ => none,
                      producer2reload := fun p => if p = 1 then some 4 else none,
                      reload2producer := fun r => if r = 4 then some 1 else none,
                      reloadKeys := [1] },
    liveNow := [2], out := [1, 2] }
/-- The DAG on one core of the program `y = sig(x); z = y * y`: 1 is the vector `x`, 2 is
`sig(x)`, 3 is the MUL whose two operands are both 2, and the Store 5 writes 3 to the
address in 4. -/
def squareGraph : Graph := Graph.ofList
  [ { id := 1, cls := OpClass.SetImmediateOperation, length := 4 },
    { id := 2, cls := OpClass.ALUVectorOperation, operands := [1], length := 4 },
    { id := 3, cls := OpClass.ALUVectorOperation, operands := [2, 2], length := 4 },
    { id := 4, cls := OpClass.SetImmediateOperation, length := 1 },
    { id := 5, cls := OpClass.StoreOperation, operands := [3, 4], length := 4 } ]

/-- The DAG `squareGraph` on virtual MVMU 0 with its core operation list, before register
allocation. -/
def squareState : RegState :=
  { g := squareGraph,
    pt := { nVMVMUs := 1, nVCores := 1, nVTiles := 1,
            op2vmvmu := fun i => if i < 6 then some 0 else none,
            mat2vmvmu := fun _ => none,
            vmvmu2vcore := [0], vcore2vtile := [0],
            numLoads := 0, numStores := 0, numSends := 0, numReceives := 0 },
    mem := { op2mem := fun _ => none, vTileAvailableMemory := [0] },
    ra := { op2reg := fun _ => none, numLoadsFromSpilling := 0, numStoresFromSpilling := 0,
            numUnspilledRegAccesses := 0, numSpilledRegAccesses := 0 },
    coreOperationLists := [[1, 2, 3, 4, 5], [], [], [], [], [], [], []] }

/-- The state of the allocation loop of `allocateDataRegisters` on the list of
`squareState` when the iterator reaches the MUL 3. -/
def squareLoopAtMul : Option DataLoop :=
  ((CoreAllocator.mk fun _ => false).allocate 1).bind fun (p : Nat × CoreAllocator) =>
  [((1 : Nat), some (2 : Nat)), (2, some 3)].foldlM
    (allocateDataRegistersAt (liveRanges squareGraph [1, 2, 3, 4, 5]) p.1)
    { g := squareState.g, pt := squareState.pt, mem := squareState.mem, ra := squareState.ra,
      allocator := p.2,
      spillTracker := { producer2spill := fun _ => none, producer2reload := fun _ => none,
                        reload2producer := fun _ => none, reloadKeys := [] },
      liveNow := [], out := [] }

/-! ## Coalescer: ancestors of the outputs and the invariant of the greedy phase -/

/-- The operations whose results the operation `op` reads: its operands when it is a
consumer, its tile-memory sources when it reads tile memory, and the Send that it receives
from when it is a Receive. These are the edges that `Coalescer::findMVMPredecessors`,
`Coalescer::coalesceMVMPredecessors` and `Linearizer::linearizeWithPredecessors` follow. -/
def Graph.predecessors (g : Graph) (op : Nat) : List Nat :=
  (if (g.cls op).isConsumer then g.operands op else [])
    ++ (if (g.cls op).isTileMemoryRead then g.srcs op else [])
    ++ (if g.cls op = OpClass.ReceiveOperation then (g.recvSrc op).toList else [])

/-- The operation `a` is a DAG ancestor of `b`: a path of one or more edges leads from `a`
to `b`. -/
def Graph.Ancestor (g : Graph) (a b : Nat) : Prop :=
  Relation.TransGen (fun u v => u ∈ g.predecessors v) a b

/-- The coalesced MVM sets during the greedy phase of `Coalescer::coalesceMVMOperations`:
a slot holds an MVM whose back link is the set, and a back link leads to a set that holds
the MVM; a set with a member is in the vector of one core, which is the core of every
member; the sets of the vectors lie below the next fresh address. -/
structure CoalescedInv (P : Placer) (pt : Partitioner) (c : Coalescer) : Prop where
  link : ∀ (cs i m : Nat), (c.mvms cs)[i]? = some (some m) → c.coalescedSet m = some cs
  back : ∀ (m cs : Nat), c.coalescedSet m = some cs →
    ∃ (i : Nat), (c.mvms cs)[i]? = some (some m)
  kept : ∀ (cs i m : Nat), (c.mvms cs)[i]? = some (some m) →
    cs ∈ c.coalescedMVMSets.flatten
  bound : ∀ cs, cs ∈ c.coalescedMVMSets.flatten → cs < c.freshSet
  index : ∀ (idx : Nat) (l : List Nat) (cs i m : Nat), c.coalescedMVMSets[idx]? = some l →
    cs ∈ l → (c.mvms cs)[i]? = some (some m) → P.coreIndex pt m = some idx
  once : ∀ (idx idx' : Nat) (l l' : List Nat) (cs : Nat),
    c.coalescedMVMSets[idx]? = some l → cs ∈ l →
    c.coalescedMVMSets[idx']? = some l' → cs ∈ l' → idx = idx'

/-- The set `isVisited` during the greedy phase: the operations that a visited operation
reads are visited, and a visited MVM has a coalesced set. -/
structure VisitInv (g : Graph) (l : CoalesceLoop) : Prop where
  closed : ∀ x, x ∈ l.isVisited → ∀ p, p ∈ g.predecessors x → p ∈ l.isVisited
  joined : ∀ x, x ∈ l.isVisited → (g.cls x).isMVM = true →
    (l.c.coalescedSet x).isSome = true

/-- From the state `l` to the state `l'` of the greedy phase no operation leaves
`isVisited` and no back link changes. -/
structure VisitGrows (l l' : CoalesceLoop) : Prop where
  visited : ∀ x, x ∈ l.isVisited → x ∈ l'.isVisited
  links : ∀ x s, l.c.coalescedSet x = some s → l'.c.coalescedSet x = some s

/-! ## Register allocator: the ranges of the registers in use -/

/-- The operation `x` holds general registers in the state `l` of the allocation loop: it is
in the live set or it is the live reload of a producer. -/
def DataLoop.holds (l : DataLoop) (x : Nat) : Prop :=
  x ∈ l.liveNow ∨ ∃ p, l.spillTracker.producer2reload p = some x

/-- The registers `[reg, reg + n)` lie inside the general register file, from its register
number `lo` on, their bits are set in the pool `a`, and the first general register is not
among them. -/
structure RegWindow (lo : Nat) (a : CoreAllocator) (reg n : Nat) : Prop where
  low : REGISTER_FILE_START_ADDRESS + lo ≤ reg
  high : reg + n ≤ REGISTER_FILE_START_ADDRESS + REGISTER_FILE_SIZE
  bits : ∀ k, reg ≤ REGISTER_FILE_START_ADDRESS + k →
    REGISTER_FILE_START_ADDRESS + k < reg + n → a.memPool k = true ∧ k ≠ 0

/-- The invariant of the registers in the allocation loop of `allocateDataRegisters` on a
core list with the operations `ops`, started with the next fresh address `f0` and the
register map `ra0`: the bit of the first general register is set; the two maps of the live
reloads are inverse to each other; every operation that holds registers has a register
whose range lies in the general register file with all bits set; the ranges of two
operations that hold registers have no register in common; and every register assigned
since the start is the spill address register of a new SetImmediate, or starts at the
general register `lo` or later. The operations of the list, the spills and the reloads have
lengths from `lo` to `REGISTER_FILE_SIZE`. -/
structure RegsInv (f0 lo spillAddressReg : Nat) (ra0 : Nat → Option Nat) (ops : List Nat)
    (l : DataLoop) : Prop where
  fresh_le : f0 ≤ l.g.fresh
  pool0 : l.allocator.memPool 0 = true
  back : ∀ p r, l.spillTracker.producer2reload p = some r →
    l.spillTracker.reload2producer r = some p
  forth : ∀ p r, l.spillTracker.reload2producer r = some p →
    l.spillTracker.producer2reload p = some r
  nodup : l.liveNow.Nodup
  live : ∀ x, x ∈ l.liveNow → x ∈ ops
  reload : ∀ p r, l.spillTracker.producer2reload p = some r → f0 ≤ r ∧ r < l.g.fresh
  spilled : ∀ p St, l.spillTracker.producer2spill p = some St →
    St < l.g.fresh ∧ lo ≤ l.g.length St ∧ l.g.length St ≤ REGISTER_FILE_SIZE
  sized : ∀ x, x ∈ ops → lo ≤ l.g.length x ∧ l.g.length x ≤ REGISTER_FILE_SIZE
  range : ∀ x, l.holds x →
    ∃ reg, l.ra.op2reg x = some reg ∧ RegWindow lo l.allocator reg (l.g.length x)
  disj : ∀ x y rx ry, l.holds x → l.holds y → x ≠ y →
    l.ra.op2reg x = some rx → l.ra.op2reg y = some ry →
    ∀ k, ¬ (rx ≤ k ∧ k < rx + l.g.length x ∧ ry ≤ k ∧ k < ry + l.g.length y)
  assigned : ∀ x reg, ra0 x = none → l.ra.op2reg x = some reg →
    x < l.g.fresh
    ∧ ((f0 ≤ x ∧ l.g.cls x = OpClass.SetImmediateOperation ∧ reg = spillAddressReg)
      ∨ (REGISTER_FILE_START_ADDRESS + lo ≤ reg
        ∧ reg + l.g.length x ≤ REGISTER_FILE_START_ADDRESS + REGISTER_FILE_SIZE))

/-- The registers `[reg, reg + n)` are a window of set bits in the pool of `l` that has no
register in common with the range of an operation that holds registers in `l`. -/
structure FreshWindow (lo : Nat) (l : DataLoop) (reg n : Nat) : Prop where
  window : RegWindow lo l.allocator reg n
  apart : ∀ y ry, l.holds y → l.ra.op2reg y = some ry →
    ∀ k, ¬ (reg ≤ k ∧ k < reg + n ∧ ry ≤ k ∧ k < ry + l.g.length y)

/-- From the state `l` to the state `l'` of the allocation loop the operations of `l` keep
their lengths, classes and registers, every live reload of `l'` is a live reload of `l`,
and every live operation of `l'` is a live operation of `l`. -/
structure RegsStable (l l' : DataLoop) : Prop where
  fresh_le : l.g.fresh ≤ l'.g.fresh
  length : ∀ i, i < l.g.fresh → l'.g.length i = l.g.length i
  cls : ∀ i, i < l.g.fresh → l'.g.cls i = l.g.cls i
  regs : ∀ i, i < l.g.fresh → l'.ra.op2reg i = l.ra.op2reg i
  reloads : ∀ p r, l'.spillTracker.producer2reload p = some r →
    l.spillTracker.producer2reload p = some r
  live : ∀ x, x ∈ l'.liveNow → x ∈ l.liveNow

/-- The allocation loop of `RegisterAllocator::allocateDataRegisters` on the list of one
core after its first `n` iterations: the variables of the loop at that point. -/
def allocateDataRegistersUpTo (s : RegState) (coreOperationList : List Nat) (n : Nat) :
    Option DataLoop :=
  let liveIn := liveRanges s.g coreOperationList
  ((CoreAllocator.mk fun _ => false).allocate 1).bind fun (p : Nat × CoreAllocator) =>
  ((withNext coreOperationList).take n).foldlM (allocateDataRegistersAt liveIn p.1)
    { g := s.g, pt := s.pt, mem := s.mem, ra := s.ra, allocator := p.2,
      spillTracker := { producer2spill := fun _ => none, producer2reload := fun _ => none,
                        reload2producer := fun _ => none, reloadKeys := [] },
      liveNow := [], out := [] }

/-! ## Register allocator: the SetImmediates of spills and reloads -/

/-- The SetImmediate `i` that the allocation pass created holds the register `sp`, and the
operation created right after it is the Store or the Load that reads it as its tile memory
address; in the part `out` of the core list built so far the two are adjacent, unless `i` is
the SetImmediate `pending` of the reload in progress, which is inserted after the registers
of its Load were allocated. -/
def DataLoop.spillAddress (l : DataLoop) (sp : Nat) (pending : Option Nat) (i : Nat) : Prop :=
  l.ra.op2reg i = some sp ∧ i + 1 < l.g.fresh
  ∧ ((l.g.cls (i + 1) = OpClass.StoreOperation ∧ ∃ P, l.g.operands (i + 1) = [P, i])
      ∨ (l.g.cls (i + 1) = OpClass.LoadOperation ∧ l.g.operands (i + 1) = [i]))
  ∧ (pending = some i ∨ ∃ pre post, l.out = pre ++ i :: (i + 1) :: post)

/-- The invariant of the SetImmediates in the allocation loop of `allocateDataRegisters`,
started with the next fresh address `f0`: the live operations lie below `f0`, and every
SetImmediate from `f0` on satisfies `spillAddress`. -/
structure SpillAddressInv (f0 sp : Nat) (pending : Option Nat) (l : DataLoop) : Prop where
  fresh_le : f0 ≤ l.g.fresh
  live : ∀ x, x ∈ l.liveNow → x < f0
  seti : ∀ i, f0 ≤ i → i < l.g.fresh → l.g.cls i = OpClass.SetImmediateOperation →
    l.spillAddress sp pending i

/-! # Theorems -/

/-! ## Vectors -/

theorem getElem?_map_range (f : Nat → Nat) (N i : Nat) :
    ((List.range N).map f)[i]? = if i < N then some (f i) else none := by
  by_cases h : i < N
  · simp [h]
  · simp [h]
    omega

theorem vecSet_map_range {f g : Nat → Nat} {N i x : Nat} (h : i < N)
    (hg : ∀ j, j < N → g j = if j = i then x else f j) :
    vecSet ((List.range N).map f) i x = some ((List.range N).map g) := by
  unfold vecSet
  simp only [List.length_map, List.length_range, h, if_true, Option.some.injEq]
  apply List.ext_getElem?
  intro j
  rw [List.getElem?_set, getElem?_map_range, getElem?_map_range]
  by_cases hj : j < N
  · rw [hg j hj]
    by_cases hij : i = j
    · subst hij
      simp [h]
    · have hji : ¬ j = i := fun e => hij e.symm
      simp [hj, hij, hji]
  · have hij : ¬ i = j := fun e => hj (e ▸ h)
    simp [hj, hij]

theorem replicate_zero_eq_map_range (N : Nat) :
    List.replicate N 0 = (List.range N).map (fun _ => 0) := by
  apply List.ext_getElem?
  intro j
  rw [getElem?_map_range]
  by_cases hj : j < N
  · simp [hj, List.getElem?_replicate]
  · simp [hj, List.getElem?_replicate]

/-- Filling the entries `a, ..., a + m - 1` of a vector with the values of `h`. -/
theorem foldlM_vecSet_range' (h : Nat → Nat) (N a : Nat) (m : Nat) :
    ∀ f : Nat → Nat, a + m ≤ N →
    (List.range' a m).foldlM (fun v i => vecSet v i (h i)) ((List.range N).map f)
      = some ((List.range N).map (fun i => if a ≤ i ∧ i < a + m then h i else f i)) := by
  induction m with
  | zero =>
    intro f _
    have : (fun i => if a ≤ i ∧ i < a + 0 then h i else f i) = f := by
      funext i
      have : ¬ (a ≤ i ∧ i < a + 0) := by omega
      simp [this]
    rw [this]
    rfl
  | succ m ih =>
    intro f hle
    rw [List.range'_concat, List.foldlM_append, ih f (by omega)]
    simp only [Option.bind_eq_bind, Option.some_bind, List.foldlM_cons, List.foldlM_nil,
      one_mul]
    rw [vecSet_map_range (g := fun i => if a ≤ i ∧ i < a + (m + 1) then h i else f i)
      (by omega)]
    · rfl
    · intro j _
      by_cases hj : j = a + m
      · subst hj
        have h1 : a ≤ a + m ∧ a + m < a + (m + 1) := by omega
        simp [h1]
      · by_cases h2 : a ≤ j ∧ j < a + m
        · have h3 : a ≤ j ∧ j < a + (m + 1) := by omega
          simp [hj, h2, h3]
        · have h3 : ¬ (a ≤ j ∧ j < a + (m + 1)) := by omega
          simp [hj, h2, h3]

/-! ## Roll-up in virtual MVMU order -/

theorem rollup_loop (k n : Nat) (h2 : 2 ≤ n) (hn : n < UINT_MOD) :
    (do
      let v ← vecSet (List.replicate n 0) 0 0
      let v ← vecSet v 1 1
      (List.range' 2 (n - 2)).foldlM (fun v i => vecSet v i (((i - 2) / k + 2) % UINT_MOD)) v)
    = some ((List.range n).map (rollOf k)) := by
  rw [replicate_zero_eq_map_range,
    vecSet_map_range (g := fun _ => 0) (by omega) (by intro j _; simp)]
  simp only [Option.bind_eq_bind, Option.some_bind]
  rw [vecSet_map_range (g := fun j => if j = 1 then 1 else 0) (by omega) (by intro j _; rfl)]
  simp only [Option.some_bind]
  rw [foldlM_vecSet_range' (fun i => ((i - 2) / k + 2) % UINT_MOD) n 2 (n - 2) _ (by omega)]
  congr 1
  apply List.map_congr_left
  intro i hi
  have hi : i < n := List.mem_range.mp hi
  unfold rollOf
  by_cases h : i < 2
  · have h1 : ¬ (2 ≤ i ∧ i < 2 + (n - 2)) := by omega
    simp only [h1, if_false, h, if_true]
    by_cases h0 : i = 1
    · simp [h0]
    · have : i = 0 := by omega
      simp [this]
  · have h1 : 2 ≤ i ∧ i < 2 + (n - 2) := by omega
    simp only [h1, and_self, if_true, h, if_false]
    apply Nat.mod_eq_of_lt
    have := Nat.div_le_self (i - 2) k
    omega

theorem assignVCoresInVMVMUOrder_eq (modelType : ModelType) (n : Nat) (h2 : 2 ≤ n)
    (hn : n < UINT_MOD) :
    assignVCoresInVMVMUOrder modelType n
      = some ((2 + ((n + UINT_MOD - 2 - 1) % UINT_MOD / nMVMUSPerCore modelType + 1)) % UINT_MOD,
          (List.range n).map (rollOf (nMVMUSPerCore modelType))) := by
  have h := rollup_loop (nMVMUSPerCore modelType) n h2 hn
  simp only [Option.bind_eq_bind] at h
  unfold assignVCoresInVMVMUOrder
  simp only [Option.bind_eq_bind, bind_assoc]
  cases h0 : vecSet (List.replicate n 0) 0 0 with
  | none => rw [h0] at h; simp at h
  | some v0 =>
    rw [h0] at h
    simp only [Option.some_bind] at h ⊢
    cases h1 : vecSet v0 1 1 with
    | none => rw [h1] at h; simp at h
    | some v1 =>
      rw [h1] at h
      simp only [Option.some_bind] at h ⊢
      rw [h]
      rfl

theorem assignVTilesInVMVMUOrder_eq (n : Nat) (h2 : 2 ≤ n) (hn : n < UINT_MOD) :
    assignVTilesInVMVMUOrder n
      = some ((2 + ((n + UINT_MOD - 2 - 1) % UINT_MOD / N_CORES_PER_TILE + 1)) % UINT_MOD,
          (List.range n).map (rollOf N_CORES_PER_TILE)) := by
  have h := rollup_loop N_CORES_PER_TILE n h2 hn
  simp only [Option.bind_eq_bind] at h
  unfold assignVTilesInVMVMUOrder
  simp only [Option.bind_eq_bind, bind_assoc]
  cases h0 : vecSet (List.replicate n 0) 0 0 with
  | none => rw [h0] at h; simp at h
  | some v0 =>
    rw [h0] at h
    simp only [Option.some_bind] at h ⊢
    cases h1 : vecSet v0 1 1 with
    | none => rw [h1] at h; simp at h
    | some v1 =>
      rw [h1] at h
      simp only [Option.some_bind] at h ⊢
      rw [h]
      rfl

/-! ## Placer -/

theorem assignPTiles_eq (p : PartitionTables) (h2 : 2 ≤ p.nVTiles) :
    assignPTiles p = some ((List.range p.nVTiles).map (fun t => t)) := by
  unfold assignPTiles
  rw [replicate_zero_eq_map_range,
    vecSet_map_range (g := fun _ => 0) (by omega) (by intro j _; simp)]
  simp only [Option.bind_eq_bind, Option.some_bind]
  rw [vecSet_map_range (g := fun j => if j = 1 then 1 else 0) (by omega) (by intro j _; rfl)]
  simp only [Option.some_bind]
  have h := foldlM_vecSet_range' (fun i => i) p.nVTiles 2 (p.nVTiles - 2)
    (fun j => if j = 1 then 1 else 0) (by omega)
  simp only at h
  rw [h]
  congr 1
  apply List.map_congr_left
  intro i hi
  have hi : i < p.nVTiles := List.mem_range.mp hi
  by_cases h : i < 2
  · have h1 : ¬ (2 ≤ i ∧ i < 2 + (p.nVTiles - 2)) := by omega
    simp only [h1, if_false]
    by_cases h0 : i = 1
    · simp [h0]
    · have : i = 0 := by omega
      simp [this]
  · have h1 : 2 ≤ i ∧ i < 2 + (p.nVTiles - 2) := by omega
    simp only [h1, and_self, if_true]

theorem cntOf_slot (k one base c : Nat) (hk : k = 2 ∨ k = 6 ∨ k = 8) (hone : 0 < one)
    (hb : one < base) :
    cntOf k one base c (if c = 0 then 0 else if c = 1 then one else (c - 2) / k + base)
      = slotOf k c ∧ slotOf k c < k := by
  unfold cntOf slotOf
  rcases hk with rfl | rfl | rfl <;> split_ifs <;> omega

theorem cntOf_succ (k one base c j : Nat) (hk : k = 2 ∨ k = 6 ∨ k = 8) (hone : 0 < one)
    (hb : one < base) :
    cntOf k one base (c + 1) j
      = if j = (if c = 0 then 0 else if c = 1 then one else (c - 2) / k + base)
        then (cntOf k one base c j + 1) % UINT_MOD else cntOf k one base c j := by
  unfold cntOf UINT_MOD
  rcases hk with rfl | rfl | rfl <;> split_ifs <;> omega

theorem rollOf_eq (k one base c : Nat) (h1 : one = 1) (hb : base = 2) :
    rollOf k c = if c = 0 then 0 else if c = 1 then one else (c - 2) / k + base := by
  unfold rollOf
  subst h1 hb
  split_ifs <;> omega

theorem assignPCoresStep_eq (p : PartitionTables) (NT c : Nat)
    (hvt : p.vcore2vtile = (List.range p.nVCores).map (rollOf N_CORES_PER_TILE))
    (hNT : rollOf N_CORES_PER_TILE c < NT) (hc : c < p.nVCores) :
    assignPCoresStep p ((List.range NT).map (fun t => t))
      ((List.range p.nVCores).map (fun i => if i < c then slotOf N_CORES_PER_TILE i else 0),
       (List.range NT).map (cntOf N_CORES_PER_TILE 1 2 c)) c
    = some ((List.range p.nVCores).map
              (fun i => if i < c + 1 then slotOf N_CORES_PER_TILE i else 0),
            (List.range NT).map (cntOf N_CORES_PER_TILE 1 2 (c + 1))) := by
  have hk : N_CORES_PER_TILE = 2 ∨ N_CORES_PER_TILE = 6 ∨ N_CORES_PER_TILE = 8 :=
    Or.inr (Or.inr rfl)
  have hr := rollOf_eq N_CORES_PER_TILE 1 2 c rfl rfl
  have hs := cntOf_slot N_CORES_PER_TILE 1 2 c hk (by omega) (by omega)
  rw [← hr] at hs
  unfold assignPCoresStep
  simp only [hvt, getElem?_map_range, hc, hNT, if_true, Option.bind_eq_bind, Option.some_bind]
  rw [vecSet_map_range (g := cntOf N_CORES_PER_TILE 1 2 (c + 1)) hNT]
  · simp only [Option.some_bind, hs.1, hs.2, if_true]
    rw [vecSet_map_range (g := fun i => if i < c + 1 then slotOf N_CORES_PER_TILE i else 0) hc]
    · rfl
    · intro j _
      by_cases hj : j = c
      · subst hj
        simp
      · by_cases hlt : j < c
        · have : j < c + 1 := by omega
          simp [hj, hlt, this]
        · have : ¬ j < c + 1 := by omega
          simp [hj, hlt, this]
  · intro j _
    rw [cntOf_succ N_CORES_PER_TILE 1 2 c j hk (by omega) (by omega), ← hr]
    by_cases hj : j = rollOf N_CORES_PER_TILE c
    · rw [if_pos hj, if_pos hj, hj]
    · rw [if_neg hj, if_neg hj]

theorem assignPCores_eq (p : PartitionTables) (NT : Nat)
    (hvt : p.vcore2vtile = (List.range p.nVCores).map (rollOf N_CORES_PER_TILE))
    (hNT : ∀ c, c < p.nVCores → rollOf N_CORES_PER_TILE c < NT) :
    assignPCores p NT ((List.range NT).map (fun t => t))
      = some ((List.range p.nVCores).map (slotOf N_CORES_PER_TILE)) := by
  have key : ∀ c, c ≤ p.nVCores →
      (List.range c).foldlM (assignPCoresStep p ((List.range NT).map (fun t => t)))
        (List.replicate p.nVCores 0, List.replicate NT 0)
      = some ((List.range p.nVCores).map
                (fun i => if i < c then slotOf N_CORES_PER_TILE i else 0),
              (List.range NT).map (cntOf N_CORES_PER_TILE 1 2 c)) := by
    intro c
    induction c with
    | zero =>
      intro _
      rw [replicate_zero_eq_map_range, replicate_zero_eq_map_range]
      have h1 : (fun i => if i < 0 then slotOf N_CORES_PER_TILE i else 0) = fun _ => 0 := by
        funext i
        simp
      have h2 : cntOf N_CORES_PER_TILE 1 2 0 = fun _ => 0 := by
        funext t
        unfold cntOf N_CORES_PER_TILE
        split_ifs <;> omega
      rw [h1, h2]
      rfl
    | succ c ih =>
      intro hc
      rw [List.range_succ, List.foldlM_append, ih (by omega)]
      simp only [Option.bind_eq_bind, Option.some_bind, List.foldlM_cons, List.foldlM_nil]
      rw [assignPCoresStep_eq p NT c hvt (hNT c (by omega)) (by omega)]
      rfl
  unfold assignPCores
  rw [key p.nVCores (le_refl _)]
  simp only [Option.bind_eq_bind, Option.some_bind, Option.some.injEq]
  apply List.map_congr_left
  intro i hi
  have hi : i < p.nVCores := List.mem_range.mp hi
  simp [hi]

theorem placer_index_eq (k v : Nat) (hk : k = 2 ∨ k = 6) (hv : v < UINT_MOD) :
    (rollOf N_CORES_PER_TILE (rollOf k v) * N_CORES_PER_TILE
        + slotOf N_CORES_PER_TILE (rollOf k v)) % UINT_MOD
      = if v = 0 then 0 else if v = 1 then 8 else (v - 2) / k + 16 := by
  unfold rollOf slotOf N_CORES_PER_TILE UINT_MOD at *
  rcases hk with rfl | rfl <;> split_ifs <;> omega

theorem assignPMVMUsStep_eq (modelType : ModelType) (p : PartitionTables) (NT NPC v : Nat)
    (hk : nMVMUSPerCore modelType = 2 ∨ nMVMUSPerCore modelType = 6)
    (hvc : p.vmvmu2vcore = (List.range p.nVMVMUs).map (rollOf (nMVMUSPerCore modelType)))
    (hvt : p.vcore2vtile = (List.range p.nVCores).map (rollOf N_CORES_PER_TILE))
    (hv : v < p.nVMVMUs) (hU : v < UINT_MOD)
    (hc : rollOf (nMVMUSPerCore modelType) v < p.nVCores)
    (ht : rollOf N_CORES_PER_TILE (rollOf (nMVMUSPerCore modelType) v) < NT)
    (hi : (if v = 0 then 0 else if v = 1 then 8
            else (v - 2) / nMVMUSPerCore modelType + 16) < NPC) :
    assignPMVMUsStep modelType p ((List.range NT).map (fun t => t))
      ((List.range p.nVCores).map (slotOf N_CORES_PER_TILE))
      ((List.range p.nVMVMUs).map
          (fun i => if i < v then slotOf (nMVMUSPerCore modelType) i else 0),
       (List.range NPC).map (cntOf (nMVMUSPerCore modelType) 8 16 v)) v
    = some ((List.range p.nVMVMUs).map
              (fun i => if i < v + 1 then slotOf (nMVMUSPerCore modelType) i else 0),
            (List.range NPC).map (cntOf (nMVMUSPerCore modelType) 8 16 (v + 1))) := by
  have hk3 : nMVMUSPerCore modelType = 2 ∨ nMVMUSPerCore modelType = 6
      ∨ nMVMUSPerCore modelType = 8 := by
    rcases hk with h | h
    · exact Or.inl h
    · exact Or.inr (Or.inl h)
  have hs := cntOf_slot (nMVMUSPerCore modelType) 8 16 v hk3 (by omega) (by omega)
  have hx := placer_index_eq (nMVMUSPerCore modelType) v hk hU
  have hv0 : (if v = 0 then 0 else if v = 1 then 8
      else (v - 2) / nMVMUSPerCore modelType + 16)
      = (if v = 0 then 0 else if v = 1 then 8
      else (v - 2) / nMVMUSPerCore modelType + 16) := rfl
  unfold assignPMVMUsStep
  simp only [hvc, hvt, getElem?_map_range, hv, hc, ht, if_true, Option.bind_eq_bind,
    Option.some_bind, hx, hi]
  rw [vecSet_map_range (g := cntOf (nMVMUSPerCore modelType) 8 16 (v + 1)) hi]
  · simp only [Option.some_bind, hs.1, hs.2, if_true]
    rw [vecSet_map_range
      (g := fun i => if i < v + 1 then slotOf (nMVMUSPerCore modelType) i else 0) hv]
    · rfl
    · intro j _
      by_cases hj : j = v
      · subst hj
        simp
      · by_cases hlt : j < v
        · have : j < v + 1 := by omega
          simp [hj, hlt, this]
        · have : ¬ j < v + 1 := by omega
          simp [hj, hlt, this]
  · intro j _
    rw [cntOf_succ (nMVMUSPerCore modelType) 8 16 v j hk3 (by omega) (by omega)]
    by_cases hj : j = (if v = 0 then 0 else if v = 1 then 8
        else (v - 2) / nMVMUSPerCore modelType + 16)
    · rw [if_pos hj, if_pos hj, hj]
    · rw [if_neg hj, if_neg hj]

theorem nMVMUSPerCore_cases (modelType : ModelType) :
    nMVMUSPerCore modelType = 2 ∨ nMVMUSPerCore modelType = 6 := by
  cases modelType <;> simp [nMVMUSPerCore, N_CONSTANT_MVMUS_PER_CORE, N_TRAINING_MVMUS_PER_CORE]

theorem assignPMVMUs_eq (modelType : ModelType) (p : PartitionTables) (NT NPC : Nat)
    (hvc : p.vmvmu2vcore = (List.range p.nVMVMUs).map (rollOf (nMVMUSPerCore modelType)))
    (hvt : p.vcore2vtile = (List.range p.nVCores).map (rollOf N_CORES_PER_TILE))
    (hU : p.nVMVMUs < UINT_MOD)
    (hc : ∀ v, v < p.nVMVMUs → rollOf (nMVMUSPerCore modelType) v < p.nVCores)
    (ht : ∀ v, v < p.nVMVMUs →
      rollOf N_CORES_PER_TILE (rollOf (nMVMUSPerCore modelType) v) < NT)
    (hi : ∀ v, v < p.nVMVMUs → (if v = 0 then 0 else if v = 1 then 8
            else (v - 2) / nMVMUSPerCore modelType + 16) < NPC) :
    assignPMVMUs modelType p NPC ((List.range NT).map (fun t => t))
      ((List.range p.nVCores).map (slotOf N_CORES_PER_TILE))
      = some ((List.range p.nVMVMUs).map (slotOf (nMVMUSPerCore modelType))) := by
  have hk := nMVMUSPerCore_cases modelType
  have key : ∀ v, v ≤ p.nVMVMUs →
      (List.range v).foldlM (assignPMVMUsStep modelType p ((List.range NT).map (fun t => t))
          ((List.range p.nVCores).map (slotOf N_CORES_PER_TILE)))
        (List.replicate p.nVMVMUs 0, List.replicate NPC 0)
      = some ((List.range p.nVMVMUs).map
                (fun i => if i < v then slotOf (nMVMUSPerCore modelType) i else 0),
              (List.range NPC).map (cntOf (nMVMUSPerCore modelType) 8 16 v)) := by
    intro v
    induction v with
    | zero =>
      intro _
      rw [replicate_zero_eq_map_range, replicate_zero_eq_map_range]
      have h1 : (fun i => if i < 0 then slotOf (nMVMUSPerCore modelType) i else 0)
          = fun _ => 0 := by
        funext i
        simp
      have h2 : cntOf (nMVMUSPerCore modelType) 8 16 0 = fun _ => 0 := by
        funext t
        unfold cntOf
        rcases hk with h | h <;> rw [h] <;> split_ifs <;> omega
      rw [h1, h2]
      rfl
    | succ v ih =>
      intro hv
      rw [List.range_succ, List.foldlM_append, ih (by omega)]
      simp only [Option.bind_eq_bind, Option.some_bind, List.foldlM_cons, List.foldlM_nil]
      rw [assignPMVMUsStep_eq modelType p NT NPC v hk hvc hvt (by omega) (by omega)
        (hc v (by omega)) (ht v (by omega)) (hi v (by omega))]
      rfl
  unfold assignPMVMUs
  rw [key p.nVMVMUs (le_refl _)]
  simp only [Option.bind_eq_bind, Option.some_bind, Option.some.injEq]
  apply List.map_congr_left
  intro i hi
  have hi : i < p.nVMVMUs := List.mem_range.mp hi
  simp [hi]

/-- The tables that the VMVMU-order roll-up and the placer produce, in closed form. -/
theorem placer_tables_of_rollup (modelType : ModelType) (nVMVMUs : Nat)
    (h3 : 3 ≤ nVMVMUs) (hU : nVMVMUs < UINT_MOD) :
    ∃ t P, rollUpInVMVMUOrder modelType nVMVMUs = some t
      ∧ Placer.create modelType t = some P
      ∧ t.nVMVMUs = nVMVMUs
      ∧ t.nVCores = (nVMVMUs - 3) / nMVMUSPerCore modelType + 3
      ∧ P.vcore2pcore = (List.range t.nVCores).map (slotOf N_CORES_PER_TILE)
      ∧ P.vmvmu2pmvmu = (List.range nVMVMUs).map (slotOf (nMVMUSPerCore modelType)) := by
  have hk := nMVMUSPerCore_cases modelType
  have hNC : (2 + ((nVMVMUs + UINT_MOD - 2 - 1) % UINT_MOD / nMVMUSPerCore modelType + 1))
      % UINT_MOD = (nVMVMUs - 3) / nMVMUSPerCore modelType + 3 := by
    unfold UINT_MOD at *
    rcases hk with h | h <;> rw [h] <;> omega
  have hNC3 : 3 ≤ (nVMVMUs - 3) / nMVMUSPerCore modelType + 3 := Nat.le_add_left 3 _
  have hNCU : (nVMVMUs - 3) / nMVMUSPerCore modelType + 3 < UINT_MOD := by
    unfold UINT_MOD at *
    rcases hk with h | h <;> rw [h] <;> omega
  generalize hNCdef : (nVMVMUs - 3) / nMVMUSPerCore modelType + 3 = NC at *
  have hNT : (2 + ((NC + UINT_MOD - 2 - 1) % UINT_MOD / N_CORES_PER_TILE + 1)) % UINT_MOD
      = (NC - 3) / 8 + 3 := by
    unfold UINT_MOD N_CORES_PER_TILE at *
    omega
  have e1 := assignVCoresInVMVMUOrder_eq modelType nVMVMUs (by omega) hU
  rw [hNC] at e1
  have e2 := assignVTilesInVMVMUOrder_eq NC (by omega) hNCU
  rw [hNT] at e2
  have eR : rollUpInVMVMUOrder modelType nVMVMUs = some
      { nVMVMUs := nVMVMUs, nVCores := NC, nVTiles := (NC - 3) / 8 + 3,
        vmvmu2vcore := (List.range nVMVMUs).map (rollOf (nMVMUSPerCore modelType)),
        vcore2vtile := (List.range NC).map (rollOf N_CORES_PER_TILE) } := by
    unfold rollUpInVMVMUOrder
    rw [e1]
    simp only [Option.bind_eq_bind, Option.some_bind]
    rw [e2]
    rfl
  have eP : Placer.create modelType
      { nVMVMUs := nVMVMUs, nVCores := NC, nVTiles := (NC - 3) / 8 + 3,
        vmvmu2vcore := (List.range nVMVMUs).map (rollOf (nMVMUSPerCore modelType)),
        vcore2vtile := (List.range NC).map (rollOf N_CORES_PER_TILE) } = some
      { nPTiles := (NC - 3) / 8 + 3,
        nPCores := (((NC - 3) / 8 + 3) * N_CORES_PER_TILE) % UINT_MOD,
        nPMVMUs := ((((NC - 3) / 8 + 3) * N_CORES_PER_TILE) % UINT_MOD
          * nMVMUSPerCore modelType) % UINT_MOD,
        vtile2ptile := (List.range ((NC - 3) / 8 + 3)).map (fun t => t),
        vcore2pcore := (List.range NC).map (slotOf N_CORES_PER_TILE),
        vmvmu2pmvmu := (List.range nVMVMUs).map (slotOf (nMVMUSPerCore modelType)) } := by
    unfold Placer.create
    rw [assignPTiles_eq _ (by show 2 ≤ (NC - 3) / 8 + 3; omega)]
    simp only [Option.bind_eq_bind, Option.some_bind]
    rw [assignPCores_eq _ _ rfl (by
      intro c hc
      have hc : c < NC := hc
      show rollOf N_CORES_PER_TILE c < (NC - 3) / 8 + 3
      unfold rollOf N_CORES_PER_TILE
      split_ifs <;> omega)]
    simp only [Option.some_bind]
    rw [assignPMVMUs_eq modelType _ _ _ rfl rfl hU (by
        intro v hv
        have hv : v < nVMVMUs := hv
        show rollOf (nMVMUSPerCore modelType) v < NC
        rw [← hNCdef]
        unfold rollOf
        rcases hk with h | h <;> rw [h] <;> split_ifs <;> omega) (by
        intro v hv
        have hv : v < nVMVMUs := hv
        show rollOf N_CORES_PER_TILE (rollOf (nMVMUSPerCore modelType) v) < (NC - 3) / 8 + 3
        rw [← hNCdef]
        unfold rollOf N_CORES_PER_TILE
        rcases hk with h | h <;> rw [h] <;> split_ifs <;> omega) (by
        intro v hv
        have hv : v < nVMVMUs := hv
        show _ < (((NC - 3) / 8 + 3) * N_CORES_PER_TILE) % UINT_MOD
        rw [← hNCdef]
        unfold N_CORES_PER_TILE UINT_MOD at *
        rcases hk with h | h <;> rw [h] <;> split_ifs <;> omega)]
    rfl
  exact ⟨_, _, eR, eP, rfl, rfl, rfl, rfl⟩

/-- Claim C9. The partitioner hands out virtual MVMU 2, 3, ... to the matrix tiles, so a
model with at least one matrix tile has `nVMVMUs ≥ 3`. For the tables that the VMVMU-order
roll-up (used by the row-major, column-major and random schemes) builds from that count,
the placer runs to completion (no capacity assertion fails, no table is read out of
range), every virtual core gets a physical core index below `N_CORES_PER_TILE`, and every
virtual MVMU gets a physical MVMU index below the per-core MVMU count of the model type. -/
theorem placer_within_capacity_after_vmvmu_order_rollup (modelType : ModelType)
    (nVMVMUs : Nat) (h3 : 3 ≤ nVMVMUs) (hU : nVMVMUs < UINT_MOD) :
    ∃ t P, rollUpInVMVMUOrder modelType nVMVMUs = some t
      ∧ Placer.create modelType t = some P
      ∧ (∀ vCore, vCore < t.nVCores →
          ∃ pCore, P.vcore2pcore[vCore]? = some pCore ∧ pCore < N_CORES_PER_TILE)
      ∧ (∀ vMVMU, vMVMU < t.nVMVMUs →
          ∃ pMVMU, P.vmvmu2pmvmu[vMVMU]? = some pMVMU
            ∧ (modelType = ModelType.INFERENCE → pMVMU < N_CONSTANT_MVMUS_PER_CORE)
            ∧ (modelType = ModelType.TRAINING → pMVMU < N_TRAINING_MVMUS_PER_CORE)) := by
  obtain ⟨t, P, ht, hP, hn, _, hpc, hpm⟩ := placer_tables_of_rollup modelType nVMVMUs h3 hU
  refine ⟨t, P, ht, hP, ?_, ?_⟩
  · intro vCore hv
    refine ⟨slotOf N_CORES_PER_TILE vCore, ?_, ?_⟩
    · rw [hpc, getElem?_map_range, if_pos hv]
    · unfold slotOf N_CORES_PER_TILE
      split_ifs <;> omega
  · intro vMVMU hv
    rw [hn] at hv
    refine ⟨slotOf (nMVMUSPerCore modelType) vMVMU, ?_, ?_, ?_⟩
    · rw [hpm, getElem?_map_range, if_pos hv]
    · intro h
      subst h
      unfold slotOf nMVMUSPerCore N_CONSTANT_MVMUS_PER_CORE
      simp only [if_true]
      split_ifs <;> omega
    · intro h
      subst h
      unfold slotOf nMVMUSPerCore N_TRAINING_MVMUS_PER_CORE
      simp only [reduceCtorEq, if_false]
      split_ifs <;> omega

theorem placer_within_capacity_after_vmvmu_order_rollup_witness :
    (3 ≤ 20 ∧ 20 < UINT_MOD) ∧
    ∃ t P, rollUpInVMVMUOrder ModelType.INFERENCE 20 = some t
      ∧ Placer.create ModelType.INFERENCE t = some P
      ∧ (∀ vCore, vCore < t.nVCores →
          ∃ pCore, P.vcore2pcore[vCore]? = some pCore ∧ pCore < N_CORES_PER_TILE)
      ∧ (∀ vMVMU, vMVMU < t.nVMVMUs →
          ∃ pMVMU, P.vmvmu2pmvmu[vMVMU]? = some pMVMU
            ∧ (ModelType.INFERENCE = ModelType.INFERENCE → pMVMU < N_CONSTANT_MVMUS_PER_CORE)
            ∧ (ModelType.INFERENCE = ModelType.TRAINING → pMVMU < N_TRAINING_MVMUS_PER_CORE)) :=
  ⟨⟨by decide, by decide⟩,
   placer_within_capacity_after_vmvmu_order_rollup ModelType.INFERENCE 20 (by decide) (by decide)⟩

/-! ## Evaluations of the passes on example programs -/

/-- Claim C6 (evaluation). On the DAG of `a = p + q; out1 = M * a; out2 = sig(a)` every
operation is connected to the MVM, yet `assignVMVMUsAndSpreadAffinity` returns with only the
MVM (4) and its pseudo output (6) assigned: the ADD (3), the SIG (5), both pseudo inputs and
the other pseudo output have no virtual MVMU, so `getVMVMU` fails for them. -/
theorem assignVMVMUs_leaves_connected_operations_unassigned :
    sharedSumGraph.operations = [1, 2, 3, 4, 5, 6, 7]
    ∧ sharedSumGraph.operands 4 = [3] ∧ sharedSumGraph.operands 3 = [1, 2]
    ∧ sharedSumGraph.operands 5 = [3] ∧ sharedSumGraph.operands 6 = [4]
    ∧ sharedSumGraph.operands 7 = [5]
    ∧ (assignVMVMUsAndSpreadAffinity sharedSumGraph 16 ModelType.INFERENCE [0]
        sharedSumTileUsers).map (fun s => sharedSumGraph.operations.map s.op2vmvmu)
      = some [none, none, none, some 2, none, some 2, none] := by
  decide

/-- Claim C3 (evaluation). For `a = A * x; b = B * x; out1 = a + b; out2 = b + z` with
coalescing enabled the linearizer completes, and in the list of core 0 of tile 2 the ADD
(4) stands before the Copy (31) that is its second operand. -/
theorem linearizer_emits_consumer_before_operand :
    (compileToLists twoSumsGraph 64 ModelType.INFERENCE [0, 1] twoSumsTileUsers [[2], [3]]
        true).map (fun r => (r.L.getCoreOperationList 2 0, r.L.g.operands 4,
          r.L.g.cls 31, r.c.mvms 2))
      = some ([27, 12, 25, 26, 2, 3, 4, 31, 28, 13, 29, 20, 7, 30, 21], [2, 31],
          OpClass.CopyOperation, [some 2, some 3, none, none, none, none])
    ∧ List.indexOf 4 [27, 12, 25, 26, 2, 3, 4, 31, 28, 13, 29, 20, 7, 30, 21]
      < List.indexOf 31 [27, 12, 25, 26, 2, 3, 4, 31, 28, 13, 29, 20, 7, 30, 21] := by
  decide

/-- Claim C2 (evaluation). For `y = M0 * x; out = M1 * sig(y) + M1 * y` with coalescing
disabled the linearizer completes; in the list of core 0 of tile 2 the Copy 18 (single user:
MVM 5) is emitted before the Copy 17 (single user: MVM 4) and consumed after it, both MVMs
are on physical MVMU 1, and `allocateReservedInputRegisters` fails on that list. With
coalescing enabled the same program passes. -/
theorem reserved_input_conflict_without_coalescing :
    (compileToLists reusedMatrixGraph 64 ModelType.INFERENCE [0, 1] reusedMatrixTileUsers
        [[2], [4], [5]] false).map (fun r =>
          (r.L.getCoreOperationList 2 0, r.L.g.users 18, r.L.g.users 17))
      = some ([19, 11, 16, 2, 3, 18, 17, 4, 21, 5, 6, 20, 12], [5], [4])
    ∧ (compileToLists reusedMatrixGraph 64 ModelType.INFERENCE [0, 1] reusedMatrixTileUsers
        [[2], [4], [5]] false).map (fun r =>
          (r.P.getPMVMU r.L.pt 5, r.P.getPMVMU r.L.pt 4,
           (allocateReservedInputRegisters r.L.g r.L.pt r.P RegisterAllocator.empty
              (r.L.getCoreOperationList 2 0)).isSome))
      = some (some 1, some 1, false)
    ∧ (compileToLists reusedMatrixGraph 64 ModelType.INFERENCE [0, 1] reusedMatrixTileUsers
        [[2], [4], [5]] true).map (fun r =>
          (allocateReservedInputRegisters r.L.g r.L.pt r.P RegisterAllocator.empty
              (r.L.getCoreOperationList 2 0)).isSome)
      = some true := by
  decide

/-! ## Maps, sets and loops -/

theorem upd_same {α : Type} (f : Nat → α) (i : Nat) (v : α) : upd f i v i = v := by
  simp [upd]

theorem upd_other {α : Type} (f : Nat → α) {i j : Nat} (v : α) (h : j ≠ i) :
    upd f i v j = f j := by
  simp [upd, h]

theorem mem_setInsert {l : List Nat} {x y : Nat} : y ∈ setInsert l x ↔ y = x ∨ y ∈ l := by
  unfold setInsert
  by_cases h : x ∈ l
  · simp only [h, if_true]
    constructor
    · intro hy
      exact Or.inr hy
    · rintro (rfl | hy)
      · exact h
      · exact hy
  · simp only [h, if_false]
    exact List.mem_orderedInsert _

theorem mem_setErase {l : List Nat} {x y : Nat} : y ∈ setErase l x ↔ y ∈ l ∧ y ≠ x := by
  unfold setErase
  simp [List.mem_filter]

/-- A loop in the `Option` monad that keeps an invariant indexed by the elements processed
so far runs to completion and ends in a state satisfying the invariant. -/
theorem foldlM_invariant {α β : Type} (f : β → α → Option β) (Inv : β → List α → Prop)
    (l : List α) :
    ∀ (pre : List α) (b : β), Inv b pre →
      (∀ b done a, a ∈ l → Inv b done → ∃ b', f b a = some b' ∧ Inv b' (done ++ [a])) →
      ∃ b', l.foldlM f b = some b' ∧ Inv b' (pre ++ l) := by
  induction l with
  | nil =>
    intro pre b h _
    exact ⟨b, rfl, by simpa using h⟩
  | cons a l ih =>
    intro pre b h hstep
    obtain ⟨b1, hb1, hI1⟩ := hstep b pre a (List.mem_cons_self _ _) h
    obtain ⟨b2, hb2, hI2⟩ := ih (pre ++ [a]) b1 hI1
      (fun b done x hx hI => hstep b done x (List.mem_cons_of_mem _ hx) hI)
    refine ⟨b2, ?_, ?_⟩
    · simp only [List.foldlM_cons, hb1, Option.bind_eq_bind, Option.some_bind]
      exact hb2
    · simpa using hI2

theorem cloneAssignment_fresh (a : Nat → Option Nat) (cloneFrom cloneTo : Nat)
    (h : a cloneTo = none) :
    ∃ a', cloneAssignment a cloneFrom cloneTo = some a'
      ∧ a' cloneTo = a cloneFrom ∧ ∀ i, i ≠ cloneTo → a' i = a i := by
  unfold cloneAssignment
  cases hf : a cloneFrom with
  | none => exact ⟨a, rfl, h, fun _ _ => rfl⟩
  | some v =>
    refine ⟨upd a cloneTo (some v), ?_, upd_same _ _ _, fun i hi => upd_other _ _ hi⟩
    simp [assignVMVMU, h]

theorem Partitioner.cloneAssignment_on_fresh (pt : Partitioner) (cloneFrom cloneTo : Nat)
    (h : pt.op2vmvmu cloneTo = none) :
    ∃ pt', pt.cloneAssignment cloneFrom cloneTo = some pt'
      ∧ pt'.op2vmvmu cloneTo = pt.op2vmvmu cloneFrom
      ∧ (∀ i, i ≠ cloneTo → pt'.op2vmvmu i = pt.op2vmvmu i)
      ∧ pt'.vmvmu2vcore = pt.vmvmu2vcore ∧ pt'.vcore2vtile = pt.vcore2vtile := by
  obtain ⟨a', ha, h1, h2⟩ := Puma.cloneAssignment_fresh pt.op2vmvmu cloneFrom cloneTo h
  refine ⟨{ pt with op2vmvmu := a' }, ?_, h1, h2, rfl, rfl⟩
  unfold Partitioner.cloneAssignment
  rw [ha]
  rfl

theorem foldlM_preserves {α β : Type} (f : β → α → Option β) (Q : β → Prop)
    (h : ∀ b a b', Q b → f b a = some b' → Q b') :
    ∀ (l : List α) (b b' : β), Q b → l.foldlM f b = some b' → Q b' := by
  intro l
  induction l with
  | nil =>
    intro b b' hb hr
    simp only [List.foldlM_nil, Option.pure_def, Option.some.injEq] at hr
    rw [← hr]
    exact hb
  | cons a l ih =>
    intro b b' hb hr
    simp only [List.foldlM_cons, Option.bind_eq_bind, Option.bind_eq_some] at hr
    obtain ⟨b1, h1, h2⟩ := hr
    exact ih b1 b' (h b a b1 hb h1) h2

theorem foldlM_preserves_mem {α β : Type} (f : β → α → Option β) (Q : β → Prop)
    (l : List α) (h : ∀ b a b', a ∈ l → Q b → f b a = some b' → Q b') :
    ∀ (b b' : β), Q b → l.foldlM f b = some b' → Q b' := by
  induction l with
  | nil =>
    intro b b' hb hr
    simp only [List.foldlM_nil, Option.pure_def, Option.some.injEq] at hr
    rw [← hr]
    exact hb
  | cons a l ih =>
    intro b b' hb hr
    simp only [List.foldlM_cons, Option.bind_eq_bind, Option.bind_eq_some] at hr
    obtain ⟨b1, h1, h2⟩ := hr
    exact ih (fun b a b' ha => h b a b' (List.mem_cons_of_mem _ ha)) b1 b'
      (h b a b1 (List.mem_cons_self _ _) hb h1) h2

theorem foldl_preserves {α β : Type} (f : β → α → β) (Q : β → Prop)
    (h : ∀ b a, Q b → Q (f b a)) : ∀ (l : List α) (b : β), Q b → Q (l.foldl f b) := by
  intro l
  induction l with
  | nil => exact fun b hb => hb
  | cons a l ih => exact fun b hb => ih (f b a) (h b a hb)

/-! ## `insertCopies` -/

theorem isMatrix_isConsumer (c : OpClass) (h : c.isMatrix = true) : c.isConsumer = true := by
  cases c <;> simp_all [OpClass.isMatrix, OpClass.isMVM, OpClass.isTraining, OpClass.isConsumer]

theorem insertCopiesOperand_spec (st : PState) (consumer o producer : Nat)
    (hI2 : ∀ i, st.g.fresh ≤ i → st.pt.op2vmvmu i = none)
    (hc : consumer < st.g.fresh) (hmat : (st.g.cls consumer).isMatrix = true)
    (ho : (st.g.operands consumer)[o]? = some producer) :
    ∃ st', insertCopiesOperand consumer st o = some st'
      ∧ st'.g.fresh = st.g.fresh + 1
      ∧ st'.g.cls = upd st.g.cls st.g.fresh OpClass.CopyOperation
      ∧ st'.g.operations = setInsert st.g.operations st.g.fresh
      ∧ st'.g.operands consumer
          = (st.g.operands consumer).map (fun x => if x = producer then st.g.fresh else x)
      ∧ (∀ c, c ≠ consumer → c ≠ st.g.fresh → st'.g.operands c = st.g.operands c)
      ∧ (∀ i, st.g.fresh + 1 ≤ i → st'.pt.op2vmvmu i = none) := by
  obtain ⟨pt', hpt, _, hframe, _, _⟩ :=
    Partitioner.cloneAssignment_on_fresh st.pt consumer st.g.fresh (hI2 _ (le_refl _))
  have hne : consumer ≠ st.g.fresh := Nat.ne_of_lt hc
  have hmat' : ((st.g.cls consumer).isMVM || (st.g.cls consumer).isTraining) = true := hmat
  have huses : (st.g.newCopy producer).2.uses consumer producer = true := by
    simp only [Graph.uses, Graph.newCopy, Graph.newConsumer, Graph.addUser, Graph.alloc,
      upd_other _ _ hne]
    simp only [List.contains_eq_any_beq, List.any_eq_true, beq_iff_eq]
    exact ⟨producer, List.getElem?_mem ho, rfl⟩
  refine ⟨{ g := (st.g.newCopy producer).2.replaceOperand consumer producer st.g.fresh,
            pt := pt' }, ?_, ?_, ?_, ?_, ?_, ?_, ?_⟩
  · unfold insertCopiesOperand
    simp only [ho, hmat', Bool.true_or, if_true]
    have : (st.g.newCopy producer).1 = st.g.fresh := rfl
    rw [this, hpt]
    rfl
  · simp only [Graph.replaceOperand, huses, if_true]
    rfl
  · simp only [Graph.replaceOperand, huses, if_true]
    rfl
  · simp only [Graph.replaceOperand, huses, if_true]
    rfl
  · simp only [Graph.replaceOperand, huses, if_true, Graph.addUser, Graph.removeUser,
      upd_same]
    simp only [Graph.newCopy, Graph.newConsumer, Graph.addUser, Graph.alloc,
      upd_other _ _ hne]
  · intro c hc1 hc2
    simp only [Graph.replaceOperand, huses, if_true, Graph.addUser, Graph.removeUser,
      upd_other _ _ hc1]
    simp only [Graph.newCopy, Graph.newConsumer, Graph.addUser, Graph.alloc,
      upd_other _ _ hc2]
  · intro i hi
    rw [hframe i (by omega)]
    exact hI2 i (by omega)

theorem insertCopies_operand_loop (st : PState) (op : Nat)
    (hI2 : ∀ i, st.g.fresh ≤ i → st.pt.op2vmvmu i = none)
    (hc : op < st.g.fresh) (hmat : (st.g.cls op).isMatrix = true) (k : Nat) :
    k ≤ (st.g.operands op).length →
    ∃ st', (List.range k).foldlM (insertCopiesOperand op) st = some st'
      ∧ st'.g.fresh = st.g.fresh + k
      ∧ (∀ i, (i < st.g.fresh ∨ st.g.fresh + k ≤ i) → st'.g.cls i = st.g.cls i)
      ∧ (∀ i, st.g.fresh ≤ i → i < st.g.fresh + k → st'.g.cls i = OpClass.CopyOperation)
      ∧ (∀ i, i ∈ st'.g.operations ↔
          i ∈ st.g.operations ∨ (st.g.fresh ≤ i ∧ i < st.g.fresh + k))
      ∧ (st'.g.operands op).length = (st.g.operands op).length
      ∧ (∀ j p, j < k → (st'.g.operands op)[j]? = some p →
          st'.g.cls p = OpClass.CopyOperation)
      ∧ (∀ c, c ≠ op → c < st.g.fresh → st'.g.operands c = st.g.operands c)
      ∧ (∀ i, st.g.fresh + k ≤ i → st'.pt.op2vmvmu i = none) := by
  induction k with
  | zero =>
    intro _
    refine ⟨st, rfl, rfl, fun _ _ => rfl, ?_, ?_, rfl, ?_, fun _ _ _ => rfl, hI2⟩
    · intro i h1 h2
      omega
    · intro i
      constructor
      · exact fun h => Or.inl h
      · rintro (h | h)
        · exact h
        · omega
    · intro j p hj
      omega
  | succ k ih =>
    intro hk
    obtain ⟨s1, hs1, hfresh, hcls, hnew, hops, hlen, hdone, hframe, hunas⟩ := ih (by omega)
    have hk1 : k < (s1.g.operands op).length := by omega
    obtain ⟨producer, hprod⟩ : ∃ producer, (s1.g.operands op)[k]? = some producer :=
      ⟨(s1.g.operands op)[k], List.getElem?_eq_getElem hk1⟩
    have hmat1 : (s1.g.cls op).isMatrix = true := by rw [hcls op (Or.inl hc)]; exact hmat
    obtain ⟨s2, hs2, hfresh2, hcls2, hops2, hopnd2, hframe2, hunas2⟩ :=
      insertCopiesOperand_spec s1 op k producer
        (fun i hi => hunas i (by omega)) (by omega) hmat1 hprod
    refine ⟨s2, ?_, ?_, ?_, ?_, ?_, ?_, ?_, ?_, ?_⟩
    · rw [List.range_succ, List.foldlM_append, hs1]
      simp only [Option.bind_eq_bind, Option.some_bind, List.foldlM_cons, List.foldlM_nil]
      rw [hs2]
      rfl
    · omega
    · intro i hi
      rw [hcls2, upd_other _ _ (by omega), hcls i (by omega)]
    · intro i h1 h2
      rw [hcls2]
      by_cases hi : i = s1.g.fresh
      · rw [hi, upd_same]
      · rw [upd_other _ _ hi]
        exact hnew i h1 (by omega)
    · intro i
      rw [hops2, mem_setInsert, hops i]
      constructor
      · rintro (h | h | h)
        · exact Or.inr (by omega)
        · exact Or.inl h
        · exact Or.inr (by omega)
      · rintro (h | h)
        · exact Or.inr (Or.inl h)
        · by_cases hi : i = s1.g.fresh
          · exact Or.inl hi
          · exact Or.inr (Or.inr (by omega))
    · rw [hopnd2, List.length_map, hlen]
    · intro j p hj hp
      rw [hopnd2, List.getElem?_map] at hp
      cases hq : (s1.g.operands op)[j]? with
      | none => rw [hq] at hp; simp at hp
      | some q =>
        rw [hq] at hp
        simp only [Option.map_some', Option.some.injEq] at hp
        rw [hcls2]
        by_cases hqp : q = producer
        · rw [if_pos hqp] at hp
          rw [← hp, upd_same]
        · rw [if_neg hqp] at hp
          subst hp
          by_cases hqf : q = s1.g.fresh
          · rw [hqf, upd_same]
          · rw [upd_other _ _ hqf]
            have hjk : j < k := by
              rcases Nat.lt_succ_iff_lt_or_eq.mp hj with h | h
              · exact h
              · subst h
                rw [hprod] at hq
                exact absurd (Option.some.inj hq).symm hqp
            exact hdone j q hjk hq
    · intro c hc1 hc2
      rw [hframe2 c hc1 (by omega), hframe c hc1 hc2]
    · intro i hi
      exact hunas2 i (by omega)

/-- Claim C7. On a DAG whose operations lie below the next fresh address and whose fresh
addresses carry no virtual MVMU, `insertCopies` runs to completion, and afterwards every
operand of every MVM or training matrix operation is a Copy, or has exactly one user and is
not itself a matrix operation. -/
theorem insertCopies_matrix_operands (st : PState)
    (hA : ∀ i, i ∈ st.g.operations → i < st.g.fresh)
    (hB : ∀ i, st.g.fresh ≤ i → st.pt.op2vmvmu i = none) :
    ∃ st', insertCopies st = some st'
      ∧ ∀ c, c ∈ st'.g.operations → (st'.g.cls c).isMatrix = true →
          ∀ p, p ∈ st'.g.operands c →
            st'.g.cls p = OpClass.CopyOperation
            ∨ ((st'.g.users p).length = 1 ∧ (st'.g.cls p).isMatrix = false) := by
  have key := foldlM_invariant insertCopiesAt
    (fun (s : PState) (done : List Nat) =>
      (∀ i, i ∈ s.g.operations → i ∈ st.g.operations ∨ st.g.fresh ≤ i)
      ∧ (∀ i, i ∈ s.g.operations → i < s.g.fresh)
      ∧ (∀ c, c ∈ done → c < st.g.fresh)
      ∧ (∀ i, s.g.fresh ≤ i → s.pt.op2vmvmu i = none)
      ∧ st.g.fresh ≤ s.g.fresh
      ∧ (∀ i, i < st.g.fresh → s.g.cls i = st.g.cls i)
      ∧ (∀ i, st.g.fresh ≤ i → i < s.g.fresh → s.g.cls i = OpClass.CopyOperation)
      ∧ (∀ c, c ∈ done → (s.g.cls c).isMatrix = true →
          ∀ p, p ∈ s.g.operands c → s.g.cls p = OpClass.CopyOperation))
    st.g.operations [] st
    ⟨fun i h => Or.inl h, hA, fun c hc => absurd hc (List.not_mem_nil c), hB, le_refl _,
      fun _ _ => rfl,
      fun i h1 h2 => absurd h2 (by omega), fun c hc => absurd hc (List.not_mem_nil c)⟩
    (by
      intro s done op hop ⟨h0, h1, hd, h2, h3, h4, h5, h6⟩
      have hd' : ∀ c, c ∈ done ++ [op] → c < st.g.fresh := by
        intro c hc
        rcases List.mem_append.mp hc with h | h
        · exact hd c h
        · simp only [List.mem_singleton] at h
          rw [h]
          exact hA op hop
      have hopf : op < st.g.fresh := hA op hop
      by_cases hmat : (s.g.cls op).isMatrix = true
      · obtain ⟨s', hs', hfresh, hcls, hnew, hops, _, hdone, hframe, hunas⟩ :=
          insertCopies_operand_loop s op h2 (by omega) hmat (s.g.operands op).length
            (le_refl _)
        have hcopy : ∀ p, s.g.cls p = OpClass.CopyOperation →
            s'.g.cls p = OpClass.CopyOperation := by
          intro p hp
          by_cases hlt : p < s.g.fresh ∨ s.g.fresh + (s.g.operands op).length ≤ p
          · rw [hcls p hlt, hp]
          · exact hnew p (by omega) (by omega)
        refine ⟨s', ?_, ?_, ?_, hd', ?_, ?_, ?_, ?_, ?_⟩
        · have hcons := isMatrix_isConsumer _ hmat
          have hm : ((s.g.cls op).isMVM || (s.g.cls op).isTraining) = true := hmat
          simp only [insertCopiesAt, hcons, hm, if_true]
          exact hs'
        · intro i hi
          rcases (hops i).mp hi with h | h
          · exact h0 i h
          · exact Or.inr (by omega)
        · intro i hi
          rcases (hops i).mp hi with h | h
          · have := h1 i h
            omega
          · omega
        · intro i hi
          exact hunas i (by omega)
        · omega
        · intro i hi
          rw [hcls i (Or.inl (by omega)), h4 i hi]
        · intro i hi1 hi2
          by_cases hlt : i < s.g.fresh
          · rw [hcls i (Or.inl hlt)]
            exact h5 i hi1 hlt
          · exact hnew i (by omega) (by omega)
        · intro c hc hcm p hp
          by_cases hco : c = op
          · subst hco
            obtain ⟨j, hj, hjp⟩ := List.getElem_of_mem hp
            refine hdone j p (by omega) ?_
            rw [List.getElem?_eq_getElem hj, hjp]
          · rcases List.mem_append.mp hc with hcd | hcd
            · have hcf : c < st.g.fresh := hd c hcd
              rw [hframe c hco (by omega)] at hp
              rw [hcls c (Or.inl (by omega))] at hcm
              exact hcopy p (h6 c hcd hcm p hp)
            · simp only [List.mem_singleton] at hcd
              exact absurd hcd hco
      · refine ⟨s, ?_, h0, h1, hd', h2, h3, h4, h5, ?_⟩
        · have hm : ((s.g.cls op).isMVM || (s.g.cls op).isTraining) = false := by
            simpa [OpClass.isMatrix] using hmat
          simp only [insertCopiesAt, hm]
          split <;> rfl
        · intro c hc hcm p hp
          rcases List.mem_append.mp hc with hcd | hcd
          · exact h6 c hcd hcm p hp
          · simp only [List.mem_singleton] at hcd
            rw [hcd] at hcm
            exact absurd hcm hmat)
  obtain ⟨st', hst', h0, h1, _, h2, h3, h4, h5, h6⟩ := key
  refine ⟨st', hst', ?_⟩
  intro c hc hcm p hp
  rcases h0 c hc with h | h
  · exact Or.inl (h6 c (by simpa using h) hcm p hp)
  · by_cases hlt : c < st'.g.fresh
    · rw [h5 c h hlt] at hcm
      exact absurd hcm (by decide)
    · exact absurd (h1 c hc) hlt

theorem insertCopies_matrix_operands_witness :
    ((∀ i, i ∈ reusedMatrixState.g.operations → i < reusedMatrixState.g.fresh)
      ∧ (∀ i, reusedMatrixState.g.fresh ≤ i → reusedMatrixState.pt.op2vmvmu i = none))
    ∧ ∃ st', insertCopies reusedMatrixState = some st'
      ∧ ∀ c, c ∈ st'.g.operations → (st'.g.cls c).isMatrix = true →
          ∀ p, p ∈ st'.g.operands c →
            st'.g.cls p = OpClass.CopyOperation
            ∨ ((st'.g.users p).length = 1 ∧ (st'.g.cls p).isMatrix = false) :=
  have hA : ∀ i, i ∈ reusedMatrixState.g.operations → i < reusedMatrixState.g.fresh := by
    decide
  have hB : ∀ i, reusedMatrixState.g.fresh ≤ i → reusedMatrixState.pt.op2vmvmu i = none := by
    intro i hi
    have hf : reusedMatrixState.g.fresh = 8 := by decide
    rw [hf] at hi
    show (if i < 8 then some 0 else none) = none
    rw [if_neg (by omega)]
  ⟨⟨hA, hB⟩, insertCopies_matrix_operands reusedMatrixState hA hB⟩

/-! ## Slots of the coalesced sets -/

theorem Coalescer.mvmSlotsAgree_newMVMSet (P : Placer) (pt : Partitioner) (c : Coalescer)
    (h : c.mvmSlotsAgree P pt) : c.newMVMSet.2.mvmSlotsAgree P pt := by
  intro s i m hm
  simp only [Coalescer.newMVMSet] at hm ⊢
  by_cases hs : s = c.freshSet
  · rw [hs, upd_same] at hm
    rw [List.getElem?_replicate] at hm
    split at hm <;> simp at hm
  · rw [upd_other _ _ hs] at hm
    exact h s i m hm

theorem Coalescer.mvmSlotsAgree_addMVM (P : Placer) (pt : Partitioner) (c c' : Coalescer)
    (s mvm pMVMU : Nat) (h : c.mvmSlotsAgree P pt) (hp : P.getPMVMU pt mvm = some pMVMU)
    (hadd : c.addMVM s mvm pMVMU = some c') : c'.mvmSlotsAgree P pt := by
  unfold Coalescer.addMVM at hadd
  split at hadd
  · rename_i hslot
    split at hadd
    · exact absurd hadd (by simp)
    · rename_i hback
      simp only [Option.some.injEq] at hadd
      subst hadd
      intro s' i m hm
      simp only at hm ⊢
      have hnew : m = mvm → s' = s ∧ i = pMVMU := by
        intro hmm
        subst hmm
        by_cases hs : s' = s
        · subst hs
          rw [upd_same] at hm
          by_cases hi : i = pMVMU
          · exact ⟨rfl, hi⟩
          · rw [List.getElem?_set_ne (fun e => hi e.symm)] at hm
            have := (h s' i m hm).2
            rw [this] at hback
            exact absurd rfl hback
        · rw [upd_other _ _ hs] at hm
          have := (h s' i m hm).2
          rw [this] at hback
          exact absurd rfl hback
      by_cases hmm : m = mvm
      · obtain ⟨hs, hi⟩ := hnew hmm
        rw [hmm, hs, hi, upd_same]
        exact ⟨hp, rfl⟩
      · rw [upd_other _ _ hmm]
        by_cases hs : s' = s
        · subst hs
          rw [upd_same] at hm
          by_cases hi : i = pMVMU
          · subst hi
            have hlt : i < (c.mvms s').length := by
              rcases Nat.lt_or_ge i (c.mvms s').length with h1 | h1
              · exact h1
              · rw [List.getElem?_eq_none h1] at hslot
                exact absurd hslot (by simp)
            rw [List.getElem?_set_self hlt] at hm
            simp only [Option.some.injEq] at hm
            exact absurd hm.symm hmm
          · rw [List.getElem?_set_ne (fun e => hi e.symm)] at hm
            exact h s' i m hm
        · rw [upd_other _ _ hs] at hm
          exact h s' i m hm
  · exact absurd hadd (by simp)

theorem Coalescer.mvmSlotsAgree_removeAllMVM (P : Placer) (pt : Partitioner) (c : Coalescer)
    (s : Nat) (h : c.mvmSlotsAgree P pt) : (c.removeAllMVM s).mvmSlotsAgree P pt := by
  intro s' i m hm
  simp only [Coalescer.removeAllMVM] at hm ⊢
  by_cases hs : s' = s
  · rw [hs, upd_same, List.getElem?_map] at hm
    cases hx : (c.mvms s)[i]? with
    | none => rw [hx] at hm; simp at hm
    | some x => rw [hx] at hm; simp at hm
  · rw [upd_other _ _ hs] at hm
    obtain ⟨h1, h2⟩ := h s' i m hm
    refine ⟨h1, ?_⟩
    have hnot : ¬ (some m ∈ c.mvms s) := by
      intro hin
      obtain ⟨j, hj, hjm⟩ := List.getElem_of_mem hin
      have h3 := (h s j m (by rw [List.getElem?_eq_getElem hj, hjm])).2
      rw [h2] at h3
      exact hs (Option.some.inj h3)
    rw [if_neg hnot]
    exact h2

theorem Coalescer.trainingSlotsAgree_newTrainingSet (g : Graph) (P : Placer)
    (pt : Partitioner) (c : Coalescer) (h : c.trainingSlotsAgree g P pt) :
    c.newTrainingSet.2.trainingSlotsAgree g P pt := by
  intro s i m hm
  simp only [Coalescer.newTrainingSet] at hm ⊢
  by_cases hs : s = c.freshSet
  · rw [hs, upd_same] at hm
    rw [List.getElem?_replicate] at hm
    split at hm <;> simp at hm
  · rw [upd_other _ _ hs] at hm
    exact h s i m hm

theorem Coalescer.trainingSlotsAgree_addTraining (g : Graph) (P : Placer) (pt : Partitioner)
    (c c' : Coalescer) (s trainOp pMVMU : Nat) (opType : OpType)
    (h : c.trainingSlotsAgree g P pt) (hp : P.getPMVMU pt trainOp = some pMVMU)
    (hcls : g.cls trainOp = OpClass.TrainingMatrixOperation opType)
    (hadd : c.addTraining s trainOp pMVMU opType = some c') :
    c'.trainingSlotsAgree g P pt := by
  unfold Coalescer.addTraining at hadd
  simp only at hadd
  split at hadd
  · rename_i hslot
    split at hadd
    · exact absurd hadd (by simp)
    · rename_i hback
      simp only [Option.some.injEq] at hadd
      subst hadd
      have hold : ∀ (s' i : Nat), (c.trainOps s')[i]? = some (some trainOp) → False := by
        intro s' i hm
        obtain ⟨_, _, _, _, _, h4⟩ := h s' i trainOp hm
        rw [h4] at hback
        exact absurd rfl hback
      intro s' i m hm
      simp only at hm ⊢
      by_cases hs : s' = s
      · subst hs
        rw [upd_same] at hm
        by_cases hi : i = (pMVMU * N_TRAINING_OPERATIONS + opType.toNat) % UINT_MOD
        · have hlt : i < (c.trainOps s').length := by
            rcases Nat.lt_or_ge i (c.trainOps s').length with h1 | h1
            · exact h1
            · rw [← hi, List.getElem?_eq_none h1] at hslot
              exact absurd hslot (by simp)
          rw [← hi, List.getElem?_set_self hlt] at hm
          simp only [Option.some.injEq] at hm
          subst hm
          exact ⟨pMVMU, opType, hp, hcls, hi.symm, upd_same _ _ _⟩
        · rw [List.getElem?_set_ne (fun e => hi e.symm)] at hm
          obtain ⟨a, b, h1, h2, h3, h4⟩ := h s' i m hm
          have hmm : m ≠ trainOp := fun e => hold s' i (e ▸ hm)
          exact ⟨a, b, h1, h2, h3, by rw [upd_other _ _ hmm]; exact h4⟩
      · rw [upd_other _ _ hs] at hm
        obtain ⟨a, b, h1, h2, h3, h4⟩ := h s' i m hm
        have hmm : m ≠ trainOp := fun e => hold s' i (e ▸ hm)
        exact ⟨a, b, h1, h2, h3, by rw [upd_other _ _ hmm]; exact h4⟩
  · exact absurd hadd (by simp)

theorem Coalescer.mvmSlotsAgree_congr (P : Placer) (pt : Partitioner) (c c' : Coalescer)
    (h1 : c'.mvms = c.mvms) (h2 : c'.coalescedSet = c.coalescedSet)
    (h : c.mvmSlotsAgree P pt) : c'.mvmSlotsAgree P pt := by
  intro s i m hm
  rw [h1] at hm
  rw [h2]
  exact h s i m hm

theorem Coalescer.trainingSlotsAgree_congr (g : Graph) (P : Placer) (pt : Partitioner)
    (c c' : Coalescer) (h1 : c'.trainOps = c.trainOps)
    (h2 : c'.coalescedTrainingSet = c.coalescedTrainingSet)
    (h : c.trainingSlotsAgree g P pt) : c'.trainingSlotsAgree g P pt := by
  intro s i m hm
  rw [h1] at hm
  rw [h2]
  exact h s i m hm

theorem Coalescer.addMVM_training (c c' : Coalescer) (s mvm pMVMU : Nat)
    (hadd : c.addMVM s mvm pMVMU = some c') :
    c'.trainOps = c.trainOps ∧ c'.coalescedTrainingSet = c.coalescedTrainingSet := by
  unfold Coalescer.addMVM at hadd
  split at hadd
  · split at hadd
    · exact absurd hadd (by simp)
    · simp only [Option.some.injEq] at hadd
      subst hadd
      exact ⟨rfl, rfl⟩
  · exact absurd hadd (by simp)

theorem Coalescer.addTraining_mvm (c c' : Coalescer) (s trainOp pMVMU : Nat)
    (opType : OpType) (hadd : c.addTraining s trainOp pMVMU opType = some c') :
    c'.mvms = c.mvms ∧ c'.coalescedSet = c.coalescedSet := by
  unfold Coalescer.addTraining at hadd
  simp only at hadd
  split at hadd
  · split at hadd
    · exact absurd hadd (by simp)
    · simp only [Option.some.injEq] at hadd
      subst hadd
      exact ⟨rfl, rfl⟩
  · exact absurd hadd (by simp)

theorem extractLocalSet_slots (g : Graph) (P : Placer) (pt : Partitioner)
    (s s' : Coalescer × List ((Nat × Nat) × Nat)) (mvm : Nat)
    (h : s.1.mvmSlotsAgree P pt ∧ s.1.trainingSlotsAgree g P pt)
    (hr : extractLocalSet P pt s mvm = some s') :
    s'.1.mvmSlotsAgree P pt ∧ s'.1.trainingSlotsAgree g P pt := by
  unfold extractLocalSet at hr
  simp only [Option.bind_eq_some, Option.map_eq_some'] at hr
  obtain ⟨pMVMU, hp, pCore, _, pTile, _, c', hadd, hs'⟩ := hr
  rw [← hs']
  cases hf : localFind s.2 (pTile, pCore) with
  | some cs =>
    rw [hf] at hadd
    simp only at hadd
    obtain ⟨t1, t2⟩ := Coalescer.addMVM_training _ _ _ _ _ hadd
    exact ⟨Coalescer.mvmSlotsAgree_addMVM P pt _ _ _ _ _ h.1 hp hadd,
      Coalescer.trainingSlotsAgree_congr g P pt _ _ t1 t2 h.2⟩
  | none =>
    rw [hf] at hadd
    simp only at hadd
    obtain ⟨t1, t2⟩ := Coalescer.addMVM_training _ _ _ _ _ hadd
    exact ⟨Coalescer.mvmSlotsAgree_addMVM P pt _ _ _ _ _
        (Coalescer.mvmSlotsAgree_newMVMSet P pt _ h.1) hp hadd,
      Coalescer.trainingSlotsAgree_congr g P pt _ _ t1 t2
        (Coalescer.trainingSlotsAgree_congr g P pt _ _ rfl rfl h.2)⟩

theorem keepIfComplete_slots (g : Graph) (P : Placer) (pt : Partitioner)
    (c c' : Coalescer) (e : (Nat × Nat) × Nat)
    (h : c.mvmSlotsAgree P pt ∧ c.trainingSlotsAgree g P pt)
    (hr : keepIfComplete c e = some c') :
    c'.mvmSlotsAgree P pt ∧ c'.trainingSlotsAgree g P pt := by
  unfold keepIfComplete at hr
  split at hr
  · simp only [Option.map_eq_some'] at hr
    obtain ⟨v, _, hv⟩ := hr
    rw [← hv]
    exact ⟨Coalescer.mvmSlotsAgree_congr P pt _ _ rfl rfl h.1,
      Coalescer.trainingSlotsAgree_congr g P pt _ _ rfl rfl h.2⟩
  · simp only [Option.some.injEq] at hr
    rw [← hr]
    exact ⟨Coalescer.mvmSlotsAgree_removeAllMVM P pt _ _ h.1,
      Coalescer.trainingSlotsAgree_congr g P pt _ _ rfl rfl h.2⟩

theorem coalesceHintSet_slots (g : Graph) (P : Placer) (pt : Partitioner)
    (c c' : Coalescer) (hint : List Nat)
    (h : c.mvmSlotsAgree P pt ∧ c.trainingSlotsAgree g P pt)
    (hr : coalesceHintSet P pt c hint = some c') :
    c'.mvmSlotsAgree P pt ∧ c'.trainingSlotsAgree g P pt := by
  unfold coalesceHintSet at hr
  simp only [Option.bind_eq_some] at hr
  obtain ⟨s, hs, hk⟩ := hr
  have h1 := foldlM_preserves (extractLocalSet P pt)
    (fun s => s.1.mvmSlotsAgree P pt ∧ s.1.trainingSlotsAgree g P pt)
    (fun b a b' hb hf => extractLocalSet_slots g P pt b b' a hb hf) hint (c, []) s h hs
  exact foldlM_preserves keepIfComplete
    (fun c => c.mvmSlotsAgree P pt ∧ c.trainingSlotsAgree g P pt)
    (fun b a b' hb hf => keepIfComplete_slots g P pt b b' a hb hf) s.2 s.1 c' h1 hk

theorem CoalesceLoop.relate_c (l : CoalesceLoop) (p t : Nat) : (l.relate p t).c = l.c := rfl

theorem CoalesceLoop.makePredecessors_c (l : CoalesceLoop) (src dst : Nat) :
    (l.makePredecessors src dst).c = l.c := by
  unfold CoalesceLoop.makePredecessors
  refine foldl_preserves _ (fun (x : CoalesceLoop) => x.c = l.c) ?_ _ l rfl
  intro b a hb
  refine foldl_preserves _ (fun (x : CoalesceLoop) => x.c = l.c) ?_ _ _ ?_
  · intro b' a' hb'
    exact hb'
  · exact hb

theorem CoalesceLoop.makeAllPredecessors_c (l : CoalesceLoop) (x : Nat)
    (ms : List (Option Nat)) :
    (ms.foldl (fun (l : CoalesceLoop) m =>
      match m with
      | some m => (l.makePredecessors x m).makePredecessors m x
      | Option.none => l) l).c = l.c := by
  refine foldl_preserves _ (fun (y : CoalesceLoop) => y.c = l.c) ?_ _ l rfl
  intro b a hb
  cases a with
  | none => exact hb
  | some m =>
    simp only
    rw [CoalesceLoop.makePredecessors_c, CoalesceLoop.makePredecessors_c]
    exact hb

theorem CoalesceLoop.coalesce_slots (g : Graph) (P : Placer) (pt : Partitioner)
    (l l' : CoalesceLoop) (mvm : Nat)
    (h : l.c.mvmSlotsAgree P pt ∧ l.c.trainingSlotsAgree g P pt)
    (hr : l.coalesce P pt mvm = some l') :
    l'.c.mvmSlotsAgree P pt ∧ l'.c.trainingSlotsAgree g P pt := by
  unfold CoalesceLoop.coalesce at hr
  simp only [Option.bind_eq_some, Option.map_eq_some'] at hr
  obtain ⟨idx, _, sets, _, pMVMU, hp, found, _, r, hfound, c', hadd, hl'⟩ := hr
  rw [← hl']
  generalize hX : List.foldl _ r.1 (r.1.c.mvms r.2) = X at hadd
  have hXc : X.c = r.1.c := by
    rw [← hX]
    exact CoalesceLoop.makeAllPredecessors_c r.1 mvm (r.1.c.mvms r.2)
  rw [hXc] at hadd
  have hr1 : r.1.c.mvmSlotsAgree P pt ∧ r.1.c.trainingSlotsAgree g P pt := by
    cases found with
    | some cs =>
      simp only [Option.some.injEq] at hfound
      rw [← hfound]
      exact h
    | none =>
      simp only [Option.map_eq_some'] at hfound
      obtain ⟨v, _, hv⟩ := hfound
      rw [← hv]
      exact ⟨Coalescer.mvmSlotsAgree_congr P pt _ _ rfl rfl
          (Coalescer.mvmSlotsAgree_newMVMSet P pt _ h.1),
        Coalescer.trainingSlotsAgree_congr g P pt _ _ rfl rfl h.2⟩
  obtain ⟨t1, t2⟩ := Coalescer.addMVM_training _ _ _ _ _ hadd
  exact ⟨Coalescer.mvmSlotsAgree_addMVM P pt _ _ _ _ _ hr1.1 hp hadd,
    Coalescer.trainingSlotsAgree_congr g P pt _ _ t1 t2 hr1.2⟩

theorem coalesceMVMPredecessors_slots (g : Graph) (P : Placer) (pt : Partitioner) :
    ∀ (fuel op : Nat) (l l' : CoalesceLoop),
      (l.c.mvmSlotsAgree P pt ∧ l.c.trainingSlotsAgree g P pt) →
      coalesceMVMPredecessors g P pt fuel op l = some l' →
      (l'.c.mvmSlotsAgree P pt ∧ l'.c.trainingSlotsAgree g P pt) := by
  intro fuel
  induction fuel with
  | zero =>
    intro op l l' _ hr
    simp [coalesceMVMPredecessors] at hr
  | succ fuel ih =>
    intro op l l' h hr
    unfold coalesceMVMPredecessors at hr
    split at hr
    · simp only [Option.some.injEq] at hr
      rw [← hr]
      exact h
    · simp only [Option.bind_eq_some, Option.map_eq_some'] at hr
      obtain ⟨l1, h1, l2, h2, l3, h3, hl'⟩ := hr
      have hfold : ∀ (ops : List Nat) (a b : CoalesceLoop),
          (a.c.mvmSlotsAgree P pt ∧ a.c.trainingSlotsAgree g P pt) →
          ops.foldlM (fun l predecessor =>
            coalesceMVMPredecessors g P pt fuel predecessor l) a = some b →
          (b.c.mvmSlotsAgree P pt ∧ b.c.trainingSlotsAgree g P pt) :=
        fun ops a b ha hb => foldlM_preserves _
          (fun (x : CoalesceLoop) => x.c.mvmSlotsAgree P pt ∧ x.c.trainingSlotsAgree g P pt)
          (fun x p x' hx hf => ih p x x' hx hf) ops a b ha hb
      have q1 : l1.c.mvmSlotsAgree P pt ∧ l1.c.trainingSlotsAgree g P pt := by
        split at h1
        · simp only [Option.bind_eq_some] at h1
          obtain ⟨l0, h0, h1⟩ := h1
          have q0 := hfold _ _ _ h h0
          split at h1
          · split at h1
            · exact CoalesceLoop.coalesce_slots g P pt _ _ _ q0 h1
            · simp only [Option.some.injEq] at h1
              rw [← h1]
              exact q0
          · simp only [Option.some.injEq] at h1
            rw [← h1]
            exact q0
        · simp only [Option.some.injEq] at h1
          rw [← h1]
          exact h
      have q2 : l2.c.mvmSlotsAgree P pt ∧ l2.c.trainingSlotsAgree g P pt := by
        split at h2
        · exact hfold _ _ _ q1 h2
        · simp only [Option.some.injEq] at h2
          rw [← h2]
          exact q1
      have q3 : l3.c.mvmSlotsAgree P pt ∧ l3.c.trainingSlotsAgree g P pt := by
        split at h3
        · simp only [Option.bind_eq_some] at h3
          obtain ⟨p, _, h3⟩ := h3
          exact ih _ _ _ q2 h3
        · simp only [Option.some.injEq] at h3
          rw [← h3]
          exact q2
      rw [← hl']
      exact q3

theorem extractMVMRelation_c (g : Graph) (t : Nat → Option (List Nat)) (l : CoalesceLoop)
    (op : Nat) : (extractMVMRelation g t l op).c = l.c := by
  unfold extractMVMRelation
  split
  · split
    · exact foldl_preserves (fun (l : CoalesceLoop) predMVM => l.relate predMVM op)
        (fun (x : CoalesceLoop) => x.c = l.c) (fun b a hb => hb) _ l rfl
    · rfl
  · rfl

theorem coalesceMVMOperations_slots (g : Graph) (P : Placer) (pt : Partitioner)
    (fuel : Nat) (hints : List (List Nat)) (l : CoalesceLoop)
    (hr : coalesceMVMOperations g P pt fuel hints = some l) :
    l.c.mvmSlotsAgree P pt ∧ l.c.trainingSlotsAgree g P pt := by
  unfold coalesceMVMOperations at hr
  simp only [Option.bind_eq_some] at hr
  obtain ⟨c, hc, t, _, hl⟩ := hr
  have h0 : ({ Coalescer.none with coalescedMVMSets := List.replicate P.nPCores [] } :
      Coalescer).mvmSlotsAgree P pt ∧
      ({ Coalescer.none with coalescedMVMSets := List.replicate P.nPCores [] } :
      Coalescer).trainingSlotsAgree g P pt := by
    constructor
    · intro s i m hm
      simp [Coalescer.none] at hm
    · intro s i m hm
      simp [Coalescer.none] at hm
  have h1 := foldlM_preserves (coalesceHintSet P pt)
    (fun c => c.mvmSlotsAgree P pt ∧ c.trainingSlotsAgree g P pt)
    (fun b a b' hb hf => coalesceHintSet_slots g P pt b b' a hb hf) hints _ c h0 hc
  have h2 : (g.operations.foldl (extractMVMRelation g t)
      { c := c, isVisited := [], preds := fun _ => [], succs := fun _ => [] }).c = c :=
    foldl_preserves (extractMVMRelation g t) (fun (x : CoalesceLoop) => x.c = c)
      (fun b a hb => by
        show (extractMVMRelation g t b a).c = c
        rw [extractMVMRelation_c]
        exact hb) _ _ rfl
  refine foldlM_preserves _
    (fun (x : CoalesceLoop) => x.c.mvmSlotsAgree P pt ∧ x.c.trainingSlotsAgree g P pt)
    ?_ g.operations _ l ?_ hl
  · intro b a b' hb hf
    split at hf
    · exact coalesceMVMPredecessors_slots g P pt fuel a b b' hb hf
    · simp only [Option.some.injEq] at hf
      rw [← hf]
      exact hb
  · show Coalescer.mvmSlotsAgree P pt (CoalesceLoop.c _) ∧
      Coalescer.trainingSlotsAgree g P pt (CoalesceLoop.c _)
    rw [h2]
    exact h1

theorem CoalesceLoop.coalesceTraining_slots (g : Graph) (P : Placer) (pt : Partitioner)
    (l l' : CoalesceLoop) (trainOp : Nat) (opType : OpType)
    (hcls : g.cls trainOp = OpClass.TrainingMatrixOperation opType)
    (h : l.c.mvmSlotsAgree P pt ∧ l.c.trainingSlotsAgree g P pt)
    (hr : l.coalesceTraining P pt trainOp opType = some l') :
    l'.c.mvmSlotsAgree P pt ∧ l'.c.trainingSlotsAgree g P pt := by
  unfold CoalesceLoop.coalesceTraining at hr
  simp only [Option.bind_eq_some, Option.map_eq_some'] at hr
  obtain ⟨idx, _, sets, _, pMVMU, hp, found, _, r, hfound, c', hadd, hl'⟩ := hr
  rw [← hl']
  generalize hX : List.foldl _ r.1 (r.1.c.trainOps r.2) = X at hadd
  have hXc : X.c = r.1.c := by
    rw [← hX]
    exact CoalesceLoop.makeAllPredecessors_c r.1 trainOp (r.1.c.trainOps r.2)
  rw [hXc] at hadd
  have hr1 : r.1.c.mvmSlotsAgree P pt ∧ r.1.c.trainingSlotsAgree g P pt := by
    cases found with
    | some cs =>
      simp only [Option.some.injEq] at hfound
      rw [← hfound]
      exact h
    | none =>
      simp only [Option.map_eq_some'] at hfound
      obtain ⟨v, _, hv⟩ := hfound
      rw [← hv]
      exact ⟨Coalescer.mvmSlotsAgree_congr P pt _ _ rfl rfl h.1,
        Coalescer.trainingSlotsAgree_congr g P pt _ _ rfl rfl
          (Coalescer.trainingSlotsAgree_newTrainingSet g P pt _ h.2)⟩
  obtain ⟨t1, t2⟩ := Coalescer.addTraining_mvm _ _ _ _ _ _ hadd
  exact ⟨Coalescer.mvmSlotsAgree_congr P pt _ _ t1 t2 hr1.1,
    Coalescer.trainingSlotsAgree_addTraining g P pt _ _ _ _ _ _ hr1.2 hp hcls hadd⟩

theorem coalesceTrainingOperationPredecessors_slots (g : Graph) (P : Placer)
    (pt : Partitioner) :
    ∀ (fuel op : Nat) (l l' : CoalesceLoop),
      (l.c.mvmSlotsAgree P pt ∧ l.c.trainingSlotsAgree g P pt) →
      coalesceTrainingOperationPredecessors g P pt fuel op l = some l' →
      (l'.c.mvmSlotsAgree P pt ∧ l'.c.trainingSlotsAgree g P pt) := by
  intro fuel
  induction fuel with
  | zero =>
    intro op l l' _ hr
    simp [coalesceTrainingOperationPredecessors] at hr
  | succ fuel ih =>
    intro op l l' h hr
    unfold coalesceTrainingOperationPredecessors at hr
    split at hr
    · simp only [Option.some.injEq] at hr
      rw [← hr]
      exact h
    · simp only [Option.bind_eq_some, Option.map_eq_some'] at hr
      obtain ⟨l1, h1, l2, h2, l3, h3, hl'⟩ := hr
      have hfold : ∀ (ops : List Nat) (a b : CoalesceLoop),
          (a.c.mvmSlotsAgree P pt ∧ a.c.trainingSlotsAgree g P pt) →
          ops.foldlM (fun l predecessor =>
            coalesceTrainingOperationPredecessors g P pt fuel predecessor l) a = some b →
          (b.c.mvmSlotsAgree P pt ∧ b.c.trainingSlotsAgree g P pt) :=
        fun ops a b ha hb => foldlM_preserves _
          (fun (x : CoalesceLoop) => x.c.mvmSlotsAgree P pt ∧ x.c.trainingSlotsAgree g P pt)
          (fun x p x' hx hf => ih p x x' hx hf) ops a b ha hb
      have q1 : l1.c.mvmSlotsAgree P pt ∧ l1.c.trainingSlotsAgree g P pt := by
        split at h1
        · simp only [Option.bind_eq_some] at h1
          obtain ⟨l0, h0, h1⟩ := h1
          have q0 := hfold _ _ _ h h0
          split at h1
          · rename_i opType hcls
            split at h1
            · exact CoalesceLoop.coalesceTraining_slots g P pt _ _ _ _ hcls q0 h1
            · simp only [Option.some.injEq] at h1
              rw [← h1]
              exact q0
          · simp only [Option.some.injEq] at h1
            rw [← h1]
            exact q0
        · simp only [Option.some.injEq] at h1
          rw [← h1]
          exact h
      have q2 : l2.c.mvmSlotsAgree P pt ∧ l2.c.trainingSlotsAgree g P pt := by
        split at h2
        · exact hfold _ _ _ q1 h2
        · simp only [Option.some.injEq] at h2
          rw [← h2]
          exact q1
      have q3 : l3.c.mvmSlotsAgree P pt ∧ l3.c.trainingSlotsAgree g P pt := by
        split at h3
        · simp only [Option.bind_eq_some] at h3
          obtain ⟨p, _, h3⟩ := h3
          exact ih _ _ _ q2 h3
        · simp only [Option.some.injEq] at h3
          rw [← h3]
          exact q2
      rw [← hl']
      exact q3

theorem coalesceTrainingOperations_slots (g : Graph) (P : Placer) (pt : Partitioner)
    (fuel : Nat) (l : CoalesceLoop)
    (hr : coalesceTrainingOperations g P pt fuel = some l) :
    l.c.mvmSlotsAgree P pt ∧ l.c.trainingSlotsAgree g P pt := by
  unfold coalesceTrainingOperations at hr
  simp only [Option.bind_eq_some] at hr
  obtain ⟨imm, _, preds, _, hl⟩ := hr
  refine foldlM_preserves _
    (fun (x : CoalesceLoop) => x.c.mvmSlotsAgree P pt ∧ x.c.trainingSlotsAgree g P pt)
    ?_ g.operations _ l ?_ hl
  · intro b a b' hb hf
    split at hf
    · split at hf
      · exact coalesceTrainingOperationPredecessors_slots g P pt fuel a b b' hb hf
      · simp only [Option.some.injEq] at hf
        rw [← hf]
        exact hb
    · split at hf
      · exact coalesceTrainingOperationPredecessors_slots g P pt fuel a b b' hb hf
      · simp only [Option.some.injEq] at hf
        rw [← hf]
        exact hb
  · have h2 := foldl_preserves
      (fun (l : CoalesceLoop) trainOp =>
        if (g.cls trainOp).isTraining then
          (preds trainOp).foldl (fun l predecessor =>
            let successors := setInsert (l.succs predecessor) trainOp
            { l with succs := upd l.succs predecessor successors }) l
        else l)
      (fun (x : CoalesceLoop) => x.c.mvmSlotsAgree P pt ∧ x.c.trainingSlotsAgree g P pt)
      (fun b a hb => by
        beta_reduce
        by_cases ht : (g.cls a).isTraining = true
        · rw [if_pos ht]
          exact foldl_preserves
            (fun (l : CoalesceLoop) predecessor =>
              let successors := setInsert (l.succs predecessor) a
              { l with succs := upd l.succs predecessor successors })
            (fun (x : CoalesceLoop) =>
              x.c.mvmSlotsAgree P pt ∧ x.c.trainingSlotsAgree g P pt)
            (fun b' a' hb' => hb') _ b hb
        · rw [if_neg ht]
          exact hb)
      g.operations
      { c := { Coalescer.none with
                coalescedTrainingOperationSets := List.replicate P.nPCores [] },
        isVisited := [], preds := preds, succs := fun _ => [] }
      (by
        constructor
        · intro s i m hm
          simp [Coalescer.none] at hm
        · intro s i m hm
          simp [Coalescer.none] at hm)
    exact h2

theorem Coalescer.create_slots (g : Graph) (P : Placer) (pt : Partitioner) (fuel : Nat)
    (modelType : ModelType) (hints : List (List Nat)) (l : CoalesceLoop)
    (hr : Coalescer.create g P pt fuel modelType hints = some l) :
    l.c.mvmSlotsAgree P pt ∧ l.c.trainingSlotsAgree g P pt := by
  unfold Coalescer.create at hr
  split at hr
  · exact coalesceMVMOperations_slots g P pt fuel hints l hr
  · exact coalesceTrainingOperations_slots g P pt fuel l hr

theorem vecSet_mem (v v' : List Nat) (i x y : Nat) (h : vecSet v i x = some v')
    (hy : y ∈ v') : y = x ∨ y ∈ v := by
  unfold vecSet at h
  split at h
  · simp only [Option.some.injEq] at h
    rw [← h] at hy
    rcases List.mem_or_eq_of_mem_set hy with h1 | h1
    · exact Or.inr h1
    · exact Or.inl h1
  · exact absurd h (by simp)

theorem assignPMVMUs_lt (modelType : ModelType) (p : PartitionTables) (nPCores : Nat)
    (vtile2ptile vcore2pcore v : List Nat)
    (h : assignPMVMUs modelType p nPCores vtile2ptile vcore2pcore = some v) :
    ∀ pMVMU, pMVMU ∈ v → pMVMU < nMVMUSPerCore modelType := by
  unfold assignPMVMUs at h
  simp only [Option.bind_eq_bind, Option.bind_eq_some, Option.some.injEq] at h
  obtain ⟨s, hs, hv⟩ := h
  rw [← hv]
  refine foldlM_preserves (assignPMVMUsStep modelType p vtile2ptile vcore2pcore)
    (fun s => ∀ pMVMU, pMVMU ∈ s.1 → pMVMU < nMVMUSPerCore modelType) ?_ _ _ s ?_ hs
  · intro b a b' hb hf
    unfold assignPMVMUsStep at hf
    simp only [Option.bind_eq_bind, Option.bind_eq_some] at hf
    obtain ⟨vCore, _, pCore, _, vTile, _, pTile, _, pMVMU, _, counters, _, hf⟩ := hf
    split at hf
    · rename_i hlt
      simp only [Option.bind_eq_some, Option.some.injEq] at hf
      obtain ⟨w, hw, hb'⟩ := hf
      rw [← hb']
      intro y hy
      rcases vecSet_mem _ _ _ _ _ hw hy with h1 | h1
      · rw [h1]
        exact hlt
      · exact hb y h1
    · exact absurd hf (by simp)
  · intro y hy
    rw [List.eq_of_mem_replicate hy]
    rcases nMVMUSPerCore_cases modelType with h1 | h1 <;> rw [h1] <;> decide

theorem Placer.create_pMVMU_lt (modelType : ModelType) (p : PartitionTables) (P : Placer)
    (h : Placer.create modelType p = some P) :
    ∀ pMVMU, pMVMU ∈ P.vmvmu2pmvmu → pMVMU < nMVMUSPerCore modelType := by
  unfold Placer.create at h
  simp only [Option.bind_eq_bind, Option.bind_eq_some, Option.some.injEq] at h
  obtain ⟨vt, _, vc, _, vm, hvm, hP⟩ := h
  rw [← hP]
  exact assignPMVMUs_lt modelType p _ vt vc vm hvm

theorem Placer.getPMVMU_lt (modelType : ModelType) (p : PartitionTables) (P : Placer)
    (pt : Partitioner) (h : Placer.create modelType p = some P) (op pMVMU : Nat)
    (hp : P.getPMVMU pt op = some pMVMU) : pMVMU < nMVMUSPerCore modelType := by
  unfold Placer.getPMVMU at hp
  simp only [Option.bind_eq_some] at hp
  obtain ⟨v, _, hv⟩ := hp
  exact Placer.create_pMVMU_lt modelType p P h pMVMU (List.getElem?_mem hv)

/-- Claim C8. In the state that the coalescer of a placed DAG finishes with (both phases of
the MVM coalescing for inference, the training coalescing otherwise; every step of both
keeps the property, see the lemmas above), each occupied slot `i` of a coalesced MVM set
holds an MVM whose physical MVMU is `i` and whose back link is that set, so two different
members have different physical MVMUs; each occupied slot `i` of a coalesced training set
holds an operation with `pMVMU*N_TRAINING_OPERATIONS + opType = i` whose back link is that
set, so two different members differ in physical MVMU or in operation type. -/
theorem coalesced_set_slots_match_physical_mvmus (g : Graph) (tables : PartitionTables)
    (P : Placer) (pt : Partitioner) (fuel : Nat) (modelType : ModelType)
    (coalesceableMVMSets : List (List Nat)) (l : CoalesceLoop)
    (hP : Placer.create modelType tables = some P)
    (hrun : Coalescer.create g P pt fuel modelType coalesceableMVMSets = some l) :
    (∀ (s i m : Nat), (l.c.mvms s)[i]? = some (some m) →
        P.getPMVMU pt m = some i ∧ l.c.coalescedSet m = some s)
    ∧ (∀ (s i j m m' : Nat), (l.c.mvms s)[i]? = some (some m) →
        (l.c.mvms s)[j]? = some (some m') → m ≠ m' →
        P.getPMVMU pt m ≠ P.getPMVMU pt m')
    ∧ (∀ (s i t : Nat), (l.c.trainOps s)[i]? = some (some t) →
        ∃ pMVMU opType, P.getPMVMU pt t = some pMVMU
          ∧ g.cls t = OpClass.TrainingMatrixOperation opType
          ∧ pMVMU * N_TRAINING_OPERATIONS + opType.toNat = i
          ∧ l.c.coalescedTrainingSet t = some s)
    ∧ (∀ (s i j t t' : Nat), (l.c.trainOps s)[i]? = some (some t) →
        (l.c.trainOps s)[j]? = some (some t') → t ≠ t' →
        ¬ (P.getPMVMU pt t = P.getPMVMU pt t' ∧ g.cls t = g.cls t')) := by
  obtain ⟨hM, hT⟩ := Coalescer.create_slots g P pt fuel modelType coalesceableMVMSets l hrun
  have hT' : ∀ (s i t : Nat), (l.c.trainOps s)[i]? = some (some t) →
      ∃ pMVMU opType, P.getPMVMU pt t = some pMVMU
        ∧ g.cls t = OpClass.TrainingMatrixOperation opType
        ∧ pMVMU * N_TRAINING_OPERATIONS + opType.toNat = i
        ∧ l.c.coalescedTrainingSet t = some s := by
    intro s i t ht
    obtain ⟨pMVMU, opType, h1, h2, h3, h4⟩ := hT s i t ht
    refine ⟨pMVMU, opType, h1, h2, ?_, h4⟩
    have hlt := Placer.getPMVMU_lt modelType tables P pt hP t pMVMU h1
    have hk : nMVMUSPerCore modelType ≤ 6 := by
      rcases nMVMUSPerCore_cases modelType with h | h <;> omega
    have ho : opType.toNat ≤ 2 := by cases opType <;> decide
    rw [← h3]
    unfold N_TRAINING_OPERATIONS UINT_MOD
    omega
  refine ⟨hM, ?_, hT', ?_⟩
  · intro s i j m m' hm hm' hne heq
    have h1 := (hM s i m hm).1
    have h2 := (hM s j m' hm').1
    rw [h1, h2] at heq
    have hij : i = j := Option.some.inj heq
    rw [hij, hm'] at hm
    exact hne (Option.some.inj (Option.some.inj hm)).symm
  · intro s i j t t' ht ht' hne ⟨heq, hcls⟩
    obtain ⟨p1, o1, a1, a2, a3, _⟩ := hT' s i t ht
    obtain ⟨p2, o2, b1, b2, b3, _⟩ := hT' s j t' ht'
    rw [a1, b1] at heq
    rw [a2, b2] at hcls
    have hp : p1 = p2 := Option.some.inj heq
    have ho : o1 = o2 := OpClass.TrainingMatrixOperation.inj hcls
    have hij : i = j := by rw [← a3, ← b3, hp, ho]
    rw [hij, ht'] at ht
    exact hne (Option.some.inj (Option.some.inj ht)).symm

theorem coalesced_set_slots_match_physical_mvmus_witness :
    ∃ st P ms l,
      Partitioner.create twoSumsGraph 64 ModelType.INFERENCE [0, 1] twoSumsTileUsers = some st
      ∧ Placer.create ModelType.INFERENCE
          { nVMVMUs := st.pt.nVMVMUs, nVCores := st.pt.nVCores, nVTiles := st.pt.nVTiles,
            vmvmu2vcore := st.pt.vmvmu2vcore, vcore2vtile := st.pt.vcore2vtile } = some P
      ∧ MemoryAllocator.create st = some ms
      ∧ Coalescer.create ms.g P ms.pt 64 ModelType.INFERENCE [[2], [3]] = some l
      ∧ (∀ (s i m : Nat), (l.c.mvms s)[i]? = some (some m) →
          P.getPMVMU ms.pt m = some i ∧ l.c.coalescedSet m = some s)
      ∧ (∀ (s i j m m' : Nat), (l.c.mvms s)[i]? = some (some m) →
          (l.c.mvms s)[j]? = some (some m') → m ≠ m' →
          P.getPMVMU ms.pt m ≠ P.getPMVMU ms.pt m')
      ∧ (∀ (s i t : Nat), (l.c.trainOps s)[i]? = some (some t) →
          ∃ pMVMU opType, P.getPMVMU ms.pt t = some pMVMU
            ∧ ms.g.cls t = OpClass.TrainingMatrixOperation opType
            ∧ pMVMU * N_TRAINING_OPERATIONS + opType.toNat = i
            ∧ l.c.coalescedTrainingSet t = some s)
      ∧ (∀ (s i j t t' : Nat), (l.c.trainOps s)[i]? = some (some t) →
          (l.c.trainOps s)[j]? = some (some t') → t ≠ t' →
          ¬ (P.getPMVMU ms.pt t = P.getPMVMU ms.pt t' ∧ ms.g.cls t = ms.g.cls t')) := by
  have h : (compileToLists twoSumsGraph 64 ModelType.INFERENCE [0, 1] twoSumsTileUsers
      [[2], [3]] true).isSome = true := by decide
  obtain ⟨r, hr⟩ := Option.isSome_iff_exists.mp h
  unfold compileToLists at hr
  simp only [Option.bind_eq_some, Option.map_eq_some', if_true] at hr
  obtain ⟨st, hst, P, hP, ms, hms, c, ⟨l, hl, _⟩, _⟩ := hr
  exact ⟨st, P, ms, l, hst, hP, hms, hl,
    coalesced_set_slots_match_physical_mvmus ms.g _ P ms.pt 64 ModelType.INFERENCE
      [[2], [3]] l hP hl⟩

/-! ## Loads and stores across virtual cores -/

theorem Partitioner.getVCore_congr (pt pt' : Partitioner) (i j : Nat)
    (h1 : pt'.op2vmvmu i = pt.op2vmvmu j) (h2 : pt'.vmvmu2vcore = pt.vmvmu2vcore) :
    pt'.getVCore i = pt.getVCore j := by
  unfold Partitioner.getVCore Partitioner.getVMVMU
  rw [h1, h2]

/-- The creation of the Store of a producer in `insertLoadsAndStores`. -/
theorem storeStep (s : PState) (P : Nat) (hwf : s.OperandsLinked)
    (hP : P ∈ s.g.operations) (hprod : (s.g.cls P).isProducer = true) :
    ∃ s1 : PState,
      ((s.pt.cloneAssignment P (s.g.newStore P).1).map fun (pt : Partitioner) =>
          (PState.mk (s.g.newStore P).2 { pt with
            numStores := (pt.numStores + (s.g.newStore P).2.length (s.g.newStore P).1)
              % UINT_MOD }, (s.g.newStore P).1)) = some (s1, s.g.fresh)
      ∧ s1.OperandsLinked
      ∧ s1.g.fresh = s.g.fresh + 1
      ∧ (∀ i, i ∈ s1.g.operations ↔ i = s.g.fresh ∨ i ∈ s.g.operations)
      ∧ s1.g.cls = upd s.g.cls s.g.fresh OpClass.StoreOperation
      ∧ s1.g.operands s.g.fresh = [P]
      ∧ (∀ c, c ≠ s.g.fresh → s1.g.operands c = s.g.operands c)
      ∧ s1.g.srcs = upd s.g.srcs s.g.fresh []
      ∧ (∀ q, q ≠ P → q ≠ s.g.fresh → s1.g.users q = s.g.users q)
      ∧ (∀ c, c ∈ s1.g.users P ↔ c = s.g.fresh ∨ c ∈ s.g.users P)
      ∧ s1.g.users s.g.fresh = []
      ∧ s1.pt.op2vmvmu s.g.fresh = s.pt.op2vmvmu P
      ∧ (∀ i, i ≠ s.g.fresh → s1.pt.op2vmvmu i = s.pt.op2vmvmu i)
      ∧ s1.pt.vmvmu2vcore = s.pt.vmvmu2vcore := by
  have hPf : P < s.g.fresh := hwf.lt_fresh P hP
  have hPne : P ≠ s.g.fresh := by omega
  obtain ⟨pt', hpt', a1, a2, a3, _⟩ :=
    Partitioner.cloneAssignment_on_fresh s.pt P s.g.fresh (hwf.unassigned _ (le_refl _))
  have hid : (s.g.newStore P).1 = s.g.fresh := rfl
  have hops : ∀ i, i ∈ (s.g.newStore P).2.operations ↔ i = s.g.fresh ∨ i ∈ s.g.operations :=
    fun i => mem_setInsert
  have hcls : (s.g.newStore P).2.cls = upd s.g.cls s.g.fresh OpClass.StoreOperation := rfl
  have hopnd : (s.g.newStore P).2.operands
      = upd (upd s.g.operands s.g.fresh []) s.g.fresh [P] := rfl
  have hopnd1 : (s.g.newStore P).2.operands s.g.fresh = [P] := by
    rw [hopnd, upd_same]
  have hopnd2 : ∀ c, c ≠ s.g.fresh → (s.g.newStore P).2.operands c = s.g.operands c := by
    intro c hc
    rw [hopnd, upd_other _ _ hc, upd_other _ _ hc]
  have husers : (s.g.newStore P).2.users
      = upd (upd s.g.users s.g.fresh []) P
          (setInsert (upd s.g.users s.g.fresh [] P) s.g.fresh) := rfl
  have husers1 : ∀ q, q ≠ P → q ≠ s.g.fresh →
      (s.g.newStore P).2.users q = s.g.users q := by
    intro q h1 h2
    rw [husers, upd_other _ _ h1, upd_other _ _ h2]
  have husers2 : ∀ c, c ∈ (s.g.newStore P).2.users P ↔ c = s.g.fresh ∨ c ∈ s.g.users P := by
    intro c
    rw [husers, upd_same, upd_other _ _ hPne]
    exact mem_setInsert
  have husers3 : (s.g.newStore P).2.users s.g.fresh = [] := by
    rw [husers, upd_other _ _ (Ne.symm hPne), upd_same]
  refine ⟨PState.mk (s.g.newStore P).2 { pt' with
      numStores := (pt'.numStores + (s.g.newStore P).2.length (s.g.newStore P).1)
        % UINT_MOD }, ?_, ?_, rfl, hops, hcls, hopnd1, hopnd2, rfl, husers1, husers2, husers3,
      a1, a2, a3⟩
  · rw [hid, hpt']
    rfl
  · constructor
    · intro i hi
      show i < s.g.fresh + 1
      rcases (hops i).mp hi with h | h
      · omega
      · have := hwf.lt_fresh i h
        omega
    · intro i hi
      show pt'.op2vmvmu i = none
      have hi' : s.g.fresh + 1 ≤ i := hi
      rw [a2 i (by omega)]
      exact hwf.unassigned i (by omega)
    · intro c p hc hp
      simp only at hc hp ⊢
      rw [hcls, hops]
      by_cases hcf : c = s.g.fresh
      · rw [hcf, hopnd1, List.mem_singleton] at hp
        rw [hp, upd_other _ _ hPne]
        exact ⟨Or.inr hP, hprod⟩
      · rw [hopnd2 c hcf] at hp
        have hc' : c ∈ s.g.operations := by
          rcases (hops c).mp hc with h | h
          · exact absurd h hcf
          · exact h
        obtain ⟨h1, h2⟩ := hwf.operands_mem c p hc' hp
        have : p ≠ s.g.fresh := by
          have := hwf.lt_fresh p h1
          omega
        rw [upd_other _ _ this]
        exact ⟨Or.inr h1, h2⟩
    · intro p c hp hc
      simp only at hp hc ⊢
      rw [hops] at hp ⊢
      by_cases hpf : p = s.g.fresh
      · rw [hpf, husers3] at hc
        exact absurd hc (List.not_mem_nil c)
      · have hp' : p ∈ s.g.operations := hp.resolve_left hpf
        by_cases hpP : p = P
        · rw [hpP] at hc
          rcases (husers2 c).mp hc with h | h
          · exact Or.inl h
          · exact Or.inr (hwf.users_mem P c hP h)
        · rw [husers1 p hpP hpf] at hc
          exact Or.inr (hwf.users_mem p c hp' hc)
    · intro c p hc hp
      simp only at hc hp ⊢
      rw [hops] at hc hp
      have hnot : ∀ q, q ∈ s.g.operations → q ≠ s.g.fresh := by
        intro q hq
        have := hwf.lt_fresh q hq
        omega
      by_cases hcf : c = s.g.fresh
      · rw [hcf, hopnd1, List.mem_singleton]
        by_cases hpP : p = P
        · rw [hpP]
          exact ⟨fun _ => rfl, fun _ => (husers2 _).mpr (Or.inl rfl)⟩
        · by_cases hpf : p = s.g.fresh
          · rw [hpf, husers3]
            exact ⟨fun h => absurd h (List.not_mem_nil _), fun h => absurd h.symm hPne⟩
          · rw [husers1 p hpP hpf]
            constructor
            · intro h
              exact absurd rfl (hnot _ (hwf.users_mem p _ (hp.resolve_left hpf) h))
            · intro h
              exact absurd h hpP
      · have hc' : c ∈ s.g.operations := hc.resolve_left hcf
        rw [hopnd2 c hcf]
        by_cases hpf : p = s.g.fresh
        · rw [hpf, husers3]
          constructor
          · intro h
            exact absurd h (List.not_mem_nil _)
          · intro h
            exact absurd rfl (hnot _ (hwf.operands_mem c _ hc' h).1)
        · have hp' : p ∈ s.g.operations := hp.resolve_left hpf
          by_cases hpP : p = P
          · rw [hpP, husers2]
            rw [← hwf.inverse c P hc' hP]
            constructor
            · rintro (h | h)
              · exact absurd h hcf
              · exact h
            · exact fun h => Or.inr h
          · rw [husers1 p hpP hpf]
            exact hwf.inverse c p hc' hp'
    · intro i hi
      simp only at hi ⊢
      rw [hops] at hi
      by_cases hif : i = s.g.fresh
      · obtain ⟨v, hv⟩ := hwf.assigned P hP
        refine ⟨v, ?_⟩
        rw [← hv, hif]
        exact Partitioner.getVCore_congr _ _ _ _ a1 a3
      · obtain ⟨v, hv⟩ := hwf.assigned i (hi.resolve_left hif)
        refine ⟨v, ?_⟩
        rw [← hv]
        exact Partitioner.getVCore_congr _ _ _ _ (a2 i hif) a3

/-- The creation of the Load of a store for a remote consumer in `insertLoadsAndStores`. -/
theorem loadStep (s : PState) (S C : Nat) (hwf : s.OperandsLinked)
    (hC : C ∈ s.g.operations) :
    ∃ s1 : PState,
      ((s.pt.cloneAssignment C (s.g.newLoad S).1).map fun (pt : Partitioner) =>
          (PState.mk (s.g.newLoad S).2 { pt with
            numLoads := (pt.numLoads + (s.g.newLoad S).2.length (s.g.newLoad S).1)
              % UINT_MOD }, (s.g.newLoad S).1)) = some (s1, s.g.fresh)
      ∧ s1.OperandsLinked
      ∧ s1.g.fresh = s.g.fresh + 1
      ∧ (∀ i, i ∈ s1.g.operations ↔ i = s.g.fresh ∨ i ∈ s.g.operations)
      ∧ s1.g.cls = upd s.g.cls s.g.fresh OpClass.LoadOperation
      ∧ s1.g.operands = upd s.g.operands s.g.fresh []
      ∧ s1.g.srcs s.g.fresh = [S]
      ∧ (∀ i, i ≠ s.g.fresh → s1.g.srcs i = s.g.srcs i)
      ∧ s1.g.users = upd s.g.users s.g.fresh []
      ∧ s1.pt.op2vmvmu s.g.fresh = s.pt.op2vmvmu C
      ∧ (∀ i, i ≠ s.g.fresh → s1.pt.op2vmvmu i = s.pt.op2vmvmu i)
      ∧ s1.pt.vmvmu2vcore = s.pt.vmvmu2vcore := by
  obtain ⟨pt', hpt', a1, a2, a3, _⟩ :=
    Partitioner.cloneAssignment_on_fresh s.pt C s.g.fresh (hwf.unassigned _ (le_refl _))
  have hid : (s.g.newLoad S).1 = s.g.fresh := rfl
  have hops : ∀ i, i ∈ (s.g.newLoad S).2.operations ↔ i = s.g.fresh ∨ i ∈ s.g.operations :=
    fun i => mem_setInsert
  have hcls : (s.g.newLoad S).2.cls = upd s.g.cls s.g.fresh OpClass.LoadOperation := rfl
  have hopnd : (s.g.newLoad S).2.operands = upd s.g.operands s.g.fresh [] := rfl
  have husers : (s.g.newLoad S).2.users = upd s.g.users s.g.fresh [] := rfl
  have hsrcs : (s.g.newLoad S).2.srcs = upd (upd s.g.srcs s.g.fresh []) s.g.fresh [S] := rfl
  have hnot : ∀ q, q ∈ s.g.operations → q ≠ s.g.fresh := by
    intro q hq
    have := hwf.lt_fresh q hq
    omega
  refine ⟨PState.mk (s.g.newLoad S).2 { pt' with
      numLoads := (pt'.numLoads + (s.g.newLoad S).2.length (s.g.newLoad S).1)
        % UINT_MOD }, ?_, ?_, rfl, hops, hcls, hopnd, ?_, ?_, husers, a1, a2, a3⟩
  · rw [hid, hpt']
    rfl
  · constructor
    · intro i hi
      show i < s.g.fresh + 1
      rcases (hops i).mp hi with h | h
      · omega
      · have := hwf.lt_fresh i h
        omega
    · intro i hi
      show pt'.op2vmvmu i = none
      have hi' : s.g.fresh + 1 ≤ i := hi
      rw [a2 i (by omega)]
      exact hwf.unassigned i (by omega)
    · intro c p hc hp
      simp only at hc hp ⊢
      rw [hopnd] at hp
      rw [hcls, hops]
      by_cases hcf : c = s.g.fresh
      · rw [hcf, upd_same] at hp
        exact absurd hp (List.not_mem_nil p)
      · rw [upd_other _ _ hcf] at hp
        have hc' : c ∈ s.g.operations := ((hops c).mp hc).resolve_left hcf
        obtain ⟨h1, h2⟩ := hwf.operands_mem c p hc' hp
        rw [upd_other _ _ (hnot p h1)]
        exact ⟨Or.inr h1, h2⟩
    · intro p c hp hc
      simp only at hp hc ⊢
      rw [hops] at hp ⊢
      rw [husers] at hc
      by_cases hpf : p = s.g.fresh
      · rw [hpf, upd_same] at hc
        exact absurd hc (List.not_mem_nil c)
      · rw [upd_other _ _ hpf] at hc
        exact Or.inr (hwf.users_mem p c (hp.resolve_left hpf) hc)
    · intro c p hc hp
      simp only at hc hp ⊢
      rw [hops] at hc hp
      rw [husers, hopnd]
      by_cases hcf : c = s.g.fresh
      · rw [hcf, upd_same]
        by_cases hpf : p = s.g.fresh
        · rw [hpf, upd_same]
        · rw [upd_other _ _ hpf]
          constructor
          · intro h
            exact absurd rfl (hnot _ (hwf.users_mem p _ (hp.resolve_left hpf) h))
          · intro h
            exact absurd h (List.not_mem_nil _)
      · have hc' : c ∈ s.g.operations := hc.resolve_left hcf
        rw [upd_other _ _ hcf]
        by_cases hpf : p = s.g.fresh
        · rw [hpf, upd_same]
          constructor
          · intro h
            exact absurd h (List.not_mem_nil _)
          · intro h
            exact absurd rfl (hnot _ (hwf.operands_mem c _ hc' h).1)
        · rw [upd_other _ _ hpf]
          exact hwf.inverse c p hc' (hp.resolve_left hpf)
    · intro i hi
      simp only at hi ⊢
      rw [hops] at hi
      by_cases hif : i = s.g.fresh
      · obtain ⟨v, hv⟩ := hwf.assigned C hC
        refine ⟨v, ?_⟩
        rw [← hv, hif]
        exact Partitioner.getVCore_congr _ _ _ _ a1 a3
      · obtain ⟨v, hv⟩ := hwf.assigned i (hi.resolve_left hif)
        refine ⟨v, ?_⟩
        rw [← hv]
        exact Partitioner.getVCore_congr _ _ _ _ (a2 i hif) a3
  · show (s.g.newLoad S).2.srcs s.g.fresh = [S]
    rw [hsrcs, upd_same]
  · intro i hi
    show (s.g.newLoad S).2.srcs i = s.g.srcs i
    rw [hsrcs, upd_other _ _ hi, upd_other _ _ hi]

theorem mem_map_replace (l : List Nat) (a b y : Nat) :
    y ∈ l.map (fun x => if x = a then b else x) ↔ (y = b ∧ a ∈ l) ∨ (y ≠ a ∧ y ∈ l) := by
  simp only [List.mem_map]
  constructor
  · rintro ⟨x, hx, hxy⟩
    by_cases h : x = a
    · rw [if_pos h] at hxy
      exact Or.inl ⟨hxy.symm, h ▸ hx⟩
    · rw [if_neg h] at hxy
      exact Or.inr ⟨hxy ▸ h, hxy ▸ hx⟩
  · rintro (⟨h1, h2⟩ | ⟨h1, h2⟩)
    · exact ⟨a, h2, by rw [if_pos rfl, h1]⟩
    · exact ⟨y, h2, by rw [if_neg h1]⟩

theorem map_replace_absent (l : List Nat) (a b : Nat) (h : a ∉ l) :
    l.map (fun x => if x = a then b else x) = l := by
  induction l with
  | nil => rfl
  | cons x l ih =>
    have hx : x ≠ a := fun e => h (e ▸ List.mem_cons_self _ _)
    rw [List.map_cons, if_neg hx, ih (fun h1 => h (List.mem_cons_of_mem _ h1))]

/-- The call `consumer->replaceOperand(producer, load)` in `insertLoadsAndStores`. -/
theorem replaceStep (s : PState) (C P L : Nat) (hwf : s.OperandsLinked)
    (hC : C ∈ s.g.operations) (hP : P ∈ s.g.operations) (hL : L ∈ s.g.operations)
    (hLP : L ≠ P) (hprod : (s.g.cls L).isProducer = true) :
    ({ s with g := s.g.replaceOperand C P L } : PState).OperandsLinked
    ∧ (s.g.replaceOperand C P L).fresh = s.g.fresh
    ∧ (s.g.replaceOperand C P L).operations = s.g.operations
    ∧ (s.g.replaceOperand C P L).cls = s.g.cls
    ∧ (s.g.replaceOperand C P L).srcs = s.g.srcs
    ∧ (s.g.replaceOperand C P L).operands C
        = (s.g.operands C).map (fun x => if x = P then L else x)
    ∧ (∀ c, c ≠ C → (s.g.replaceOperand C P L).operands c = s.g.operands c)
    ∧ (∀ c, c ∈ (s.g.replaceOperand C P L).users P ↔ c ∈ s.g.users P ∧ c ≠ C)
    ∧ (∀ c, c ∈ (s.g.replaceOperand C P L).users L ↔
        c ∈ s.g.users L ∨ (c = C ∧ P ∈ s.g.operands C))
    ∧ (∀ q, q ≠ P → q ≠ L → (s.g.replaceOperand C P L).users q = s.g.users q) := by
  have hPL : P ≠ L := fun e => hLP e.symm
  have F : (s.g.replaceOperand C P L).fresh = s.g.fresh
      ∧ (s.g.replaceOperand C P L).operations = s.g.operations
      ∧ (s.g.replaceOperand C P L).cls = s.g.cls
      ∧ (s.g.replaceOperand C P L).srcs = s.g.srcs
      ∧ (s.g.replaceOperand C P L).operands C
          = (s.g.operands C).map (fun x => if x = P then L else x)
      ∧ (∀ c, c ≠ C → (s.g.replaceOperand C P L).operands c = s.g.operands c)
      ∧ (∀ c, c ∈ (s.g.replaceOperand C P L).users P ↔ c ∈ s.g.users P ∧ c ≠ C)
      ∧ (∀ c, c ∈ (s.g.replaceOperand C P L).users L ↔
          c ∈ s.g.users L ∨ (c = C ∧ P ∈ s.g.operands C))
      ∧ (∀ q, q ≠ P → q ≠ L → (s.g.replaceOperand C P L).users q = s.g.users q) := by
    by_cases huses : s.g.uses C P = true
    · have hmem : P ∈ s.g.operands C := by
        simpa [Graph.uses] using huses
      simp only [Graph.replaceOperand, huses, if_true, Graph.addUser, Graph.removeUser]
      refine ⟨trivial, trivial, trivial, trivial, upd_same _ _ _,
        fun c hc => upd_other _ _ hc, ?_, ?_, ?_⟩
      · intro c
        rw [upd_other _ _ hPL, upd_same]
        exact mem_setErase
      · intro c
        rw [upd_same, upd_other _ _ hLP, mem_setInsert]
        constructor
        · rintro (h | h)
          · exact Or.inr ⟨h, hmem⟩
          · exact Or.inl h
        · rintro (h | ⟨h, _⟩)
          · exact Or.inr h
          · exact Or.inl h
      · intro q h1 h2
        rw [upd_other _ _ h2, upd_other _ _ h1]
    · have hmem : P ∉ s.g.operands C := by
        simpa [Graph.uses] using huses
      have hCP : C ∉ s.g.users P := fun h => hmem ((hwf.inverse C P hC hP).mp h)
      have hg : s.g.replaceOperand C P L = s.g := by
        unfold Graph.replaceOperand
        rw [if_neg huses]
      rw [hg]
      refine ⟨rfl, rfl, rfl, rfl, (map_replace_absent _ _ _ hmem).symm, fun c _ => rfl,
        ?_, ?_, fun q _ _ => rfl⟩
      · intro c
        constructor
        · intro h
          exact ⟨h, fun e => hCP (e ▸ h)⟩
        · exact fun h => h.1
      · intro c
        constructor
        · exact fun h => Or.inl h
        · rintro (h | ⟨_, h⟩)
          · exact h
          · exact absurd h hmem
  obtain ⟨f1, f2, f3, f4, f5, f6, f7, f8, f9⟩ := F
  refine ⟨?_, f1, f2, f3, f4, f5, f6, f7, f8, f9⟩
  constructor
  · intro i hi
    simp only at hi ⊢
    rw [f1]
    rw [f2] at hi
    exact hwf.lt_fresh i hi
  · intro i hi
    simp only at hi ⊢
    rw [f1] at hi
    exact hwf.unassigned i hi
  · intro c p hc hp
    simp only at hc hp ⊢
    rw [f2] at hc ⊢
    rw [f3]
    by_cases hcC : c = C
    · rw [hcC, f5, mem_map_replace] at hp
      rcases hp with ⟨h1, _⟩ | ⟨_, h2⟩
      · rw [h1]
        exact ⟨hL, hprod⟩
      · exact hwf.operands_mem C p hC h2
    · rw [f6 c hcC] at hp
      exact hwf.operands_mem c p hc hp
  · intro p c hp hc
    simp only at hp hc ⊢
    rw [f2] at hp ⊢
    by_cases hpP : p = P
    · rw [hpP, f7] at hc
      exact hwf.users_mem P c hP hc.1
    · by_cases hpL : p = L
      · rw [hpL, f8] at hc
        rcases hc with h | ⟨h, _⟩
        · exact hwf.users_mem L c hL h
        · rw [h]
          exact hC
      · rw [f9 p hpP hpL] at hc
        exact hwf.users_mem p c hp hc
  · intro c p hc hp
    simp only at hc hp ⊢
    rw [f2] at hc hp
    by_cases hcC : c = C
    · rw [hcC, f5, mem_map_replace]
      by_cases hpP : p = P
      · rw [hpP, f7]
        constructor
        · intro h
          exact absurd rfl h.2
        · rintro (⟨h, _⟩ | ⟨h, _⟩)
          · exact absurd h hPL
          · exact absurd rfl h
      · by_cases hpL : p = L
        · rw [hpL, f8, hwf.inverse C L hC hL]
          constructor
          · rintro (h | ⟨_, h⟩)
            · exact Or.inr ⟨hLP, h⟩
            · exact Or.inl ⟨rfl, h⟩
          · rintro (⟨_, h⟩ | ⟨_, h⟩)
            · exact Or.inr ⟨rfl, h⟩
            · exact Or.inl h
        · rw [f9 p hpP hpL, hwf.inverse C p hC hp]
          constructor
          · intro h
            exact Or.inr ⟨hpP, h⟩
          · rintro (⟨h, _⟩ | ⟨_, h⟩)
            · exact absurd h hpL
            · exact h
    · rw [f6 c hcC]
      by_cases hpP : p = P
      · rw [hpP, f7, hwf.inverse c P hc hP]
        exact ⟨fun h => h.1, fun h => ⟨h, hcC⟩⟩
      · by_cases hpL : p = L
        · rw [hpL, f8, hwf.inverse c L hc hL]
          constructor
          · rintro (h | ⟨h, _⟩)
            · exact h
            · exact absurd h hcC
          · exact fun h => Or.inl h
        · rw [f9 p hpP hpL]
          exact hwf.inverse c p hc hp
  · intro i hi
    simp only at hi ⊢
    rw [f2] at hi
    exact hwf.assigned i hi

theorem LoadStoreInv.loopStart (s0 : PState) (P vp : Nat) (hwf : s0.OperandsLinked) :
    LoadStoreInv s0 P vp s0 none (fun _ => none) [] where
  wf := hwf
  fresh_le := le_refl _
  tables := rfl
  old_assign := fun _ _ => rfl
  old_cls := fun _ _ => rfl
  old_srcs := fun _ _ => rfl
  old_users := fun _ _ _ => rfl
  ops_old := fun _ h => h
  ops_new := fun _ h => Or.inl h
  seen_sub := fun c h => absurd h (List.not_mem_nil c)
  store_some := fun S h => absurd h (by simp)
  loads_some := fun vc L h => absurd h (by simp)
  new_ops := fun n h1 h2 => absurd (hwf.lt_fresh n h2) (by omega)
  operands_same := fun _ _ _ => rfl
  operands_remote := fun c vc h => absurd h (List.not_mem_nil c)
  users_P := fun c h => Or.inl h

/-- The statement `if(store == NULL) ...` of `insertLoadsAndStores` when there is no Store
yet. -/
theorem LoadStoreInv.ensureStore (s0 : PState) (P vp : Nat) (st : PState)
    (loads : Nat → Option Nat) (seen : List Nat)
    (h : LoadStoreInv s0 P vp st none loads seen)
    (hP : P ∈ s0.g.operations) (hprod : (s0.g.cls P).isProducer = true)
    (hP0 : P < s0.g.fresh)
    (hrem : ∃ c, c ∈ s0.g.users P ∧ s0.pt.getVCore c ≠ some vp) :
    ∃ (st1 : PState),
      ((st.pt.cloneAssignment P (st.g.newStore P).1).map fun (pt : Partitioner) =>
          (PState.mk (st.g.newStore P).2 { pt with
            numStores := (pt.numStores + (st.g.newStore P).2.length (st.g.newStore P).1)
              % UINT_MOD }, (st.g.newStore P).1)) = some (st1, st.g.fresh)
      ∧ LoadStoreInv s0 P vp st1 (some st.g.fresh) loads seen := by
  have hnoload : ∀ vc L, loads vc = some L → False := by
    intro vc L hl
    obtain ⟨_, _, _, _, ⟨S, hS, _⟩, _⟩ := h.loads_some vc L hl
    exact absurd hS (by simp)
  have hPst : P ∈ st.g.operations := h.ops_old P hP
  have hprod' : (st.g.cls P).isProducer = true := by
    rw [h.old_cls P hP0]
    exact hprod
  obtain ⟨s1, hs1, wf1, f1, f2, f3, f4, f5, f6, f7, f8, f9, f10, f11, f12⟩ :=
    storeStep st P h.wf hPst hprod'
  have hfl := h.fresh_le
  refine ⟨s1, hs1, ?_⟩
  constructor
  · exact wf1
  · omega
  · rw [f12, h.tables]
  · intro i hi
    rw [f11 i (by omega), h.old_assign i hi]
  · intro i hi
    rw [f3, upd_other _ _ (by omega), h.old_cls i hi]
  · intro i hi
    rw [f6, upd_other _ _ (by omega), h.old_srcs i hi]
  · intro q hq hqP
    rw [f7 q hqP (by omega), h.old_users q hq hqP]
  · intro i hi
    exact (f2 i).mpr (Or.inr (h.ops_old i hi))
  · intro i hi
    rcases (f2 i).mp hi with h1 | h1
    · exact Or.inr (by omega)
    · exact h.ops_new i h1
  · exact h.seen_sub
  · intro S hS
    simp only [Option.some.injEq] at hS
    subst hS
    refine ⟨hfl, (f2 _).mpr (Or.inl rfl), ?_, f4, ?_, hrem⟩
    · rw [f3, upd_same]
    · rw [f10, h.old_assign P hP0]
  · intro vc L hl
    exact absurd (hnoload vc L hl) id
  · intro n hn1 hn2
    rcases (f2 n).mp hn2 with h1 | h1
    · exact Or.inl (by rw [h1])
    · rcases h.new_ops n hn1 h1 with h2 | ⟨vc, h2⟩
      · exact absurd h2 (by simp)
      · exact absurd (hnoload vc n h2) id
  · intro c hc hcs
    rw [f5 c (by omega)]
    exact h.operands_same c hc hcs
  · intro c vc hc hv hne
    obtain ⟨L, hL, _⟩ := h.operands_remote c vc hc hv hne
    exact absurd (hnoload vc L hL) id
  · intro c hc
    rcases (f8 c).mp hc with h1 | h1
    · exact Or.inr (by rw [h1])
    · rcases h.users_P c h1 with h2 | h2
      · exact Or.inl h2
      · exact absurd h2 (by simp)

/-- The statement `if(loads[getVCore(consumer)] == NULL) ...` of `insertLoadsAndStores` when
the virtual core of the consumer has no Load yet. -/
theorem LoadStoreInv.ensureLoad (s0 : PState) (P vp : Nat) (st : PState) (S : Nat)
    (loads : Nat → Option Nat) (seen : List Nat) (C vc : Nat)
    (h : LoadStoreInv s0 P vp st (some S) loads seen)
    (hwf0 : s0.OperandsLinked) (hP : P ∈ s0.g.operations) (hC : C ∈ s0.g.operations)
    (hvc : s0.pt.getVCore C = some vc) (hne : vc ≠ vp) (hload : loads vc = none) :
    ∃ (st1 : PState),
      ((st.pt.cloneAssignment C (st.g.newLoad S).1).map fun (pt : Partitioner) =>
          (PState.mk (st.g.newLoad S).2 { pt with
            numLoads := (pt.numLoads + (st.g.newLoad S).2.length (st.g.newLoad S).1)
              % UINT_MOD }, (st.g.newLoad S).1)) = some (st1, st.g.fresh)
      ∧ LoadStoreInv s0 P vp st1 (some S) (upd loads vc (some st.g.fresh)) seen := by
  obtain ⟨s1, hs1, wf1, f1, f2, f3, f4, f5, f6, f7, f8, f9, f10⟩ :=
    loadStep st S C h.wf (h.ops_old C hC)
  have hfl := h.fresh_le
  have hP0 : P < s0.g.fresh := hwf0.lt_fresh P hP
  have hC0 : C < s0.g.fresh := hwf0.lt_fresh C hC
  have hnf : ∀ i, i ∈ st.g.operations → i ≠ st.g.fresh := by
    intro i hi
    have := h.wf.lt_fresh i hi
    omega
  refine ⟨s1, hs1, ?_⟩
  constructor
  · exact wf1
  · omega
  · rw [f10, h.tables]
  · intro i hi
    rw [f9 i (by omega), h.old_assign i hi]
  · intro i hi
    rw [f3, upd_other _ _ (by omega), h.old_cls i hi]
  · intro i hi
    rw [f6 i (by omega), h.old_srcs i hi]
  · intro q hq hqP
    rw [f7, upd_other _ _ (by omega), h.old_users q hq hqP]
  · intro i hi
    exact (f2 i).mpr (Or.inr (h.ops_old i hi))
  · intro i hi
    rcases (f2 i).mp hi with h1 | h1
    · exact Or.inr (by omega)
    · exact h.ops_new i h1
  · exact h.seen_sub
  · intro S' hS'
    obtain ⟨a1, a2, a3, a4, a5, a6⟩ := h.store_some S' hS'
    have hne' := hnf S' a2
    refine ⟨a1, (f2 _).mpr (Or.inr a2), ?_, ?_, ?_, a6⟩
    · rw [f3, upd_other _ _ hne', a3]
    · rw [f4, upd_other _ _ hne', a4]
    · rw [f9 _ hne', a5]
  · intro vc' L hl
    by_cases hv : vc' = vc
    · rw [hv, upd_same, Option.some.injEq] at hl
      rw [← hl, hv]
      refine ⟨hfl, (f2 _).mpr (Or.inl rfl), ?_, ?_, ⟨S, rfl, f5⟩, ?_, hne, ?_⟩
      · rw [f3, upd_same]
      · rw [f4, upd_same]
      · rw [← hvc]
        refine Partitioner.getVCore_congr _ _ _ _ ?_ (by rw [f10, h.tables])
        rw [f8, h.old_assign C hC0]
      · intro c hc
        rw [f7, upd_same] at hc
        exact absurd hc (List.not_mem_nil c)
    · rw [upd_other _ _ hv] at hl
      obtain ⟨a1, a2, a3, a4, ⟨S', a5, a6⟩, a7, a8, a9⟩ := h.loads_some vc' L hl
      have hne' := hnf L a2
      refine ⟨a1, (f2 _).mpr (Or.inr a2), ?_, ?_, ⟨S', a5, ?_⟩, ?_, a8, ?_⟩
      · rw [f3, upd_other _ _ hne', a3]
      · rw [f4, upd_other _ _ hne', a4]
      · rw [f6 _ hne', a6]
      · rw [← a7]
        exact Partitioner.getVCore_congr _ _ _ _ (f9 _ hne') f10
      · intro c hc
        rw [f7, upd_other _ _ hne'] at hc
        exact a9 c hc
  · intro n hn1 hn2
    rcases (f2 n).mp hn2 with h1 | h1
    · exact Or.inr ⟨vc, by rw [upd_same, h1]⟩
    · rcases h.new_ops n hn1 h1 with h2 | ⟨vc', h2⟩
      · exact Or.inl h2
      · refine Or.inr ⟨vc', ?_⟩
        have : vc' ≠ vc := by
          intro e
          rw [e, hload] at h2
          exact absurd h2 (by simp)
        rw [upd_other _ _ this]
        exact h2
  · intro c hc hcs
    rw [f4, upd_other _ _ (by omega)]
    exact h.operands_same c hc hcs
  · intro c vc' hc hv hne'
    obtain ⟨L, hL, hop⟩ := h.operands_remote c vc' hc hv hne'
    have : vc' ≠ vc := by
      intro e
      rw [e, hload] at hL
      exact absurd hL (by simp)
    refine ⟨L, by rw [upd_other _ _ this]; exact hL, ?_⟩
    have hc0 : c < s0.g.fresh :=
      hwf0.lt_fresh c (hwf0.users_mem P c hP (h.seen_sub c hc))
    rw [f4, upd_other _ _ (by omega)]
    exact hop
  · intro c hc
    rw [f7, upd_other _ _ (by omega)] at hc
    exact h.users_P c hc

theorem map_replace_idem (l : List Nat) (a b : Nat) (h : b ≠ a) :
    (l.map (fun x => if x = a then b else x)).map (fun x => if x = a then b else x)
      = l.map (fun x => if x = a then b else x) := by
  rw [List.map_map]
  apply List.map_congr_left
  intro x _
  show (if (if x = a then b else x) = a then b else (if x = a then b else x))
    = if x = a then b else x
  by_cases hx : x = a
  · rw [if_pos hx, if_neg h]
  · rw [if_neg hx, if_neg hx]

/-- The call `consumer->replaceOperand(producer, loads[getVCore(consumer)])` of
`insertLoadsAndStores`, which ends the visit of a remote consumer. -/
theorem LoadStoreInv.replace (s0 : PState) (P vp : Nat) (st : PState) (S : Nat)
    (loads : Nat → Option Nat) (seen : List Nat) (C vc L : Nat)
    (h : LoadStoreInv s0 P vp st (some S) loads seen)
    (hwf0 : s0.OperandsLinked) (hP : P ∈ s0.g.operations) (hCu : C ∈ s0.g.users P)
    (hvc : s0.pt.getVCore C = some vc) (hne : vc ≠ vp) (hload : loads vc = some L) :
    LoadStoreInv s0 P vp { st with g := st.g.replaceOperand C P L } (some S) loads
      (seen ++ [C]) := by
  have hC : C ∈ s0.g.operations := hwf0.users_mem P C hP hCu
  have hP0 : P < s0.g.fresh := hwf0.lt_fresh P hP
  have hC0 : C < s0.g.fresh := hwf0.lt_fresh C hC
  obtain ⟨b1, b2, b3, b4, b5, b6, b7, b8⟩ := h.loads_some vc L hload
  have hLP : L ≠ P := by omega
  have hLC : L ≠ C := by omega
  have hprod : (st.g.cls L).isProducer = true := by
    rw [b3]
    rfl
  obtain ⟨wf1, f1, f2, f3, f4, f5, f6, f7, f8, f9⟩ :=
    replaceStep st C P L h.wf (h.ops_old C hC) (h.ops_old P hP) b2 hLP hprod
  constructor
  · exact wf1
  · show s0.g.fresh ≤ (st.g.replaceOperand C P L).fresh
    rw [f1]
    exact h.fresh_le
  · exact h.tables
  · exact h.old_assign
  · intro i hi
    show (st.g.replaceOperand C P L).cls i = _
    rw [f3]
    exact h.old_cls i hi
  · intro i hi
    show (st.g.replaceOperand C P L).srcs i = _
    rw [f4]
    exact h.old_srcs i hi
  · intro q hq hqP
    show (st.g.replaceOperand C P L).users q = _
    rw [f9 q hqP (by omega)]
    exact h.old_users q hq hqP
  · intro i hi
    show i ∈ (st.g.replaceOperand C P L).operations
    rw [f2]
    exact h.ops_old i hi
  · intro i hi
    have hi' : i ∈ (st.g.replaceOperand C P L).operations := hi
    rw [f2] at hi'
    exact h.ops_new i hi'
  · intro c hc
    rcases List.mem_append.mp hc with h1 | h1
    · exact h.seen_sub c h1
    · rw [List.mem_singleton] at h1
      rw [h1]
      exact hCu
  · intro S' hS'
    obtain ⟨a1, a2, a3, a4, a5, a6⟩ := h.store_some S' hS'
    refine ⟨a1, ?_, ?_, ?_, a5, a6⟩
    · show S' ∈ (st.g.replaceOperand C P L).operations
      rw [f2]
      exact a2
    · show (st.g.replaceOperand C P L).cls S' = _
      rw [f3]
      exact a3
    · show (st.g.replaceOperand C P L).operands S' = _
      rw [f6 S' (by omega)]
      exact a4
  · intro vc' L' hl
    obtain ⟨a1, a2, a3, a4, a5, a7, a8, a9⟩ := h.loads_some vc' L' hl
    refine ⟨a1, ?_, ?_, ?_, ?_, a7, a8, ?_⟩
    · show L' ∈ (st.g.replaceOperand C P L).operations
      rw [f2]
      exact a2
    · show (st.g.replaceOperand C P L).cls L' = _
      rw [f3]
      exact a3
    · show (st.g.replaceOperand C P L).operands L' = _
      rw [f6 L' (by omega)]
      exact a4
    · show ∃ S0, some S = some S0 ∧ (st.g.replaceOperand C P L).srcs L' = [S0]
      rw [f4]
      exact a5
    · intro c hc
      have hc' : c ∈ (st.g.replaceOperand C P L).users L' := hc
      by_cases hLL : L' = L
      · rw [hLL, f8] at hc'
        have hvv : vc' = vc := by
          rw [hLL, b6] at a7
          exact (Option.some.inj a7).symm
        rcases hc' with h1 | ⟨h1, _⟩
        · rw [hvv]
          exact b8 c h1
        · rw [h1, hvv]
          exact hvc
      · rw [f9 L' (by omega) hLL] at hc'
        exact a9 c hc'
  · intro n hn1 hn2
    have hn2' : n ∈ (st.g.replaceOperand C P L).operations := hn2
    rw [f2] at hn2'
    exact h.new_ops n hn1 hn2'
  · intro c hc hcs
    have hcC : c ≠ C := by
      rcases hcs with h1 | h1
      · intro e
        exact h1 (List.mem_append.mpr (Or.inr (by rw [e]; exact List.mem_singleton_self _)))
      · intro e
        rw [e, hvc] at h1
        exact hne (Option.some.inj h1)
    show (st.g.replaceOperand C P L).operands c = _
    rw [f6 c hcC]
    refine h.operands_same c hc ?_
    rcases hcs with h1 | h1
    · exact Or.inl (fun h2 => h1 (List.mem_append.mpr (Or.inl h2)))
    · exact Or.inr h1
  · intro c vc' hc hv hne'
    by_cases hcC : c = C
    · have hvv : vc' = vc := by
        rw [hcC, hvc] at hv
        exact (Option.some.inj hv).symm
      refine ⟨L, by rw [hvv]; exact hload, ?_⟩
      show (st.g.replaceOperand C P L).operands c = _
      rw [hcC, f5]
      by_cases hCs : C ∈ seen
      · obtain ⟨L0, hL0, hop⟩ := h.operands_remote C vc hCs hvc hne
        rw [hload] at hL0
        rw [← Option.some.inj hL0] at hop
        rw [hop]
        exact map_replace_idem _ _ _ hLP
      · rw [h.operands_same C hC0 (Or.inl hCs)]
    · have hcs : c ∈ seen := by
        rcases List.mem_append.mp hc with h1 | h1
        · exact h1
        · rw [List.mem_singleton] at h1
          exact absurd h1 hcC
      obtain ⟨L0, hL0, hop⟩ := h.operands_remote c vc' hcs hv hne'
      refine ⟨L0, hL0, ?_⟩
      show (st.g.replaceOperand C P L).operands c = _
      rw [f6 c hcC]
      exact hop
  · intro c hc
    have hc' : c ∈ (st.g.replaceOperand C P L).users P := hc
    rw [f7] at hc'
    exact h.users_P c hc'.1

/-- The visit of a consumer on the virtual core of the producer changes nothing. -/
theorem LoadStoreInv.skip (s0 : PState) (P vp : Nat) (st : PState) (store : Option Nat)
    (loads : Nat → Option Nat) (seen : List Nat) (C : Nat)
    (h : LoadStoreInv s0 P vp st store loads seen)
    (hCu : C ∈ s0.g.users P) (hvc : s0.pt.getVCore C = some vp) :
    LoadStoreInv s0 P vp st store loads (seen ++ [C]) where
  wf := h.wf
  fresh_le := h.fresh_le
  tables := h.tables
  old_assign := h.old_assign
  old_cls := h.old_cls
  old_srcs := h.old_srcs
  old_users := h.old_users
  ops_old := h.ops_old
  ops_new := h.ops_new
  seen_sub := by
    intro c hc
    rcases List.mem_append.mp hc with h1 | h1
    · exact h.seen_sub c h1
    · rw [List.mem_singleton] at h1
      rw [h1]
      exact hCu
  store_some := h.store_some
  loads_some := h.loads_some
  new_ops := h.new_ops
  operands_same := by
    intro c hc hcs
    by_cases hl : s0.pt.getVCore c = some vp
    · exact h.operands_same c hc (Or.inr hl)
    · refine h.operands_same c hc (Or.inl ?_)
      intro hcs'
      exact (hcs.resolve_right hl) (List.mem_append.mpr (Or.inl hcs'))
  operands_remote := by
    intro c vc hc hv hne
    rcases List.mem_append.mp hc with h1 | h1
    · exact h.operands_remote c vc h1 hv hne
    · rw [List.mem_singleton] at h1
      rw [h1, hvc] at hv
      exact absurd (Option.some.inj hv).symm hne
  users_P := h.users_P

theorem upd_idem {α : Type} (f : Nat → α) (i : Nat) (v : α) (h : f i = v) :
    upd f i v = f := by
  funext j
  by_cases hj : j = i
  · rw [hj, upd_same, h]
  · rw [upd_other _ _ hj]

/-- The second half of the visit of a remote consumer in `insertLoadsAndStores`, once the
Store exists. -/
theorem LoadStoreInv.afterStore (s0 : PState) (P vp : Nat) (st : PState) (S : Nat)
    (loads : Nat → Option Nat) (seen : List Nat) (C vc : Nat)
    (h : LoadStoreInv s0 P vp st (some S) loads seen)
    (hwf0 : s0.OperandsLinked) (hP : P ∈ s0.g.operations) (hCu : C ∈ s0.g.users P)
    (hvc : s0.pt.getVCore C = some vc) (hne : vc ≠ vp) :
    ∃ l' : LoadStoreLoop,
      ((match loads vc with
        | some load => some (st, load)
        | none =>
          let r := st.g.newLoad S
          (st.pt.cloneAssignment C r.1).map fun (pt : Partitioner) =>
            (PState.mk r.2 { pt with
                numLoads := (pt.numLoads + r.2.length r.1) % UINT_MOD }, r.1)).bind
        fun (q : PState × Nat) =>
        some { st := { q.1 with g := q.1.g.replaceOperand C P q.2 }
               store := some S
               loads := upd loads vc (some q.2) }) = some l'
      ∧ LoadStoreInv s0 P vp l'.st l'.store l'.loads (seen ++ [C]) := by
  have hC : C ∈ s0.g.operations := hwf0.users_mem P C hP hCu
  cases hl : loads vc with
  | some L =>
    refine ⟨_, rfl, ?_⟩
    simp only
    rw [upd_idem loads vc (some L) hl]
    exact LoadStoreInv.replace s0 P vp st S loads seen C vc L h hwf0 hP hCu hvc hne hl
  | none =>
    obtain ⟨st1, e1, i1⟩ :=
      LoadStoreInv.ensureLoad s0 P vp st S loads seen C vc h hwf0 hP hC hvc hne hl
    simp only
    rw [e1]
    refine ⟨_, rfl, ?_⟩
    simp only
    exact LoadStoreInv.replace s0 P vp st1 S _ seen C vc st.g.fresh i1 hwf0 hP hCu hvc hne
      (upd_same _ _ _)

/-- One iteration of the loop over the users of a producer in `insertLoadsAndStores` runs
and keeps the invariant. -/
theorem LoadStoreInv.step (s0 : PState) (P vp : Nat) (l : LoadStoreLoop) (seen : List Nat)
    (C : Nat) (h : LoadStoreInv s0 P vp l.st l.store l.loads seen)
    (hwf0 : s0.OperandsLinked) (hP : P ∈ s0.g.operations)
    (hprod : (s0.g.cls P).isProducer = true) (hvp : s0.pt.getVCore P = some vp)
    (hCu : C ∈ s0.g.users P) :
    ∃ l', insertLoadsAndStoresUser P l C = some l'
      ∧ LoadStoreInv s0 P vp l'.st l'.store l'.loads (seen ++ [C]) := by
  obtain ⟨st, store, loads⟩ := l
  simp only at h
  have hC : C ∈ s0.g.operations := hwf0.users_mem P C hP hCu
  have hP0 : P < s0.g.fresh := hwf0.lt_fresh P hP
  have hC0 : C < s0.g.fresh := hwf0.lt_fresh C hC
  obtain ⟨vc, hvc⟩ := hwf0.assigned C hC
  have hvp' : st.pt.getVCore P = some vp := by
    rw [← hvp]
    exact Partitioner.getVCore_congr _ _ _ _ (h.old_assign P hP0) h.tables
  have hvc' : st.pt.getVCore C = some vc := by
    rw [← hvc]
    exact Partitioner.getVCore_congr _ _ _ _ (h.old_assign C hC0) h.tables
  unfold insertLoadsAndStoresUser
  simp only [hvp', hvc', Option.some_bind]
  by_cases hvv : vp = vc
  · rw [if_neg (by simpa using hvv)]
    refine ⟨_, rfl, ?_⟩
    exact LoadStoreInv.skip s0 P vp st store loads seen C h hCu (by rw [hvc, hvv])
  · rw [if_pos hvv]
    have hne : vc ≠ vp := fun e => hvv e.symm
    have hrem : ∃ c, c ∈ s0.g.users P ∧ s0.pt.getVCore c ≠ some vp :=
      ⟨C, hCu, by rw [hvc]; exact fun e => hne (Option.some.inj e)⟩
    cases store with
    | some S =>
      exact LoadStoreInv.afterStore s0 P vp st S loads seen C vc h hwf0 hP hCu hvc hne
    | none =>
      obtain ⟨st1, e1, i1⟩ := LoadStoreInv.ensureStore s0 P vp st loads seen h hP hprod hP0 hrem
      simp only
      rw [e1]
      exact LoadStoreInv.afterStore s0 P vp st1 st.g.fresh loads seen C vc i1 hwf0 hP hCu
        hvc hne

/-- The loop over the users of a producer in `insertLoadsAndStores` runs to completion and
ends in a state that satisfies the invariant for all the users. -/
theorem insertLoadsAndStoresAt_producer (s0 : PState) (P : Nat) (hwf0 : s0.OperandsLinked)
    (hP : P ∈ s0.g.operations) (hprod : (s0.g.cls P).isProducer = true) :
    ∃ (l : LoadStoreLoop) (vp : Nat), s0.pt.getVCore P = some vp
      ∧ insertLoadsAndStoresAt s0 P = some l.st
      ∧ LoadStoreInv s0 P vp l.st l.store l.loads (s0.g.users P) := by
  obtain ⟨vp, hvp⟩ := hwf0.assigned P hP
  obtain ⟨l, hl, hinv⟩ := foldlM_invariant (insertLoadsAndStoresUser P)
    (fun (l : LoadStoreLoop) seen => LoadStoreInv s0 P vp l.st l.store l.loads seen)
    (s0.g.users P) [] { st := s0, store := none, loads := fun _ => none }
    (LoadStoreInv.loopStart s0 P vp hwf0)
    (fun l seen C hC hinv => LoadStoreInv.step s0 P vp l seen C hinv hwf0 hP hprod hvp hC)
  refine ⟨l, vp, hvp, ?_, by simpa using hinv⟩
  unfold insertLoadsAndStoresAt
  rw [if_pos hprod, hl]
  rfl

theorem insertLoadsAndStoresAt_other (s0 : PState) (P : Nat)
    (hprod : ¬ (s0.g.cls P).isProducer = true) :
    insertLoadsAndStoresAt s0 P = some s0 := by
  unfold insertLoadsAndStoresAt
  rw [if_neg hprod]

theorem LoadStorePass.passStart (st : PState) (hwf : st.OperandsLinked) :
    LoadStorePass st st [] where
  wf := hwf
  old_lt := hwf.lt_fresh
  fresh_le := le_refl _
  tables := rfl
  old_assign := fun _ _ => rfl
  old_cls := fun _ _ => rfl
  ops_old := fun _ h => h
  ops_new := fun _ h => Or.inl h
  done_sub := fun q h => absurd h (List.not_mem_nil q)
  users_local := fun q c h => absurd h (List.not_mem_nil q)
  new_ops := fun n h1 h2 => absurd (hwf.lt_fresh n h2) (by omega)
  operands := fun c j q _ h => Or.inl h
  stores_unique := fun S1 _ h1 _ h2 => absurd (hwf.lt_fresh S1 h2) (by omega)
  loads_unique := fun L1 _ h1 _ h2 => absurd (hwf.lt_fresh L1 h2) (by omega)

/-- The visit of an operation that is not a producer keeps the invariant of the pass. -/
theorem LoadStorePass.other (st s : PState) (done : List Nat) (P : Nat)
    (h : LoadStorePass st s done) (hP : P ∈ st.g.operations)
    (hprod : ¬ (s.g.cls P).isProducer = true) :
    LoadStorePass st s (done ++ [P]) where
  wf := h.wf
  old_lt := h.old_lt
  fresh_le := h.fresh_le
  tables := h.tables
  old_assign := h.old_assign
  old_cls := h.old_cls
  ops_old := h.ops_old
  ops_new := h.ops_new
  done_sub := by
    intro q hq
    rcases List.mem_append.mp hq with h1 | h1
    · exact h.done_sub q h1
    · rw [List.mem_singleton] at h1
      rw [h1]
      exact hP
  users_local := by
    intro q c hq hc
    rcases List.mem_append.mp hq with h1 | h1
    · exact h.users_local q c h1 hc
    · rw [List.mem_singleton] at h1
      rw [h1] at hc
      have hPs := h.ops_old P hP
      have hcs := h.wf.users_mem P c hPs hc
      have := (h.wf.operands_mem c P hcs ((h.wf.inverse c P hcs hPs).mp hc)).2
      exact absurd this hprod
  new_ops := by
    intro n h1 h2
    rcases h.new_ops n h1 h2 with ⟨a, q, hq, b⟩ | hb
    · exact Or.inl ⟨a, q, List.mem_append.mpr (Or.inl hq), b⟩
    · exact Or.inr hb
  operands := h.operands
  stores_unique := h.stores_unique
  loads_unique := h.loads_unique

/-- The visit of a producer keeps the invariant of the pass. -/
theorem LoadStorePass.producer (st s0 : PState) (done : List Nat) (P vp : Nat)
    (l : LoadStoreLoop) (h : LoadStorePass st s0 done) (hP : P ∈ st.g.operations)
    (hvp : s0.pt.getVCore P = some vp)
    (hinv : LoadStoreInv s0 P vp l.st l.store l.loads (s0.g.users P)) :
    LoadStorePass st l.st (done ++ [P]) := by
  have hwf0 := h.wf
  have hPs : P ∈ s0.g.operations := h.ops_old P hP
  have hP0 : P < s0.g.fresh := hwf0.lt_fresh P hPs
  have hfl := h.fresh_le
  have hfl' := hinv.fresh_le
  have hltst : ∀ i, i ∈ st.g.operations → i < st.g.fresh := h.old_lt
  have hPst : P < st.g.fresh := hltst P hP
  have hvcl : ∀ i, i < s0.g.fresh → l.st.pt.getVCore i = s0.pt.getVCore i := fun i hi =>
    Partitioner.getVCore_congr _ _ _ _ (hinv.old_assign i hi) hinv.tables
  have hvcs : ∀ i, i < st.g.fresh → s0.pt.getVCore i = st.pt.getVCore i := fun i hi =>
    Partitioner.getVCore_congr _ _ _ _ (h.old_assign i hi) h.tables
  have hPl : P ∈ l.st.g.operations := hinv.ops_old P hPs
  have hlocalU : ∀ c, c ∈ l.st.g.users P → c ∈ s0.g.users P →
      s0.pt.getVCore c = some vp := by
    intro c hc hc0
    have hcs : c ∈ s0.g.operations := hwf0.users_mem P c hPs hc0
    obtain ⟨vc, hvc⟩ := hwf0.assigned c hcs
    by_cases hv : vc = vp
    · rw [hvc, hv]
    · obtain ⟨L, hL, hop⟩ := hinv.operands_remote c vc hc0 hvc hv
      have hLf := (hinv.loads_some vc L hL).1
      have hin := (hinv.wf.inverse c P (hinv.ops_old c hcs) hPl).mp hc
      rw [hop, mem_map_replace] at hin
      rcases hin with ⟨h1, _⟩ | ⟨h1, _⟩
      · omega
      · exact absurd rfl h1
  have hopnew : ∀ n, st.g.fresh ≤ n → n ∈ s0.g.operations →
      l.st.g.operands n = s0.g.operands n := by
    intro n hn1 hn2
    have hn0 := hwf0.lt_fresh n hn2
    by_cases hnu : n ∈ s0.g.users P
    · have hin := (hwf0.inverse n P hn2 hPs).mp hnu
      rcases h.new_ops n hn1 hn2 with ⟨_, q, _, hq, ha⟩ | ⟨_, hb, _⟩
      · rw [hq, List.mem_singleton] at hin
        refine hinv.operands_same n hn0 (Or.inr ?_)
        rw [← hvp]
        refine Partitioner.getVCore_congr _ _ _ _ ?_ rfl
        rw [ha, ← hin, h.old_assign P hPst]
      · rw [hb] at hin
        exact absurd hin (List.not_mem_nil _)
    · exact hinv.operands_same n hn0 (Or.inl hnu)
  constructor
  · exact hinv.wf
  · exact h.old_lt
  · omega
  · rw [hinv.tables, h.tables]
  · intro i hi
    rw [hinv.old_assign i (by omega), h.old_assign i hi]
  · intro i hi
    rw [hinv.old_cls i (by omega), h.old_cls i hi]
  · intro i hi
    exact hinv.ops_old i (h.ops_old i hi)
  · intro i hi
    rcases hinv.ops_new i hi with h1 | h1
    · exact h.ops_new i h1
    · exact Or.inr (by omega)
  · intro q hq
    rcases List.mem_append.mp hq with h1 | h1
    · exact h.done_sub q h1
    · rw [List.mem_singleton] at h1
      rw [h1]
      exact hP
  · intro q c hq hc
    have hcase : q = P ∨ (q ≠ P ∧ q ∈ done) := by
      by_cases e : q = P
      · exact Or.inl e
      · rcases List.mem_append.mp hq with h1 | h1
        · exact Or.inr ⟨e, h1⟩
        · rw [List.mem_singleton] at h1
          exact absurd h1 e
    rcases hcase with e | ⟨e, hqd⟩
    · rw [e] at hc ⊢
      rw [hvcl P hP0, hvp]
      rcases hinv.users_P c hc with h1 | h1
      · have hcs := hwf0.lt_fresh c (hwf0.users_mem P c hPs h1)
        rw [hvcl c hcs]
        exact hlocalU c hc h1
      · obtain ⟨_, _, _, _, a5, _⟩ := hinv.store_some c h1
        rw [← hvp]
        exact Partitioner.getVCore_congr _ _ _ _ a5 hinv.tables
    · have hqs : q ∈ s0.g.operations := h.ops_old q (h.done_sub q hqd)
      have hq0 := hwf0.lt_fresh q hqs
      rw [hinv.old_users q hq0 e] at hc
      have hc0 := hwf0.lt_fresh c (hwf0.users_mem q c hqs hc)
      rw [hvcl c hc0, hvcl q hq0]
      exact h.users_local q c hqd hc
  · intro n hn1 hn2
    rcases hinv.ops_new n hn2 with hn3 | hn3
    · have hn0 := hwf0.lt_fresh n hn3
      rcases h.new_ops n hn1 hn3 with ⟨a, q, hq, b, c⟩ | ⟨a, b, ⟨S, c1, c2⟩, d⟩
      · refine Or.inl ⟨?_, q, List.mem_append.mpr (Or.inl hq), ?_, ?_⟩
        · rw [hinv.old_cls n hn0, a]
        · rw [hopnew n hn1 hn3, b]
        · rw [hinv.old_assign n hn0, c]
      · refine Or.inr ⟨?_, ?_, ⟨S, ?_, hinv.ops_old S c2⟩, ?_⟩
        · rw [hinv.old_cls n hn0, a]
        · rw [hopnew n hn1 hn3, b]
        · rw [hinv.old_srcs n hn0, c1]
        · intro c hc
          rw [hinv.old_users n hn0 (by omega)] at hc
          have hc0 := hwf0.lt_fresh c (hwf0.users_mem n c hn3 hc)
          rw [hvcl c hc0, hvcl n hn0]
          exact d c hc
    · rcases hinv.new_ops n hn3 hn2 with hs | ⟨vc, hl⟩
      · obtain ⟨_, _, a3, a4, a5, _⟩ := hinv.store_some n hs
        refine Or.inl ⟨a3, P, List.mem_append.mpr (Or.inr (List.mem_singleton_self _)),
          a4, ?_⟩
        rw [a5, h.old_assign P hPst]
      · obtain ⟨_, _, b3, b4, ⟨S, b5, b6⟩, b7, _, b9⟩ := hinv.loads_some vc n hl
        refine Or.inr ⟨b3, b4, ⟨S, b6, (hinv.store_some S b5).2.1⟩, ?_⟩
        intro c hc
        have hcv := b9 c hc
        have hc0 : c < s0.g.fresh := by
          rcases Nat.lt_or_ge c s0.g.fresh with h1 | h1
          · exact h1
          · have hnone : s0.pt.getVCore c = none := by
              unfold Partitioner.getVCore Partitioner.getVMVMU
              rw [hwf0.unassigned c h1]
              rfl
            rw [hnone] at hcv
            exact absurd hcv (by simp)
        rw [hvcl c hc0, hcv, b7]
  · intro c j q hc hj
    have hcs : c ∈ s0.g.operations := h.ops_old c hc
    have hc0 := hwf0.lt_fresh c hcs
    have hcst := hltst c hc
    obtain ⟨vc, hvc⟩ := hwf0.assigned c hcs
    have hshape : l.st.g.operands c = s0.g.operands c
        ∨ (c ∈ s0.g.users P ∧ vc ≠ vp ∧ ∃ L, l.loads vc = some L
          ∧ l.st.g.operands c = (s0.g.operands c).map (fun x => if x = P then L else x)) := by
      by_cases hcu : c ∈ s0.g.users P
      · by_cases hv : vc = vp
        · exact Or.inl (hinv.operands_same c hc0 (Or.inr (by rw [hvc, hv])))
        · exact Or.inr ⟨hcu, hv, hinv.operands_remote c vc hcu hvc hv⟩
      · exact Or.inl (hinv.operands_same c hc0 (Or.inl hcu))
    rcases h.operands c j q hc hj with hA | ⟨hrem, L, S, e1, e2, e3, e4, e5, e6, e7, e8, e9,
        e10, e11⟩
    · rcases hshape with hsame | ⟨hcu, hv, L, hL, hop⟩
      · exact Or.inl (by rw [hsame]; exact hA)
      · by_cases hq : q = P
        · obtain ⟨b1, b2, b3, _, ⟨S, b5, b6⟩, b7, _, _⟩ := hinv.loads_some vc L hL
          obtain ⟨a1, a2, a3, a4, a5, _⟩ := hinv.store_some S b5
          refine Or.inr ⟨?_, L, S, ?_, by omega, b2, b3, b6, by omega, a2, a3, ?_, ?_, ?_⟩
          · rw [hq, ← hvcs P hPst, ← hvcs c hcst, hvp, hvc]
            exact fun e => hv (Option.some.inj e).symm
          · rw [hop, List.getElem?_map, hA, hq]
            simp
          · rw [a4, hq]
          · rw [a5, hq, h.old_assign P hPst]
          · rw [b7, ← hvcs c hcst, hvc]
        · refine Or.inl ?_
          rw [hop, List.getElem?_map, hA]
          simp [hq]
    · have hLs0 := hwf0.lt_fresh L e3
      have hSs0 := hwf0.lt_fresh S e7
      refine Or.inr ⟨hrem, L, S, ?_, e2, hinv.ops_old L e3, ?_, ?_, e6, hinv.ops_old S e7,
        ?_, ?_, ?_, ?_⟩
      · rcases hshape with hsame | ⟨hcu, hv, L', hL', hop⟩
        · rw [hsame]
          exact e1
        · rw [hop, List.getElem?_map, e1]
          have : L ≠ P := by omega
          simp [this]
      · rw [hinv.old_cls L hLs0, e4]
      · rw [hinv.old_srcs L hLs0, e5]
      · rw [hinv.old_cls S hSs0, e8]
      · rw [hopnew S e6 e7, e9]
      · rw [hinv.old_assign S hSs0, e10]
      · rw [hvcl L hLs0, e11]
  · intro S1 S2 g1 g2 m1 m2 c1 c2 hops
    have hclass : ∀ n, st.g.fresh ≤ n → n ∈ l.st.g.operations →
        l.st.g.cls n = OpClass.StoreOperation →
        (n ∈ s0.g.operations ∧ s0.g.cls n = OpClass.StoreOperation
          ∧ ∃ q, q ∈ done ∧ l.st.g.operands n = [q])
        ∨ (l.store = some n ∧ l.st.g.operands n = [P]) := by
      intro n hn1 hn2 hn3
      rcases hinv.ops_new n hn2 with hn4 | hn4
      · have hn0 := hwf0.lt_fresh n hn4
        have hcl : s0.g.cls n = OpClass.StoreOperation := by
          rw [← hinv.old_cls n hn0, hn3]
        rcases h.new_ops n hn1 hn4 with ⟨_, q, hq, b, _⟩ | ⟨a, _⟩
        · exact Or.inl ⟨hn4, hcl, q, hq, by rw [hopnew n hn1 hn4, b]⟩
        · rw [hcl] at a
          exact absurd a (by simp)
      · rcases hinv.new_ops n hn4 hn2 with hs | ⟨vc, hl⟩
        · exact Or.inr ⟨hs, (hinv.store_some n hs).2.2.2.1⟩
        · have := (hinv.loads_some vc n hl).2.2.1
          rw [hn3] at this
          exact absurd this (by simp)
    have hmixed : ∀ q, q ∈ done → l.store ≠ none → q ≠ P := by
      intro q hq hst e
      cases hs : l.store with
      | none => exact hst hs
      | some S =>
        obtain ⟨_, _, _, _, _, c, hc1, hc2⟩ := hinv.store_some S hs
        have := h.users_local P c (e ▸ hq) hc1
        rw [hvp] at this
        exact hc2 this
    rcases hclass S1 g1 m1 c1 with ⟨n1, k1, q1, hq1, o1⟩ | ⟨s1, o1⟩
    · rcases hclass S2 g2 m2 c2 with ⟨n2, k2, q2, hq2, o2⟩ | ⟨s2, o2⟩
      · refine h.stores_unique S1 S2 g1 g2 n1 n2 k1 k2 ?_
        rw [← hopnew S1 g1 n1, ← hopnew S2 g2 n2]
        exact hops
      · rw [o1, o2] at hops
        have e : q1 = P := by simpa using hops
        exact absurd e (hmixed q1 hq1 (by rw [s2]; simp))
    · rcases hclass S2 g2 m2 c2 with ⟨n2, k2, q2, hq2, o2⟩ | ⟨s2, o2⟩
      · rw [o1, o2] at hops
        have e : P = q2 := by simpa using hops
        exact absurd e.symm (hmixed q2 hq2 (by rw [s1]; simp))
      · rw [s1] at s2
        exact Option.some.inj s2
  · intro L1 L2 g1 g2 m1 m2 c1 c2 hsr hvc
    have hclass : ∀ n, st.g.fresh ≤ n → n ∈ l.st.g.operations →
        l.st.g.cls n = OpClass.LoadOperation →
        (n ∈ s0.g.operations ∧ s0.g.cls n = OpClass.LoadOperation
          ∧ ∃ S, S < s0.g.fresh ∧ l.st.g.srcs n = [S])
        ∨ (∃ vc S, l.loads vc = some n ∧ l.st.pt.getVCore n = some vc
          ∧ s0.g.fresh ≤ S ∧ l.st.g.srcs n = [S]) := by
      intro n hn1 hn2 hn3
      rcases hinv.ops_new n hn2 with hn4 | hn4
      · have hn0 := hwf0.lt_fresh n hn4
        have hcl : s0.g.cls n = OpClass.LoadOperation := by
          rw [← hinv.old_cls n hn0, hn3]
        rcases h.new_ops n hn1 hn4 with ⟨a, _⟩ | ⟨_, _, ⟨S, b1, b2⟩, _⟩
        · rw [hcl] at a
          exact absurd a (by simp)
        · exact Or.inl ⟨hn4, hcl, S, hwf0.lt_fresh S b2, by rw [hinv.old_srcs n hn0, b1]⟩
      · rcases hinv.new_ops n hn4 hn2 with hs | ⟨vc, hl⟩
        · have := (hinv.store_some n hs).2.2.1
          rw [hn3] at this
          exact absurd this (by simp)
        · obtain ⟨_, _, _, _, ⟨S, b5, b6⟩, b7, _, _⟩ := hinv.loads_some vc n hl
          exact Or.inr ⟨vc, S, hl, b7, (hinv.store_some S b5).1, b6⟩
    rcases hclass L1 g1 m1 c1 with ⟨n1, k1, T1, t1, o1⟩ | ⟨v1, T1, l1, w1, t1, o1⟩
    · rcases hclass L2 g2 m2 c2 with ⟨n2, k2, T2, t2, o2⟩ | ⟨v2, T2, l2, w2, t2, o2⟩
      · have f1 := hwf0.lt_fresh L1 n1
        have f2 := hwf0.lt_fresh L2 n2
        refine h.loads_unique L1 L2 g1 g2 n1 n2 k1 k2 ?_ ?_
        · rw [← hinv.old_srcs L1 f1, ← hinv.old_srcs L2 f2]
          exact hsr
        · rw [← hvcl L1 f1, ← hvcl L2 f2]
          exact hvc
      · rw [o1, o2] at hsr
        have e : T1 = T2 := by simpa using hsr
        omega
    · rcases hclass L2 g2 m2 c2 with ⟨n2, k2, T2, t2, o2⟩ | ⟨v2, T2, l2, w2, t2, o2⟩
      · rw [o1, o2] at hsr
        have e : T1 = T2 := by simpa using hsr
        omega
      · rw [w1, w2] at hvc
        rw [Option.some.inj hvc] at l1
        rw [l1] at l2
        exact Option.some.inj l2

/-- The pass `insertLoadsAndStores` runs to completion on a well-formed DAG and ends in a
state that satisfies the invariant of the pass for all the operations. -/
theorem insertLoadsAndStores_pass (st : PState) (hwf : st.OperandsLinked) :
    ∃ st', insertLoadsAndStores st = some st' ∧ LoadStorePass st st' st.g.operations := by
  have key := foldlM_invariant insertLoadsAndStoresAt
    (fun (s : PState) (done : List Nat) => LoadStorePass st s done)
    st.g.operations [] st (LoadStorePass.passStart st hwf)
    (by
      intro s done P hP hinv
      by_cases hprod : (s.g.cls P).isProducer = true
      · obtain ⟨l, vp, hvp, hrun, hl⟩ :=
          insertLoadsAndStoresAt_producer s P hinv.wf (hinv.ops_old P hP) hprod
        exact ⟨l.st, hrun, LoadStorePass.producer st s done P vp l hinv hP hvp hl⟩
      · exact ⟨s, insertLoadsAndStoresAt_other s P hprod,
          LoadStorePass.other st s done P hinv hP hprod⟩)
  simpa [insertLoadsAndStores] using key

/-- Claim C4. On a well-formed DAG whose operations all have a virtual core,
`insertLoadsAndStores` runs to completion. Afterwards every operand edge stays inside one
virtual core. An operand on the core of its consumer is still read directly. An operand
`p` on another core than its consumer `c` is replaced, at the same position, by a Load
created by the pass that is placed on the core of `c` and reads a Store created by the pass
whose only operand is `p` and whose virtual MVMU is that of `p`. The pass creates at most
one Store per producer and at most one Load per Store and virtual core. -/
theorem insertLoadsAndStores_routes_remote_operands (st : PState)
    (hwf : st.OperandsLinked) :
    ∃ st', insertLoadsAndStores st = some st'
      ∧ (∀ c p, c ∈ st'.g.operations → p ∈ st'.g.operands c →
          ∃ v, st'.pt.getVCore p = some v ∧ st'.pt.getVCore c = some v)
      ∧ (∀ (c j p : Nat), c ∈ st.g.operations → (st.g.operands c)[j]? = some p →
          (st.pt.getVCore p = st.pt.getVCore c → (st'.g.operands c)[j]? = some p)
          ∧ (st.pt.getVCore p ≠ st.pt.getVCore c →
              ∃ (L S : Nat), (st'.g.operands c)[j]? = some L
                ∧ st.g.fresh ≤ L ∧ L ∈ st'.g.operations
                ∧ st'.g.cls L = OpClass.LoadOperation ∧ st'.g.srcs L = [S]
                ∧ st.g.fresh ≤ S ∧ S ∈ st'.g.operations
                ∧ st'.g.cls S = OpClass.StoreOperation ∧ st'.g.operands S = [p]
                ∧ st'.pt.getVMVMU S = st.pt.getVMVMU p
                ∧ st'.pt.getVCore L = st.pt.getVCore c))
      ∧ (∀ S1 S2, st.g.fresh ≤ S1 → st.g.fresh ≤ S2 →
          S1 ∈ st'.g.operations → S2 ∈ st'.g.operations →
          st'.g.cls S1 = OpClass.StoreOperation → st'.g.cls S2 = OpClass.StoreOperation →
          st'.g.operands S1 = st'.g.operands S2 → S1 = S2)
      ∧ (∀ L1 L2, st.g.fresh ≤ L1 → st.g.fresh ≤ L2 →
          L1 ∈ st'.g.operations → L2 ∈ st'.g.operations →
          st'.g.cls L1 = OpClass.LoadOperation → st'.g.cls L2 = OpClass.LoadOperation →
          st'.g.srcs L1 = st'.g.srcs L2 → st'.pt.getVCore L1 = st'.pt.getVCore L2 →
          L1 = L2) := by
  obtain ⟨st', hrun, h⟩ := insertLoadsAndStores_pass st hwf
  have hedge : ∀ c p, c ∈ st'.g.operations → p ∈ st'.g.operands c →
      st'.pt.getVCore p = st'.pt.getVCore c := by
    intro c p hc hp
    obtain ⟨hp1, hp2⟩ := h.wf.operands_mem c p hc hp
    have hcu : c ∈ st'.g.users p := (h.wf.inverse c p hc hp1).mpr hp
    rcases h.ops_new p hp1 with h1 | h1
    · exact (h.users_local p c h1 hcu).symm
    · rcases h.new_ops p h1 hp1 with ⟨a, _⟩ | ⟨_, _, _, d⟩
      · rw [a] at hp2
        exact absurd hp2 (by decide)
      · exact (d c hcu).symm
  have hvc : ∀ i, i < st.g.fresh → st'.pt.getVCore i = st.pt.getVCore i := fun i hi =>
    Partitioner.getVCore_congr _ _ _ _ (h.old_assign i hi) h.tables
  refine ⟨st', hrun, ?_, ?_, h.stores_unique, h.loads_unique⟩
  · intro c p hc hp
    obtain ⟨v, hv⟩ := h.wf.assigned c hc
    exact ⟨v, by rw [hedge c p hc hp, hv], hv⟩
  · intro c j p hc hj
    have hp : p ∈ st.g.operands c := List.getElem?_mem hj
    have hp0 := hwf.lt_fresh p (hwf.operands_mem c p hc hp).1
    have hc0 := hwf.lt_fresh c hc
    rcases h.operands c j p hc hj with hA | ⟨hrem, hB⟩
    · refine ⟨fun _ => hA, fun hne => ?_⟩
      have := hedge c p (h.ops_old c hc) (List.getElem?_mem hA)
      rw [hvc p hp0, hvc c hc0] at this
      exact absurd this hne
    · exact ⟨fun he => absurd he hrem, fun _ => hB⟩

theorem spreadState_operandsLinked : spreadState.OperandsLinked where
  lt_fresh := by decide
  unassigned := by
    intro i hi
    have hf : spreadState.g.fresh = 8 := by decide
    rw [hf] at hi
    show (if 1 ≤ i ∧ i < 8 then some (i % 3) else none) = none
    rw [if_neg (by omega)]
  operands_mem := by
    intro c p hc hp
    revert p
    revert c
    decide
  users_mem := by
    intro p c hp hc
    revert c
    revert p
    decide
  inverse := by
    intro c p hc hp
    revert p
    revert c
    decide
  assigned := by
    intro i hi
    apply Option.isSome_iff_exists.mp
    revert i
    decide

theorem insertLoadsAndStores_routes_remote_operands_witness :
    spreadState.OperandsLinked
    ∧ ∃ st', insertLoadsAndStores spreadState = some st'
      ∧ (∀ c p, c ∈ st'.g.operations → p ∈ st'.g.operands c →
          ∃ v, st'.pt.getVCore p = some v ∧ st'.pt.getVCore c = some v)
      ∧ (∀ (c j p : Nat), c ∈ spreadState.g.operations →
          (spreadState.g.operands c)[j]? = some p →
          (spreadState.pt.getVCore p = spreadState.pt.getVCore c →
            (st'.g.operands c)[j]? = some p)
          ∧ (spreadState.pt.getVCore p ≠ spreadState.pt.getVCore c →
              ∃ (L S : Nat), (st'.g.operands c)[j]? = some L
                ∧ spreadState.g.fresh ≤ L ∧ L ∈ st'.g.operations
                ∧ st'.g.cls L = OpClass.LoadOperation ∧ st'.g.srcs L = [S]
                ∧ spreadState.g.fresh ≤ S ∧ S ∈ st'.g.operations
                ∧ st'.g.cls S = OpClass.StoreOperation ∧ st'.g.operands S = [p]
                ∧ st'.pt.getVMVMU S = spreadState.pt.getVMVMU p
                ∧ st'.pt.getVCore L = spreadState.pt.getVCore c))
      ∧ (∀ S1 S2, spreadState.g.fresh ≤ S1 → spreadState.g.fresh ≤ S2 →
          S1 ∈ st'.g.operations → S2 ∈ st'.g.operations →
          st'.g.cls S1 = OpClass.StoreOperation → st'.g.cls S2 = OpClass.StoreOperation →
          st'.g.operands S1 = st'.g.operands S2 → S1 = S2)
      ∧ (∀ L1 L2, spreadState.g.fresh ≤ L1 → spreadState.g.fresh ≤ L2 →
          L1 ∈ st'.g.operations → L2 ∈ st'.g.operations →
          st'.g.cls L1 = OpClass.LoadOperation → st'.g.cls L2 = OpClass.LoadOperation →
          st'.g.srcs L1 = st'.g.srcs L2 → st'.pt.getVCore L1 = st'.pt.getVCore L2 →
          L1 = L2) :=
  ⟨spreadState_operandsLinked,
    insertLoadsAndStores_routes_remote_operands spreadState spreadState_operandsLinked⟩

/-! ## Code generation of matrix operations -/

theorem mapM_some {α β : Type} (f : α → β) (l : List α) :
    l.mapM (fun a => some (f a)) = some (l.map f) := by
  induction l with
  | nil => rfl
  | cons a l ih =>
    rw [List.mapM_cons, ih]
    rfl

/-- Claim C11. For an MVM without coalesced set on physical MVMU `p` below
`N_CONSTANT_MVMUS_PER_CORE`, `codegen(MVMOperation*)` returns the text `mvm(['`, then
`N_CONSTANT_MVMUS_PER_CORE` characters of which character `i` is `1` if `i = p` and `0`
otherwise, then `'])` and a newline; exactly one character is `1`. -/
theorem codegen_mvm_without_set_marks_its_mvmu (P : Placer) (pt : Partitioner)
    (c : Coalescer) (mvm p : Nat) (hset : c.coalescedSet mvm = none)
    (hp : P.getPMVMU pt mvm = some p) (hlt : p < N_CONSTANT_MVMUS_PER_CORE) :
    codegenMVM P pt c mvm
      = some ("mvm(['"
          ++ String.mk ((List.range N_CONSTANT_MVMUS_PER_CORE).map
              fun i => if i = p then '1' else '0')
          ++ "'])\n")
    ∧ ((List.range N_CONSTANT_MVMUS_PER_CORE).map
        fun i => if i = p then '1' else '0').length = N_CONSTANT_MVMUS_PER_CORE
    ∧ ((List.range N_CONSTANT_MVMUS_PER_CORE).map
        fun i => if i = p then '1' else '0').count '1' = 1 := by
  refine ⟨?_, by simp, ?_⟩
  · unfold codegenMVM
    rw [hset]
    simp only [hp, Option.map_some']
    rw [mapM_some]
    simp [bitChar]
  · unfold N_CONSTANT_MVMUS_PER_CORE at hlt ⊢
    interval_cases p <;> decide

theorem mapM_congr_some {α β : Type} (f : α → Option β) (g : α → β) (l : List α)
    (h : ∀ a, a ∈ l → f a = some (g a)) : l.mapM f = some (l.map g) := by
  induction l with
  | nil => rfl
  | cons a l ih =>
    rw [List.mapM_cons, h a (List.mem_cons_self _ _),
      ih (fun b hb => h b (List.mem_cons_of_mem _ hb))]
    rfl

theorem codegenCoalescedMVMSet_eq (c : Coalescer) (s : Nat)
    (hlen : (c.mvms s).length = N_CONSTANT_MVMUS_PER_CORE) :
    codegenCoalescedMVMSet c s
      = some ("mvm(['"
          ++ String.mk ((List.range N_CONSTANT_MVMUS_PER_CORE).map
              fun i => if ((c.mvms s).getD i none).isSome then '1' else '0')
          ++ "'])\n") := by
  unfold codegenCoalescedMVMSet
  rw [mapM_congr_some _ (fun i => if ((c.mvms s).getD i none).isSome then '1' else '0')]
  · rfl
  · intro i hi
    rw [List.mem_range, ← hlen] at hi
    unfold Coalescer.usesPMVMU bitChar
    rw [List.getD_eq_getElem?_getD, List.getElem?_eq_getElem hi]
    rfl

/-- Claim C12. For a coalesced MVM set (a vector of `N_CONSTANT_MVMUS_PER_CORE` slots),
`codegen(CoalescedMVMSet*)` returns the text `mvm(['`, then `N_CONSTANT_MVMUS_PER_CORE`
characters of which character `i` is `1` exactly when slot `i` is occupied and `0`
otherwise, then `'])` and a newline. For the program of `test/simple.cpp` the MVM is in a
coalesced set and its instruction is `mvm(['100000'])`. -/
theorem codegen_coalesced_mvm_set_marks_occupied_slots (c : Coalescer) (s : Nat)
    (hlen : (c.mvms s).length = N_CONSTANT_MVMUS_PER_CORE) :
    codegenCoalescedMVMSet c s
      = some ("mvm(['"
          ++ String.mk ((List.range N_CONSTANT_MVMUS_PER_CORE).map
              fun i => if ((c.mvms s).getD i none).isSome then '1' else '0')
          ++ "'])\n")
    ∧ ((List.range N_CONSTANT_MVMUS_PER_CORE).map
        fun i => if ((c.mvms s).getD i none).isSome then '1' else '0').length
        = N_CONSTANT_MVMUS_PER_CORE
    ∧ (compileToLists simpleGraph 64 ModelType.INFERENCE [0] simpleTileUsers [[2]]
          true).bind (fun r => (r.c.coalescedSet 2).bind fun cs =>
            (codegenCoalescedMVMSet r.c cs).bind fun text =>
            (codegenMVM r.P r.L.pt r.c 2).map fun text2 => (text, text2))
        = some ("mvm(['100000'])\n", "mvm(['100000'])\n") :=
  ⟨codegenCoalescedMVMSet_eq c s hlen, by simp, by decide⟩

theorem codegen_mvm_without_set_marks_its_mvmu_witness :
    (Coalescer.none.coalescedSet 2 = none
      ∧ onePlacer.getPMVMU reusedMatrixState.pt 2 = some 0
      ∧ 0 < N_CONSTANT_MVMUS_PER_CORE)
    ∧ codegenMVM onePlacer reusedMatrixState.pt Coalescer.none 2 = some "mvm(['100000'])\n" :=
  ⟨⟨rfl, by decide, by decide⟩,
    (codegen_mvm_without_set_marks_its_mvmu onePlacer reusedMatrixState.pt Coalescer.none 2 0
      rfl (by decide) (by decide)).1.trans (by decide)⟩

theorem codegen_coalesced_mvm_set_marks_occupied_slots_witness :
    (({ Coalescer.none with mvms := fun _ => [some 4, none, some 7, none, none, none] } :
        Coalescer).mvms 0).length = N_CONSTANT_MVMUS_PER_CORE
    ∧ codegenCoalescedMVMSet
        { Coalescer.none with mvms := fun _ => [some 4, none, some 7, none, none, none] } 0
      = some "mvm(['101000'])\n" :=
  ⟨by decide,
    (codegen_coalesced_mvm_set_marks_occupied_slots
      { Coalescer.none with mvms := fun _ => [some 4, none, some 7, none, none, none] } 0
      (by decide)).1.trans (by decide)⟩

/-- The first occupied slot of a vector of slots with a member. -/
theorem find_first_occupied (l : List (Option Nat))
    (h : ∃ (i m : Nat), l[i]? = some (some m)) :
    ∃ (i0 m0 : Nat), l[i0]? = some (some m0)
      ∧ (∀ j, j < i0 → l[j]? = some none)
      ∧ l.find? (fun m => m.isSome) = some (some m0) := by
  induction l with
  | nil =>
    obtain ⟨i, m, hm⟩ := h
    simp at hm
  | cons x l ih =>
    cases x with
    | some m0 =>
      exact ⟨0, m0, by simp, fun j hj => absurd hj (Nat.not_lt_zero j), by simp⟩
    | none =>
      have h' : ∃ (i m : Nat), l[i]? = some (some m) := by
        obtain ⟨i, m, hm⟩ := h
        cases i with
        | zero => simp at hm
        | succ i => exact ⟨i, m, by simpa using hm⟩
      obtain ⟨i0, m0, h1, h2, h3⟩ := ih h'
      refine ⟨i0 + 1, m0, by simpa using h1, ?_, ?_⟩
      · intro j hj
        cases j with
        | zero => simp
        | succ j => simpa using h2 j (by omega)
      · simpa [List.find?] using h3

theorem usesPMVMUForOp_eq (c : Coalescer) (s pMVMU t : Nat)
    (hlen : (c.trainOps s).length = N_TRAINING_MVMUS_PER_CORE * N_TRAINING_OPERATIONS)
    (hp : pMVMU < N_TRAINING_MVMUS_PER_CORE) (ht : t < N_TRAINING_OPERATIONS) :
    c.usesPMVMUForOp s pMVMU (OpType.cast t)
      = some (((c.trainOps s).getD (pMVMU * N_TRAINING_OPERATIONS + t) none).isSome) := by
  have hcast : (OpType.cast t).toNat = t := by
    unfold N_TRAINING_OPERATIONS at ht
    interval_cases t <;> rfl
  have hidx : (pMVMU * N_TRAINING_OPERATIONS + t) % UINT_MOD
      = pMVMU * N_TRAINING_OPERATIONS + t := by
    unfold N_TRAINING_MVMUS_PER_CORE at hp
    unfold N_TRAINING_OPERATIONS at ht ⊢
    unfold UINT_MOD
    omega
  have hlt : pMVMU * N_TRAINING_OPERATIONS + t < (c.trainOps s).length := by
    rw [hlen]
    unfold N_TRAINING_MVMUS_PER_CORE at hp ⊢
    unfold N_TRAINING_OPERATIONS at ht ⊢
    omega
  unfold Coalescer.usesPMVMUForOp
  rw [hcast, hidx, List.getD_eq_getElem?_getD, List.getElem?_eq_getElem hlt]
  rfl

theorem codegenCoalescedTrainingSet_eq (c : Coalescer) (s : Nat)
    (hlen : (c.trainOps s).length = N_TRAINING_MVMUS_PER_CORE * N_TRAINING_OPERATIONS) :
    codegenCoalescedTrainingSet c s
      = some ("train(["
          ++ String.join ((List.range N_TRAINING_MVMUS_PER_CORE).map fun pMVMU =>
              "'" ++ String.mk ((List.range N_TRAINING_OPERATIONS).map fun t =>
                bitChar ((c.trainOps s).getD (pMVMU * N_TRAINING_OPERATIONS + t) none).isSome)
              ++ "'")
          ++ "])\n") := by
  unfold codegenCoalescedTrainingSet
  rw [mapM_congr_some _ (fun pMVMU =>
    "'" ++ String.mk ((List.range N_TRAINING_OPERATIONS).map fun t =>
      bitChar ((c.trainOps s).getD (pMVMU * N_TRAINING_OPERATIONS + t) none).isSome) ++ "'")]
  · rfl
  · intro p hp
    rw [List.mem_range] at hp
    rw [mapM_congr_some _ (fun t =>
      bitChar ((c.trainOps s).getD (p * N_TRAINING_OPERATIONS + t) none).isSome)]
    · rfl
    · intro t ht
      rw [List.mem_range] at ht
      rw [usesPMVMUForOp_eq c s p t hlen hp ht]
      rfl

/-- Claim C13. In a state of the coalescer whose sets satisfy the slot property of claim
C8, every coalesced MVM set and every coalesced training set with a member has a member
`m0` in its lowest occupied slot `i0` for which `isSetLeader` holds and whose code
generation returns the instruction of the set; for the member of every other slot
`isSetLeader` fails and code generation returns the empty string. -/
theorem coalesced_set_leader_emits_the_instruction (g : Graph) (P : Placer)
    (pt : Partitioner) (c : Coalescer) (hM : c.mvmSlotsAgree P pt)
    (hT : c.trainingSlotsAgree g P pt) :
    (∀ s, (c.mvms s).length = N_CONSTANT_MVMUS_PER_CORE →
      (∃ (i m : Nat), (c.mvms s)[i]? = some (some m)) →
      ∃ (i0 m0 : Nat) (text : String), (c.mvms s)[i0]? = some (some m0)
        ∧ (∀ j, j < i0 → (c.mvms s)[j]? = some none)
        ∧ c.isSetLeaderMVM s m0 = some true
        ∧ codegenCoalescedMVMSet c s = some text
        ∧ codegenMVM P pt c m0 = some text
        ∧ ∀ (i m : Nat), (c.mvms s)[i]? = some (some m) → i ≠ i0 →
            c.isSetLeaderMVM s m = some false ∧ codegenMVM P pt c m = some "")
    ∧ (∀ s, (c.trainOps s).length = N_TRAINING_MVMUS_PER_CORE * N_TRAINING_OPERATIONS →
      (∃ (i t : Nat), (c.trainOps s)[i]? = some (some t)) →
      ∃ (i0 t0 : Nat) (text : String), (c.trainOps s)[i0]? = some (some t0)
        ∧ (∀ j, j < i0 → (c.trainOps s)[j]? = some none)
        ∧ c.isSetLeaderTraining s t0 = some true
        ∧ codegenCoalescedTrainingSet c s = some text
        ∧ (∀ opType, codegenTraining P pt c t0 opType = some text)
        ∧ ∀ (i t : Nat), (c.trainOps s)[i]? = some (some t) → i ≠ i0 →
            c.isSetLeaderTraining s t = some false
            ∧ ∀ opType, codegenTraining P pt c t opType = some "") := by
  constructor
  · intro s hlen hmem
    obtain ⟨i0, m0, h1, h2, h3⟩ := find_first_occupied (c.mvms s) hmem
    have hlead : ∀ m, c.isSetLeaderMVM s m = some (m0 == m) := by
      intro m
      unfold Coalescer.isSetLeaderMVM
      rw [h3]
      simp
    refine ⟨i0, m0, _, h1, h2, by rw [hlead]; simp, codegenCoalescedMVMSet_eq c s hlen,
      ?_, ?_⟩
    · unfold codegenMVM
      rw [(hM s i0 m0 h1).2]
      simp only [hlead, beq_self_eq_true, Option.some_bind, if_true]
      exact codegenCoalescedMVMSet_eq c s hlen
    · intro i m hm hne
      have hmm : m0 ≠ m := by
        intro e
        have a := (hM s i0 m0 h1).1
        have b := (hM s i m hm).1
        rw [e, b] at a
        exact hne (Option.some.inj a)
      refine ⟨by rw [hlead]; simp [hmm], ?_⟩
      unfold codegenMVM
      rw [(hM s i m hm).2]
      simp [hlead, hmm]
  · intro s hlen hmem
    obtain ⟨i0, t0, h1, h2, h3⟩ := find_first_occupied (c.trainOps s) hmem
    have hlead : ∀ t, c.isSetLeaderTraining s t = some (t0 == t) := by
      intro t
      unfold Coalescer.isSetLeaderTraining
      rw [h3]
      simp
    refine ⟨i0, t0, _, h1, h2, by rw [hlead]; simp, codegenCoalescedTrainingSet_eq c s hlen,
      ?_, ?_⟩
    · intro opType
      obtain ⟨_, _, _, _, _, hb⟩ := hT s i0 t0 h1
      unfold codegenTraining
      rw [hb]
      simp only [hlead, beq_self_eq_true, Option.some_bind, if_true]
      exact codegenCoalescedTrainingSet_eq c s hlen
    · intro i t ht hne
      obtain ⟨p0, o0, a1, a2, a3, _⟩ := hT s i0 t0 h1
      obtain ⟨p1, o1, b1, b2, b3, hb⟩ := hT s i t ht
      have hmm : t0 ≠ t := by
        intro e
        rw [e, b1] at a1
        rw [e, b2] at a2
        rw [← Option.some.inj a1, ← OpClass.TrainingMatrixOperation.inj a2, b3] at a3
        exact hne a3
      refine ⟨by rw [hlead]; simp [hmm], ?_⟩
      intro opType
      unfold codegenTraining
      rw [hb]
      simp [hlead, hmm]

theorem coalesced_set_leader_emits_the_instruction_witness :
    ∃ st P ms l,
      Partitioner.create twoSumsGraph 64 ModelType.INFERENCE [0, 1] twoSumsTileUsers = some st
      ∧ Placer.create ModelType.INFERENCE
          { nVMVMUs := st.pt.nVMVMUs, nVCores := st.pt.nVCores, nVTiles := st.pt.nVTiles,
            vmvmu2vcore := st.pt.vmvmu2vcore, vcore2vtile := st.pt.vcore2vtile } = some P
      ∧ MemoryAllocator.create st = some ms
      ∧ Coalescer.create ms.g P ms.pt 64 ModelType.INFERENCE [[2], [3]] = some l
      ∧ (l.c.mvmSlotsAgree P ms.pt ∧ l.c.trainingSlotsAgree ms.g P ms.pt)
      ∧ (∀ s, (l.c.mvms s).length = N_CONSTANT_MVMUS_PER_CORE →
          (∃ (i m : Nat), (l.c.mvms s)[i]? = some (some m)) →
          ∃ (i0 m0 : Nat) (text : String), (l.c.mvms s)[i0]? = some (some m0)
            ∧ (∀ j, j < i0 → (l.c.mvms s)[j]? = some none)
            ∧ l.c.isSetLeaderMVM s m0 = some true
            ∧ codegenCoalescedMVMSet l.c s = some text
            ∧ codegenMVM P ms.pt l.c m0 = some text
            ∧ ∀ (i m : Nat), (l.c.mvms s)[i]? = some (some m) → i ≠ i0 →
                l.c.isSetLeaderMVM s m = some false ∧ codegenMVM P ms.pt l.c m = some "")
      ∧ (∀ s, (l.c.trainOps s).length = N_TRAINING_MVMUS_PER_CORE * N_TRAINING_OPERATIONS →
          (∃ (i t : Nat), (l.c.trainOps s)[i]? = some (some t)) →
          ∃ (i0 t0 : Nat) (text : String), (l.c.trainOps s)[i0]? = some (some t0)
            ∧ (∀ j, j < i0 → (l.c.trainOps s)[j]? = some none)
            ∧ l.c.isSetLeaderTraining s t0 = some true
            ∧ codegenCoalescedTrainingSet l.c s = some text
            ∧ (∀ opType, codegenTraining P ms.pt l.c t0 opType = some text)
            ∧ ∀ (i t : Nat), (l.c.trainOps s)[i]? = some (some t) → i ≠ i0 →
                l.c.isSetLeaderTraining s t = some false
                ∧ ∀ opType, codegenTraining P ms.pt l.c t opType = some "") := by
  have h : (compileToLists twoSumsGraph 64 ModelType.INFERENCE [0, 1] twoSumsTileUsers
      [[2], [3]] true).isSome = true := by decide
  obtain ⟨r, hr⟩ := Option.isSome_iff_exists.mp h
  unfold compileToLists at hr
  simp only [Option.bind_eq_some, Option.map_eq_some', if_true] at hr
  obtain ⟨st, hst, P, hP, ms, hms, c, ⟨l, hl, _⟩, _⟩ := hr
  have hs := Coalescer.create_slots ms.g P ms.pt 64 ModelType.INFERENCE [[2], [3]] l hl
  obtain ⟨c1, c2⟩ := coalesced_set_leader_emits_the_instruction ms.g P ms.pt l.c hs.1 hs.2
  exact ⟨st, P, ms, l, hst, hP, hms, hl, hs, c1, c2⟩

/-! ## Width of the memory and network instructions -/

theorem searchWidth_spec (length : Nat) :
    ∀ width, 1 ≤ width →
      ∃ W, searchWidth length width = some W ∧ 1 ≤ W ∧ W ≤ width ∧ W ∣ length
        ∧ ∀ d, W < d → d ≤ width → ¬ d ∣ length := by
  intro width
  induction width with
  | zero =>
    intro h
    omega
  | succ w ih =>
    intro _
    unfold searchWidth
    by_cases hdiv : length % (w + 1) = 0
    · rw [if_pos hdiv]
      exact ⟨w + 1, rfl, by omega, le_refl _, Nat.dvd_of_mod_eq_zero hdiv,
        fun d h1 h2 => by omega⟩
    · rw [if_neg hdiv]
      have hw : 1 ≤ w := by
        rcases Nat.eq_zero_or_pos w with h0 | h0
        · rw [h0] at hdiv
          exact absurd (Nat.mod_one length) hdiv
        · exact h0
      obtain ⟨W, h1, h2, h3, h4, h5⟩ := ih hw
      refine ⟨W, h1, h2, by omega, h4, ?_⟩
      intro d hd1 hd2
      rcases Nat.lt_or_ge d (w + 1) with h6 | h6
      · exact h5 d hd1 (by omega)
      · have : d = w + 1 := by omega
        rw [this]
        exact fun hd => hdiv (Nat.mod_eq_zero_of_dvd hd)

/-- Claim C15. For every length, the width search of the code generators of Load, Store,
Send and Receive terminates with the largest divisor `W` of the length with
`1 ≤ W ≤ 16`, and `W * (length / W) = length`; whenever one of the four code generators
returns a text, its width field is `W` and its `vec` field is `length / W`. -/
theorem codegen_width_is_largest_divisor_up_to_16 (g : Graph) (pt : Partitioner)
    (P : Placer) (mem : MemoryAllocator) (ra : RegisterAllocator) (op : Nat) :
    ∃ W, searchWidth (g.length op) 16 = some W ∧ 1 ≤ W ∧ W ≤ 16 ∧ W ∣ g.length op
      ∧ (∀ d, W < d → d ≤ 16 → ¬ d ∣ g.length op)
      ∧ W * (g.length op / W) = g.length op
      ∧ (∀ text, codegenLoad g ra op = some text → ∃ d1 r1 : Nat,
          text = "load(" ++ "d1=" ++ toString d1 ++ ", " ++ "r1=" ++ toString r1 ++ ", "
            ++ "load_width=" ++ toString W ++ ", "
            ++ "vec=" ++ toString (g.length op / W) ++ ")\n")
      ∧ (∀ text, codegenStore g ra op = some text → ∃ d1 r1 : Nat,
          text = "store(d1=" ++ toString d1 ++ ", " ++ "r1=" ++ toString r1 ++ ", "
            ++ "counter=" ++ toString (g.readers op).length ++ ", "
            ++ "store_width=" ++ toString W ++ ", "
            ++ "vec=" ++ toString (g.length op / W) ++ ")\n")
      ∧ (∀ text, codegenSend g pt P mem op = some text → ∃ memAddr vtileId targetAddr : Nat,
          text = "send(" ++ "mem_addr=" ++ toString memAddr ++ ", "
            ++ "vtile_id=" ++ toString vtileId ++ ", "
            ++ "send_width=" ++ toString W ++ ", "
            ++ "target_addr=" ++ toString targetAddr ++ ", "
            ++ "vec=" ++ toString (g.length op / W) ++ ")\n")
      ∧ (∀ text, codegenReceive g pt P mem op = some text → ∃ memAddr vtileId : Nat,
          text = "receive(mem_addr=" ++ toString memAddr ++ ", "
            ++ "vtile_id=" ++ toString vtileId ++ ", "
            ++ "receive_width=" ++ toString W ++ ", "
            ++ "counter=" ++ toString (g.readers op).length ++ ", "
            ++ "vec=" ++ toString (g.length op / W) ++ ")\n") := by
  obtain ⟨W, h1, h2, h3, h4, h5⟩ := searchWidth_spec (g.length op) 16 (by decide)
  refine ⟨W, h1, h2, h3, h4, h5, Nat.mul_div_cancel' h4, ?_, ?_, ?_, ?_⟩
  · intro text ht
    unfold codegenLoad MAX_LOAD_STORE_WIDTH at ht
    rw [h1] at ht
    simp only [Option.some_bind, Option.bind_eq_some, Option.map_eq_some'] at ht
    obtain ⟨d1, _, a, _, r1, _, e⟩ := ht
    exact ⟨d1, r1, e.symm⟩
  · intro text ht
    unfold codegenStore MAX_LOAD_STORE_WIDTH at ht
    rw [h1] at ht
    simp only [Option.some_bind, Option.bind_eq_some, Option.map_eq_some'] at ht
    obtain ⟨a, _, d1, _, b, _, r1, _, e⟩ := ht
    exact ⟨d1, r1, e.symm⟩
  · intro text ht
    unfold codegenSend MAX_SEND_RECV_WIDTH at ht
    rw [h1] at ht
    simp only [Option.some_bind, Option.bind_eq_some, Option.map_eq_some'] at ht
    obtain ⟨a, _, m, _, v, _, d, _, t, _, e⟩ := ht
    exact ⟨m, v, t, e.symm⟩
  · intro text ht
    unfold codegenReceive MAX_SEND_RECV_WIDTH at ht
    rw [h1] at ht
    simp only [Option.some_bind, Option.bind_eq_some, Option.map_eq_some'] at ht
    obtain ⟨m, _, s, _, v, _, e⟩ := ht
    exact ⟨m, v, e.symm⟩

/-! ## Evaluations of the coalescer and the code generator on example programs -/

/-- Claim C14 (counterexample). For `y = M * x` with a matrix of two by two tiles, whose
four MVMs are on the physical MVMUs 0 to 3 of one core, the hint-based phase retains no
coalesced set, and the instruction stream of the core has one MVM instruction, not two. -/
theorem hint_phase_retains_no_set_of_four_tile_multiply :
    ((Partitioner.create fourTileGraph 64 ModelType.INFERENCE [0, 1, 2, 3]
        fourTileUsers).bind fun st =>
      (Placer.create ModelType.INFERENCE
        { nVMVMUs := st.pt.nVMVMUs, nVCores := st.pt.nVCores, nVTiles := st.pt.nVTiles,
          vmvmu2vcore := st.pt.vmvmu2vcore, vcore2vtile := st.pt.vcore2vtile }).bind fun P =>
      (MemoryAllocator.create st).bind fun ms =>
      ([[3, 4, 6, 7]].foldlM (coalesceHintSet P ms.pt)
        { Coalescer.none with coalescedMVMSets := List.replicate P.nPCores [] }).map fun c =>
        c.coalescedMVMSets.flatten.length) = some 0
    ∧ (compileToLists fourTileGraph 64 ModelType.INFERENCE [0, 1, 2, 3] fourTileUsers
        [[3, 4, 6, 7]] true).bind (fun r =>
          (((r.L.getCoreOperationList 2 0).filter fun op => (r.L.g.cls op).isMVM).mapM
            (codegenMVM r.P r.L.pt r.c)).map fun texts =>
            (texts.filter fun text => text ≠ "").length) = some 1
    ∧ (0 : Nat) ≠ 2 ∧ (1 : Nat) ≠ 2 := by
  decide

/-- Claim C14 (amended). For `y = M * x` with a matrix of two by two tiles the four MVMs are
on the physical MVMUs 0 to 3 of core 0 of tile 2. The hint-based phase puts them into one
set, which is not complete and is discarded: afterwards no MVM has a coalesced set. The
greedy phase puts the four MVMs into one set, and the instruction stream of the core has
exactly one MVM instruction, `mvm(['111100'])`, emitted by the leader 3. -/
theorem four_tile_multiply_is_coalesced_into_one_instruction :
    (compileToLists fourTileGraph 64 ModelType.INFERENCE [0, 1, 2, 3] fourTileUsers
        [[3, 4, 6, 7]] true).map (fun r =>
          ([3, 4, 6, 7].map (r.P.getPMVMU r.L.pt), [3, 4, 6, 7].map (r.P.coreIndex r.L.pt)))
      = some ([some 0, some 1, some 2, some 3], [some 16, some 16, some 16, some 16])
    ∧ ((Partitioner.create fourTileGraph 64 ModelType.INFERENCE [0, 1, 2, 3]
        fourTileUsers).bind fun st =>
      (Placer.create ModelType.INFERENCE
        { nVMVMUs := st.pt.nVMVMUs, nVCores := st.pt.nVCores, nVTiles := st.pt.nVTiles,
          vmvmu2vcore := st.pt.vmvmu2vcore, vcore2vtile := st.pt.vcore2vtile }).bind fun P =>
      (MemoryAllocator.create st).bind fun ms =>
      ([[3, 4, 6, 7]].foldlM (coalesceHintSet P ms.pt)
        { Coalescer.none with coalescedMVMSets := List.replicate P.nPCores [] }).map fun c =>
        (c.coalescedMVMSets.flatten, [3, 4, 6, 7].map c.coalescedSet, c.isCompleteMVM 0))
      = some ([], [none, none, none, none], false)
    ∧ (compileToLists fourTileGraph 64 ModelType.INFERENCE [0, 1, 2, 3] fourTileUsers
        [[3, 4, 6, 7]] true).map (fun r =>
          (r.c.coalescedMVMSets.flatten, r.c.mvms 1, [3, 4, 6, 7].map r.c.coalescedSet))
      = some ([1], [some 3, some 4, some 6, some 7, none, none],
          [some 1, some 1, some 1, some 1])
    ∧ (compileToLists fourTileGraph 64 ModelType.INFERENCE [0, 1, 2, 3] fourTileUsers
        [[3, 4, 6, 7]] true).bind (fun r =>
          (((r.L.getCoreOperationList 2 0).filter fun op => (r.L.g.cls op).isMVM).mapM
            (codegenMVM r.P r.L.pt r.c)).map fun texts =>
            ((r.L.getCoreOperationList 2 0).filter fun op => (r.L.g.cls op).isMVM, texts))
      = some ([3, 4, 6, 7], ["mvm(['111100'])\n", "", "", ""]) := by
  decide

/-- Claim C16 (evaluation). For a training operation of type MVM on physical MVMU 0 that
belongs to no coalesced set, `codegen(TrainingMatrixOperation*)` returns
`train(['100'000])`: the closing quote of each group of bits is missing. For the coalesced
set whose only member is that operation, `codegen(CoalescedTrainingOperationSet*)` returns
`train(['100''000'])`. The two texts differ. -/
theorem codegen_training_without_set_omits_closing_quotes :
    codegenTraining onePlacer reusedMatrixState.pt Coalescer.none 2 OpType.MVM
      = some "train(['100'000])\n"
    ∧ codegenCoalescedTrainingSet
        { Coalescer.none with
            trainOps := fun _ => [some 2, none, none, none, none, none]
            coalescedTrainingSet := fun op => if op = 2 then some 0 else none } 0
      = some "train(['100''000'])\n"
    ∧ codegenTraining onePlacer reusedMatrixState.pt
        { Coalescer.none with
            trainOps := fun _ => [some 2, none, none, none, none, none]
            coalescedTrainingSet := fun op => if op = 2 then some 0 else none } 2 OpType.MVM
      = some "train(['100''000'])\n"
    ∧ "train(['100'000])\n" ≠ "train(['100''000'])\n" := by
  decide

/-- Claim C18 (evaluation). For the training program `M -= OuterProduct(x, x)` compiled
without coalescing, both operands of the outer product 2 are the Copy 8, the reserved
register passes complete on the list of the core, and the Copy 8 has the register
`INPUT_REGISTERS_START_ADDRESS + (3*0+2)*128 = 256`: the producer of operand 1 is not in
the output region at `OUTPUT_REGISTERS_START_ADDRESS + (3*0+2)*128 = 1024`. For
`M -= OuterProduct(x, y)` the producers of the operands have the registers 256 and 1024,
and the outer product has no register. -/
theorem outer_product_with_one_producer_for_both_operands :
    (compileToLists selfOuterProductGraph 64 ModelType.TRAINING [0] selfOuterProductTileUsers
        [] false).bind (fun r =>
          (allocateReservedInputRegisters r.L.g r.L.pt r.P RegisterAllocator.empty
            (r.L.getCoreOperationList 2 0)).bind fun ra =>
          (allocateReservedOutputRegisters r.L.g r.L.pt r.P ra
            (r.L.getCoreOperationList 2 0)).map fun ra =>
            (r.L.g.operands 2, (r.L.g.operands 2).map ra.op2reg, r.P.getPMVMU r.L.pt 2,
              ra.op2reg 2))
      = some ([8, 8], [some 256, some 256], some 0, none)
    ∧ (compileToLists outerProductGraph 64 ModelType.TRAINING [0] outerProductTileUsers
        [] false).bind (fun r =>
          (allocateReservedInputRegisters r.L.g r.L.pt r.P RegisterAllocator.empty
            (r.L.getCoreOperationList 2 0)).bind fun ra =>
          (allocateReservedOutputRegisters r.L.g r.L.pt r.P ra
            (r.L.getCoreOperationList 2 0)).map fun ra =>
            ((r.L.g.operands 3).map ra.op2reg, r.P.getPMVMU r.L.pt 3, ra.op2reg 3))
      = some ([some 256, some 1024], some 0, none)
    ∧ (compileToLists selfOuterProductGraph 64 ModelType.TRAINING [0]
        selfOuterProductTileUsers [] true).isSome = false
    ∧ OUTPUT_REGISTERS_START_ADDRESS + (3 * 0 + 2) * MVMU_DIM = 1024 := by
  decide

/-! ## Register regions -/

theorem CoreAllocator.scan_spec (a : CoreAllocator) :
    ∀ n j, j + n ≤ REGISTERS_PER_CORE → ∃ k, a.scan n j = some k ∧ j ≤ k ∧ k ≤ j + n := by
  intro n
  induction n with
  | zero =>
    intro j _
    exact ⟨j, rfl, le_refl _, le_refl _⟩
  | succ n ih =>
    intro j hj
    unfold CoreAllocator.scan
    rw [if_pos (by omega)]
    by_cases hb : a.memPool j = true
    · rw [if_pos hb]
      exact ⟨j, rfl, le_refl _, by omega⟩
    · rw [if_neg hb]
      obtain ⟨k, h1, h2, h3⟩ := ih (j + 1) (by omega)
      exact ⟨k, h1, by omega, by omega⟩

theorem CoreAllocator.allocateFrom_spec (a : CoreAllocator) (size last : Nat)
    (hlast : last + size ≤ REGISTER_FILE_SIZE) :
    ∀ fuel i, 1 ≤ fuel → last + 1 < i + fuel →
      ∃ reg a', a.allocateFrom size last fuel i = some (reg, a')
        ∧ (reg = OUT_OF_REGISTERS
          ∨ (REGISTER_FILE_START_ADDRESS ≤ reg ∧ reg + size ≤ REGISTERS_PER_CORE)) := by
  intro fuel
  induction fuel with
  | zero =>
    intro i h0 _
    omega
  | succ fuel ih =>
    intro i _ hi
    unfold CoreAllocator.allocateFrom
    by_cases hle : i ≤ last
    · rw [if_pos hle]
      have hreg : REGISTER_FILE_SIZE = 1536 := by decide
      have hper : REGISTERS_PER_CORE = 3072 := by decide
      have hstart : REGISTER_FILE_START_ADDRESS = 1536 := by decide
      obtain ⟨k, h1, h2, h3⟩ := a.scan_spec size i (by omega)
      rw [h1]
      simp only [Option.some_bind]
      by_cases hk : k = i + size
      · rw [if_pos hk]
        refine ⟨_, _, rfl, Or.inr ?_⟩
        rw [hstart, hper]
        unfold UINT_MOD
        omega
      · rw [if_neg hk]
        exact ih (k + 1) (by omega) (by omega)
    · rw [if_neg hle]
      exact ⟨_, _, rfl, Or.inl rfl⟩

theorem CoreAllocator.allocate_spec (a : CoreAllocator) (size : Nat)
    (hsize : size ≤ REGISTER_FILE_SIZE) :
    ∃ reg a', a.allocate size = some (reg, a')
      ∧ (reg = OUT_OF_REGISTERS
        ∨ (REGISTER_FILE_START_ADDRESS ≤ reg ∧ reg + size ≤ REGISTERS_PER_CORE)) := by
  have hreg : REGISTER_FILE_SIZE = 1536 := by decide
  have hper : REGISTERS_PER_CORE = 3072 := by decide
  rw [hreg] at hsize
  have hlast : (REGISTER_FILE_SIZE + UINT_MOD - size) % UINT_MOD = 1536 - size := by
    rw [hreg]
    unfold UINT_MOD
    omega
  unfold CoreAllocator.allocate
  rw [hlast]
  exact a.allocateFrom_spec size (1536 - size) (by omega) _ 0 (by omega) (by omega)

/-- Claim C17. `N_INPUT_REGISTERS` is `128 * max(6, 3*2) = 768`. For a physical MVMU below
the per-core count, the window of `MVMU_DIM` registers that starts at the reserved input
register of a matrix operation lies in `[0, N_INPUT_REGISTERS)` and the window at its
reserved output register lies in `[N_INPUT_REGISTERS, N_INPUT_REGISTERS +
N_OUTPUT_REGISTERS)`; the windows of different physical MVMUs (inference) and of different
pairs of physical MVMU and operation type (training) are disjoint; and a request of at most
`REGISTER_FILE_SIZE` registers to the general allocator returns `OUT_OF_REGISTERS` or a
range inside `[REGISTER_FILE_START_ADDRESS, REGISTERS_PER_CORE)`. -/
theorem register_regions_do_not_overlap (g : Graph) (a : CoreAllocator)
    (pI qI pT qT size : Nat) (t u : OpType)
    (hpI : pI < N_CONSTANT_MVMUS_PER_CORE) (hpT : pT < N_TRAINING_MVMUS_PER_CORE)
    (hsize : size ≤ REGISTER_FILE_SIZE) :
    (N_INPUT_REGISTERS = 768
      ∧ N_INPUT_REGISTERS = MVMU_DIM * max N_CONSTANT_MVMUS_PER_CORE
          (N_TRAINING_OPERATIONS * N_TRAINING_MVMUS_PER_CORE))
    ∧ (∀ producer consumer, g.cls consumer = OpClass.MVMOperation →
        reservedInputRegister g producer consumer pI = some (pI * MVMU_DIM)
        ∧ pI * MVMU_DIM + MVMU_DIM ≤ N_INPUT_REGISTERS)
    ∧ (∀ producer consumer, g.cls consumer = OpClass.TrainingMatrixOperation t →
        (t = OpType.OUTER_PRODUCT → (g.operands consumer)[0]? = some producer) →
        reservedInputRegister g producer consumer pT
          = some ((pT * N_TRAINING_OPERATIONS + t.toNat) * MVMU_DIM)
        ∧ (pT * N_TRAINING_OPERATIONS + t.toNat) * MVMU_DIM + MVMU_DIM ≤ N_INPUT_REGISTERS)
    ∧ (∀ producer, g.cls producer = OpClass.MVMOperation →
        reservedOutputRegister g producer pI = some (N_INPUT_REGISTERS + pI * MVMU_DIM)
        ∧ N_INPUT_REGISTERS + pI * MVMU_DIM + MVMU_DIM
            ≤ N_INPUT_REGISTERS + N_OUTPUT_REGISTERS)
    ∧ (∀ producer, g.cls producer = OpClass.TrainingMatrixOperation t →
        t ≠ OpType.OUTER_PRODUCT →
        reservedOutputRegister g producer pT
          = some (N_INPUT_REGISTERS + (pT * N_TRAINING_OPERATIONS + t.toNat) * MVMU_DIM)
        ∧ N_INPUT_REGISTERS + (pT * N_TRAINING_OPERATIONS + t.toNat) * MVMU_DIM + MVMU_DIM
            ≤ N_INPUT_REGISTERS + N_OUTPUT_REGISTERS)
    ∧ (pI ≠ qI → pI * MVMU_DIM + MVMU_DIM ≤ qI * MVMU_DIM
        ∨ qI * MVMU_DIM + MVMU_DIM ≤ pI * MVMU_DIM)
    ∧ ((pT, t) ≠ (qT, u) →
        (pT * N_TRAINING_OPERATIONS + t.toNat) * MVMU_DIM + MVMU_DIM
            ≤ (qT * N_TRAINING_OPERATIONS + u.toNat) * MVMU_DIM
        ∨ (qT * N_TRAINING_OPERATIONS + u.toNat) * MVMU_DIM + MVMU_DIM
            ≤ (pT * N_TRAINING_OPERATIONS + t.toNat) * MVMU_DIM)
    ∧ ∃ reg a', a.allocate size = some (reg, a')
        ∧ (reg = OUT_OF_REGISTERS
          ∨ (REGISTER_FILE_START_ADDRESS ≤ reg ∧ reg + size ≤ REGISTERS_PER_CORE)) := by
  have hin : N_INPUT_REGISTERS = 768 := by decide
  have hout : N_OUTPUT_REGISTERS = 768 := by decide
  have hostart : OUTPUT_REGISTERS_START_ADDRESS = 768 := by decide
  have histart : INPUT_REGISTERS_START_ADDRESS = 0 := rfl
  have hdim : MVMU_DIM = 128 := rfl
  have hops : N_TRAINING_OPERATIONS = 3 := rfl
  have hI : N_CONSTANT_MVMUS_PER_CORE = 6 := rfl
  have hT : N_TRAINING_MVMUS_PER_CORE = 2 := rfl
  rw [hI] at hpI
  rw [hT] at hpT
  have ht : t.toNat ≤ 2 := by cases t <;> decide
  have hu : u.toNat ≤ 2 := by cases u <;> decide
  refine ⟨⟨hin, by decide⟩, ?_, ?_, ?_, ?_, ?_, ?_, a.allocate_spec size hsize⟩
  · intro producer consumer hc
    unfold reservedInputRegister
    rw [hc, hin, histart, hdim]
    refine ⟨?_, by omega⟩
    simp only [Option.some.injEq]
    unfold UINT_MOD
    omega
  · intro producer consumer hc ho
    rw [hin, hops, hdim]
    refine ⟨?_, by omega⟩
    unfold reservedInputRegister
    rw [hc, histart, hops, hdim]
    cases t with
    | MVM =>
      simp only [Option.some.injEq, OpType.toNat]
      unfold UINT_MOD
      omega
    | MVM_TRANSPOSE =>
      simp only [Option.some.injEq, OpType.toNat]
      unfold UINT_MOD
      omega
    | OUTER_PRODUCT =>
      simp only [ho rfl, if_true, Option.some.injEq, OpType.toNat]
      unfold UINT_MOD
      omega
  · intro producer hc
    unfold reservedOutputRegister
    rw [hc, hin, hout, hostart, hdim]
    refine ⟨?_, by omega⟩
    simp only [Option.some.injEq]
    unfold UINT_MOD
    omega
  · intro producer hc hne
    rw [hin, hout, hops, hdim]
    refine ⟨?_, by omega⟩
    unfold reservedOutputRegister
    rw [hc, hostart, hops, hdim]
    cases t with
    | MVM =>
      simp only [Option.some.injEq, OpType.toNat]
      unfold UINT_MOD
      omega
    | MVM_TRANSPOSE =>
      simp only [Option.some.injEq, OpType.toNat]
      unfold UINT_MOD
      omega
    | OUTER_PRODUCT => exact absurd rfl hne
  · intro hne
    rw [hdim]
    omega
  · intro hne
    rw [hdim, hops]
    have hne' : pT * 3 + t.toNat ≠ qT * 3 + u.toNat := by
      intro e
      apply hne
      have h1 : pT = qT := by omega
      have h2 : t.toNat = u.toNat := by omega
      have h3 : t = u := by
        cases t <;> cases u <;> simp_all [OpType.toNat]
      rw [h1, h3]
    omega

theorem register_regions_do_not_overlap_witness :
    (1 < N_CONSTANT_MVMUS_PER_CORE ∧ 0 < N_TRAINING_MVMUS_PER_CORE
      ∧ 128 ≤ REGISTER_FILE_SIZE)
    ∧ (N_INPUT_REGISTERS = 768
      ∧ N_INPUT_REGISTERS = MVMU_DIM * max N_CONSTANT_MVMUS_PER_CORE
          (N_TRAINING_OPERATIONS * N_TRAINING_MVMUS_PER_CORE))
    ∧ (reservedInputRegister reusedMatrixGraph 1 2 1 = some (1 * MVMU_DIM)
        ∧ 1 * MVMU_DIM + MVMU_DIM ≤ N_INPUT_REGISTERS)
    ∧ (reservedOutputRegister reusedMatrixGraph 2 1 = some (N_INPUT_REGISTERS + 1 * MVMU_DIM)
        ∧ N_INPUT_REGISTERS + 1 * MVMU_DIM + MVMU_DIM
            ≤ N_INPUT_REGISTERS + N_OUTPUT_REGISTERS)
    ∧ ∃ reg a', (CoreAllocator.mk fun _ => false).allocate 128 = some (reg, a')
        ∧ (reg = OUT_OF_REGISTERS
          ∨ (REGISTER_FILE_START_ADDRESS ≤ reg ∧ reg + 128 ≤ REGISTERS_PER_CORE)) :=
  have h := register_regions_do_not_overlap reusedMatrixGraph (CoreAllocator.mk fun _ => false)
    1 2 0 1 128 OpType.MVM OpType.MVM_TRANSPOSE (by decide) (by decide) (by decide)
  ⟨⟨by decide, by decide, by decide⟩, h.1, h.2.1 1 2 (by decide), h.2.2.2.1 2 (by decide),
    h.2.2.2.2.2.2.2⟩

/-! ## Tile memory allocation -/

/-- A loop in the `Option` monad that returns a state keeps an invariant indexed by the
elements processed so far. -/
theorem foldlM_prefix_invariant {α β : Type} (f : β → α → Option β)
    (Inv : β → List α → Prop) (l : List α) :
    ∀ (pre : List α) (b b' : β), Inv b pre →
      (∀ b done a b1, a ∈ l → Inv b done → f b a = some b1 → Inv b1 (done ++ [a])) →
      l.foldlM f b = some b' → Inv b' (pre ++ l) := by
  induction l with
  | nil =>
    intro pre b b' hb _ hr
    simp only [List.foldlM_nil, Option.pure_def, Option.some.injEq] at hr
    rw [← hr, List.append_nil]
    exact hb
  | cons a l ih =>
    intro pre b b' hb hstep hr
    simp only [List.foldlM_cons, Option.bind_eq_bind, Option.bind_eq_some] at hr
    obtain ⟨b1, h1, h2⟩ := hr
    have := ih (pre ++ [a]) b1 b' (hstep b pre a b1 (List.mem_cons_self _ _) hb h1)
      (fun b done x b2 hx => hstep b done x b2 (List.mem_cons_of_mem _ hx)) h2
    simpa using this

theorem MemoryAllocator.memalloc_spec (m : MemoryAllocator) (vTile size address : Nat)
    (m' : MemoryAllocator) (h : m.memalloc vTile size = some (address, m')) :
    m.vTileAvailableMemory[vTile]? = some address
    ∧ m'.vTileAvailableMemory[vTile]? = some ((address + size) % UINT_MOD)
    ∧ (∀ t, t ≠ vTile → m'.vTileAvailableMemory[t]? = m.vTileAvailableMemory[t]?)
    ∧ m'.op2mem = m.op2mem := by
  unfold MemoryAllocator.memalloc at h
  simp only [Option.bind_eq_some, Option.map_eq_some', Prod.mk.injEq] at h
  obtain ⟨a, ha, v, hv, rfl, hm⟩ := h
  unfold vecSet at hv
  split at hv
  · rename_i hlt
    simp only [Option.some.injEq] at hv
    rw [← hm, ← hv]
    refine ⟨ha, ?_, ?_, rfl⟩
    · simp [hlt]
    · intro t ht
      simp only
      rw [List.getElem?_set_ne (fun e => ht e.symm)]
  · exact absurd hv (by simp)

theorem cloneAssignment_frame (a a' : Nat → Option Nat) (cloneFrom cloneTo : Nat)
    (h : cloneAssignment a cloneFrom cloneTo = some a') :
    (∀ i, i ≠ cloneTo → a' i = a i)
    ∧ (∀ v, a cloneFrom = some v → a' cloneTo = some v) := by
  cases hf : a cloneFrom with
  | none =>
    simp only [cloneAssignment, hf, Option.some.injEq] at h
    rw [← h]
    exact ⟨fun _ _ => rfl, fun v hv => absurd hv (by simp)⟩
  | some v =>
    simp only [cloneAssignment, hf, assignVMVMU] at h
    split at h
    · exact absurd h (by simp)
    · simp only [Option.some.injEq] at h
      rw [← h]
      refine ⟨fun i hi => upd_other _ _ hi, fun w hw => ?_⟩
      rw [upd_same, ← Option.some.inj hw]

theorem foldlM_split_invariant {α β : Type} (f : β → α → Option β)
    (Inv : β → List α → Prop) (l : List α) :
    ∀ (pre : List α) (b b' : β), Inv b pre →
      (∀ b done a rest b1, pre ++ l = done ++ a :: rest → Inv b done → f b a = some b1 →
        Inv b1 (done ++ [a])) →
      l.foldlM f b = some b' → Inv b' (pre ++ l) := by
  induction l with
  | nil =>
    intro pre b b' hb _ hr
    simp only [List.foldlM_nil, Option.pure_def, Option.some.injEq] at hr
    rw [← hr, List.append_nil]
    exact hb
  | cons a l ih =>
    intro pre b b' hb hstep hr
    simp only [List.foldlM_cons, Option.bind_eq_bind, Option.bind_eq_some] at hr
    obtain ⟨b1, h1, h2⟩ := hr
    have := ih (pre ++ [a]) b1 b' (hstep b pre a l b1 rfl hb h1)
      (fun b done x rest b2 hx => hstep b done x rest b2 (by simpa using hx)) h2
    simpa using this

theorem MState.Grows.refl (s : MState) : s.Grows s where
  fresh_le := le_refl _
  cls := fun _ _ => rfl
  length := fun _ _ => rfl
  imm := fun _ _ => rfl
  srcs := fun _ _ => rfl
  readers := fun _ _ => rfl
  assign := fun _ _ => rfl
  vcore := rfl
  vtile := rfl

theorem MState.Grows.trans {s1 s2 s3 : MState} (h1 : s1.Grows s2) (h2 : s2.Grows s3) :
    s1.Grows s3 where
  fresh_le := le_trans h1.fresh_le h2.fresh_le
  cls := fun i hi => by rw [h2.cls i (lt_of_lt_of_le hi h1.fresh_le), h1.cls i hi]
  length := fun i hi => by rw [h2.length i (lt_of_lt_of_le hi h1.fresh_le), h1.length i hi]
  imm := fun i hi => by rw [h2.imm i (lt_of_lt_of_le hi h1.fresh_le), h1.imm i hi]
  srcs := fun i hi => by rw [h2.srcs i (lt_of_lt_of_le hi h1.fresh_le), h1.srcs i hi]
  readers := fun i hi => by
    rw [h2.readers i (lt_of_lt_of_le hi h1.fresh_le), h1.readers i hi]
  assign := fun i hi => by rw [h2.assign i (lt_of_lt_of_le hi h1.fresh_le), h1.assign i hi]
  vcore := by rw [h2.vcore, h1.vcore]
  vtile := by rw [h2.vtile, h1.vtile]

theorem Partitioner.cloneAssignment_tables (pt pt' : Partitioner) (cloneFrom cloneTo : Nat)
    (h : pt.cloneAssignment cloneFrom cloneTo = some pt') :
    (∀ i, i ≠ cloneTo → pt'.op2vmvmu i = pt.op2vmvmu i)
    ∧ (∀ v, pt.op2vmvmu cloneFrom = some v → pt'.op2vmvmu cloneTo = some v)
    ∧ pt'.vmvmu2vcore = pt.vmvmu2vcore ∧ pt'.vcore2vtile = pt.vcore2vtile := by
  unfold Partitioner.cloneAssignment at h
  simp only [Option.map_eq_some'] at h
  obtain ⟨a', ha, hpt⟩ := h
  obtain ⟨f1, f2⟩ := Puma.cloneAssignment_frame _ _ _ _ ha
  rw [← hpt]
  exact ⟨f1, f2, rfl, rfl⟩

/-- The creation of the address operand of a Load or of a Store in `memoryAllocation`:
a SetImmediate of length 1 at the fresh address. -/
theorem MState.Grows.ofAddressOperand (s : MState) (address op : Nat) (pt : Partitioner)
    (g : Graph) (hpt : s.pt.cloneAssignment op (s.g.newSetImmediate address 1).1 = some pt)
    (hg : g.fresh = s.g.fresh + 1)
    (hcls : g.cls = (s.g.newSetImmediate address 1).2.cls)
    (hlen : g.length = (s.g.newSetImmediate address 1).2.length)
    (himm : g.imm = (s.g.newSetImmediate address 1).2.imm)
    (hsrcs : g.srcs = (s.g.newSetImmediate address 1).2.srcs)
    (hreaders : g.readers = (s.g.newSetImmediate address 1).2.readers)
    (mem : MemoryAllocator) :
    s.Grows (MState.mk g pt mem) := by
  obtain ⟨f1, _, f3, f4⟩ := Partitioner.cloneAssignment_tables _ _ _ _ hpt
  have hid : (s.g.newSetImmediate address 1).1 = s.g.fresh := rfl
  constructor
  · show s.g.fresh ≤ g.fresh
    omega
  · intro i hi
    show g.cls i = _
    rw [hcls]
    exact upd_other _ _ (by omega)
  · intro i hi
    show g.length i = _
    rw [hlen]
    exact upd_other _ _ (by omega)
  · intro i hi
    show g.imm i = _
    rw [himm]
    show upd (upd s.g.imm s.g.fresh 0) s.g.fresh address i = _
    rw [upd_other _ _ (by omega), upd_other _ _ (by omega)]
  · intro i hi
    show g.srcs i = _
    rw [hsrcs]
    exact upd_other _ _ (by omega)
  · intro i hi
    show g.readers i = _
    rw [hreaders]
    exact upd_other _ _ (by omega)
  · intro i hi
    exact f1 i (by rw [hid]; omega)
  · exact f3
  · exact f4

theorem memoryAllocationReader_grows (address : Nat) (s s' : MState) (read : Nat)
    (h : memoryAllocationReader address s read = some s') :
    s.Grows s' ∧ s'.mem = s.mem := by
  unfold memoryAllocationReader at h
  by_cases hc : s.g.cls read = OpClass.LoadOperation
  · rw [if_pos hc] at h
    simp only [Option.bind_eq_some, Option.map_eq_some'] at h
    obtain ⟨pt, hpt, g, hg, hs⟩ := h
    unfold Graph.addLoadAddressOperand at hg
    split at hg
    · simp only [Option.some.injEq] at hg
      subst hg
      subst hs
      exact ⟨by apply MState.Grows.ofAddressOperand s address read _ _ hpt <;> rfl, rfl⟩
    · exact absurd hg (by simp)
  · rw [if_neg hc] at h
    simp only [Option.some.injEq] at h
    subst h
    exact ⟨MState.Grows.refl _, rfl⟩

theorem memoryAllocationReaders_grows (address : Nat) (l : List Nat) (s s' : MState)
    (h : l.foldlM (memoryAllocationReader address) s = some s') :
    s.Grows s' ∧ s'.mem = s.mem := by
  refine foldlM_preserves (memoryAllocationReader address)
    (fun x => s.Grows x ∧ x.mem = s.mem) ?_ l s s' ⟨MState.Grows.refl _, rfl⟩ h
  intro b a b' hb hstep
  obtain ⟨h1, h2⟩ := memoryAllocationReader_grows address b b' a hstep
  exact ⟨hb.1.trans h1, by rw [h2, hb.2]⟩

/-- One iteration of the loop of `MemoryAllocator::memoryAllocation` at a tile memory
write: the address is the pointer of the tile of the operation, which advances by the
length of the operation. -/
theorem memoryAllocationAt_write (s s' : MState) (op : Nat)
    (hw : (s.g.cls op).isTileMemoryWrite = true)
    (h : memoryAllocationAt s op = some s') :
    ∃ (t a : Nat), s.pt.getVTile op = some t
      ∧ s.mem.vTileAvailableMemory[t]? = some a
      ∧ s.mem.op2mem op = none
      ∧ s'.mem.op2mem = upd s.mem.op2mem op (some a)
      ∧ s'.mem.vTileAvailableMemory[t]? = some ((a + s.g.length op) % UINT_MOD)
      ∧ (∀ (u : Nat), u ≠ t → s'.mem.vTileAvailableMemory[u]? = s.mem.vTileAvailableMemory[u]?)
      ∧ s.Grows s' := by
  unfold memoryAllocationAt at h
  rw [if_pos hw] at h
  simp only [Option.bind_eq_some] at h
  obtain ⟨t, ht, ⟨a, m1⟩, hm1, m2, hm2, s1, hs1, hfold⟩ := h
  obtain ⟨p1, p2, p3, p4⟩ := MemoryAllocator.memalloc_spec _ _ _ _ _ hm1
  obtain ⟨g1, g2⟩ := memoryAllocationReaders_grows _ _ _ _ hfold
  unfold MemoryAllocator.assignTileMemoryAddress at hm2
  have hnone : m1.op2mem op = none := by
    by_contra hne
    rw [if_pos (Option.isSome_iff_ne_none.mpr hne)] at hm2
    exact absurd hm2 (by simp)
  rw [if_neg (by simp [hnone])] at hm2
  simp only [Option.some.injEq] at hm2
  have hs1' : s.Grows s1 ∧ s1.mem = m2 := by
    by_cases hc : s.g.cls op = OpClass.StoreOperation
    · rw [if_pos hc] at hs1
      simp only [Option.bind_eq_some, Option.map_eq_some'] at hs1
      obtain ⟨pt, hpt, g, hg, hs⟩ := hs1
      unfold Graph.addStoreAddressOperand at hg
      split at hg
      · simp only [Option.some.injEq] at hg
        subst hg
        subst hs
        exact ⟨by apply MState.Grows.ofAddressOperand s a op _ _ hpt <;> rfl, rfl⟩
      · exact absurd hg (by simp)
    · rw [if_neg hc] at hs1
      simp only [Option.some.injEq] at hs1
      subst hs1
      exact ⟨⟨le_refl _, fun _ _ => rfl, fun _ _ => rfl, fun _ _ => rfl, fun _ _ => rfl,
        fun _ _ => rfl, fun _ _ => rfl, rfl, rfl⟩, rfl⟩
  have hmem : s'.mem = m2 := by rw [g2, hs1'.2]
  refine ⟨t, a, ht, p1, by rw [← p4]; exact hnone, ?_, ?_, ?_, hs1'.1.trans g1⟩
  · rw [hmem, ← hm2, p4]
  · rw [hmem, ← hm2]
    exact p2
  · intro u hu
    rw [hmem, ← hm2]
    exact p3 u hu

theorem memoryAllocationAt_other (s s' : MState) (op : Nat)
    (hw : (s.g.cls op).isTileMemoryWrite = false)
    (h : memoryAllocationAt s op = some s') : s' = s := by
  unfold memoryAllocationAt at h
  rw [if_neg (by simp [hw])] at h
  simp only [Option.some.injEq] at h
  exact h.symm

theorem MState.Grows.getVTile {s s' : MState} (h : s.Grows s') (i : Nat)
    (hi : i < s.g.fresh) : s'.pt.getVTile i = s.pt.getVTile i := by
  unfold Partitioner.getVTile Partitioner.getVCore Partitioner.getVMVMU
  rw [h.assign i hi, h.vcore, h.vtile]

theorem tileMemoryDemand_append (g : Graph) (pt : Partitioner) (x y : List Nat) (t : Nat) :
    tileMemoryDemand g pt (x ++ y) t = tileMemoryDemand g pt x t + tileMemoryDemand g pt y t := by
  unfold tileMemoryDemand
  rw [List.filter_append, List.map_append, List.sum_append]

theorem tileMemoryDemand_cons (g : Graph) (pt : Partitioner) (w : Nat) (y : List Nat)
    (t : Nat) :
    tileMemoryDemand g pt (w :: y) t
      = (if (g.cls w).isTileMemoryWrite = true ∧ pt.getVTile w = some t then g.length w else 0)
        + tileMemoryDemand g pt y t := by
  unfold tileMemoryDemand
  by_cases h : (g.cls w).isTileMemoryWrite = true ∧ pt.getVTile w = some t
  · rw [if_pos h, List.filter_cons_of_pos (by simp [h.1, h.2])]
    simp
  · rw [if_neg h, List.filter_cons_of_neg (by simpa using h)]
    simp

theorem tileMemoryDemand_nil (g : Graph) (pt : Partitioner) (t : Nat) :
    tileMemoryDemand g pt [] t = 0 := rfl

theorem append_singleton_split {α : Type} (done pre post : List α) (op w : α)
    (h : done ++ [op] = pre ++ w :: post) :
    (post = [] ∧ pre = done ∧ w = op) ∨ ∃ post', post = post' ++ [op] ∧ done = pre ++ w :: post' := by
  rcases List.eq_nil_or_concat post with hp | ⟨post', x, hp⟩
  · subst hp
    left
    have := List.append_inj' h rfl
    exact ⟨rfl, this.1.symm, by simpa using this.2.symm⟩
  · right
    rw [List.concat_eq_append] at hp
    subst hp
    have h2 : done ++ [op] = (pre ++ w :: post') ++ [x] := by simpa using h
    have := List.append_inj' h2 rfl
    have hx : op = x := by simpa using this.2
    subst hx
    exact ⟨post', rfl, this.1⟩

theorem MemoryAllocationInv.next (st : PState)
    (hfresh : ∀ i, i ∈ st.g.operations → i < st.g.fresh)
    (hsize : ∀ t, tileMemoryDemand st.g st.pt st.g.operations t < UINT_MOD)
    (s s' : MState) (done : List Nat) (op : Nat) (rest : List Nat)
    (hsplit : st.g.operations = done ++ op :: rest)
    (hinv : MemoryAllocationInv st s done) (h : memoryAllocationAt s op = some s') :
    MemoryAllocationInv st s' (done ++ [op]) := by
  have hop : op < st.g.fresh := hfresh op (by rw [hsplit]; simp)
  have hcls : s.g.cls op = st.g.cls op := hinv.grows.cls op hop
  have hlen : s.g.length op = st.g.length op := hinv.grows.length op hop
  have htile : s.pt.getVTile op = st.pt.getVTile op := hinv.grows.getVTile op hop
  by_cases hw : (st.g.cls op).isTileMemoryWrite = true
  · obtain ⟨t, a, ht, hptr, hnone, hmem, hptr', hframe, hgrow⟩ :=
      memoryAllocationAt_write s s' op (by rw [hcls]; exact hw) h
    rw [htile] at ht
    rw [hlen] at hptr'
    have ha : a = tileMemoryDemand st.g st.pt done t := hinv.pointer t a hptr
    have hle : tileMemoryDemand st.g st.pt (done ++ [op]) t < UINT_MOD := by
      have := hsize t
      rw [hsplit, show done ++ op :: rest = (done ++ [op]) ++ rest by simp,
        tileMemoryDemand_append] at this
      omega
    have hdem : tileMemoryDemand st.g st.pt (done ++ [op]) t = a + st.g.length op := by
      rw [tileMemoryDemand_append, tileMemoryDemand_cons, if_pos ⟨hw, ht⟩,
        tileMemoryDemand_nil, ha]
      omega
    constructor
    · have := hinv.grows.trans hgrow
      exact ⟨this.fresh_le, this.cls, this.length, this.imm, this.srcs, this.readers,
        this.assign, this.vcore, this.vtile⟩
    · intro u b hb
      by_cases hu : u = t
      · subst hu
        rw [hptr'] at hb
        simp only [Option.some.injEq] at hb
        rw [← hb, hdem]
        exact Nat.mod_eq_of_lt (by rw [← hdem]; exact hle)
      · rw [hframe u hu] at hb
        rw [tileMemoryDemand_append, tileMemoryDemand_cons,
          if_neg (by rw [ht]; simp; intro _ h2; exact hu h2.symm), tileMemoryDemand_nil]
        exact hinv.pointer u b hb
    · intro pre w post hd hww
      rcases append_singleton_split done pre post op w hd with ⟨_, hpre, hwop⟩ | ⟨post', _, hd'⟩
      · subst hpre
        subst hwop
        exact ⟨t, ht, by rw [hmem, upd_same, ha]⟩
      · obtain ⟨u, hu, hadd⟩ := hinv.address pre w post' hd' hww
        have hne : w ≠ op := by
          intro he
          rw [he, hnone] at hadd
          exact absurd hadd (by simp)
        exact ⟨u, hu, by rw [hmem, upd_other _ _ hne]; exact hadd⟩
    · intro w b hb
      by_cases he : w = op
      · subst he
        exact ⟨by simp, hw⟩
      · rw [hmem, upd_other _ _ he] at hb
        obtain ⟨h1, h2⟩ := hinv.only w b hb
        exact ⟨List.mem_append_left _ h1, h2⟩
  · have hw' : (st.g.cls op).isTileMemoryWrite = false := by simpa using hw
    have hs : s' = s := memoryAllocationAt_other s s' op (by rw [hcls]; exact hw') h
    subst hs
    constructor
    · exact hinv.grows
    · intro u b hb
      rw [tileMemoryDemand_append, tileMemoryDemand_cons, if_neg (by simp [hw']),
        tileMemoryDemand_nil]
      exact hinv.pointer u b hb
    · intro pre w post hd hww
      rcases append_singleton_split done pre post op w hd with ⟨_, _, hwop⟩ | ⟨post', _, hd'⟩
      · subst hwop
        rw [hww] at hw'
        exact absurd hw' (by simp)
      · exact hinv.address pre w post' hd' hww
    · intro w b hb
      obtain ⟨h1, h2⟩ := hinv.only w b hb
      exact ⟨List.mem_append_left _ h1, h2⟩

theorem MemoryAllocationInv.ofCreate (st : PState)
    (hfresh : ∀ i, i ∈ st.g.operations → i < st.g.fresh)
    (hsize : ∀ t, tileMemoryDemand st.g st.pt st.g.operations t < UINT_MOD)
    (ms : MState) (h : MemoryAllocator.create st = some ms) :
    MemoryAllocationInv st ms st.g.operations := by
  unfold MemoryAllocator.create at h
  have := foldlM_split_invariant memoryAllocationAt (MemoryAllocationInv st) st.g.operations
    [] _ ms ?_ ?_ h
  · simpa using this
  · constructor
    · exact ⟨le_refl _, fun _ _ => rfl, fun _ _ => rfl, fun _ _ => rfl, fun _ _ => rfl,
        fun _ _ => rfl, fun _ _ => rfl, rfl, rfl⟩
    · intro t a ha
      rw [tileMemoryDemand_nil]
      have hmem := List.getElem?_mem ha
      exact (List.eq_of_mem_replicate hmem)
    · intro pre w post hd
      exact absurd hd (by simp)
    · intro w a ha
      exact absurd ha (by simp)
  · intro b done a rest b1 hsplit hinv hstep
    exact MemoryAllocationInv.next st hfresh hsize b b1 done a rest (by simpa using hsplit)
      hinv hstep

theorem tileMemoryDemand_le (g : Graph) (pt : Partitioner) (l : List Nat) (t : Nat) :
    tileMemoryDemand g pt l t ≤ (l.map g.length).sum := by
  induction l with
  | nil => simp [tileMemoryDemand]
  | cons w l ih =>
    rw [tileMemoryDemand_cons]
    simp only [List.map_cons, List.sum_cons]
    split <;> omega

/-- Of two tile memory writes of the same tile, the range of the one that
`MemoryAllocator::memoryAllocation` visits first ends at or below the start of the other. -/
theorem MemoryAllocationInv.ordered (st : PState) (s : MState) (pre mid post : List Nat)
    (w1 w2 t a1 a2 : Nat) (hinv : MemoryAllocationInv st s (pre ++ w1 :: (mid ++ w2 :: post)))
    (ht1 : st.pt.getVTile w1 = some t) (ht2 : st.pt.getVTile w2 = some t)
    (h1 : s.mem.op2mem w1 = some a1) (h2 : s.mem.op2mem w2 = some a2) :
    a1 + st.g.length w1 ≤ a2 := by
  have hw1 := (hinv.only w1 a1 h1).2
  have hw2 := (hinv.only w2 a2 h2).2
  obtain ⟨u1, hu1, hadd1⟩ := hinv.address pre w1 (mid ++ w2 :: post) rfl hw1
  obtain ⟨u2, hu2, hadd2⟩ := hinv.address (pre ++ w1 :: mid) w2 post (by simp) hw2
  rw [ht1] at hu1
  rw [ht2] at hu2
  simp only [Option.some.injEq] at hu1 hu2
  subst hu1
  subst hu2
  rw [h1] at hadd1
  rw [h2] at hadd2
  simp only [Option.some.injEq] at hadd1 hadd2
  rw [hadd1, hadd2, tileMemoryDemand_append, tileMemoryDemand_cons, if_pos ⟨hw1, ht1⟩]
  omega

/-- Claim C19. `MemoryAllocator::memalloc` returns the pointer of the virtual tile and
advances the pointer of that tile only, by the size (modulo `2^32`), and a first request
returns 0. Consequently, when `MemoryAllocator::memoryAllocation` runs to its end on a DAG
whose operations lie below the next fresh address and whose writes need fewer than `2^32`
words on each virtual tile: the address of a tile memory write is the number of words of
the writes of its virtual tile that precede it in iteration order; exactly the tile memory
writes of the DAG have an address; two distinct writes on the same virtual tile have
disjoint ranges `[address, address + length)`; and the address that a later request
(a spill Store) obtains lies at or above the end of the range of every write of that
tile. -/
theorem memory_allocation_gives_disjoint_ranges (st : PState) (ms : MState)
    (hfresh : ∀ i, i ∈ st.g.operations → i < st.g.fresh)
    (hsize : ∀ t, tileMemoryDemand st.g st.pt st.g.operations t < UINT_MOD)
    (h : MemoryAllocator.create st = some ms) :
    (∀ (m m' : MemoryAllocator) (vTile size address : Nat),
      m.memalloc vTile size = some (address, m') →
        m.vTileAvailableMemory[vTile]? = some address
        ∧ m'.vTileAvailableMemory[vTile]? = some ((address + size) % UINT_MOD)
        ∧ (∀ (u : Nat), u ≠ vTile → m'.vTileAvailableMemory[u]? = m.vTileAvailableMemory[u]?)
        ∧ m'.op2mem = m.op2mem)
    ∧ (∀ (m' : MemoryAllocator) (vTile size address : Nat),
        (MemoryAllocator.mk (fun _ => none) (List.replicate st.pt.nVTiles 0)).memalloc
          vTile size = some (address, m') → address = 0)
    ∧ (∀ (pre : List Nat) (w : Nat) (post : List Nat), st.g.operations = pre ++ w :: post →
        (ms.g.cls w).isTileMemoryWrite = true →
        ∃ t, ms.pt.getVTile w = some t
          ∧ ms.mem.getTileMemoryAddress w = some (tileMemoryDemand st.g st.pt pre t))
    ∧ (∀ (w a : Nat), ms.mem.getTileMemoryAddress w = some a →
        w ∈ st.g.operations ∧ (ms.g.cls w).isTileMemoryWrite = true)
    ∧ (∀ (w1 w2 t a1 a2 : Nat), w1 ≠ w2 →
        ms.pt.getVTile w1 = some t → ms.pt.getVTile w2 = some t →
        ms.mem.getTileMemoryAddress w1 = some a1 →
        ms.mem.getTileMemoryAddress w2 = some a2 →
        a1 + ms.g.length w1 ≤ a2 ∨ a2 + ms.g.length w2 ≤ a1)
    ∧ (∀ (w t a size address : Nat) (m' : MemoryAllocator),
        ms.pt.getVTile w = some t → ms.mem.getTileMemoryAddress w = some a →
        ms.mem.memalloc t size = some (address, m') →
        a + ms.g.length w ≤ address ∧ address < UINT_MOD) := by
  have hinv := MemoryAllocationInv.ofCreate st hfresh hsize ms h
  have hcls : ∀ w, w ∈ st.g.operations → ms.g.cls w = st.g.cls w :=
    fun w hw => hinv.grows.cls w (hfresh w hw)
  have hlen : ∀ w, w ∈ st.g.operations → ms.g.length w = st.g.length w :=
    fun w hw => hinv.grows.length w (hfresh w hw)
  have htile : ∀ w, w ∈ st.g.operations → ms.pt.getVTile w = st.pt.getVTile w :=
    fun w hw => hinv.grows.getVTile w (hfresh w hw)
  refine ⟨fun m m' vTile size address hm => MemoryAllocator.memalloc_spec m vTile size
    address m' hm, ?_, ?_, ?_, ?_, ?_⟩
  · intro m' vTile size address hm
    have := (MemoryAllocator.memalloc_spec _ vTile size address m' hm).1
    exact List.eq_of_mem_replicate (List.getElem?_mem this)
  · intro pre w post hsplit hw
    have hmem : w ∈ st.g.operations := by rw [hsplit]; simp
    rw [hcls w hmem] at hw
    rw [htile w hmem]
    exact hinv.address pre w post hsplit hw
  · intro w a ha
    obtain ⟨h1, h2⟩ := hinv.only w a ha
    exact ⟨h1, by rw [hcls w h1]; exact h2⟩
  · intro w1 w2 t a1 a2 hne ht1 ht2 h1 h2
    have hm1 := (hinv.only w1 a1 h1).1
    have hm2 := (hinv.only w2 a2 h2).1
    rw [htile w1 hm1] at ht1
    rw [htile w2 hm2] at ht2
    rw [hlen w1 hm1, hlen w2 hm2]
    obtain ⟨pre, post, hsplit⟩ := List.append_of_mem hm1
    rw [hsplit] at hm2 hinv
    rcases List.mem_append.mp hm2 with hp | hp
    · obtain ⟨x, y, hx⟩ := List.append_of_mem hp
      right
      rw [hx, show (x ++ w2 :: y) ++ w1 :: post = x ++ w2 :: (y ++ w1 :: post) by simp] at hinv
      exact MemoryAllocationInv.ordered st ms x y post w2 w1 t a2 a1 hinv ht2 ht1 h2 h1
    · rcases List.mem_cons.mp hp with hp | hp
      · exact absurd hp.symm hne
      · obtain ⟨x, y, hx⟩ := List.append_of_mem hp
        left
        rw [hx] at hinv
        exact MemoryAllocationInv.ordered st ms pre x y w1 w2 t a1 a2 hinv ht1 ht2 h1 h2
  · intro w t a size address m' ht ha hm
    have hptr := (MemoryAllocator.memalloc_spec _ t size address m' hm).1
    have hp := hinv.pointer t address hptr
    obtain ⟨hm1, hw⟩ := hinv.only w a ha
    rw [htile w hm1] at ht
    rw [hlen w hm1]
    obtain ⟨pre, post, hsplit⟩ := List.append_of_mem hm1
    obtain ⟨u, hu, hadd⟩ := hinv.address pre w post hsplit hw
    rw [ht] at hu
    simp only [Option.some.injEq] at hu
    subst hu
    have ha' : a = tileMemoryDemand st.g st.pt pre t := by
      have : ms.mem.op2mem w = some a := ha
      rw [this] at hadd
      exact Option.some.inj hadd
    have hs := hsize t
    rw [hsplit, tileMemoryDemand_append, tileMemoryDemand_cons, if_pos ⟨hw, ht⟩] at hp hs
    omega

theorem memory_allocation_gives_disjoint_ranges_witness :
    ∃ st ms,
      Partitioner.create twoSumsGraph 64 ModelType.INFERENCE [0, 1] twoSumsTileUsers = some st
      ∧ MemoryAllocator.create st = some ms
      ∧ (∀ i, i ∈ st.g.operations → i < st.g.fresh)
      ∧ (∀ t, tileMemoryDemand st.g st.pt st.g.operations t < UINT_MOD)
      ∧ (∀ (w1 w2 t a1 a2 : Nat), w1 ≠ w2 →
          ms.pt.getVTile w1 = some t → ms.pt.getVTile w2 = some t →
          ms.mem.getTileMemoryAddress w1 = some a1 →
          ms.mem.getTileMemoryAddress w2 = some a2 →
          a1 + ms.g.length w1 ≤ a2 ∨ a2 + ms.g.length w2 ≤ a1) := by
  have h : (compileToLists twoSumsGraph 64 ModelType.INFERENCE [0, 1] twoSumsTileUsers
      [[2], [3]] true).isSome = true := by decide
  have hd : (match Partitioner.create twoSumsGraph 64 ModelType.INFERENCE [0, 1]
      twoSumsTileUsers with
    | some st => (st.g.operations.all fun i => decide (i < st.g.fresh))
        && decide ((st.g.operations.map st.g.length).sum < UINT_MOD)
    | none => true) = true := by decide
  obtain ⟨r, hr⟩ := Option.isSome_iff_exists.mp h
  unfold compileToLists at hr
  simp only [Option.bind_eq_some, Option.map_eq_some', if_true] at hr
  obtain ⟨st, hst, P, hP, ms, hms, c, ⟨l, hl, _⟩, _⟩ := hr
  rw [hst] at hd
  simp only [Bool.and_eq_true, List.all_eq_true, decide_eq_true_eq] at hd
  have hsize : ∀ t, tileMemoryDemand st.g st.pt st.g.operations t < UINT_MOD :=
    fun t => lt_of_le_of_lt (tileMemoryDemand_le _ _ _ t) hd.2
  exact ⟨st, ms, hst, hms, hd.1, hsize,
    (memory_allocation_gives_disjoint_ranges st ms hd.1 hsize hms).2.2.2.2.1⟩

/-! ## Address operands of Loads and Stores -/

theorem MState.AddressOperand.mono {s s' : MState} {x seti a : Nat}
    (h : s.AddressOperand x seti a) (hg : s.Grows s') (hx : x < s.g.fresh) :
    s'.AddressOperand x seti a where
  lt := lt_of_lt_of_le h.lt hg.fresh_le
  cls := by rw [hg.cls seti h.lt]; exact h.cls
  length := by rw [hg.length seti h.lt]; exact h.length
  imm := by rw [hg.imm seti h.lt]; exact h.imm
  vmvmu := by
    intro v hv
    unfold Partitioner.getVMVMU at hv ⊢
    rw [hg.assign x hx] at hv
    rw [hg.assign seti h.lt]
    exact h.vmvmu v hv

/-- The creation of an address operand for the operation `x`, whose operand vector has the
length that `addTileMemoryAddressOperand` asserts. -/
theorem addressOperand_created (s : MState) (a x : Nat) (pt : Partitioner) (g : Graph)
    (mem : MemoryAllocator)
    (hpt : s.pt.cloneAssignment x (s.g.newSetImmediate a 1).1 = some pt)
    (hg : g = Graph.addUser
      { (s.g.newSetImmediate a 1).2 with
        operands := upd (s.g.newSetImmediate a 1).2.operands x
          ((s.g.newSetImmediate a 1).2.operands x ++ [(s.g.newSetImmediate a 1).1]) }
      (s.g.newSetImmediate a 1).1 x) :
    (∀ i, i ≠ x → i ≠ s.g.fresh → g.operands i = s.g.operands i)
    ∧ (x ≠ s.g.fresh → g.operands x = s.g.operands x ++ [s.g.fresh])
    ∧ (MState.mk g pt mem).AddressOperand x s.g.fresh a := by
  obtain ⟨f1, f2, _, _⟩ := Partitioner.cloneAssignment_tables _ _ _ _ hpt
  have hid : (s.g.newSetImmediate a 1).1 = s.g.fresh := rfl
  rw [hid] at f1 f2
  subst hg
  refine ⟨?_, ?_, ?_⟩
  · intro i hi hif
    show upd (upd s.g.operands s.g.fresh []) x _ i = _
    rw [upd_other _ _ hi, upd_other _ _ hif]
  · intro hx
    show upd (upd s.g.operands s.g.fresh []) x (upd s.g.operands s.g.fresh [] x ++ [s.g.fresh]) x
      = _
    rw [upd_same, upd_other _ _ hx]
  · constructor
    · show s.g.fresh < s.g.fresh + 1
      omega
    · show upd s.g.cls s.g.fresh OpClass.SetImmediateOperation s.g.fresh = _
      rw [upd_same]
    · show upd s.g.length s.g.fresh 1 s.g.fresh = _
      rw [upd_same]
    · show upd (upd s.g.imm s.g.fresh 0) s.g.fresh a s.g.fresh = _
      rw [upd_same]
    · intro v hv
      show pt.op2vmvmu s.g.fresh = some v
      by_cases hx : x = s.g.fresh
      · rw [← hx]
        exact hv
      · have hv' : pt.op2vmvmu x = some v := hv
        rw [f1 x hx] at hv'
        exact f2 v hv'

theorem memoryAllocationReader_load (a : Nat) (s s' : MState) (r : Nat)
    (hc : s.g.cls r = OpClass.LoadOperation)
    (h : memoryAllocationReader a s r = some s') :
    (∀ i, i ≠ r → i ≠ s.g.fresh → s'.g.operands i = s.g.operands i)
    ∧ (r ≠ s.g.fresh → s.g.operands r = [] ∧ s'.g.operands r = [s.g.fresh])
    ∧ s'.AddressOperand r s.g.fresh a := by
  unfold memoryAllocationReader at h
  rw [if_pos hc] at h
  simp only [Option.bind_eq_some, Option.map_eq_some'] at h
  obtain ⟨pt, hpt, g, hg, hs⟩ := h
  unfold Graph.addLoadAddressOperand at hg
  split at hg
  · rename_i hassert
    simp only [Option.some.injEq] at hg
    obtain ⟨c1, c2, c3⟩ := addressOperand_created s a r pt g s.mem hpt hg.symm
    subst hs
    refine ⟨c1, ?_, c3⟩
    intro hr
    have h0 : s.g.operands r = [] := by
      have : ((s.g.newSetImmediate a 1).2.operands r).length = 0 := hassert.1
      have h2 : (s.g.newSetImmediate a 1).2.operands r = s.g.operands r := upd_other _ _ hr
      rw [h2] at this
      exact List.length_eq_zero.mp this
    exact ⟨h0, by rw [c2 hr, h0]; rfl⟩
  · exact absurd hg (by simp)

theorem memoryAllocationReader_other (a : Nat) (s s' : MState) (r : Nat)
    (hc : s.g.cls r ≠ OpClass.LoadOperation)
    (h : memoryAllocationReader a s r = some s') : s' = s := by
  unfold memoryAllocationReader at h
  rw [if_neg hc] at h
  simp only [Option.some.injEq] at h
  exact h.symm

theorem ReaderLoopInv.readerStep (s0 : MState) (a : Nat) (s s' : MState) (done : List Nat) (r : Nat)
    (hinv : ReaderLoopInv s0 a s done) (h : memoryAllocationReader a s r = some s') :
    ReaderLoopInv s0 a s' (done ++ [r]) := by
  obtain ⟨hg, hm⟩ := memoryAllocationReader_grows a s s' r h
  by_cases hc : s.g.cls r = OpClass.LoadOperation
  · obtain ⟨c1, c2, c3⟩ := memoryAllocationReader_load a s s' r hc h
    constructor
    · exact hinv.grows.trans hg
    · rw [hm, hinv.mem]
    · intro i hi
      have hif : i ≠ s.g.fresh := by
        have := hinv.grows.fresh_le
        omega
      by_cases hir : i = r
      · subst hir
        right
        have hc0 : s0.g.cls i = OpClass.LoadOperation := by
          rw [← hinv.grows.cls i hi]; exact hc
        refine ⟨hc0, by simp, ?_⟩
        rcases hinv.operands i hi with h1 | h1
        · rw [← h1]
          exact (c2 hif).1
        · exact h1.2.2
      · rw [c1 i hir hif]
        rcases hinv.operands i hi with h1 | h1
        · exact Or.inl h1
        · exact Or.inr ⟨h1.1, List.mem_append_left _ h1.2.1, h1.2.2⟩
    · intro i hi hlt hci
      have hif : i ≠ s.g.fresh := by
        have := hinv.grows.fresh_le
        omega
      have hlt' : i < s.g.fresh := lt_of_lt_of_le hlt hinv.grows.fresh_le
      by_cases hir : i = r
      · subst hir
        exact ⟨s.g.fresh, (c2 hif).2, c3⟩
      · have hid : i ∈ done := by
          rcases List.mem_append.mp hi with h1 | h1
          · exact h1
          · exact absurd (List.mem_singleton.mp h1) hir
        obtain ⟨seti, h1, h2⟩ := hinv.loads i hid hlt hci
        exact ⟨seti, by rw [c1 i hir hif]; exact h1, h2.mono hg hlt'⟩
  · have hs := memoryAllocationReader_other a s s' r hc h
    subst hs
    constructor
    · exact hinv.grows
    · exact hinv.mem
    · intro i hi
      rcases hinv.operands i hi with h1 | h1
      · exact Or.inl h1
      · exact Or.inr ⟨h1.1, List.mem_append_left _ h1.2.1, h1.2.2⟩
    · intro i hi hlt hci
      have hid : i ∈ done := by
        rcases List.mem_append.mp hi with h1 | h1
        · exact h1
        · exfalso
          rw [List.mem_singleton.mp h1, ← hinv.grows.cls r (by
            rw [← List.mem_singleton.mp h1]; exact hlt)] at hci
          exact hc hci
      exact hinv.loads i hid hlt hci

theorem ReaderLoopInv.loop (s0 : MState) (a : Nat) (l : List Nat) (s' : MState)
    (h : l.foldlM (memoryAllocationReader a) s0 = some s') : ReaderLoopInv s0 a s' l := by
  have := foldlM_prefix_invariant (memoryAllocationReader a) (ReaderLoopInv s0 a) l [] s0 s'
    ?_ ?_ h
  · simpa using this
  · exact ⟨MState.Grows.refl _, rfl, fun _ _ => Or.inl rfl,
      fun i hi => absurd hi (by simp)⟩
  · intro b done r b1 _ hinv hstep
    exact ReaderLoopInv.readerStep s0 a b b1 done r hinv hstep

/-- One iteration of the loop of `MemoryAllocator::memoryAllocation` at a tile memory
write, up to the loop over the readers. -/
theorem memoryAllocationAt_split (s s' : MState) (op : Nat)
    (hw : (s.g.cls op).isTileMemoryWrite = true)
    (h : memoryAllocationAt s op = some s') :
    ∃ (a : Nat) (s1 : MState), s.mem.op2mem op = none
      ∧ s1.mem.op2mem = upd s.mem.op2mem op (some a)
      ∧ s.Grows s1
      ∧ (∀ i, i ≠ op → i ≠ s.g.fresh → s1.g.operands i = s.g.operands i)
      ∧ (s.g.cls op = OpClass.StoreOperation → op ≠ s.g.fresh →
          (s.g.operands op).length = 1
          ∧ s1.g.operands op = s.g.operands op ++ [s.g.fresh]
          ∧ s1.AddressOperand op s.g.fresh a)
      ∧ (s1.g.readers op).foldlM (memoryAllocationReader a) s1 = some s' := by
  unfold memoryAllocationAt at h
  rw [if_pos hw] at h
  simp only [Option.bind_eq_some] at h
  obtain ⟨t, ht, ⟨a, m1⟩, hm1, m2, hm2, s1, hs1, hfold⟩ := h
  obtain ⟨p1, p2, p3, p4⟩ := MemoryAllocator.memalloc_spec _ _ _ _ _ hm1
  unfold MemoryAllocator.assignTileMemoryAddress at hm2
  have hnone : m1.op2mem op = none := by
    by_contra hne
    rw [if_pos (Option.isSome_iff_ne_none.mpr hne)] at hm2
    exact absurd hm2 (by simp)
  rw [if_neg (by simp [hnone])] at hm2
  simp only [Option.some.injEq] at hm2
  refine ⟨a, s1, by rw [← p4]; exact hnone, ?_, ?_, ?_, ?_, hfold⟩
  · by_cases hc : s.g.cls op = OpClass.StoreOperation
    · rw [if_pos hc] at hs1
      simp only [Option.bind_eq_some, Option.map_eq_some'] at hs1
      obtain ⟨pt, hpt, g, hg, hs⟩ := hs1
      rw [← hs, ← hm2, p4]
    · rw [if_neg hc] at hs1
      simp only [Option.some.injEq] at hs1
      rw [← hs1, ← hm2, p4]
  · by_cases hc : s.g.cls op = OpClass.StoreOperation
    · rw [if_pos hc] at hs1
      simp only [Option.bind_eq_some, Option.map_eq_some'] at hs1
      obtain ⟨pt, hpt, g, hg, hs⟩ := hs1
      unfold Graph.addStoreAddressOperand at hg
      split at hg
      · simp only [Option.some.injEq] at hg
        subst hg
        subst hs
        apply MState.Grows.ofAddressOperand s a op _ _ hpt <;> rfl
      · exact absurd hg (by simp)
    · rw [if_neg hc] at hs1
      simp only [Option.some.injEq] at hs1
      subst hs1
      exact ⟨le_refl _, fun _ _ => rfl, fun _ _ => rfl, fun _ _ => rfl, fun _ _ => rfl,
        fun _ _ => rfl, fun _ _ => rfl, rfl, rfl⟩
  · intro i hi hif
    by_cases hc : s.g.cls op = OpClass.StoreOperation
    · rw [if_pos hc] at hs1
      simp only [Option.bind_eq_some, Option.map_eq_some'] at hs1
      obtain ⟨pt, hpt, g, hg, hs⟩ := hs1
      unfold Graph.addStoreAddressOperand at hg
      split at hg
      · simp only [Option.some.injEq] at hg
        obtain ⟨c1, _, _⟩ := addressOperand_created s a op pt g m2 hpt hg.symm
        rw [← hs]
        exact c1 i hi hif
      · exact absurd hg (by simp)
    · rw [if_neg hc] at hs1
      simp only [Option.some.injEq] at hs1
      rw [← hs1]
  · intro hc hof
    rw [if_pos hc] at hs1
    simp only [Option.bind_eq_some, Option.map_eq_some'] at hs1
    obtain ⟨pt, hpt, g, hg, hs⟩ := hs1
    unfold Graph.addStoreAddressOperand at hg
    split at hg
    · rename_i hassert
      simp only [Option.some.injEq] at hg
      obtain ⟨_, c2, c3⟩ := addressOperand_created s a op pt g m2 hpt hg.symm
      rw [← hs]
      refine ⟨?_, c2 hof, c3⟩
      have : ((s.g.newSetImmediate a 1).2.operands op).length = 1 := hassert.1
      have h2 : (s.g.newSetImmediate a 1).2.operands op = s.g.operands op := upd_other _ _ hof
      rw [h2] at this
      exact this
    · exact absurd hg (by simp)

theorem isTileMemoryWrite_store : OpClass.StoreOperation.isTileMemoryWrite = true := rfl

theorem AddressOperandInv.operationStep (st : PState)
    (hfresh : ∀ i, i ∈ st.g.operations → i < st.g.fresh)
    (s s' : MState) (done : List Nat) (op : Nat)
    (hop : op ∈ st.g.operations)
    (hinv : AddressOperandInv st s done) (h : memoryAllocationAt s op = some s') :
    AddressOperandInv st s' (done ++ [op]) := by
  have hlt : op < st.g.fresh := hfresh op hop
  have hfs : st.g.fresh ≤ s.g.fresh := hinv.grows.fresh_le
  have hcls : s.g.cls op = st.g.cls op := hinv.grows.cls op hlt
  by_cases hw : (st.g.cls op).isTileMemoryWrite = true
  · obtain ⟨a, s1, hnone, hmem, hg1, hframe, hstore, hfold⟩ :=
      memoryAllocationAt_split s s' op (by rw [hcls]; exact hw) h
    have hR := ReaderLoopInv.loop s1 a _ s' hfold
    have hfs1 : s.g.fresh ≤ s1.g.fresh := hg1.fresh_le
    have hnd : op ∉ done := by
      intro hd
      obtain ⟨b, hb⟩ := hinv.assigned op hd hw
      rw [hnone] at hb
      exact absurd hb (by simp)
    have hmem' : s'.mem.op2mem = upd s.mem.op2mem op (some a) := by rw [hR.mem, hmem]
    have hgrow : s.Grows s' := hg1.trans hR.grows
    have hcls1 : ∀ i, i < st.g.fresh → s1.g.cls i = st.g.cls i := by
      intro i hi
      rw [hg1.cls i (by omega), hinv.grows.cls i hi]
    have hkeep : ∀ i, i < st.g.fresh → i ≠ op → st.g.cls i ≠ OpClass.LoadOperation →
        s'.g.operands i = s.g.operands i := by
      intro i hi hio hc
      rcases hR.operands i (by omega) with h1 | h1
      · rw [h1]
        exact hframe i hio (by omega)
      · rw [hcls1 i hi] at h1
        exact absurd h1.1 hc
    constructor
    · have := hinv.grows.trans hgrow
      exact ⟨this.fresh_le, this.cls, this.length, this.imm, this.srcs, this.readers,
        this.assign, this.vcore, this.vtile⟩
    · intro x hx
      rcases List.mem_append.mp hx with h1 | h1
      · exact hinv.below x h1
      · rw [List.mem_singleton.mp h1]
        exact hlt
    · intro w hwd hww
      by_cases hwo : w = op
      · exact ⟨a, by rw [hmem', hwo, upd_same]⟩
      · have hd : w ∈ done := by
          rcases List.mem_append.mp hwd with h1 | h1
          · exact h1
          · exact absurd (List.mem_singleton.mp h1) hwo
        obtain ⟨b, hb⟩ := hinv.assigned w hd hww
        exact ⟨b, by rw [hmem', upd_other _ _ hwo]; exact hb⟩
    · intro x hxd hxc
      by_cases hxo : x = op
      · subst hxo
        have hu := hinv.untouched x hlt hxc hnd
        obtain ⟨e1, e2, e3⟩ := hstore (by rw [hcls]; exact hxc) (by omega)
        rw [hu] at e1 e2
        obtain ⟨src, hsrc⟩ := List.length_eq_one.mp e1
        have hop' : s'.g.operands x = s1.g.operands x := by
          rcases hR.operands x (by omega) with h1 | h1
          · exact h1
          · rw [hcls1 x hlt, hxc] at h1
            exact absurd h1.1 (by simp)
        exact ⟨src, s.g.fresh, a, hsrc, by rw [hop', e2, hsrc]; rfl,
          e3.mono hR.grows (by omega), by rw [hmem', upd_same]⟩
      · have hd : x ∈ done := by
          rcases List.mem_append.mp hxd with h1 | h1
          · exact h1
          · exact absurd (List.mem_singleton.mp h1) hxo
        obtain ⟨src, seti, b, h1, h2, h3, h4⟩ := hinv.stores x hd hxc
        have hxlt : x < st.g.fresh := hinv.below x hd
        exact ⟨src, seti, b, h1,
          by rw [hkeep x hxlt hxo (by rw [hxc]; simp)]; exact h2,
          h3.mono hgrow (by omega), by rw [hmem', upd_other _ _ hxo]; exact h4⟩
    · intro w hwd hww l hl hllt hlc
      have hlo : l ≠ op := by
        intro he
        rw [he] at hlc
        rw [hlc] at hw
        exact absurd hw (by simp [OpClass.isTileMemoryWrite])
      by_cases hwo : w = op
      · subst hwo
        have hrd : s1.g.readers w = st.g.readers w := by
          rw [hg1.readers w (by omega), hinv.grows.readers w hlt]
        rw [hrd] at hR
        obtain ⟨seti, h1, h2⟩ := hR.loads l hl (by omega) (by rw [hcls1 l hllt]; exact hlc)
        exact ⟨seti, a, h1, h2, by rw [hmem', upd_same]⟩
      · have hd : w ∈ done := by
          rcases List.mem_append.mp hwd with h1 | h1
          · exact h1
          · exact absurd (List.mem_singleton.mp h1) hwo
        obtain ⟨seti, b, h1, h2, h3⟩ := hinv.loads w hd hww l hl hllt hlc
        have h1' : s1.g.operands l = [seti] := by
          rw [hframe l hlo (by omega)]; exact h1
        have hop' : s'.g.operands l = s1.g.operands l := by
          rcases hR.operands l (by omega) with h5 | h5
          · exact h5
          · rw [h1'] at h5
            exact absurd h5.2.2 (by simp)
        exact ⟨seti, b, by rw [hop', h1'], h2.mono hgrow (by omega),
          by rw [hmem', upd_other _ _ hwo]; exact h3⟩
    · intro x hxlt hxc hxd
      have hxo : x ≠ op := by
        intro he
        exact hxd (by rw [he]; simp)
      have hd : x ∉ done := fun hd => hxd (List.mem_append_left _ hd)
      rw [hkeep x hxlt hxo (by rw [hxc]; simp)]
      exact hinv.untouched x hxlt hxc hd
  · have hw' : (st.g.cls op).isTileMemoryWrite = false := by simpa using hw
    have hs : s' = s := memoryAllocationAt_other s s' op (by rw [hcls]; exact hw') h
    subst hs
    have hdone : ∀ w, w ∈ done ++ [op] → (st.g.cls w).isTileMemoryWrite = true → w ∈ done := by
      intro w hwd hww
      rcases List.mem_append.mp hwd with h1 | h1
      · exact h1
      · rw [List.mem_singleton.mp h1] at hww
        exact absurd hww hw
    constructor
    · exact hinv.grows
    · intro x hx
      rcases List.mem_append.mp hx with h1 | h1
      · exact hinv.below x h1
      · rw [List.mem_singleton.mp h1]
        exact hlt
    · intro w hwd hww
      exact hinv.assigned w (hdone w hwd hww) hww
    · intro x hxd hxc
      exact hinv.stores x (hdone x hxd (by rw [hxc]; rfl)) hxc
    · intro w hwd hww
      exact hinv.loads w (hdone w hwd hww) hww
    · intro x hxlt hxc hxd
      exact hinv.untouched x hxlt hxc (fun hd => hxd (List.mem_append_left _ hd))

theorem MState.AddsSetImmediates.same (s : MState) : s.AddsSetImmediates s where
  ops := fun _ hx => Or.inl hx
  cls := fun x h1 h2 => absurd h1 (by omega)

theorem MState.AddsSetImmediates.chain {s1 s2 s3 : MState} (h1 : s1.AddsSetImmediates s2)
    (h2 : s2.AddsSetImmediates s3) (g1 : s1.Grows s2) (g2 : s2.Grows s3) :
    s1.AddsSetImmediates s3 where
  ops := by
    intro x hx
    have hf1 := g1.fresh_le
    have hf2 := g2.fresh_le
    rcases h2.ops x hx with h | h
    · rcases h1.ops x h with h' | h'
      · exact Or.inl h'
      · exact Or.inr ⟨h'.1, by omega⟩
    · exact Or.inr ⟨by omega, h.2⟩
  cls := by
    intro x hx1 hx3
    by_cases hx2 : x < s2.g.fresh
    · rw [g2.cls x hx2]
      exact h1.cls x hx1 hx2
    · exact h2.cls x (by omega) hx3

theorem MState.AddsSetImmediates.ofNewSetImmediate (s : MState) (address : Nat)
    (g : Graph) (hg : g.fresh = s.g.fresh + 1)
    (hcls : g.cls = (s.g.newSetImmediate address 1).2.cls)
    (hops : g.operations = (s.g.newSetImmediate address 1).2.operations)
    (pt : Partitioner) (mem : MemoryAllocator) :
    s.AddsSetImmediates (MState.mk g pt mem) := by
  constructor
  · intro x hx
    have hx' : x ∈ setInsert s.g.operations s.g.fresh := by
      have : x ∈ g.operations := hx
      rw [hops] at this
      exact this
    rcases mem_setInsert.mp hx' with h | h
    · right
      show s.g.fresh ≤ x ∧ x < g.fresh
      omega
    · exact Or.inl h
  · intro x h1 h2
    have h2' : x < g.fresh := h2
    have hx : x = s.g.fresh := by omega
    show g.cls x = _
    rw [hcls, hx]
    exact upd_same _ _ _

theorem memoryAllocationReader_adds (address : Nat) (s s' : MState) (read : Nat)
    (h : memoryAllocationReader address s read = some s') : s.AddsSetImmediates s' := by
  unfold memoryAllocationReader at h
  by_cases hc : s.g.cls read = OpClass.LoadOperation
  · rw [if_pos hc] at h
    simp only [Option.bind_eq_some, Option.map_eq_some'] at h
    obtain ⟨pt, hpt, g, hg, hs⟩ := h
    unfold Graph.addLoadAddressOperand at hg
    split at hg
    · simp only [Option.some.injEq] at hg
      subst hg
      subst hs
      apply MState.AddsSetImmediates.ofNewSetImmediate s address <;> rfl
    · exact absurd hg (by simp)
  · rw [if_neg hc] at h
    simp only [Option.some.injEq] at h
    subst h
    exact MState.AddsSetImmediates.same _

theorem memoryAllocationReaders_adds (address : Nat) (l : List Nat) (s s' : MState)
    (h : l.foldlM (memoryAllocationReader address) s = some s') :
    s.Grows s' ∧ s.AddsSetImmediates s' := by
  refine foldlM_preserves (memoryAllocationReader address)
    (fun x => s.Grows x ∧ s.AddsSetImmediates x) ?_ l s s'
    ⟨MState.Grows.refl _, MState.AddsSetImmediates.same _⟩ h
  intro b a b' hb hstep
  obtain ⟨h1, _⟩ := memoryAllocationReader_grows address b b' a hstep
  exact ⟨hb.1.trans h1, hb.2.chain (memoryAllocationReader_adds address b b' a hstep) hb.1 h1⟩

theorem memoryAllocationAt_adds (s s' : MState) (op : Nat)
    (h : memoryAllocationAt s op = some s') : s.Grows s' ∧ s.AddsSetImmediates s' := by
  by_cases hw : (s.g.cls op).isTileMemoryWrite = true
  · have h0 := h
    unfold memoryAllocationAt at h
    rw [if_pos hw] at h
    simp only [Option.bind_eq_some] at h
    obtain ⟨t, ht, ⟨a, m1⟩, hm1, m2, hm2, s1, hs1, hfold⟩ := h
    obtain ⟨g2, a2⟩ := memoryAllocationReaders_adds _ _ _ _ hfold
    have h1 : s.Grows s1 ∧ s.AddsSetImmediates s1 := by
      by_cases hc : s.g.cls op = OpClass.StoreOperation
      · rw [if_pos hc] at hs1
        simp only [Option.bind_eq_some, Option.map_eq_some'] at hs1
        obtain ⟨pt, hpt, g, hg, hs⟩ := hs1
        unfold Graph.addStoreAddressOperand at hg
        split at hg
        · simp only [Option.some.injEq] at hg
          subst hg
          subst hs
          exact ⟨by apply MState.Grows.ofAddressOperand s a op _ _ hpt <;> rfl,
            by apply MState.AddsSetImmediates.ofNewSetImmediate s a <;> rfl⟩
        · exact absurd hg (by simp)
      · rw [if_neg hc] at hs1
        simp only [Option.some.injEq] at hs1
        subst hs1
        exact ⟨⟨le_refl _, fun _ _ => rfl, fun _ _ => rfl, fun _ _ => rfl, fun _ _ => rfl,
          fun _ _ => rfl, fun _ _ => rfl, rfl, rfl⟩,
          ⟨fun _ hx => Or.inl hx, fun x h1 h2 => absurd h1 (by
            have : x < s.g.fresh := h2
            omega)⟩⟩
    exact ⟨h1.1.trans g2, h1.2.chain a2 h1.1 g2⟩
  · have hs := memoryAllocationAt_other s s' op (by simpa using hw) h
    subst hs
    exact ⟨MState.Grows.refl _, MState.AddsSetImmediates.same _⟩

theorem MemoryAllocator.create_adds (st : PState) (ms : MState)
    (h : MemoryAllocator.create st = some ms) :
    ∀ x, x ∈ ms.g.operations →
      x ∈ st.g.operations
      ∨ (st.g.fresh ≤ x ∧ x < ms.g.fresh ∧ ms.g.cls x = OpClass.SetImmediateOperation) := by
  unfold MemoryAllocator.create at h
  have := foldlM_preserves memoryAllocationAt
    (fun x => (MState.mk st.g st.pt (MemoryAllocator.mk (fun _ => none)
      (List.replicate st.pt.nVTiles 0))).Grows x
      ∧ (MState.mk st.g st.pt (MemoryAllocator.mk (fun _ => none)
      (List.replicate st.pt.nVTiles 0))).AddsSetImmediates x) ?_ st.g.operations _ ms
    ⟨MState.Grows.refl _, MState.AddsSetImmediates.same _⟩ h
  · intro x hx
    rcases this.2.ops x hx with h1 | h1
    · exact Or.inl h1
    · exact Or.inr ⟨h1.1, h1.2, this.2.cls x h1.1 h1.2⟩
  · intro b a b' hb hstep
    obtain ⟨h1, h2⟩ := memoryAllocationAt_adds b b' a hstep
    exact ⟨hb.1.trans h1, hb.2.chain h2 hb.1 h1⟩

theorem AddressOperandInv.atEnd (st : PState)
    (hfresh : ∀ i, i ∈ st.g.operations → i < st.g.fresh)
    (ms : MState) (h : MemoryAllocator.create st = some ms) :
    AddressOperandInv st ms st.g.operations := by
  unfold MemoryAllocator.create at h
  have := foldlM_prefix_invariant memoryAllocationAt (AddressOperandInv st) st.g.operations
    [] _ ms ?_ ?_ h
  · simpa using this
  · constructor
    · exact ⟨le_refl _, fun _ _ => rfl, fun _ _ => rfl, fun _ _ => rfl, fun _ _ => rfl,
        fun _ _ => rfl, fun _ _ => rfl, rfl, rfl⟩
    · intro x hx
      exact absurd hx (by simp)
    · intro x hx
      exact absurd hx (by simp)
    · intro x hx
      exact absurd hx (by simp)
    · intro x hx
      exact absurd hx (by simp)
    · intro x _ _ _
      rfl
  · intro b done a b1 ha hinv hstep
    exact AddressOperandInv.operationStep st hfresh b b1 done a ha hinv hstep

/-- Claim C20. When `MemoryAllocator::memoryAllocation` runs to its end on a DAG with well
formed tile memory edges: every operation that it adds is a SetImmediate; every Store of
the resulting DAG has exactly two operands, its data source (its only operand before)
at index 0 and at index 1 a SetImmediate of length 1 whose immediate is the tile memory
address of the Store; every Load has exactly one operand, a SetImmediate of length 1 whose
immediate is the tile memory address of the write that the Load reads; and each of these
SetImmediate operations is on the virtual MVMU of its Store or Load. -/
theorem memory_allocation_adds_address_operands (st : PState) (ms : MState)
    (hl : st.TileMemoryLinked) (h : MemoryAllocator.create st = some ms) :
    (∀ x, x ∈ ms.g.operations →
      x ∈ st.g.operations ∨ ms.g.cls x = OpClass.SetImmediateOperation)
    ∧ (∀ x, x ∈ ms.g.operations → ms.g.cls x = OpClass.StoreOperation →
        ∃ src seti a, st.g.operands x = [src] ∧ ms.g.operands x = [src, seti]
          ∧ ms.g.cls seti = OpClass.SetImmediateOperation ∧ ms.g.length seti = 1
          ∧ ms.mem.getTileMemoryAddress x = some a ∧ ms.g.imm seti = a
          ∧ (∀ v, ms.pt.getVMVMU x = some v → ms.pt.getVMVMU seti = some v))
    ∧ (∀ x, x ∈ ms.g.operations → ms.g.cls x = OpClass.LoadOperation →
        ∃ w seti a, ms.g.srcs x = [w] ∧ ms.g.operands x = [seti]
          ∧ ms.g.cls seti = OpClass.SetImmediateOperation ∧ ms.g.length seti = 1
          ∧ ms.mem.getTileMemoryAddress w = some a ∧ ms.g.imm seti = a
          ∧ (∀ v, ms.pt.getVMVMU x = some v → ms.pt.getVMVMU seti = some v)) := by
  have hinv := AddressOperandInv.atEnd st hl.below ms h
  have hadd := MemoryAllocator.create_adds st ms h
  have hold : ∀ x c, x ∈ ms.g.operations → ms.g.cls x = c →
      c ≠ OpClass.SetImmediateOperation → x ∈ st.g.operations ∧ st.g.cls x = c := by
    intro x c hx hc hne
    rcases hadd x hx with h1 | h1
    · exact ⟨h1, by rw [← hinv.grows.cls x (hl.below x h1)]; exact hc⟩
    · rw [h1.2.2] at hc
      exact absurd hc.symm hne
  refine ⟨?_, ?_, ?_⟩
  · intro x hx
    rcases hadd x hx with h1 | h1
    · exact Or.inl h1
    · exact Or.inr h1.2.2
  · intro x hx hc
    obtain ⟨hx', hc'⟩ := hold x _ hx hc (by simp)
    obtain ⟨src, seti, a, h1, h2, h3, h4⟩ := hinv.stores x hx' hc'
    exact ⟨src, seti, a, h1, h2, h3.cls, h3.length, h4, h3.imm, h3.vmvmu⟩
  · intro x hx hc
    obtain ⟨hx', hc'⟩ := hold x _ hx hc (by simp)
    obtain ⟨hlen, hsrc⟩ := hl.loads x hx' hc'
    obtain ⟨w, hw⟩ := List.length_eq_one.mp hlen
    obtain ⟨hwo, hww, hxr⟩ := hsrc w (by rw [hw]; simp)
    obtain ⟨seti, a, h1, h2, h3⟩ := hinv.loads w hwo hww x hxr (hl.below x hx') hc'
    exact ⟨w, seti, a, by rw [hinv.grows.srcs x (hl.below x hx')]; exact hw, h1, h2.cls,
      h2.length, h3, h2.imm, h2.vmvmu⟩

theorem memory_allocation_adds_address_operands_witness :
    ∃ st ms,
      Partitioner.create twoSumsGraph 64 ModelType.INFERENCE [0, 1] twoSumsTileUsers = some st
      ∧ MemoryAllocator.create st = some ms
      ∧ st.TileMemoryLinked
      ∧ (∀ x, x ∈ ms.g.operations → ms.g.cls x = OpClass.StoreOperation →
          ∃ src seti a, st.g.operands x = [src] ∧ ms.g.operands x = [src, seti]
            ∧ ms.g.cls seti = OpClass.SetImmediateOperation ∧ ms.g.length seti = 1
            ∧ ms.mem.getTileMemoryAddress x = some a ∧ ms.g.imm seti = a
            ∧ (∀ v, ms.pt.getVMVMU x = some v → ms.pt.getVMVMU seti = some v)) := by
  have h : (compileToLists twoSumsGraph 64 ModelType.INFERENCE [0, 1] twoSumsTileUsers
      [[2], [3]] true).isSome = true := by decide
  have hd : (match Partitioner.create twoSumsGraph 64 ModelType.INFERENCE [0, 1]
      twoSumsTileUsers with
    | some st => decide ((∀ i, i ∈ st.g.operations → i < st.g.fresh)
        ∧ (∀ l, l ∈ st.g.operations → st.g.cls l = OpClass.LoadOperation →
            (st.g.srcs l).length = 1
            ∧ ∀ w, w ∈ st.g.srcs l →
              w ∈ st.g.operations ∧ (st.g.cls w).isTileMemoryWrite = true
                ∧ l ∈ st.g.readers w))
    | none => true) = true := by decide
  obtain ⟨r, hr⟩ := Option.isSome_iff_exists.mp h
  unfold compileToLists at hr
  simp only [Option.bind_eq_some, Option.map_eq_some', if_true] at hr
  obtain ⟨st, hst, P, hP, ms, hms, c, ⟨l, hl, _⟩, _⟩ := hr
  rw [hst] at hd
  have hd' := of_decide_eq_true hd
  have hlinked : st.TileMemoryLinked := ⟨hd'.1, hd'.2⟩
  exact ⟨st, ms, hst, hms, hlinked,
    (memory_allocation_adds_address_operands st ms hlinked hms).2.1⟩

/-! ## Sends and receives across virtual tiles -/

theorem Partitioner.getVTile_congr (pt pt' : Partitioner) (i j : Nat)
    (h1 : pt'.op2vmvmu i = pt.op2vmvmu j) (h2 : pt'.vmvmu2vcore = pt.vmvmu2vcore)
    (h3 : pt'.vcore2vtile = pt.vcore2vtile) :
    pt'.getVTile i = pt.getVTile j := by
  unfold Partitioner.getVTile Partitioner.getVCore Partitioner.getVMVMU
  rw [h1, h2, h3]

theorem Partitioner.getVTile_assigned (pt : Partitioner) (i t : Nat)
    (h : pt.getVTile i = some t) : ∃ v, pt.op2vmvmu i = some v := by
  unfold Partitioner.getVTile Partitioner.getVCore Partitioner.getVMVMU at h
  cases hv : pt.op2vmvmu i with
  | none => rw [hv] at h; exact absurd h (by simp)
  | some v => exact ⟨v, rfl⟩

/-- The creation of a Send of the Store `S` and of its Receive for the reader `r` in
`insertSendsAndRecives`. -/
theorem newChannel_spec (s : PState) (S r vS vr : Nat) (hS : S < s.g.fresh)
    (hr : r < s.g.fresh) (hvS : s.pt.op2vmvmu S = some vS) (hvr : s.pt.op2vmvmu r = some vr)
    (p : PState × Nat)
    (h : ((s.pt.cloneAssignment S (s.g.newSend S).1).bind fun (pt : Partitioner) =>
        ((s.g.newSend S).2.newReceive (s.g.newSend S).1).bind fun (r2 : Nat × Graph) =>
        (({ pt with numSends := (pt.numSends + (s.g.newSend S).2.length (s.g.newSend S).1)
            % UINT_MOD } : Partitioner).cloneAssignment r r2.1).map
          fun (pt : Partitioner) =>
          (PState.mk r2.2 { pt with
              numReceives := (pt.numReceives + r2.2.length r2.1) % UINT_MOD }, r2.1))
      = some p) :
    p.2 = s.g.fresh + 1
    ∧ p.1.g.fresh = s.g.fresh + 2
    ∧ (∀ i, i ∈ p.1.g.operations ↔ i = s.g.fresh + 1 ∨ i = s.g.fresh ∨ i ∈ s.g.operations)
    ∧ p.1.g.cls (s.g.fresh + 1) = OpClass.ReceiveOperation
    ∧ p.1.g.cls s.g.fresh = OpClass.SendOperation
    ∧ (∀ i, i < s.g.fresh → p.1.g.cls i = s.g.cls i)
    ∧ p.1.g.srcs s.g.fresh = [S]
    ∧ p.1.g.srcs (s.g.fresh + 1) = []
    ∧ (∀ i, i < s.g.fresh → p.1.g.srcs i = s.g.srcs i)
    ∧ p.1.g.readers (s.g.fresh + 1) = []
    ∧ (∀ x, x ∈ p.1.g.readers S ↔ x = s.g.fresh ∨ x ∈ s.g.readers S)
    ∧ (∀ w, w < s.g.fresh → w ≠ S → p.1.g.readers w = s.g.readers w)
    ∧ p.1.g.recvSrc (s.g.fresh + 1) = some s.g.fresh
    ∧ p.1.g.recvSrc s.g.fresh = none
    ∧ (∀ i, i < s.g.fresh → p.1.g.recvSrc i = s.g.recvSrc i)
    ∧ p.1.g.sendDst s.g.fresh = some (s.g.fresh + 1)
    ∧ (∀ i, i < s.g.fresh → p.1.g.sendDst i = s.g.sendDst i)
    ∧ p.1.pt.op2vmvmu s.g.fresh = some vS
    ∧ p.1.pt.op2vmvmu (s.g.fresh + 1) = some vr
    ∧ (∀ i, i < s.g.fresh → p.1.pt.op2vmvmu i = s.pt.op2vmvmu i)
    ∧ p.1.pt.vmvmu2vcore = s.pt.vmvmu2vcore
    ∧ p.1.pt.vcore2vtile = s.pt.vcore2vtile := by
  simp only [Option.bind_eq_some, Option.map_eq_some'] at h
  obtain ⟨pt1, hpt1, r2, hr2, pt2, hpt2, hp⟩ := h
  have hid : (s.g.newSend S).1 = s.g.fresh := rfl
  rw [hid] at hpt1 hr2
  obtain ⟨a1, a2, a3, a4⟩ := Partitioner.cloneAssignment_tables _ _ _ _ hpt1
  have hsd : (s.g.newSend S).2.sendDst s.g.fresh = none := by
    show upd s.g.sendDst s.g.fresh none s.g.fresh = none
    rw [upd_same]
  unfold Graph.newReceive at hr2
  simp only at hr2
  rw [if_neg (by
    show ¬ ((upd (s.g.newSend S).2.sendDst (s.g.newSend S).2.fresh none s.g.fresh).isSome
      = true)
    rw [upd_other _ _ (by show s.g.fresh ≠ s.g.fresh + 1; omega), hsd]
    simp)] at hr2
  simp only [Option.some.injEq] at hr2
  subst hr2
  have hrid : (s.g.newSend S).2.fresh = s.g.fresh + 1 := rfl
  simp only [hrid] at hpt2 hp
  obtain ⟨b1, b2, b3, b4⟩ := Partitioner.cloneAssignment_tables _ _ _ _ hpt2
  have hne : s.g.fresh ≠ s.g.fresh + 1 := by omega
  have hSf : S ≠ s.g.fresh := by omega
  have hSf1 : S ≠ s.g.fresh + 1 := by omega
  have hrf : r ≠ s.g.fresh := by omega
  have hrf1 : r ≠ s.g.fresh + 1 := by omega
  subst hp
  refine ⟨rfl, rfl, ?_, ?_, ?_, ?_, ?_, ?_, ?_, ?_, ?_, ?_, ?_, ?_, ?_, ?_, ?_, ?_, ?_, ?_,
    ?_, ?_⟩
  · intro i
    show i ∈ setInsert (setInsert s.g.operations s.g.fresh) (s.g.fresh + 1) ↔ _
    rw [mem_setInsert, mem_setInsert]
  · show upd (upd s.g.cls s.g.fresh OpClass.SendOperation) (s.g.fresh + 1)
      OpClass.ReceiveOperation (s.g.fresh + 1) = _
    rw [upd_same]
  · show upd (upd s.g.cls s.g.fresh OpClass.SendOperation) (s.g.fresh + 1)
      OpClass.ReceiveOperation s.g.fresh = _
    rw [upd_other _ _ hne, upd_same]
  · intro i hi
    show upd (upd s.g.cls s.g.fresh OpClass.SendOperation) (s.g.fresh + 1)
      OpClass.ReceiveOperation i = _
    rw [upd_other _ _ (by omega), upd_other _ _ (by omega)]
  · show upd (upd (upd s.g.srcs s.g.fresh []) s.g.fresh [S]) (s.g.fresh + 1) [] s.g.fresh = _
    rw [upd_other _ _ hne, upd_same]
  · show upd (upd (upd s.g.srcs s.g.fresh []) s.g.fresh [S]) (s.g.fresh + 1) []
      (s.g.fresh + 1) = _
    rw [upd_same]
  · intro i hi
    show upd (upd (upd s.g.srcs s.g.fresh []) s.g.fresh [S]) (s.g.fresh + 1) [] i = _
    rw [upd_other _ _ (by omega), upd_other _ _ (by omega), upd_other _ _ (by omega)]
  · show upd (upd (upd s.g.readers s.g.fresh []) S
      (setInsert (upd s.g.readers s.g.fresh [] S) s.g.fresh)) (s.g.fresh + 1) []
      (s.g.fresh + 1) = _
    rw [upd_same]
  · intro x
    show x ∈ upd (upd (upd s.g.readers s.g.fresh []) S
      (setInsert (upd s.g.readers s.g.fresh [] S) s.g.fresh)) (s.g.fresh + 1) [] S ↔ _
    rw [upd_other _ _ hSf1, upd_same, upd_other _ _ hSf, mem_setInsert]
  · intro w hw hwS
    show upd (upd (upd s.g.readers s.g.fresh []) S
      (setInsert (upd s.g.readers s.g.fresh [] S) s.g.fresh)) (s.g.fresh + 1) [] w = _
    rw [upd_other _ _ (by omega), upd_other _ _ hwS, upd_other _ _ (by omega)]
  · show upd (upd (upd s.g.recvSrc s.g.fresh none) (s.g.fresh + 1) none) (s.g.fresh + 1)
      (some s.g.fresh) (s.g.fresh + 1) = _
    rw [upd_same]
  · show upd (upd (upd s.g.recvSrc s.g.fresh none) (s.g.fresh + 1) none) (s.g.fresh + 1)
      (some s.g.fresh) s.g.fresh = _
    rw [upd_other _ _ hne, upd_other _ _ hne, upd_same]
  · intro i hi
    show upd (upd (upd s.g.recvSrc s.g.fresh none) (s.g.fresh + 1) none) (s.g.fresh + 1)
      (some s.g.fresh) i = _
    rw [upd_other _ _ (by omega), upd_other _ _ (by omega), upd_other _ _ (by omega)]
  · show upd (upd (upd s.g.sendDst s.g.fresh none) (s.g.fresh + 1) none) s.g.fresh
      (some (s.g.fresh + 1)) s.g.fresh = _
    rw [upd_same]
  · intro i hi
    show upd (upd (upd s.g.sendDst s.g.fresh none) (s.g.fresh + 1) none) s.g.fresh
      (some (s.g.fresh + 1)) i = _
    rw [upd_other _ _ (by omega), upd_other _ _ (by omega), upd_other _ _ (by omega)]
  · show pt2.op2vmvmu s.g.fresh = some vS
    rw [b1 _ hne]
    exact a2 vS hvS
  · show pt2.op2vmvmu (s.g.fresh + 1) = some vr
    apply b2
    show pt1.op2vmvmu r = some vr
    rw [a1 r hrf]
    exact hvr
  · intro i hi
    show pt2.op2vmvmu i = _
    rw [b1 i (by omega)]
    exact a1 i (by omega)
  · show pt2.vmvmu2vcore = _
    rw [b3]
    exact a3
  · show pt2.vcore2vtile = _
    rw [b4]
    exact a4

/-- The call `read->replaceSrc(store, recv)` in `insertSendsAndRecives`, for a reader whose
only source is the Store. -/
theorem replaceSrc_spec (g g' : Graph) (r S R : Nat) (h : g.replaceSrc r S R = some g')
    (hsrc : g.srcs r = [S]) (hRS : R ≠ S) :
    g'.fresh = g.fresh ∧ g'.operations = g.operations ∧ g'.cls = g.cls
    ∧ g'.recvSrc = g.recvSrc ∧ g'.sendDst = g.sendDst
    ∧ g'.srcs r = [R]
    ∧ (∀ i, i ≠ r → g'.srcs i = g.srcs i)
    ∧ (∀ x, x ∈ g'.readers S ↔ x ∈ g.readers S ∧ x ≠ r)
    ∧ (∀ x, x ∈ g'.readers R ↔ x = r ∨ x ∈ g.readers R)
    ∧ (∀ w, w ≠ S → w ≠ R → g'.readers w = g.readers w) := by
  unfold Graph.replaceSrc at h
  rw [hsrc] at h
  have hidx : [S].indexOf? S = some 0 := by simp [List.indexOf?, List.findIdx?]
  rw [hidx] at h
  simp only [Option.some.injEq] at h
  subst h
  refine ⟨rfl, rfl, rfl, rfl, rfl, ?_, ?_, ?_, ?_, ?_⟩
  · show upd g.srcs r ([S].set 0 R) r = [R]
    rw [upd_same]
    rfl
  · intro i hi
    show upd g.srcs r ([S].set 0 R) i = _
    rw [upd_other _ _ hi]
  · intro x
    show x ∈ upd (upd g.readers S (setErase (g.readers S) r)) R
      (setInsert (upd g.readers S (setErase (g.readers S) r) R) r) S ↔ _
    rw [upd_other _ _ (Ne.symm hRS), upd_same, mem_setErase]
  · intro x
    show x ∈ upd (upd g.readers S (setErase (g.readers S) r)) R
      (setInsert (upd g.readers S (setErase (g.readers S) r) R) r) R ↔ _
    rw [upd_same, upd_other _ _ hRS, mem_setInsert]
  · intro w h1 h2
    show upd (upd g.readers S (setErase (g.readers S) r)) R
      (setInsert (upd g.readers S (setErase (g.readers S) r) R) r) w = _
    rw [upd_other _ _ h2, upd_other _ _ h1]

theorem replaceSrc_fails (g : Graph) (r S R0 R : Nat) (hsrc : g.srcs r = [R0])
    (hne : R0 ≠ S) : g.replaceSrc r S R = none := by
  unfold Graph.replaceSrc
  rw [hsrc]
  have hidx : [R0].indexOf? S = none := by
    simp [List.indexOf?, List.findIdx?, hne]
  rw [hidx]

theorem VisitFrame.tile_eq {s s' : PState} {S : Nat} (h : VisitFrame s s' S) (i : Nat)
    (hi : i < s.g.fresh) : s'.pt.getVTile i = s.pt.getVTile i :=
  Partitioner.getVTile_congr _ _ _ _ (h.old_assign i hi) h.vcore h.vtile

/-- The statement `if(recvs[getVTile(read)] == NULL) ...` of `insertSendsAndRecives` when
there is no Receive for the tile of the reader yet. -/
theorem SendRecvInv.newChannel (s0 : PState) (S : Nat) (s : PState) (recvs : Nat → Option Nat)
    (seen served : List Nat) (r ts tr : Nat) (p : PState × Nat)
    (hS : S < s0.g.fresh) (hr : r < s0.g.fresh) (hr0 : r ∈ s0.g.readers S)
    (hread0 : ∀ x, x ∈ s0.g.readers S → x < s0.g.fresh ∧ s0.g.srcs x = [S])
    (hseen : ∀ x, x ∈ seen → x ∈ s0.g.readers S)
    (hserved : r ∈ served)
    (hinv : SendRecvInv s0 S s recvs seen served)
    (hts : s0.pt.getVTile S = some ts) (htr : s0.pt.getVTile r = some tr) (hne : ts ≠ tr)
    (hnone : recvs tr = none)
    (h : ((s.pt.cloneAssignment S (s.g.newSend S).1).bind fun (pt : Partitioner) =>
        ((s.g.newSend S).2.newReceive (s.g.newSend S).1).bind fun (r2 : Nat × Graph) =>
        (({ pt with numSends := (pt.numSends + (s.g.newSend S).2.length (s.g.newSend S).1)
            % UINT_MOD } : Partitioner).cloneAssignment r r2.1).map
          fun (pt : Partitioner) =>
          (PState.mk r2.2 { pt with
              numReceives := (pt.numReceives + r2.2.length r2.1) % UINT_MOD }, r2.1))
      = some p) :
    SendRecvInv s0 S p.1 (upd recvs tr (some p.2)) seen served := by
  have hf := hinv.frame
  have hle := hf.fresh_le
  have hSs : S < s.g.fresh := by omega
  have hrs : r < s.g.fresh := by omega
  have htS : s.pt.getVTile S = some ts := by rw [hf.tile_eq S hS]; exact hts
  have htR : s.pt.getVTile r = some tr := by rw [hf.tile_eq r hr]; exact htr
  obtain ⟨vS, hvS⟩ := Partitioner.getVTile_assigned _ _ _ htS
  obtain ⟨vr, hvr⟩ := Partitioner.getVTile_assigned _ _ _ htR
  obtain ⟨e1, e2, e3, e4, e5, e6, e7, e8, e9, e10, e11, e12, e13, e14, e15, e16, e17, e18,
    e19, e20, e21, e22⟩ := newChannel_spec s S r vS vr hSs hrs hvS hvr p h
  have hvt : ∀ i, i < s.g.fresh → p.1.pt.getVTile i = s.pt.getVTile i := fun i hi =>
    Partitioner.getVTile_congr _ _ _ _ (e20 i hi) e21 e22
  have hother : ∀ tr' R', recvs tr' = some R' → upd recvs tr (some p.2) tr' = some R' := by
    intro tr' R' h'
    rw [upd_other _ _ (by intro he; rw [he, hnone] at h'; exact absurd h' (by simp))]
    exact h'
  have hchan : ∀ tr' R' Snd, s.Channel s0.g.fresh S tr' R' Snd →
      p.1.Channel s0.g.fresh S tr' R' Snd := by
    intro tr' R' Snd c
    exact {
      recv_new := c.recv_new
      recv_lt := by have := c.recv_lt; omega
      recv_mem := (e3 R').mpr (Or.inr (Or.inr c.recv_mem))
      recv_cls := by rw [e6 R' c.recv_lt]; exact c.recv_cls
      recv_tile := by rw [hvt R' c.recv_lt]; exact c.recv_tile
      send_new := c.send_new
      send_lt := by have := c.send_lt; omega
      send_mem := (e3 Snd).mpr (Or.inr (Or.inr c.send_mem))
      send_cls := by rw [e6 Snd c.send_lt]; exact c.send_cls
      send_srcs := by rw [e9 Snd c.send_lt]; exact c.send_srcs
      send_reader := (e11 Snd).mpr (Or.inr c.send_reader)
      send_vmvmu := by
        show p.1.pt.op2vmvmu Snd = p.1.pt.op2vmvmu S
        rw [e20 Snd c.send_lt, e20 S hSs]
        exact c.send_vmvmu
      recv_src := by rw [e15 R' c.recv_lt]; exact c.recv_src
      send_dst := by rw [e17 Snd c.send_lt]; exact c.send_dst }
  constructor
  · exact {
      fresh_le := by omega
      vcore := by rw [e21, hf.vcore]
      vtile := by rw [e22, hf.vtile]
      old_assign := fun i hi => by rw [e20 i (by omega), hf.old_assign i hi]
      old_cls := fun i hi => by rw [e6 i (by omega), hf.old_cls i hi]
      old_recvSrc := fun i hi => by rw [e15 i (by omega), hf.old_recvSrc i hi]
      old_sendDst := fun i hi => by rw [e17 i (by omega), hf.old_sendDst i hi]
      old_srcs := fun i hi hn => by rw [e9 i (by omega), hf.old_srcs i hi hn]
      old_readers := fun w hw hwS => by rw [e12 w (by omega) hwS, hf.old_readers w hw hwS]
      ops_old := fun i hi => (e3 i).mpr (Or.inr (Or.inr (hf.ops_old i hi)))
      ops_new := by
        intro i hi
        rcases (e3 i).mp hi with h1 | h1 | h1
        · exact Or.inr (by omega)
        · exact Or.inr (by omega)
        · rcases hf.ops_new i h1 with h2 | h2
          · exact Or.inl h2
          · exact Or.inr (by omega) }
  · intro r' hr' hc
    obtain ⟨k1, k2⟩ := hinv.kept r' hr' hc
    have hlt : r' < s.g.fresh := lt_of_lt_of_le (hread0 r' hr').1 hle
    exact ⟨by rw [e9 r' hlt]; exact k1, (e11 r').mpr (Or.inr k2)⟩
  · intro r' tr' hr' ht' hrem
    obtain ⟨R', k1, k2, k3, k4⟩ := hinv.remote r' tr' hr' ht' hrem
    obtain ⟨_, ⟨Snd, c⟩, _⟩ := hinv.chan tr' R' k1
    have hr'0 : r' < s.g.fresh := lt_of_lt_of_le (hread0 r' (hseen r' hr')).1 hle
    have hRS : R' ≠ S := by
      have := c.recv_new
      omega
    refine ⟨R', hother tr' R' k1, by rw [e9 r' hr'0]; exact k2,
      by rw [e12 R' c.recv_lt hRS]; exact k3, ?_⟩
    intro hmem
    rcases (e11 r').mp hmem with h1 | h1
    · omega
    · exact k4 h1
  · intro tr' R' hrec
    by_cases htt : tr' = tr
    · subst htt
      rw [upd_same] at hrec
      simp only [Option.some.injEq] at hrec
      subst hrec
      refine ⟨by rw [hts]; simpa using hne, ⟨s.g.fresh, ?_⟩, ⟨r, hserved, hr0, htr⟩⟩
      rw [e1]
      exact {
        recv_new := by omega
        recv_lt := by omega
        recv_mem := (e3 _).mpr (Or.inl rfl)
        recv_cls := e4
        recv_tile := by
          rw [← htR]
          exact Partitioner.getVTile_congr _ _ _ _ (by rw [e19, hvr]) e21 e22
        send_new := hle
        send_lt := by omega
        send_mem := (e3 _).mpr (Or.inr (Or.inl rfl))
        send_cls := e5
        send_srcs := e7
        send_reader := (e11 _).mpr (Or.inl rfl)
        send_vmvmu := by
          show p.1.pt.op2vmvmu s.g.fresh = p.1.pt.op2vmvmu S
          rw [e18, e20 S hSs, hvS]
        recv_src := e13
        send_dst := e16 }
    · rw [upd_other _ _ htt] at hrec
      obtain ⟨k1, ⟨Snd, c⟩, k3⟩ := hinv.chan tr' R' hrec
      exact ⟨k1, ⟨Snd, hchan tr' R' Snd c⟩, k3⟩
  · intro x hx
    rcases (e11 x).mp hx with h1 | h1
    · right
      subst h1
      refine ⟨hle, by omega, e7, ?_⟩
      show p.1.pt.op2vmvmu s.g.fresh = s0.pt.op2vmvmu S
      rw [e18, ← hf.old_assign S hS, hvS]
    · rcases hinv.readers_S x h1 with h2 | ⟨h2, h3, h4, h5⟩
      · exact Or.inl h2
      · right
        refine ⟨h2, by omega, by rw [e9 x h3]; exact h4, ?_⟩
        show p.1.pt.op2vmvmu x = s0.pt.op2vmvmu S
        rw [e20 x h3]
        exact h5
  · intro n hn1 hn2
    by_cases hlt : n < s.g.fresh
    · obtain ⟨tr', R', k1, k2⟩ := hinv.new_ops n hn1 hlt
      obtain ⟨_, ⟨Snd, c⟩, _⟩ := hinv.chan tr' R' k1
      refine ⟨tr', R', hother tr' R' k1, ?_⟩
      rcases k2 with k2 | k2
      · exact Or.inl k2
      · exact Or.inr (by rw [e15 R' c.recv_lt]; exact k2)
    · refine ⟨tr, p.2, upd_same _ _ _, ?_⟩
      rw [e1]
      by_cases hn : n = s.g.fresh + 1
      · exact Or.inl hn
      · right
        have : n = s.g.fresh := by omega
        rw [this]
        exact e13
  · exact hinv.tiles

/-- The call `read->replaceSrc(store, recvs[getVTile(read)])` of `insertSendsAndRecives`,
which ends the visit of a reader on another tile. -/
theorem SendRecvInv.rewire (s0 : PState) (S : Nat) (s1 : PState) (recvs : Nat → Option Nat)
    (seen : List Nat) (r ts tr R : Nat) (g : Graph)
    (hS : S < s0.g.fresh) (hr0 : r ∈ s0.g.readers S)
    (hread0 : ∀ x, x ∈ s0.g.readers S → x < s0.g.fresh ∧ s0.g.srcs x = [S])
    (hinv : SendRecvInv s0 S s1 recvs seen (seen ++ [r]))
    (hts : s0.pt.getVTile S = some ts) (htr : s0.pt.getVTile r = some tr) (hne : ts ≠ tr)
    (hrec : recvs tr = some R)
    (hg : s1.g.replaceSrc r S R = some g) :
    SendRecvInv s0 S { s1 with g := g } recvs (seen ++ [r]) (seen ++ [r]) := by
  have hf := hinv.frame
  have hle := hf.fresh_le
  have hr : r < s0.g.fresh := (hread0 r hr0).1
  obtain ⟨_, ⟨Snd0, c0⟩, _⟩ := hinv.chan tr R hrec
  have hRS : R ≠ S := by
    have := c0.recv_new
    omega
  have hRr : R ≠ r := by
    have := c0.recv_new
    omega
  have hremote : s0.pt.getVTile r ≠ s0.pt.getVTile S := by
    rw [hts, htr]
    intro he
    exact hne (Option.some.inj he).symm
  have hrseen : r ∉ seen := by
    intro hmem
    obtain ⟨R0, k1, k2, k3, k4⟩ := hinv.remote r tr hmem htr (by
      rw [hts]; intro he; exact hne (Option.some.inj he))
    obtain ⟨_, ⟨Snd1, c1⟩, _⟩ := hinv.chan tr R0 k1
    have : s1.g.replaceSrc r S R = none := replaceSrc_fails s1.g r S R0 R k2 (by
      have := c1.recv_new
      omega)
    rw [this] at hg
    exact absurd hg (by simp)
  obtain ⟨ksrc, kmem⟩ := hinv.kept r hr0 (Or.inl hrseen)
  have hsrc : s1.g.srcs r = [S] := by rw [ksrc]; exact (hread0 r hr0).2
  obtain ⟨e1, e2, e3, e4, e5, e6, e7, e8, e9, e10⟩ := replaceSrc_spec s1.g g r S R hg hsrc hRS
  have hchan : ∀ tr' R' Snd, s1.Channel s0.g.fresh S tr' R' Snd →
      PState.Channel { s1 with g := g } s0.g.fresh S tr' R' Snd := by
    intro tr' R' Snd c
    have hSr : Snd ≠ r := by
      have := c.send_new
      omega
    exact {
      recv_new := c.recv_new
      recv_lt := by show R' < g.fresh; rw [e1]; exact c.recv_lt
      recv_mem := by show R' ∈ g.operations; rw [e2]; exact c.recv_mem
      recv_cls := by show g.cls R' = _; rw [e3]; exact c.recv_cls
      recv_tile := c.recv_tile
      send_new := c.send_new
      send_lt := by show Snd < g.fresh; rw [e1]; exact c.send_lt
      send_mem := by show Snd ∈ g.operations; rw [e2]; exact c.send_mem
      send_cls := by show g.cls Snd = _; rw [e3]; exact c.send_cls
      send_srcs := by show g.srcs Snd = _; rw [e7 Snd hSr]; exact c.send_srcs
      send_reader := (e8 Snd).mpr ⟨c.send_reader, hSr⟩
      send_vmvmu := c.send_vmvmu
      recv_src := by show g.recvSrc R' = _; rw [e4]; exact c.recv_src
      send_dst := by show g.sendDst Snd = _; rw [e5]; exact c.send_dst }
  constructor
  · exact {
      fresh_le := by show s0.g.fresh ≤ g.fresh; rw [e1]; exact hle
      vcore := hf.vcore
      vtile := hf.vtile
      old_assign := hf.old_assign
      old_cls := fun i hi => by show g.cls i = _; rw [e3]; exact hf.old_cls i hi
      old_recvSrc := fun i hi => by show g.recvSrc i = _; rw [e4]; exact hf.old_recvSrc i hi
      old_sendDst := fun i hi => by show g.sendDst i = _; rw [e5]; exact hf.old_sendDst i hi
      old_srcs := fun i hi hn => by
        show g.srcs i = _
        rw [e7 i (by intro he; rw [he] at hn; exact hn hr0)]
        exact hf.old_srcs i hi hn
      old_readers := fun w hw hwS => by
        show g.readers w = _
        rw [e10 w hwS (by have := c0.recv_new; omega)]
        exact hf.old_readers w hw hwS
      ops_old := fun i hi => by show i ∈ g.operations; rw [e2]; exact hf.ops_old i hi
      ops_new := fun i hi => by
        have hi' : i ∈ g.operations := hi
        rw [e2] at hi'
        show _ ∨ (_ ∧ i < g.fresh)
        rw [e1]
        exact hf.ops_new i hi' }
  · intro r' hr' hc
    have hr'r : r' ≠ r := by
      intro he
      rw [he] at hc
      rcases hc with h1 | h1
      · exact h1 (by simp)
      · exact hremote h1
    have hc' : r' ∉ seen ∨ s0.pt.getVTile r' = s0.pt.getVTile S := by
      rcases hc with h1 | h1
      · exact Or.inl (fun hm => h1 (List.mem_append_left _ hm))
      · exact Or.inr h1
    obtain ⟨k1, k2⟩ := hinv.kept r' hr' hc'
    exact ⟨by show g.srcs r' = _; rw [e7 r' hr'r]; exact k1, (e8 r').mpr ⟨k2, hr'r⟩⟩
  · intro r' tr' hr' ht' hrem
    by_cases hr'r : r' = r
    · subst hr'r
      have : tr' = tr := by
        rw [htr] at ht'
        exact (Option.some.inj ht').symm
      subst this
      exact ⟨R, hrec, e6, (e9 r').mpr (Or.inl rfl), fun hm => ((e8 r').mp hm).2 rfl⟩
    · have hs : r' ∈ seen := by
        rcases List.mem_append.mp hr' with h1 | h1
        · exact h1
        · exact absurd (List.mem_singleton.mp h1) hr'r
      obtain ⟨R', k1, k2, k3, k4⟩ := hinv.remote r' tr' hs ht' hrem
      obtain ⟨_, ⟨Snd1, c1⟩, _⟩ := hinv.chan tr' R' k1
      refine ⟨R', k1, by show g.srcs r' = _; rw [e7 r' hr'r]; exact k2, ?_,
        fun hm => k4 ((e8 r').mp hm).1⟩
      by_cases hRR : R' = R
      · rw [hRR]
        rw [hRR] at k3
        exact (e9 r').mpr (Or.inr k3)
      · show r' ∈ g.readers R'
        rw [e10 R' (by have := c1.recv_new; omega) hRR]
        exact k3
  · intro tr' R' hrec'
    obtain ⟨k1, ⟨Snd, c⟩, k3⟩ := hinv.chan tr' R' hrec'
    exact ⟨k1, ⟨Snd, hchan tr' R' Snd c⟩, k3⟩
  · intro x hx
    obtain ⟨hx1, hx2⟩ := (e8 x).mp hx
    rcases hinv.readers_S x hx1 with ⟨h1, h2⟩ | ⟨h1, h2, h3, h4⟩
    · left
      refine ⟨h1, ?_⟩
      rcases h2 with h2 | h2
      · left
        intro hm
        rcases List.mem_append.mp hm with h5 | h5
        · exact h2 h5
        · exact hx2 (List.mem_singleton.mp h5)
      · exact Or.inr h2
    · right
      refine ⟨h1, by show x < g.fresh; rw [e1]; exact h2, ?_, h4⟩
      show g.srcs x = _
      rw [e7 x hx2]
      exact h3
  · intro n hn1 hn2
    have hn2' : n < g.fresh := hn2
    rw [e1] at hn2'
    obtain ⟨tr', R', k1, k2⟩ := hinv.new_ops n hn1 hn2'
    refine ⟨tr', R', k1, ?_⟩
    rcases k2 with k2 | k2
    · exact Or.inl k2
    · right
      show g.recvSrc R' = _
      rw [e4]
      exact k2
  · intro x hx
    rcases List.mem_append.mp hx with h1 | h1
    · exact hinv.tiles x h1
    · rw [List.mem_singleton.mp h1]
      exact ⟨tr, ts, htr, hts⟩

/-- A larger list of readers served keeps the invariant. -/
theorem SendRecvInv.serve (s0 : PState) (S : Nat) (s : PState) (recvs : Nat → Option Nat)
    (seen served served' : List Nat) (hsub : ∀ x, x ∈ served → x ∈ served')
    (hinv : SendRecvInv s0 S s recvs seen served) :
    SendRecvInv s0 S s recvs seen served' where
  frame := hinv.frame
  kept := hinv.kept
  remote := hinv.remote
  chan := by
    intro tr R h
    obtain ⟨k1, k2, r, k3, k4⟩ := hinv.chan tr R h
    exact ⟨k1, k2, r, hsub r k3, k4⟩
  readers_S := hinv.readers_S
  new_ops := hinv.new_ops
  tiles := hinv.tiles

/-- The visit of a reader on the tile of the Store changes nothing. -/
theorem SendRecvInv.localReader (s0 : PState) (S : Nat) (s : PState) (recvs : Nat → Option Nat)
    (seen : List Nat) (r t : Nat)
    (hinv : SendRecvInv s0 S s recvs seen seen)
    (hts : s0.pt.getVTile S = some t) (htr : s0.pt.getVTile r = some t) :
    SendRecvInv s0 S s recvs (seen ++ [r]) (seen ++ [r]) where
  frame := hinv.frame
  kept := by
    intro r' hr' hc
    apply hinv.kept r' hr'
    rcases hc with h1 | h1
    · exact Or.inl (fun hm => h1 (List.mem_append_left _ hm))
    · exact Or.inr h1
  remote := by
    intro r' tr' hr' ht' hrem
    rcases List.mem_append.mp hr' with h1 | h1
    · exact hinv.remote r' tr' h1 ht' hrem
    · rw [List.mem_singleton.mp h1, htr] at ht'
      rw [hts] at hrem
      exact absurd ht' hrem
  chan := by
    intro tr R h
    obtain ⟨k1, k2, x, k3, k4⟩ := hinv.chan tr R h
    exact ⟨k1, k2, x, List.mem_append_left _ k3, k4⟩
  readers_S := by
    intro x hx
    rcases hinv.readers_S x hx with ⟨h1, h2⟩ | h1
    · left
      refine ⟨h1, ?_⟩
      rcases h2 with h2 | h2
      · by_cases hxr : x = r
        · right
          rw [hxr, hts, htr]
        · left
          intro hm
          rcases List.mem_append.mp hm with h5 | h5
          · exact h2 h5
          · exact hxr (List.mem_singleton.mp h5)
      · exact Or.inr h2
    · exact Or.inr h1
  new_ops := hinv.new_ops
  tiles := by
    intro x hx
    rcases List.mem_append.mp hx with h1 | h1
    · exact hinv.tiles x h1
    · rw [List.mem_singleton.mp h1]
      exact ⟨t, t, htr, hts⟩

/-- One iteration of the loop over the readers of a Store in `insertSendsAndRecives` keeps
the invariant. -/
theorem SendRecvInv.readerVisit (s0 : PState) (S : Nat) (hS : S < s0.g.fresh)
    (hread0 : ∀ x, x ∈ s0.g.readers S → x < s0.g.fresh ∧ s0.g.srcs x = [S])
    (l l' : SendRecvLoop) (seen : List Nat) (r : Nat) (rest : List Nat)
    (hsplit : s0.g.readers S = seen ++ r :: rest)
    (hinv : SendRecvInv s0 S l.st l.recvs seen seen)
    (h : insertSendsAndRecivesUser S l r = some l') :
    SendRecvInv s0 S l'.st l'.recvs (seen ++ [r]) (seen ++ [r]) := by
  obtain ⟨st, recvs⟩ := l
  simp only at hinv
  have hr0 : r ∈ s0.g.readers S := by rw [hsplit]; simp
  have hseen : ∀ x, x ∈ seen → x ∈ s0.g.readers S := by
    intro x hx
    rw [hsplit]
    exact List.mem_append_left _ hx
  have hr : r < s0.g.fresh := (hread0 r hr0).1
  unfold insertSendsAndRecivesUser at h
  simp only [Option.bind_eq_some] at h
  obtain ⟨ts, hts, tr, htr, h⟩ := h
  rw [hinv.frame.tile_eq S hS] at hts
  rw [hinv.frame.tile_eq r hr] at htr
  by_cases hne : ts ≠ tr
  · rw [if_pos hne] at h
    simp only [Option.bind_eq_some, Option.map_eq_some'] at h
    obtain ⟨p, hp, g, hg, hl'⟩ := h
    subst hl'
    cases hrec : recvs tr with
    | some R =>
      rw [hrec] at hp
      simp only [Option.some.injEq] at hp
      subst hp
      simp only
      rw [upd_idem recvs tr (some R) hrec]
      exact SendRecvInv.rewire s0 S st recvs seen r ts tr R g hS hr0 hread0
        (SendRecvInv.serve s0 S st recvs seen seen _ (fun x hx => List.mem_append_left _ hx)
          hinv) hts htr hne hrec hg
    | none =>
      rw [hrec] at hp
      simp only at hp
      have hc := SendRecvInv.newChannel s0 S st recvs seen (seen ++ [r]) r ts tr p hS hr hr0
        hread0 hseen (by simp)
        (SendRecvInv.serve s0 S st recvs seen seen _ (fun x hx => List.mem_append_left _ hx)
          hinv) hts htr hne hrec hp
      exact SendRecvInv.rewire s0 S p.1 (upd recvs tr (some p.2)) seen r ts tr p.2 g hS hr0
        hread0 hc hts htr hne (upd_same _ _ _) hg
  · rw [if_neg hne] at h
    simp only [Option.some.injEq] at h
    subst h
    have : ts = tr := by
      by_contra hc
      exact hne hc
    subst this
    exact SendRecvInv.localReader s0 S st recvs seen r ts hinv hts htr

theorem VisitFrame.unchanged (s : PState) (S : Nat) : VisitFrame s s S where
  fresh_le := le_refl _
  vcore := rfl
  vtile := rfl
  old_assign := fun _ _ => rfl
  old_cls := fun _ _ => rfl
  old_recvSrc := fun _ _ => rfl
  old_sendDst := fun _ _ => rfl
  old_srcs := fun _ _ _ => rfl
  old_readers := fun _ _ _ => rfl
  ops_old := fun _ h => h
  ops_new := fun _ h => Or.inl h

/-- The loop over the readers of a Store in `insertSendsAndRecives` ends in a state that
satisfies the invariant for all the readers. -/
theorem insertSendsAndRecivesAt_store (s0 s' : PState) (S : Nat) (hS : S < s0.g.fresh)
    (hread0 : ∀ x, x ∈ s0.g.readers S → x < s0.g.fresh ∧ s0.g.srcs x = [S])
    (hcls : s0.g.cls S = OpClass.StoreOperation)
    (h : insertSendsAndRecivesAt s0 S = some s') :
    ∃ recvs, SendRecvInv s0 S s' recvs (s0.g.readers S) (s0.g.readers S) := by
  unfold insertSendsAndRecivesAt at h
  rw [if_pos hcls] at h
  simp only [Option.map_eq_some'] at h
  obtain ⟨l, hl, hs⟩ := h
  subst hs
  have := foldlM_split_invariant (insertSendsAndRecivesUser S)
    (fun (l : SendRecvLoop) seen => SendRecvInv s0 S l.st l.recvs seen seen)
    (s0.g.readers S) [] _ l ?_ ?_ hl
  · exact ⟨l.recvs, by simpa using this⟩
  · exact {
      frame := VisitFrame.unchanged s0 S
      kept := fun r hr _ => ⟨rfl, hr⟩
      remote := fun r tr hr => absurd hr (by simp)
      chan := fun tr R hrec => absurd hrec (by simp)
      readers_S := fun x hx => Or.inl ⟨hx, Or.inl (by simp)⟩
      new_ops := fun n h1 h2 => absurd h1 (by
        have : n < s0.g.fresh := h2
        omega)
      tiles := fun x hx => absurd hx (by simp) }
  · intro b done a rest b1 hsplit hinv hstep
    exact SendRecvInv.readerVisit s0 S hS hread0 b b1 done a rest (by simpa using hsplit) hinv hstep

theorem insertSendsAndRecivesAt_other (s0 s' : PState) (S : Nat)
    (hcls : s0.g.cls S ≠ OpClass.StoreOperation)
    (h : insertSendsAndRecivesAt s0 S = some s') : s' = s0 := by
  unfold insertSendsAndRecivesAt at h
  rw [if_neg hcls] at h
  simp only [Option.some.injEq] at h
  exact h.symm

theorem PState.Channel.frame {s s' : PState} {lo S t R Snd S' : Nat}
    (c : s.Channel lo S t R Snd) (F : VisitFrame s s' S') (hS : S < s.g.fresh)
    (hSS : S ≠ S') (hSnd : Snd ∉ s.g.readers S') : s'.Channel lo S t R Snd where
  recv_new := c.recv_new
  recv_lt := lt_of_lt_of_le c.recv_lt F.fresh_le
  recv_mem := F.ops_old R c.recv_mem
  recv_cls := by rw [F.old_cls R c.recv_lt]; exact c.recv_cls
  recv_tile := by rw [F.tile_eq R c.recv_lt]; exact c.recv_tile
  send_new := c.send_new
  send_lt := lt_of_lt_of_le c.send_lt F.fresh_le
  send_mem := F.ops_old Snd c.send_mem
  send_cls := by rw [F.old_cls Snd c.send_lt]; exact c.send_cls
  send_srcs := by rw [F.old_srcs Snd c.send_lt hSnd]; exact c.send_srcs
  send_reader := by rw [F.old_readers S hS hSS]; exact c.send_reader
  send_vmvmu := by
    show s'.pt.op2vmvmu Snd = s'.pt.op2vmvmu S
    rw [F.old_assign Snd c.send_lt, F.old_assign S hS]
    exact c.send_vmvmu
  recv_src := by rw [F.old_recvSrc R c.recv_lt]; exact c.recv_src
  send_dst := by rw [F.old_sendDst Snd c.send_lt]; exact c.send_dst

theorem PState.Channel.from_le {s : PState} {lo lo' S t R Snd : Nat}
    (c : s.Channel lo S t R Snd) (h : lo' ≤ lo) : s.Channel lo' S t R Snd where
  recv_new := le_trans h c.recv_new
  recv_lt := c.recv_lt
  recv_mem := c.recv_mem
  recv_cls := c.recv_cls
  recv_tile := c.recv_tile
  send_new := le_trans h c.send_new
  send_lt := c.send_lt
  send_mem := c.send_mem
  send_cls := c.send_cls
  send_srcs := c.send_srcs
  send_reader := c.send_reader
  send_vmvmu := c.send_vmvmu
  recv_src := c.recv_src
  send_dst := c.send_dst

/-- The visit of a Store by `insertSendsAndRecives` keeps the invariant of the pass. -/
theorem SendRecvPass.store (st : PState) (hwf : st.ReadersLinked) (s s' : PState)
    (done : List Nat) (op : Nat) (hop : op ∈ st.g.operations) (hnd : op ∉ done)
    (hcls : st.g.cls op = OpClass.StoreOperation)
    (hinv : SendRecvPass st s done) (h : insertSendsAndRecivesAt s op = some s') :
    SendRecvPass st s' (done ++ [op]) := by
  have hop0 : op < st.g.fresh := hwf.below op hop
  have hle := hinv.fresh_le
  have hops : op < s.g.fresh := by omega
  have hvt : ∀ i, i < st.g.fresh → s.pt.getVTile i = st.pt.getVTile i := fun i hi =>
    Partitioner.getVTile_congr _ _ _ _ (hinv.old_assign i hi) hinv.vcore hinv.vtile
  have hrd : s.g.readers op = st.g.readers op := hinv.pending op hop hcls hnd
  have hread0 : ∀ x, x ∈ s.g.readers op → x < s.g.fresh ∧ s.g.srcs x = [op] :=
    hinv.linked op hop hcls
  obtain ⟨recvs, I⟩ := insertSendsAndRecivesAt_store s s' op hops hread0
    (by rw [hinv.old_cls op hop0]; exact hcls) h
  have F := I.frame
  have hvt' : ∀ i, i < s.g.fresh → s'.pt.getVTile i = s.pt.getVTile i := fun i hi =>
    F.tile_eq i hi
  have hrlt : ∀ S, S ∈ st.g.operations → st.g.cls S = OpClass.StoreOperation →
      ∀ r, r ∈ st.g.readers S → r < st.g.fresh := fun S hS hc r hr =>
    hwf.below r (hwf.readers S hS hc r hr).1
  have hall : ∀ x, x ∈ s.g.readers op → x ∈ s.g.readers op := fun _ hx => hx
  -- a reader whose source is not `op` is not a reader of `op`
  have hnot : ∀ r a, s.g.srcs r = [a] → a ≠ op → r ∉ s.g.readers op := by
    intro r a hs hne hm
    have := (hread0 r hm).2
    rw [hs] at this
    exact hne (by simpa using this)
  have hmem : ∀ S, S ∈ done ++ [op] → S ≠ op → S ∈ done := by
    intro S hS hne
    rcases List.mem_append.mp hS with h1 | h1
    · exact h1
    · exact absurd (List.mem_singleton.mp h1) hne
  have hdone_ne : ∀ S, S ∈ done → S ≠ op := fun S hS he => hnd (he ▸ hS)
  -- the sources of the readers of the Stores visited before do not change
  have hsrcs_done : ∀ S, S ∈ done → st.g.cls S = OpClass.StoreOperation →
      ∀ r, r ∈ st.g.readers S → s'.g.srcs r = s.g.srcs r := by
    intro S hS hc r hr
    have hS' := hinv.done_sub S hS
    have hr0 : r < s.g.fresh := lt_of_lt_of_le (hrlt S hS' hc r hr) hle
    obtain ⟨tr, ts, h1, h2⟩ := hinv.tiles S hS hc r hr
    by_cases hloc : tr = ts
    · obtain ⟨k1, _⟩ := hinv.kept S hS hc r hr (by rw [h1, h2, hloc])
      exact F.old_srcs r hr0 (hnot r S k1 (hdone_ne S hS))
    · obtain ⟨R, Snd, k1, _, _, c⟩ := hinv.remote S hS hc r tr hr h1 (by
        rw [h2]; intro he; exact hloc (Option.some.inj he).symm)
      exact F.old_srcs r hr0 (hnot r R k1 (by have := c.recv_new; omega))
  have hchan_done : ∀ S t R Snd, S ∈ done → s.Channel st.g.fresh S t R Snd →
      s'.Channel st.g.fresh S t R Snd := by
    intro S t R Snd hS c
    exact c.frame F (lt_of_lt_of_le (hwf.below S (hinv.done_sub S hS)) hle) (hdone_ne S hS)
      (hnot Snd S c.send_srcs (hdone_ne S hS))
  constructor
  · exact le_trans hle F.fresh_le
  · rw [F.vcore, hinv.vcore]
  · rw [F.vtile, hinv.vtile]
  · intro i hi
    rw [F.old_assign i (by omega), hinv.old_assign i hi]
  · intro i hi
    rw [F.old_cls i (by omega), hinv.old_cls i hi]
  · intro i hi
    exact F.ops_old i (hinv.ops_old i hi)
  · intro i hi
    rcases F.ops_new i hi with h1 | h1
    · rcases hinv.ops_new i h1 with h2 | h2
      · exact Or.inl h2
      · exact Or.inr ⟨h2.1, lt_of_lt_of_le h2.2 F.fresh_le⟩
    · exact Or.inr ⟨by omega, h1.2⟩
  · intro S hS
    rcases List.mem_append.mp hS with h1 | h1
    · exact hinv.done_sub S h1
    · rw [List.mem_singleton.mp h1]
      exact hop
  · intro S hS hc r hr
    by_cases hSo : S = op
    · subst hSo
      rcases I.readers_S r hr with ⟨h1, h2⟩ | ⟨h1, h2, h3, _⟩
      · have hloc : s.pt.getVTile r = s.pt.getVTile S := by
          rcases h2 with h2 | h2
          · exact absurd h1 h2
          · exact h2
        obtain ⟨k1, _⟩ := I.kept r h1 (Or.inr hloc)
        exact ⟨lt_of_lt_of_le (hread0 r h1).1 F.fresh_le, by rw [k1]; exact (hread0 r h1).2⟩
      · exact ⟨h2, h3⟩
    · have hS0 : S < s.g.fresh := lt_of_lt_of_le (hwf.below S hS) hle
      rw [F.old_readers S hS0 hSo] at hr
      obtain ⟨k1, k2⟩ := hinv.linked S hS hc r hr
      exact ⟨lt_of_lt_of_le k1 F.fresh_le, by rw [F.old_srcs r k1 (hnot r S k2 hSo)]; exact k2⟩
  · intro S hS hc hn
    have hSo : S ≠ op := fun he => hn (by rw [he]; simp)
    have hS0 : S < s.g.fresh := lt_of_lt_of_le (hwf.below S hS) hle
    rw [F.old_readers S hS0 hSo]
    exact hinv.pending S hS hc (fun hm => hn (List.mem_append_left _ hm))
  · intro S hS hc x hx
    by_cases hSo : S = op
    · subst hSo
      rcases I.readers_S x hx with ⟨h1, h2⟩ | ⟨h1, h2, h3, h4⟩
      · have hloc : s.pt.getVTile x = s.pt.getVTile S := by
          rcases h2 with h2 | h2
          · exact absurd h1 h2
          · exact h2
        obtain ⟨tr, ts, k1, k2⟩ := I.tiles x h1
        refine ⟨tr, by rw [hvt' x (hread0 x h1).1]; exact k1, ?_⟩
        rw [hvt' S hops, ← hloc]
        exact k1
      · obtain ⟨tr, R, k1, _⟩ := I.new_ops x h1 h2
        obtain ⟨_, _, r, k2, _, _⟩ := I.chan tr R k1
        obtain ⟨_, ts, _, k3⟩ := I.tiles r k2
        refine ⟨ts, ?_, by rw [hvt' S hops]; exact k3⟩
        rw [← k3]
        exact Partitioner.getVTile_congr _ _ _ _ h4 F.vcore F.vtile
    · have hSd := hmem S hS hSo
      have hS0 : S < s.g.fresh := lt_of_lt_of_le (hwf.below S (hinv.done_sub S hSd)) hle
      rw [F.old_readers S hS0 hSo] at hx
      obtain ⟨t, k1, k2⟩ := hinv.onTile S hSd hc x hx
      have hx0 := (hinv.linked S (hinv.done_sub S hSd) hc x hx).1
      exact ⟨t, by rw [hvt' x hx0]; exact k1, by rw [hvt' S hS0]; exact k2⟩
  · intro S hS hc r hr
    by_cases hSo : S = op
    · subst hSo
      rw [← hrd] at hr
      obtain ⟨tr, ts, k1, k2⟩ := I.tiles r hr
      exact ⟨tr, ts, by rw [← hvt r (hrlt S hop hc r (hrd ▸ hr))]; exact k1,
        by rw [← hvt S hop0]; exact k2⟩
    · exact hinv.tiles S (hmem S hS hSo) hc r hr
  · intro S hS hc r hr hloc
    by_cases hSo : S = op
    · subst hSo
      have hr' : r ∈ s.g.readers S := by rw [hrd]; exact hr
      obtain ⟨k1, k2⟩ := I.kept r hr' (Or.inr (by
        rw [hvt r (hrlt S hop hc r hr), hvt S hop0]; exact hloc))
      exact ⟨by rw [k1]; exact (hread0 r hr').2, k2⟩
    · have hSd := hmem S hS hSo
      obtain ⟨k1, k2⟩ := hinv.kept S hSd hc r hr hloc
      have hS0 : S < s.g.fresh := lt_of_lt_of_le (hwf.below S (hinv.done_sub S hSd)) hle
      exact ⟨by rw [hsrcs_done S hSd hc r hr]; exact k1,
        by rw [F.old_readers S hS0 hSo]; exact k2⟩
  · intro S hS hc r tr hr htr hrem
    by_cases hSo : S = op
    · subst hSo
      have hr' : r ∈ s.g.readers S := by rw [hrd]; exact hr
      obtain ⟨R, k1, k2, k3, k4⟩ := I.remote r tr hr'
        (by rw [hvt r (hrlt S hop hc r hr)]; exact htr) (by rw [hvt S hop0]; exact hrem)
      obtain ⟨_, ⟨Snd, c⟩, _⟩ := I.chan tr R k1
      exact ⟨R, Snd, k2, k3, k4, c.from_le hle⟩
    · have hSd := hmem S hS hSo
      obtain ⟨R, Snd, k1, k2, k3, c⟩ := hinv.remote S hSd hc r tr hr htr hrem
      have hS0 : S < s.g.fresh := lt_of_lt_of_le (hwf.below S (hinv.done_sub S hSd)) hle
      refine ⟨R, Snd, by rw [hsrcs_done S hSd hc r hr]; exact k1, ?_, ?_,
        hchan_done S tr R Snd hSd c⟩
      · rw [F.old_readers R c.recv_lt (by have := c.recv_new; omega)]
        exact k2
      · rw [F.old_readers S hS0 hSo]
        exact k3
  · intro S hS hc r1 r2 hr1 hr2 hsame hrem
    by_cases hSo : S = op
    · subst hSo
      have hr1' : r1 ∈ s.g.readers S := by rw [hrd]; exact hr1
      have hr2' : r2 ∈ s.g.readers S := by rw [hrd]; exact hr2
      obtain ⟨tr, ts, k1, k2⟩ := I.tiles r1 hr1'
      have e1 : st.pt.getVTile r1 = some tr := by
        rw [← hvt r1 (hrlt S hop hc r1 hr1)]; exact k1
      have e2 : s.pt.getVTile r2 = some tr := by
        rw [hvt r2 (hrlt S hop hc r2 hr2), ← hsame]; exact e1
      have e3 : s.pt.getVTile S ≠ some tr := by
        rw [hvt S hop0, ← e1]
        exact fun he => hrem he.symm
      obtain ⟨R1, a1, a2, _, _⟩ := I.remote r1 tr hr1' k1 e3
      obtain ⟨R2, b1, b2, _, _⟩ := I.remote r2 tr hr2' e2 e3
      rw [a1] at b1
      rw [a2, b2, Option.some.inj b1]
    · have hSd := hmem S hS hSo
      rw [hsrcs_done S hSd hc r1 hr1, hsrcs_done S hSd hc r2 hr2]
      exact hinv.sameTile S hSd hc r1 r2 hr1 hr2 hsame hrem
  · intro n hn1 hn2
    by_cases hlt : n < s.g.fresh
    · obtain ⟨S, r, R, Snd, t, k1, k2, k3, k4, k5, k6, c, k7⟩ := hinv.new_ops n hn1 hlt
      exact ⟨S, r, R, Snd, t, List.mem_append_left _ k1, k2, k3, k4, k5,
        by rw [hsrcs_done S k1 k2 r k3]; exact k6, hchan_done S t R Snd k1 c, k7⟩
    · obtain ⟨tr, R, k1, k2⟩ := I.new_ops n (by omega) hn2
      obtain ⟨k3, ⟨Snd, c⟩, r, k4, k5, k6⟩ := I.chan tr R k1
      obtain ⟨R', a1, a2, _, _⟩ := I.remote r tr k4 k6 k3
      rw [k1] at a1
      have hRR : R = R' := Option.some.inj a1
      have hr : r ∈ st.g.readers op := by rw [← hrd]; exact k5
      refine ⟨op, r, R, Snd, tr, by simp, hcls, hr,
        by rw [← hvt r (hrlt op hop hcls r hr)]; exact k6,
        by rw [← hvt op hop0]; exact k3, by rw [hRR]; exact a2, c.from_le hle, ?_⟩
      rcases k2 with k2 | k2
      · exact Or.inl k2
      · right
        rw [c.recv_src] at k2
        exact (Option.some.inj k2).symm

/-- The visit of an operation that is not a Store keeps the invariant of the pass. -/
theorem SendRecvPass.notStore (st : PState) (s : PState) (done : List Nat) (op : Nat)
    (hop : op ∈ st.g.operations) (hcls : st.g.cls op ≠ OpClass.StoreOperation)
    (hinv : SendRecvPass st s done) : SendRecvPass st s (done ++ [op]) := by
  have hmem : ∀ S, S ∈ done ++ [op] → st.g.cls S = OpClass.StoreOperation → S ∈ done := by
    intro S hS hc
    rcases List.mem_append.mp hS with h1 | h1
    · exact h1
    · rw [List.mem_singleton.mp h1] at hc
      exact absurd hc hcls
  exact {
    fresh_le := hinv.fresh_le
    vcore := hinv.vcore
    vtile := hinv.vtile
    old_assign := hinv.old_assign
    old_cls := hinv.old_cls
    ops_old := hinv.ops_old
    ops_new := hinv.ops_new
    done_sub := by
      intro S hS
      rcases List.mem_append.mp hS with h1 | h1
      · exact hinv.done_sub S h1
      · rw [List.mem_singleton.mp h1]
        exact hop
    linked := hinv.linked
    pending := fun S hS hc hn =>
      hinv.pending S hS hc (fun hm => hn (List.mem_append_left _ hm))
    onTile := fun S hS hc => hinv.onTile S (hmem S hS hc) hc
    tiles := fun S hS hc => hinv.tiles S (hmem S hS hc) hc
    kept := fun S hS hc => hinv.kept S (hmem S hS hc) hc
    remote := fun S hS hc => hinv.remote S (hmem S hS hc) hc
    sameTile := fun S hS hc => hinv.sameTile S (hmem S hS hc) hc
    new_ops := by
      intro n h1 h2
      obtain ⟨S, r, R, Snd, t, k1, k⟩ := hinv.new_ops n h1 h2
      exact ⟨S, r, R, Snd, t, List.mem_append_left _ k1, k⟩ }

/-- The pass `insertSendsAndRecives` ends in a state that satisfies the invariant for all
the operations. -/
theorem insertSendsAndRecives_pass (st st' : PState) (hwf : st.ReadersLinked)
    (h : insertSendsAndRecives st = some st') : SendRecvPass st st' st.g.operations := by
  unfold insertSendsAndRecives at h
  have := foldlM_split_invariant insertSendsAndRecivesAt (SendRecvPass st) st.g.operations
    [] st st' ?_ ?_ h
  · simpa using this
  · exact {
      fresh_le := le_refl _
      vcore := rfl
      vtile := rfl
      old_assign := fun _ _ => rfl
      old_cls := fun _ _ => rfl
      ops_old := fun _ h => h
      ops_new := fun _ h => Or.inl h
      done_sub := fun S hS => absurd hS (by simp)
      linked := fun S hS hc r hr =>
        ⟨hwf.below r (hwf.readers S hS hc r hr).1, (hwf.readers S hS hc r hr).2⟩
      pending := fun _ _ _ _ => rfl
      onTile := fun S hS => absurd hS (by simp)
      tiles := fun S hS => absurd hS (by simp)
      kept := fun S hS => absurd hS (by simp)
      remote := fun S hS => absurd hS (by simp)
      sameTile := fun S hS => absurd hS (by simp)
      new_ops := fun n h1 h2 => absurd h1 (by omega) }
  · intro s done op rest s1 hsplit hinv hstep
    have hsplit' : st.g.operations = done ++ op :: rest := by simpa using hsplit
    have hop : op ∈ st.g.operations := by rw [hsplit']; simp
    have hnd : op ∉ done := by
      have hn := hwf.nodup
      rw [hsplit'] at hn
      intro hm
      have := (List.nodup_append.mp hn).2.2
      exact this hm (List.mem_cons_self _ _)
    by_cases hcls : st.g.cls op = OpClass.StoreOperation
    · exact SendRecvPass.store st hwf s s1 done op hop hnd hcls hinv hstep
    · have hs := insertSendsAndRecivesAt_other s s1 op (by
        rw [hinv.old_cls op (hwf.below op hop)]; exact hcls) hstep
      subst hs
      exact SendRecvPass.notStore st s1 done op hop hcls hinv

/-- Claim C5. When `insertSendsAndRecives` runs to its end on a DAG whose tile memory edges
out of the Stores are well formed: afterwards every tile memory reader of every Store is on
the virtual tile of the Store; a reader that was on the tile of its Store still reads the
Store; a reader `r` on another tile `tr` reads, instead of the Store `S`, a Receive `R`
created by the pass that is on the tile `tr` and is the destination of a Send created by
the pass, which reads `S`, has the virtual MVMU of `S` and is a reader of `S`; two readers
of one Store on the same remote tile read the same Receive; every operation that the pass
creates is the Receive or the Send of such a reader; and for one Store and one tile there
is at most one such pair of a Receive and a Send. -/
theorem insertSendsAndRecives_routes_remote_readers (st st' : PState)
    (hwf : st.ReadersLinked) (h : insertSendsAndRecives st = some st') :
    (∀ S, S ∈ st'.g.operations → st'.g.cls S = OpClass.StoreOperation →
      ∀ x, x ∈ st'.g.readers S →
        ∃ t, st'.pt.getVTile x = some t ∧ st'.pt.getVTile S = some t)
    ∧ (∀ S r, S ∈ st.g.operations → st.g.cls S = OpClass.StoreOperation →
        r ∈ st.g.readers S →
        (st.pt.getVTile r = st.pt.getVTile S → st'.g.srcs r = [S] ∧ r ∈ st'.g.readers S)
        ∧ (∀ tr, st.pt.getVTile r = some tr → st.pt.getVTile S ≠ some tr →
            ∃ R Snd, st'.g.srcs r = [R] ∧ r ∈ st'.g.readers R ∧ r ∉ st'.g.readers S
              ∧ st'.Channel st.g.fresh S tr R Snd))
    ∧ (∀ S r1 r2, S ∈ st.g.operations → st.g.cls S = OpClass.StoreOperation →
        r1 ∈ st.g.readers S → r2 ∈ st.g.readers S →
        st.pt.getVTile r1 = st.pt.getVTile r2 → st.pt.getVTile r1 ≠ st.pt.getVTile S →
        st'.g.srcs r1 = st'.g.srcs r2)
    ∧ (∀ n, n ∈ st'.g.operations → n ∉ st.g.operations →
        ∃ S r R Snd t, S ∈ st.g.operations ∧ st.g.cls S = OpClass.StoreOperation
          ∧ r ∈ st.g.readers S ∧ st.pt.getVTile r = some t ∧ st.pt.getVTile S ≠ some t
          ∧ st'.g.srcs r = [R] ∧ st'.Channel st.g.fresh S t R Snd ∧ (n = R ∨ n = Snd))
    ∧ (∀ S t R1 Snd1 R2 Snd2, st'.Channel st.g.fresh S t R1 Snd1 →
        st'.Channel st.g.fresh S t R2 Snd2 → R1 = R2 ∧ Snd1 = Snd2) := by
  have hp := insertSendsAndRecives_pass st st' hwf h
  have hnew : ∀ n, n ∈ st'.g.operations → n ∉ st.g.operations →
      ∃ S r R Snd t, S ∈ st.g.operations ∧ st.g.cls S = OpClass.StoreOperation
        ∧ r ∈ st.g.readers S ∧ st.pt.getVTile r = some t ∧ st.pt.getVTile S ≠ some t
        ∧ st'.g.srcs r = [R] ∧ st'.Channel st.g.fresh S t R Snd ∧ (n = R ∨ n = Snd) := by
    intro n hn hnot
    rcases hp.ops_new n hn with h1 | h1
    · exact absurd h1 hnot
    · exact hp.new_ops n h1.1 h1.2
  -- the reader that a Receive of the pass serves
  have hserved : ∀ S t R Snd, st'.Channel st.g.fresh S t R Snd →
      S ∈ st.g.operations ∧ st.g.cls S = OpClass.StoreOperation
      ∧ ∃ r, r ∈ st.g.readers S ∧ st.pt.getVTile r = some t
        ∧ st.pt.getVTile S ≠ some t ∧ st'.g.srcs r = [R] := by
    intro S t R Snd c
    obtain ⟨S1, r, R', Snd', t', k1, k2, k3, k4, k5, k6, c', k7⟩ :=
      hp.new_ops R c.recv_new c.recv_lt
    have hR : R = R' := by
      rcases k7 with k7 | k7
      · exact k7
      · have h1 := c.recv_cls
        rw [k7, c'.send_cls] at h1
        exact absurd h1 (by simp)
    subst hR
    have hSnd : Snd = Snd' := by
      have h1 := c.recv_src
      rw [c'.recv_src] at h1
      exact (Option.some.inj h1).symm
    subst hSnd
    have hS : S = S1 := by
      have h1 := c.send_srcs
      rw [c'.send_srcs] at h1
      simpa using h1.symm
    subst hS
    have ht : t = t' := by
      have h1 := c.recv_tile
      rw [c'.recv_tile] at h1
      exact (Option.some.inj h1).symm
    subst ht
    exact ⟨k1, k2, r, k3, k4, k5, k6⟩
  refine ⟨?_, ?_, ?_, hnew, ?_⟩
  · intro S hS hc x hx
    have hS0 : S ∈ st.g.operations := by
      by_contra hnot
      obtain ⟨S1, r, R, Snd, t, _, _, _, _, _, _, c, k7⟩ := hnew S hS hnot
      rcases k7 with k7 | k7
      · rw [k7, c.recv_cls] at hc
        exact absurd hc (by simp)
      · rw [k7, c.send_cls] at hc
        exact absurd hc (by simp)
    have hc0 : st.g.cls S = OpClass.StoreOperation := by
      rw [← hp.old_cls S (hwf.below S hS0)]; exact hc
    exact hp.onTile S hS0 hc0 x hx
  · intro S r hS hc hr
    exact ⟨hp.kept S hS hc r hr, fun tr => hp.remote S hS hc r tr hr⟩
  · intro S r1 r2 hS hc
    exact hp.sameTile S hS hc r1 r2
  · intro S t R1 Snd1 R2 Snd2 c1 c2
    obtain ⟨hS, hc, r1, a1, a2, a3, a4⟩ := hserved S t R1 Snd1 c1
    obtain ⟨_, _, r2, b1, b2, _, b4⟩ := hserved S t R2 Snd2 c2
    have := hp.sameTile S hS hc r1 r2 a1 b1 (by rw [a2, b2]) (by
      rw [a2]; exact fun he => a3 he.symm)
    rw [a4, b4] at this
    have hR : R1 = R2 := by simpa using this
    subst hR
    have h1 := c1.recv_src
    rw [c2.recv_src] at h1
    exact ⟨rfl, (Option.some.inj h1).symm⟩

theorem insertSendsAndRecives_routes_remote_readers_witness :
    ∃ st st', insertLoadsAndStores spreadState = some st
      ∧ st.ReadersLinked
      ∧ insertSendsAndRecives st = some st'
      ∧ (∀ S, S ∈ st'.g.operations → st'.g.cls S = OpClass.StoreOperation →
          ∀ x, x ∈ st'.g.readers S →
            ∃ t, st'.pt.getVTile x = some t ∧ st'.pt.getVTile S = some t) := by
  have hd : (match insertLoadsAndStores spreadState with
    | some st => decide ((∀ i, i ∈ st.g.operations → i < st.g.fresh)
        ∧ st.g.operations.Nodup
        ∧ (∀ S, S ∈ st.g.operations → st.g.cls S = OpClass.StoreOperation →
            ∀ r, r ∈ st.g.readers S → r ∈ st.g.operations ∧ st.g.srcs r = [S]))
        && (insertSendsAndRecives st).isSome
    | none => false) = true := by decide
  cases hst : insertLoadsAndStores spreadState with
  | none =>
    rw [hst] at hd
    exact absurd hd (by simp)
  | some st =>
    rw [hst] at hd
    simp only [Bool.and_eq_true, decide_eq_true_eq] at hd
    obtain ⟨⟨h1, h2, h3⟩, h4⟩ := hd
    obtain ⟨st', hst'⟩ := Option.isSome_iff_exists.mp h4
    have hwf : st.ReadersLinked := ⟨h1, h2, h3⟩
    exact ⟨st, st', rfl, hwf, hst',
      (insertSendsAndRecives_routes_remote_readers st st' hwf hst').1⟩

/-! ## Reloads of spilled registers -/

/-- A step of the allocation loop that leaves the DAG and the tile memory addresses
unchanged and adds nothing to the live operations and to the tracker keeps the
invariant. -/
theorem DataInv.of_same_graph (f0 : Nat) (orig : Nat → List Nat) (l l' : DataLoop)
    (hinv : DataInv f0 orig l) (hg : l'.g = l.g) (hm : l'.mem = l.mem)
    (hlive : ∀ p, p ∈ l'.liveNow → p ∈ l.liveNow)
    (hsp : l'.spillTracker.producer2spill = l.spillTracker.producer2spill)
    (hre : ∀ p L, l'.spillTracker.producer2reload p = some L →
      l.spillTracker.producer2reload p = some L) : DataInv f0 orig l' where
  spill := by rw [hg, hm]; exact hinv.spill
  live := fun p hp => hinv.live p (hlive p hp)
  spilled := by
    intro p St h
    rw [hsp] at h
    rw [hg]
    exact hinv.spilled p St h
  reloaded := by
    intro p L h
    rw [hsp, hg]
    exact hinv.reloaded p L (hre p L h)

theorem SpillTracker.killLiveNowReload_spec (t t' : SpillTracker) (load : Nat)
    (h : t.killLiveNowReload load = some t') :
    t'.producer2spill = t.producer2spill
    ∧ ∀ p L, t'.producer2reload p = some L → t.producer2reload p = some L := by
  unfold SpillTracker.killLiveNowReload at h
  simp only [Option.map_eq_some'] at h
  obtain ⟨producer, _, ht⟩ := h
  subst ht
  refine ⟨rfl, ?_⟩
  intro p L hp
  have hp' : upd t.producer2reload producer none p = some L := hp
  by_cases hpp : p = producer
  · rw [hpp, upd_same] at hp'
    exact absurd hp' (by simp)
  · rw [upd_other _ _ hpp] at hp'
    exact hp'

theorem killReloadAt_inv (f0 : Nat) (orig : Nat → List Nat) (length : Nat)
    (consumer : Option Nat) (s s' : Option Nat × DataLoop) (producerToKill : Nat)
    (hinv : DataInv f0 orig s.2) (h : killReloadAt length consumer s producerToKill = some s') :
    DataInv f0 orig s'.2 := by
  unfold killReloadAt at h
  cases hf : s.1 with
  | some reg =>
    rw [hf] at h
    simp only [Option.some.injEq] at h
    rw [← h]
    exact hinv
  | none =>
    rw [hf] at h
    simp only [Option.bind_eq_some] at h
    obtain ⟨reloadToKill, _, h⟩ := h
    split at h
    · simp only [Option.bind_eq_some, Option.map_eq_some'] at h
      obtain ⟨t, ht, r, _, a, _, p, _, hs⟩ := h
      obtain ⟨k1, k2⟩ := SpillTracker.killLiveNowReload_spec _ _ _ ht
      rw [← hs]
      exact DataInv.of_same_graph f0 orig s.2 _ hinv rfl rfl (fun _ hp => hp) k1 k2
    · simp only [Option.some.injEq] at h
      rw [← h]
      exact hinv

/-- The creation of the SetImmediate and of the Store of a spill in
`allocateRegistersWithSpilling`. -/
theorem newSpill_spec (g g3 : Graph) (addr P : Nat) (hP : P < g.fresh)
    (h : ((g.newSetImmediate addr 1).2.newStore P).2.addStoreAddressOperand
      ((g.newSetImmediate addr 1).2.newStore P).1 (g.newSetImmediate addr 1).1 = some g3) :
    g3.fresh = g.fresh + 2
    ∧ (∀ i, i < g.fresh → g3.cls i = g.cls i)
    ∧ (∀ i, i < g.fresh → g3.imm i = g.imm i)
    ∧ (∀ i, i < g.fresh → g3.srcs i = g.srcs i)
    ∧ (∀ i, i < g.fresh → g3.operands i = g.operands i)
    ∧ (∀ i, i < g.fresh → g3.length i = g.length i)
    ∧ g3.cls g.fresh = OpClass.SetImmediateOperation
    ∧ g3.imm g.fresh = addr
    ∧ g3.cls (g.fresh + 1) = OpClass.StoreOperation
    ∧ g3.operands (g.fresh + 1) = [P, g.fresh] := by
  unfold Graph.addStoreAddressOperand at h
  split at h
  · simp only [Option.some.injEq] at h
    subst h
    have h1 : g.fresh ≠ g.fresh + 1 := by omega
    have h2 : P ≠ g.fresh := by omega
    have h3 : P ≠ g.fresh + 1 := by omega
    refine ⟨rfl, ?_, ?_, ?_, ?_, ?_, ?_, ?_, ?_, ?_⟩
    · intro i hi
      show upd (upd g.cls g.fresh _) (g.fresh + 1) _ i = _
      rw [upd_other _ _ (by omega), upd_other _ _ (by omega)]
    · intro i hi
      show upd (upd (upd g.imm g.fresh 0) g.fresh addr) (g.fresh + 1) 0 i = _
      rw [upd_other _ _ (by omega), upd_other _ _ (by omega), upd_other _ _ (by omega)]
    · intro i hi
      show upd (upd g.srcs g.fresh []) (g.fresh + 1) [] i = _
      rw [upd_other _ _ (by omega), upd_other _ _ (by omega)]
    · intro i hi
      show upd (upd (upd (upd g.operands g.fresh []) (g.fresh + 1) []) (g.fresh + 1) [P])
        (g.fresh + 1) _ i = _
      rw [upd_other _ _ (by omega), upd_other _ _ (by omega), upd_other _ _ (by omega),
        upd_other _ _ (by omega)]
    · intro i hi
      show upd (upd g.length g.fresh 1) (g.fresh + 1) _ i = _
      rw [upd_other _ _ (by omega), upd_other _ _ (by omega)]
    · show upd (upd g.cls g.fresh _) (g.fresh + 1) _ g.fresh = _
      rw [upd_other _ _ h1, upd_same]
    · show upd (upd (upd g.imm g.fresh 0) g.fresh addr) (g.fresh + 1) 0 g.fresh = _
      rw [upd_other _ _ h1, upd_same]
    · show upd (upd g.cls g.fresh _) (g.fresh + 1) _ (g.fresh + 1) = _
      rw [upd_same]
    · show upd (upd (upd (upd g.operands g.fresh []) (g.fresh + 1) []) (g.fresh + 1) [P])
        (g.fresh + 1) (upd (upd (upd g.operands g.fresh []) (g.fresh + 1) []) (g.fresh + 1) [P]
          (g.fresh + 1) ++ [g.fresh]) (g.fresh + 1) = _
      rw [upd_same, upd_same]
      rfl
  · exact absurd h (by simp)

/-- The creation of the SetImmediate and of the Load of a reload in
`allocateDataRegisters`. -/
theorem newReload_spec (g g3 : Graph) (addr St : Nat)
    (h : ((g.newSetImmediate addr 1).2.newLoad St).2.addLoadAddressOperand
      ((g.newSetImmediate addr 1).2.newLoad St).1 (g.newSetImmediate addr 1).1 = some g3) :
    g3.fresh = g.fresh + 2
    ∧ (∀ i, i < g.fresh → g3.cls i = g.cls i)
    ∧ (∀ i, i < g.fresh → g3.imm i = g.imm i)
    ∧ (∀ i, i < g.fresh → g3.srcs i = g.srcs i)
    ∧ (∀ i, i < g.fresh → g3.operands i = g.operands i)
    ∧ (∀ i, i < g.fresh → g3.length i = g.length i)
    ∧ g3.cls g.fresh = OpClass.SetImmediateOperation
    ∧ g3.imm g.fresh = addr
    ∧ g3.cls (g.fresh + 1) = OpClass.LoadOperation
    ∧ g3.operands (g.fresh + 1) = [g.fresh]
    ∧ g3.srcs (g.fresh + 1) = [St] := by
  unfold Graph.addLoadAddressOperand at h
  split at h
  · simp only [Option.some.injEq] at h
    subst h
    have h1 : g.fresh ≠ g.fresh + 1 := by omega
    refine ⟨rfl, ?_, ?_, ?_, ?_, ?_, ?_, ?_, ?_, ?_, ?_⟩
    · intro i hi
      show upd (upd g.cls g.fresh _) (g.fresh + 1) _ i = _
      rw [upd_other _ _ (by omega), upd_other _ _ (by omega)]
    · intro i hi
      show upd (upd (upd g.imm g.fresh 0) g.fresh addr) (g.fresh + 1) 0 i = _
      rw [upd_other _ _ (by omega), upd_other _ _ (by omega), upd_other _ _ (by omega)]
    · intro i hi
      show upd (upd (upd g.srcs g.fresh []) (g.fresh + 1) []) (g.fresh + 1) [St] i = _
      rw [upd_other _ _ (by omega), upd_other _ _ (by omega), upd_other _ _ (by omega)]
    · intro i hi
      show upd (upd (upd g.operands g.fresh []) (g.fresh + 1) []) (g.fresh + 1) _ i = _
      rw [upd_other _ _ (by omega), upd_other _ _ (by omega), upd_other _ _ (by omega)]
    · intro i hi
      show upd (upd g.length g.fresh 1) (g.fresh + 1) _ i = _
      rw [upd_other _ _ (by omega), upd_other _ _ (by omega)]
    · show upd (upd g.cls g.fresh _) (g.fresh + 1) _ g.fresh = _
      rw [upd_other _ _ h1, upd_same]
    · show upd (upd (upd g.imm g.fresh 0) g.fresh addr) (g.fresh + 1) 0 g.fresh = _
      rw [upd_other _ _ h1, upd_same]
    · show upd (upd g.cls g.fresh _) (g.fresh + 1) _ (g.fresh + 1) = _
      rw [upd_same]
    · show upd (upd (upd g.operands g.fresh []) (g.fresh + 1) []) (g.fresh + 1)
        (upd (upd g.operands g.fresh []) (g.fresh + 1) [] (g.fresh + 1) ++ [g.fresh])
        (g.fresh + 1) = _
      rw [upd_same, upd_same]
      rfl
    · show upd (upd (upd g.srcs g.fresh []) (g.fresh + 1) []) (g.fresh + 1) [St]
        (g.fresh + 1) = _
      rw [upd_same]
  · exact absurd h (by simp)

/-- What a step of the register allocator that creates operations keeps of the operations
from `f0` on and of the operand vectors below `f0`. -/
theorem SpillInv.extend (f0 : Nat) (orig : Nat → List Nat) (g g' : Graph)
    (mem mem' : MemoryAllocator) (hinv : SpillInv f0 orig g mem)
    (hfresh : g.fresh ≤ g'.fresh)
    (hcls : ∀ i, i < g.fresh → g'.cls i = g.cls i)
    (himm : ∀ i, i < g.fresh → g'.imm i = g.imm i)
    (hsrcs : ∀ i, i < g.fresh → g'.srcs i = g.srcs i)
    (hopnd : ∀ i, i < g.fresh → g'.operands i = g.operands i)
    (hmem : ∀ i, i < g.fresh → mem'.op2mem i = mem.op2mem i)
    (hloads : ∀ L, g.fresh ≤ L → L < g'.fresh → g'.cls L = OpClass.LoadOperation →
      ∃ St seti a, g'.srcs L = [St] ∧ f0 ≤ St ∧ St < g'.fresh
        ∧ g'.cls St = OpClass.StoreOperation ∧ g'.operands L = [seti]
        ∧ f0 ≤ seti ∧ seti < g'.fresh ∧ g'.cls seti = OpClass.SetImmediateOperation
        ∧ g'.imm seti = a ∧ mem'.op2mem St = some a)
    (hstores : ∀ St, g.fresh ≤ St → St < g'.fresh → g'.cls St = OpClass.StoreOperation →
      ∃ p setiS a, g'.operands St = [p, setiS] ∧ p < f0
        ∧ f0 ≤ setiS ∧ setiS < g'.fresh ∧ g'.cls setiS = OpClass.SetImmediateOperation
        ∧ g'.imm setiS = a ∧ mem'.op2mem St = some a) :
    SpillInv f0 orig g' mem' := by
  have hf := hinv.fresh_le
  constructor
  · omega
  · intro L h1 h2 hc
    by_cases hL : L < g.fresh
    · rw [hcls L hL] at hc
      obtain ⟨St, seti, a, k1, k2, k3, k4, k5, k6, k7, k8, k9, k10⟩ := hinv.loads L h1 hL hc
      exact ⟨St, seti, a, by rw [hsrcs L hL]; exact k1, k2, by omega,
        by rw [hcls St k3]; exact k4, by rw [hopnd L hL]; exact k5, k6, by omega,
        by rw [hcls seti k7]; exact k8, by rw [himm seti k7]; exact k9,
        by rw [hmem St k3]; exact k10⟩
    · exact hloads L (by omega) h2 hc
  · intro St h1 h2 hc
    by_cases hL : St < g.fresh
    · rw [hcls St hL] at hc
      obtain ⟨p, setiS, a, k1, k2, k3, k4, k5, k6, k7⟩ := hinv.stores St h1 hL hc
      exact ⟨p, setiS, a, by rw [hopnd St hL]; exact k1, k2, k3, by omega,
        by rw [hcls setiS k4]; exact k5, by rw [himm setiS k4]; exact k6,
        by rw [hmem St hL]; exact k7⟩
    · exact hstores St (by omega) h2 hc
  · intro c j x hc hx
    rw [hopnd c (by omega)] at hx
    rcases hinv.operands c j x hc hx with h1 | ⟨h1, h2, h3, St, p, h4, h5, h6, h7, h8⟩
    · exact Or.inl h1
    · right
      exact ⟨h1, by omega, by rw [hcls x h2]; exact h3, St, p, by rw [hsrcs x h2]; exact h4,
        h5, by omega, by rw [hopnd St h6]; exact h7, h8⟩

theorem MemoryAllocator.assignTileMemoryAddress_spec (m m' : MemoryAllocator) (op a : Nat)
    (h : m.assignTileMemoryAddress op a = some m') :
    m'.op2mem = upd m.op2mem op (some a) := by
  unfold MemoryAllocator.assignTileMemoryAddress at h
  split at h
  · exact absurd h (by simp)
  · simp only [Option.some.injEq] at h
    rw [← h]

theorem SpillTracker.setSpillOperation_spec (t t' : SpillTracker) (p St : Nat)
    (h : t.setSpillOperation p St = some t') :
    t.producer2spill p = none
    ∧ t'.producer2spill = upd t.producer2spill p (some St)
    ∧ t'.producer2reload = t.producer2reload := by
  unfold SpillTracker.setSpillOperation at h
  split at h
  · exact absurd h (by simp)
  · rename_i hn
    simp only [Option.some.injEq] at h
    rw [← h]
    exact ⟨by simpa using hn, rfl, rfl⟩

theorem spillAt_inv (f0 : Nat) (orig : Nat → List Nat) (length spillAddressReg : Nat)
    (consumer : Option Nat) (s s' : Option Nat × DataLoop) (spillCandidate : Nat)
    (hP0 : spillCandidate < f0)
    (hinv : DataInv f0 orig s.2)
    (h : spillAt length spillAddressReg consumer s spillCandidate = some s') :
    DataInv f0 orig s'.2 := by
  unfold spillAt at h
  cases hf : s.1 with
  | some reg =>
    rw [hf] at h
    simp only [Option.some.injEq] at h
    rw [← h]
    exact hinv
  | none =>
    rw [hf] at h
    simp only at h
    by_cases hcond : consumer = none
        ∨ Option.all (fun c => !s.2.g.uses c spillCandidate) consumer = true
    · rw [if_pos hcond] at h
      simp only [Option.bind_eq_some, Option.map_eq_some'] at h
      obtain ⟨vTile, _, m, hm, pt1, _, ra1, _, pt2, _, mem', hmem', g3, hg3, t, ht, reg, _,
        a, _, p, _, hs⟩ := h
      have hf0 := hinv.spill.fresh_le
      obtain ⟨e1, e2, e3, e4, e5, _, e7, e8, e9, e10⟩ :=
        newSpill_spec s.2.g g3 m.1 spillCandidate (by omega) hg3
      have hm2 : m.2.op2mem = s.2.mem.op2mem :=
        (MemoryAllocator.memalloc_spec _ _ _ m.1 m.2 hm).2.2.2
      have hmem2 := MemoryAllocator.assignTileMemoryAddress_spec _ _ _ _ hmem'
      have hid : ((s.2.g.newSetImmediate m.1 1).2.newStore spillCandidate).1
          = s.2.g.fresh + 1 := rfl
      rw [hid] at hmem2 ht
      rw [hm2] at hmem2
      obtain ⟨t1, t2, t3⟩ := SpillTracker.setSpillOperation_spec _ _ _ _ ht
      rw [← hs]
      have hspill : SpillInv f0 orig g3 mem' := by
        apply SpillInv.extend f0 orig s.2.g g3 s.2.mem mem' hinv.spill (by omega) e2 e3 e4 e5
        · intro i hi
          rw [hmem2, upd_other _ _ (by omega)]
        · intro L h1 h2 hcl
          exfalso
          have : L = s.2.g.fresh ∨ L = s.2.g.fresh + 1 := by omega
          rcases this with h3 | h3
          · rw [h3, e7] at hcl
            exact absurd hcl (by simp)
          · rw [h3, e9] at hcl
            exact absurd hcl (by simp)
        · intro St h1 h2 hcl
          have : St = s.2.g.fresh ∨ St = s.2.g.fresh + 1 := by omega
          rcases this with h3 | h3
          · rw [h3, e7] at hcl
            exact absurd hcl (by simp)
          · rw [h3]
            exact ⟨spillCandidate, s.2.g.fresh, m.1, e10, hP0, hf0, by omega, e7, e8,
              by rw [hmem2, upd_same]⟩
      constructor
      · exact hspill
      · intro q hq
        exact hinv.live q (mem_setErase.mp hq).1
      · intro q St hq
        have hq' : upd s.2.spillTracker.producer2spill spillCandidate
            (some (s.2.g.fresh + 1)) q = some St := by rw [← t2]; exact hq
        by_cases hqq : q = spillCandidate
        · rw [hqq, upd_same] at hq'
          simp only [Option.some.injEq] at hq'
          rw [hqq, ← hq']
          refine ⟨hP0, by omega, ?_, e9, ?_⟩
          · show s.2.g.fresh + 1 < g3.fresh
            omega
          · show (g3.operands (s.2.g.fresh + 1))[0]? = some spillCandidate
            rw [e10]
            rfl
        · rw [upd_other _ _ hqq] at hq'
          obtain ⟨k1, k2, k3, k4, k5⟩ := hinv.spilled q St hq'
          refine ⟨k1, k2, ?_, ?_, ?_⟩
          · show St < g3.fresh
            omega
          · show g3.cls St = _
            rw [e2 St k3]
            exact k4
          · show (g3.operands St)[0]? = _
            rw [e5 St k3]
            exact k5
      · intro q L hq
        have hq' : s.2.spillTracker.producer2reload q = some L := by rw [← t3]; exact hq
        obtain ⟨k1, k2, k3, St, k4, k5⟩ := hinv.reloaded q L hq'
        have hqq : q ≠ spillCandidate := by
          intro he
          rw [he, t1] at k4
          exact absurd k4 (by simp)
        refine ⟨k1, ?_, ?_, St, ?_, ?_⟩
        · show L < g3.fresh
          omega
        · show g3.cls L = _
          rw [e2 L k2]
          exact k3
        · show t.producer2spill q = some St
          rw [t2, upd_other _ _ hqq]
          exact k4
        · show g3.srcs L = _
          rw [e4 L k2]
          exact k5
    · rw [if_neg hcond] at h
      simp only [Option.some.injEq] at h
      rw [← h]
      exact hinv

theorem allocateRegistersWithSpilling_inv (f0 : Nat) (orig : Nat → List Nat)
    (length spillAddressReg op : Nat) (l : DataLoop) (q : Nat × DataLoop)
    (hinv : DataInv f0 orig l)
    (h : allocateRegistersWithSpilling length spillAddressReg op l = some q) :
    DataInv f0 orig q.2 := by
  unfold allocateRegistersWithSpilling at h
  simp only [Option.bind_eq_some] at h
  obtain ⟨p, _, h⟩ := h
  by_cases hp : p.1 ≠ OUT_OF_REGISTERS
  · rw [if_pos hp] at h
    simp only [Option.some.injEq] at h
    rw [← h]
    exact DataInv.of_same_graph f0 orig l _ hinv rfl rfl (fun _ hq => hq) rfl
      (fun _ _ hq => hq)
  · rw [if_neg hp] at h
    simp only [Option.bind_eq_some] at h
    obtain ⟨s, hs, h⟩ := h
    have h0 : DataInv f0 orig ({ l with allocator := p.2 } : DataLoop) :=
      DataInv.of_same_graph f0 orig l _ hinv rfl rfl (fun _ hq => hq) rfl
        (fun _ _ hq => hq)
    have h1 : DataInv f0 orig s.2 :=
      foldlM_preserves _ (fun (x : Option Nat × DataLoop) => DataInv f0 orig x.2)
        (fun b a b' hb hstep => killReloadAt_inv f0 orig length _ b b' a hb hstep)
        _ _ s h0 hs
    cases hf : s.1 with
    | some reg =>
      rw [hf] at h
      simp only [Option.some.injEq] at h
      rw [← h]
      exact h1
    | none =>
      rw [hf] at h
      simp only [Option.bind_eq_some, Option.map_eq_some'] at h
      obtain ⟨s2, hs2, reg, _, hq⟩ := h
      rw [← hq]
      exact foldlM_preserves_mem _ (fun (x : Option Nat × DataLoop) => DataInv f0 orig x.2)
        s.2.liveNow
        (fun b a b' ha hb hstep =>
          spillAt_inv f0 orig length spillAddressReg _ b b' a (h1.live a ha) hb hstep)
        s s2 h1 hs2

theorem DataStable.initial (l : DataLoop) : DataStable l l where
  fresh_le := le_refl _
  cls := fun _ _ => rfl
  srcs := fun _ _ => rfl
  spilled := fun _ _ h => h

theorem DataStable.compose {l1 l2 l3 : DataLoop} (h1 : DataStable l1 l2)
    (h2 : DataStable l2 l3) : DataStable l1 l3 where
  fresh_le := le_trans h1.fresh_le h2.fresh_le
  cls := fun i hi => by rw [h2.cls i (lt_of_lt_of_le hi h1.fresh_le), h1.cls i hi]
  srcs := fun i hi => by rw [h2.srcs i (lt_of_lt_of_le hi h1.fresh_le), h1.srcs i hi]
  spilled := fun p St h => h2.spilled p St (h1.spilled p St h)

theorem killReloadAt_stable (length : Nat) (consumer : Option Nat)
    (s s' : Option Nat × DataLoop) (producerToKill : Nat)
    (h : killReloadAt length consumer s producerToKill = some s') : DataStable s.2 s'.2 := by
  unfold killReloadAt at h
  cases hf : s.1 with
  | some reg =>
    rw [hf] at h
    simp only [Option.some.injEq] at h
    rw [← h]
    exact DataStable.initial _
  | none =>
    rw [hf] at h
    simp only [Option.bind_eq_some] at h
    obtain ⟨reloadToKill, _, h⟩ := h
    split at h
    · simp only [Option.bind_eq_some, Option.map_eq_some'] at h
      obtain ⟨t, ht, r, _, a, _, p, _, hs⟩ := h
      obtain ⟨k1, _⟩ := SpillTracker.killLiveNowReload_spec _ _ _ ht
      rw [← hs]
      exact ⟨le_refl _, fun _ _ => rfl, fun _ _ => rfl, fun p St hp => by
        show t.producer2spill p = some St
        rw [k1]
        exact hp⟩
    · simp only [Option.some.injEq] at h
      rw [← h]
      exact DataStable.initial _

theorem spillAt_stable (length spillAddressReg : Nat) (consumer : Option Nat)
    (s s' : Option Nat × DataLoop) (spillCandidate : Nat)
    (hP : spillCandidate < s.2.g.fresh)
    (h : spillAt length spillAddressReg consumer s spillCandidate = some s') :
    DataStable s.2 s'.2 := by
  unfold spillAt at h
  cases hf : s.1 with
  | some reg =>
    rw [hf] at h
    simp only [Option.some.injEq] at h
    rw [← h]
    exact DataStable.initial _
  | none =>
    rw [hf] at h
    simp only at h
    by_cases hcond : consumer = none
        ∨ Option.all (fun c => !s.2.g.uses c spillCandidate) consumer = true
    · rw [if_pos hcond] at h
      simp only [Option.bind_eq_some, Option.map_eq_some'] at h
      obtain ⟨vTile, _, m, hm, pt1, _, ra1, _, pt2, _, mem', hmem', g3, hg3, t, ht, reg, _,
        a, _, p, _, hs⟩ := h
      obtain ⟨e1, e2, _, e4, _, _, _, _, _, _⟩ :=
        newSpill_spec s.2.g g3 m.1 spillCandidate hP hg3
      obtain ⟨t1, t2, _⟩ := SpillTracker.setSpillOperation_spec _ _ _ _ ht
      rw [← hs]
      refine ⟨?_, e2, e4, ?_⟩
      · show s.2.g.fresh ≤ g3.fresh
        omega
      · intro q St hq
        show t.producer2spill q = some St
        rw [t2, upd_other _ _ (by
          intro he
          rw [he, t1] at hq
          exact absurd hq (by simp))]
        exact hq
    · rw [if_neg hcond] at h
      simp only [Option.some.injEq] at h
      rw [← h]
      exact DataStable.initial _

theorem allocateRegistersWithSpilling_stable (f0 : Nat) (orig : Nat → List Nat)
    (length spillAddressReg op : Nat) (l : DataLoop) (q : Nat × DataLoop)
    (hinv : DataInv f0 orig l)
    (h : allocateRegistersWithSpilling length spillAddressReg op l = some q) :
    DataStable l q.2 := by
  have hinv0 := hinv
  unfold allocateRegistersWithSpilling at h
  simp only [Option.bind_eq_some] at h
  obtain ⟨p, _, h⟩ := h
  by_cases hp : p.1 ≠ OUT_OF_REGISTERS
  · rw [if_pos hp] at h
    simp only [Option.some.injEq] at h
    rw [← h]
    exact ⟨le_refl _, fun _ _ => rfl, fun _ _ => rfl, fun _ _ hq => hq⟩
  · rw [if_neg hp] at h
    simp only [Option.bind_eq_some] at h
    obtain ⟨s, hs, h⟩ := h
    have h0 : DataInv f0 orig ({ l with allocator := p.2 } : DataLoop) :=
      DataInv.of_same_graph f0 orig l _ hinv rfl rfl (fun _ hq => hq) rfl
        (fun _ _ hq => hq)
    have h1 : DataInv f0 orig s.2 ∧ DataStable l s.2 :=
      foldlM_preserves _
        (fun (x : Option Nat × DataLoop) => DataInv f0 orig x.2 ∧ DataStable l x.2)
        (fun b a b' hb hstep => ⟨killReloadAt_inv f0 orig length _ b b' a hb.1 hstep,
          hb.2.compose (killReloadAt_stable length _ b b' a hstep)⟩)
        _ _ s ⟨h0, ⟨le_refl _, fun _ _ => rfl, fun _ _ => rfl, fun _ _ hq => hq⟩⟩ hs
    cases hf : s.1 with
    | some reg =>
      rw [hf] at h
      simp only [Option.some.injEq] at h
      rw [← h]
      exact h1.2
    | none =>
      rw [hf] at h
      simp only [Option.bind_eq_some, Option.map_eq_some'] at h
      obtain ⟨s2, hs2, reg, _, hq⟩ := h
      rw [← hq]
      exact (foldlM_preserves_mem _
        (fun (x : Option Nat × DataLoop) => DataInv f0 orig x.2 ∧ DataStable l x.2)
        s.2.liveNow
        (fun b a b' ha hb hstep =>
          ⟨spillAt_inv f0 orig length spillAddressReg _ b b' a (h1.1.live a ha) hb.1 hstep,
            hb.2.compose (spillAt_stable length spillAddressReg _ b b' a
              (lt_of_lt_of_le (h1.1.live a ha) hb.1.spill.fresh_le) hstep)⟩)
        s s2 h1 hs2).2

theorem replaceOperand_spec (g : Graph) (c P L : Nat) :
    (g.replaceOperand c P L).fresh = g.fresh
    ∧ (g.replaceOperand c P L).cls = g.cls
    ∧ (g.replaceOperand c P L).imm = g.imm
    ∧ (g.replaceOperand c P L).srcs = g.srcs
    ∧ (g.replaceOperand c P L).operands c
        = (g.operands c).map (fun x => if x = P then L else x)
    ∧ (∀ i, i ≠ c → (g.replaceOperand c P L).operands i = g.operands i) := by
  by_cases huses : g.uses c P = true
  · simp only [Graph.replaceOperand, huses, if_true, Graph.addUser, Graph.removeUser]
    exact ⟨trivial, trivial, trivial, trivial, upd_same _ _ _, fun i hi => upd_other _ _ hi⟩
  · have hP : P ∉ g.operands c := by
      simpa [Graph.uses] using huses
    simp only [Graph.replaceOperand, huses]
    refine ⟨rfl, rfl, rfl, rfl, ?_, fun _ _ => rfl⟩
    exact (map_replace_absent _ _ _ hP).symm

/-- The call `consumer->replaceOperand(producer, load)` of `allocateDataRegisters` with a
reload of the producer. -/
theorem SpillInv.replaceOperand (f0 : Nat) (orig : Nat → List Nat) (g : Graph) (mem : MemoryAllocator)
    (c P L St : Nat) (hinv : SpillInv f0 orig g mem) (hc : c < f0) (hP : P < f0)
    (hL1 : f0 ≤ L) (hL2 : L < g.fresh) (hLc : g.cls L = OpClass.LoadOperation)
    (hLs : g.srcs L = [St]) (hSt1 : f0 ≤ St) (hSt2 : St < g.fresh)
    (hSt3 : (g.operands St)[0]? = some P) :
    SpillInv f0 orig (g.replaceOperand c P L) mem := by
  obtain ⟨e1, e2, e3, e4, e5, e6⟩ := replaceOperand_spec g c P L
  constructor
  · rw [e1]
    exact hinv.fresh_le
  · intro L' h1 h2 hcl
    rw [e1] at h2
    rw [e2] at hcl
    obtain ⟨St', seti, a, k⟩ := hinv.loads L' h1 h2 hcl
    refine ⟨St', seti, a, ?_⟩
    rw [e1, e2, e3, e4, e6 L' (by omega)]
    exact k
  · intro St' h1 h2 hcl
    rw [e1] at h2
    rw [e2] at hcl
    obtain ⟨p, setiS, a, k⟩ := hinv.stores St' h1 h2 hcl
    refine ⟨p, setiS, a, ?_⟩
    rw [e1, e2, e3, e6 St' (by omega)]
    exact k
  · intro c' j x hc' hx
    rw [e1, e2, e4]
    by_cases hcc : c' = c
    · subst hcc
      rw [e5, List.getElem?_map] at hx
      cases hy : (g.operands c')[j]? with
      | none =>
        rw [hy] at hx
        exact absurd hx (by simp)
      | some y =>
        rw [hy] at hx
        simp only [Option.map_some', Option.some.injEq] at hx
        by_cases hyP : y = P
        · rw [if_pos hyP] at hx
          subst hx
          right
          have horig : (orig c')[j]? = some P := by
            rcases hinv.operands c' j y hc' hy with h1 | h1
            · rw [← hyP]
              exact h1
            · exact absurd h1.1 (by omega)
          exact ⟨hL1, hL2, hLc, St, P, hLs, hSt1, hSt2,
            by rw [e6 St (by omega)]; exact hSt3, horig⟩
        · rw [if_neg hyP] at hx
          subst hx
          rcases hinv.operands c' j y hc' hy with h1 | ⟨h1, h2, h3, St', p, h4, h5, h6, h7, h8⟩
          · exact Or.inl h1
          · exact Or.inr ⟨h1, h2, h3, St', p, h4, h5, h6,
              by rw [e6 St' (by omega)]; exact h7, h8⟩
    · rw [e6 c' hcc] at hx
      rcases hinv.operands c' j x hc' hx with h1 | ⟨h1, h2, h3, St', p, h4, h5, h6, h7, h8⟩
      · exact Or.inl h1
      · exact Or.inr ⟨h1, h2, h3, St', p, h4, h5, h6,
          by rw [e6 St' (by omega)]; exact h7, h8⟩

/-- A state of the allocation loop that differs from a state satisfying the invariant by a
call of `replaceOperand` with a reload, fewer live operations and fewer live reloads. -/
theorem DataInv.of_replace (f0 : Nat) (orig : Nat → List Nat) (l l' : DataLoop)
    (c P L St : Nat) (hinv : DataInv f0 orig l) (hc : c < f0)
    (hsp : l.spillTracker.producer2spill P = some St)
    (hL1 : f0 ≤ L) (hL2 : L < l.g.fresh) (hLc : l.g.cls L = OpClass.LoadOperation)
    (hLs : l.g.srcs L = [St])
    (hg : l'.g = l.g.replaceOperand c P L) (hm : l'.mem = l.mem)
    (hlive : ∀ p, p ∈ l'.liveNow → p ∈ l.liveNow)
    (hsp' : l'.spillTracker.producer2spill = l.spillTracker.producer2spill)
    (hre : ∀ p L', l'.spillTracker.producer2reload p = some L' →
      l.spillTracker.producer2reload p = some L' ∨ (p = P ∧ L' = L)) :
    DataInv f0 orig l' := by
  obtain ⟨s1, s2, s3, s4, s5⟩ := hinv.spilled P St hsp
  obtain ⟨e1, e2, e3, e4, e5, e6⟩ := replaceOperand_spec l.g c P L
  constructor
  · rw [hg, hm]
    exact SpillInv.replaceOperand f0 orig l.g l.mem c P L St hinv.spill hc s1 hL1 hL2 hLc hLs s2 s3 s5
  · exact fun p hp => hinv.live p (hlive p hp)
  · intro p St' h
    rw [hsp'] at h
    obtain ⟨k1, k2, k3, k4, k5⟩ := hinv.spilled p St' h
    rw [hg, e1, e2, e6 St' (by omega)]
    exact ⟨k1, k2, k3, k4, k5⟩
  · intro p L' h
    rw [hsp', hg, e1, e2, e4]
    rcases hre p L' h with h1 | ⟨h1, h2⟩
    · exact hinv.reloaded p L' h1
    · rw [h1, h2]
      exact ⟨hL1, hL2, hLc, St, hsp, hLs⟩

theorem SpillTracker.setLiveNowReload_spec (t t' : SpillTracker) (p L : Nat)
    (h : t.setLiveNowReload p L = some t') :
    t'.producer2spill = t.producer2spill
    ∧ t'.producer2reload = upd t.producer2reload p (some L) := by
  unfold SpillTracker.setLiveNowReload at h
  split at h
  · exact absurd h (by simp)
  · simp only [Option.some.injEq] at h
    rw [← h]
    exact ⟨rfl, rfl⟩

theorem reloadOperand_inv (f0 : Nat) (orig : Nat → List Nat)
    (spillAddressReg consumer producer : Nat) (l l' : DataLoop)
    (hinv : DataInv f0 orig l) (hc : consumer < f0)
    (h : reloadOperand spillAddressReg consumer producer l = some l') :
    DataInv f0 orig l' := by
  unfold reloadOperand at h
  simp only [Option.bind_eq_some, Option.map_eq_some'] at h
  obtain ⟨spillOp, hsp, address, haddr, pt1, _, ra1, _, g3, hg3, pt2, _, q, hq, ra2, _, t, ht,
    hl'⟩ := h
  obtain ⟨s1, s2, s3, s4, s5⟩ := hinv.spilled producer spillOp hsp
  have hf0 := hinv.spill.fresh_le
  obtain ⟨e1, e2, e3, e4, e5, _, e7, e8, e9, e10, e11⟩ :=
    newReload_spec l.g g3 address spillOp hg3
  have hinv1 : DataInv f0 orig ({ l with g := g3, pt := pt2, ra :=
      { ra1 with numLoadsFromSpilling := (ra1.numLoadsFromSpilling
        + ((l.g.newSetImmediate address 1).2.newLoad spillOp).2.length
            ((l.g.newSetImmediate address 1).2.newLoad spillOp).1) % UINT_MOD } } :
      DataLoop) := by
    constructor
    · apply SpillInv.extend f0 orig l.g g3 l.mem l.mem hinv.spill (by omega) e2 e3 e4 e5
        (fun _ _ => rfl)
      · intro L h1 h2 hcl
        have : L = l.g.fresh ∨ L = l.g.fresh + 1 := by omega
        rcases this with h3 | h3
        · rw [h3, e7] at hcl
          exact absurd hcl (by simp)
        · rw [h3]
          exact ⟨spillOp, l.g.fresh, address, e11, s2, by omega, by rw [e2 _ s3]; exact s4,
            e10, hf0, by omega, e7, e8, haddr⟩
      · intro St h1 h2 hcl
        exfalso
        have : St = l.g.fresh ∨ St = l.g.fresh + 1 := by omega
        rcases this with h3 | h3
        · rw [h3, e7] at hcl
          exact absurd hcl (by simp)
        · rw [h3, e9] at hcl
          exact absurd hcl (by simp)
    · exact hinv.live
    · intro p St hp
      obtain ⟨k1, k2, k3, k4, k5⟩ := hinv.spilled p St hp
      refine ⟨k1, k2, ?_, ?_, ?_⟩
      · show St < g3.fresh
        omega
      · show g3.cls St = _
        rw [e2 St k3]
        exact k4
      · show (g3.operands St)[0]? = _
        rw [e5 St k3]
        exact k5
    · intro p L hp
      obtain ⟨k1, k2, k3, St, k4, k5⟩ := hinv.reloaded p L hp
      refine ⟨k1, ?_, ?_, St, k4, ?_⟩
      · show L < g3.fresh
        omega
      · show g3.cls L = _
        rw [e2 L k2]
        exact k3
      · show g3.srcs L = _
        rw [e4 L k2]
        exact k5
  have hinvq := allocateRegistersWithSpilling_inv f0 orig _ _ _ _ q hinv1 hq
  have hst := allocateRegistersWithSpilling_stable f0 orig _ _ _ _ q hinv1 hq
  obtain ⟨t1, t2⟩ := SpillTracker.setLiveNowReload_spec _ _ _ _ ht
  have hid : ((l.g.newSetImmediate address 1).2.newLoad spillOp).1 = l.g.fresh + 1 := rfl
  rw [hid] at hl' t2
  have hfq : l.g.fresh + 2 ≤ q.2.g.fresh := by
    have := hst.fresh_le
    have h2 : g3.fresh ≤ q.2.g.fresh := this
    omega
  rw [← hl']
  refine DataInv.of_replace f0 orig q.2 _ consumer producer (l.g.fresh + 1) spillOp hinvq hc
    (hst.spilled producer spillOp hsp) (by omega) (by omega) ?_ ?_ rfl rfl (fun _ hp => hp)
    t1 ?_
  · rw [hst.cls (l.g.fresh + 1) (by show l.g.fresh + 1 < g3.fresh; omega)]
    exact e9
  · rw [hst.srcs (l.g.fresh + 1) (by show l.g.fresh + 1 < g3.fresh; omega)]
    exact e11
  · intro p L' hp
    have hp' : upd q.2.spillTracker.producer2reload producer (some (l.g.fresh + 1)) p
        = some L' := by rw [← t2]; exact hp
    by_cases hpp : p = producer
    · rw [hpp, upd_same] at hp'
      exact Or.inr ⟨hpp, (Option.some.inj hp').symm⟩
    · rw [upd_other _ _ hpp] at hp'
      exact Or.inl hp'

theorem availableOperandAt_inv (f0 : Nat) (orig : Nat → List Nat)
    (spillAddressReg consumer : Nat) (l l' : DataLoop) (o : Nat)
    (hinv : DataInv f0 orig l) (hc : consumer < f0)
    (h : availableOperandAt spillAddressReg consumer l o = some l') :
    DataInv f0 orig l' := by
  unfold availableOperandAt at h
  simp only [Option.bind_eq_some] at h
  obtain ⟨producer, _, h⟩ := h
  by_cases hw : (!writesToReservedOutputRegister l.g producer) = true
  · rw [if_pos hw] at h
    by_cases hlive : producer ∈ l.liveNow
        ∨ (l.g.cls producer = OpClass.LoadOperation
            ∧ (l.spillTracker.reload2producer producer).isSome = true)
    · rw [if_pos hlive] at h
      simp only [Option.some.injEq] at h
      rw [← h]
      exact DataInv.of_same_graph f0 orig l _ hinv rfl rfl (fun _ hq => hq) rfl
        (fun _ _ hq => hq)
    · rw [if_neg hlive] at h
      by_cases hsp : (l.spillTracker.producer2spill producer).isSome = true
      · rw [if_pos hsp] at h
        cases hre : l.spillTracker.producer2reload producer with
        | some load =>
          rw [hre] at h
          simp only [Option.some.injEq] at h
          obtain ⟨St, hSt⟩ := Option.isSome_iff_exists.mp hsp
          obtain ⟨k1, k2, k3, St', k4, k5⟩ := hinv.reloaded producer load hre
          rw [hSt] at k4
          have hSS : St = St' := Option.some.inj k4
          rw [← hSS] at k5
          rw [← h]
          exact DataInv.of_replace f0 orig l _ consumer producer load St hinv hc hSt k1 k2 k3 k5
            rfl rfl (fun _ hp => hp) rfl (fun _ _ hp => Or.inl hp)
        | none =>
          rw [hre] at h
          exact reloadOperand_inv f0 orig spillAddressReg consumer producer l l' hinv hc h
      · rw [if_neg hsp] at h
        exact absurd h (by simp)
  · rw [if_neg hw] at h
    simp only [Option.some.injEq] at h
    rw [← h]
    exact hinv

theorem freeOperandAt_inv (f0 : Nat) (orig : Nat → List Nat) (liveOut : List Nat)
    (consumer : Nat) (l l' : DataLoop) (o : Nat) (hinv : DataInv f0 orig l)
    (h : freeOperandAt liveOut consumer l o = some l') : DataInv f0 orig l' := by
  unfold freeOperandAt at h
  simp only [Option.bind_eq_some] at h
  obtain ⟨producer, _, h⟩ := h
  by_cases hw : (!writesToReservedOutputRegister l.g producer) = true
  · rw [if_pos hw] at h
    by_cases hlive : producer ∈ l.liveNow
    · rw [if_pos hlive] at h
      by_cases hout : producer ∉ liveOut
      · rw [if_pos hout] at h
        simp only [Option.bind_eq_some, Option.map_eq_some'] at h
        obtain ⟨r, _, a, _, hl⟩ := h
        rw [← hl]
        exact DataInv.of_same_graph f0 orig l _ hinv rfl rfl
          (fun _ hq => (mem_setErase.mp hq).1) rfl (fun _ _ hq => hq)
      · rw [if_neg hout] at h
        simp only [Option.some.injEq] at h
        rw [← h]
        exact hinv
    · rw [if_neg hlive] at h
      by_cases hld : l.g.cls producer = OpClass.LoadOperation
      · rw [if_pos hld] at h
        simp only [Option.bind_eq_some] at h
        obtain ⟨originalProducer, _, h⟩ := h
        by_cases hout : originalProducer ∉ liveOut
        · rw [if_pos hout] at h
          simp only [Option.bind_eq_some, Option.map_eq_some'] at h
          obtain ⟨t, ht, r, _, a, _, hl⟩ := h
          obtain ⟨k1, k2⟩ := SpillTracker.killLiveNowReload_spec _ _ _ ht
          rw [← hl]
          exact DataInv.of_same_graph f0 orig l _ hinv rfl rfl (fun _ hq => hq) k1 k2
        · rw [if_neg hout] at h
          simp only [Option.some.injEq] at h
          rw [← h]
          exact hinv
      · rw [if_neg hld] at h
        exact absurd h (by simp)
  · rw [if_neg hw] at h
    simp only [Option.some.injEq] at h
    rw [← h]
    exact hinv

theorem DataInv.of_live (f0 : Nat) (orig : Nat → List Nat) (l l' : DataLoop)
    (hinv : DataInv f0 orig l) (hg : l'.g = l.g) (hm : l'.mem = l.mem)
    (hlive : ∀ p, p ∈ l'.liveNow → p < f0)
    (ht : l'.spillTracker = l.spillTracker) : DataInv f0 orig l' where
  spill := by rw [hg, hm]; exact hinv.spill
  live := hlive
  spilled := by
    intro p St h
    rw [ht] at h
    rw [hg]
    exact hinv.spilled p St h
  reloaded := by
    intro p L h
    rw [ht] at h
    rw [hg, ht]
    exact hinv.reloaded p L h

theorem allocateDataRegistersAt_inv (f0 : Nat) (orig : Nat → List Nat)
    (liveIn : Option Nat → List Nat) (spillAddressReg : Nat) (l l' : DataLoop)
    (x : Nat × Option Nat) (hop : x.1 < f0) (hinv : DataInv f0 orig l)
    (h : allocateDataRegistersAt liveIn spillAddressReg l x = some l') :
    DataInv f0 orig l' := by
  unfold allocateDataRegistersAt at h
  simp only [Option.bind_eq_some, Option.map_eq_some'] at h
  obtain ⟨l1, h1, l2, h2, hl'⟩ := h
  have hinv1 : DataInv f0 orig l1 := by
    by_cases hcond : ((l.g.cls x.1).isConsumer && !readsFromReservedInputRegister l.g x.1) = true
    · rw [if_pos hcond] at h1
      simp only [Option.bind_eq_some] at h1
      obtain ⟨la, ha, hb⟩ := h1
      have hinva : DataInv f0 orig la :=
        foldlM_preserves _ (DataInv f0 orig)
          (fun b o b' hb hstep =>
            availableOperandAt_inv f0 orig spillAddressReg x.1 b b' o hb hop hstep)
          _ _ la hinv ha
      exact foldlM_preserves _ (DataInv f0 orig)
        (fun b o b' hb hstep => freeOperandAt_inv f0 orig _ x.1 b b' o hb hstep)
        _ _ l1 hinva hb
    · rw [if_neg hcond] at h1
      simp only [Option.some.injEq] at h1
      rw [← h1]
      exact hinv
  have hinv2 : DataInv f0 orig l2 := by
    by_cases hprod : (l1.g.cls x.1).isProducer = true
    · rw [if_pos hprod] at h2
      by_cases hin : x.1 ∈ liveIn (some x.1)
      · rw [if_pos hin] at h2
        exact absurd h2 (by simp)
      · rw [if_neg hin] at h2
        by_cases hout : x.1 ∈ liveIn x.2
        · rw [if_pos hout] at h2
          simp only [Option.bind_eq_some, Option.map_eq_some'] at h2
          obtain ⟨q, hq, ra, _, hl2⟩ := h2
          have hinvq := allocateRegistersWithSpilling_inv f0 orig _ _ _ _ q hinv1 hq
          rw [← hl2]
          refine DataInv.of_live f0 orig q.2 _ hinvq rfl rfl ?_ rfl
          intro p hp
          rcases mem_setInsert.mp hp with h3 | h3
          · rw [h3]
            exact hop
          · exact hinvq.live p h3
        · rw [if_neg hout] at h2
          split at h2
          · simp only [Option.some.injEq] at h2
            rw [← h2]
            exact hinv1
          · exact absurd h2 (by simp)
    · rw [if_neg hprod] at h2
      simp only [Option.some.injEq] at h2
      rw [← h2]
      exact hinv1
  rw [← hl']
  exact DataInv.of_live f0 orig l2 _ hinv2 rfl rfl hinv2.live rfl

theorem mem_withNext (l : List Nat) (x : Nat × Option Nat) (h : x ∈ withNext l) :
    x.1 ∈ l := by
  induction l with
  | nil => simp [withNext] at h
  | cons a l ih =>
    cases l with
    | nil =>
      simp only [withNext, List.mem_singleton] at h
      rw [h]
      simp
    | cons b l =>
      simp only [withNext, List.mem_cons] at h
      rcases h with h | h
      · rw [h]
        simp
      · exact List.mem_cons_of_mem _ (ih (by simpa [List.mem_cons] using h))

/-- `allocateDataRegisters` on a list of operations below `f0` keeps the invariant of the
DAG. -/
theorem allocateDataRegisters_inv (f0 : Nat) (orig : Nat → List Nat) (s : RegState)
    (coreOperationList : List Nat) (l : DataLoop)
    (hlist : ∀ op, op ∈ coreOperationList → op < f0)
    (hinv : SpillInv f0 orig s.g s.mem)
    (h : allocateDataRegisters s coreOperationList = some l) :
    SpillInv f0 orig l.g l.mem := by
  unfold allocateDataRegisters at h
  simp only [Option.bind_eq_some] at h
  obtain ⟨p, _, h⟩ := h
  have h0 : DataInv f0 orig
      { g := s.g, pt := s.pt, mem := s.mem, ra := s.ra, allocator := p.2,
        spillTracker := { producer2spill := fun _ => none, producer2reload := fun _ => none,
                          reload2producer := fun _ => none, reloadKeys := [] },
        liveNow := [], out := [] } :=
    ⟨hinv, fun p hp => absurd hp (by simp), fun p St hp => absurd hp (by simp),
      fun p L hp => absurd hp (by simp)⟩
  exact (foldlM_preserves_mem _ (DataInv f0 orig) _
    (fun b x b' hx hb hstep =>
      allocateDataRegistersAt_inv f0 orig _ _ b b' x
        (hlist x.1 (mem_withNext _ x hx)) hb hstep)
    _ l h0 h).spill

/-- The cores that `registerAllocation` visits have distinct indices. -/
theorem corePairs_distinct (n : Nat) (h : n * N_CORES_PER_TILE ≤ UINT_MOD)
    (done rest : List (Nat × Nat)) (x : Nat × Nat)
    (hsplit : ((List.range n).flatMap fun pTile =>
      (List.range N_CORES_PER_TILE).map fun pCore => (pTile, pCore)) = done ++ x :: rest) :
    ∀ y, y ∈ done → (y.1 * N_CORES_PER_TILE + y.2) % UINT_MOD
      ≠ (x.1 * N_CORES_PER_TILE + x.2) % UINT_MOD := by
  have hmem : ∀ y, y ∈ ((List.range n).flatMap fun pTile =>
      (List.range N_CORES_PER_TILE).map fun pCore => (pTile, pCore)) →
      y.1 < n ∧ y.2 < N_CORES_PER_TILE := by
    intro y hy
    simp only [List.mem_flatMap, List.mem_range, List.mem_map] at hy
    obtain ⟨t, ht, c, hc, hy⟩ := hy
    rw [← hy]
    exact ⟨ht, hc⟩
  have hnd : ((List.range n).flatMap fun pTile =>
      (List.range N_CORES_PER_TILE).map fun pCore => (pTile, pCore)).Nodup := by
    rw [List.nodup_flatMap]
    constructor
    · intro t _
      exact (List.nodup_range _).map (fun a b hab => by simpa using hab)
    · apply List.Pairwise.imp _ (List.nodup_range n)
      intro a b hab
      simp only [Function.onFun, List.disjoint_left, List.mem_map, List.mem_range]
      rintro y ⟨c, _, hy⟩ ⟨c', _, hy'⟩
      rw [← hy] at hy'
      exact hab (by simpa using (Prod.ext_iff.mp hy').1.symm)
  intro y hy hidx
  have hy' := hmem y (by rw [hsplit]; exact List.mem_append_left _ hy)
  have hx' := hmem x (by rw [hsplit]; simp)
  have h8 : N_CORES_PER_TILE = 8 := by decide
  rw [h8] at h hy' hx' hidx
  have e1 : (y.1 * 8 + y.2) % UINT_MOD = y.1 * 8 + y.2 := Nat.mod_eq_of_lt (by omega)
  have e2 : (x.1 * 8 + x.2) % UINT_MOD = x.1 * 8 + x.2 := Nat.mod_eq_of_lt (by omega)
  rw [e1, e2] at hidx
  have hxy : y = x := Prod.ext (by omega) (by omega)
  rw [hsplit] at hnd
  have := (List.nodup_append.mp hnd).2.2
  exact this hy (by rw [hxy]; simp)

theorem registerAllocationAt_inv (f0 : Nat) (orig : Nat → List Nat) (P : Placer)
    (s s' : RegState) (done : List (Nat × Nat)) (x : Nat × Nat)
    (hx : ∀ y, y ∈ done → (y.1 * N_CORES_PER_TILE + y.2) % UINT_MOD
      ≠ (x.1 * N_CORES_PER_TILE + x.2) % UINT_MOD)
    (hinv : RegInv f0 orig s done) (h : registerAllocationAt P s x = some s') :
    RegInv f0 orig s' (done ++ [x]) := by
  unfold registerAllocationAt at h
  simp only [Option.bind_eq_some, Option.map_eq_some'] at h
  obtain ⟨list, hlist, ra1, _, ra2, _, l, hl, hs'⟩ := h
  have hold := hinv.lists _ list hlist hx
  have hsp := allocateDataRegisters_inv f0 orig { s with ra := ra2 } list l hold hinv.spill hl
  rw [← hs']
  constructor
  · exact hsp
  · intro i list' hi hne
    have hix : (x.1 * N_CORES_PER_TILE + x.2) % UINT_MOD ≠ i := hne x (by simp)
    have hi' : (s.coreOperationLists.set ((x.1 * N_CORES_PER_TILE + x.2) % UINT_MOD) l.out)[i]?
        = some list' := hi
    rw [List.getElem?_set_ne hix] at hi'
    exact hinv.lists i list' hi' (fun y hy => hne y (List.mem_append_left _ hy))

/-- Claim C10. When `registerAllocation` runs to its end on core operation lists whose
operations exist at its start (their addresses lie below `s.g.fresh`), every Load that the
register allocator creates (a Load at an address from `s.g.fresh` on) has one tile memory
source, a Store `St` that the register allocator created, whose operands are a producer
`p` that existed at the start and a SetImmediate `setiS`; the only operand of the Load is
a SetImmediate whose immediate is the tile memory address recorded for `St`, and the
immediate of `setiS` is the same address. An operand of an operation that existed at the
start is afterwards the operand `p` it was at the start or such a Load, whose source is a
Store with the first operand `p`: the Load reads the Store that spilled the producer it
replaces. -/
theorem reload_reads_the_spill_of_its_producer (P : Placer) (s s' : RegState)
    (hcores : P.nPTiles * N_CORES_PER_TILE ≤ UINT_MOD)
    (hlists : ∀ (i : Nat) (list : List Nat), s.coreOperationLists[i]? = some list →
      ∀ op, op ∈ list → op < s.g.fresh)
    (h : registerAllocation P s = some s') :
    (∀ L, s.g.fresh ≤ L → L < s'.g.fresh → s'.g.cls L = OpClass.LoadOperation →
      ∃ St p setiS seti a, s'.g.srcs L = [St]
        ∧ s.g.fresh ≤ St ∧ St < s'.g.fresh ∧ s'.g.cls St = OpClass.StoreOperation
        ∧ s'.g.operands St = [p, setiS] ∧ p < s.g.fresh
        ∧ s'.g.cls setiS = OpClass.SetImmediateOperation ∧ s'.g.imm setiS = a
        ∧ s'.g.operands L = [seti]
        ∧ s'.g.cls seti = OpClass.SetImmediateOperation ∧ s'.g.imm seti = a
        ∧ s'.mem.getTileMemoryAddress St = some a)
    ∧ (∀ (c j x : Nat), c < s.g.fresh → (s'.g.operands c)[j]? = some x →
        (s.g.operands c)[j]? = some x
        ∨ (s.g.fresh ≤ x ∧ x < s'.g.fresh ∧ s'.g.cls x = OpClass.LoadOperation
            ∧ ∃ St p, s'.g.srcs x = [St] ∧ (s'.g.operands St)[0]? = some p
              ∧ (s.g.operands c)[j]? = some p)) := by
  unfold registerAllocation at h
  have hinv := foldlM_split_invariant (registerAllocationAt P)
    (RegInv s.g.fresh s.g.operands) _ [] s s' ?_ ?_ h
  · have hsp := hinv.spill
    constructor
    · intro L h1 h2 hc
      obtain ⟨St, seti, a, k1, k2, k3, k4, k5, k6, k7, k8, k9, k10⟩ := hsp.loads L h1 h2 hc
      obtain ⟨p, setiS, a', m1, m2, m3, m4, m5, m6, m7⟩ := hsp.stores St k2 k3 k4
      have haa : a' = a := by
        rw [k10] at m7
        exact (Option.some.inj m7).symm
      rw [haa] at m6
      exact ⟨St, p, setiS, seti, a, k1, k2, k3, k4, m1, m2, m5, m6, k5, k8, k9, k10⟩
    · intro c j x hc hx
      rcases hsp.operands c j x hc hx with h1 | ⟨h1, h2, h3, St, p, h4, _, _, h7, h8⟩
      · exact Or.inl h1
      · exact Or.inr ⟨h1, h2, h3, St, p, h4, h7, h8⟩
  · constructor
    · exact {
        fresh_le := le_refl _
        loads := fun L h1 h2 => absurd h1 (by omega)
        stores := fun St h1 h2 => absurd h1 (by omega)
        operands := fun c j x _ hx => Or.inl hx }
    · intro i list hi _
      exact hlists i list hi
  · intro b done x rest b1 hsplit hb hstep
    exact registerAllocationAt_inv s.g.fresh s.g.operands P b b1 done x
      (corePairs_distinct P.nPTiles hcores done rest x (by simpa using hsplit)) hb hstep

set_option maxRecDepth 100000 in
theorem reload_reads_the_spill_of_its_producer_witness :
    onePlacer.nPTiles * N_CORES_PER_TILE ≤ UINT_MOD
    ∧ (∀ (i : Nat) (list : List Nat), spillState.coreOperationLists[i]? = some list →
        ∀ op, op ∈ list → op < spillState.g.fresh)
    ∧ ∃ s', registerAllocation onePlacer spillState = some s'
      ∧ (∀ L, spillState.g.fresh ≤ L → L < s'.g.fresh →
          s'.g.cls L = OpClass.LoadOperation →
          ∃ St p setiS seti a, s'.g.srcs L = [St]
            ∧ spillState.g.fresh ≤ St ∧ St < s'.g.fresh
            ∧ s'.g.cls St = OpClass.StoreOperation
            ∧ s'.g.operands St = [p, setiS] ∧ p < spillState.g.fresh
            ∧ s'.g.cls setiS = OpClass.SetImmediateOperation ∧ s'.g.imm setiS = a
            ∧ s'.g.operands L = [seti]
            ∧ s'.g.cls seti = OpClass.SetImmediateOperation ∧ s'.g.imm seti = a
            ∧ s'.mem.getTileMemoryAddress St = some a) := by
  have hlists : ∀ (i : Nat) (list : List Nat), spillState.coreOperationLists[i]? = some list →
      ∀ op, op ∈ list → op < spillState.g.fresh := by
    intro i list hi op hop
    have hall : ∀ list, list ∈ spillState.coreOperationLists →
        ∀ op, op ∈ list → op < spillState.g.fresh := by decide
    exact hall list (List.getElem?_mem hi) op hop
  have hrun : (registerAllocation onePlacer spillState).isSome = true := by decide
  obtain ⟨s', hs'⟩ := Option.isSome_iff_exists.mp hrun
  exact ⟨by decide, hlists, s', hs',
    (reload_reads_the_spill_of_its_producer onePlacer spillState s' (by decide) hlists hs').1⟩

/-! ## Packing of the roll-up in virtual MVMU order -/

/-- The number of units of the lower level that the roll-up table for `n` units assigns to
the unit `c` of the upper level. -/
theorem rollOf_count (k n c : Nat) (hk : k = 2 ∨ k = 6 ∨ k = 8) :
    ((List.range n).map (rollOf k)).count c =
      if c < 2 then min n (c + 1) - min n c
      else min n (k * (c - 1) + 2) - min n (k * (c - 2) + 2) := by
  induction n with
  | zero => simp
  | succ n ih =>
    rw [List.range_succ, List.map_append, List.count_append, ih, List.map_singleton,
      List.count_singleton]
    unfold rollOf
    rcases hk with rfl | rfl | rfl
    · by_cases hc : c < 2
      · simp only [hc, if_true]
        by_cases hn : n < 2
        · simp only [hn, if_true, beq_iff_eq]
          split <;> omega
        · simp only [hn, if_false, beq_iff_eq]
          split <;> omega
      · simp only [hc, if_false]
        by_cases hn : n < 2
        · simp only [hn, if_true, beq_iff_eq]
          split <;> omega
        · simp only [hn, if_false, beq_iff_eq]
          split <;> omega
    · by_cases hc : c < 2
      · simp only [hc, if_true]
        by_cases hn : n < 2
        · simp only [hn, if_true, beq_iff_eq]
          split <;> omega
        · simp only [hn, if_false, beq_iff_eq]
          split <;> omega
      · simp only [hc, if_false]
        by_cases hn : n < 2
        · simp only [hn, if_true, beq_iff_eq]
          split <;> omega
        · simp only [hn, if_false, beq_iff_eq]
          split <;> omega
    · by_cases hc : c < 2
      · simp only [hc, if_true]
        by_cases hn : n < 2
        · simp only [hn, if_true, beq_iff_eq]
          split <;> omega
        · simp only [hn, if_false, beq_iff_eq]
          split <;> omega
      · simp only [hc, if_false]
        by_cases hn : n < 2
        · simp only [hn, if_true, beq_iff_eq]
          split <;> omega
        · simp only [hn, if_false, beq_iff_eq]
          split <;> omega

/-- Claim C21. Under the roll-up in virtual MVMU order of `n > 2` virtual MVMUs, with `k`
MVMUs per core (6 for inference, 2 otherwise): virtual MVMU `v ≥ 2` is on virtual core
`2 + (v - 2) / k`, virtual core `c ≥ 2` on virtual tile `2 + (c - 2) / N_CORES_PER_TILE`;
there are `2 + ⌈(n - 2) / k⌉` virtual cores and `2 + ⌈(nVCores - 2) / N_CORES_PER_TILE⌉`
virtual tiles; every virtual core from 2 on holds between 1 and `k` virtual MVMUs, every
virtual tile from 2 on between 1 and `N_CORES_PER_TILE` virtual cores; the virtual MVMUs 0
and 1 are alone on the virtual cores 0 and 1, which are alone on the virtual tiles 0 and
1. -/
theorem rollup_in_vmvmu_order_packs_consecutive_units (modelType : ModelType) (n : Nat)
    (h3 : 3 ≤ n) (hU : n < UINT_MOD) :
    ∃ T, rollUpInVMVMUOrder modelType n = some T
      ∧ (nMVMUSPerCore modelType = if modelType = ModelType.INFERENCE then 6 else 2)
      ∧ T.nVMVMUs = n
      ∧ T.nVCores = 2 + (n - 2 + nMVMUSPerCore modelType - 1) / nMVMUSPerCore modelType
      ∧ T.nVTiles = 2 + (T.nVCores - 2 + N_CORES_PER_TILE - 1) / N_CORES_PER_TILE
      ∧ T.vmvmu2vcore.length = n
      ∧ T.vcore2vtile.length = T.nVCores
      ∧ (∀ v, 2 ≤ v → v < n →
          T.vmvmu2vcore[v]? = some (2 + (v - 2) / nMVMUSPerCore modelType)
          ∧ 2 + (v - 2) / nMVMUSPerCore modelType < T.nVCores)
      ∧ (∀ c, 2 ≤ c → c < T.nVCores →
          T.vcore2vtile[c]? = some (2 + (c - 2) / N_CORES_PER_TILE)
          ∧ 2 + (c - 2) / N_CORES_PER_TILE < T.nVTiles)
      ∧ (∀ c, 2 ≤ c → c < T.nVCores →
          1 ≤ T.vmvmu2vcore.count c ∧ T.vmvmu2vcore.count c ≤ nMVMUSPerCore modelType)
      ∧ (∀ t, 2 ≤ t → t < T.nVTiles →
          1 ≤ T.vcore2vtile.count t ∧ T.vcore2vtile.count t ≤ N_CORES_PER_TILE)
      ∧ T.vmvmu2vcore[0]? = some 0 ∧ T.vmvmu2vcore[1]? = some 1
      ∧ T.vmvmu2vcore.count 0 = 1 ∧ T.vmvmu2vcore.count 1 = 1
      ∧ T.vcore2vtile[0]? = some 0 ∧ T.vcore2vtile[1]? = some 1
      ∧ T.vcore2vtile.count 0 = 1 ∧ T.vcore2vtile.count 1 = 1 := by
  have hk := nMVMUSPerCore_cases modelType
  have hkdef : nMVMUSPerCore modelType = if modelType = ModelType.INFERENCE then 6 else 2 := by
    cases modelType <;> simp [nMVMUSPerCore, N_CONSTANT_MVMUS_PER_CORE, N_TRAINING_MVMUS_PER_CORE]
  have e1 := assignVCoresInVMVMUOrder_eq modelType n (by omega) hU
  obtain ⟨k, hkeq⟩ : ∃ k, nMVMUSPerCore modelType = k := ⟨_, rfl⟩
  rw [hkeq] at hk e1 hkdef
  have hk3 : k = 2 ∨ k = 6 ∨ k = 8 := by
    rcases hk with h | h
    · exact Or.inl h
    · exact Or.inr (Or.inl h)
  have hNC : (2 + ((n + UINT_MOD - 2 - 1) % UINT_MOD / k + 1)) % UINT_MOD
      = 2 + (n - 2 + k - 1) / k := by
    unfold UINT_MOD at *
    rcases hk with h | h <;> rw [h] <;> omega
  have hNCU : 2 + (n - 2 + k - 1) / k < UINT_MOD := by
    unfold UINT_MOD at *
    rcases hk with h | h <;> rw [h] <;> omega
  have hNC3 : 3 ≤ 2 + (n - 2 + k - 1) / k := by
    rcases hk with h | h <;> rw [h] <;> omega
  rw [hNC] at e1
  obtain ⟨NC, hNCdef⟩ : ∃ NC, 2 + (n - 2 + k - 1) / k = NC := ⟨_, rfl⟩
  rw [hNCdef] at e1 hNCU hNC3
  have hNT : (2 + ((NC + UINT_MOD - 2 - 1) % UINT_MOD / N_CORES_PER_TILE + 1)) % UINT_MOD
      = 2 + (NC - 2 + N_CORES_PER_TILE - 1) / N_CORES_PER_TILE := by
    unfold UINT_MOD N_CORES_PER_TILE at *
    omega
  have e2 := assignVTilesInVMVMUOrder_eq NC (by omega) hNCU
  rw [hNT] at e2
  have eR : rollUpInVMVMUOrder modelType n = some
      { nVMVMUs := n, nVCores := NC,
        nVTiles := 2 + (NC - 2 + N_CORES_PER_TILE - 1) / N_CORES_PER_TILE,
        vmvmu2vcore := (List.range n).map (rollOf k),
        vcore2vtile := (List.range NC).map (rollOf N_CORES_PER_TILE) } := by
    unfold rollUpInVMVMUOrder
    rw [e1]
    simp only [Option.bind_eq_bind, Option.some_bind]
    rw [e2]
    rfl
  have c1 := fun c => rollOf_count k n c hk3
  have c2 := fun t => rollOf_count N_CORES_PER_TILE NC t (Or.inr (Or.inr rfl))
  refine ⟨_, eR, ?_, rfl, ?_, rfl, ?_, ?_, ?_, ?_, ?_, ?_, ?_, ?_, ?_, ?_, ?_, ?_, ?_, ?_⟩
  · rw [hkeq]
    exact hkdef
  · rw [hkeq]
    exact hNCdef.symm
  · simp
  · simp
  · intro v hv2 hvn
    rw [hkeq]
    simp only
    rw [getElem?_map_range, if_pos hvn]
    unfold rollOf
    rw [if_neg (by omega)]
    refine ⟨by rw [Nat.add_comm], ?_⟩
    rw [← hNCdef]
    rcases hk with h | h <;> rw [h] <;> omega
  · intro c hc2 hcn
    simp only at hcn ⊢
    rw [getElem?_map_range, if_pos hcn]
    unfold rollOf
    rw [if_neg (by omega)]
    refine ⟨by rw [Nat.add_comm], ?_⟩
    unfold N_CORES_PER_TILE
    omega
  · intro c hc2 hcn
    rw [hkeq]
    simp only at hcn ⊢
    rw [c1 c, if_neg (by omega)]
    rw [← hNCdef] at hcn
    rcases hk with h | h <;> rw [h] at hcn ⊢ <;> omega
  · intro t ht2 htn
    simp only at htn ⊢
    rw [c2 t, if_neg (by omega)]
    unfold N_CORES_PER_TILE at htn ⊢
    omega
  · simp only
    rw [getElem?_map_range, if_pos (by omega)]
    rfl
  · simp only
    rw [getElem?_map_range, if_pos (by omega)]
    rfl
  · simp only
    rw [c1 0]
    simp only [Nat.lt_succ_self, Nat.zero_lt_succ, if_true]
    omega
  · simp only
    rw [c1 1]
    simp only [Nat.lt_succ_self, if_true]
    omega
  · simp only
    rw [getElem?_map_range, if_pos (by omega)]
    rfl
  · simp only
    rw [getElem?_map_range, if_pos (by omega)]
    rfl
  · simp only
    rw [c2 0]
    simp only [Nat.lt_succ_self, Nat.zero_lt_succ, if_true]
    omega
  · simp only
    rw [c2 1]
    simp only [Nat.lt_succ_self, if_true]
    omega

/-- Witness for claim C21: the roll-up of 20 virtual MVMUs of an inference model gives 5
virtual cores and 3 virtual tiles. -/
theorem rollup_in_vmvmu_order_packs_consecutive_units_witness :
    (3 ≤ 20 ∧ 20 < UINT_MOD)
    ∧ ∃ T, rollUpInVMVMUOrder ModelType.INFERENCE 20 = some T
      ∧ T.nVCores = 2 + (20 - 2 + nMVMUSPerCore ModelType.INFERENCE - 1)
          / nMVMUSPerCore ModelType.INFERENCE
      ∧ T.nVCores = 5 := by
  refine ⟨⟨by decide, by decide⟩, ?_⟩
  obtain ⟨T, hT, _, _, hc, _⟩ :=
    rollup_in_vmvmu_order_packs_consecutive_units ModelType.INFERENCE 20 (by decide)
      (by decide)
  refine ⟨T, hT, hc, ?_⟩
  rw [hc]
  decide

/-! ## Tiles of input and output vectors -/

theorem AbstractVector.nTiles_eq (L : Nat) (h1 : 1 ≤ L) (hU : L < UINT_MOD) :
    AbstractVector.nTiles L = (L - 1) / 128 + 1 := by
  unfold AbstractVector.nTiles UINT_MOD MVMU_DIM at *
  omega

theorem sum_map_range_tiles (f : Nat → Nat) (c : Nat) :
    ∀ m : Nat, (∀ i, i < m → f i = c) → ((List.range m).map f).sum = m * c := by
  intro m
  induction m with
  | zero => simp
  | succ m ih =>
    intro h
    rw [List.range_succ, List.map_append, List.sum_append, ih (fun i hi => h i (by omega)),
      List.map_singleton, List.sum_singleton, h m (by omega)]
    rw [Nat.succ_mul]

theorem vectorTiles_spec (L : Nat) (h1 : 1 ≤ L) (hU : L < UINT_MOD) :
    ((List.range (AbstractVector.nTiles L)).map (vectorTileSize L)).length = (L + 127) / 128
    ∧ (∀ i, i < (L + 127) / 128 →
        ((List.range (AbstractVector.nTiles L)).map (vectorTileSize L))[i]?
          = some (vectorTileSize L i)
        ∧ 1 ≤ vectorTileSize L i ∧ vectorTileSize L i ≤ 128
        ∧ (i + 1 < (L + 127) / 128 → vectorTileSize L i = 128))
    ∧ ((List.range (AbstractVector.nTiles L)).map (vectorTileSize L)).sum = L := by
  have hn := AbstractVector.nTiles_eq L h1 hU
  have hn2 : (L - 1) / 128 + 1 = (L + 127) / 128 := by omega
  have hsize : ∀ i, vectorTileSize L i =
      if i = (L - 1) / 128 ∧ L % 128 > 0 then L % 128 else 128 := by
    intro i
    unfold vectorTileSize
    rw [hn]
    unfold UINT_MOD MVMU_DIM at *
    have : ((L - 1) / 128 + 1 + 4294967296 - 1) % 4294967296 = (L - 1) / 128 := by omega
    rw [this]
  refine ⟨?_, ?_, ?_⟩
  · rw [List.length_map, List.length_range, hn, hn2]
  · intro i hi
    refine ⟨?_, ?_, ?_, ?_⟩
    · rw [getElem?_map_range, hn, hn2, if_pos hi]
    · rw [hsize]
      split <;> omega
    · rw [hsize]
      split <;> omega
    · intro hlt
      rw [hsize, if_neg (by omega)]
  · rw [hn, List.range_succ, List.map_append, List.sum_append, List.map_singleton,
      List.sum_singleton,
      sum_map_range_tiles (vectorTileSize L) 128 ((L - 1) / 128)
        (fun i hi => by rw [hsize, if_neg (by omega)])]
    rw [hsize]
    split <;> omega

/-- Claim C25. An input vector and an output vector of length `L ≥ 1` have `⌈L/128⌉`
tiles; every tile has between 1 and 128 elements, every tile except the last has exactly
128 elements, and the lengths of the tiles sum to `L`. -/
theorem vector_tiles_partition_the_length (L : Nat) (h1 : 1 ≤ L) (hU : L < UINT_MOD) :
    AbstractVector.nTiles L = (L + 127) / 128
    ∧ (InputVectorImpl.tileLengths L).length = (L + 127) / 128
    ∧ (OutputVectorImpl.tileLengths L).length = (L + 127) / 128
    ∧ (∀ i, i < (L + 127) / 128 →
        ∃ n, (InputVectorImpl.tileLengths L)[i]? = some n
          ∧ (OutputVectorImpl.tileLengths L)[i]? = some n
          ∧ 1 ≤ n ∧ n ≤ 128 ∧ (i + 1 < (L + 127) / 128 → n = 128))
    ∧ (InputVectorImpl.tileLengths L).sum = L
    ∧ (OutputVectorImpl.tileLengths L).sum = L := by
  obtain ⟨a, b, c⟩ := vectorTiles_spec L h1 hU
  refine ⟨?_, a, a, ?_, c, c⟩
  · rw [AbstractVector.nTiles_eq L h1 hU]
    omega
  · intro i hi
    obtain ⟨b1, b2, b3, b4⟩ := b i hi
    exact ⟨_, b1, b1, b2, b3, b4⟩

/-- Witness for claim C25: a vector of 300 elements has the tiles 128, 128, 44. -/
theorem vector_tiles_partition_the_length_witness :
    (1 ≤ 300 ∧ 300 < UINT_MOD)
    ∧ InputVectorImpl.tileLengths 300 = [128, 128, 44]
    ∧ (InputVectorImpl.tileLengths 300).sum = 300 :=
  ⟨⟨by decide, by decide⟩, by decide,
    (vector_tiles_partition_the_length 300 (by decide) (by decide)).2.2.2.2.1⟩

theorem getElem?_flatMap_range {α : Type} (f : Nat → Nat → α) (m : Nat) :
    ∀ (n r c : Nat), r < n → c < m →
      ((List.range n).flatMap (fun r => (List.range m).map (f r)))[r * m + c]? = some (f r c) := by
  intro n
  induction n with
  | zero =>
    intro r c hr _
    omega
  | succ n ih =>
    intro r c hr hc
    have hlen : ((List.range n).flatMap (fun r => (List.range m).map (f r))).length = n * m := by
      clear ih hr
      induction n with
      | zero => simp
      | succ n ih2 =>
        rw [List.range_succ, List.flatMap_append, List.length_append, ih2]
        simp [Nat.succ_mul]
    rw [List.range_succ, List.flatMap_append]
    by_cases hrn : r < n
    · rw [List.getElem?_append_left]
      · exact ih r c hrn hc
      · rw [hlen]
        calc r * m + c < r * m + m := by omega
          _ = (r + 1) * m := by rw [Nat.succ_mul]
          _ ≤ n * m := Nat.mul_le_mul_right m hrn
    · have hrn' : r = n := by omega
      subst hrn'
      rw [List.getElem?_append_right (by rw [hlen]; omega), hlen]
      simp only [List.flatMap_cons, List.flatMap_nil, List.append_nil]
      rw [Nat.add_sub_cancel_left, List.getElem?_map, List.getElem?_range hc]
      rfl

theorem length_flatMap_range {α : Type} (f : Nat → Nat → α) (m n : Nat) :
    ((List.range n).flatMap (fun r => (List.range m).map (f r))).length = n * m := by
  induction n with
  | zero => simp
  | succ n ih =>
    rw [List.range_succ, List.flatMap_append, List.length_append, ih]
    simp [Nat.succ_mul]

/-- Claim C26. For a ConstantMatrix of width `Wd ≥ 1` and height `Ht ≥ 1` whose `Wd * Ht`
elements can be indexed by an `unsigned int`, and every tile `(h, w)`: the file of the tile
is the entry number `h * nWidthTiles + w` of the files written; it has exactly `128 * 128`
entries in row-major order; the entry `(row, col)` is the element of the bound data at the
index `(h * 128 + row) * Wd + w * 128 + col` when `row` is below the height and `col` below
the width of the tile, and `0.0` otherwise; and every index that is read is below
`Wd * Ht`. -/
theorem exported_tile_is_zero_padded_row_major (mat : ConstantMatrixImpl)
    (hW : 1 ≤ mat.width) (hH : 1 ≤ mat.height) (hWU : mat.width < UINT_MOD)
    (hHU : mat.height < UINT_MOD) (hU : mat.width * mat.height ≤ UINT_MOD)
    (h w : Nat) (hh : h < mat.nHeightTiles) (hw : w < mat.nWidthTiles) :
    (generateMatrixData mat)[h * mat.nWidthTiles + w]? = some (generateTileData mat h w)
    ∧ (generateTileData mat h w).length = 128 * 128
    ∧ ∀ row col, row < 128 → col < 128 →
        (generateTileData mat h w)[row * 128 + col]? =
          some (if row < mat.tileHeight h ∧ col < mat.tileWidth w then
            WeightEntry.data ((h * 128 + row) * mat.width + w * 128 + col)
          else WeightEntry.zero)
        ∧ (row < mat.tileHeight h ∧ col < mat.tileWidth w →
            (h * 128 + row) * mat.width + w * 128 + col < mat.width * mat.height) := by
  refine ⟨?_, ?_, ?_⟩
  · unfold generateMatrixData
    exact getElem?_flatMap_range (fun h w => generateTileData mat h w) mat.nWidthTiles
      mat.nHeightTiles h w hh hw
  · unfold generateTileData
    rw [length_flatMap_range]
    rfl
  · intro row col hrow hcol
    have hnH : mat.nHeightTiles = (mat.height - 1) / 128 + 1 := by
      unfold ConstantMatrixImpl.nHeightTiles UINT_MOD MVMU_DIM at *
      omega
    have hnW : mat.nWidthTiles = (mat.width - 1) / 128 + 1 := by
      unfold ConstantMatrixImpl.nWidthTiles UINT_MOD MVMU_DIM at *
      omega
    have hbound : row < mat.tileHeight h ∧ col < mat.tileWidth w →
        h * 128 + row < mat.height ∧ w * 128 + col < mat.width := by
      rw [hnH] at hh
      rw [hnW] at hw
      unfold ConstantMatrixImpl.tileHeight ConstantMatrixImpl.tileWidth
      rw [hnH, hnW]
      unfold UINT_MOD MVMU_DIM at *
      intro hb
      have e1 : ((mat.height - 1) / 128 + 1 + 4294967296 - 1) % 4294967296
          = (mat.height - 1) / 128 := by omega
      have e2 : ((mat.width - 1) / 128 + 1 + 4294967296 - 1) % 4294967296
          = (mat.width - 1) / 128 := by omega
      rw [e1, e2] at hb
      constructor
      · have := hb.1
        split at this <;> omega
      · have := hb.2
        split at this <;> omega
    have hidx : row < mat.tileHeight h ∧ col < mat.tileWidth w →
        (h * 128 + row) * mat.width + w * 128 + col < mat.width * mat.height := by
      intro hb
      obtain ⟨b1, b2⟩ := hbound hb
      calc (h * 128 + row) * mat.width + w * 128 + col
          < (h * 128 + row) * mat.width + mat.width := by omega
        _ = (h * 128 + row + 1) * mat.width := by rw [Nat.succ_mul]
        _ ≤ mat.height * mat.width := Nat.mul_le_mul_right _ b1
        _ = mat.width * mat.height := Nat.mul_comm _ _
    refine ⟨?_, hidx⟩
    unfold generateTileData
    have hg := getElem?_flatMap_range (fun row col =>
      if row < mat.tileHeight h ∧ col < mat.tileWidth w then
        WeightEntry.data
          ((((((h * MVMU_DIM) % UINT_MOD + row) % UINT_MOD * mat.width) % UINT_MOD
            + (w * MVMU_DIM) % UINT_MOD) % UINT_MOD + col) % UINT_MOD)
      else WeightEntry.zero) MVMU_DIM MVMU_DIM row col hrow hcol
    have h128 : MVMU_DIM = 128 := rfl
    rw [h128] at hg
    rw [h128]
    rw [hg]
    simp only
    by_cases hb : row < mat.tileHeight h ∧ col < mat.tileWidth w
    · rw [if_pos hb, if_pos hb]
      obtain ⟨b1, b2⟩ := hbound hb
      have hlt := hidx hb
      have hmul : (h * 128 + row) * mat.width ≤ (h * 128 + row) * mat.width + w * 128 + col := by
        omega
      have k1 : (h * 128) % UINT_MOD = h * 128 := Nat.mod_eq_of_lt (by omega)
      have k2 : (h * 128 + row) % UINT_MOD = h * 128 + row := Nat.mod_eq_of_lt (by omega)
      have k3 : ((h * 128 + row) * mat.width) % UINT_MOD = (h * 128 + row) * mat.width :=
        Nat.mod_eq_of_lt (by omega)
      have k4 : (w * 128) % UINT_MOD = w * 128 := Nat.mod_eq_of_lt (by omega)
      have k5 : ((h * 128 + row) * mat.width + w * 128) % UINT_MOD
          = (h * 128 + row) * mat.width + w * 128 := Nat.mod_eq_of_lt (by omega)
      have k6 : ((h * 128 + row) * mat.width + w * 128 + col) % UINT_MOD
          = (h * 128 + row) * mat.width + w * 128 + col := Nat.mod_eq_of_lt (by omega)
      rw [k1, k2, k3, k4, k5, k6]
    · rw [if_neg hb, if_neg hb]

/-- Witness for claim C26: the 5 by 5 matrix of `test/simple.cpp` has one tile; the first 5
entries of each of its first 5 rows are the elements of the matrix in row-major order, all
other entries are `0.0`. -/
theorem exported_tile_is_zero_padded_row_major_witness :
    ((1 ≤ 5 ∧ 5 < UINT_MOD ∧ 5 * 5 ≤ UINT_MOD)
    ∧ ConstantMatrixImpl.nHeightTiles { width := 5, height := 5, tile := fun _ _ => 0 } = 1
    ∧ ConstantMatrixImpl.nWidthTiles { width := 5, height := 5, tile := fun _ _ => 0 } = 1)
    ∧ ∀ row col, row < 128 → col < 128 →
        (generateTileData { width := 5, height := 5, tile := fun _ _ => 0 } 0 0)[row * 128 + col]? =
          some (if row < 5 ∧ col < 5 then WeightEntry.data (row * 5 + col)
            else WeightEntry.zero) := by
  refine ⟨⟨⟨by decide, by decide, by decide⟩, by decide, by decide⟩, ?_⟩
  intro row col hrow hcol
  have h := (exported_tile_is_zero_padded_row_major
    { width := 5, height := 5, tile := fun _ _ => 0 } (by decide) (by decide) (by decide)
    (by decide) (by decide) 0 0 (by decide) (by decide)).2.2 row col hrow hcol
  rw [h.1]
  have e1 : ConstantMatrixImpl.tileHeight { width := 5, height := 5, tile := fun _ _ => 0 } 0 = 5 := by
    decide
  have e2 : ConstantMatrixImpl.tileWidth { width := 5, height := 5, tile := fun _ _ => 0 } 0 = 5 := by
    decide
  rw [e1, e2]
  simp

/-! ## Matrices of one kind per model -/

theorem ModelImpl.addMatrix_typed (m m' : ModelImpl) (x : AnyMatrix)
    (h : m.Typed) (hr : m.addMatrix x = some m') : m'.Typed := by
  unfold ModelImpl.Typed ModelImpl.holdsInference ModelImpl.holdsTraining at *
  cases x <;>
    simp only [ModelImpl.addMatrix, ModelImpl.addConstantMatrixImpl,
      ModelImpl.addConvolutionalConstantMatrixImpl, ModelImpl.addTrainingMatrixImpl,
      Option.map_eq_some'] at hr <;>
    obtain ⟨t, ht, hm⟩ := hr <;>
    rw [← hm] <;>
    rcases h with ⟨h1, h2, h3⟩ | ⟨h1, h2, h3⟩ | ⟨h1, h2, h3⟩ <;>
    simp [h1] at ht <;>
    simp_all

theorem ModelImpl.addMatrix_modelType (m m' : ModelImpl) (x : AnyMatrix)
    (hr : m.addMatrix x = some m') :
    m'.modelType ≠ ModelType.UNSPECIALIZED
    ∧ (m.modelType ≠ ModelType.UNSPECIALIZED → m'.modelType = m.modelType) := by
  cases x <;>
    simp only [ModelImpl.addMatrix, ModelImpl.addConstantMatrixImpl,
      ModelImpl.addConvolutionalConstantMatrixImpl, ModelImpl.addTrainingMatrixImpl,
      Option.map_eq_some'] at hr <;>
    obtain ⟨t, ht, hm⟩ := hr <;>
    rw [← hm] <;>
    cases hmt : m.modelType <;>
    simp [hmt] at ht <;>
    simp [← ht]

theorem ModelImpl.addMatrices_typed :
    ∀ (l : List AnyMatrix) (m m' : ModelImpl), m.Typed →
      l.foldlM ModelImpl.addMatrix m = some m' → m'.Typed :=
  foldlM_preserves ModelImpl.addMatrix ModelImpl.Typed
    (fun b a b' hb hf => ModelImpl.addMatrix_typed b b' a hb hf)

/-- Claim C24. In a model `m` reached from a new model by successful additions of matrices:
adding a constant or a convolutional matrix fails exactly when the model holds a training
matrix, and adding a training matrix fails exactly when the model holds a constant or a
convolutional matrix; an addition to a model without matrix, whose type is UNSPECIALIZED,
makes the type INFERENCE or TRAINING; a successful addition to a model with a matrix leaves
the type unchanged. -/
theorem add_matrix_fails_exactly_on_mixed_kinds (l : List AnyMatrix) (m : ModelImpl)
    (hm : l.foldlM ModelImpl.addMatrix ModelImpl.create = some m) :
    (∀ mat, (m.addConstantMatrixImpl mat).isNone = true ↔ m.holdsTraining = true)
    ∧ (∀ mat, (m.addConvolutionalConstantMatrixImpl mat).isNone = true ↔
        m.holdsTraining = true)
    ∧ (∀ mat, (m.addTrainingMatrixImpl mat).isNone = true ↔ m.holdsInference = true)
    ∧ (l = [] → m.modelType = ModelType.UNSPECIALIZED
        ∧ (∀ mat m', m.addConstantMatrixImpl mat = some m' →
            m'.modelType = ModelType.INFERENCE)
        ∧ (∀ mat m', m.addConvolutionalConstantMatrixImpl mat = some m' →
            m'.modelType = ModelType.INFERENCE)
        ∧ (∀ mat m', m.addTrainingMatrixImpl mat = some m' →
            m'.modelType = ModelType.TRAINING))
    ∧ (l ≠ [] → m.modelType ≠ ModelType.UNSPECIALIZED
        ∧ ∀ (x : AnyMatrix) (m' : ModelImpl), m.addMatrix x = some m' →
            m'.modelType = m.modelType) := by
  have h0 : ModelImpl.create.Typed := Or.inl ⟨rfl, rfl, rfl⟩
  have ht := ModelImpl.addMatrices_typed l ModelImpl.create m h0 hm
  have hne : l ≠ [] → m.modelType ≠ ModelType.UNSPECIALIZED := by
    intro hl
    obtain ⟨l1, x, rfl⟩ := (List.eq_nil_or_concat l).resolve_left hl
    rw [List.concat_eq_append, List.foldlM_append] at hm
    simp only [Option.bind_eq_bind, Option.bind_eq_some, List.foldlM_cons, List.foldlM_nil,
      Option.pure_def, Option.bind_some] at hm
    obtain ⟨m1, _, h1⟩ := hm
    exact (ModelImpl.addMatrix_modelType m1 m x h1).1
  refine ⟨?_, ?_, ?_, ?_, ?_⟩
  · intro mat
    unfold ModelImpl.Typed ModelImpl.holdsInference ModelImpl.holdsTraining at *
    rcases ht with ⟨h1, h2, h3⟩ | ⟨h1, h2, h3⟩ | ⟨h1, h2, h3⟩ <;>
      simp [ModelImpl.addConstantMatrixImpl, h1, h3]
  · intro mat
    unfold ModelImpl.Typed ModelImpl.holdsInference ModelImpl.holdsTraining at *
    rcases ht with ⟨h1, h2, h3⟩ | ⟨h1, h2, h3⟩ | ⟨h1, h2, h3⟩ <;>
      simp [ModelImpl.addConvolutionalConstantMatrixImpl, h1, h3]
  · intro mat
    unfold ModelImpl.Typed ModelImpl.holdsInference ModelImpl.holdsTraining at *
    rcases ht with ⟨h1, h2, h3⟩ | ⟨h1, h2, h3⟩ | ⟨h1, h2, h3⟩ <;>
      simp [ModelImpl.addTrainingMatrixImpl, h1, h2]
  · intro hl
    subst hl
    simp only [List.foldlM_nil, Option.pure_def, Option.some.injEq] at hm
    subst hm
    refine ⟨rfl, ?_, ?_, ?_⟩
    · intro mat m' h
      simp [ModelImpl.addConstantMatrixImpl, ModelImpl.create] at h
      rw [← h]
    · intro mat m' h
      simp [ModelImpl.addConvolutionalConstantMatrixImpl, ModelImpl.create] at h
      rw [← h]
    · intro mat m' h
      simp [ModelImpl.addTrainingMatrixImpl, ModelImpl.create] at h
      rw [← h]
  · intro hl
    refine ⟨hne hl, ?_⟩
    intro x m' h
    exact (ModelImpl.addMatrix_modelType m m' x h).2 (hne hl)

/-- Witness for claim C24: after a constant matrix, a training matrix is refused and a
convolutional matrix is accepted and leaves the type INFERENCE. -/
theorem add_matrix_fails_exactly_on_mixed_kinds_witness :
    ([AnyMatrix.constant oneTileMatrix].foldlM ModelImpl.addMatrix ModelImpl.create).isSome
      = true
    ∧ (([AnyMatrix.constant oneTileMatrix].foldlM ModelImpl.addMatrix ModelImpl.create).bind
        fun m => m.addTrainingMatrixImpl oneTileTrainingMatrix).isNone = true
    ∧ (([AnyMatrix.constant oneTileMatrix].foldlM ModelImpl.addMatrix ModelImpl.create).bind
        fun m => (m.addConvolutionalConstantMatrixImpl pointwiseKernel).map
          fun m' => m'.modelType) = some ModelType.INFERENCE := by
  cases hm : [AnyMatrix.constant oneTileMatrix].foldlM ModelImpl.addMatrix
      ModelImpl.create with
  | none => simp [ModelImpl.addMatrix, ModelImpl.addConstantMatrixImpl, ModelImpl.create] at hm
  | some m =>
    obtain ⟨_, _, h3, _, h5⟩ :=
      add_matrix_fails_exactly_on_mixed_kinds [AnyMatrix.constant oneTileMatrix] m hm
    have hinf : m.holdsInference = true := by
      simp [ModelImpl.addMatrix, ModelImpl.addConstantMatrixImpl, ModelImpl.create] at hm
      rw [← hm]
      rfl
    have hty : m.modelType = ModelType.INFERENCE := by
      simp [ModelImpl.addMatrix, ModelImpl.addConstantMatrixImpl, ModelImpl.create] at hm
      rw [← hm]
    refine ⟨rfl, (h3 oneTileTrainingMatrix).mpr hinf, ?_⟩
    simp only [Option.some_bind]
    cases hc : m.addConvolutionalConstantMatrixImpl pointwiseKernel with
    | none => simp [ModelImpl.addConvolutionalConstantMatrixImpl, hty] at hc
    | some m' =>
      have := (h5 (by simp)).2 (AnyMatrix.convolutional pointwiseKernel) m' hc
      simp only [Option.map_some', Option.some.injEq]
      rw [this, hty]

/-! ## The order of the matrix tiles -/

theorem pushLoop_spec {α : Type} (F : List Nat → α → Option (List Nat)) (G : α → List Nat)
    (l : List α) :
    ∀ (acc : List Nat), (∀ x, x ∈ l → ∀ acc, F acc x = some (acc ++ G x)) →
      l.foldlM F acc = some (acc ++ l.flatMap G) := by
  induction l with
  | nil => intro acc _; simp
  | cons a l ih =>
    intro acc h
    rw [List.foldlM_cons, h a (List.mem_cons_self _ _) acc]
    simp only [Option.bind_eq_bind, Option.some_bind]
    rw [ih (acc ++ G a) (fun x hx => h x (List.mem_cons_of_mem _ hx))]
    simp

theorem pushLoop_inner (n : Nat) (f : Nat → Option Nat) (g : Nat → Nat)
    (h : ∀ i, i < n → f i = some (g i)) (acc : List Nat) :
    (List.range n).foldlM (fun tiles w => (f w).map fun t => tiles ++ [t]) acc
      = some (acc ++ (List.range n).map g) := by
  rw [pushLoop_spec (fun tiles w => (f w).map fun t => tiles ++ [t]) (fun w => [g w])]
  · congr 2
    induction (List.range n) with
    | nil => rfl
    | cons a l ih => simp [List.flatMap_cons, ih]
  · intro x hx acc
    rw [h x (List.mem_range.mp hx)]
    rfl

theorem Partitioner.pushConstantRowMajor_eq (mat : ConstantMatrixImpl) (acc : List Nat) :
    Partitioner.pushConstantRowMajor mat acc
      = some (acc ++ (AnyMatrix.constant mat).rowMajorTiles) := by
  unfold Partitioner.pushConstantRowMajor AnyMatrix.rowMajorTiles
  apply pushLoop_spec
  intro h hh acc
  apply pushLoop_inner
  intro w hw
  simp [ConstantMatrixImpl.getTile, List.mem_range.mp hh, hw]

theorem Partitioner.pushConstantColMajor_eq (mat : ConstantMatrixImpl) (acc : List Nat) :
    Partitioner.pushConstantColMajor mat acc
      = some (acc ++ (AnyMatrix.constant mat).colMajorTiles) := by
  unfold Partitioner.pushConstantColMajor AnyMatrix.colMajorTiles
  apply pushLoop_spec
  intro w hw acc
  apply pushLoop_inner
  intro h hh
  simp [ConstantMatrixImpl.getTile, List.mem_range.mp hw, hh]

theorem Partitioner.pushTrainingRowMajor_eq (mat : TrainingMatrixImpl) (acc : List Nat) :
    Partitioner.pushTrainingRowMajor mat acc
      = some (acc ++ (AnyMatrix.training mat).rowMajorTiles) := by
  unfold Partitioner.pushTrainingRowMajor AnyMatrix.rowMajorTiles
  apply pushLoop_spec
  intro h hh acc
  apply pushLoop_inner
  intro w hw
  simp [TrainingMatrixImpl.getTile, List.mem_range.mp hh, hw]

theorem Partitioner.pushTrainingColMajor_eq (mat : TrainingMatrixImpl) (acc : List Nat) :
    Partitioner.pushTrainingColMajor mat acc
      = some (acc ++ (AnyMatrix.training mat).colMajorTiles) := by
  unfold Partitioner.pushTrainingColMajor AnyMatrix.colMajorTiles
  apply pushLoop_spec
  intro w hw acc
  apply pushLoop_inner
  intro h hh
  simp [TrainingMatrixImpl.getTile, List.mem_range.mp hw, hh]

theorem Partitioner.pushConvolutionalRowMajor_eq (mat : ConvolutionalConstantMatrixImpl)
    (acc : List Nat) :
    Partitioner.pushConvolutionalRowMajor mat acc
      = some (acc ++ (AnyMatrix.convolutional mat).rowMajorTiles) := by
  unfold Partitioner.pushConvolutionalRowMajor AnyMatrix.rowMajorTiles
  apply pushLoop_spec
  intro kh hkh acc
  apply pushLoop_spec
  intro kw hkw acc
  apply pushLoop_spec
  intro h hh acc
  apply pushLoop_inner
  intro w hw
  simp [ConvolutionalConstantMatrixImpl.getTile, List.mem_range.mp hkh, List.mem_range.mp hkw,
    List.mem_range.mp hh, hw]

theorem Partitioner.pushConvolutionalColMajor_eq (mat : ConvolutionalConstantMatrixImpl)
    (acc : List Nat) :
    Partitioner.pushConvolutionalColMajor mat acc
      = some (acc ++ (AnyMatrix.convolutional mat).colMajorTiles) := by
  unfold Partitioner.pushConvolutionalColMajor AnyMatrix.colMajorTiles
  apply pushLoop_spec
  intro kh hkh acc
  apply pushLoop_spec
  intro kw hkw acc
  apply pushLoop_spec
  intro w hw acc
  apply pushLoop_inner
  intro h hh
  simp [ConvolutionalConstantMatrixImpl.getTile, List.mem_range.mp hkh, List.mem_range.mp hkw,
    List.mem_range.mp hw, hh]

theorem assignVMVMU_extends (a a' : Nat → Option Nat) (op v : Nat)
    (h : assignVMVMU a op v = some a') :
    a' op = some v ∧ ∀ x w, a x = some w → a' x = some w := by
  unfold assignVMVMU at h
  split at h
  · exact absurd h (by simp)
  · rename_i hn
    simp only [Option.some.injEq] at h
    rw [← h]
    refine ⟨upd_same _ _ _, fun x w hx => ?_⟩
    by_cases hxo : x = op
    · rw [hxo] at hx
      rw [hx] at hn
      exact absurd rfl hn
    · rw [upd_other _ _ hxo]
      exact hx

theorem cloneAssignment_extends (a a' : Nat → Option Nat) (cloneFrom cloneTo : Nat)
    (h : cloneAssignment a cloneFrom cloneTo = some a') :
    ∀ x w, a x = some w → a' x = some w := by
  unfold cloneAssignment at h
  split at h
  · exact (assignVMVMU_extends a a' cloneTo _ h).2
  · simp only [Option.some.injEq] at h
    rw [← h]
    exact fun _ _ hx => hx

theorem spreadVMVMUAffinityToOperands_extends (g : Graph) :
    ∀ (fuel op : Nat) (a a' : Nat → Option Nat),
      spreadVMVMUAffinityToOperands g fuel op a = some a' →
      ∀ x w, a x = some w → a' x = some w := by
  intro fuel
  induction fuel with
  | zero =>
    intro op a a' h
    simp [spreadVMVMUAffinityToOperands] at h
  | succ fuel ih =>
    intro op a a' h
    unfold spreadVMVMUAffinityToOperands at h
    refine foldlM_preserves _ (fun (b : Nat → Option Nat) => ∀ x w, a x = some w → b x = some w)
      ?_ _ a a' (fun _ _ hx => hx) h
    intro b producer b' hb hstep
    simp only at hstep
    split at hstep
    · split at hstep
      · simp only [Option.bind_eq_some] at hstep
        obtain ⟨b1, h1, h2⟩ := hstep
        have e1 := cloneAssignment_extends b b1 op producer h1
        split at h2
        · exact fun x w hx => ih producer b1 b' h2 x w (e1 x w (hb x w hx))
        · simp only [Option.some.injEq] at h2
          rw [← h2]
          exact fun x w hx => e1 x w (hb x w hx)
      · simp only [Option.some.injEq] at hstep
        rw [← hstep]
        exact hb
    · simp only [Option.some.injEq] at hstep
      rw [← hstep]
      exact hb

theorem spreadVMVMUAffinityToUsers_extends (g : Graph) :
    ∀ (fuel op : Nat) (a a' : Nat → Option Nat),
      spreadVMVMUAffinityToUsers g fuel op a = some a' →
      ∀ x w, a x = some w → a' x = some w := by
  intro fuel
  induction fuel with
  | zero =>
    intro op a a' h
    simp [spreadVMVMUAffinityToUsers] at h
  | succ fuel ih =>
    intro op a a' h
    unfold spreadVMVMUAffinityToUsers at h
    refine foldlM_preserves _ (fun (b : Nat → Option Nat) => ∀ x w, a x = some w → b x = some w)
      ?_ _ a a' (fun _ _ hx => hx) h
    intro b consumer b' hb hstep
    simp only at hstep
    split at hstep
    · split at hstep
      · simp only [Option.bind_eq_some] at hstep
        obtain ⟨b1, h1, h2⟩ := hstep
        have e1 := cloneAssignment_extends b b1 op consumer h1
        split at h2
        · exact fun x w hx => ih consumer b1 b' h2 x w (e1 x w (hb x w hx))
        · simp only [Option.some.injEq] at h2
          rw [← h2]
          exact fun x w hx => e1 x w (hb x w hx)
      · simp only [Option.some.injEq] at hstep
        rw [← hstep]
        exact hb
    · simp only [Option.some.injEq] at hstep
      rw [← hstep]
      exact hb

theorem resolveFromOperands_extends (g : Graph) (fuel consumer : Nat) :
    ∀ (l : List Nat) (a a' : Nat → Option Nat),
      resolveFromOperands g fuel consumer l a = some a' →
      ∀ x w, a x = some w → a' x = some w := by
  intro l
  induction l with
  | nil =>
    intro a a' h
    simp only [resolveFromOperands, Option.some.injEq] at h
    rw [← h]
    exact fun _ _ hx => hx
  | cons operand rest ih =>
    intro a a' h
    unfold resolveFromOperands at h
    split at h
    · simp only [Option.bind_eq_some] at h
      obtain ⟨a1, h1, a2, h2, h3⟩ := h
      have e1 := cloneAssignment_extends a a1 operand consumer h1
      have e2 := spreadVMVMUAffinityToOperands_extends g fuel consumer a1 a2 h2
      split at h3
      · have e3 := spreadVMVMUAffinityToUsers_extends g fuel consumer a2 a' h3
        exact fun x w hx => e3 x w (e2 x w (e1 x w hx))
      · simp only [Option.some.injEq] at h3
        rw [← h3]
        exact fun x w hx => e2 x w (e1 x w hx)
    · exact ih a a' h

theorem assignTile_spec (g : Graph) (fuel : Nat) (tileUsers : Nat → List Nat)
    (s s' : Assignment) (tile : Nat) (h : assignTile g fuel tileUsers s tile = some s') :
    s'.nVMVMUs = (s.nVMVMUs + 1) % UINT_MOD
    ∧ s'.mat2vmvmu = upd s.mat2vmvmu tile (some s.nVMVMUs)
    ∧ (∀ x w, s.op2vmvmu x = some w → s'.op2vmvmu x = some w)
    ∧ ∀ op, op ∈ tileUsers tile → s'.op2vmvmu op = some s.nVMVMUs := by
  unfold assignTile at h
  simp only [Option.map_eq_some'] at h
  obtain ⟨a, ha, hs⟩ := h
  rw [← hs]
  have hstep : ∀ (b : Nat → Option Nat) (mvm : Nat) (b' : Nat → Option Nat),
      ((assignVMVMU b mvm s.nVMVMUs).bind fun a =>
        (spreadVMVMUAffinityToOperands g fuel mvm a).bind fun a =>
          spreadVMVMUAffinityToUsers g fuel mvm a) = some b' →
      b' mvm = some s.nVMVMUs ∧ ∀ x w, b x = some w → b' x = some w := by
    intro b mvm b' hb
    simp only [Option.bind_eq_some] at hb
    obtain ⟨a1, h1, a2, h2, h3⟩ := hb
    have e1 := assignVMVMU_extends b a1 mvm _ h1
    have e2 := spreadVMVMUAffinityToOperands_extends g fuel mvm a1 a2 h2
    have e3 := spreadVMVMUAffinityToUsers_extends g fuel mvm a2 b' h3
    exact ⟨e3 _ _ (e2 _ _ e1.1), fun x w hx => e3 x w (e2 x w (e1.2 x w hx))⟩
  have hinv := foldlM_prefix_invariant _
    (fun (b : Nat → Option Nat) (done : List Nat) =>
      (∀ x w, s.op2vmvmu x = some w → b x = some w)
      ∧ ∀ op, op ∈ done → b op = some s.nVMVMUs)
    (tileUsers tile) [] s.op2vmvmu a
    ⟨fun _ _ hx => hx, fun op hop => absurd hop (List.not_mem_nil _)⟩
    (fun b done mvm b1 _ hb hb1 => by
      obtain ⟨e1, e2⟩ := hstep b mvm b1 hb1
      refine ⟨fun x w hx => e2 x w (hb.1 x w hx), fun op hop => ?_⟩
      rcases List.mem_append.mp hop with hd | hd
      · exact e2 op _ (hb.2 op hd)
      · rw [List.mem_singleton.mp hd]
        exact e1) ha
  rw [List.nil_append] at hinv
  exact ⟨rfl, rfl, hinv.1, hinv.2⟩

theorem assignTiles_spec (g : Graph) (fuel : Nat) (tileUsers : Nat → List Nat)
    (tiles : List Nat) (s : Assignment) (hnd : tiles.Nodup)
    (hlen : 2 + tiles.length < UINT_MOD)
    (h : tiles.foldlM (assignTile g fuel tileUsers)
      { nVMVMUs := 2, mat2vmvmu := fun _ => none, op2vmvmu := fun _ => none } = some s) :
    s.nVMVMUs = 2 + tiles.length
    ∧ (∀ (i : Nat) (t : Nat), tiles[i]? = some t → s.mat2vmvmu t = some (2 + i))
    ∧ (∀ t, t ∉ tiles → s.mat2vmvmu t = none)
    ∧ ∀ t op, t ∈ tiles → op ∈ tileUsers t → s.op2vmvmu op = s.mat2vmvmu t := by
  have hinv := foldlM_split_invariant (assignTile g fuel tileUsers)
    (fun (s : Assignment) (done : List Nat) =>
      s.nVMVMUs = 2 + done.length
      ∧ (∀ (i : Nat) (t : Nat), done[i]? = some t → s.mat2vmvmu t = some (2 + i))
      ∧ (∀ t, t ∉ done → s.mat2vmvmu t = none)
      ∧ ∀ t op, t ∈ done → op ∈ tileUsers t → s.op2vmvmu op = s.mat2vmvmu t)
    tiles [] _ s
    ⟨rfl, fun i t hi => by simp at hi, fun _ _ => rfl,
      fun t op ht => absurd ht (List.not_mem_nil _)⟩
    (fun b done t rest b1 hsplit hb hb1 => by
      obtain ⟨c1, c2, c3, c4⟩ := hb
      obtain ⟨e1, e2, e3, e4⟩ := assignTile_spec g fuel tileUsers b b1 t hb1
      rw [List.nil_append] at hsplit
      have hdl : done.length < tiles.length := by
        rw [hsplit, List.length_append, List.length_cons]
        omega
      have htd : t ∉ done := by
        rw [hsplit] at hnd
        have := (List.nodup_append.mp hnd).2.2
        exact fun hd => this hd (List.mem_cons_self _ _)
      refine ⟨?_, ?_, ?_, ?_⟩
      · rw [e1, c1, List.length_append, List.length_singleton]
        unfold UINT_MOD at *
        omega
      · intro i x hi
        rw [e2]
        by_cases hil : i < done.length
        · rw [List.getElem?_append_left hil] at hi
          have hxd : x ∈ done := List.getElem?_mem hi
          rw [upd_other _ _ (fun (e : x = t) => htd (by rw [← e]; exact hxd))]
          exact c2 i x hi
        · rw [List.getElem?_append_right (by omega)] at hi
          have hi0 : i - done.length = 0 := by
            by_contra hne
            obtain ⟨k, hk⟩ := Nat.exists_eq_succ_of_ne_zero hne
            rw [hk] at hi
            simp at hi
          rw [hi0] at hi
          simp only [List.getElem?_cons_zero, Option.some.injEq] at hi
          rw [← hi, upd_same, c1]
          congr 2
          omega
      · intro x hx
        rw [e2]
        have hx1 : x ∉ done := fun hd => hx (List.mem_append_left _ hd)
        have hx2 : x ≠ t := fun e => hx (List.mem_append_right _ (by simp [e]))
        rw [upd_other _ _ hx2]
        exact c3 x hx1
      · intro x op hx hop
        rw [e2]
        rcases List.mem_append.mp hx with hd | hd
        · rw [upd_other _ _ (fun (e : x = t) => htd (by rw [← e]; exact hd))]
          have := c4 x op hd hop
          obtain ⟨i, hi⟩ := List.mem_iff_getElem?.mp hd
          have hv := c2 i x hi
          rw [hv] at this
          rw [hv]
          exact e3 op _ this
        · rw [List.mem_singleton.mp hd] at hop ⊢
          rw [upd_same]
          exact e4 op hop) h
  rw [List.nil_append] at hinv
  exact hinv

theorem assignVMVMUsAndSpreadAffinity_numbers (g : Graph) (fuel : Nat) (modelType : ModelType)
    (tiles : List Nat) (tileUsers : Nat → List Nat) (s : Assignment)
    (hty : modelType ≠ ModelType.UNSPECIALIZED ∨ tiles = [])
    (hnd : tiles.Nodup) (hlen : 2 + tiles.length < UINT_MOD)
    (h : assignVMVMUsAndSpreadAffinity g fuel modelType tiles tileUsers = some s) :
    s.NumbersTiles tileUsers tiles := by
  unfold assignVMVMUsAndSpreadAffinity at h
  simp only [Option.bind_eq_some, Option.map_eq_some'] at h
  obtain ⟨s1, hs1, a, ha, hs⟩ := h
  have h1 : tiles.foldlM (assignTile g fuel tileUsers)
      { nVMVMUs := 2, mat2vmvmu := fun _ => none, op2vmvmu := fun _ => none } = some s1 := by
    split at hs1
    · rename_i hu
      rcases hty with hty | hty
      · exact absurd hu hty
      · rw [hty]
        exact hs1
    · exact hs1
  obtain ⟨c1, c2, c3, c4⟩ := assignTiles_spec g fuel tileUsers tiles s1 hnd hlen h1
  have hext : ∀ x w, s1.op2vmvmu x = some w → a x = some w := by
    refine foldlM_preserves _
      (fun (b : Nat → Option Nat) => ∀ x w, s1.op2vmvmu x = some w → b x = some w)
      ?_ _ s1.op2vmvmu a (fun _ _ hx => hx) ha
    intro b op b' hb hstep
    simp only at hstep
    split at hstep
    · exact fun x w hx =>
        resolveFromOperands_extends g fuel op _ b b' hstep x w (hb x w hx)
    · simp only [Option.some.injEq] at hstep
      rw [← hstep]
      exact hb
  rw [← hs]
  refine ⟨c1, c2, c3, ?_, ?_⟩
  · intro t t' ht ht' hne
    obtain ⟨i, hi⟩ := List.mem_iff_getElem?.mp ht
    obtain ⟨j, hj⟩ := List.mem_iff_getElem?.mp ht'
    simp only
    rw [c2 i t hi, c2 j t' hj]
    intro e
    have hij : i = j := by
      simp only [Option.some.injEq] at e
      omega
    rw [hij, hj] at hi
    exact hne (Option.some.inj hi).symm
  · intro t op ht hop
    obtain ⟨i, hi⟩ := List.mem_iff_getElem?.mp ht
    have := c4 t op ht hop
    simp only
    rw [c2 i t hi] at this ⊢
    exact hext op _ this

theorem ModelImpl.addMatrices_vectors (l : List AnyMatrix) (m : ModelImpl)
    (hm : l.foldlM ModelImpl.addMatrix ModelImpl.create = some m) :
    m.constantMatrices.map AnyMatrix.constant = l.filter AnyMatrix.isConstant
    ∧ m.convolutionMatrices.map AnyMatrix.convolutional = l.filter AnyMatrix.isConvolutional
    ∧ m.trainingMatrices.map AnyMatrix.training = l.filter AnyMatrix.isTraining := by
  have hinv := foldlM_prefix_invariant ModelImpl.addMatrix
    (fun (m : ModelImpl) (done : List AnyMatrix) =>
      m.constantMatrices.map AnyMatrix.constant = done.filter AnyMatrix.isConstant
      ∧ m.convolutionMatrices.map AnyMatrix.convolutional
          = done.filter AnyMatrix.isConvolutional
      ∧ m.trainingMatrices.map AnyMatrix.training = done.filter AnyMatrix.isTraining)
    l [] ModelImpl.create m ⟨rfl, rfl, rfl⟩
    (fun b done x b1 _ hb hb1 => by
      obtain ⟨c1, c2, c3⟩ := hb
      cases x <;>
        simp only [ModelImpl.addMatrix, ModelImpl.addConstantMatrixImpl,
          ModelImpl.addConvolutionalConstantMatrixImpl, ModelImpl.addTrainingMatrixImpl,
          Option.map_eq_some'] at hb1 <;>
        obtain ⟨t, _, hb1⟩ := hb1 <;>
        rw [← hb1] <;>
        simp [List.filter_append, AnyMatrix.isConstant, AnyMatrix.isConvolutional,
          AnyMatrix.isTraining, c1, c2, c3]) hm
  rw [List.nil_append] at hinv
  exact hinv

theorem visitOrder_flatMap (l : List AnyMatrix) (m : ModelImpl) (tilesOf : AnyMatrix → List Nat)
    (hm : l.foldlM ModelImpl.addMatrix ModelImpl.create = some m) :
    (m.modelType = ModelType.INFERENCE →
      (AnyMatrix.visitOrder l).flatMap tilesOf
        = m.constantMatrices.flatMap (fun mat => tilesOf (AnyMatrix.constant mat))
          ++ m.convolutionMatrices.flatMap (fun mat => tilesOf (AnyMatrix.convolutional mat)))
    ∧ (m.modelType = ModelType.TRAINING →
      (AnyMatrix.visitOrder l).flatMap tilesOf
        = m.trainingMatrices.flatMap (fun mat => tilesOf (AnyMatrix.training mat)))
    ∧ (m.modelType = ModelType.UNSPECIALIZED → (AnyMatrix.visitOrder l).flatMap tilesOf = []) := by
  obtain ⟨c1, c2, c3⟩ := ModelImpl.addMatrices_vectors l m hm
  have ht := ModelImpl.addMatrices_typed l ModelImpl.create m (Or.inl ⟨rfl, rfl, rfl⟩) hm
  have hflat : (AnyMatrix.visitOrder l).flatMap tilesOf
      = m.constantMatrices.flatMap (fun mat => tilesOf (AnyMatrix.constant mat))
        ++ m.convolutionMatrices.flatMap (fun mat => tilesOf (AnyMatrix.convolutional mat))
        ++ m.trainingMatrices.flatMap (fun mat => tilesOf (AnyMatrix.training mat)) := by
    unfold AnyMatrix.visitOrder
    rw [← c1, ← c2, ← c3, List.flatMap_append, List.flatMap_append]
    simp only [List.flatMap_def, List.map_map]
    rfl
  unfold ModelImpl.Typed ModelImpl.holdsInference ModelImpl.holdsTraining at ht
  refine ⟨?_, ?_, ?_⟩
  · intro hty
    rw [hflat]
    rcases ht with ⟨h1, _, _⟩ | ⟨_, _, h3⟩ | ⟨h1, _, _⟩
    · rw [hty] at h1; exact absurd h1 (by decide)
    · have : m.trainingMatrices = [] := by simpa using h3
      simp [this]
    · rw [hty] at h1; exact absurd h1 (by decide)
  · intro hty
    rw [hflat]
    rcases ht with ⟨h1, _, _⟩ | ⟨h1, _, _⟩ | ⟨_, h2, _⟩
    · rw [hty] at h1; exact absurd h1 (by decide)
    · rw [hty] at h1; exact absurd h1 (by decide)
    · have : m.constantMatrices = [] ∧ m.convolutionMatrices = [] := by simpa using h2
      simp [this.1, this.2]
  · intro hty
    rw [hflat]
    rcases ht with ⟨_, h2, h3⟩ | ⟨h1, _, _⟩ | ⟨h1, _, _⟩
    · have h2' : m.constantMatrices = [] ∧ m.convolutionMatrices = [] := by simpa using h2
      have h3' : m.trainingMatrices = [] := by simpa using h3
      simp [h2'.1, h2'.2, h3']
    · rw [hty] at h1; exact absurd h1 (by decide)
    · rw [hty] at h1; exact absurd h1 (by decide)

theorem Partitioner.extractRowMajor_eq (l : List AnyMatrix) (m0 : ModelImpl) (g : Graph)
    (tileUsers : Nat → List Nat)
    (hm : l.foldlM ModelImpl.addMatrix ModelImpl.create = some m0) :
    Partitioner.extractRowMajor { m0 with g := g, tileUsers := tileUsers }
      = some ((AnyMatrix.visitOrder l).flatMap AnyMatrix.rowMajorTiles) := by
  obtain ⟨f1, f2, f3⟩ := visitOrder_flatMap l m0 AnyMatrix.rowMajorTiles hm
  unfold Partitioner.extractRowMajor
  simp only
  cases hty : m0.modelType with
  | UNSPECIALIZED =>
    rw [f3 hty]
    rfl
  | INFERENCE =>
    rw [f1 hty, if_pos rfl,
      pushLoop_spec (fun tiles mat => Partitioner.pushConstantRowMajor mat tiles)
        (fun mat => (AnyMatrix.constant mat).rowMajorTiles) _ []
        (fun x _ acc => Partitioner.pushConstantRowMajor_eq x acc)]
    simp only [Option.some_bind, List.nil_append]
    exact pushLoop_spec (fun tiles mat => Partitioner.pushConvolutionalRowMajor mat tiles)
        (fun mat => (AnyMatrix.convolutional mat).rowMajorTiles) _ _
        (fun x _ acc => Partitioner.pushConvolutionalRowMajor_eq x acc)
  | TRAINING =>
    rw [f2 hty, if_neg (by decide), if_pos rfl,
      pushLoop_spec (fun tiles mat => Partitioner.pushTrainingRowMajor mat tiles)
        (fun mat => (AnyMatrix.training mat).rowMajorTiles) _ []
        (fun x _ acc => Partitioner.pushTrainingRowMajor_eq x acc)]
    rw [List.nil_append]

theorem Partitioner.extractColMajor_eq (l : List AnyMatrix) (m0 : ModelImpl) (g : Graph)
    (tileUsers : Nat → List Nat)
    (hm : l.foldlM ModelImpl.addMatrix ModelImpl.create = some m0) :
    Partitioner.extractColMajor { m0 with g := g, tileUsers := tileUsers }
      = some ((AnyMatrix.visitOrder l).flatMap AnyMatrix.colMajorTiles) := by
  obtain ⟨f1, f2, f3⟩ := visitOrder_flatMap l m0 AnyMatrix.colMajorTiles hm
  unfold Partitioner.extractColMajor
  simp only
  cases hty : m0.modelType with
  | UNSPECIALIZED =>
    rw [f3 hty]
    rfl
  | INFERENCE =>
    rw [f1 hty, if_pos rfl,
      pushLoop_spec (fun tiles mat => Partitioner.pushConstantColMajor mat tiles)
        (fun mat => (AnyMatrix.constant mat).colMajorTiles) _ []
        (fun x _ acc => Partitioner.pushConstantColMajor_eq x acc)]
    simp only [Option.some_bind, List.nil_append]
    exact pushLoop_spec (fun tiles mat => Partitioner.pushConvolutionalColMajor mat tiles)
        (fun mat => (AnyMatrix.convolutional mat).colMajorTiles) _ _
        (fun x _ acc => Partitioner.pushConvolutionalColMajor_eq x acc)
  | TRAINING =>
    rw [f2 hty, if_neg (by decide), if_pos rfl,
      pushLoop_spec (fun tiles mat => Partitioner.pushTrainingColMajor mat tiles)
        (fun mat => (AnyMatrix.training mat).colMajorTiles) _ []
        (fun x _ acc => Partitioner.pushTrainingColMajor_eq x acc)]
    rw [List.nil_append]

theorem visitOrder_split (l1 l2 l3 : List AnyMatrix) (A B : AnyMatrix)
    (h : A.visitedInCreationOrder B = true) :
    ∃ X Y Z, AnyMatrix.visitOrder (l1 ++ A :: l2 ++ B :: l3) = X ++ A :: Y ++ B :: Z := by
  have hsub : [A, B].Sublist (AnyMatrix.visitOrder (l1 ++ A :: l2 ++ B :: l3)) := by
    have hl : [A, B].Sublist (l1 ++ A :: l2 ++ B :: l3) := by simp
    have hA : [A].Sublist (l1 ++ A :: l2 ++ B :: l3) :=
      List.singleton_sublist.mpr (by simp)
    have hB : [B].Sublist (l1 ++ A :: l2 ++ B :: l3) :=
      List.singleton_sublist.mpr (by simp)
    unfold AnyMatrix.visitedInCreationOrder at h
    simp only [Bool.or_eq_true, Bool.and_eq_true] at h
    unfold AnyMatrix.visitOrder
    rcases h with ((⟨a, b⟩ | ⟨a, b⟩) | ⟨a, b⟩) | ⟨a, b⟩
    · have := List.Sublist.filter AnyMatrix.isConstant hl
      simp only [List.filter_cons, a, b, if_true, List.filter_nil] at this
      exact (this.trans (List.sublist_append_left _ _)).trans (List.sublist_append_left _ _)
    · have := List.Sublist.filter AnyMatrix.isConvolutional hl
      simp only [List.filter_cons, a, b, if_true, List.filter_nil] at this
      exact (this.trans (List.sublist_append_right _ _)).trans (List.sublist_append_left _ _)
    · have := List.Sublist.filter AnyMatrix.isTraining hl
      simp only [List.filter_cons, a, b, if_true, List.filter_nil] at this
      exact this.trans (List.sublist_append_right _ _)
    · have hA1 := List.Sublist.filter AnyMatrix.isConstant hA
      have hB1 := List.Sublist.filter AnyMatrix.isConvolutional hB
      simp only [List.filter_cons, a, b, if_true, List.filter_nil] at hA1 hB1
      have := List.Sublist.append hA1 hB1
      exact this.trans (List.sublist_append_left _ _)
  generalize AnyMatrix.visitOrder (l1 ++ A :: l2 ++ B :: l3) = L at hsub
  obtain ⟨r1, r2, hL, hA, hB⟩ := List.cons_sublist_iff.mp hsub
  obtain ⟨X, Y1, hX⟩ := List.append_of_mem hA
  obtain ⟨Y2, Z, hZ⟩ := List.append_of_mem (List.singleton_sublist.mp hB)
  exact ⟨X, Y1 ++ Y2, Z, by rw [hL, hX, hZ]; simp⟩

theorem Assignment.NumbersTiles.visitedInOrder {s : Assignment} {tileUsers : Nat → List Nat}
    (l1 l2 l3 : List AnyMatrix) (A B : AnyMatrix) (tilesOf : AnyMatrix → List Nat)
    (hN : s.NumbersTiles tileUsers
      ((AnyMatrix.visitOrder (l1 ++ A :: l2 ++ B :: l3)).flatMap tilesOf))
    (h : A.visitedInCreationOrder B = true) (tA tB : Nat)
    (hA : tA ∈ tilesOf A) (hB : tB ∈ tilesOf B) :
    ∃ a b, s.mat2vmvmu tA = some a ∧ s.mat2vmvmu tB = some b ∧ a < b := by
  obtain ⟨X, Y, Z, hXYZ⟩ := visitOrder_split l1 l2 l3 A B h
  rw [hXYZ] at hN
  obtain ⟨i, hi, hti⟩ := List.mem_iff_getElem.mp hA
  obtain ⟨j, hj, htj⟩ := List.mem_iff_getElem.mp hB
  have e : (X ++ A :: Y ++ B :: Z).flatMap tilesOf
      = X.flatMap tilesOf ++ (tilesOf A ++ (Y.flatMap tilesOf ++ (tilesOf B
          ++ Z.flatMap tilesOf))) := by
    simp [List.flatMap_append, List.flatMap_cons]
  rw [e] at hN
  refine ⟨2 + ((X.flatMap tilesOf).length + i),
    2 + ((X.flatMap tilesOf).length + ((tilesOf A).length + ((Y.flatMap tilesOf).length + j))),
    hN.tile _ tA ?_, hN.tile _ tB ?_, by omega⟩
  · rw [List.getElem?_append_right (by omega), Nat.add_sub_cancel_left,
      List.getElem?_append_left hi, List.getElem?_eq_getElem hi, hti]
  · rw [List.getElem?_append_right (by omega), Nat.add_sub_cancel_left,
      List.getElem?_append_right (by omega), Nat.add_sub_cancel_left,
      List.getElem?_append_right (by omega), Nat.add_sub_cancel_left,
      List.getElem?_append_left hj, List.getElem?_eq_getElem hj, htj]

/-- Claim C22 (counterexample). A convolutional matrix (one tile, address 100) is created
first and a constant matrix (one tile, address 200) second. Under both schemes the tile of
the constant matrix gets virtual MVMU 2 and the tile of the convolutional matrix gets 3: the
tile of the matrix created earlier does not precede the tile of the matrix created later. -/
theorem constant_matrix_tiles_precede_earlier_convolutional_tiles :
    ([AnyMatrix.convolutional pointwiseKernel, AnyMatrix.constant oneTileMatrix].foldlM
        ModelImpl.addMatrix ModelImpl.create).bind (fun m =>
      (Partitioner.assignVMVMUsInRowMajor m 8).map fun s =>
        (s.mat2vmvmu 100, s.mat2vmvmu 200, s.nVMVMUs)) = some (some 3, some 2, 4)
    ∧ ([AnyMatrix.convolutional pointwiseKernel, AnyMatrix.constant oneTileMatrix].foldlM
        ModelImpl.addMatrix ModelImpl.create).bind (fun m =>
      (Partitioner.assignVMVMUsInColMajor m 8).map fun s =>
        (s.mat2vmvmu 100, s.mat2vmvmu 200, s.nVMVMUs)) = some (some 3, some 2, 4)
    ∧ ¬ (3 < 2) := by
  decide

/-- Claim C22 (amended). The matrices `l` are created in this order, and the partitioner
runs on the model with any operations `g` and tile users. When the row-major assignment
returns, the tiles are distinct and their number plus 2 fits an `unsigned int`: the tiles
get the consecutive virtual MVMUs from 2 on in the order of visit (constant matrices, then
convolutional matrices, then training matrices, each kind in creation order, the tiles of a
matrix in row-major order); distinct tiles get distinct ids; every user of a tile is
assigned the id of the tile; when the only matrix is a ConstantMatrix of `H` by `W` tiles,
the tile `(h, w)` gets `2 + h * W + w`; and for a matrix `A` created before a matrix `B` of
the same kind, or a constant `A` and a convolutional `B`, every tile of `A` gets a smaller
id than every tile of `B`. The same holds for the column-major assignment with column-major
order and `2 + w * H + h`. -/
theorem matrix_tiles_get_consecutive_vmvmus_in_visit_order (l : List AnyMatrix)
    (m0 : ModelImpl) (g : Graph) (tileUsers : Nat → List Nat) (fuel : Nat)
    (hm : l.foldlM ModelImpl.addMatrix ModelImpl.create = some m0) :
    (∀ s, Partitioner.assignVMVMUsInRowMajor { m0 with g := g, tileUsers := tileUsers } fuel
          = some s →
        ((AnyMatrix.visitOrder l).flatMap AnyMatrix.rowMajorTiles).Nodup →
        2 + ((AnyMatrix.visitOrder l).flatMap AnyMatrix.rowMajorTiles).length < UINT_MOD →
        s.NumbersTiles tileUsers ((AnyMatrix.visitOrder l).flatMap AnyMatrix.rowMajorTiles)
        ∧ (∀ mat, l = [AnyMatrix.constant mat] → ∀ h w, h < mat.nHeightTiles →
            w < mat.nWidthTiles →
            s.mat2vmvmu (mat.tile h w) = some (2 + h * mat.nWidthTiles + w))
        ∧ (∀ l1 A l2 B l3, l = l1 ++ A :: l2 ++ B :: l3 →
            A.visitedInCreationOrder B = true →
            ∀ tA tB, tA ∈ A.rowMajorTiles → tB ∈ B.rowMajorTiles →
              ∃ a b, s.mat2vmvmu tA = some a ∧ s.mat2vmvmu tB = some b ∧ a < b))
    ∧ (∀ s, Partitioner.assignVMVMUsInColMajor { m0 with g := g, tileUsers := tileUsers } fuel
          = some s →
        ((AnyMatrix.visitOrder l).flatMap AnyMatrix.colMajorTiles).Nodup →
        2 + ((AnyMatrix.visitOrder l).flatMap AnyMatrix.colMajorTiles).length < UINT_MOD →
        s.NumbersTiles tileUsers ((AnyMatrix.visitOrder l).flatMap AnyMatrix.colMajorTiles)
        ∧ (∀ mat, l = [AnyMatrix.constant mat] → ∀ h w, h < mat.nHeightTiles →
            w < mat.nWidthTiles →
            s.mat2vmvmu (mat.tile h w) = some (2 + w * mat.nHeightTiles + h))
        ∧ (∀ l1 A l2 B l3, l = l1 ++ A :: l2 ++ B :: l3 →
            A.visitedInCreationOrder B = true →
            ∀ tA tB, tA ∈ A.colMajorTiles → tB ∈ B.colMajorTiles →
              ∃ a b, s.mat2vmvmu tA = some a ∧ s.mat2vmvmu tB = some b ∧ a < b)) := by
  have hty : m0.modelType ≠ ModelType.UNSPECIALIZED
      ∨ ∀ tilesOf : AnyMatrix → List Nat, (AnyMatrix.visitOrder l).flatMap tilesOf = [] := by
    by_cases hu : m0.modelType = ModelType.UNSPECIALIZED
    · exact Or.inr fun tilesOf => (visitOrder_flatMap l m0 tilesOf hm).2.2 hu
    · exact Or.inl hu
  constructor
  · intro s hs hnd hlen
    unfold Partitioner.assignVMVMUsInRowMajor at hs
    rw [Partitioner.extractRowMajor_eq l m0 g tileUsers hm] at hs
    simp only [Option.some_bind] at hs
    have hN := assignVMVMUsAndSpreadAffinity_numbers g fuel m0.modelType _ tileUsers s
      (hty.imp id fun h => h _) hnd hlen hs
    refine ⟨hN, ?_, ?_⟩
    · intro mat hl h w hh hw
      rw [hl] at hN
      refine hN.tile (h * mat.nWidthTiles + w) _ ?_ |>.trans (by rw [Nat.add_assoc])
      have e : (AnyMatrix.visitOrder [AnyMatrix.constant mat]).flatMap AnyMatrix.rowMajorTiles
          = (AnyMatrix.constant mat).rowMajorTiles := by
        simp [AnyMatrix.visitOrder, AnyMatrix.isConstant, AnyMatrix.isConvolutional,
          AnyMatrix.isTraining]
      rw [e]
      unfold AnyMatrix.rowMajorTiles
      exact getElem?_flatMap_range (fun h w => mat.tile h w) mat.nWidthTiles
        mat.nHeightTiles h w hh hw
    · intro l1 A l2 B l3 hl hAB tA tB hA hB
      rw [hl] at hN
      exact hN.visitedInOrder l1 l2 l3 A B AnyMatrix.rowMajorTiles hAB tA tB hA hB
  · intro s hs hnd hlen
    unfold Partitioner.assignVMVMUsInColMajor at hs
    rw [Partitioner.extractColMajor_eq l m0 g tileUsers hm] at hs
    simp only [Option.some_bind] at hs
    have hN := assignVMVMUsAndSpreadAffinity_numbers g fuel m0.modelType _ tileUsers s
      (hty.imp id fun h => h _) hnd hlen hs
    refine ⟨hN, ?_, ?_⟩
    · intro mat hl h w hh hw
      rw [hl] at hN
      refine hN.tile (w * mat.nHeightTiles + h) _ ?_ |>.trans (by rw [Nat.add_assoc])
      have e : (AnyMatrix.visitOrder [AnyMatrix.constant mat]).flatMap AnyMatrix.colMajorTiles
          = (AnyMatrix.constant mat).colMajorTiles := by
        simp [AnyMatrix.visitOrder, AnyMatrix.isConstant, AnyMatrix.isConvolutional,
          AnyMatrix.isTraining]
      rw [e]
      unfold AnyMatrix.colMajorTiles
      exact getElem?_flatMap_range (fun w h => mat.tile h w) mat.nHeightTiles
        mat.nWidthTiles w h hw hh
    · intro l1 A l2 B l3 hl hAB tA tB hA hB
      rw [hl] at hN
      exact hN.visitedInOrder l1 l2 l3 A B AnyMatrix.colMajorTiles hAB tA tB hA hB

/-- Witness for claim C22: the matrix of two by two tiles of `fourTileGraph`; the row-major
assignment returns and numbers the tiles 2, 3, 4, 5, and the users 3, 4, 6, 7 of the tiles
have these ids. -/
theorem matrix_tiles_get_consecutive_vmvmus_in_visit_order_witness :
    ∃ m0 s, [AnyMatrix.constant fourTileMatrix].foldlM ModelImpl.addMatrix ModelImpl.create
        = some m0
      ∧ Partitioner.assignVMVMUsInRowMajor
          { m0 with g := fourTileGraph, tileUsers := fourTileUsers } 64 = some s
      ∧ s.NumbersTiles fourTileUsers [0, 1, 2, 3]
      ∧ s.mat2vmvmu 3 = some 5 ∧ s.op2vmvmu 7 = some 5 := by
  have hm : [AnyMatrix.constant fourTileMatrix].foldlM ModelImpl.addMatrix ModelImpl.create
      = some { ModelImpl.create with modelType := ModelType.INFERENCE,
                                     constantMatrices := [fourTileMatrix] } := rfl
  have hsome : (Partitioner.assignVMVMUsInRowMajor
      { ({ ModelImpl.create with modelType := ModelType.INFERENCE,
                                 constantMatrices := [fourTileMatrix] } : ModelImpl) with
        g := fourTileGraph, tileUsers := fourTileUsers } 64).isSome = true := by decide
  obtain ⟨s, hs⟩ := Option.isSome_iff_exists.mp hsome
  have hw := (matrix_tiles_get_consecutive_vmvmus_in_visit_order
    [AnyMatrix.constant fourTileMatrix] _ fourTileGraph fourTileUsers 64 hm).1 s hs
    (by decide) (by decide)
  have h3 := hw.2.1 fourTileMatrix rfl 1 1 (by decide) (by decide)
  refine ⟨_, s, hm, hs, hw.1, h3, ?_⟩
  have := hw.1.user 3 7 (by decide) (by decide)
  rw [this]
  exact h3

/-! ## The matrix-vector product of the front end -/

theorem foldlM_range_total {β : Type} (f : β → Nat → Option β) (Inv : Nat → β → Prop)
    (n : Nat) (b : β) (h0 : Inv 0 b)
    (hstep : ∀ k b, k < n → Inv k b → ∃ b', f b k = some b' ∧ Inv (k + 1) b') :
    ∃ b', (List.range n).foldlM f b = some b' ∧ Inv n b' := by
  induction n with
  | zero => exact ⟨b, rfl, h0⟩
  | succ n ih =>
    obtain ⟨b1, hb1, hI1⟩ := ih (fun k b hk => hstep k b (Nat.lt_succ_of_lt hk))
    obtain ⟨b2, hb2, hI2⟩ := hstep n b1 (Nat.lt_succ_self n) hI1
    refine ⟨b2, ?_, hI2⟩
    rw [List.range_succ, List.foldlM_append, hb1]
    simp only [Option.bind_eq_bind, Option.some_bind, List.foldlM_cons, List.foldlM_nil, hb2]
    rfl

theorem setInsert_above (l : List Nat) (x : Nat) (h : ∀ a, a ∈ l → a < x) :
    setInsert l x = l ++ [x] := by
  unfold setInsert
  rw [if_neg (fun hx => Nat.lt_irrefl x (h x hx))]
  induction l with
  | nil => rfl
  | cons b l ih =>
    have hb : ¬ x ≤ b := Nat.not_le.mpr (h b (List.mem_cons_self _ _))
    simp only [List.orderedInsert, hb, if_false, List.cons_append]
    rw [ih (fun a ha => h a (List.mem_cons_of_mem _ ha))]

theorem ModelImpl.newMVM_spec (m : ModelImpl) (mat matWidth matHeight op : Nat)
    (hc : matWidth = m.g.length op ∧ matWidth ≤ MVMU_DIM ∧ matHeight ≤ MVMU_DIM) :
    ∃ m', m.newMVM mat matWidth matHeight op = some (m.g.fresh, m')
      ∧ m'.g.fresh = m.g.fresh + 1
      ∧ m'.g.operations = setInsert m.g.operations m.g.fresh
      ∧ m'.g.cls = upd m.g.cls m.g.fresh OpClass.MVMOperation
      ∧ m'.g.operands m.g.fresh = [op]
      ∧ (∀ i, i ≠ m.g.fresh → m'.g.operands i = m.g.operands i)
      ∧ m'.g.length = upd m.g.length m.g.fresh matHeight
      ∧ m'.g.mat m.g.fresh = mat
      ∧ (∀ i, i ≠ m.g.fresh → m'.g.mat i = m.g.mat i)
      ∧ m'.opCode = m.opCode
      ∧ m'.tileUsers = upd m.tileUsers mat (m.tileUsers mat ++ [m.g.fresh])
      ∧ m'.coalesceableMVMSets = m.coalesceableMVMSets
      ∧ m'.modelType = m.modelType ∧ m'.constantMatrices = m.constantMatrices
      ∧ m'.convolutionMatrices = m.convolutionMatrices
      ∧ m'.trainingMatrices = m.trainingMatrices := by
  unfold ModelImpl.newMVM
  rw [if_pos hc]
  refine ⟨_, rfl, rfl, rfl, rfl, ?_, ?_, rfl, ?_, ?_, rfl, rfl, rfl, rfl, rfl, rfl, rfl⟩
  · simp [Graph.addUser, Graph.alloc, upd_same]
  · intro i hi
    simp [Graph.addUser, Graph.alloc, upd_other _ _ hi]
  · simp [Graph.addUser, Graph.alloc, upd_same]
  · intro i hi
    simp [Graph.addUser, Graph.alloc, upd_other _ _ hi]

theorem ModelImpl.newALUVector_spec (m : ModelImpl) (opCode : OpCode) (src1 src2 : Nat)
    (h1 : opCode ≠ OpCode.MULI) (h2 : m.g.length src1 = m.g.length src2) :
    ∃ m', m.newALUVector opCode src1 src2 = some (m.g.fresh, m')
      ∧ m'.g.fresh = m.g.fresh + 1
      ∧ m'.g.operations = setInsert m.g.operations m.g.fresh
      ∧ m'.g.cls = upd m.g.cls m.g.fresh OpClass.ALUVectorOperation
      ∧ m'.g.operands m.g.fresh = [src1, src2]
      ∧ (∀ i, i ≠ m.g.fresh → m'.g.operands i = m.g.operands i)
      ∧ m'.g.length = upd m.g.length m.g.fresh (m.g.length src1)
      ∧ m'.g.mat = upd m.g.mat m.g.fresh 0
      ∧ m'.opCode = upd m.opCode m.g.fresh (some opCode)
      ∧ m'.tileUsers = m.tileUsers
      ∧ m'.coalesceableMVMSets = m.coalesceableMVMSets
      ∧ m'.modelType = m.modelType ∧ m'.constantMatrices = m.constantMatrices
      ∧ m'.convolutionMatrices = m.convolutionMatrices
      ∧ m'.trainingMatrices = m.trainingMatrices := by
  unfold ModelImpl.newALUVector
  rw [if_neg h1, if_neg (fun h => h.2 h2)]
  refine ⟨_, rfl, rfl, rfl, rfl, ?_, ?_, rfl, rfl, rfl, rfl, rfl, rfl, rfl, rfl, rfl⟩
  · simp [Graph.addUser, Graph.alloc, upd_same]
  · intro i hi
    simp [Graph.addUser, Graph.alloc, upd_other _ _ hi]

theorem productDone_succ (W h k h' w' : Nat) :
    productDone W h (k + 1) h' w' ↔ productDone W h k h' w' ∨ (h' = h ∧ w' = k) := by
  unfold productDone
  omega

theorem ProductInv.nextTile {M : ConstantMatrixImpl} {m : ModelImpl} {x : VectorImpl}
    {h k : Nat} {mc m' : ModelImpl} (hI : ProductInv M m x h k mc)
    (hS : ProductStep M m x h k mc m') : ProductInv M m x h (k + 1) m' := by
  have hf := hI.fresh
  have hf' := hS.fresh
  have hle0 : m.g.fresh ≤ mc.g.fresh := by
    rw [hf]; unfold productMVM; omega
  have hle1 : mc.g.fresh < m'.g.fresh := by
    rw [hf, hf']; unfold productMVM; omega
  have hmvm : productMVM m.g.fresh M.nWidthTiles h k = mc.g.fresh := hf.symm
  have hsum : 1 ≤ k → productSum m.g.fresh M.nWidthTiles h k = mc.g.fresh + 1 := by
    intro hk
    rw [hf]; unfold productMVM productSum; omega
  refine ⟨hf', ?_, ?_, ?_, ?_, ?_, ?_, ?_⟩
  · intro i
    rw [hS.operations i, hI.operations i]
    constructor
    · rintro ((h1 | ⟨h1, h2⟩) | ⟨h1, h2⟩)
      · exact Or.inl h1
      · exact Or.inr ⟨h1, by omega⟩
      · exact Or.inr ⟨by omega, h2⟩
    · rintro (h1 | ⟨h1, h2⟩)
      · exact Or.inl (Or.inl h1)
      · by_cases hi : i < mc.g.fresh
        · exact Or.inl (Or.inr ⟨h1, hi⟩)
        · exact Or.inr ⟨by omega, h2⟩
  · intro i hi
    obtain ⟨a1, a2, a3, a4, a5⟩ := hS.old i (by omega)
    obtain ⟨b1, b2, b3, b4, b5⟩ := hI.old i hi
    exact ⟨a1.trans b1, a2.trans b2, a3.trans b3, a4.trans b4, a5.trans b5⟩
  · intro h' w' hd
    rcases (productDone_succ _ _ _ _ _).mp hd with hd | ⟨rfl, rfl⟩
    · obtain ⟨c0, c1, ⟨p, c2, c3⟩, c4, c5, c6⟩ := hI.mvm h' w' hd
      obtain ⟨a1, a2, a3, a4, _⟩ := hS.old _ c0
      exact ⟨by omega, a1.trans c1, ⟨p, c2, a2.trans c3⟩, a4.trans c4, a3.trans c5,
        hS.users _ _ c6⟩
    · obtain ⟨c1, c2, c4, c5, c6⟩ := hS.mvm
      exact ⟨by omega, c1, c2, c4, c5, c6⟩
  · intro h' w' hw1 hd
    rcases (productDone_succ _ _ _ _ _).mp hd with hd | ⟨rfl, rfl⟩
    · obtain ⟨c0, c1, c2, c3, c4⟩ := hI.add h' w' hw1 hd
      obtain ⟨a1, a2, a3, _, a5⟩ := hS.old _ c0
      exact ⟨by omega, a1.trans c1, a5.trans c2, a2.trans c3, a3.trans c4⟩
    · obtain ⟨c1, c2, c3, c4⟩ := hS.add hw1
      have := hsum hw1
      refine ⟨?_, c1, c2, c3, c4⟩
      rw [this, hf', hf]
      unfold productMVM
      omega
  · intro i hi0 hi1
    by_cases hi : i < mc.g.fresh
    · obtain ⟨h', w', hd, hc⟩ := hI.created i hi0 hi
      exact ⟨h', w', (productDone_succ _ _ _ _ _).mpr (Or.inl hd), hc⟩
    · refine ⟨h, k, (productDone_succ _ _ _ _ _).mpr (Or.inr ⟨rfl, rfl⟩), ?_⟩
      by_cases hk : k = 0
      · left
        rw [hmvm]
        unfold productMVM at hf hf'
        omega
      · by_cases hie : i = mc.g.fresh
        · left
          rw [hmvm, hie]
        · right
          refine ⟨by omega, ?_⟩
          rw [hsum (by omega)]
          unfold productMVM at hf hf'
          omega
  · exact hS.sets.trans hI.sets
  · obtain ⟨a1, a2, a3, a4⟩ := hS.matrices
    obtain ⟨b1, b2, b3, b4⟩ := hI.matrices
    exact ⟨a1.trans b1, a2.trans b2, a3.trans b3, a4.trans b4⟩

theorem ConstantMatrixImpl.tileWidth_le (M : ConstantMatrixImpl) (w : Nat) :
    M.tileWidth w ≤ MVMU_DIM := by
  unfold ConstantMatrixImpl.tileWidth MVMU_DIM
  split <;> omega

theorem ConstantMatrixImpl.tileHeight_le (M : ConstantMatrixImpl) (h : Nat) :
    M.tileHeight h ≤ MVMU_DIM := by
  unfold ConstantMatrixImpl.tileHeight MVMU_DIM
  split <;> omega

theorem productMVMs_succ (first W h k : Nat) :
    productMVMs first W h (k + 1) = productMVMs first W h k ++ [productMVM first W h k] := by
  unfold productMVMs
  rw [List.range_succ, List.map_append, List.append_assoc]
  rfl

theorem productTile_step (M : ConstantMatrixImpl) (m : ModelImpl) (x y : VectorImpl)
    (h k : Nat) (st : ProductState) (hH : h < M.nHeightTiles) (hW : k < M.nWidthTiles)
    (hx : ∀ w, w < M.nWidthTiles →
      ∃ p, x.getTile w = some p ∧ p < m.g.fresh ∧ m.g.length p = M.tileWidth w)
    (hI : ProductTileInv M m x y h k st) :
    ∃ st', productTile M x h st k = some st' ∧ ProductTileInv M m x y h (k + 1) st' := by
  obtain ⟨p, hp, hpf, hpl⟩ := hx k hW
  have hf := hI.model.fresh
  have hle0 : m.g.fresh ≤ st.model.g.fresh := by
    rw [hf]; unfold productMVM; omega
  have hlen : M.tileWidth k = st.model.g.length p := by
    rw [(hI.model.old p hpf).2.2.1, hpl]
  obtain ⟨m1, e0, e1, e2, e3, e4, e5, e6, e7, e8, e9, e10, e11, e12, e13, e14, e15⟩ :=
    ModelImpl.newMVM_spec st.model (M.tile h k) (M.tileWidth k) (M.tileHeight h) p
      ⟨hlen, M.tileWidth_le k, M.tileHeight_le h⟩
  have hops1 : ∀ i, i ∈ m1.g.operations ↔
      i ∈ st.model.g.operations ∨ i = st.model.g.fresh := by
    intro i
    rw [e2, mem_setInsert]
    exact Or.comm
  have hset : setInsert st.coalesceableMVMSet st.model.g.fresh
      = productMVMs m.g.fresh M.nWidthTiles h (k + 1) := by
    rw [setInsert_above _ _ hI.below, productMVMs_succ, hI.set, hf]
  have hget : M.getTile h k = some (M.tile h k) := by
    simp [ConstantMatrixImpl.getTile, hH, hW]
  unfold productTile
  rw [hget, hp]
  simp only [Option.some_bind, e0]
  by_cases hk : k = 0
  · rw [if_pos hk]
    refine ⟨_, rfl, ?_, ?_, hset, ?_, hI.result⟩
    · refine hI.model.nextTile ⟨?_, ?_, ?_, ?_, ?_, ?_, e11, ⟨e12, e13, e14, e15⟩⟩
      · show m1.g.fresh = _
        rw [e1, hf, hk]; unfold productMVM; omega
      · intro i
        show i ∈ m1.g.operations ↔ _ ∨ (_ ∧ i < m1.g.fresh)
        rw [hops1, e1]
        constructor
        · rintro (h1 | h1)
          · exact Or.inl h1
          · exact Or.inr ⟨by omega, by omega⟩
        · rintro (h1 | ⟨h1, h2⟩)
          · exact Or.inl h1
          · exact Or.inr (by omega)
      · intro i hi
        have hne : i ≠ st.model.g.fresh := by omega
        show m1.g.cls i = _ ∧ m1.g.operands i = _ ∧ m1.g.length i = _ ∧ m1.g.mat i = _
          ∧ m1.opCode i = _
        rw [e3, e6, e9, upd_other _ _ hne, upd_other _ _ hne]
        exact ⟨rfl, e5 i hne, rfl, e8 i hne, rfl⟩
      · intro t a ha
        show a ∈ m1.tileUsers t
        rw [e10]
        by_cases ht : t = M.tile h k
        · rw [ht, upd_same]
          exact List.mem_append_left _ (ht ▸ ha)
        · rw [upd_other _ _ ht]
          exact ha
      · show m1.g.cls _ = _ ∧ (∃ p, _ ∧ m1.g.operands _ = _) ∧ m1.g.mat _ = _
          ∧ m1.g.length _ = _ ∧ _ ∈ m1.tileUsers _
        rw [← hf, e3, e6, e10, upd_same, upd_same, upd_same]
        exact ⟨rfl, ⟨p, hp, e4⟩, e7, rfl, List.mem_append_right _ (List.mem_singleton.mpr rfl)⟩
      · intro hk1
        omega
    · intro w hw
      have hw0 : w = 0 := by omega
      show upd st.accum k _ w = _
      rw [hw0, hk, upd_same, hf, hk]
      unfold productMVM productSum
      rfl
    · intro a ha
      show a < m1.g.fresh
      rw [e1]
      rcases mem_setInsert.mp ha with h1 | h1
      · omega
      · have := hI.below a h1
        omega
  · rw [if_neg hk]
    have hk1 : 1 ≤ k := Nat.one_le_iff_ne_zero.mpr hk
    have hacc := hI.accum (k - 1) (by omega)
    rw [hacc]
    simp only [Option.some_bind]
    have hprev : productSum m.g.fresh M.nWidthTiles h (k - 1) < st.model.g.fresh
        ∧ st.model.g.length (productSum m.g.fresh M.nWidthTiles h (k - 1))
            = M.tileHeight h := by
      by_cases hk2 : k - 1 = 0
      · have e : productSum m.g.fresh M.nWidthTiles h (k - 1)
            = productMVM m.g.fresh M.nWidthTiles h (k - 1) := by
          rw [hk2]; rfl
        rw [e]
        obtain ⟨c0, _, _, _, c5, _⟩ := hI.model.mvm h (k - 1) (Or.inr ⟨rfl, by omega⟩)
        exact ⟨c0, c5⟩
      · obtain ⟨c0, _, _, _, c4⟩ := hI.model.add h (k - 1) (by omega)
          (Or.inr ⟨rfl, by omega⟩)
        exact ⟨c0, c4⟩
    have hlen2 : m1.g.length st.model.g.fresh
        = m1.g.length (productSum m.g.fresh M.nWidthTiles h (k - 1)) := by
      rw [e6, upd_same, upd_other _ _ (Nat.ne_of_lt hprev.1), hprev.2]
    obtain ⟨m2, d0, d1, d2, d3, d4, d5, d6, d7, d8, d9, d10, d11, d12, d13, d14⟩ :=
      ModelImpl.newALUVector_spec m1 OpCode.ADD st.model.g.fresh
        (productSum m.g.fresh M.nWidthTiles h (k - 1)) (by decide) hlen2
    rw [e1] at d0 d1 d2 d3 d4 d5 d6 d7 d8
    rw [d0]
    simp only [Option.map_some']
    have hsum : productSum m.g.fresh M.nWidthTiles h k = st.model.g.fresh + 1 := by
      rw [hf]; unfold productMVM productSum; omega
    refine ⟨_, rfl, ?_, ?_, hset, ?_, hI.result⟩
    · refine hI.model.nextTile ⟨?_, ?_, ?_, ?_, ?_, ?_, d10.trans e11,
        ⟨d11.trans e12, d12.trans e13, d13.trans e14, d14.trans e15⟩⟩
      · show m2.g.fresh = _
        rw [d1, hf]; unfold productMVM; omega
      · intro i
        show i ∈ m2.g.operations ↔ _ ∨ (_ ∧ i < m2.g.fresh)
        rw [d2, mem_setInsert, hops1, d1]
        constructor
        · rintro (h1 | h1 | h1)
          · exact Or.inr ⟨by omega, by omega⟩
          · exact Or.inl h1
          · exact Or.inr ⟨by omega, by omega⟩
        · rintro (h1 | ⟨h1, h2⟩)
          · exact Or.inr (Or.inl h1)
          · by_cases hi : i = st.model.g.fresh
            · exact Or.inr (Or.inr hi)
            · exact Or.inl (by omega)
      · intro i hi
        have hne : i ≠ st.model.g.fresh := by omega
        have hne1 : i ≠ st.model.g.fresh + 1 := by omega
        show m2.g.cls i = _ ∧ m2.g.operands i = _ ∧ m2.g.length i = _ ∧ m2.g.mat i = _
          ∧ m2.opCode i = _
        rw [d3, d6, d7, d8, upd_other _ _ hne1, upd_other _ _ hne1, upd_other _ _ hne1,
          upd_other _ _ hne1, d5 i hne1, e3, e6, e9, upd_other _ _ hne, upd_other _ _ hne]
        exact ⟨rfl, e5 i hne, rfl, e8 i hne, rfl⟩
      · intro t a ha
        show a ∈ m2.tileUsers t
        rw [d9, e10]
        by_cases ht : t = M.tile h k
        · rw [ht, upd_same]
          exact List.mem_append_left _ (ht ▸ ha)
        · rw [upd_other _ _ ht]
          exact ha
      · have hne1 : st.model.g.fresh ≠ st.model.g.fresh + 1 := by omega
        show m2.g.cls _ = _ ∧ (∃ p, _ ∧ m2.g.operands _ = _) ∧ m2.g.mat _ = _
          ∧ m2.g.length _ = _ ∧ _ ∈ m2.tileUsers _
        rw [← hf, d3, d6, d7, d9, upd_other _ _ hne1, upd_other _ _ hne1, upd_other _ _ hne1,
          d5 _ hne1, e3, e6, e10, upd_same, upd_same, upd_same]
        exact ⟨rfl, ⟨p, hp, e4⟩, e7, rfl, List.mem_append_right _ (List.mem_singleton.mpr rfl)⟩
      · intro _
        show m2.g.cls _ = _ ∧ m2.opCode _ = _ ∧ m2.g.operands _ = _ ∧ m2.g.length _ = _
        rw [hsum, d3, d6, d8, upd_same, upd_same, upd_same, d4, e6, upd_same, ← hf]
        exact ⟨rfl, rfl, rfl, rfl⟩
    · intro w hw
      show upd st.accum k _ w = _
      by_cases hwk : w = k
      · rw [hwk, upd_same, hsum]
      · rw [upd_other _ _ hwk]
        exact hI.accum w (by omega)
    · intro a ha
      show a < m2.g.fresh
      rw [d1]
      rcases mem_setInsert.mp ha with h1 | h1
      · omega
      · have := hI.below a h1
        omega

theorem set_length_append {α : Type} (A : List α) (a v : α) (B : List α) :
    (A ++ a :: B).set A.length v = A ++ v :: B := by
  induction A with
  | nil => rfl
  | cons c A ih => simp [ih]

theorem AbstractVector.nTiles_bounds (length : Nat) :
    1 ≤ AbstractVector.nTiles length ∧ AbstractVector.nTiles length < UINT_MOD := by
  unfold AbstractVector.nTiles UINT_MOD MVMU_DIM
  omega

theorem ProductInv.nextRow {M : ConstantMatrixImpl} {m : ModelImpl} {x : VectorImpl}
    {h : Nat} {mc : ModelImpl}
    (hI : ProductInv M m x h M.nWidthTiles mc) : ProductInv M m x (h + 1) 0 mc := by
  have hd : ∀ h' w', productDone M.nWidthTiles (h + 1) 0 h' w'
      → productDone M.nWidthTiles h M.nWidthTiles h' w' := by
    intro h' w'
    unfold productDone
    omega
  refine ⟨?_, hI.operations, hI.old, fun h' w' hd' => hI.mvm h' w' (hd h' w' hd'),
    fun h' w' hw hd' => hI.add h' w' hw (hd h' w' hd'), ?_, hI.sets, hI.matrices⟩
  · rw [hI.fresh]
    unfold productMVM
    have e : (h + 1) * (2 * M.nWidthTiles - 1)
        = h * (2 * M.nWidthTiles - 1) + (2 * M.nWidthTiles - 1) := Nat.succ_mul _ _
    omega
  · intro i hi0 hi1
    obtain ⟨h', w', hd', hc⟩ := hI.created i hi0 hi1
    refine ⟨h', w', ?_, hc⟩
    unfold productDone at *
    omega

theorem productRow_step (M : ConstantMatrixImpl) (m : ModelImpl) (x : VectorImpl)
    (h : Nat) (st : ProductState) (hH : h < M.nHeightTiles) (hxn : x.nTiles = M.nWidthTiles)
    (hx : ∀ w, w < M.nWidthTiles →
      ∃ p, x.getTile w = some p ∧ p < m.g.fresh ∧ m.g.length p = M.tileWidth w)
    (hI : ProductRowInv M m x h st) :
    ∃ st', productRow M x st h = some st' ∧ ProductRowInv M m x (h + 1) st' := by
  have hWb : 1 ≤ M.nWidthTiles ∧ M.nWidthTiles < UINT_MOD := by
    rw [← hxn]
    exact AbstractVector.nTiles_bounds x.length
  obtain ⟨st1, hs1, hI1⟩ := foldlM_range_total (productTile M x h)
    (fun k s => ProductTileInv M m x st.y h k s) M.nWidthTiles
    { st with accum := fun _ => none }
    ⟨hI.model, fun w hw => absurd hw (Nat.not_lt_zero w), hI.set, hI.below, rfl⟩
    (fun k s hk hs => productTile_step M m x st.y h k s hH hk hx hs)
  have hlast : (x.nTiles + UINT_MOD - 1) % UINT_MOD = M.nWidthTiles - 1 := by
    rw [hxn]
    unfold UINT_MOD at *
    omega
  have hacc := hI1.accum (M.nWidthTiles - 1) (by omega)
  have hsplit : st1.y.tiles = (List.range h).map (fun h' =>
        some (productSum m.g.fresh M.nWidthTiles h' (M.nWidthTiles - 1)))
      ++ none :: List.replicate (M.nHeightTiles - (h + 1)) none := by
    rw [hI1.result, hI.tiles]
    have : M.nHeightTiles - h = (M.nHeightTiles - (h + 1)) + 1 := by omega
    rw [this, List.replicate_succ]
  have hlenA : ((List.range h).map (fun h' =>
      some (productSum m.g.fresh M.nWidthTiles h' (M.nWidthTiles - 1)))).length = h := by
    simp
  have hget : st1.y.tiles[h]? = some none := by
    rw [hsplit, List.getElem?_append_right (by rw [hlenA]), hlenA, Nat.sub_self]
    simp
  unfold productRow
  rw [hxn, hs1]
  simp only [Option.some_bind]
  rw [← hxn, hlast, hacc]
  simp only [Option.some_bind, VectorImpl.setTile, hget, Option.map_some']
  refine ⟨_, rfl, ?_, ?_, hI1.below, ?_, ?_⟩
  · exact hI1.model.nextRow
  · rw [hI1.set]
    unfold productMVMs
    rw [List.range_succ, List.flatMap_append]
    simp
  · show st1.y.length = _
    rw [hI1.result]
    exact hI.length
  · show st1.y.tiles.set h _ = _
    rw [hsplit]
    have e := set_length_append ((List.range h).map (fun h' =>
      some (productSum m.g.fresh M.nWidthTiles h' (M.nWidthTiles - 1)))) none
      (some (productSum m.g.fresh M.nWidthTiles h (M.nWidthTiles - 1)))
      (List.replicate (M.nHeightTiles - (h + 1)) none)
    rw [hlenA] at e
    rw [e, List.range_succ, List.map_append]
    simp

theorem productMVM_injective (first W h w h' w' : Nat) (hw : w < W) (hw' : w' < W)
    (e : productMVM first W h w = productMVM first W h' w') : h = h' ∧ w = w' := by
  unfold productMVM at e
  have key : ∀ a b : Nat, a < b → a * (2 * W - 1) + (2 * W - 1) ≤ b * (2 * W - 1) := by
    intro a b hab
    rw [← Nat.succ_mul]
    exact Nat.mul_le_mul_right _ hab
  rcases Nat.lt_trichotomy h h' with hlt | heq | hgt
  · have := key h h' hlt
    omega
  · subst heq
    exact ⟨rfl, by omega⟩
  · have := key h' h hgt
    omega

theorem productSum_injective (first W h w h' w' : Nat) (hw : w < W) (hw' : w' < W)
    (e : productSum first W h w = productSum first W h' w') : h = h' ∧ w = w' := by
  unfold productSum at e
  have key : ∀ a b : Nat, a < b → a * (2 * W - 1) + (2 * W - 1) ≤ b * (2 * W - 1) := by
    intro a b hab
    rw [← Nat.succ_mul]
    exact Nat.mul_le_mul_right _ hab
  rcases Nat.lt_trichotomy h h' with hlt | heq | hgt
  · have := key h h' hlt
    omega
  · subst heq
    exact ⟨rfl, by omega⟩
  · have := key h' h hgt
    omega

/-- Claim C29. For a ConstantMatrix `M` of `H` by `W` tiles and a vector `x` of the length
of `M.width` whose tile `w` is an operation of the model with the length of the column `w`
of tiles: `operator*` returns; it creates the `H * (2 * W - 1)` operations at the addresses
from `m.g.fresh` on, which are one MVM per tile `(h, w)`, reading the tile `w` of `x`, and
one ADD per tile `(h, w)` with `w ≥ 1`, adding this MVM to the partial sum of the tiles
`(h, 0)` to `(h, w - 1)`; the tile `h` of the result is the partial sum at `w = W - 1`; and
exactly one hint set is appended, whose members are the `H * W` MVMs. -/
theorem constant_matrix_product_builds_mvm_chains_and_one_hint_set (M : ConstantMatrixImpl)
    (m : ModelImpl) (x : VectorImpl) (hlen : x.length = M.width)
    (hx : ∀ w, w < M.nWidthTiles →
      ∃ p, x.getTile w = some p ∧ p < m.g.fresh ∧ m.g.length p = M.tileWidth w) :
    ∃ y m', operatorMulConstantMatrix M m x = some (y, m') ∧ ProductResult M m x y m' := by
  have hxn : x.nTiles = M.nWidthTiles := by
    unfold VectorImpl.nTiles AbstractVector.nTiles ConstantMatrixImpl.nWidthTiles
    rw [hlen]
  have hyt : AbstractVector.nTiles M.height = M.nHeightTiles := by
    unfold AbstractVector.nTiles ConstantMatrixImpl.nHeightTiles
    rfl
  have hyn : (VectorImpl.create M.height).nTiles = M.nHeightTiles := hyt
  have hWb : 1 ≤ M.nWidthTiles ∧ M.nWidthTiles < UINT_MOD := by
    rw [← hxn]
    exact AbstractVector.nTiles_bounds x.length
  have h0 : ProductRowInv M m x 0
      (ProductState.mk (VectorImpl.create M.height) (fun _ => none) m []) := by
    refine ⟨⟨?_, ?_, ?_, ?_, ?_, ?_, rfl, ⟨rfl, rfl, rfl, rfl⟩⟩, rfl, ?_, rfl, ?_⟩
    · show m.g.fresh = _
      unfold productMVM; omega
    · intro i
      show _ ↔ _ ∨ (_ ∧ i < m.g.fresh)
      constructor
      · exact fun hi => Or.inl hi
      · rintro (hi | ⟨h1, h2⟩)
        · exact hi
        · omega
    · exact fun i _ => ⟨rfl, rfl, rfl, rfl, rfl⟩
    · intro h' w' hd
      unfold productDone at hd
      omega
    · intro h' w' _ hd
      unfold productDone at hd
      omega
    · intro i hi0 hi1
      exact absurd hi1 (Nat.not_lt.mpr hi0)
    · exact fun a ha => absurd ha (List.not_mem_nil a)
    · show List.replicate (AbstractVector.nTiles M.height) none = _
      rw [hyt, Nat.sub_zero, List.range_zero, List.map_nil, List.nil_append]
  obtain ⟨st, hs, hI⟩ := foldlM_range_total (productRow M x)
    (fun h s => ProductRowInv M m x h s) M.nHeightTiles _ h0
    (fun h s hh hs => productRow_step M m x h s hh hxn hx hs)
  have hfr : st.model.g.fresh = m.g.fresh + M.nHeightTiles * (2 * M.nWidthTiles - 1) := by
    rw [hI.model.fresh]
    unfold productMVM
    omega
  have hdone : ∀ h w, productDone M.nWidthTiles M.nHeightTiles 0 h w ↔
      h < M.nHeightTiles ∧ w < M.nWidthTiles := by
    intro h w
    unfold productDone
    omega
  refine ⟨st.y, { st.model with
    coalesceableMVMSets := st.model.coalesceableMVMSets ++ [st.coalesceableMVMSet] }, ?_, ?_⟩
  · unfold operatorMulConstantMatrix
    simp only
    rw [if_pos hlen.symm, hyn, hs]
    rfl
  · refine ⟨hfr, ?_, hI.model.old, ?_, ?_, ?_, ?_, hI.length, ?_, ?_, ?_⟩
    · intro i
      rw [← hfr]
      exact hI.model.operations i
    · intro h w hh hw
      obtain ⟨c0, c1, c2, c3, c4, c5⟩ := hI.model.mvm h w ((hdone h w).mpr ⟨hh, hw⟩)
      refine ⟨(hI.model.operations _).mpr (Or.inr ⟨?_, c0⟩), c1, c2, c3, c4, c5⟩
      unfold productMVM
      omega
    · intro h w hh hw1 hw
      obtain ⟨c0, c1, c2, c3, _⟩ := hI.model.add h w hw1 ((hdone h w).mpr ⟨hh, hw⟩)
      refine ⟨(hI.model.operations _).mpr (Or.inr ⟨?_, c0⟩), c1, c2, c3⟩
      unfold productSum
      omega
    · intro i hi0 hi1
      obtain ⟨h, w, hd, hc⟩ := hI.model.created i hi0 hi1
      exact ⟨h, w, ((hdone h w).mp hd).1, ((hdone h w).mp hd).2, hc⟩
    · intro h w h' w' hw hw'
      exact ⟨productMVM_injective _ _ h w h' w' hw hw',
        productSum_injective _ _ h w h' w' hw hw'⟩
    · rw [hI.tiles, Nat.sub_self]
      simp
    · show st.model.coalesceableMVMSets ++ [st.coalesceableMVMSet] = _
      rw [hI.model.sets, hI.set]
      unfold productMVMs
      simp
    · exact length_flatMap_range (fun h w => productMVM m.g.fresh M.nWidthTiles h w)
        M.nWidthTiles M.nHeightTiles

/-- Witness for claim C29: the product of the matrix of two by two tiles with the vector of
the pseudo inputs 1 and 2 creates the operations 3 to 8 of `fourTileGraph`. -/
theorem constant_matrix_product_builds_mvm_chains_and_one_hint_set_witness :
    twoInputsVector.length = fourTileMatrix.width
    ∧ ∃ y m', operatorMulConstantMatrix fourTileMatrix twoInputsModel twoInputsVector
          = some (y, m')
        ∧ ProductResult fourTileMatrix twoInputsModel twoInputsVector y m'
        ∧ m'.coalesceableMVMSets = [[3, 4, 6, 7]] ∧ y.tiles = [some 5, some 8]
        ∧ m'.g.operands 5 = [4, 3] := by
  have hx : ∀ w, w < fourTileMatrix.nWidthTiles →
      ∃ p, twoInputsVector.getTile w = some p ∧ p < twoInputsModel.g.fresh
        ∧ twoInputsModel.g.length p = fourTileMatrix.tileWidth w := by
    intro w hw
    have hW : fourTileMatrix.nWidthTiles = 2 := by decide
    rw [hW] at hw
    have hcases : w = 0 ∨ w = 1 := by omega
    rcases hcases with rfl | rfl
    · exact ⟨1, by decide, by decide, by decide⟩
    · exact ⟨2, by decide, by decide, by decide⟩
  obtain ⟨y, m', hr, hP⟩ := constant_matrix_product_builds_mvm_chains_and_one_hint_set
    fourTileMatrix twoInputsModel twoInputsVector rfl hx
  refine ⟨rfl, y, m', hr, hP, ?_, ?_, ?_⟩
  · rw [hP.sets]
    decide
  · rw [hP.tiles]
    decide
  · exact (hP.add 0 1 (by decide) (by decide) (by decide)).2.2.2

/-! ## The convolution of the front end -/

theorem ModelImpl.newMVM_sets (m : ModelImpl) (mat matWidth matHeight op : Nat)
    (r : Nat × ModelImpl) (h : m.newMVM mat matWidth matHeight op = some r) :
    r.2.coalesceableMVMSets = m.coalesceableMVMSets := by
  unfold ModelImpl.newMVM at h
  split at h
  · simp only [Option.some.injEq] at h
    rw [← h]
  · exact absurd h (by simp)

theorem ModelImpl.newALUVector_sets (m : ModelImpl) (opCode : OpCode) (src1 src2 : Nat)
    (r : Nat × ModelImpl) (h : m.newALUVector opCode src1 src2 = some r) :
    r.2.coalesceableMVMSets = m.coalesceableMVMSets := by
  unfold ModelImpl.newALUVector at h
  split at h
  · exact absurd h (by simp)
  · split at h
    · exact absurd h (by simp)
    · simp only [Option.some.injEq] at h
      rw [← h]

theorem convolutionPixel_sets (M : ConvolutionalConstantMatrixImpl)
    (xs : ImagePixelStreamImpl) (kh kw h w accumIdx mat : Nat)
    (imageStream : ImagePixelStreamTile) (accumStreamIn : Option ImagePixelStreamTile)
    (st st' : ConvolutionState) (hi wi : Int)
    (hr : convolutionPixel M xs kh kw h w accumIdx mat imageStream accumStreamIn st hi wi
      = some st') :
    st'.model.coalesceableMVMSets = st.model.coalesceableMVMSets := by
  unfold convolutionPixel at hr
  simp only at hr
  split at hr
  · simp only [Option.bind_eq_some, Option.map_eq_some'] at hr
    obtain ⟨producer, hp, sum, hsum, y, _, out, _, tile, _, hst⟩ := hr
    have e1 : producer.2.coalesceableMVMSets = st.model.coalesceableMVMSets := by
      split at hp
      · simp only [Option.bind_eq_some] at hp
        obtain ⟨pixel, _, hp⟩ := hp
        exact ModelImpl.newMVM_sets _ _ _ _ _ _ hp
      · simp only [Option.some.injEq] at hp
        rw [← hp]
        rfl
    have e2 : sum.2.coalesceableMVMSets = producer.2.coalesceableMVMSets := by
      split at hsum
      · simp only [Option.some.injEq] at hsum
        rw [hsum]
      · simp only [Option.bind_eq_some] at hsum
        obtain ⟨previous, _, hsum⟩ := hsum
        exact ModelImpl.newALUVector_sets _ _ _ _ _ hsum
    rw [← hst]
    exact e2.trans e1
  · simp only [Option.some.injEq] at hr
    rw [← hr]

theorem convolutionTile_sets (M : ConvolutionalConstantMatrixImpl)
    (xs : ImagePixelStreamImpl) (kh kw w accumIdx : Nat) (st st' : ConvolutionState) (h : Nat)
    (hr : convolutionTile M xs kh kw w accumIdx st h = some st') :
    st'.model.coalesceableMVMSets = st.model.coalesceableMVMSets := by
  unfold convolutionTile at hr
  simp only [Option.bind_eq_some] at hr
  obtain ⟨mat, _, imageStream, _, accumStreamIn, _, _, _, hr⟩ := hr
  refine foldlM_preserves _
    (fun (s : ConvolutionState) => s.model.coalesceableMVMSets = st.model.coalesceableMVMSets)
    ?_ _ st st' rfl hr
  intro b hi b' hb hstep
  refine foldlM_preserves _
    (fun (s : ConvolutionState) => s.model.coalesceableMVMSets = st.model.coalesceableMVMSets)
    ?_ _ b b' hb hstep
  intro c wi c' hc hpix
  exact (convolutionPixel_sets M xs kh kw h w accumIdx mat imageStream accumStreamIn c c'
    hi wi hpix).trans hc

theorem convolutionAccumulation_sets (M : ConvolutionalConstantMatrixImpl)
    (xs : ImagePixelStreamImpl) (kh kw : Nat) (st st' : ConvolutionState) (w : Nat)
    (hr : convolutionAccumulation M xs kh kw st w = some st') :
    st'.model.coalesceableMVMSets = st.model.coalesceableMVMSets := by
  unfold convolutionAccumulation at hr
  simp only at hr
  refine foldlM_preserves _
    (fun (s : ConvolutionState) => s.model.coalesceableMVMSets = st.model.coalesceableMVMSets)
    ?_ _ (ConvolutionState.mk (upd st.ys ((kh * M.kernelWidth + kw) * M.getNInChannelTiles + w)
      (some (ImagePixelStreamImpl.create xs.imageWidth xs.imageHeight M.nOutChannels)))
      st.model) st' rfl hr
  intro b h b' hb hstep
  exact (convolutionTile_sets M xs kh kw w _ b b' h hstep).trans hb

/-- Claim C30 (counterexample). The convolution of an image of one pixel with a kernel of
one by one, one input channel tile and two output channel tiles returns: it creates the
MVMs 2 and 3 for the triple of kernel row 0, kernel column 0 and input channel tile 0, and
the model has no coalesceable hint set afterwards, not the set of these MVMs. -/
theorem convolution_records_no_hint_set_for_its_mvms :
    (operatorMulConvolutionalConstantMatrix twoOutputTilesKernel onePixelModel
        onePixelStream).map (fun r =>
      (r.2.g.operations, r.2.g.cls 2, r.2.g.cls 3, r.2.coalesceableMVMSets))
      = some ([1, 2, 3], OpClass.MVMOperation, OpClass.MVMOperation, [])
    ∧ ([] : List (List Nat)) ≠ [[2, 3]] := by
  decide

/-- Claim C30 (amended). Building a convolution (ConvolutionalConstantMatrix times
ImagePixelStream) records no coalesceable hint set: when the operator returns, the hint sets
of the model are the ones it had before. -/
theorem convolution_leaves_hint_sets_unchanged (M : ConvolutionalConstantMatrixImpl)
    (m : ModelImpl) (xs : ImagePixelStreamImpl) (y : ImagePixelStreamImpl) (m' : ModelImpl)
    (hr : operatorMulConvolutionalConstantMatrix M m xs = some (y, m')) :
    m'.coalesceableMVMSets = m.coalesceableMVMSets := by
  unfold operatorMulConvolutionalConstantMatrix at hr
  split at hr
  · simp only [Option.bind_eq_some] at hr
    obtain ⟨st, hst, hr⟩ := hr
    split at hr
    · exact absurd hr (by simp)
    · simp only [Option.map_eq_some', Prod.mk.injEq] at hr
      obtain ⟨_, _, _, hm⟩ := hr
      rw [← hm]
      refine foldlM_preserves _
        (fun (s : ConvolutionState) => s.model.coalesceableMVMSets = m.coalesceableMVMSets)
        ?_ _ (ConvolutionState.mk (fun _ => none) m) st rfl hst
      intro b kh b' hb hstep
      refine foldlM_preserves _
        (fun (s : ConvolutionState) => s.model.coalesceableMVMSets = m.coalesceableMVMSets)
        ?_ _ b b' hb hstep
      intro c kw c' hc hstep2
      refine foldlM_preserves _
        (fun (s : ConvolutionState) => s.model.coalesceableMVMSets = m.coalesceableMVMSets)
        ?_ _ c c' hc hstep2
      intro d w d' hd hstep3
      exact (convolutionAccumulation_sets M xs kh kw d d' w hstep3).trans hd
  · exact absurd hr (by simp)

/-- Witness for claim C30: the convolution of the image of one pixel returns and leaves the
model without hint set. -/
theorem convolution_leaves_hint_sets_unchanged_witness :
    ∃ y m', operatorMulConvolutionalConstantMatrix twoOutputTilesKernel onePixelModel
        onePixelStream = some (y, m')
      ∧ m'.coalesceableMVMSets = onePixelModel.coalesceableMVMSets := by
  have hsome : (operatorMulConvolutionalConstantMatrix twoOutputTilesKernel onePixelModel
      onePixelStream).isSome = true := by decide
  obtain ⟨r, hr⟩ := Option.isSome_iff_exists.mp hsome
  exact ⟨r.1, r.2, hr, convolution_leaves_hint_sets_unchanged twoOutputTilesKernel
    onePixelModel onePixelStream r.1 r.2 hr⟩

/-! ## The hint-based phase of the coalescer -/

theorem Coalescer.addMVM_spec (c c' : Coalescer) (s y pM : Nat)
    (h : c.addMVM s y pM = some c') :
    (c.mvms s)[pM]? = some Option.none ∧ c.coalescedSet y = Option.none
    ∧ c'.mvms = upd c.mvms s ((c.mvms s).set pM (some y))
    ∧ c'.coalescedSet = upd c.coalescedSet y (some s)
    ∧ c'.coalescedMVMSets = c.coalescedMVMSets := by
  unfold Coalescer.addMVM at h
  split at h
  · rename_i hslot
    split at h
    · exact absurd h (by simp)
    · rename_i hy
      simp only [Option.some.injEq] at h
      rw [← h]
      refine ⟨hslot, ?_, rfl, rfl, rfl⟩
      cases hc : c.coalescedSet y with
      | none => rfl
      | some x => simp [hc] at hy
  · exact absurd h (by simp)

/-- The occupied slots after `CoalescedMVMSet::add`: the new one and the old ones. -/
theorem Coalescer.addMVM_slot (c c' : Coalescer) (s y pM : Nat)
    (h : c.addMVM s y pM = some c') (cs i m : Nat) :
    (c'.mvms cs)[i]? = some (some m) ↔
      ((cs = s ∧ i = pM ∧ m = y) ∨ (c.mvms cs)[i]? = some (some m)) := by
  obtain ⟨hslot, _, hm, _, _⟩ := Coalescer.addMVM_spec c c' s y pM h
  rw [hm]
  by_cases hcs : cs = s
  · subst hcs
    rw [upd_same]
    by_cases hi : i = pM
    · subst hi
      have hlt : i < (c.mvms cs).length := by
        rcases Nat.lt_or_ge i (c.mvms cs).length with h' | h'
        · exact h'
        · rw [List.getElem?_eq_none h'] at hslot
          exact absurd hslot (by simp)
      rw [List.getElem?_set_self hlt, hslot]
      simp only [Option.some.injEq, true_and]
      constructor
      · intro e
        exact Or.inl e.symm
      · rintro (e | e)
        · exact e.symm
        · exact absurd e (by simp)
    · rw [List.getElem?_set_ne (fun e => hi e.symm)]
      constructor
      · exact Or.inr
      · rintro (⟨_, e, _⟩ | e)
        · exact absurd e hi
        · exact e
  · rw [upd_other _ _ hcs]
    constructor
    · exact Or.inr
    · rintro (⟨e, _, _⟩ | e)
      · exact absurd e hcs
      · exact e

theorem localFind_some (l : List ((Nat × Nat) × Nat)) (k : Nat × Nat) (cs : Nat)
    (h : localFind l k = some cs) : ∃ e ∈ l, e.2 = cs := by
  unfold localFind at h
  simp only [Option.map_eq_some'] at h
  obtain ⟨e, he, hcs⟩ := h
  exact ⟨e, List.mem_of_find?_eq_some he, hcs⟩

theorem mem_localInsert (l : List ((Nat × Nat) × Nat)) (k : Nat × Nat) (s : Nat)
    (e : (Nat × Nat) × Nat) : e ∈ localInsert l k s ↔ (e = (k, s) ∨ e ∈ l) := by
  induction l with
  | nil => simp [localInsert]
  | cons a l ih =>
    unfold localInsert
    split
    · simp only [List.mem_cons]
    · simp only [List.mem_cons, ih]
      constructor
      · rintro (h | h | h)
        · exact Or.inr (Or.inl h)
        · exact Or.inl h
        · exact Or.inr (Or.inr h)
      · rintro (h | h | h)
        · exact Or.inr (Or.inl h)
        · exact Or.inl h
        · exact Or.inr (Or.inr h)

theorem Coalescer.addMVM_freshSet (c c' : Coalescer) (s y pM : Nat)
    (h : c.addMVM s y pM = some c') : c'.freshSet = c.freshSet := by
  unfold Coalescer.addMVM at h
  split at h
  · split at h
    · exact absurd h (by simp)
    · simp only [Option.some.injEq] at h
      rw [← h]
  · exact absurd h (by simp)

/-- `new CoalescedMVMSet()` for a new entry of the local map keeps the invariant of the
hint-based phase. -/
theorem HintInv.newSet (hints : List (List Nat)) (H : List Nat) (c : Coalescer)
    (loc : List ((Nat × Nat) × Nat)) (k : Nat × Nat) (h : HintInv hints H c loc) :
    HintInv hints H c.newMVMSet.2 (localInsert loc k c.newMVMSet.1) := by
  have empty : ∀ (i m : Nat), (c.newMVMSet.2.mvms c.freshSet)[i]? ≠ some (some m) := by
    intro i m hm
    have hmem := List.getElem?_mem hm
    simp only [Coalescer.newMVMSet, upd_same] at hmem
    rw [List.mem_replicate] at hmem
    exact absurd hmem.2 (by simp)
  have other : ∀ cs, cs ≠ c.freshSet → c.newMVMSet.2.mvms cs = c.mvms cs := by
    intro cs hcs
    show upd c.mvms c.freshSet _ cs = c.mvms cs
    exact upd_other _ _ hcs
  have slotOld : ∀ (cs i m : Nat), (c.newMVMSet.2.mvms cs)[i]? = some (some m) →
      cs ≠ c.freshSet ∧ (c.mvms cs)[i]? = some (some m) := by
    intro cs i m hm
    by_cases hcs : cs = c.freshSet
    · rw [hcs] at hm
      exact absurd hm (empty i m)
    · rw [other cs hcs] at hm
      exact ⟨hcs, hm⟩
  refine ⟨?_, ?_, ?_, ?_, ?_, ?_⟩
  · intro cs i m hm
    exact h.link cs i m (slotOld cs i m hm).2
  · intro m cs hm
    have hm' : c.coalescedSet m = some cs := hm
    obtain ⟨i, hi⟩ := h.back m cs hm'
    have hne : cs ≠ c.freshSet := Nat.ne_of_lt (h.bound m cs hm')
    exact ⟨i, by rw [other cs hne]; exact hi⟩
  · intro m cs hm
    have hm' : c.coalescedSet m = some cs := hm
    exact Nat.lt_succ_of_lt (h.bound m cs hm')
  · intro cs i m hm
    obtain ⟨hne, ho⟩ := slotOld cs i m hm
    rcases h.whole cs i m ho with hw | ⟨e, he, hes⟩
    · left
      unfold Coalescer.isCompleteMVM at hw ⊢
      rw [other cs hne]
      exact hw
    · exact Or.inr ⟨e, (mem_localInsert _ _ _ _).mpr (Or.inr he), hes⟩
  · intro cs i m hm
    obtain ⟨hne, ho⟩ := slotOld cs i m hm
    obtain ⟨H', hH', hall⟩ := h.backed cs i m ho
    refine ⟨H', hH', ?_⟩
    intro j m' hm'
    rw [other cs hne] at hm'
    exact hall j m' hm'
  · intro e he
    rcases (mem_localInsert _ _ _ _).mp he with he | he
    · rw [he]
      refine ⟨Nat.lt_succ_self _, ?_⟩
      intro j m' hm'
      exact absurd hm' (empty j m')
    · obtain ⟨hb, hmem⟩ := h.inLocal e he
      refine ⟨Nat.lt_succ_of_lt hb, ?_⟩
      intro j m' hm'
      rw [other e.2 (Nat.ne_of_lt hb)] at hm'
      exact hmem j m' hm'

/-- `CoalescedMVMSet::add` of a member of the hint set to a set of the local map keeps the
invariant of the hint-based phase. -/
theorem HintInv.add (hints : List (List Nat)) (H : List Nat) (c c' : Coalescer)
    (loc : List ((Nat × Nat) × Nat)) (s y pM : Nat) (h : HintInv hints H c loc)
    (hH : H ∈ hints) (hy : y ∈ H) (hs : ∃ e ∈ loc, e.2 = s)
    (hadd : c.addMVM s y pM = some c') : HintInv hints H c' loc := by
  obtain ⟨_, hyn, hmv, hlk, _⟩ := Coalescer.addMVM_spec c c' s y pM hadd
  have slot' := Coalescer.addMVM_slot c c' s y pM hadd
  have hfr := Coalescer.addMVM_freshSet c c' s y pM hadd
  have notY : ∀ (cs i : Nat), (c.mvms cs)[i]? ≠ some (some y) := by
    intro cs i hc
    have := h.link cs i y hc
    rw [hyn] at this
    exact absurd this (by simp)
  obtain ⟨es, hes, hess⟩ := hs
  have inS : ∀ (j m' : Nat), (c'.mvms s)[j]? = some (some m') → m' ∈ H := by
    intro j m' hm'
    rcases (slot' s j m').mp hm' with ⟨_, _, e⟩ | e
    · rw [e]
      exact hy
    · have := (h.inLocal es hes).2 j m'
      rw [hess] at this
      exact this e
  refine ⟨?_, ?_, ?_, ?_, ?_, ?_⟩
  · intro cs i m hm
    rw [hlk]
    rcases (slot' cs i m).mp hm with ⟨e1, _, e3⟩ | e
    · rw [e1, e3, upd_same]
    · have hne : m ≠ y := fun e' => notY cs i (e' ▸ e)
      rw [upd_other _ _ hne]
      exact h.link cs i m e
  · intro m cs hm
    rw [hlk] at hm
    by_cases hmy : m = y
    · rw [hmy, upd_same] at hm
      simp only [Option.some.injEq] at hm
      exact ⟨pM, (slot' cs pM m).mpr (Or.inl ⟨hm.symm, rfl, hmy⟩)⟩
    · rw [upd_other _ _ hmy] at hm
      obtain ⟨i, hi⟩ := h.back m cs hm
      exact ⟨i, (slot' cs i m).mpr (Or.inr hi)⟩
  · intro m cs hm
    rw [hlk] at hm
    rw [hfr]
    by_cases hmy : m = y
    · rw [hmy, upd_same] at hm
      simp only [Option.some.injEq] at hm
      rw [← hm, ← hess]
      exact (h.inLocal es hes).1
    · rw [upd_other _ _ hmy] at hm
      exact h.bound m cs hm
  · intro cs i m hm
    by_cases hcs : cs = s
    · exact Or.inr ⟨es, hes, by rw [hess, hcs]⟩
    · rcases (slot' cs i m).mp hm with ⟨e1, _, _⟩ | e
      · exact absurd e1 hcs
      · rcases h.whole cs i m e with hw | hw
        · left
          unfold Coalescer.isCompleteMVM at hw ⊢
          rw [hmv, upd_other _ _ hcs]
          exact hw
        · exact Or.inr hw
  · intro cs i m hm
    by_cases hcs : cs = s
    · rw [hcs]
      exact ⟨H, hH, inS⟩
    · rcases (slot' cs i m).mp hm with ⟨e1, _, _⟩ | e
      · exact absurd e1 hcs
      · obtain ⟨H', hH', hall⟩ := h.backed cs i m e
        refine ⟨H', hH', ?_⟩
        intro j m' hm'
        rcases (slot' cs j m').mp hm' with ⟨e1, _, _⟩ | e'
        · exact absurd e1 hcs
        · exact hall j m' e'
  · intro e he
    obtain ⟨hb, hmem⟩ := h.inLocal e he
    refine ⟨by rw [hfr]; exact hb, ?_⟩
    intro j m' hm'
    rcases (slot' e.2 j m').mp hm' with ⟨_, _, e3⟩ | e'
    · rw [e3]
      exact hy
    · exact hmem j m' e'

theorem extractLocalSet_hint (hints : List (List Nat)) (H : List Nat) (P : Placer)
    (pt : Partitioner) (s s' : Coalescer × List ((Nat × Nat) × Nat)) (mvm : Nat)
    (h : HintInv hints H s.1 s.2) (hH : H ∈ hints) (hm : mvm ∈ H)
    (hr : extractLocalSet P pt s mvm = some s') : HintInv hints H s'.1 s'.2 := by
  unfold extractLocalSet at hr
  simp only [Option.bind_eq_some, Option.map_eq_some'] at hr
  obtain ⟨pMVMU, _, pCore, _, pTile, _, c', hadd, hs'⟩ := hr
  rw [← hs']
  cases hf : localFind s.2 (pTile, pCore) with
  | some cs =>
    rw [hf] at hadd
    simp only at hadd ⊢
    exact HintInv.add hints H s.1 c' s.2 cs mvm pMVMU h hH hm (localFind_some _ _ _ hf) hadd
  | none =>
    rw [hf] at hadd
    simp only at hadd ⊢
    exact HintInv.add hints H _ c' _ _ mvm pMVMU (HintInv.newSet hints H s.1 s.2 _ h) hH hm
      ⟨_, (mem_localInsert _ _ _ _).mpr (Or.inl rfl), rfl⟩ hadd

theorem HintInv.rehint (hints : List (List Nat)) (H H' : List Nat) (c : Coalescer)
    (h : HintInv hints H c []) : HintInv hints H' c [] :=
  ⟨h.link, h.back, h.bound, h.whole, h.backed, fun _ he => absurd he (List.not_mem_nil _)⟩

theorem keepIfComplete_hint (hints : List (List Nat)) (H : List Nat) (c c' : Coalescer)
    (e : (Nat × Nat) × Nat) (rest : List ((Nat × Nat) × Nat))
    (h : HintInv hints H c (e :: rest)) (hr : keepIfComplete c e = some c') :
    HintInv hints H c' rest := by
  unfold keepIfComplete at hr
  by_cases hcomp : c.isCompleteMVM e.2 = true
  · rw [if_pos hcomp] at hr
    simp only [Option.map_eq_some'] at hr
    obtain ⟨v, _, hv⟩ := hr
    rw [← hv]
    refine ⟨h.link, h.back, h.bound, ?_, h.backed, ?_⟩
    · intro cs i m hm
      rcases h.whole cs i m hm with hw | ⟨e', he', hes⟩
      · exact Or.inl hw
      · rcases List.mem_cons.mp he' with he' | he'
        · left
          show c.isCompleteMVM cs = true
          rw [← hes, he']
          exact hcomp
        · exact Or.inr ⟨e', he', hes⟩
    · intro e' he'
      exact h.inLocal e' (List.mem_cons_of_mem _ he')
  · rw [if_neg hcomp] at hr
    simp only [Option.some.injEq] at hr
    rw [← hr]
    have other : ∀ cs, cs ≠ e.2 → (c.removeAllMVM e.2).mvms cs = c.mvms cs := by
      intro cs hcs
      show upd c.mvms e.2 _ cs = c.mvms cs
      exact upd_other _ _ hcs
    have slotOld : ∀ (cs i m : Nat), ((c.removeAllMVM e.2).mvms cs)[i]? = some (some m) →
        cs ≠ e.2 ∧ (c.mvms cs)[i]? = some (some m) := by
      intro cs i m hm
      by_cases hcs : cs = e.2
      · exfalso
        rw [hcs] at hm
        have hmem := List.getElem?_mem hm
        simp only [Coalescer.removeAllMVM, upd_same, List.mem_map] at hmem
        obtain ⟨_, _, hx⟩ := hmem
        exact absurd hx (by simp)
      · rw [other cs hcs] at hm
        exact ⟨hcs, hm⟩
    have linkOf : ∀ m, (c.removeAllMVM e.2).coalescedSet m =
        if some m ∈ c.mvms e.2 then Option.none else c.coalescedSet m := fun _ => rfl
    have inSet : ∀ m, some m ∈ c.mvms e.2 → c.coalescedSet m = some e.2 := by
      intro m hm
      obtain ⟨i, hi⟩ := List.mem_iff_getElem?.mp hm
      exact h.link e.2 i m hi
    refine ⟨?_, ?_, ?_, ?_, ?_, ?_⟩
    · intro cs i m hm
      obtain ⟨hne, ho⟩ := slotOld cs i m hm
      rw [linkOf]
      have hl := h.link cs i m ho
      have hnot : some m ∉ c.mvms e.2 := by
        intro hin
        rw [inSet m hin] at hl
        simp only [Option.some.injEq] at hl
        exact hne hl.symm
      rw [if_neg hnot]
      exact hl
    · intro m cs hm
      rw [linkOf] at hm
      by_cases hin : some m ∈ c.mvms e.2
      · rw [if_pos hin] at hm
        exact absurd hm (by simp)
      · rw [if_neg hin] at hm
        obtain ⟨i, hi⟩ := h.back m cs hm
        have hne : cs ≠ e.2 := by
          intro e'
          rw [e'] at hi
          exact hin (List.getElem?_mem hi)
        exact ⟨i, by rw [other cs hne]; exact hi⟩
    · intro m cs hm
      rw [linkOf] at hm
      by_cases hin : some m ∈ c.mvms e.2
      · rw [if_pos hin] at hm
        exact absurd hm (by simp)
      · rw [if_neg hin] at hm
        exact h.bound m cs hm
    · intro cs i m hm
      obtain ⟨hne, ho⟩ := slotOld cs i m hm
      rcases h.whole cs i m ho with hw | ⟨e', he', hes⟩
      · left
        unfold Coalescer.isCompleteMVM at hw ⊢
        rw [other cs hne]
        exact hw
      · rcases List.mem_cons.mp he' with he' | he'
        · rw [he'] at hes
          exact absurd hes.symm hne
        · exact Or.inr ⟨e', he', hes⟩
    · intro cs i m hm
      obtain ⟨hne, ho⟩ := slotOld cs i m hm
      obtain ⟨H', hH', hall⟩ := h.backed cs i m ho
      refine ⟨H', hH', ?_⟩
      intro j m' hm'
      exact hall j m' (slotOld cs j m' hm').2
    · intro e' he'
      obtain ⟨hb, hmem⟩ := h.inLocal e' (List.mem_cons_of_mem _ he')
      refine ⟨hb, ?_⟩
      intro j m' hm'
      exact hmem j m' (slotOld e'.2 j m' hm').2

theorem keepIfComplete_fold (hints : List (List Nat)) (H : List Nat) :
    ∀ (loc : List ((Nat × Nat) × Nat)) (c c' : Coalescer), HintInv hints H c loc →
      loc.foldlM keepIfComplete c = some c' → HintInv hints H c' [] := by
  intro loc
  induction loc with
  | nil =>
    intro c c' h hr
    simp only [List.foldlM_nil, Option.pure_def, Option.some.injEq] at hr
    rw [← hr]
    exact h
  | cons e rest ih =>
    intro c c' h hr
    simp only [List.foldlM_cons, Option.bind_eq_bind, Option.bind_eq_some] at hr
    obtain ⟨c1, h1, h2⟩ := hr
    exact ih c1 c' (keepIfComplete_hint hints H c c1 e rest h h1) h2

theorem coalesceHintSet_hint (hints : List (List Nat)) (P : Placer) (pt : Partitioner)
    (c c' : Coalescer) (H : List Nat) (hH : H ∈ hints) (h : HintInv hints [] c [])
    (hr : coalesceHintSet P pt c H = some c') : HintInv hints [] c' [] := by
  unfold coalesceHintSet at hr
  simp only [Option.bind_eq_some] at hr
  obtain ⟨s, hs, hk⟩ := hr
  have h1 := foldlM_preserves_mem (extractLocalSet P pt)
    (fun s => HintInv hints H s.1 s.2) H
    (fun b a b' ha hb hf => extractLocalSet_hint hints H P pt b b' a hb hH ha hf)
    (c, []) s (HintInv.rehint hints [] H c h) hs
  exact HintInv.rehint hints H [] c' (keepIfComplete_fold hints H s.2 s.1 c' h1 hk)

/-- The state of the coalesced sets after the hint-based phase. -/
theorem coalesceHintSets_hint (hints : List (List Nat)) (P : Placer) (pt : Partitioner)
    (c : Coalescer)
    (hr : hints.foldlM (coalesceHintSet P pt)
      { Coalescer.none with coalescedMVMSets := List.replicate P.nPCores [] } = some c) :
    HintInv hints [] c [] := by
  refine foldlM_preserves_mem (coalesceHintSet P pt) (fun c => HintInv hints [] c []) hints
    (fun b a b' ha hb hf => coalesceHintSet_hint hints P pt b b' a ha hb hf) _ c ?_ hr
  refine ⟨?_, ?_, ?_, ?_, ?_, ?_⟩
  · intro cs i m hm
    simp [Coalescer.none] at hm
  · intro m cs hm
    simp [Coalescer.none] at hm
  · intro m cs hm
    simp [Coalescer.none] at hm
  · intro cs i m hm
    simp [Coalescer.none] at hm
  · intro cs i m hm
    simp [Coalescer.none] at hm
  · intro e he
    exact absurd he (List.not_mem_nil _)

theorem localInsert_perm (l : List ((Nat × Nat) × Nat)) (k : Nat × Nat) (s : Nat) :
    (localInsert l k s).Perm ((k, s) :: l) := by
  induction l with
  | nil => exact List.Perm.refl _
  | cons a l ih =>
    unfold localInsert
    split
    · exact List.Perm.refl _
    · exact (List.Perm.cons a ih).trans (List.Perm.swap _ _ _)

theorem pushAt_spec (v v' : List (List Nat)) (idx x : Nat) (h : pushAt v idx x = some v') :
    ∃ l, v[idx]? = some l ∧ v'[idx]? = some (l ++ [x])
      ∧ ∀ (j : Nat), j ≠ idx → v'[j]? = v[j]? := by
  unfold pushAt at h
  simp only [Option.map_eq_some'] at h
  obtain ⟨l, hl, hv⟩ := h
  have hlt : idx < v.length := by
    rcases Nat.lt_or_ge idx v.length with h' | h'
    · exact h'
    · rw [List.getElem?_eq_none h'] at hl
      exact absurd hl (by simp)
  refine ⟨l, hl, ?_, ?_⟩
  · rw [← hv, List.getElem?_set_self hlt]
  · intro j hj
    rw [← hv, List.getElem?_set_ne (fun e => hj e.symm)]

theorem pushAt_flatten (v v' : List (List Nat)) (idx x : Nat)
    (h : pushAt v idx x = some v') (y : Nat) :
    y ∈ v'.flatten ↔ (y ∈ v.flatten ∨ y = x) := by
  obtain ⟨l, hl, hl', hother⟩ := pushAt_spec v v' idx x h
  constructor
  · intro hy
    obtain ⟨l1, hl1, hy1⟩ := List.mem_flatten.mp hy
    obtain ⟨j, hj⟩ := List.mem_iff_getElem?.mp hl1
    by_cases hji : j = idx
    · rw [hji, hl'] at hj
      rw [← Option.some.inj hj] at hy1
      rcases List.mem_append.mp hy1 with h1 | h1
      · exact Or.inl (List.mem_flatten.mpr ⟨l, List.getElem?_mem hl, h1⟩)
      · exact Or.inr (List.mem_singleton.mp h1)
    · rw [hother j hji] at hj
      exact Or.inl (List.mem_flatten.mpr ⟨l1, List.getElem?_mem hj, hy1⟩)
  · rintro (hy | hx)
    · obtain ⟨l1, hl1, hy1⟩ := List.mem_flatten.mp hy
      obtain ⟨j, hj⟩ := List.mem_iff_getElem?.mp hl1
      by_cases hji : j = idx
      · rw [hji, hl] at hj
        rw [← Option.some.inj hj] at hy1
        exact List.mem_flatten.mpr ⟨l ++ [x], List.getElem?_mem hl',
          List.mem_append_left _ hy1⟩
      · exact List.mem_flatten.mpr ⟨l1, List.getElem?_mem (by rw [hother j hji]; exact hj),
          hy1⟩
    · rw [hx]
      exact List.mem_flatten.mpr ⟨l ++ [x], List.getElem?_mem hl',
        List.mem_append_right _ (List.mem_singleton.mpr rfl)⟩

theorem RetainInv.afterNewSet (P : Placer) (pt : Partitioner) (c : Coalescer)
    (loc : List ((Nat × Nat) × Nat)) (k : Nat × Nat) (h : RetainInv P pt c loc) :
    RetainInv P pt c.newMVMSet.2 (localInsert loc k c.newMVMSet.1) := by
  have empty : ∀ (i m : Nat), (c.newMVMSet.2.mvms c.freshSet)[i]? ≠ some (some m) := by
    intro i m hm
    have hmem := List.getElem?_mem hm
    simp only [Coalescer.newMVMSet, upd_same] at hmem
    rw [List.mem_replicate] at hmem
    exact absurd hmem.2 (by simp)
  have other : ∀ cs, cs ≠ c.freshSet → c.newMVMSet.2.mvms cs = c.mvms cs := by
    intro cs hcs
    show upd c.mvms c.freshSet _ cs = c.mvms cs
    exact upd_other _ _ hcs
  have slotOld : ∀ (cs i m : Nat), (c.newMVMSet.2.mvms cs)[i]? = some (some m) →
      cs ≠ c.freshSet ∧ (c.mvms cs)[i]? = some (some m) := by
    intro cs i m hm
    by_cases hcs : cs = c.freshSet
    · rw [hcs] at hm
      exact absurd hm (empty i m)
    · rw [other cs hcs] at hm
      exact ⟨hcs, hm⟩
  have hsets : c.newMVMSet.2.coalescedMVMSets = c.coalescedMVMSets := rfl
  have hfresh : c.newMVMSet.2.freshSet = c.freshSet + 1 := rfl
  refine ⟨?_, ?_, ?_, ?_, ?_, ?_, ?_, ?_, ?_, ?_⟩
  · intro cs hcs
    by_cases he : cs = c.freshSet
    · rw [he]
      show (upd c.mvms c.freshSet _ c.freshSet).length = _
      rw [upd_same, List.length_replicate]
    · rw [other cs he]
      exact h.size cs (by rw [hfresh] at hcs; omega)
  · intro cs i m hm
    exact h.place cs i m (slotOld cs i m hm).2
  · intro cs i m j m' hm hm'
    exact h.core cs i m j m' (slotOld cs i m hm).2 (slotOld cs j m' hm').2
  · intro e he i m hm
    rcases (mem_localInsert _ _ _ _).mp he with he | he
    · rw [he] at hm
      exact absurd hm (empty i m)
    · exact h.localKey e he i m (slotOld e.2 i m hm).2
  · have hp := (localInsert_perm loc k c.newMVMSet.1).map (fun e => e.2)
    rw [hp.nodup_iff, List.map_cons, List.nodup_cons]
    refine ⟨?_, h.localDistinct⟩
    intro hmem
    obtain ⟨e, he, hes⟩ := List.mem_map.mp hmem
    have := h.localBound e he
    have hes' : e.2 = c.freshSet := hes
    omega
  · intro e he
    rw [hfresh]
    rcases (mem_localInsert _ _ _ _).mp he with he | he
    · rw [he]
      exact Nat.lt_succ_self _
    · exact Nat.lt_succ_of_lt (h.localBound e he)
  · intro e he
    rw [hsets]
    rcases (mem_localInsert _ _ _ _).mp he with he | he
    · rw [he]
      intro hmem
      exact Nat.lt_irrefl _ (h.retained _ hmem).1
    · exact h.localFresh e he
  · intro cs hcs
    rw [hsets] at hcs
    obtain ⟨hb, hcomp⟩ := h.retained cs hcs
    refine ⟨by rw [hfresh]; omega, ?_⟩
    unfold Coalescer.isCompleteMVM at hcomp ⊢
    rw [other cs (Nat.ne_of_lt hb)]
    exact hcomp
  · intro cs i m hm
    rw [hsets]
    rcases h.kept cs i m (slotOld cs i m hm).2 with ⟨e, he, hes⟩ | hk
    · exact Or.inl ⟨e, (mem_localInsert _ _ _ _).mpr (Or.inr he), hes⟩
    · exact Or.inr hk
  · intro idx l cs i m hl hcs hm
    exact h.index idx l cs i m hl hcs (slotOld cs i m hm).2

theorem RetainInv.afterAdd (P : Placer) (pt : Partitioner) (c c' : Coalescer)
    (loc : List ((Nat × Nat) × Nat)) (e : (Nat × Nat) × Nat) (y pM : Nat)
    (h : RetainInv P pt c loc) (he : e ∈ loc) (hpM : P.getPMVMU pt y = some pM)
    (hpT : P.getPTile pt y = some e.1.1) (hpC : P.getPCore pt y = some e.1.2)
    (hadd : c.addMVM e.2 y pM = some c') : RetainInv P pt c' loc := by
  obtain ⟨_, _, hmv, _, hsets⟩ := Coalescer.addMVM_spec c c' e.2 y pM hadd
  have slot' := Coalescer.addMVM_slot c c' e.2 y pM hadd
  have hfr := Coalescer.addMVM_freshSet c c' e.2 y pM hadd
  have other : ∀ cs, cs ≠ e.2 → c'.mvms cs = c.mvms cs := by
    intro cs hcs
    rw [hmv, upd_other _ _ hcs]
  have key : ∀ (i m : Nat), (c'.mvms e.2)[i]? = some (some m) →
      P.getPTile pt m = some e.1.1 ∧ P.getPCore pt m = some e.1.2 := by
    intro i m hm
    rcases (slot' e.2 i m).mp hm with ⟨_, _, hy⟩ | ho
    · rw [hy]
      exact ⟨hpT, hpC⟩
    · exact h.localKey e he i m ho
  have same : ∀ e' ∈ loc, e'.2 = e.2 → e' = e := by
    intro e' he' hes
    exact List.inj_on_of_nodup_map h.localDistinct he' he hes
  refine ⟨?_, ?_, ?_, ?_, h.localDistinct, ?_, ?_, ?_, ?_, ?_⟩
  · intro cs hcs
    rw [hfr] at hcs
    by_cases hce : cs = e.2
    · rw [hce, hmv, upd_same, List.length_set]
      exact h.size e.2 (h.localBound e he)
    · rw [other cs hce]
      exact h.size cs hcs
  · intro cs i m hm
    rcases (slot' cs i m).mp hm with ⟨_, hi, hy⟩ | ho
    · rw [hy, hi]
      exact hpM
    · exact h.place cs i m ho
  · intro cs i m j m' hm hm'
    by_cases hce : cs = e.2
    · rw [hce] at hm hm'
      obtain ⟨a1, a2⟩ := key i m hm
      obtain ⟨b1, b2⟩ := key j m' hm'
      exact ⟨a1.trans b1.symm, a2.trans b2.symm⟩
    · rw [other cs hce] at hm hm'
      exact h.core cs i m j m' hm hm'
  · intro e' he' i m hm
    by_cases hce : e'.2 = e.2
    · rw [same e' he' hce]
      rw [hce] at hm
      exact key i m hm
    · rw [other e'.2 hce] at hm
      exact h.localKey e' he' i m hm
  · intro e' he'
    rw [hfr]
    exact h.localBound e' he'
  · intro e' he'
    rw [hsets]
    exact h.localFresh e' he'
  · intro cs hcs
    rw [hsets] at hcs
    obtain ⟨hb, hcomp⟩ := h.retained cs hcs
    have hne : cs ≠ e.2 := fun hce => h.localFresh e he (hce ▸ hcs)
    refine ⟨by rw [hfr]; exact hb, ?_⟩
    unfold Coalescer.isCompleteMVM at hcomp ⊢
    rw [other cs hne]
    exact hcomp
  · intro cs i m hm
    rw [hsets]
    rcases (slot' cs i m).mp hm with ⟨hcs, _, _⟩ | ho
    · exact Or.inl ⟨e, he, hcs.symm⟩
    · exact h.kept cs i m ho
  · intro idx l cs i m hl hcs hm
    rw [hsets] at hl
    have hne : cs ≠ e.2 := by
      intro hce
      refine h.localFresh e he ?_
      rw [← hce]
      exact List.mem_flatten.mpr ⟨l, List.getElem?_mem hl, hcs⟩
    rw [other cs hne] at hm
    exact h.index idx l cs i m hl hcs hm

theorem localFind_key (l : List ((Nat × Nat) × Nat)) (k : Nat × Nat) (cs : Nat)
    (h : localFind l k = some cs) : ∃ e ∈ l, e.1 = k ∧ e.2 = cs := by
  unfold localFind at h
  simp only [Option.map_eq_some'] at h
  obtain ⟨e, he, hcs⟩ := h
  have hk := List.find?_some he
  exact ⟨e, List.mem_of_find?_eq_some he, by simpa using hk, hcs⟩

theorem extractLocalSet_retain (P : Placer) (pt : Partitioner)
    (s s' : Coalescer × List ((Nat × Nat) × Nat)) (mvm : Nat)
    (h : RetainInv P pt s.1 s.2) (hr : extractLocalSet P pt s mvm = some s') :
    RetainInv P pt s'.1 s'.2 := by
  unfold extractLocalSet at hr
  simp only [Option.bind_eq_some, Option.map_eq_some'] at hr
  obtain ⟨pMVMU, hpM, pCore, hpC, pTile, hpT, c', hadd, hs'⟩ := hr
  rw [← hs']
  cases hf : localFind s.2 (pTile, pCore) with
  | some cs =>
    rw [hf] at hadd
    simp only at hadd ⊢
    obtain ⟨e, he, hk, hes⟩ := localFind_key _ _ _ hf
    rw [← hes] at hadd
    exact RetainInv.afterAdd P pt s.1 c' s.2 e mvm pMVMU h he hpM (by rw [hk]; exact hpT)
      (by rw [hk]; exact hpC) hadd
  | none =>
    rw [hf] at hadd
    simp only at hadd ⊢
    exact RetainInv.afterAdd P pt _ c' _ ((pTile, pCore), s.1.newMVMSet.1) mvm pMVMU
      (RetainInv.afterNewSet P pt s.1 s.2 (pTile, pCore) h)
      ((mem_localInsert _ _ _ _).mpr (Or.inl rfl)) hpM hpT hpC hadd

theorem keepIfComplete_retain (P : Placer) (pt : Partitioner) (c c' : Coalescer)
    (e : (Nat × Nat) × Nat) (rest : List ((Nat × Nat) × Nat))
    (h : RetainInv P pt c (e :: rest)) (hr : keepIfComplete c e = some c') :
    RetainInv P pt c' rest := by
  have hnd := h.localDistinct
  rw [List.map_cons, List.nodup_cons] at hnd
  have hrest : ∀ e' ∈ rest, e'.2 ≠ e.2 := by
    intro e' he' hes
    exact hnd.1 (List.mem_map.mpr ⟨e', he', hes⟩)
  unfold keepIfComplete at hr
  by_cases hcomp : c.isCompleteMVM e.2 = true
  · rw [if_pos hcomp] at hr
    simp only [Option.map_eq_some'] at hr
    obtain ⟨v, hv, hc'⟩ := hr
    rw [← hc']
    have hfl := pushAt_flatten _ _ _ _ hv
    obtain ⟨l0, hl0, hl0', hother⟩ := pushAt_spec _ _ _ _ hv
    refine ⟨h.size, h.place, h.core, ?_, hnd.2, ?_, ?_, ?_, ?_, ?_⟩
    · intro e' he'
      exact h.localKey e' (List.mem_cons_of_mem _ he')
    · intro e' he'
      exact h.localBound e' (List.mem_cons_of_mem _ he')
    · intro e' he' hmem
      rcases (hfl e'.2).mp hmem with h1 | h1
      · exact h.localFresh e' (List.mem_cons_of_mem _ he') h1
      · exact hrest e' he' h1
    · intro cs hcs
      rcases (hfl cs).mp hcs with h1 | h1
      · exact h.retained cs h1
      · rw [h1]
        exact ⟨h.localBound e (List.mem_cons_self _ _), hcomp⟩
    · intro cs i m hm
      rcases h.kept cs i m hm with ⟨e', he', hes⟩ | hk
      · rcases List.mem_cons.mp he' with he' | he'
        · right
          refine (hfl cs).mpr (Or.inr ?_)
          rw [← hes, he']
        · exact Or.inl ⟨e', he', hes⟩
      · exact Or.inr ((hfl cs).mpr (Or.inl hk))
    · intro idx l cs i m hl hcs hm
      by_cases hidx : idx = (e.1.1 * N_CORES_PER_TILE + e.1.2) % UINT_MOD
      · have hl' : v[(e.1.1 * N_CORES_PER_TILE + e.1.2) % UINT_MOD]? = some l := by
          rw [← hidx]
          exact hl
        rw [hl0'] at hl'
        rw [← Option.some.inj hl'] at hcs
        rcases List.mem_append.mp hcs with h1 | h1
        · exact h.index idx l0 cs i m (by rw [hidx]; exact hl0) h1 hm
        · have hce : cs = e.2 := List.mem_singleton.mp h1
          rw [hce] at hm
          obtain ⟨a1, a2⟩ := h.localKey e (List.mem_cons_self _ _) i m hm
          exact ⟨e.1.1, e.1.2, a1, a2, hidx⟩
      · have hl' : c.coalescedMVMSets[idx]? = some l := by
          rw [← hother idx hidx]
          exact hl
        exact h.index idx l cs i m hl' hcs hm
  · rw [if_neg hcomp] at hr
    simp only [Option.some.injEq] at hr
    rw [← hr]
    have other : ∀ cs, cs ≠ e.2 → (c.removeAllMVM e.2).mvms cs = c.mvms cs := by
      intro cs hcs
      show upd c.mvms e.2 _ cs = c.mvms cs
      exact upd_other _ _ hcs
    have empty : ∀ (i m : Nat), ((c.removeAllMVM e.2).mvms e.2)[i]? ≠ some (some m) := by
      intro i m hm
      have hmem := List.getElem?_mem hm
      simp only [Coalescer.removeAllMVM, upd_same, List.mem_map] at hmem
      obtain ⟨_, _, hx⟩ := hmem
      exact absurd hx (by simp)
    have slotOld : ∀ (cs i m : Nat), ((c.removeAllMVM e.2).mvms cs)[i]? = some (some m) →
        cs ≠ e.2 ∧ (c.mvms cs)[i]? = some (some m) := by
      intro cs i m hm
      by_cases hcs : cs = e.2
      · rw [hcs] at hm
        exact absurd hm (empty i m)
      · rw [other cs hcs] at hm
        exact ⟨hcs, hm⟩
    have hsets : (c.removeAllMVM e.2).coalescedMVMSets = c.coalescedMVMSets := rfl
    have hfresh : (c.removeAllMVM e.2).freshSet = c.freshSet := rfl
    refine ⟨?_, ?_, ?_, ?_, hnd.2, ?_, ?_, ?_, ?_, ?_⟩
    · intro cs hcs
      by_cases hce : cs = e.2
      · rw [hce]
        show (upd c.mvms e.2 _ e.2).length = _
        rw [upd_same, List.length_map]
        exact h.size e.2 (h.localBound e (List.mem_cons_self _ _))
      · rw [other cs hce]
        exact h.size cs hcs
    · intro cs i m hm
      exact h.place cs i m (slotOld cs i m hm).2
    · intro cs i m j m' hm hm'
      exact h.core cs i m j m' (slotOld cs i m hm).2 (slotOld cs j m' hm').2
    · intro e' he' i m hm
      exact h.localKey e' (List.mem_cons_of_mem _ he') i m (slotOld e'.2 i m hm).2
    · intro e' he'
      exact h.localBound e' (List.mem_cons_of_mem _ he')
    · intro e' he'
      exact h.localFresh e' (List.mem_cons_of_mem _ he')
    · intro cs hcs
      obtain ⟨hb, hc⟩ := h.retained cs hcs
      have hne : cs ≠ e.2 := fun hce => h.localFresh e (List.mem_cons_self _ _) (hce ▸ hcs)
      refine ⟨hb, ?_⟩
      unfold Coalescer.isCompleteMVM at hc ⊢
      rw [other cs hne]
      exact hc
    · intro cs i m hm
      obtain ⟨hne, ho⟩ := slotOld cs i m hm
      rcases h.kept cs i m ho with ⟨e', he', hes⟩ | hk
      · rcases List.mem_cons.mp he' with he' | he'
        · rw [he'] at hes
          exact absurd hes.symm hne
        · exact Or.inl ⟨e', he', hes⟩
      · exact Or.inr hk
    · intro idx l cs i m hl hcs hm
      exact h.index idx l cs i m hl hcs (slotOld cs i m hm).2

theorem keepIfComplete_retain_fold (P : Placer) (pt : Partitioner) :
    ∀ (loc : List ((Nat × Nat) × Nat)) (c c' : Coalescer), RetainInv P pt c loc →
      loc.foldlM keepIfComplete c = some c' → RetainInv P pt c' [] := by
  intro loc
  induction loc with
  | nil =>
    intro c c' h hr
    simp only [List.foldlM_nil, Option.pure_def, Option.some.injEq] at hr
    rw [← hr]
    exact h
  | cons e rest ih =>
    intro c c' h hr
    simp only [List.foldlM_cons, Option.bind_eq_bind, Option.bind_eq_some] at hr
    obtain ⟨c1, h1, h2⟩ := hr
    exact ih c1 c' (keepIfComplete_retain P pt c c1 e rest h h1) h2

theorem coalesceHintSet_retain (P : Placer) (pt : Partitioner) (c c' : Coalescer)
    (H : List Nat) (h : RetainInv P pt c [])
    (hr : coalesceHintSet P pt c H = some c') : RetainInv P pt c' [] := by
  unfold coalesceHintSet at hr
  simp only [Option.bind_eq_some] at hr
  obtain ⟨s, hs, hk⟩ := hr
  have h1 := foldlM_preserves (extractLocalSet P pt)
    (fun s => RetainInv P pt s.1 s.2)
    (fun b a b' hb hf => extractLocalSet_retain P pt b b' a hb hf)
    H (c, []) s h hs
  exact keepIfComplete_retain_fold P pt s.2 s.1 c' h1 hk

theorem coalesceHintSets_retain (hints : List (List Nat)) (P : Placer) (pt : Partitioner)
    (c : Coalescer)
    (hr : hints.foldlM (coalesceHintSet P pt)
      { Coalescer.none with coalescedMVMSets := List.replicate P.nPCores [] } = some c) :
    RetainInv P pt c [] := by
  refine foldlM_preserves (coalesceHintSet P pt) (fun c => RetainInv P pt c [])
    (fun b a b' hb hf => coalesceHintSet_retain P pt b b' a hb hf) hints _ c ?_ hr
  have hflat : ∀ cs, cs ∉ (List.replicate P.nPCores ([] : List Nat)).flatten := by
    intro cs hcs
    obtain ⟨l, hl, hcl⟩ := List.mem_flatten.mp hcs
    rw [(List.mem_replicate.mp hl).2] at hcl
    exact absurd hcl (List.not_mem_nil _)
  refine ⟨?_, ?_, ?_, ?_, List.nodup_nil, ?_, ?_, ?_, ?_, ?_⟩
  · intro cs hcs
    exact absurd hcs (Nat.not_lt_zero _)
  · intro cs i m hm
    simp [Coalescer.none] at hm
  · intro cs i m j m' hm
    simp [Coalescer.none] at hm
  · intro e he
    exact absurd he (List.not_mem_nil _)
  · intro e he
    exact absurd he (List.not_mem_nil _)
  · intro e he
    exact absurd he (List.not_mem_nil _)
  · intro cs hcs
    exact absurd hcs (hflat cs)
  · intro cs i m hm
    simp [Coalescer.none] at hm
  · intro idx l cs i m hl hcs hm
    simp [Coalescer.none] at hm

/-- Claim C27. After the hint-based phase of `Coalescer::coalesceMVMOperations` every MVM
has no coalesced set, or its set is retained in the vector of its physical core and each of
the `N_CONSTANT_MVMUS_PER_CORE` slots of the set holds an MVM of one hint set on the
physical tile and core of the MVM; a set that was built and is not retained has no member
and no MVM links to it. When the phase finds a set of the local map not complete, the back
link of every member is reset to none, the set keeps no member and the retained sets are
unchanged. -/
theorem hint_phase_retains_only_complete_sets (hints : List (List Nat)) (P : Placer)
    (pt : Partitioner) (c : Coalescer)
    (hr : hints.foldlM (coalesceHintSet P pt)
      { Coalescer.none with coalescedMVMSets := List.replicate P.nPCores [] } = some c) :
    HintPhaseResult hints P pt c
    ∧ ∀ (c1 c2 : Coalescer) (e : (Nat × Nat) × Nat), keepIfComplete c1 e = some c2 →
        c1.isCompleteMVM e.2 = false →
        (∀ (i m : Nat), (c1.mvms e.2)[i]? = some (some m) → c2.coalescedSet m = Option.none)
        ∧ (∀ (i m : Nat), (c2.mvms e.2)[i]? ≠ some (some m))
        ∧ c2.coalescedMVMSets = c1.coalescedMVMSets := by
  have hH := coalesceHintSets_hint hints P pt c hr
  have hR := coalesceHintSets_retain hints P pt c hr
  have hret : ∀ (cs i m : Nat), (c.mvms cs)[i]? = some (some m) →
      cs ∈ c.coalescedMVMSets.flatten := by
    intro cs i m hm
    rcases hR.kept cs i m hm with ⟨e, he, _⟩ | hk
    · exact absurd he (List.not_mem_nil _)
    · exact hk
  refine ⟨⟨hH.back, ?_, ?_, ?_, ?_, ?_⟩, ?_⟩
  · intro m cs hm
    obtain ⟨i, hi⟩ := hH.back m cs hm
    obtain ⟨l, hl, hcl⟩ := List.mem_flatten.mp (hret cs i m hi)
    obtain ⟨idx, hidx⟩ := List.mem_iff_getElem?.mp hl
    obtain ⟨pTile, pCore, a1, a2, a3⟩ := hR.index idx l cs i m hidx hcl hi
    exact ⟨pTile, pCore, l, a1, a2, by rw [← a3]; exact hidx, hcl⟩
  · intro m cs hm
    obtain ⟨i, hi⟩ := hH.back m cs hm
    obtain ⟨hb, hcomp⟩ := hR.retained cs (hret cs i m hi)
    have hsize := hR.size cs hb
    refine ⟨hsize, ?_⟩
    intro j hj
    have hjl : j < (c.mvms cs).length := by rw [hsize]; exact hj
    unfold Coalescer.isCompleteMVM at hcomp
    have hall := List.all_eq_true.mp hcomp _ (List.getElem_mem hjl)
    obtain ⟨m', hm'⟩ := Option.isSome_iff_exists.mp hall
    exact ⟨m', by rw [List.getElem?_eq_getElem hjl, hm']⟩
  · intro m cs hm
    obtain ⟨i, hi⟩ := hH.back m cs hm
    exact hH.backed cs i m hi
  · intro m cs hm j m' hm'
    obtain ⟨i, hi⟩ := hH.back m cs hm
    obtain ⟨a1, a2⟩ := hR.core cs j m' i m hm' hi
    exact ⟨a1, a2, hR.place cs j m' hm', hH.link cs j m' hm'⟩
  · intro cs _ hcs
    have hno : ∀ (i m : Nat), (c.mvms cs)[i]? ≠ some (some m) :=
      fun i m hm => hcs (hret cs i m hm)
    refine ⟨hno, ?_⟩
    intro m hm
    obtain ⟨i, hi⟩ := hH.back m cs hm
    exact hno i m hi
  · intro c1 c2 e hk hcomp
    unfold keepIfComplete at hk
    rw [if_neg (by rw [hcomp]; decide)] at hk
    simp only [Option.some.injEq] at hk
    rw [← hk]
    refine ⟨?_, ?_, rfl⟩
    · intro i m hm
      show (if some m ∈ c1.mvms e.2 then Option.none else c1.coalescedSet m) = Option.none
      rw [if_pos (List.getElem?_mem hm)]
    · intro i m hm
      have hmem := List.getElem?_mem hm
      simp only [Coalescer.removeAllMVM, upd_same, List.mem_map] at hmem
      obtain ⟨_, _, hx⟩ := hmem
      exact absurd hx (by simp)

/-- Witness for claim C27: the hint set of the MVMs 10 to 15, which fill the six physical
MVMUs of one core, is retained as the set 0; the hint set of the MVMs 20 and 21 on another
core gives the set 1, which is not complete and is demolished. -/
theorem hint_phase_retains_only_complete_sets_witness :
    ([[10, 11, 12, 13, 14, 15], [20, 21]].foldlM
        (coalesceHintSet hintPhasePlacer hintPhasePartitioner)
        { Coalescer.none with
          coalescedMVMSets := List.replicate hintPhasePlacer.nPCores [] }).map
      (fun c => (c.coalescedSet 10, c.coalescedSet 20, c.coalescedMVMSets.flatten,
        c.freshSet)) = some (some 0, Option.none, [0], 2)
    ∧ ∃ c, [[10, 11, 12, 13, 14, 15], [20, 21]].foldlM
        (coalesceHintSet hintPhasePlacer hintPhasePartitioner)
        { Coalescer.none with
          coalescedMVMSets := List.replicate hintPhasePlacer.nPCores [] } = some c
      ∧ HintPhaseResult [[10, 11, 12, 13, 14, 15], [20, 21]] hintPhasePlacer
          hintPhasePartitioner c := by
  refine ⟨by decide, ?_⟩
  have hsome : ([[10, 11, 12, 13, 14, 15], [20, 21]].foldlM
      (coalesceHintSet hintPhasePlacer hintPhasePartitioner)
      { Coalescer.none with
        coalescedMVMSets := List.replicate hintPhasePlacer.nPCores [] }).isSome = true := by
    decide
  obtain ⟨c, hc⟩ := Option.isSome_iff_exists.mp hsome
  exact ⟨c, hc, (hint_phase_retains_only_complete_sets _ _ _ c hc).1⟩

/-! ## `insertInputAndOutput` -/

theorem InputFrame.frameUnchanged (s : PState) : InputFrame s s where
  fresh_le := Nat.le_refl _
  vcore := rfl
  vtile := rfl
  cls := fun _ _ => rfl
  srcs := fun _ _ => rfl
  recvSrc := fun _ _ => rfl
  ioTile := fun _ _ => rfl
  assign := fun _ _ _ => rfl
  ops_old := fun _ h _ _ => h
  ops_new := fun _ h => Or.inl h
  fresh_cls := fun _ h1 h2 => absurd h2 (Nat.not_lt.mpr h1)

theorem InputFrame.frameAndThen {s1 s2 s3 : PState} (h1 : InputFrame s1 s2)
    (h2 : InputFrame s2 s3) : InputFrame s1 s3 where
  fresh_le := Nat.le_trans h1.fresh_le h2.fresh_le
  vcore := h2.vcore.trans h1.vcore
  vtile := h2.vtile.trans h1.vtile
  cls := fun i hi => by rw [h2.cls i (Nat.lt_of_lt_of_le hi h1.fresh_le), h1.cls i hi]
  srcs := fun i hi => by rw [h2.srcs i (Nat.lt_of_lt_of_le hi h1.fresh_le), h1.srcs i hi]
  recvSrc := fun i hi => by
    rw [h2.recvSrc i (Nat.lt_of_lt_of_le hi h1.fresh_le), h1.recvSrc i hi]
  ioTile := fun i hi => by
    rw [h2.ioTile i (Nat.lt_of_lt_of_le hi h1.fresh_le), h1.ioTile i hi]
  assign := fun i hi hp => by
    rw [h2.assign i (Nat.lt_of_lt_of_le hi h1.fresh_le) (by rw [h1.cls i hi]; exact hp),
      h1.assign i hi hp]
  ops_old := fun i hi hlt hp =>
    h2.ops_old i (h1.ops_old i hi hlt hp) (Nat.lt_of_lt_of_le hlt h1.fresh_le)
      (by rw [h1.cls i hlt]; exact hp)
  ops_new := fun i hi => by
    rcases h2.ops_new i hi with h | ⟨h, h'⟩
    · rcases h1.ops_new i h with h0 | ⟨h0, h0'⟩
      · exact Or.inl h0
      · exact Or.inr ⟨h0, Nat.lt_of_lt_of_le h0' h2.fresh_le⟩
    · exact Or.inr ⟨Nat.le_trans h1.fresh_le h, h'⟩
  fresh_cls := fun i hi hi' => by
    by_cases hlt : i < s2.g.fresh
    · rw [h2.cls i hlt]
      exact h1.fresh_cls i hi hlt
    · exact h2.fresh_cls i (Nat.le_of_not_lt hlt) hi'

theorem InputStep.stepUnchanged (s : PState) (op : Nat) : InputStep s s op where
  frame := InputFrame.frameUnchanged s
  operands_keep := fun _ _ _ _ h _ => h
  users_keep := fun _ _ _ _ _ h => h
  users_lt := fun h => h

theorem InputStep.stepAndThen {s1 s2 s3 : PState} {op : Nat} (h1 : InputStep s1 s2 op)
    (h2 : InputStep s2 s3 op) : InputStep s1 s3 op where
  frame := h1.frame.frameAndThen h2.frame
  operands_keep := fun c j q hc hq hne =>
    h2.operands_keep c j q (Nat.lt_of_lt_of_le hc h1.frame.fresh_le)
      (h1.operands_keep c j q hc hq hne) hne
  users_keep := fun q x hq hne hxe hx =>
    h2.users_keep q x (Nat.lt_of_lt_of_le hq h1.frame.fresh_le) hne hxe
      (h1.users_keep q x hq hne hxe hx)
  users_lt := fun h => h2.users_lt (h1.users_lt h)

theorem InputFrame.frame_getVMVMU {s s' : PState} (h : InputFrame s s') (i : Nat)
    (hi : i < s.g.fresh) (hp : (s.g.cls i).isPseudo = false) :
    s'.pt.getVMVMU i = s.pt.getVMVMU i := h.assign i hi hp

theorem InputFrame.frame_getVCore {s s' : PState} (h : InputFrame s s') (i : Nat)
    (hi : i < s.g.fresh) (hp : (s.g.cls i).isPseudo = false) :
    s'.pt.getVCore i = s.pt.getVCore i := by
  unfold Partitioner.getVCore
  rw [h.frame_getVMVMU i hi hp, h.vcore]

theorem InputFrame.frame_getVTile {s s' : PState} (h : InputFrame s s') (i : Nat)
    (hi : i < s.g.fresh) (hp : (s.g.cls i).isPseudo = false) :
    s'.pt.getVTile i = s.pt.getVTile i := by
  unfold Partitioner.getVTile
  rw [h.frame_getVCore i hi hp, h.vtile]

theorem InputEntry.inputCarried {lo : Nat} {s s' : PState} {src W : Nat}
    (h : InputEntry lo s src W) (hf : InputFrame s s') : InputEntry lo s' src W := by
  obtain ⟨a1, a2, a3, a4, a5, a6⟩ := h
  have hp : (s.g.cls W).isPseudo = false := by rw [a4]; rfl
  exact ⟨a1, Nat.lt_of_lt_of_le a2 hf.fresh_le, hf.ops_old W a3 a2 hp,
    by rw [hf.cls W a2]; exact a4, by rw [hf.ioTile W a2]; exact a5,
    by rw [hf.assign W a2 hp]; exact a6⟩

theorem RecvEntry.recvCarried {lo : Nat} {s s' : PState} {src vt R : Nat}
    (h : RecvEntry lo s src vt R) (hf : InputFrame s s') : RecvEntry lo s' src vt R := by
  obtain ⟨a1, a2, a3, a4, a5, S, W, b1, b2, b3, b4, b5, b6, b7⟩ := h
  have hp : (s.g.cls R).isPseudo = false := by rw [a4]; rfl
  have hq : (s.g.cls S).isPseudo = false := by rw [b5]; rfl
  exact ⟨a1, Nat.lt_of_lt_of_le a2 hf.fresh_le, hf.ops_old R a3 a2 hp,
    by rw [hf.cls R a2]; exact a4, by rw [hf.frame_getVTile R a2 hp]; exact a5, S, W,
    by rw [hf.recvSrc R a2]; exact b1, b2, Nat.lt_of_lt_of_le b3 hf.fresh_le,
    hf.ops_old S b4 b3 hq, by rw [hf.cls S b3]; exact b5,
    by rw [hf.srcs S b3]; exact b6, b7.inputCarried hf⟩

theorem LoadEntry.loadCarried {lo : Nat} {s s' : PState} {src vc L : Nat}
    (h : LoadEntry lo s src vc L) (hf : InputFrame s s') : LoadEntry lo s' src vc L := by
  obtain ⟨a1, a2, a3, a4, a5, R, vt, b1, b2, b3⟩ := h
  have hp : (s.g.cls L).isPseudo = false := by rw [a4]; rfl
  exact ⟨a1, Nat.lt_of_lt_of_le a2 hf.fresh_le, hf.ops_old L a3 a2 hp,
    by rw [hf.cls L a2]; exact a4, by rw [hf.frame_getVCore L a2 hp]; exact a5, R, vt,
    by rw [hf.srcs L a2]; exact b1, by rw [hf.vtile]; exact b2, b3.recvCarried hf⟩

/-- The local maps stay sound when the state moves on and the maps are unchanged, provided
the new operations are no WriteInputs. -/
theorem InputMaps.mapsCarried {lo : Nat} {l : InputLoop} {s' : PState} (h : InputMaps lo l)
    (hf : InputFrame l.st s')
    (hnew : ∀ i, l.st.g.fresh ≤ i → i < s'.g.fresh →
      s'.g.cls i ≠ OpClass.WriteInputOperation) :
    InputMaps lo { l with st := s' } := by
  refine ⟨fun src W hW => (h.inputs src W hW).inputCarried hf,
    fun src vt R hR => (h.recvs src vt R hR).recvCarried hf,
    fun src vc L hL => (h.loads src vc L hL).loadCarried hf, ?_⟩
  intro W hlo hW hcls
  have hcls' : s'.g.cls W = OpClass.WriteInputOperation := hcls
  by_cases hlt : W < l.st.g.fresh
  · have := h.unique W hlo hlt (by rw [← hf.cls W hlt]; exact hcls')
    show l.inputs (s'.g.ioTile W) = some W
    rw [hf.ioTile W hlt]
    exact this
  · exact absurd hcls' (hnew W (Nat.le_of_not_lt hlt) hW)
theorem Graph.newRead_creates (g : Graph) (c : OpClass) (src : Nat) :
    (g.newRead c src).1 = g.fresh ∧ Graph.Creates g (g.newRead c src).2 c
    ∧ (g.newRead c src).2.srcs g.fresh = [src] := by
  refine ⟨rfl, ⟨rfl, rfl, ?_, ?_, ?_, ?_, ?_, ?_, ?_, ?_⟩, ?_⟩
  · simp [Graph.newRead, Graph.addReader, Graph.alloc, upd_same]
  · intro i hi
    simp [Graph.newRead, Graph.addReader, Graph.alloc, upd_other _ _ hi]
  · intro i hi
    simp [Graph.newRead, Graph.addReader, Graph.alloc, upd_other _ _ hi]
  · intro i hi
    simp [Graph.newRead, Graph.addReader, Graph.alloc, upd_other _ _ hi]
  · intro i hi
    simp [Graph.newRead, Graph.addReader, Graph.alloc, upd_other _ _ hi]
  · intro i hi
    simp [Graph.newRead, Graph.addReader, Graph.alloc, upd_other _ _ hi]
  · intro q x hq hx
    simp only [Graph.newRead, Graph.addReader, Graph.alloc, upd_other _ _ hq]
    exact hx
  · intro q x hx
    by_cases hq : q = g.fresh
    · rw [hq] at hx
      simp [Graph.newRead, Graph.addReader, Graph.alloc, upd_same] at hx
    · simp only [Graph.newRead, Graph.addReader, Graph.alloc, upd_other _ _ hq] at hx
      exact Or.inl ⟨hq, hx⟩
  · simp [Graph.newRead, Graph.addReader, Graph.alloc, upd_same]

theorem Graph.newConsumer_creates (g : Graph) (c : OpClass) (src : Nat) :
    (g.newConsumer c src).1 = g.fresh ∧ Graph.Creates g (g.newConsumer c src).2 c
    ∧ (g.newConsumer c src).2.operands g.fresh = [src] := by
  refine ⟨rfl, ⟨rfl, rfl, ?_, ?_, ?_, ?_, ?_, ?_, ?_, ?_⟩, ?_⟩
  · simp [Graph.newConsumer, Graph.addUser, Graph.alloc, upd_same]
  · intro i hi
    simp [Graph.newConsumer, Graph.addUser, Graph.alloc, upd_other _ _ hi]
  · intro i hi
    simp [Graph.newConsumer, Graph.addUser, Graph.alloc, upd_other _ _ hi]
  · intro i hi
    simp [Graph.newConsumer, Graph.addUser, Graph.alloc, upd_other _ _ hi]
  · intro i hi
    simp [Graph.newConsumer, Graph.addUser, Graph.alloc, upd_other _ _ hi]
  · intro i hi
    simp [Graph.newConsumer, Graph.addUser, Graph.alloc, upd_other _ _ hi]
  · intro q x hq hx
    simp only [Graph.newConsumer, Graph.addUser, Graph.alloc]
    by_cases hqs : q = src
    · rw [hqs, upd_same]
      rw [hqs] at hq hx
      rw [upd_other _ _ hq]
      exact mem_setInsert.mpr (Or.inr hx)
    · rw [upd_other _ _ hqs, upd_other _ _ hq]
      exact hx
  · intro q x hx
    simp only [Graph.newConsumer, Graph.addUser, Graph.alloc] at hx
    by_cases hqs : q = src
    · rw [hqs, upd_same] at hx
      rcases mem_setInsert.mp hx with h1 | h1
      · exact Or.inr h1
      · by_cases hq : src = g.fresh
        · rw [hq, upd_same] at h1
          exact absurd h1 (List.not_mem_nil _)
        · rw [upd_other _ _ hq] at h1
          rw [hqs]
          exact Or.inl ⟨hq, h1⟩
    · rw [upd_other _ _ hqs] at hx
      by_cases hq : q = g.fresh
      · rw [hq, upd_same] at hx
        exact absurd hx (List.not_mem_nil _)
      · rw [upd_other _ _ hq] at hx
        exact Or.inl ⟨hq, hx⟩
  · simp [Graph.newConsumer, Graph.addUser, Graph.alloc, upd_same]

theorem Graph.newReceive_creates (g : Graph) (send : Nat) (r : Nat × Graph)
    (h : g.newReceive send = some r) :
    r.1 = g.fresh ∧ Graph.Creates g r.2 OpClass.ReceiveOperation
    ∧ r.2.recvSrc g.fresh = some send := by
  unfold Graph.newReceive at h
  simp only at h
  split at h
  · exact absurd h (by simp)
  · simp only [Option.some.injEq] at h
    rw [← h]
    refine ⟨rfl, ⟨rfl, rfl, ?_, ?_, ?_, ?_, ?_, ?_, ?_, ?_⟩, ?_⟩
    · simp [Graph.alloc, upd_same]
    · intro i hi
      simp [Graph.alloc, upd_other _ _ hi]
    · intro i hi
      simp [Graph.alloc, upd_other _ _ hi]
    · intro i hi
      simp [Graph.alloc, upd_other _ _ hi]
    · intro i hi
      simp [Graph.alloc, upd_other _ _ hi]
    · intro i hi
      simp [Graph.alloc, upd_other _ _ hi]
    · intro q x hq hx
      simp only [Graph.alloc, upd_other _ _ hq]
      exact hx
    · intro q x hx
      by_cases hq : q = g.fresh
      · rw [hq] at hx
        simp [Graph.alloc, upd_same] at hx
      · simp only [Graph.alloc, upd_other _ _ hq] at hx
        exact Or.inl ⟨hq, hx⟩
    · simp [Graph.alloc, upd_same]

theorem Graph.newWriteInput_creates (g : Graph) (src srcLength : Nat) :
    (g.newWriteInput src srcLength).1 = g.fresh
    ∧ Graph.Creates g (g.newWriteInput src srcLength).2 OpClass.WriteInputOperation
    ∧ (g.newWriteInput src srcLength).2.ioTile g.fresh = src := by
  refine ⟨rfl, ⟨rfl, rfl, ?_, ?_, ?_, ?_, ?_, ?_, ?_, ?_⟩, ?_⟩
  · simp [Graph.newWriteInput, Graph.alloc, upd_same]
  · intro i hi
    simp [Graph.newWriteInput, Graph.alloc, upd_other _ _ hi]
  · intro i hi
    simp [Graph.newWriteInput, Graph.alloc, upd_other _ _ hi]
  · intro i hi
    simp [Graph.newWriteInput, Graph.alloc, upd_other _ _ hi]
  · intro i hi
    simp [Graph.newWriteInput, Graph.alloc, upd_other _ _ hi]
  · intro i hi
    simp [Graph.newWriteInput, Graph.alloc, upd_other _ _ hi]
  · intro q x hq hx
    simp only [Graph.newWriteInput, Graph.alloc, upd_other _ _ hq]
    exact hx
  · intro q x hx
    by_cases hq : q = g.fresh
    · rw [hq] at hx
      simp [Graph.newWriteInput, Graph.alloc, upd_same] at hx
    · simp only [Graph.newWriteInput, Graph.alloc, upd_other _ _ hq] at hx
      exact Or.inl ⟨hq, hx⟩
  · simp [Graph.newWriteInput, Graph.alloc, upd_same]

theorem Graph.newReadOutput_creates (g : Graph) (src dst dstLength : Nat) (r : Nat × Graph)
    (h : g.newReadOutput src dst dstLength = some r) :
    r.1 = g.fresh ∧ Graph.Creates g r.2 OpClass.ReadOutputOperation := by
  unfold Graph.newReadOutput at h
  split at h
  · simp only [Option.some.injEq] at h
    obtain ⟨e1, c, _⟩ := Graph.newRead_creates g OpClass.ReadOutputOperation src
    rw [← h]
    refine ⟨e1, ⟨c.fresh, c.operations, c.cls_new, c.cls, c.srcs, c.recvSrc, ?_, c.operands,
      c.users_keep, c.users_new⟩⟩
    intro i hi
    show upd _ (g.newRead OpClass.ReadOutputOperation src).1 dst i = _
    rw [e1, upd_other _ _ hi]
    exact c.ioTile i hi
  · exact absurd h (by simp)

/-- A new operation that is no pseudo operation, with a partitioner that differs at the new
address only, is a step of `insertInputAndOutput`. -/
theorem InputStep.ofCreates (s : PState) (g' : Graph) (pt' : Partitioner) (c : OpClass)
    (op : Nat) (hg : Graph.Creates s.g g' c) (hc : c.isPseudo = false)
    (ha : ∀ i, i ≠ s.g.fresh → pt'.op2vmvmu i = s.pt.op2vmvmu i)
    (hvc : pt'.vmvmu2vcore = s.pt.vmvmu2vcore) (hvt : pt'.vcore2vtile = s.pt.vcore2vtile) :
    InputStep s { g := g', pt := pt' } op where
  frame :=
    { fresh_le := by show s.g.fresh ≤ g'.fresh; rw [hg.fresh]; exact Nat.le_succ _
      vcore := hvc
      vtile := hvt
      cls := fun i hi => hg.cls i (Nat.ne_of_lt hi)
      srcs := fun i hi => hg.srcs i (Nat.ne_of_lt hi)
      recvSrc := fun i hi => hg.recvSrc i (Nat.ne_of_lt hi)
      ioTile := fun i hi => hg.ioTile i (Nat.ne_of_lt hi)
      assign := fun i hi _ => ha i (Nat.ne_of_lt hi)
      ops_old := fun i hi _ _ => by
        show i ∈ g'.operations
        rw [hg.operations]
        exact mem_setInsert.mpr (Or.inr hi)
      ops_new := fun i hi => by
        have hi' : i ∈ g'.operations := hi
        rw [hg.operations] at hi'
        rcases mem_setInsert.mp hi' with h | h
        · right
          show s.g.fresh ≤ i ∧ i < g'.fresh
          rw [hg.fresh, h]
          exact ⟨Nat.le_refl _, Nat.lt_succ_self _⟩
        · exact Or.inl h
      fresh_cls := fun i h1 h2 => by
        have h2' : i < g'.fresh := h2
        rw [hg.fresh] at h2'
        have : i = s.g.fresh := by omega
        show (g'.cls i).isPseudo = false
        rw [this, hg.cls_new]
        exact hc }
  operands_keep := fun c' j q hc' hq _ => by
    show (g'.operands c')[j]? = some q
    rw [hg.operands c' (Nat.ne_of_lt hc')]
    exact hq
  users_keep := fun q x hq _ _ hx => hg.users_keep q x (Nat.ne_of_lt hq) hx
  users_lt := fun h q hq x hx => by
    have hq' : q < g'.fresh := hq
    show x < g'.fresh
    rw [hg.fresh] at hq' ⊢
    rcases hg.users_new q x hx with ⟨h0, h1⟩ | h1
    · exact Nat.lt_succ_of_lt (h q (by omega) x h1)
    · rw [h1]
      exact Nat.lt_succ_self _
/-- A new operation whose virtual MVMU is cloned from `src`. -/
theorem InputStep.ofClone (s : PState) (g' : Graph) (pt1 pt' : Partitioner) (c : OpClass)
    (op src : Nat) (hg : Graph.Creates s.g g' c) (hc : c.isPseudo = false)
    (hcl : s.pt.cloneAssignment src s.g.fresh = some pt1)
    (h1 : pt'.op2vmvmu = pt1.op2vmvmu) (h2 : pt'.vmvmu2vcore = pt1.vmvmu2vcore)
    (h3 : pt'.vcore2vtile = pt1.vcore2vtile) :
    InputStep s { g := g', pt := pt' } op
    ∧ (∀ v, s.pt.op2vmvmu src = some v → pt'.op2vmvmu s.g.fresh = some v)
    ∧ (∀ i, i ≠ s.g.fresh → pt'.op2vmvmu i = s.pt.op2vmvmu i) := by
  obtain ⟨f1, f2, f3, f4⟩ := Partitioner.cloneAssignment_tables _ _ _ _ hcl
  have hk : ∀ i, i ≠ s.g.fresh → pt'.op2vmvmu i = s.pt.op2vmvmu i := by
    intro i hi
    rw [h1]
    exact f1 i hi
  refine ⟨InputStep.ofCreates s g' pt' c op hg hc hk (h2.trans f3) (h3.trans f4), ?_, hk⟩
  intro v hv
  rw [h1]
  exact f2 v hv

/-- A new operation that is placed on the virtual MVMU `v`. -/
theorem InputStep.ofAssign (s : PState) (g' : Graph) (a : Nat → Option Nat) (c : OpClass)
    (op v : Nat) (hg : Graph.Creates s.g g' c) (hc : c.isPseudo = false)
    (ha : assignVMVMU s.pt.op2vmvmu s.g.fresh v = some a) :
    InputStep s { g := g', pt := { s.pt with op2vmvmu := a } } op
    ∧ a s.g.fresh = some v
    ∧ (∀ i, i ≠ s.g.fresh → a i = s.pt.op2vmvmu i) := by
  unfold assignVMVMU at ha
  split at ha
  · exact absurd ha (by simp)
  · simp only [Option.some.injEq] at ha
    have hk : ∀ i, i ≠ s.g.fresh → a i = s.pt.op2vmvmu i := by
      intro i hi
      rw [← ha]
      exact upd_other _ _ hi
    refine ⟨InputStep.ofCreates s g' _ c op hg hc hk rfl rfl, ?_, hk⟩
    rw [← ha]
    exact upd_same _ _ _

/-- The call `consumer->replaceOperand(op, L)` for the pseudo operation `op`. -/
theorem InputStep.ofReplaceOperand (s : PState) (c op L : Nat) (hc : c < s.g.fresh) :
    InputStep s { s with g := s.g.replaceOperand c op L } op := by
  obtain ⟨e1, e2, _, e4, e5, e6⟩ := replaceOperand_spec s.g c op L
  have eops : (s.g.replaceOperand c op L).operations = s.g.operations := by
    unfold Graph.replaceOperand
    split <;> rfl
  have erecv : (s.g.replaceOperand c op L).recvSrc = s.g.recvSrc := by
    unfold Graph.replaceOperand
    split <;> rfl
  have eio : (s.g.replaceOperand c op L).ioTile = s.g.ioTile := by
    unfold Graph.replaceOperand
    split <;> rfl
  refine ⟨⟨Nat.le_of_eq e1.symm, rfl, rfl, ?_, ?_, ?_, ?_, fun _ _ _ => rfl, ?_, ?_, ?_⟩,
    ?_, ?_, ?_⟩
  · intro i _
    show (s.g.replaceOperand c op L).cls i = _
    rw [e2]
  · intro i _
    show (s.g.replaceOperand c op L).srcs i = _
    rw [e4]
  · intro i _
    show (s.g.replaceOperand c op L).recvSrc i = _
    rw [erecv]
  · intro i _
    show (s.g.replaceOperand c op L).ioTile i = _
    rw [eio]
  · intro i hi _ _
    show i ∈ (s.g.replaceOperand c op L).operations
    rw [eops]
    exact hi
  · intro i hi
    have hi' : i ∈ (s.g.replaceOperand c op L).operations := hi
    rw [eops] at hi'
    exact Or.inl hi'
  · intro i h1 h2
    have h2' : i < (s.g.replaceOperand c op L).fresh := h2
    rw [e1] at h2'
    omega
  · intro c' j q _ hq hne
    show ((s.g.replaceOperand c op L).operands c')[j]? = some q
    by_cases hcc : c' = c
    · rw [hcc, e5, List.getElem?_map]
      rw [hcc] at hq
      rw [hq]
      simp [hne]
    · rw [e6 c' hcc]
      exact hq
  · intro q x _ hq _ hx
    show x ∈ (s.g.replaceOperand c op L).users q
    unfold Graph.replaceOperand
    split
    · simp only [Graph.addUser, Graph.removeUser]
      by_cases hqL : q = L
      · rw [hqL, upd_same, upd_other _ _ (fun e => hq (hqL.trans e))]
        rw [hqL] at hx
        exact mem_setInsert.mpr (Or.inr hx)
      · rw [upd_other _ _ hqL, upd_other _ _ hq]
        exact hx
    · exact hx
  · intro hlt q hq x hx
    have hx' : x ∈ (s.g.replaceOperand c op L).users q := hx
    have hq' : q < (s.g.replaceOperand c op L).fresh := hq
    show x < (s.g.replaceOperand c op L).fresh
    rw [e1] at hq' ⊢
    unfold Graph.replaceOperand at hx'
    split at hx'
    · simp only [Graph.addUser, Graph.removeUser] at hx'
      by_cases hqL : q = L
      · rw [hqL, upd_same] at hx'
        rw [hqL] at hq'
        rcases mem_setInsert.mp hx' with h | h
        · rw [h]
          exact hc
        · by_cases hLo : L = op
          · rw [hLo, upd_same] at h
            rw [hLo] at hq'
            exact hlt op hq' x (mem_setErase.mp h).1
          · rw [upd_other _ _ hLo] at h
            exact hlt L hq' x h
      · rw [upd_other _ _ hqL] at hx'
        by_cases hqo : q = op
        · rw [hqo, upd_same] at hx'
          rw [hqo] at hq'
          exact hlt op hq' x (mem_setErase.mp hx').1
        · rw [upd_other _ _ hqo] at hx'
          exact hlt q hq' x hx'
    · exact hlt q hq' x hx'

/-- The call `producer->removeUser(op)` for the pseudo operation `op`. -/
theorem InputStep.ofRemoveUser (s : PState) (producer op : Nat) :
    InputStep s { s with g := s.g.removeUser producer op } op := by
  refine ⟨⟨Nat.le_refl _, rfl, rfl, fun _ _ => rfl, fun _ _ => rfl, fun _ _ => rfl,
    fun _ _ => rfl, fun _ _ _ => rfl, fun _ h _ _ => h, fun _ h => Or.inl h, ?_⟩,
    fun _ _ _ _ h _ => h, ?_, ?_⟩
  · intro i h1 h2
    have h2' : i < s.g.fresh := h2
    omega
  · intro q x _ _ hxo hx
    show x ∈ (s.g.removeUser producer op).users q
    simp only [Graph.removeUser]
    by_cases hq : q = producer
    · rw [hq, upd_same]
      rw [hq] at hx
      exact mem_setErase.mpr ⟨hx, hxo⟩
    · rw [upd_other _ _ hq]
      exact hx
  · intro hlt q hq' x hx
    have hx' : x ∈ (s.g.removeUser producer op).users q := hx
    have hq'' : q < s.g.fresh := hq'
    show x < s.g.fresh
    simp only [Graph.removeUser] at hx'
    by_cases hq : q = producer
    · rw [hq, upd_same] at hx'
      rw [hq] at hq''
      exact hlt producer hq'' x (mem_setErase.mp hx').1
    · rw [upd_other _ _ hq] at hx'
      exact hlt q hq'' x hx'

/-- The call `unlink(op)` for the pseudo operation `op`. -/
theorem InputStep.ofUnlink (s : PState) (op : Nat) (hop : (s.g.cls op).isPseudo = true) :
    InputStep s (s.unlink op) op := by
  refine ⟨⟨Nat.le_refl _, rfl, rfl, fun _ _ => rfl, fun _ _ => rfl, fun _ _ => rfl,
    fun _ _ => rfl, ?_, ?_, ?_, ?_⟩, fun _ _ _ _ h _ => h, fun _ _ _ _ _ h => h,
    fun h => h⟩
  · intro i _ hp
    have hne : i ≠ op := by
      intro e
      rw [e, hop] at hp
      exact absurd hp (by simp)
    show upd s.pt.op2vmvmu op none i = _
    exact upd_other _ _ hne
  · intro i hi _ hp
    have hne : i ≠ op := by
      intro e
      rw [e, hop] at hp
      exact absurd hp (by simp)
    show i ∈ setErase s.g.operations op
    exact mem_setErase.mpr ⟨hi, hne⟩
  · intro i hi
    have hi' : i ∈ setErase s.g.operations op := hi
    exact Or.inl (mem_setErase.mp hi').1
  · intro i h1 h2
    have h2' : i < s.g.fresh := h2
    omega
theorem upd_upd_apply {α : Type} (f : Nat → Nat → α) (a b : Nat) (x : α) (s v : Nat) :
    upd f a (upd (f a) b x) s v = if s = a ∧ v = b then x else f s v := by
  by_cases hs : s = a
  · rw [hs, upd_same]
    by_cases hv : v = b
    · rw [hv, upd_same]
      simp
    · rw [upd_other _ _ hv]
      simp [hv]
  · rw [upd_other _ _ hs]
    simp [hs]

/-- The local maps stay sound when an operation that is no WriteInput is created. -/
theorem InputMaps.create {lo : Nat} {l : InputLoop} {s' : PState} {c : OpClass}
    (h : InputMaps lo l) (hf : InputFrame l.st s') (hg : Graph.Creates l.st.g s'.g c)
    (hc : c ≠ OpClass.WriteInputOperation) : InputMaps lo { l with st := s' } := by
  refine h.mapsCarried hf ?_
  intro i h1 h2
  rw [hg.fresh] at h2
  have : i = l.st.g.fresh := by omega
  rw [this, hg.cls_new]
  exact hc

theorem InputMaps.setRecv {lo : Nat} {l : InputLoop} {src vt R : Nat} (h : InputMaps lo l)
    (hR : RecvEntry lo l.st src vt R) :
    InputMaps lo { l with recvs := upd l.recvs src (upd (l.recvs src) vt (some R)) } := by
  refine ⟨h.inputs, ?_, h.loads, h.unique⟩
  intro s v R' hR'
  simp only [upd_upd_apply] at hR'
  split at hR'
  · rename_i hsv
    simp only [Option.some.injEq] at hR'
    rw [hsv.1, hsv.2, ← hR']
    exact hR
  · exact h.recvs s v R' hR'

theorem InputMaps.setLoad {lo : Nat} {l : InputLoop} {src vc L : Nat} (h : InputMaps lo l)
    (hL : LoadEntry lo l.st src vc L) :
    InputMaps lo { l with loads := upd l.loads src (upd (l.loads src) vc (some L)) } := by
  refine ⟨h.inputs, h.recvs, ?_, h.unique⟩
  intro s v L' hL'
  simp only [upd_upd_apply] at hL'
  split at hL'
  · rename_i hsv
    simp only [Option.some.injEq] at hL'
    rw [hsv.1, hsv.2, ← hL']
    exact hL
  · exact h.loads s v L' hL'

/-- The creation of the WriteInput of an external tile in `insertInputAndOutput`. -/
theorem InputMaps.newInput (lo p src len : Nat) (l : InputLoop) (a : Nat → Option Nat)
    (hm : InputMaps lo l) (hlo : lo ≤ l.st.g.fresh) (hnone : l.inputs src = none)
    (ha : assignVMVMU l.st.pt.op2vmvmu (l.st.g.newWriteInput src len).1 0 = some a) :
    InputStep l.st
      (PState.mk (l.st.g.newWriteInput src len).2 { l.st.pt with op2vmvmu := a }) p
    ∧ InputMaps lo { l with
        st := PState.mk (l.st.g.newWriteInput src len).2 { l.st.pt with op2vmvmu := a }
        inputs := upd l.inputs src (some (l.st.g.newWriteInput src len).1) }
    ∧ (∀ i, i < l.st.g.fresh → a i = l.st.pt.op2vmvmu i) := by
  obtain ⟨e1, hg, hio⟩ := Graph.newWriteInput_creates l.st.g src len
  rw [e1] at ha ⊢
  obtain ⟨hstep, hnew, hk⟩ := InputStep.ofAssign l.st (l.st.g.newWriteInput src len).2 a
    OpClass.WriteInputOperation p 0 hg rfl ha
  refine ⟨hstep, ?_, fun i hi => hk i (Nat.ne_of_lt hi)⟩
  have hW : InputEntry lo
      (PState.mk (l.st.g.newWriteInput src len).2 { l.st.pt with op2vmvmu := a })
      src l.st.g.fresh := by
    refine ⟨hlo, ?_, ?_, hg.cls_new, hio, hnew⟩
    · show l.st.g.fresh < (l.st.g.newWriteInput src len).2.fresh
      rw [hg.fresh]
      exact Nat.lt_succ_self _
    · show l.st.g.fresh ∈ (l.st.g.newWriteInput src len).2.operations
      rw [hg.operations]
      exact mem_setInsert.mpr (Or.inl rfl)
  refine ⟨?_, fun s v R hR => (hm.recvs s v R hR).recvCarried hstep.frame,
    fun s v L hL => (hm.loads s v L hL).loadCarried hstep.frame, ?_⟩
  · intro s W hW'
    have hW'' : upd l.inputs src (some l.st.g.fresh) s = some W := hW'
    by_cases hs : s = src
    · rw [hs, upd_same] at hW''
      simp only [Option.some.injEq] at hW''
      rw [hs, ← hW'']
      exact hW
    · rw [upd_other _ _ hs] at hW''
      exact (hm.inputs s W hW'').inputCarried hstep.frame
  · intro W h1 h2 h3
    have h2' : W < (l.st.g.newWriteInput src len).2.fresh := h2
    have h3' : (l.st.g.newWriteInput src len).2.cls W = OpClass.WriteInputOperation := h3
    show upd l.inputs src (some l.st.g.fresh) ((l.st.g.newWriteInput src len).2.ioTile W)
      = some W
    rw [hg.fresh] at h2'
    by_cases hlt : W < l.st.g.fresh
    · have hne : W ≠ l.st.g.fresh := Nat.ne_of_lt hlt
      rw [hg.cls W hne] at h3'
      rw [hg.ioTile W hne]
      have := hm.unique W h1 hlt h3'
      have hs : l.st.g.ioTile W ≠ src := by
        intro e
        rw [e, hnone] at this
        exact absurd this (by simp)
      rw [upd_other _ _ hs]
      exact this
    · have : W = l.st.g.fresh := by omega
      rw [this, hio, upd_same]
/-- The creation of the Send of a WriteInput and of its Receive on the virtual tile of a
consumer in `insertInputAndOutput`. -/
theorem InputMaps.newInputChannel (lo p src vt c W n1 n2 : Nat) (l : InputLoop)
    (pt1 pt2 : Partitioner) (r2 : Nat × Graph)
    (hm : InputMaps lo l) (hlo : lo ≤ l.st.g.fresh) (hc : c < l.st.g.fresh)
    (hvt : l.st.pt.getVTile c = some vt) (hW : InputEntry lo l.st src W)
    (hS : l.st.pt.cloneAssignment W (l.st.g.newSend W).1 = some pt1)
    (hR : (l.st.g.newSend W).2.newReceive (l.st.g.newSend W).1 = some r2)
    (hC : Partitioner.cloneAssignment { pt1 with numSends := n1 } c r2.1 = some pt2) :
    InputStep l.st (PState.mk r2.2 { pt2 with numReceives := n2 }) p
    ∧ InputMaps lo { l with
        st := PState.mk r2.2 { pt2 with numReceives := n2 }
        recvs := upd l.recvs src (upd (l.recvs src) vt (some r2.1)) }
    ∧ (∀ i, i < l.st.g.fresh →
        (PState.mk r2.2 { pt2 with numReceives := n2 }).pt.op2vmvmu i = l.st.pt.op2vmvmu i) := by
  obtain ⟨e1, hg1, hsrc⟩ := Graph.newRead_creates l.st.g OpClass.SendOperation W
  have e1' : (l.st.g.newSend W).1 = l.st.g.fresh := e1
  have hg1' : Graph.Creates l.st.g (l.st.g.newSend W).2 OpClass.SendOperation := hg1
  have hsrc' : (l.st.g.newSend W).2.srcs l.st.g.fresh = [W] := hsrc
  rw [e1'] at hS hR
  obtain ⟨st1, _, k1⟩ := InputStep.ofClone l.st (l.st.g.newSend W).2 pt1
    { pt1 with numSends := n1 } OpClass.SendOperation p W hg1' rfl hS rfl rfl rfl
  obtain ⟨e2, hg2, hrs⟩ := Graph.newReceive_creates _ _ _ hR
  rw [e2] at hC ⊢
  obtain ⟨st2, c2, k2⟩ := InputStep.ofClone
    (PState.mk (l.st.g.newSend W).2 { pt1 with numSends := n1 }) r2.2 pt2
    { pt2 with numReceives := n2 } OpClass.ReceiveOperation p c hg2 rfl hC rfl rfl rfl
  have hstep := st1.stepAndThen st2
  have hcne : c ≠ l.st.g.fresh := Nat.ne_of_lt hc
  have hk : ∀ i, i < l.st.g.fresh → pt2.op2vmvmu i = l.st.pt.op2vmvmu i := by
    intro i hi
    have h1 : i ≠ (l.st.g.newSend W).2.fresh := by
      rw [hg1'.fresh]
      omega
    exact (k2 i h1).trans (k1 i (Nat.ne_of_lt hi))
  refine ⟨hstep, ?_, hk⟩
  have hm1 : InputMaps lo { l with
      st := PState.mk (l.st.g.newSend W).2 { pt1 with numSends := n1 } } :=
    InputMaps.create hm st1.frame hg1' (by intro e; cases e)
  have hm2 : InputMaps lo { l with st := PState.mk r2.2 { pt2 with numReceives := n2 } } :=
    @InputMaps.create lo
      { l with st := PState.mk (l.st.g.newSend W).2 { pt1 with numSends := n1 } }
      (PState.mk r2.2 { pt2 with numReceives := n2 }) OpClass.ReceiveOperation
      hm1 st2.frame hg2 (by intro e; cases e)
  refine InputMaps.setRecv hm2 ?_
  obtain ⟨v, hv⟩ := Partitioner.getVTile_assigned _ _ _ hvt
  have hfr1 : (l.st.g.newSend W).2.fresh = l.st.g.fresh + 1 := hg1'.fresh
  have hSne : l.st.g.fresh ≠ (l.st.g.newSend W).2.fresh := by
    rw [hfr1]
    omega
  refine ⟨?_, ?_, ?_, hg2.cls_new, ?_, l.st.g.fresh, W, hrs, hlo, ?_, ?_, ?_, ?_, hW.inputCarried hstep.frame⟩
  · show lo ≤ (l.st.g.newSend W).2.fresh
    rw [hfr1]
    exact Nat.le_succ_of_le hlo
  · show (l.st.g.newSend W).2.fresh < r2.2.fresh
    rw [hg2.fresh]
    exact Nat.lt_succ_self _
  · show (l.st.g.newSend W).2.fresh ∈ r2.2.operations
    rw [hg2.operations]
    exact mem_setInsert.mpr (Or.inl rfl)
  · show Partitioner.getVTile { pt2 with numReceives := n2 } (l.st.g.newSend W).2.fresh
      = some vt
    rw [← hvt]
    refine Partitioner.getVTile_congr _ _ _ _ ?_ hstep.frame.vcore hstep.frame.vtile
    show pt2.op2vmvmu (l.st.g.newSend W).2.fresh = l.st.pt.op2vmvmu c
    rw [hv]
    exact c2 v (by
      show pt1.op2vmvmu c = some v
      rw [k1 c hcne]
      exact hv)
  · show l.st.g.fresh < r2.2.fresh
    rw [hg2.fresh, hfr1]
    omega
  · show l.st.g.fresh ∈ r2.2.operations
    rw [hg2.operations, hg1'.operations]
    exact mem_setInsert.mpr (Or.inr (mem_setInsert.mpr (Or.inl rfl)))
  · show r2.2.cls l.st.g.fresh = OpClass.SendOperation
    rw [hg2.cls _ hSne]
    exact hg1'.cls_new
  · show r2.2.srcs l.st.g.fresh = [W]
    rw [hg2.srcs _ hSne]
    exact hsrc'

/-- The creation of the Load of a Receive on the virtual core of a consumer in
`insertInputAndOutput`. -/
theorem InputMaps.newLoad (lo p src vc vt c R n : Nat) (l : InputLoop) (pt1 : Partitioner)
    (hm : InputMaps lo l) (hlo : lo ≤ l.st.g.fresh)
    (hvc : l.st.pt.getVCore c = some vc) (hvt : l.st.pt.vcore2vtile[vc]? = some vt)
    (hR : RecvEntry lo l.st src vt R)
    (hL : l.st.pt.cloneAssignment c (l.st.g.newLoad R).1 = some pt1) :
    InputStep l.st (PState.mk (l.st.g.newLoad R).2 { pt1 with numLoads := n }) p
    ∧ InputMaps lo { l with
        st := PState.mk (l.st.g.newLoad R).2 { pt1 with numLoads := n }
        loads := upd l.loads src (upd (l.loads src) vc (some (l.st.g.newLoad R).1)) }
    ∧ (∀ i, i < l.st.g.fresh → pt1.op2vmvmu i = l.st.pt.op2vmvmu i) := by
  obtain ⟨e1, hg1, hsrc⟩ := Graph.newRead_creates l.st.g OpClass.LoadOperation R
  have e1' : (l.st.g.newLoad R).1 = l.st.g.fresh := e1
  have hg1' : Graph.Creates l.st.g (l.st.g.newLoad R).2 OpClass.LoadOperation := hg1
  have hsrc' : (l.st.g.newLoad R).2.srcs l.st.g.fresh = [R] := hsrc
  rw [e1'] at hL ⊢
  obtain ⟨st1, c1, k1⟩ := InputStep.ofClone l.st (l.st.g.newLoad R).2 pt1
    { pt1 with numLoads := n } OpClass.LoadOperation p c hg1' rfl hL rfl rfl rfl
  refine ⟨st1, ?_, fun i hi => k1 i (Nat.ne_of_lt hi)⟩
  have hm1 : InputMaps lo { l with
      st := PState.mk (l.st.g.newLoad R).2 { pt1 with numLoads := n } } :=
    InputMaps.create hm st1.frame hg1' (by intro e; cases e)
  refine InputMaps.setLoad hm1 ?_
  have hv : ∃ v, l.st.pt.op2vmvmu c = some v := by
    unfold Partitioner.getVCore Partitioner.getVMVMU at hvc
    cases hv : l.st.pt.op2vmvmu c with
    | none => rw [hv] at hvc; exact absurd hvc (by simp)
    | some v => exact ⟨v, rfl⟩
  obtain ⟨v, hv⟩ := hv
  refine ⟨hlo, ?_, ?_, hg1'.cls_new, ?_, R, vt, hsrc', ?_, hR.recvCarried st1.frame⟩
  · show l.st.g.fresh < (l.st.g.newLoad R).2.fresh
    rw [hg1'.fresh]
    exact Nat.lt_succ_self _
  · show l.st.g.fresh ∈ (l.st.g.newLoad R).2.operations
    rw [hg1'.operations]
    exact mem_setInsert.mpr (Or.inl rfl)
  · show Partitioner.getVCore { pt1 with numLoads := n } l.st.g.fresh = some vc
    rw [← hvc]
    refine Partitioner.getVCore_congr _ _ _ _ ?_ st1.frame.vcore
    show pt1.op2vmvmu l.st.g.fresh = l.st.pt.op2vmvmu c
    rw [hv]
    exact c1 v hv
  · show pt1.vcore2vtile[vc]? = some vt
    have : pt1.vcore2vtile = l.st.pt.vcore2vtile := st1.frame.vtile
    rw [this]
    exact hvt
theorem InputReach.reachUnchanged {lo : Nat} (p : Nat) {l : InputLoop} (hm : InputMaps lo l) :
    InputReach lo p l l :=
  ⟨InputStep.stepUnchanged _ _, hm, fun _ _ => rfl, fun _ _ _ h => h⟩

theorem InputReach.reachAndThen {lo p : Nat} {l1 l2 l3 : InputLoop} (h1 : InputReach lo p l1 l2)
    (h2 : InputReach lo p l2 l3) : InputReach lo p l1 l3 :=
  ⟨h1.step.stepAndThen h2.step, h2.maps,
    fun i hi => (h2.assign i (Nat.lt_of_lt_of_le hi h1.step.frame.fresh_le)).trans
      (h1.assign i hi),
    fun s v L h => h2.loads s v L (h1.loads s v L h)⟩

theorem InputReach.reach_getVCore {lo p : Nat} {l0 l : InputLoop} (h : InputReach lo p l0 l)
    (i : Nat) (hi : i < l0.st.g.fresh) : l.st.pt.getVCore i = l0.st.pt.getVCore i :=
  Partitioner.getVCore_congr _ _ _ _ (h.assign i hi) h.step.frame.vcore

theorem InputReach.reach_getVTile {lo p : Nat} {l0 l : InputLoop} (h : InputReach lo p l0 l)
    (i : Nat) (hi : i < l0.st.g.fresh) : l.st.pt.getVTile i = l0.st.pt.getVTile i :=
  Partitioner.getVTile_congr _ _ _ _ (h.assign i hi) h.step.frame.vcore h.step.frame.vtile

/-- The lookup of the WriteInput of an external tile, which is created when absent. -/
theorem ensureInput (lo p src len : Nat) (l : InputLoop) (r : InputLoop × Nat)
    (hm : InputMaps lo l) (hlo : lo ≤ l.st.g.fresh)
    (h : (match l.inputs src with
      | some input => some (l, input)
      | none =>
        let r := l.st.g.newWriteInput src len
        (assignVMVMU l.st.pt.op2vmvmu r.1 0).map fun (a : Nat → Option Nat) =>
          ({ l with st := { g := r.2, pt := { l.st.pt with op2vmvmu := a } }
                    inputs := upd l.inputs src (some r.1) }, r.1)) = some r) :
    InputReach lo p l r.1 ∧ InputEntry lo r.1.st src r.2 ∧ r.1.loads = l.loads := by
  cases hI : l.inputs src with
  | some W =>
    rw [hI] at h
    simp only [Option.some.injEq] at h
    rw [← h]
    exact ⟨InputReach.reachUnchanged p hm, hm.inputs src W hI, rfl⟩
  | none =>
    rw [hI] at h
    simp only [Option.map_eq_some'] at h
    obtain ⟨a, ha, hr⟩ := h
    obtain ⟨h1, h2, h3⟩ := InputMaps.newInput lo p src len l a hm hlo hI ha
    rw [← hr]
    exact ⟨⟨h1, h2, h3, fun _ _ _ h => h⟩, h2.inputs src _ (upd_same _ _ _), rfl⟩
/-- The lookup of the Receive of an external tile on a virtual tile, which is created with
its Send when absent. -/
theorem ensureRecv (lo pseudoInput src vt consumer : Nat) (l : InputLoop)
    (r : InputLoop × Nat) (hm : InputMaps lo l) (hlo : lo ≤ l.st.g.fresh)
    (hc : consumer < l.st.g.fresh) (hvt : l.st.pt.getVTile consumer = some vt)
    (h : (match l.recvs src vt with
        | some recv => some (l, recv)
        | none =>
          (match l.inputs src with
            | some input => some (l, input)
            | none =>
              let r := l.st.g.newWriteInput src (l.st.g.length pseudoInput)
              (assignVMVMU l.st.pt.op2vmvmu r.1 0).map fun (a : Nat → Option Nat) =>
                ({ l with st := { g := r.2, pt := { l.st.pt with op2vmvmu := a } }
                          inputs := upd l.inputs src (some r.1) }, r.1)).bind
          fun (p : InputLoop × Nat) =>
          let r := p.1.st.g.newSend p.2
          (p.1.st.pt.cloneAssignment p.2 r.1).bind fun (pt : Partitioner) =>
          let pt := { pt with numSends := (pt.numSends + r.2.length r.1) % UINT_MOD }
          (r.2.newReceive r.1).bind fun (r2 : Nat × Graph) =>
          (pt.cloneAssignment consumer r2.1).map fun (pt : Partitioner) =>
            ({ p.1 with
                st := { g := r2.2, pt := { pt with
                  numReceives := (pt.numReceives + r2.2.length r2.1) % UINT_MOD } }
                recvs := upd p.1.recvs src (upd (p.1.recvs src) vt (some r2.1)) }, r2.1))
      = some r) :
    InputReach lo pseudoInput l r.1 ∧ RecvEntry lo r.1.st src vt r.2
    ∧ r.1.loads = l.loads := by
  cases hI : l.recvs src vt with
  | some R =>
    rw [hI] at h
    simp only [Option.some.injEq] at h
    rw [← h]
    exact ⟨InputReach.reachUnchanged pseudoInput hm, hm.recvs src vt R hI, rfl⟩
  | none =>
    rw [hI] at h
    simp only [Option.bind_eq_some, Option.map_eq_some'] at h
    obtain ⟨p, hp, pt1, hS, r2, hR, pt2, hC, hr⟩ := h
    obtain ⟨a1, a2, a3⟩ := ensureInput lo pseudoInput src _ l p hm hlo hp
    have hlo1 : lo ≤ p.1.st.g.fresh := Nat.le_trans hlo a1.step.frame.fresh_le
    have hc1 : consumer < p.1.st.g.fresh := Nat.lt_of_lt_of_le hc a1.step.frame.fresh_le
    have hvt1 : p.1.st.pt.getVTile consumer = some vt := by
      rw [a1.reach_getVTile consumer hc]
      exact hvt
    obtain ⟨b1, b2, b3⟩ := InputMaps.newInputChannel lo pseudoInput src vt consumer p.2 _
      ((pt2.numReceives + r2.2.length r2.1) % UINT_MOD) p.1 pt1 pt2 r2 a1.maps hlo1 hc1 hvt1
      a2 hS hR hC
    rw [← hr]
    refine ⟨a1.reachAndThen ⟨b1, b2, b3, fun _ _ _ h => h⟩, ?_, a3⟩
    exact b2.recvs src vt _ (by
      show upd p.1.recvs src (upd (p.1.recvs src) vt (some r2.1)) src vt = some r2.1
      rw [upd_same, upd_same])
theorem getVTile_of_getVCore (pt : Partitioner) (c vc vt : Nat)
    (h1 : pt.getVCore c = some vc) (h2 : pt.getVTile c = some vt) :
    pt.vcore2vtile[vc]? = some vt := by
  unfold Partitioner.getVTile at h2
  rw [h1] at h2
  exact h2

/-- One iteration of the loop over the users of a pseudo input in `insertInputAndOutput`:
the local maps stay sound and the virtual core of the consumer has a Load of the tile. -/
theorem insertInputUser_reach (lo pseudoInput src consumer : Nat) (l l' : InputLoop)
    (hm : InputMaps lo l) (hlo : lo ≤ l.st.g.fresh) (hc : consumer < l.st.g.fresh)
    (h : insertInputUser pseudoInput src l consumer = some l') :
    InputReach lo pseudoInput l l'
    ∧ ∃ vc L, l.st.pt.getVCore consumer = some vc ∧ l'.loads src vc = some L := by
  unfold insertInputUser at h
  simp only [Option.bind_eq_some] at h
  obtain ⟨vc, hvc, p, hp, h⟩ := h
  simp only [Option.some.injEq] at h
  have key : InputReach lo pseudoInput l p.1 ∧ p.1.loads src vc = some p.2 := by
    cases hI : l.loads src vc with
    | some L =>
      rw [hI] at hp
      simp only [Option.some.injEq] at hp
      rw [← hp]
      exact ⟨InputReach.reachUnchanged pseudoInput hm, hI⟩
    | none =>
      rw [hI] at hp
      simp only [Option.bind_eq_some, Option.map_eq_some'] at hp
      obtain ⟨vt, hvt, q, hq, pt1, hL, hr⟩ := hp
      obtain ⟨a1, a2, a3⟩ := ensureRecv lo pseudoInput src vt consumer l q hm hlo hc hvt hq
      have hlo1 : lo ≤ q.1.st.g.fresh := Nat.le_trans hlo a1.step.frame.fresh_le
      have hvc1 : q.1.st.pt.getVCore consumer = some vc := by
        rw [a1.reach_getVCore consumer hc]
        exact hvc
      have hvt1 : q.1.st.pt.vcore2vtile[vc]? = some vt := by
        have : q.1.st.pt.vcore2vtile = l.st.pt.vcore2vtile := a1.step.frame.vtile
        rw [this]
        exact getVTile_of_getVCore _ _ _ _ hvc hvt
      obtain ⟨b1, b2, b3⟩ := InputMaps.newLoad lo pseudoInput src vc vt consumer q.2
        ((pt1.numLoads + (q.1.st.g.newLoad q.2).2.length (q.1.st.g.newLoad q.2).1) % UINT_MOD)
        q.1 pt1 a1.maps hlo1 hvc1 hvt1 a2 hL
      rw [← hr]
      refine ⟨a1.reachAndThen ⟨b1, b2, b3, ?_⟩, ?_⟩
      · intro s v L hL'
        show upd q.1.loads src (upd (q.1.loads src) vc (some _)) s v = some L
        rw [upd_upd_apply]
        split
        · rename_i hsv
          rw [hsv.1, hsv.2] at hL'
          have hL'' : q.1.loads src vc = some L := hL'
          rw [a3, hI] at hL''
          exact absurd hL'' (by simp)
        · exact hL'
      · show upd q.1.loads src (upd (q.1.loads src) vc (some _)) src vc = some _
        rw [upd_same, upd_same]
  obtain ⟨k1, k2⟩ := key
  have hc1 : consumer < p.1.st.g.fresh := Nat.lt_of_lt_of_le hc k1.step.frame.fresh_le
  have hrep := InputStep.ofReplaceOperand p.1.st consumer pseudoInput p.2 hc1
  rw [← h]
  refine ⟨k1.reachAndThen ⟨hrep, ?_, fun _ _ => rfl, fun _ _ _ h => h⟩, vc, p.2, hvc, k2⟩
  refine k1.maps.mapsCarried hrep.frame ?_
  intro i h1 h2
  have h2' : i < (p.1.st.g.replaceOperand consumer pseudoInput p.2).fresh := h2
  rw [(replaceOperand_spec _ _ _ _).1] at h2'
  omega
theorem InputQuiet.quietUnchanged (s : PState) (op : Nat) : InputQuiet s s op :=
  ⟨InputStep.stepUnchanged s op, fun _ h1 h2 => absurd h2 (Nat.not_lt.mpr h1)⟩

theorem InputQuiet.quietAndThen {s1 s2 s3 : PState} {op : Nat} (h1 : InputQuiet s1 s2 op)
    (h2 : InputQuiet s2 s3 op) : InputQuiet s1 s3 op := by
  refine ⟨h1.step.stepAndThen h2.step, ?_⟩
  intro i hi hi'
  by_cases hlt : i < s2.g.fresh
  · rw [h2.step.frame.cls i hlt]
    exact h1.quiet i hi hlt
  · exact h2.quiet i (Nat.le_of_not_lt hlt) hi'

theorem InputQuiet.quietOfCreates {s s' : PState} {op : Nat} {c : OpClass}
    (h : InputStep s s' op) (hg : Graph.Creates s.g s'.g c)
    (hc : c ≠ OpClass.WriteInputOperation) : InputQuiet s s' op := by
  refine ⟨h, ?_⟩
  intro i h1 h2
  rw [hg.fresh] at h2
  have : i = s.g.fresh := by omega
  rw [this, hg.cls_new]
  exact hc

theorem InputQuiet.ofSame {s s' : PState} {op : Nat}
    (h : InputStep s s' op) (hf : s'.g.fresh = s.g.fresh) : InputQuiet s s' op := by
  refine ⟨h, ?_⟩
  intro i h1 h2
  rw [hf] at h2
  omega

theorem InputMaps.quiet {lo : Nat} {l : InputLoop} {s' : PState} {op : Nat}
    (h : InputMaps lo l) (hq : InputQuiet l.st s' op) : InputMaps lo { l with st := s' } :=
  h.mapsCarried hq.step.frame hq.quiet

/-- One iteration of the loop over the operands of a pseudo output in
`insertInputAndOutput`. -/
theorem insertOutputOperand_quiet (pseudoOutput dst : Nat) (st st' : PState) (o : Nat)
    (h : insertOutputOperand pseudoOutput dst st o = some st') :
    InputQuiet st st' pseudoOutput := by
  unfold insertOutputOperand at h
  cases hprod : (st.g.operands pseudoOutput)[o]? with
  | none =>
    rw [hprod] at h
    exact absurd h (by simp)
  | some producer =>
    rw [hprod] at h
    simp only [Option.bind_eq_some, Option.map_eq_some'] at h
    obtain ⟨pt1, h1, pt2, h2, r3, h3, a, ha, r4, h4, pt4, h5, hst⟩ := h
    generalize (pt1.numStores + (st.g.newStore producer).2.length
      (st.g.newStore producer).1) % UINT_MOD = n1 at h2
    generalize (pt2.numSends +
      ((st.g.newStore producer).2.newSend (st.g.newStore producer).1).2.length
        ((st.g.newStore producer).2.newSend (st.g.newStore producer).1).1) % UINT_MOD
      = n2 at h5
    generalize (pt2.numReceives + r3.2.length r3.1) % UINT_MOD = n3 at h5
    obtain ⟨e1, g1, _⟩ := Graph.newConsumer_creates st.g OpClass.StoreOperation producer
    have e1' : (st.g.newStore producer).1 = st.g.fresh := e1
    have g1' : Graph.Creates st.g (st.g.newStore producer).2 OpClass.StoreOperation := g1
    rw [e1'] at h1
    obtain ⟨s1, _, _⟩ := InputStep.ofClone st (st.g.newStore producer).2 pt1
      { pt1 with numStores := n1 }
      OpClass.StoreOperation pseudoOutput pseudoOutput g1' rfl h1 rfl rfl rfl
    have q1 := InputQuiet.quietOfCreates s1 g1' (by intro e; cases e)
    obtain ⟨e2, g2, _⟩ := Graph.newRead_creates (st.g.newStore producer).2
      OpClass.SendOperation (st.g.newStore producer).1
    have e2' : ((st.g.newStore producer).2.newSend (st.g.newStore producer).1).1
        = (st.g.newStore producer).2.fresh := e2
    have g2' : Graph.Creates (st.g.newStore producer).2
        ((st.g.newStore producer).2.newSend (st.g.newStore producer).1).2
        OpClass.SendOperation := g2
    rw [e2'] at h2 h3
    obtain ⟨s2, _, _⟩ := InputStep.ofClone
      (PState.mk (st.g.newStore producer).2 { pt1 with numStores := n1 })
      ((st.g.newStore producer).2.newSend (st.g.newStore producer).1).2 pt2
      { pt2 with numSends := n2, numReceives := n3 }
      OpClass.SendOperation pseudoOutput pseudoOutput g2' rfl h2 rfl rfl rfl
    have q2 := InputQuiet.quietOfCreates s2 g2' (by intro e; cases e)
    obtain ⟨e3, g3, _⟩ := Graph.newReceive_creates _ _ _ h3
    rw [e3] at ha h4 h5
    obtain ⟨s3, _, _⟩ := InputStep.ofAssign
      (PState.mk ((st.g.newStore producer).2.newSend (st.g.newStore producer).1).2
        { pt2 with numSends := n2, numReceives := n3 })
      r3.2 a OpClass.ReceiveOperation pseudoOutput 1 g3 rfl ha
    have q3 := InputQuiet.quietOfCreates s3 g3 (by intro e; cases e)
    obtain ⟨e4, g4⟩ := Graph.newReadOutput_creates _ _ _ _ _ h4
    rw [e4] at h5
    obtain ⟨s4, _, _⟩ := InputStep.ofClone
      (PState.mk r3.2 { pt2 with op2vmvmu := a, numSends := n2, numReceives := n3 })
      r4.2 pt4 pt4 OpClass.ReadOutputOperation pseudoOutput
      ((st.g.newStore producer).2.newSend (st.g.newStore producer).1).2.fresh g4 rfl h5
      rfl rfl rfl
    have q4 := InputQuiet.quietOfCreates s4 g4 (by intro e; cases e)
    have s5 := InputStep.ofRemoveUser (PState.mk r4.2 pt4) producer pseudoOutput
    have q5 := InputQuiet.ofSame s5 rfl
    rw [← hst]
    exact (((q1.quietAndThen q2).quietAndThen q3).quietAndThen q4).quietAndThen q5
/-- The invariant of `insertInputAndOutput` advances over the operation `op` when the
visit of `op` has the effects listed in the hypotheses. -/
theorem InputPass.advance (st : PState) (l l' : InputLoop) (done : List Nat) (op : Nat)
    (hop : op < st.g.fresh)
    (hu : ∀ q, q < st.g.fresh → ∀ x, x ∈ st.g.users q → x < st.g.fresh)
    (h : InputPass st l done)
    (hframe : InputFrame l.st l'.st) (hmaps : InputMaps st.g.fresh l')
    (hlt : ∀ q, q < l'.st.g.fresh → ∀ x, x ∈ l'.st.g.users q → x < l'.st.g.fresh)
    (hkeep : ∀ p c, p < st.g.fresh → p ≠ op → (st.g.cls c).isPseudo = false →
      c ∈ st.g.users p → c ∈ l.st.g.users p → c ∈ l'.st.g.users p)
    (hloads : ∀ s v L, l.loads s v = some L → l'.loads s v = some L)
    (hrouted : st.g.cls op = OpClass.PseudoInputOperation →
      ∀ c, c ∈ l.st.g.users op → ∃ vc L, l.st.pt.getVCore c = some vc
        ∧ l'.loads (l.st.g.ioTile op) vc = some L)
    (hremoved : (st.g.cls op).isPseudo = true → op ∉ l'.st.g.operations) :
    InputPass st l' (done ++ [op]) := by
  refine ⟨h.frame.frameAndThen hframe, hmaps, hlt, ?_, ?_, ?_⟩
  · intro p hp hpl c hc hcp
    have hp1 : p ∉ done := fun e => hp (List.mem_append_left _ e)
    have hp2 : p ≠ op := fun e => hp (by rw [e]; simp)
    exact hkeep p c hpl hp2 hcp hc (h.pending p hp1 hpl c hc hcp)
  · intro p hp hcls c hc hcp
    by_cases hpd : p ∈ done
    · obtain ⟨vc, L, h1, h2⟩ := h.routed p hpd hcls c hc hcp
      exact ⟨vc, L, h1, hloads _ _ _ h2⟩
    · have hpo : p = op := by
        rcases List.mem_append.mp hp with h1 | h1
        · exact absurd h1 hpd
        · exact List.mem_singleton.mp h1
      rw [hpo] at hcls hc hpd ⊢
      have hcl : c < st.g.fresh := hu op hop c hc
      obtain ⟨vc, L, h1, h2⟩ := hrouted hcls c (h.pending op hpd hop c hc hcp)
      rw [h.frame.frame_getVCore c hcl hcp] at h1
      rw [h.frame.ioTile op hop] at h2
      exact ⟨vc, L, h1, h2⟩
  · intro p hp hpl hps
    by_cases hpo : p = op
    · rw [hpo]
      rw [hpo] at hps
      exact hremoved hps
    · have hpd : p ∈ done := by
        rcases List.mem_append.mp hp with h1 | h1
        · exact h1
        · exact absurd (List.mem_singleton.mp h1) hpo
      intro hmem
      rcases hframe.ops_new p hmem with h1 | ⟨h1, _⟩
      · exact h.removed p hpd hpl hps h1
      · have := h.frame.fresh_le
        omega

theorem OpClass.isPseudo_iff (c : OpClass) :
    c.isPseudo = true
      ↔ c = OpClass.PseudoInputOperation ∨ c = OpClass.PseudoOutputOperation := by
  cases c <;> simp [OpClass.isPseudo]

/-- The loop over the users of a pseudo input in `insertInputAndOutput`. -/
theorem insertInputUsers_reach (lo op src : Nat) (l : InputLoop) (hm : InputMaps lo l)
    (hlo : lo ≤ l.st.g.fresh) (users : List Nat) (hlt : ∀ c, c ∈ users → c < l.st.g.fresh)
    (l' : InputLoop) (h : users.foldlM (insertInputUser op src) l = some l') :
    InputReach lo op l l'
    ∧ ∀ c, c ∈ users → ∃ vc L, l.st.pt.getVCore c = some vc ∧ l'.loads src vc = some L := by
  have := foldlM_prefix_invariant (insertInputUser op src)
    (fun (b : InputLoop) (seen : List Nat) => InputReach lo op l b
      ∧ ∀ c, c ∈ seen → ∃ vc L, l.st.pt.getVCore c = some vc ∧ b.loads src vc = some L)
    users [] l l' ⟨InputReach.reachUnchanged op hm, fun c hc => absurd hc (by simp)⟩ ?_ h
  · simpa using this
  · intro b seen a b1 ha hinv hstep
    obtain ⟨r, hseen⟩ := hinv
    have hab : a < b.st.g.fresh := Nat.lt_of_lt_of_le (hlt a ha) r.step.frame.fresh_le
    obtain ⟨r1, vc, L, h1, h2⟩ := insertInputUser_reach lo op src a b b1 r.maps
      (Nat.le_trans hlo r.step.frame.fresh_le) hab hstep
    refine ⟨r.reachAndThen r1, ?_⟩
    intro c hc
    rcases List.mem_append.mp hc with hc1 | hc1
    · obtain ⟨vc', L', k1, k2⟩ := hseen c hc1
      exact ⟨vc', L', k1, r1.loads _ _ _ k2⟩
    · rw [List.mem_singleton.mp hc1]
      rw [r.reach_getVCore a (hlt a ha)] at h1
      exact ⟨vc, L, h1, h2⟩
/-- The visit of one operation by `insertInputAndOutput` keeps the invariant. -/
theorem InputPass.visit (st : PState) (l l' : InputLoop) (done : List Nat) (op : Nat)
    (hop : op < st.g.fresh)
    (hu : ∀ q, q < st.g.fresh → ∀ x, x ∈ st.g.users q → x < st.g.fresh)
    (h : InputPass st l done) (hv : insertInputAndOutputAt l op = some l') :
    InputPass st l' (done ++ [op]) := by
  have hopl : op < l.st.g.fresh := Nat.lt_of_lt_of_le hop h.frame.fresh_le
  have hcls : l.st.g.cls op = st.g.cls op := h.frame.cls op hop
  have hne : ∀ c, (st.g.cls c).isPseudo = false →
      (st.g.cls op).isPseudo = true → c ≠ op := by
    intro c hc hp e
    rw [e, hp] at hc
    exact absurd hc (by simp)
  unfold insertInputAndOutputAt at hv
  by_cases hin : l.st.g.cls op = OpClass.PseudoInputOperation
  · rw [if_pos hin] at hv
    simp only [Option.map_eq_some'] at hv
    obtain ⟨l1, hl1, hl'⟩ := hv
    have hps : (l.st.g.cls op).isPseudo = true := by rw [hin]; rfl
    have hps0 : (st.g.cls op).isPseudo = true := by rw [← hcls]; exact hps
    obtain ⟨r, hr⟩ := insertInputUsers_reach st.g.fresh op (l.st.g.ioTile op) l h.maps
      h.frame.fresh_le (l.st.g.users op) (fun c hc => h.users_lt op hopl c hc) l1 hl1
    have hps1 : (l1.st.g.cls op).isPseudo = true := by
      rw [r.step.frame.cls op hopl]
      exact hps
    have hun := InputStep.ofUnlink l1.st op hps1
    have hall := r.step.stepAndThen hun
    rw [← hl']
    refine InputPass.advance st l _ done op hop hu h hall.frame ?_
      (hall.users_lt h.users_lt) ?_ r.loads ?_ ?_
    · refine r.maps.mapsCarried hun.frame ?_
      intro i h1 h2
      have h2' : i < l1.st.g.fresh := h2
      omega
    · intro p c hp hpo hcp hc0 hc
      exact hall.users_keep p c (Nat.lt_of_lt_of_le hp h.frame.fresh_le) hpo
        (hne c hcp hps0) hc
    · intro _ c hc
      exact hr c hc
    · intro _ hmem
      have hmem' : op ∈ setErase l1.st.g.operations op := hmem
      exact (mem_setErase.mp hmem').2 rfl
  · rw [if_neg hin] at hv
    by_cases hout : l.st.g.cls op = OpClass.PseudoOutputOperation
    · rw [if_pos hout] at hv
      simp only [Option.map_eq_some'] at hv
      obtain ⟨s1, hs1, hl'⟩ := hv
      have hps : (l.st.g.cls op).isPseudo = true := by rw [hout]; rfl
      have hps0 : (st.g.cls op).isPseudo = true := by rw [← hcls]; exact hps
      have q : InputQuiet l.st s1 op :=
        foldlM_preserves (insertOutputOperand op (l.st.g.ioTile op))
          (fun s => InputQuiet l.st s op)
          (fun b a b' hb hstep =>
            hb.quietAndThen (insertOutputOperand_quiet op (l.st.g.ioTile op) b b' a hstep))
          _ l.st s1 (InputQuiet.quietUnchanged _ _) hs1
      have hps1 : (s1.g.cls op).isPseudo = true := by
        rw [q.step.frame.cls op hopl]
        exact hps
      have hun := InputStep.ofUnlink s1 op hps1
      have hall := q.quietAndThen (InputQuiet.ofSame hun rfl)
      rw [← hl']
      refine InputPass.advance st l _ done op hop hu h hall.step.frame (h.maps.quiet hall)
        (hall.step.users_lt h.users_lt) ?_ (fun _ _ _ h => h) ?_ ?_
      · intro p c hp hpo hcp hc0 hc
        exact hall.step.users_keep p c (Nat.lt_of_lt_of_le hp h.frame.fresh_le) hpo
          (hne c hcp hps0) hc
      · intro hc0
        rw [← hcls, hout] at hc0
        exact absurd hc0 (by intro e; cases e)
      · intro _ hmem
        have hmem' : op ∈ setErase s1.g.operations op := hmem
        exact (mem_setErase.mp hmem').2 rfl
    · rw [if_neg hout] at hv
      simp only [Option.some.injEq] at hv
      rw [← hv]
      refine InputPass.advance st l l done op hop hu h (InputFrame.frameUnchanged _) h.maps
        h.users_lt (fun _ _ _ _ _ _ h => h) (fun _ _ _ h => h) ?_ ?_
      · intro hc0
        rw [← hcls] at hc0
        exact absurd hc0 hin
      · intro hc0
        rw [← hcls] at hc0
        rcases (OpClass.isPseudo_iff _).mp hc0 with e | e
        · exact absurd e hin
        · exact absurd e hout

/-- The state that `insertInputAndOutput` returns satisfies the invariant for all the
operations. -/
theorem insertInputAndOutput_pass (st st' : PState)
    (hops : ∀ i, i ∈ st.g.operations → i < st.g.fresh)
    (hu : ∀ q, q < st.g.fresh → ∀ x, x ∈ st.g.users q → x < st.g.fresh)
    (h : insertInputAndOutput st = some st') :
    ∃ l, l.st = st' ∧ InputPass st l st.g.operations := by
  unfold insertInputAndOutput at h
  simp only [Option.map_eq_some'] at h
  obtain ⟨l, hl, hst⟩ := h
  refine ⟨l, hst, ?_⟩
  have := foldlM_prefix_invariant insertInputAndOutputAt
    (fun (b : InputLoop) (done : List Nat) => InputPass st b done)
    st.g.operations [] _ l ?_ ?_ hl
  · simpa using this
  · refine ⟨InputFrame.frameUnchanged st, ⟨?_, ?_, ?_, ?_⟩, hu, fun _ _ _ _ h _ => h,
      fun p hp => absurd hp (by simp), fun p hp => absurd hp (by simp)⟩
    · intro s W hW
      exact absurd hW (by simp)
    · intro s v R hR
      exact absurd hR (by simp)
    · intro s v L hL
      exact absurd hL (by simp)
    · intro W h1 h2 _
      have h2' : W < st.g.fresh := h2
      omega
  · intro b done a b1 ha hinv hstep
    exact InputPass.visit st b b1 done a (hops a ha) hu hinv hstep
theorem InputFrame.frameOfReplaceOperand (s : PState) (c op L : Nat) :
    InputFrame s { s with g := s.g.replaceOperand c op L } := by
  obtain ⟨e1, e2, _, e4, _, _⟩ := replaceOperand_spec s.g c op L
  have eops : (s.g.replaceOperand c op L).operations = s.g.operations := by
    unfold Graph.replaceOperand
    split <;> rfl
  have erecv : (s.g.replaceOperand c op L).recvSrc = s.g.recvSrc := by
    unfold Graph.replaceOperand
    split <;> rfl
  have eio : (s.g.replaceOperand c op L).ioTile = s.g.ioTile := by
    unfold Graph.replaceOperand
    split <;> rfl
  refine ⟨Nat.le_of_eq e1.symm, rfl, rfl, ?_, ?_, ?_, ?_, fun _ _ _ => rfl, ?_, ?_, ?_⟩
  · intro i _
    show (s.g.replaceOperand c op L).cls i = _
    rw [e2]
  · intro i _
    show (s.g.replaceOperand c op L).srcs i = _
    rw [e4]
  · intro i _
    show (s.g.replaceOperand c op L).recvSrc i = _
    rw [erecv]
  · intro i _
    show (s.g.replaceOperand c op L).ioTile i = _
    rw [eio]
  · intro i hi _ _
    show i ∈ (s.g.replaceOperand c op L).operations
    rw [eops]
    exact hi
  · intro i hi
    have hi' : i ∈ (s.g.replaceOperand c op L).operations := hi
    rw [eops] at hi'
    exact Or.inl hi'
  · intro i h1 h2
    have h2' : i < (s.g.replaceOperand c op L).fresh := h2
    rw [e1] at h2'
    omega

/-- What `insertCopies` leaves unchanged: it only creates Copies. -/
theorem copies_andThen {s1 s2 s3 : PState}
    (h1 : InputFrame s1 s2 ∧ ∀ i, s1.g.fresh ≤ i → i < s2.g.fresh →
      s2.g.cls i = OpClass.CopyOperation)
    (h2 : InputFrame s2 s3 ∧ ∀ i, s2.g.fresh ≤ i → i < s3.g.fresh →
      s3.g.cls i = OpClass.CopyOperation) :
    InputFrame s1 s3 ∧ ∀ i, s1.g.fresh ≤ i → i < s3.g.fresh →
      s3.g.cls i = OpClass.CopyOperation := by
  refine ⟨h1.1.frameAndThen h2.1, ?_⟩
  intro i hi hi'
  by_cases hlt : i < s2.g.fresh
  · rw [h2.1.cls i hlt]
    exact h1.2 i hi hlt
  · exact h2.2 i (Nat.le_of_not_lt hlt) hi'

theorem insertCopiesOperand_frame (consumer : Nat) (st st' : PState) (o : Nat)
    (h : insertCopiesOperand consumer st o = some st') :
    InputFrame st st' ∧ ∀ i, st.g.fresh ≤ i → i < st'.g.fresh →
      st'.g.cls i = OpClass.CopyOperation := by
  unfold insertCopiesOperand at h
  cases hp : (st.g.operands consumer)[o]? with
  | none =>
    rw [hp] at h
    exact absurd h (by simp)
  | some producer =>
    rw [hp] at h
    simp only at h
    split at h
    · simp only [Option.map_eq_some'] at h
      obtain ⟨pt, hpt, hst⟩ := h
      obtain ⟨e1, g1, _⟩ := Graph.newConsumer_creates st.g OpClass.CopyOperation producer
      have e1' : (st.g.newCopy producer).1 = st.g.fresh := e1
      have g1' : Graph.Creates st.g (st.g.newCopy producer).2 OpClass.CopyOperation := g1
      rw [e1'] at hpt
      obtain ⟨s1, _, _⟩ := InputStep.ofClone st (st.g.newCopy producer).2 pt pt
        OpClass.CopyOperation producer consumer g1' rfl hpt rfl rfl rfl
      have f2 := InputFrame.frameOfReplaceOperand (PState.mk (st.g.newCopy producer).2 pt)
        consumer producer (st.g.newCopy producer).1
      rw [← hst]
      refine copies_andThen ⟨s1.frame, ?_⟩ ⟨f2, ?_⟩
      · intro i h1 h2
        have h2' : i < (st.g.newCopy producer).2.fresh := h2
        rw [g1'.fresh] at h2'
        have : i = st.g.fresh := by omega
        rw [this]
        exact g1'.cls_new
      · intro i h1 h2
        have h1' : (st.g.newCopy producer).2.fresh ≤ i := h1
        have h2' : i < ((st.g.newCopy producer).2.replaceOperand consumer producer
          (st.g.newCopy producer).1).fresh := h2
        rw [(replaceOperand_spec _ _ _ _).1] at h2'
        omega
    · simp only [Option.some.injEq] at h
      rw [← h]
      exact ⟨InputFrame.frameUnchanged st, fun i h1 h2 => absurd h2 (Nat.not_lt.mpr h1)⟩

theorem insertCopies_frame (st st' : PState) (h : insertCopies st = some st') :
    InputFrame st st' ∧ ∀ i, st.g.fresh ≤ i → i < st'.g.fresh →
      st'.g.cls i = OpClass.CopyOperation := by
  unfold insertCopies at h
  refine foldlM_preserves insertCopiesAt
    (fun s => InputFrame st s ∧ ∀ i, st.g.fresh ≤ i → i < s.g.fresh →
      s.g.cls i = OpClass.CopyOperation) ?_ _ st st'
    ⟨InputFrame.frameUnchanged st, fun i h1 h2 => absurd h2 (Nat.not_lt.mpr h1)⟩ h
  intro b a b' hb hstep
  refine copies_andThen hb ?_
  unfold insertCopiesAt at hstep
  split at hstep
  · simp only at hstep
    split at hstep
    · exact foldlM_preserves (insertCopiesOperand a)
        (fun s => InputFrame b s ∧ ∀ i, b.g.fresh ≤ i → i < s.g.fresh →
          s.g.cls i = OpClass.CopyOperation)
        (fun x o x' hx hs => copies_andThen hx (insertCopiesOperand_frame a x x' o hs))
        _ b b' ⟨InputFrame.frameUnchanged b, fun i h1 h2 => absurd h2 (Nat.not_lt.mpr h1)⟩ hstep
    · simp only [Option.some.injEq] at hstep
      rw [← hstep]
      exact ⟨InputFrame.frameUnchanged b, fun i h1 h2 => absurd h2 (Nat.not_lt.mpr h1)⟩
  · simp only [Option.some.injEq] at hstep
    rw [← hstep]
    exact ⟨InputFrame.frameUnchanged b, fun i h1 h2 => absurd h2 (Nat.not_lt.mpr h1)⟩
/-- C23 (amended): let `st` be the state that `insertInputAndOutput` receives, with the
operations and the users of the operations in use below the next fresh address, no
WriteInput among the operations, and virtual MVMU 0 on virtual core 0 on virtual tile 0.
When `insertInputAndOutput` returns `s1` and `insertCopies` returns `s2`, then in `s2` no
PseudoInput remains; two WriteInputs of the same external tile are equal, and every
WriteInput lies on virtual tile 0; and for every PseudoInput `p` of `st` and every user `c`
of `p` in `st` that is no pseudo operation, the virtual core `vc` of `c` has a Load `L`
created by the pass (`LoadEntry`): `L` lies on `vc`, its source is a Receive on the virtual
tile of `vc`, the Send of that Receive reads a WriteInput of the external tile of `p`, and
that WriteInput lies on virtual MVMU 0. The users of `p` in `st` are those that
`insertLoadsAndStores` left: a consumer on another core than `p` reads a Load of a Store
and is no user of `p` any more. -/
theorem input_pass_builds_write_input_chains_for_remaining_users (st s1 s2 : PState)
    (hops : ∀ i, i ∈ st.g.operations → i < st.g.fresh)
    (hu : ∀ q, q < st.g.fresh → ∀ x, x ∈ st.g.users q → x < st.g.fresh)
    (hwi : ∀ i, i ∈ st.g.operations → st.g.cls i ≠ OpClass.WriteInputOperation)
    (hcore : st.pt.vmvmu2vcore[0]? = some 0) (htile : st.pt.vcore2vtile[0]? = some 0)
    (h1 : insertInputAndOutput st = some s1) (h2 : insertCopies s1 = some s2) :
    (∀ i, i ∈ s2.g.operations → s2.g.cls i ≠ OpClass.PseudoInputOperation)
    ∧ (∀ W W', W ∈ s2.g.operations → W' ∈ s2.g.operations →
        s2.g.cls W = OpClass.WriteInputOperation →
        s2.g.cls W' = OpClass.WriteInputOperation →
        s2.g.ioTile W = s2.g.ioTile W' → W = W')
    ∧ (∀ W, W ∈ s2.g.operations → s2.g.cls W = OpClass.WriteInputOperation →
        s2.pt.getVTile W = some 0)
    ∧ ∀ p c, p ∈ st.g.operations → st.g.cls p = OpClass.PseudoInputOperation →
        c ∈ st.g.users p → (st.g.cls c).isPseudo = false →
        ∃ vc L, st.pt.getVCore c = some vc
          ∧ LoadEntry st.g.fresh s2 (st.g.ioTile p) vc L := by
  obtain ⟨l, hl, P⟩ := insertInputAndOutput_pass st s1 hops hu h1
  obtain ⟨F2, C2⟩ := insertCopies_frame s1 s2 h2
  subst hl
  have key : ∀ W, W ∈ s2.g.operations → s2.g.cls W = OpClass.WriteInputOperation →
      l.inputs (s2.g.ioTile W) = some W := by
    intro W hW hc
    have hW1 : W ∈ l.st.g.operations ∧ W < l.st.g.fresh := by
      rcases F2.ops_new W hW with a | ⟨a, b⟩
      · rcases P.frame.ops_new W a with a0 | ⟨_, b0⟩
        · exact ⟨a, Nat.lt_of_lt_of_le (hops W a0) P.frame.fresh_le⟩
        · exact ⟨a, b0⟩
      · rw [C2 W a b] at hc
        exact absurd hc (by intro e; cases e)
    have hc1 : l.st.g.cls W = OpClass.WriteInputOperation := by
      rw [← F2.cls W hW1.2]
      exact hc
    have hlo : st.g.fresh ≤ W := by
      rcases P.frame.ops_new W hW1.1 with a0 | ⟨a0, _⟩
      · have := hwi W a0
        rw [← P.frame.cls W (hops W a0)] at this
        exact absurd hc1 this
      · exact a0
    rw [F2.ioTile W hW1.2]
    exact P.maps.unique W hlo hW1.2 hc1
  refine ⟨?_, ?_, ?_, ?_⟩
  · intro i hi hc
    rcases F2.ops_new i hi with a | ⟨a, b⟩
    · rcases P.frame.ops_new i a with a0 | ⟨a0, b0⟩
      · have hlt := hops i a0
        have hc0 : st.g.cls i = OpClass.PseudoInputOperation := by
          rw [← P.frame.cls i hlt, ← F2.cls i (Nat.lt_of_lt_of_le hlt P.frame.fresh_le)]
          exact hc
        exact P.removed i a0 hlt (by rw [hc0]; rfl) a
      · have := P.frame.fresh_cls i a0 b0
        rw [← F2.cls i b0, hc] at this
        exact absurd this (by simp [OpClass.isPseudo])
    · rw [C2 i a b] at hc
      exact absurd hc (by intro e; cases e)
  · intro W W' hW hW' hc hc' hio
    have k1 := key W hW hc
    have k2 := key W' hW' hc'
    rw [hio, k2] at k1
    exact (Option.some.inj k1).symm
  · intro W hW hc
    have hE := (P.maps.inputs _ W (key W hW hc)).inputCarried F2
    obtain ⟨_, _, _, _, _, e6⟩ := hE
    unfold Partitioner.getVTile Partitioner.getVCore Partitioner.getVMVMU
    rw [e6, F2.vcore, P.frame.vcore, F2.vtile, P.frame.vtile]
    simp only [Option.some_bind]
    rw [hcore]
    simp only [Option.some_bind]
    exact htile
  · intro p c hp hcls hc hcp
    obtain ⟨vc, L, k1, k2⟩ := P.routed p hp hcls c hc hcp
    exact ⟨vc, L, k1, (P.maps.loads _ vc L k2).loadCarried F2⟩
set_option maxRecDepth 100000 in
theorem input_pass_builds_write_input_chains_for_remaining_users_witness :
    ∃ st0 sa st s1 s2,
      insertLoadsAndStores st0 = some sa
      ∧ insertSendsAndRecives sa = some st
      ∧ insertInputAndOutput st = some s1
      ∧ insertCopies s1 = some s2
      ∧ Partitioner.create sevenRowGraph 64 ModelType.INFERENCE [0, 1, 2, 3, 4, 5, 6]
        sevenRowUsers = some s2
      ∧ (∀ i, i ∈ st.g.operations → i < st.g.fresh)
      ∧ (∀ q, q < st.g.fresh → ∀ x, x ∈ st.g.users q → x < st.g.fresh)
      ∧ (∀ i, i ∈ st.g.operations → st.g.cls i ≠ OpClass.WriteInputOperation)
      ∧ st.pt.vmvmu2vcore[0]? = some 0 ∧ st.pt.vcore2vtile[0]? = some 0
      ∧ 1 ∈ st.g.operations ∧ st.g.cls 1 = OpClass.PseudoInputOperation
      ∧ st.g.users 1 = [8, 16]
      ∧ (∀ i, i ∈ s2.g.operations → s2.g.cls i ≠ OpClass.PseudoInputOperation)
      ∧ (∀ W W', W ∈ s2.g.operations → W' ∈ s2.g.operations →
          s2.g.cls W = OpClass.WriteInputOperation →
          s2.g.cls W' = OpClass.WriteInputOperation →
          s2.g.ioTile W = s2.g.ioTile W' → W = W')
      ∧ (∀ W, W ∈ s2.g.operations → s2.g.cls W = OpClass.WriteInputOperation →
          s2.pt.getVTile W = some 0)
      ∧ ∀ p c, p ∈ st.g.operations → st.g.cls p = OpClass.PseudoInputOperation →
          c ∈ st.g.users p → (st.g.cls c).isPseudo = false →
          ∃ vc L, st.pt.getVCore c = some vc
            ∧ LoadEntry st.g.fresh s2 (st.g.ioTile p) vc L := by
  have h : ((assignVMVMUsAndSpreadAffinity sevenRowGraph 64 ModelType.INFERENCE
      [0, 1, 2, 3, 4, 5, 6] sevenRowUsers).bind fun (a : Assignment) =>
    (rollUpInVMVMUOrder ModelType.INFERENCE a.nVMVMUs).bind fun t =>
    (insertLoadsAndStores { g := sevenRowGraph, pt :=
      { nVMVMUs := t.nVMVMUs, nVCores := t.nVCores, nVTiles := t.nVTiles,
        op2vmvmu := a.op2vmvmu, mat2vmvmu := a.mat2vmvmu,
        vmvmu2vcore := t.vmvmu2vcore, vcore2vtile := t.vcore2vtile,
        numLoads := 0, numStores := 0, numSends := 0, numReceives := 0 } }).bind fun sa =>
    (insertSendsAndRecives sa).bind fun st =>
    if (∀ i, i ∈ st.g.operations → i < st.g.fresh)
      ∧ (∀ q, q < st.g.fresh → ∀ x, x ∈ st.g.users q → x < st.g.fresh)
      ∧ (∀ i, i ∈ st.g.operations → st.g.cls i ≠ OpClass.WriteInputOperation)
      ∧ st.pt.vmvmu2vcore[0]? = some 0 ∧ st.pt.vcore2vtile[0]? = some 0
      ∧ 1 ∈ st.g.operations ∧ st.g.cls 1 = OpClass.PseudoInputOperation
      ∧ st.g.users 1 = [8, 16]
    then (insertInputAndOutput st).bind fun s1 => (insertCopies s1).map fun s2 => (st, s1, s2)
    else none).isSome = true := by decide
  obtain ⟨r, hr⟩ := Option.isSome_iff_exists.mp h
  simp only [Option.bind_eq_some] at hr
  obtain ⟨a, ha, t, ht, sa, hsa, st, hst, hif⟩ := hr
  split at hif
  · rename_i hP
    simp only [Option.bind_eq_some, Option.map_eq_some'] at hif
    obtain ⟨s1, hs1, s2, hs2, _⟩ := hif
    obtain ⟨p1, p2, p3, p4, p5, p6, p7, p8⟩ := hP
    refine ⟨_, sa, st, s1, s2, hsa, hst, hs1, hs2, ?_, p1, p2, p3, p4, p5, p6, p7, p8,
      input_pass_builds_write_input_chains_for_remaining_users st s1 s2 p1 p2 p3 p4 p5
        hs1 hs2⟩
    unfold Partitioner.create legalize
    simp only [ha, ht, hsa, hst, hs1, hs2, Option.some_bind]
  · exact absurd hif (by simp)
set_option maxRecDepth 100000 in
/-- C23, counterexample: for `y = M * x` with seven matrix tiles in one column, the MVM 2
reads the pseudo input 1 and lies on virtual core 2, while the pseudo input lies on
virtual core 3. After the Partitioner no Load on virtual core 2 has a Receive as its
source: the MVM 2 reads a Copy of the Load 17 on core 2, whose source is the Store 16 that
`insertLoadsAndStores` put on core 3, and only that Store reads the input through the
Load 21 of the Receive 20 of the Send 19 of the WriteInput 18. -/
theorem consumer_on_another_core_reads_the_input_through_a_store :
    ∃ st, Partitioner.create sevenRowGraph 64 ModelType.INFERENCE [0, 1, 2, 3, 4, 5, 6]
        sevenRowUsers = some st
      ∧ sevenRowGraph.cls 1 = OpClass.PseudoInputOperation
      ∧ 2 ∈ sevenRowGraph.users 1
      ∧ st.pt.getVCore 2 = some 2
      ∧ (∀ L, L ∈ st.g.operations → st.g.cls L = OpClass.LoadOperation →
          st.pt.getVCore L = some 2 →
          ∀ R, R ∈ st.g.srcs L → st.g.cls R ≠ OpClass.ReceiveOperation)
      ∧ st.g.operands 2 = [50] ∧ st.g.cls 50 = OpClass.CopyOperation
      ∧ st.g.operands 50 = [17] ∧ st.g.cls 17 = OpClass.LoadOperation
      ∧ st.pt.getVCore 17 = some 2
      ∧ st.g.srcs 17 = [16] ∧ st.g.cls 16 = OpClass.StoreOperation
      ∧ st.pt.getVCore 16 = some 3
      ∧ st.g.operands 16 = [21] ∧ st.g.cls 21 = OpClass.LoadOperation
      ∧ st.g.srcs 21 = [20] ∧ st.g.cls 20 = OpClass.ReceiveOperation
      ∧ st.g.recvSrc 20 = some 19 ∧ st.g.cls 19 = OpClass.SendOperation
      ∧ st.g.srcs 19 = [18] ∧ st.g.cls 18 = OpClass.WriteInputOperation := by
  have h : ((Partitioner.create sevenRowGraph 64 ModelType.INFERENCE [0, 1, 2, 3, 4, 5, 6]
      sevenRowUsers).bind fun st =>
      if sevenRowGraph.cls 1 = OpClass.PseudoInputOperation
        ∧ 2 ∈ sevenRowGraph.users 1
        ∧ st.pt.getVCore 2 = some 2
        ∧ (∀ L, L ∈ st.g.operations → st.g.cls L = OpClass.LoadOperation →
            st.pt.getVCore L = some 2 →
            ∀ R, R ∈ st.g.srcs L → st.g.cls R ≠ OpClass.ReceiveOperation)
        ∧ st.g.operands 2 = [50] ∧ st.g.cls 50 = OpClass.CopyOperation
        ∧ st.g.operands 50 = [17] ∧ st.g.cls 17 = OpClass.LoadOperation
        ∧ st.pt.getVCore 17 = some 2
        ∧ st.g.srcs 17 = [16] ∧ st.g.cls 16 = OpClass.StoreOperation
        ∧ st.pt.getVCore 16 = some 3
        ∧ st.g.operands 16 = [21] ∧ st.g.cls 21 = OpClass.LoadOperation
        ∧ st.g.srcs 21 = [20] ∧ st.g.cls 20 = OpClass.ReceiveOperation
        ∧ st.g.recvSrc 20 = some 19 ∧ st.g.cls 19 = OpClass.SendOperation
        ∧ st.g.srcs 19 = [18] ∧ st.g.cls 18 = OpClass.WriteInputOperation
      then some st else none).isSome = true := by decide
  obtain ⟨st, hst⟩ := Option.isSome_iff_exists.mp h
  simp only [Option.bind_eq_some] at hst
  obtain ⟨s, hs, hif⟩ := hst
  split at hif
  · rename_i hP
    simp only [Option.some.injEq] at hif
    exact ⟨s, hs, hP⟩
  · exact absurd hif (by simp)

theorem coreAffinityGraph_users (g : Graph) (pt : Partitioner) (op : Nat) (vp : Nat)
    (hvp : pt.getVCore op = some vp) :
    ∀ (l : List Nat) (a a' : AffinityGraph),
      l.foldlM (fun (a : AffinityGraph) (_ : Nat) =>
        (pt.getVCore op).bind fun vc =>
        let consumerNodeID := (vc + UINT_MOD - 2) % UINT_MOD
        if (vp + UINT_MOD - 2) % UINT_MOD ≠ consumerNodeID then
          a.addEdge ((vp + UINT_MOD - 2) % UINT_MOD) consumerNodeID (g.length op)
        else some a) a = some a' → a' = a := by
  intro l
  induction l with
  | nil =>
    intro a a' h
    simp only [List.foldlM_nil, Option.pure_def, Option.some.injEq] at h
    exact h.symm
  | cons x l ih =>
    intro a a' h
    simp only [List.foldlM_cons, Option.bind_eq_bind, Option.bind_eq_some] at h
    obtain ⟨b1, h1, h2⟩ := h
    obtain ⟨vc, hvc, h1⟩ := h1
    rw [hvp] at hvc
    have e : vp = vc := Option.some.inj hvc
    subst e
    have hne : ¬ ((vp + UINT_MOD - 2) % UINT_MOD ≠ (vp + UINT_MOD - 2) % UINT_MOD) :=
      fun hc => hc (Eq.refl _)
    rw [if_neg hne] at h1
    rw [← Option.some.inj h1] at h2
    exact ih a a' h2
/-- C31 (the code diverges): the graph-building loop of `assignVTilesWithKaHIP` computes
the node of the consumer from the producer, so the test `producerNodeID != consumerNodeID`
never holds: whenever the loop returns, every adjacency list is empty and the edge count is
0. For `sevenRowGraph` with the virtual MVMUs 2 to 7 on core 2 and 8 on core 3, the pseudo
input 1 (length 128, on core 3) has the user 2 on core 2, a register data edge that crosses
the cores 3 and 2 (nodes 1 and 0), and the graph has no edge; the sibling loop of
`assignVCoresWithKaHIP`, which reads the node of the consumer, records the six crossing
edges of the virtual MVMUs. -/
theorem core_affinity_graph_records_no_crossing_edge :
    (∀ g pt a, coreAffinityGraph g pt = some a →
      a = AffinityGraph.mk 0 (List.replicate ((pt.nVCores + UINT_MOD - 2) % UINT_MOD) []))
    ∧ (sevenRowTables.map fun pt =>
        ((sevenRowGraph.cls 1).isProducer, decide (2 ∈ sevenRowGraph.users 1),
          pt.getVCore 1, pt.getVCore 2, sevenRowGraph.length 1))
      = some (true, true, some 3, some 2, 128)
    ∧ (sevenRowTables.bind fun pt =>
        (coreAffinityGraph sevenRowGraph pt).map fun a => (a.numEdges, a.edges))
      = some (0, [[], []])
    ∧ (sevenRowTables.bind fun pt =>
        (mvmuAffinityGraph sevenRowGraph pt).map fun a => (a.numEdges, a.edges))
      = some (6, [[(6, 128)], [(6, 128)], [(6, 128)], [(6, 128)], [(6, 128)], [(6, 128)],
          [(0, 128), (1, 128), (2, 128), (3, 128), (4, 128), (5, 128)]]) := by
  refine ⟨?_, by decide, by decide, by decide⟩
  intro g pt a h
  have key : ∀ (l : List Nat) (b b' : AffinityGraph),
      l.foldlM (fun (a : AffinityGraph) op =>
        if (g.cls op).isProducer then
          (pt.getVCore op).bind fun vp =>
          let producerNodeID := (vp + UINT_MOD - 2) % UINT_MOD
          (g.users op).foldlM (fun (a : AffinityGraph) _ =>
            (pt.getVCore op).bind fun vc =>
            let consumerNodeID := (vc + UINT_MOD - 2) % UINT_MOD
            if producerNodeID ≠ consumerNodeID then
              a.addEdge producerNodeID consumerNodeID (g.length op)
            else some a) a
        else some a) b = some b' → b' = b := by
    intro l
    induction l with
    | nil =>
      intro b b' hb
      simp only [List.foldlM_nil, Option.pure_def, Option.some.injEq] at hb
      exact hb.symm
    | cons op l ih =>
      intro b b' hb
      simp only [List.foldlM_cons, Option.bind_eq_bind, Option.bind_eq_some] at hb
      obtain ⟨b1, h1, h2⟩ := hb
      have e1 : b1 = b := by
        split at h1
        · simp only [Option.bind_eq_some] at h1
          obtain ⟨vp, hvp, hfold⟩ := h1
          exact coreAffinityGraph_users g pt op vp hvp _ _ _ hfold
        · simp only [Option.some.injEq] at h1
          exact h1.symm
      rw [← e1]
      exact ih b1 b' h2
  have := key g.operations
    (AffinityGraph.mk 0 (List.replicate ((pt.nVCores + UINT_MOD - 2) % UINT_MOD) [])) a h
  exact this
/-! ## The first-fit allocator -/

/-- The inner loop of `allocate` stops at the first used bit of the window. -/
theorem CoreAllocator.scan_first (a : CoreAllocator) :
    ∀ n j k, a.scan n j = some k →
      j ≤ k ∧ k ≤ j + n ∧ (∀ m, j ≤ m → m < k → a.memPool m = false)
      ∧ (k < j + n → a.memPool k = true) := by
  intro n
  induction n with
  | zero =>
    intro j k h
    unfold CoreAllocator.scan at h
    simp only [Option.some.injEq] at h
    rw [← h]
    exact ⟨Nat.le_refl _, Nat.le_refl _, fun m h1 h2 => absurd h2 (Nat.not_lt.mpr h1),
      fun h1 => absurd h1 (Nat.lt_irrefl _)⟩
  | succ n ih =>
    intro j k h
    unfold CoreAllocator.scan at h
    split at h
    · split at h
      · rename_i hb
        simp only [Option.some.injEq] at h
        rw [← h]
        exact ⟨Nat.le_refl _, by omega, fun m h1 h2 => absurd h2 (Nat.not_lt.mpr h1),
          fun _ => hb⟩
      · rename_i hb
        obtain ⟨h1, h2, h3, h4⟩ := ih (j + 1) k h
        refine ⟨by omega, by omega, ?_, fun hk => h4 (by omega)⟩
        intro m hm1 hm2
        by_cases hmj : m = j
        · rw [hmj]
          simpa using hb
        · exact h3 m (by omega) hm2
    · exact absurd h (by simp)

/-- The outer loop of `allocate` from index `i` on returns the first window from `i` on that
fits, and `OUT_OF_REGISTERS` with the pool unchanged when no window from `i` on fits. -/
theorem CoreAllocator.allocateFrom_first (a : CoreAllocator) (size : Nat)
    (h1 : 1 ≤ size) (h2 : size ≤ 1536) :
    ∀ fuel i, 1 ≤ fuel → 1536 - size + 1 < i + fuel →
      (∀ i0, i ≤ i0 → a.fits size i0 → (∀ i', i ≤ i' → i' < i0 → ¬ a.fits size i') →
        a.allocateFrom size (1536 - size) fuel i
          = some (REGISTER_FILE_START_ADDRESS + i0, a.setRange i0 (i0 + size)))
      ∧ ((∀ i0, i ≤ i0 → ¬ a.fits size i0) →
        a.allocateFrom size (1536 - size) fuel i = some (OUT_OF_REGISTERS, a)) := by
  have hreg : REGISTER_FILE_SIZE = 1536 := by decide
  have hper : REGISTERS_PER_CORE = 3072 := by decide
  have hstart : REGISTER_FILE_START_ADDRESS = 1536 := by decide
  intro fuel
  induction fuel with
  | zero =>
    intro i h0 _
    omega
  | succ fuel ih =>
    intro i _ hi
    unfold CoreAllocator.allocateFrom
    by_cases hle : i ≤ 1536 - size
    · rw [if_pos hle]
      obtain ⟨k, hk, _, _⟩ := a.scan_spec size i (by rw [hper]; omega)
      obtain ⟨k1, k2, k3, k4⟩ := a.scan_first size i k hk
      rw [hk]
      simp only [Option.some_bind]
      by_cases hki : k = i + size
      · rw [if_pos hki]
        have hfit : a.fits size i := by
          refine ⟨by rw [hreg]; omega, ?_⟩
          intro m hm1 hm2
          exact k3 m hm1 (by omega)
        constructor
        · intro i0 hi0 _ hmin
          have : i0 = i := by
            by_contra hne
            exact hmin i (Nat.le_refl _) (by omega) hfit
          rw [this, hki]
          have e : (REGISTER_FILE_START_ADDRESS + i) % UINT_MOD
              = REGISTER_FILE_START_ADDRESS + i := by
            rw [hstart]
            unfold UINT_MOD
            omega
          rw [e]
        · intro hno
          exact absurd hfit (hno i (Nat.le_refl _))
      · rw [if_neg hki]
        have hkb : a.memPool k = true := k4 (by omega)
        have hblock : ∀ i', i ≤ i' → i' ≤ k → ¬ a.fits size i' := by
          intro i' h3 h4 hf
          have := hf.2 k h4 (by omega)
          rw [hkb] at this
          exact absurd this (by simp)
        obtain ⟨ih1, ih2⟩ := ih (k + 1) (by omega) (by omega)
        constructor
        · intro i0 hi0 hf hmin
          have hk0 : k + 1 ≤ i0 := by
            by_contra hc
            exact hblock i0 hi0 (by omega) hf
          exact ih1 i0 hk0 hf (fun i' h3 h4 => hmin i' (by omega) h4)
        · intro hno
          exact ih2 (fun i0 h3 => hno i0 (by omega))
    · rw [if_neg hle]
      constructor
      · intro i0 hi0 hf _
        have := hf.1
        rw [hreg] at this
        omega
      · intro _
        rfl
theorem CoreAllocator.free_setRange (a : CoreAllocator) (size i : Nat)
    (hf : a.fits size i) :
    (a.setRange i (i + size)).free (REGISTER_FILE_START_ADDRESS + i) size = some a := by
  have hreg : REGISTER_FILE_SIZE = 1536 := by decide
  have hper : REGISTERS_PER_CORE = 3072 := by decide
  have hstart : REGISTER_FILE_START_ADDRESS = 1536 := by decide
  have hi := hf.1
  rw [hreg] at hi
  have hpos : (REGISTER_FILE_START_ADDRESS + i + UINT_MOD - REGISTER_FILE_START_ADDRESS)
      % UINT_MOD = i := by
    rw [hstart]
    unfold UINT_MOD
    omega
  unfold CoreAllocator.free
  simp only [hpos]
  have hall : (List.range size).all (fun k => decide (i + k < REGISTERS_PER_CORE)
      && (a.setRange i (i + size)).memPool (i + k)) = true := by
    rw [List.all_eq_true]
    intro k hk
    have hk' : k < size := List.mem_range.mp hk
    have hlt : i + k < REGISTERS_PER_CORE := by
      rw [hper]
      omega
    have hset : (a.setRange i (i + size)).memPool (i + k) = true := by
      unfold CoreAllocator.setRange
      simp only
      rw [if_pos ⟨by omega, by omega⟩]
    rw [hset]
    simp [hlt]
  rw [if_pos hall]
  cases a with
  | mk pool =>
    simp only [Option.some.injEq, CoreAllocator.mk.injEq]
    funext k
    unfold CoreAllocator.setRange
    simp only
    by_cases hk : i ≤ k ∧ k < i + size
    · rw [if_pos hk]
      exact (hf.2 k hk.1 hk.2).symm
    · rw [if_neg hk, if_neg hk]

/-- C34: for every pool and every size from 1 to `REGISTER_FILE_SIZE`, `allocate` returns
a result. When `i` is the smallest index whose window of `size` registers fits (it lies
inside the general register file and all its bits are free), `allocate` returns
`REGISTER_FILE_START_ADDRESS + i`, which is not `OUT_OF_REGISTERS`, the new pool has
exactly the bits of that window set in addition, and freeing the returned register with the
same size gives back the previous pool. When no window fits, `allocate` returns
`OUT_OF_REGISTERS` and the pool is unchanged; and `OUT_OF_REGISTERS` is returned only
then. -/
theorem allocate_returns_the_first_fitting_window (a : CoreAllocator) (size : Nat)
    (h1 : 1 ≤ size) (h2 : size ≤ REGISTER_FILE_SIZE) :
    (∃ reg a', a.allocate size = some (reg, a'))
    ∧ (∀ i, a.fits size i → (∀ i', i' < i → ¬ a.fits size i') →
        a.allocate size = some (REGISTER_FILE_START_ADDRESS + i, a.setRange i (i + size))
        ∧ REGISTER_FILE_START_ADDRESS + i ≠ OUT_OF_REGISTERS
        ∧ (∀ k, (a.setRange i (i + size)).memPool k
            = if i ≤ k ∧ k < i + size then true else a.memPool k)
        ∧ (a.setRange i (i + size)).free (REGISTER_FILE_START_ADDRESS + i) size = some a)
    ∧ ((∀ i, ¬ a.fits size i) → a.allocate size = some (OUT_OF_REGISTERS, a))
    ∧ (∀ reg a', a.allocate size = some (reg, a') →
        (reg = OUT_OF_REGISTERS ↔ ∀ i, ¬ a.fits size i)) := by
  have hreg : REGISTER_FILE_SIZE = 1536 := by decide
  have hstart : REGISTER_FILE_START_ADDRESS = 1536 := by decide
  have hout : OUT_OF_REGISTERS = 3072 := by decide
  rw [hreg] at h2
  have hlast : (REGISTER_FILE_SIZE + UINT_MOD - size) % UINT_MOD = 1536 - size := by
    rw [hreg]
    unfold UINT_MOD
    omega
  obtain ⟨f1, f2⟩ := a.allocateFrom_first size h1 h2 (REGISTERS_PER_CORE + 1) 0
    (by decide) (by
      have : REGISTERS_PER_CORE = 3072 := by decide
      rw [this]
      omega)
  have hfirst : ∀ i, a.fits size i → (∀ i', i' < i → ¬ a.fits size i') →
      a.allocate size = some (REGISTER_FILE_START_ADDRESS + i, a.setRange i (i + size)) := by
    intro i hf hmin
    unfold CoreAllocator.allocate
    rw [hlast]
    exact f1 i (Nat.zero_le _) hf (fun i' _ h => hmin i' h)
  have hnone : (∀ i, ¬ a.fits size i) → a.allocate size = some (OUT_OF_REGISTERS, a) := by
    intro hno
    unfold CoreAllocator.allocate
    rw [hlast]
    exact f2 (fun i _ => hno i)
  have hne : ∀ i, a.fits size i → REGISTER_FILE_START_ADDRESS + i ≠ OUT_OF_REGISTERS := by
    intro i hf
    have := hf.1
    rw [hreg] at this
    rw [hstart, hout]
    omega
  refine ⟨?_, ?_, hnone, ?_⟩
  · by_cases hex : ∃ i, a.fits size i
    · classical
      exact ⟨_, _, hfirst (Nat.find hex) (Nat.find_spec hex)
        (fun i' h => Nat.find_min hex h)⟩
    · exact ⟨_, _, hnone (fun i hf => hex ⟨i, hf⟩)⟩
  · intro i hf hmin
    exact ⟨hfirst i hf hmin, hne i hf, fun k => rfl, a.free_setRange size i hf⟩
  · intro reg a' hr
    by_cases hex : ∃ i, a.fits size i
    · classical
      have h := hfirst (Nat.find hex) (Nat.find_spec hex) (fun i' h => Nat.find_min hex h)
      rw [hr] at h
      simp only [Option.some.injEq, Prod.mk.injEq] at h
      constructor
      · intro hreg'
        rw [h.1] at hreg'
        exact absurd hreg' (hne _ (Nat.find_spec hex))
      · intro hno
        obtain ⟨i, hf⟩ := hex
        exact absurd hf (hno i)
    · have h := hnone (fun i hf => hex ⟨i, hf⟩)
      rw [hr] at h
      simp only [Option.some.injEq, Prod.mk.injEq] at h
      exact ⟨fun _ i hf => hex ⟨i, hf⟩, fun _ => h.1⟩

/-- The pool in which only the first general register is used. -/
theorem allocate_returns_the_first_fitting_window_witness :
    (1 ≤ 128 ∧ 128 ≤ REGISTER_FILE_SIZE)
    ∧ (CoreAllocator.mk (fun k => decide (k = 0))).allocate 128
      = some (REGISTER_FILE_START_ADDRESS + 1,
          (CoreAllocator.mk (fun k => decide (k = 0))).setRange 1 (1 + 128)) := by
  refine ⟨by decide, ?_⟩
  have h := (allocate_returns_the_first_fitting_window
    (CoreAllocator.mk (fun k => decide (k = 0))) 128 (by decide) (by decide)).2.1 1
    ⟨by decide, fun k hk1 hk2 => by
      show decide (k = 0) = false
      simp
      omega⟩
    (fun i' hi' hf => by
      have hi0 : i' = 0 := by omega
      have := hf.2 0 (by omega) (by omega)
      simp at this)
  exact h.1
theorem foldlM_range_inv {β : Type} (f : β → Nat → Option β) (Inv : Nat → β → Prop) :
    ∀ (n : Nat) (b b' : β), Inv 0 b →
      (∀ k b b1, k < n → Inv k b → f b k = some b1 → Inv (k + 1) b1) →
      (List.range n).foldlM f b = some b' → Inv n b' := by
  intro n
  induction n with
  | zero =>
    intro b b' h0 _ h
    simp only [List.range_zero, List.foldlM_nil, Option.pure_def, Option.some.injEq] at h
    rw [← h]
    exact h0
  | succ n ih =>
    intro b b' h0 hstep h
    rw [List.range_succ, List.foldlM_append] at h
    simp only [Option.bind_eq_bind, Option.bind_eq_some] at h
    obtain ⟨b1, hb1, h2⟩ := h
    simp only [List.foldlM_cons, List.foldlM_nil, Option.bind_eq_bind, Option.bind_eq_some,
      Option.pure_def, Option.some.injEq] at h2
    obtain ⟨b2, hb2, e⟩ := h2
    rw [← e]
    exact hstep n b1 b2 (Nat.lt_succ_self n)
      (ih b b1 h0 (fun k b b1 hk => hstep k b b1 (Nat.lt_succ_of_lt hk)) hb1) hb2

/-- A loop that hands out to each index the running count of its key. -/
theorem counter_loop_distinct (key : Nat → Option Nat) (cap : Nat)
    (f : List Nat × List Nat → Nat → Option (List Nat × List Nat))
    (hf : ∀ s i s', f s i = some s' → ∃ k old, key i = some k ∧ s.2[k]? = some old
      ∧ old < cap ∧ s'.2 = s.2.set k (old + 1) ∧ s'.1 = s.1.set i old ∧ i < s.1.length)
    (n : Nat) (s0 s : List Nat × List Nat)
    (h : (List.range n).foldlM f s0 = some s) :
    ∀ i, i < n → ∃ k x, key i = some k ∧ s.1[i]? = some x ∧ x < cap
      ∧ ∀ j, j < n → j ≠ i → key j = some k → s.1[j]? ≠ some x := by
  have inv := foldlM_range_inv f
    (fun c s => (∀ i, i < c → ∃ k x cnt, key i = some k ∧ s.1[i]? = some x
        ∧ s.2[k]? = some cnt ∧ x < cnt ∧ x < cap)
      ∧ ∀ i j, i < c → j < c → i ≠ j → key i = key j → s.1[i]? ≠ s.1[j]?)
    n s0 s ⟨fun i hi => absurd hi (Nat.not_lt_zero i),
      fun i j hi => absurd hi (Nat.not_lt_zero i)⟩
    (by
      intro c s s1 _ hI hs
      obtain ⟨k, old, hk, hold, hcap, e2, e1, hlen⟩ := hf s c s1 hs
      have hklen : k < s.2.length := by
        rcases Nat.lt_or_ge k s.2.length with h | h
        · exact h
        · rw [List.getElem?_eq_none h] at hold
          cases hold
      have hnew : s1.1[c]? = some old := by
        rw [e1, List.getElem?_set_self hlen]
      have hprev : ∀ i, i < c → s1.1[i]? = s.1[i]? := by
        intro i hi
        rw [e1, List.getElem?_set_ne (by omega)]
      have hlow : ∀ i, i < c → key i = some k → ∃ x, s.1[i]? = some x ∧ x < old := by
        intro i hi hki
        obtain ⟨k', x, cnt, hk', hx, hcnt, hlt, _⟩ := hI.1 i hi
        rw [hki] at hk'
        simp only [Option.some.injEq] at hk'
        subst hk'
        rw [hold] at hcnt
        simp only [Option.some.injEq] at hcnt
        subst hcnt
        exact ⟨x, hx, hlt⟩
      constructor
      · intro i hi
        by_cases hic : i = c
        · subst hic
          refine ⟨k, old, old + 1, hk, hnew, ?_, Nat.lt_succ_self _, hcap⟩
          rw [e2, List.getElem?_set_self hklen]
        · have hi' : i < c := by omega
          obtain ⟨k', x, cnt, hk', hx, hcnt, hlt, hxc⟩ := hI.1 i hi'
          by_cases hkk : k' = k
          · subst hkk
            rw [hold] at hcnt
            simp only [Option.some.injEq] at hcnt
            subst hcnt
            refine ⟨k', x, old + 1, hk', ?_, ?_, Nat.lt_succ_of_lt hlt, hxc⟩
            · rw [hprev i hi']
              exact hx
            · rw [e2, List.getElem?_set_self hklen]
          · refine ⟨k', x, cnt, hk', ?_, ?_, hlt, hxc⟩
            · rw [hprev i hi']
              exact hx
            · rw [e2, List.getElem?_set_ne (fun e => hkk e.symm)]
              exact hcnt
      · intro i j hi hj hij hkey
        by_cases hic : i = c
        · subst hic
          have hj' : j < i := by omega
          rw [hk] at hkey
          obtain ⟨x, hx, hlt⟩ := hlow j hj' hkey.symm
          rw [hnew, hprev j hj', hx]
          intro e
          simp only [Option.some.injEq] at e
          omega
        · by_cases hjc : j = c
          · subst hjc
            have hi' : i < j := by omega
            rw [hk] at hkey
            obtain ⟨x, hx, hlt⟩ := hlow i hi' hkey
            rw [hnew, hprev i hi', hx]
            intro e
            simp only [Option.some.injEq] at e
            omega
          · rw [hprev i (by omega), hprev j (by omega)]
            exact hI.2 i j (by omega) (by omega) hij hkey)
    h
  intro i hi
  obtain ⟨k, x, cnt, hk, hx, _, _, hxc⟩ := inv.1 i hi
  refine ⟨k, x, hk, hx, hxc, ?_⟩
  intro j hj hji hkj e
  exact inv.2 i j hi hj (fun e => hji e.symm) (by rw [hk, hkj]) (by rw [hx, e])
theorem vecSet_some (v v' : List Nat) (i x : Nat) (h : vecSet v i x = some v') :
    i < v.length ∧ v' = v.set i x := by
  unfold vecSet at h
  split at h
  · simp only [Option.some.injEq] at h
    exact ⟨by assumption, h.symm⟩
  · cases h

theorem assignPCoresStep_counts (p : PartitionTables) (vtile2ptile : List Nat)
    (s : List Nat × List Nat) (i : Nat) (s' : List Nat × List Nat)
    (h : assignPCoresStep p vtile2ptile s i = some s') :
    ∃ k old, ((p.vcore2vtile[i]?).bind fun vTile => vtile2ptile[vTile]?) = some k
      ∧ s.2[k]? = some old ∧ old < N_CORES_PER_TILE ∧ s'.2 = s.2.set k (old + 1)
      ∧ s'.1 = s.1.set i old ∧ i < s.1.length := by
  unfold assignPCoresStep at h
  simp only [Option.bind_eq_bind, Option.bind_eq_some] at h
  obtain ⟨vTile, hvt, pTile, hpt, pCore, hpc, counters, hcnt, h⟩ := h
  split at h
  · rename_i hlt
    simp only [Option.bind_eq_some, Option.some.injEq] at h
    obtain ⟨v, hv, e⟩ := h
    have h1 := vecSet_some _ _ _ _ hcnt
    have h2 := vecSet_some _ _ _ _ hv
    have hmod : (pCore + 1) % UINT_MOD = pCore + 1 := by
      unfold N_CORES_PER_TILE at hlt
      unfold UINT_MOD
      omega
    refine ⟨pTile, pCore, ?_, hpc, hlt, ?_, ?_, h2.1⟩
    · rw [hvt]
      exact hpt
    · rw [← e, h1.2, hmod]
    · rw [← e, h2.2]
  · cases h

theorem assignPMVMUsStep_counts (modelType : ModelType) (p : PartitionTables)
    (vtile2ptile vcore2pcore : List Nat)
    (s : List Nat × List Nat) (i : Nat) (s' : List Nat × List Nat)
    (h : assignPMVMUsStep modelType p vtile2ptile vcore2pcore s i = some s') :
    ∃ k old, ((p.vmvmu2vcore[i]?).bind fun vCore =>
        (vcore2pcore[vCore]?).bind fun pCore =>
        (p.vcore2vtile[vCore]?).bind fun vTile =>
        (vtile2ptile[vTile]?).map fun pTile =>
          (pTile * N_CORES_PER_TILE + pCore) % UINT_MOD) = some k
      ∧ s.2[k]? = some old ∧ old < nMVMUSPerCore modelType ∧ s'.2 = s.2.set k (old + 1)
      ∧ s'.1 = s.1.set i old ∧ i < s.1.length := by
  unfold assignPMVMUsStep at h
  simp only [Option.bind_eq_bind, Option.bind_eq_some] at h
  obtain ⟨vCore, hvc, pCore, hpc, vTile, hvt, pTile, hpt, pMVMU, hpm, counters, hcnt, h⟩ := h
  split at h
  · rename_i hlt
    simp only [Option.bind_eq_some, Option.some.injEq] at h
    obtain ⟨v, hv, e⟩ := h
    have h1 := vecSet_some _ _ _ _ hcnt
    have h2 := vecSet_some _ _ _ _ hv
    have hmod : (pMVMU + 1) % UINT_MOD = pMVMU + 1 := by
      have := nMVMUSPerCore_cases modelType
      unfold UINT_MOD
      omega
    refine ⟨_, pMVMU, ?_, hpm, hlt, ?_, ?_, h2.1⟩
    · rw [hvc, Option.some_bind, hpc, Option.some_bind, hvt, Option.some_bind, hpt]
      rfl
    · rw [← e, h1.2, hmod]
    · rw [← e, h2.2]
  · cases h

theorem assignPTiles_some (p : PartitionTables) (v : List Nat) (h : assignPTiles p = some v) :
    v = (List.range p.nVTiles).map (fun t => t) := by
  by_cases h2 : 2 ≤ p.nVTiles
  · rw [assignPTiles_eq p h2] at h
    simp only [Option.some.injEq] at h
    exact h.symm
  · exfalso
    unfold assignPTiles at h
    simp only [Option.bind_eq_bind, Option.bind_eq_some] at h
    obtain ⟨v1, hv1, v2, hv2, _⟩ := h
    have h1 := vecSet_some _ _ _ _ hv1
    have h2' := vecSet_some _ _ _ _ hv2
    rw [h1.2, List.length_set, List.length_replicate] at h2'
    omega

/-- The tables that a completed `Placer` constructor leaves. -/
theorem Placer.create_some (modelType : ModelType) (p : PartitionTables) (P : Placer)
    (h : Placer.create modelType p = some P) :
    P.vtile2ptile = (List.range p.nVTiles).map (fun t => t)
    ∧ (∃ s, (List.range p.nVCores).foldlM (assignPCoresStep p P.vtile2ptile)
        (List.replicate p.nVCores 0, List.replicate p.nVTiles 0) = some s
        ∧ s.1 = P.vcore2pcore)
    ∧ ∃ s, (List.range p.nVMVMUs).foldlM
        (assignPMVMUsStep modelType p P.vtile2ptile P.vcore2pcore)
        (List.replicate p.nVMVMUs 0,
          List.replicate ((p.nVTiles * N_CORES_PER_TILE) % UINT_MOD) 0) = some s
        ∧ s.1 = P.vmvmu2pmvmu := by
  unfold Placer.create assignPCores assignPMVMUs at h
  simp only [Option.bind_eq_bind, Option.bind_eq_some, Option.some.injEq] at h
  obtain ⟨vt, hvt, vc, ⟨s1, hs1, e1⟩, vm, ⟨s2, hs2, e2⟩, e⟩ := h
  rw [← e]
  exact ⟨assignPTiles_some p vt hvt, ⟨s1, hs1, e1⟩, ⟨s2, hs2, e2⟩⟩
theorem Placer.mvmuOf_lookups (P : Placer) (p : PartitionTables) (v : Nat)
    (y : Nat × Nat × Nat) (h : P.mvmuOf p v = some y) :
    ∃ vCore vTile, p.vmvmu2vcore[v]? = some vCore ∧ p.vcore2vtile[vCore]? = some vTile
      ∧ P.vtile2ptile[vTile]? = some y.1 ∧ P.vcore2pcore[vCore]? = some y.2.1
      ∧ P.vmvmu2pmvmu[v]? = some y.2.2 := by
  unfold Placer.mvmuOf Placer.coreOf at h
  simp only [Option.bind_eq_some, Option.map_eq_some'] at h
  obtain ⟨vCore, hvc, c, ⟨vTile, hvt, pTile, hpt, pCore, hpc, ec⟩, pMVMU, hpm, e⟩ := h
  rw [← e, ← ec]
  exact ⟨vCore, vTile, hvc, hvt, hpt, hpc, hpm⟩

theorem Placer.tile_lookups (P : Placer) (pt : Partitioner) (tile v : Nat)
    (y : Nat × Nat × Nat) (hv : pt.getTileVMVMU tile = some v)
    (h : P.mvmuOf pt.tables v = some y) :
    P.getTilePTile pt tile = some y.1 ∧ P.getTilePCore pt tile = some y.2.1
      ∧ P.getTilePMVMU pt tile = some y.2.2 := by
  obtain ⟨vCore, vTile, hvc, hvt, hpt, hpc, hpm⟩ := P.mvmuOf_lookups pt.tables v y h
  have hvc' : pt.vmvmu2vcore[v]? = some vCore := hvc
  have hvt' : pt.vcore2vtile[vCore]? = some vTile := hvt
  unfold Placer.getTilePTile Placer.getTilePCore Placer.getTilePMVMU Partitioner.getTileVTile
    Partitioner.getTileVCore
  rw [hv]
  simp only [Option.some_bind, hvc', hvt']
  exact ⟨hpt, hpc, hpm⟩

/-- C35: for any partitioner tables (the roll-up of the row-major, column-major and random
schemes or any other, such as a KaHIP result), when the `Placer` constructor completes,
virtual tile `t` has physical tile `t`; every virtual core has a physical tile and a
physical core below `N_CORES_PER_TILE`, and two distinct virtual cores differ in the pair;
every virtual MVMU has a physical tile, core and MVMU, the MVMU index is below the number of
MVMUs per core of the model type, and two distinct virtual MVMUs differ in the triple; hence
two matrix tiles with distinct virtual MVMUs have physical lookups that differ in the tile,
the core or the MVMU. -/
theorem placer_maps_distinct_virtual_units_to_distinct_physical_units
    (modelType : ModelType) (pt : Partitioner) (P : Placer)
    (h : Placer.create modelType pt.tables = some P) :
    (∀ t, t < pt.nVTiles → P.vtile2ptile[t]? = some t)
    ∧ (∀ c1 c2, c1 < pt.nVCores → c2 < pt.nVCores → c1 ≠ c2 →
        ∃ x1 x2, P.coreOf pt.tables c1 = some x1 ∧ P.coreOf pt.tables c2 = some x2
          ∧ x1.2 < N_CORES_PER_TILE ∧ x1 ≠ x2)
    ∧ (∀ v1 v2, v1 < pt.nVMVMUs → v2 < pt.nVMVMUs → v1 ≠ v2 →
        ∃ y1 y2, P.mvmuOf pt.tables v1 = some y1 ∧ P.mvmuOf pt.tables v2 = some y2
          ∧ y1.2.2 < nMVMUSPerCore modelType ∧ y1 ≠ y2)
    ∧ (∀ tile1 tile2 v1 v2, pt.getTileVMVMU tile1 = some v1 →
        pt.getTileVMVMU tile2 = some v2 → v1 < pt.nVMVMUs → v2 < pt.nVMVMUs → v1 ≠ v2 →
        ∃ a1 b1 m1 a2 b2 m2,
          P.getTilePTile pt tile1 = some a1 ∧ P.getTilePCore pt tile1 = some b1
          ∧ P.getTilePMVMU pt tile1 = some m1
          ∧ P.getTilePTile pt tile2 = some a2 ∧ P.getTilePCore pt tile2 = some b2
          ∧ P.getTilePMVMU pt tile2 = some m2
          ∧ (a1, b1, m1) ≠ (a2, b2, m2)) := by
  obtain ⟨hvt, ⟨s1, hs1, e1⟩, ⟨s2, hs2, e2⟩⟩ := Placer.create_some modelType pt.tables P h
  have hc := counter_loop_distinct
    (fun i => (pt.tables.vcore2vtile[i]?).bind fun vTile => P.vtile2ptile[vTile]?)
    N_CORES_PER_TILE _ (assignPCoresStep_counts pt.tables P.vtile2ptile) _ _ _ hs1
  have hm := counter_loop_distinct
    (fun i => (pt.tables.vmvmu2vcore[i]?).bind fun vCore =>
        (P.vcore2pcore[vCore]?).bind fun pCore =>
        (pt.tables.vcore2vtile[vCore]?).bind fun vTile =>
        (P.vtile2ptile[vTile]?).map fun pTile =>
          (pTile * N_CORES_PER_TILE + pCore) % UINT_MOD)
    (nMVMUSPerCore modelType) _
    (assignPMVMUsStep_counts modelType pt.tables P.vtile2ptile P.vcore2pcore) _ _ _ hs2
  rw [e1] at hc
  rw [e2] at hm
  have hcore : ∀ c, c < pt.nVCores → ∃ k x, P.coreOf pt.tables c = some (k, x)
      ∧ x < N_CORES_PER_TILE
      ∧ ∀ j, j < pt.nVCores → j ≠ c → ∀ x', P.coreOf pt.tables j = some (k, x') → x' ≠ x := by
    intro c hlt
    obtain ⟨k, x, hk, hx, hcap, hd⟩ := hc c hlt
    simp only [Option.bind_eq_some] at hk
    obtain ⟨vTile, hvTile, hpTile⟩ := hk
    refine ⟨k, x, ?_, hcap, ?_⟩
    · unfold Placer.coreOf
      rw [hvTile, Option.some_bind, hpTile, Option.some_bind, hx]
      rfl
    · intro j hj hjc x' hj' e
      unfold Placer.coreOf at hj'
      simp only [Option.bind_eq_some, Option.map_eq_some', Prod.mk.injEq] at hj'
      obtain ⟨vTile', hvTile', pTile', hpTile', pCore', hpCore', e3, e4⟩ := hj'
      refine hd j hj hjc ?_ ?_
      · show ((pt.tables.vcore2vtile[j]?).bind fun vTile => P.vtile2ptile[vTile]?) = some k
        rw [hvTile', Option.some_bind, hpTile', e3]
      · rw [hpCore', e4, e]
  have hmvmu : ∀ v, v < pt.nVMVMUs → ∃ a b m, P.mvmuOf pt.tables v = some (a, b, m)
      ∧ m < nMVMUSPerCore modelType
      ∧ ∀ j, j < pt.nVMVMUs → j ≠ v → ∀ m', P.mvmuOf pt.tables j = some (a, b, m') →
          m' ≠ m := by
    intro v hlt
    obtain ⟨k, x, hk, hx, hcap, hd⟩ := hm v hlt
    simp only [Option.bind_eq_some, Option.map_eq_some'] at hk
    obtain ⟨vCore, hvCore, pCore, hpCore, vTile, hvTile, pTile, hpTile, ek⟩ := hk
    refine ⟨pTile, pCore, x, ?_, hcap, ?_⟩
    · unfold Placer.mvmuOf Placer.coreOf
      rw [hvCore, Option.some_bind, hvTile, Option.some_bind, hpTile, Option.some_bind, hpCore,
        Option.map_some', Option.some_bind, hx]
      rfl
    · intro j hj hjv m' hj' e
      obtain ⟨vCore', vTile', h1, h2, h3, h4, h5⟩ := P.mvmuOf_lookups pt.tables j _ hj'
      refine hd j hj hjv ?_ ?_
      · show ((pt.tables.vmvmu2vcore[j]?).bind fun vCore =>
          (P.vcore2pcore[vCore]?).bind fun pCore =>
          (pt.tables.vcore2vtile[vCore]?).bind fun vTile =>
          (P.vtile2ptile[vTile]?).map fun pTile =>
            (pTile * N_CORES_PER_TILE + pCore) % UINT_MOD) = some k
        rw [h1, Option.some_bind, h4, Option.some_bind, h2, Option.some_bind, h3,
          Option.map_some', ek]
      · rw [h5, e]
  have hpair : ∀ v1 v2, v1 < pt.nVMVMUs → v2 < pt.nVMVMUs → v1 ≠ v2 →
      ∃ y1 y2, P.mvmuOf pt.tables v1 = some y1 ∧ P.mvmuOf pt.tables v2 = some y2
        ∧ y1.2.2 < nMVMUSPerCore modelType ∧ y1 ≠ y2 := by
    intro v1 v2 h1 h2 hne
    obtain ⟨a1, b1, m1, hy1, hcap, hd⟩ := hmvmu v1 h1
    obtain ⟨a2, b2, m2, hy2, _, _⟩ := hmvmu v2 h2
    refine ⟨_, _, hy1, hy2, hcap, ?_⟩
    intro e
    simp only [Prod.mk.injEq] at e
    obtain ⟨ea, eb, em⟩ := e
    subst ea eb
    exact hd v2 h2 (fun e => hne e.symm) m2 hy2 em.symm
  refine ⟨?_, ?_, hpair, ?_⟩
  · intro t ht
    rw [hvt, getElem?_map_range]
    exact if_pos ht
  · intro c1 c2 h1 h2 hne
    obtain ⟨k1, x1, hx1, hcap, hd⟩ := hcore c1 h1
    obtain ⟨k2, x2, hx2, _, _⟩ := hcore c2 h2
    refine ⟨_, _, hx1, hx2, hcap, ?_⟩
    intro e
    simp only [Prod.mk.injEq] at e
    obtain ⟨ek, ex⟩ := e
    subst ek
    exact hd c2 h2 (fun e => hne e.symm) x2 hx2 ex.symm
  · intro tile1 tile2 v1 v2 ht1 ht2 h1 h2 hne
    obtain ⟨y1, y2, hy1, hy2, _, hd⟩ := hpair v1 v2 h1 h2 hne
    obtain ⟨p1, p2, p3⟩ := P.tile_lookups pt tile1 v1 y1 ht1 hy1
    obtain ⟨q1, q2, q3⟩ := P.tile_lookups pt tile2 v2 y2 ht2 hy2
    exact ⟨_, _, _, _, _, _, p1, p2, p3, q1, q2, q3, hd⟩

/-- Tables that are not a roll-up: the virtual MVMUs 2 and 3 are on the virtual cores 3 and
2 of virtual tile 2, and get the physical cores 1 and 0 of physical tile 2. -/
theorem placer_maps_distinct_virtual_units_to_distinct_physical_units_witness :
    ∃ P, Placer.create ModelType.INFERENCE crossedTables.tables = some P
      ∧ P.mvmuOf crossedTables.tables 2 = some (2, 1, 0)
      ∧ P.mvmuOf crossedTables.tables 3 = some (2, 0, 0)
      ∧ ∃ a1 b1 m1 a2 b2 m2,
          P.getTilePTile crossedTables 100 = some a1 ∧ P.getTilePCore crossedTables 100 = some b1
          ∧ P.getTilePMVMU crossedTables 100 = some m1
          ∧ P.getTilePTile crossedTables 200 = some a2
          ∧ P.getTilePCore crossedTables 200 = some b2
          ∧ P.getTilePMVMU crossedTables 200 = some m2
          ∧ (a1, b1, m1) ≠ (a2, b2, m2) := by
  have hsome : ((Placer.create ModelType.INFERENCE crossedTables.tables).bind fun P =>
      if P.mvmuOf crossedTables.tables 2 = some (2, 1, 0)
          ∧ P.mvmuOf crossedTables.tables 3 = some (2, 0, 0) then some P
      else none).isSome = true := by decide
  obtain ⟨P, hP⟩ := Option.isSome_iff_exists.mp hsome
  simp only [Option.bind_eq_some] at hP
  obtain ⟨P', hc, hP⟩ := hP
  split at hP
  · rename_i hy
    exact ⟨P', hc, hy.1, hy.2,
      (placer_maps_distinct_virtual_units_to_distinct_physical_units ModelType.INFERENCE
        crossedTables P' hc).2.2.2 100 200 3 2 (by decide) (by decide) (by decide) (by decide)
        (by decide)⟩
  · cases hP
theorem insertCopiesOperand_users (st : PState) (consumer o producer : Nat)
    (hI2 : ∀ i, st.g.fresh ≤ i → st.pt.op2vmvmu i = none)
    (hc : consumer < st.g.fresh) (hmat : (st.g.cls consumer).isMatrix = true)
    (ho : (st.g.operands consumer)[o]? = some producer) (hp : producer < st.g.fresh) :
    ∃ st', insertCopiesOperand consumer st o = some st'
      ∧ st'.g.users st.g.fresh = [consumer]
      ∧ (∀ q, q ≠ producer → q ≠ st.g.fresh → st'.g.users q = st.g.users q)
      ∧ st'.pt.op2vmvmu st.g.fresh = st.pt.op2vmvmu consumer
      ∧ (∀ i, i ≠ st.g.fresh → st'.pt.op2vmvmu i = st.pt.op2vmvmu i) := by
  obtain ⟨pt', hpt, hnew, hframe, _, _⟩ :=
    Partitioner.cloneAssignment_on_fresh st.pt consumer st.g.fresh (hI2 _ (le_refl _))
  have hne : consumer ≠ st.g.fresh := Nat.ne_of_lt hc
  have hpne : st.g.fresh ≠ producer := fun e => Nat.lt_irrefl _ (e ▸ hp)
  have hmat' : ((st.g.cls consumer).isMVM || (st.g.cls consumer).isTraining) = true := hmat
  have huses : (st.g.newCopy producer).2.uses consumer producer = true := by
    simp only [Graph.uses, Graph.newCopy, Graph.newConsumer, Graph.addUser, Graph.alloc,
      upd_other _ _ hne]
    simp only [List.contains_eq_any_beq, List.any_eq_true, beq_iff_eq]
    exact ⟨producer, List.getElem?_mem ho, rfl⟩
  refine ⟨{ g := (st.g.newCopy producer).2.replaceOperand consumer producer st.g.fresh,
            pt := pt' }, ?_, ?_, ?_, hnew, hframe⟩
  · unfold insertCopiesOperand
    simp only [ho, hmat', Bool.true_or, if_true]
    have : (st.g.newCopy producer).1 = st.g.fresh := rfl
    rw [this, hpt]
    rfl
  · simp only [Graph.replaceOperand, huses, if_true, Graph.addUser, Graph.removeUser,
      upd_same, upd_other _ _ hpne]
    simp only [Graph.newCopy, Graph.newConsumer, Graph.addUser, Graph.alloc,
      upd_other _ _ hpne, upd_same]
    rfl
  · intro q hq1 hq2
    simp only [Graph.replaceOperand, huses, if_true, Graph.addUser, Graph.removeUser,
      upd_other _ _ hq1, upd_other _ _ hq2]
    simp only [Graph.newCopy, Graph.newConsumer, Graph.addUser, Graph.alloc,
      upd_other _ _ hq1, upd_other _ _ hq2]
theorem insertCopies_operand_loop_users (st : PState) (op : Nat)
    (hI2 : ∀ i, st.g.fresh ≤ i → st.pt.op2vmvmu i = none)
    (hc : op < st.g.fresh) (hmat : (st.g.cls op).isMatrix = true)
    (hopnd : ∀ p, p ∈ st.g.operands op → p < st.g.fresh) (k : Nat) :
    k ≤ (st.g.operands op).length →
    ∃ st', (List.range k).foldlM (insertCopiesOperand op) st = some st'
      ∧ (∀ (j p : Nat), (st'.g.operands op)[j]? = some p →
          p < st.g.fresh + k ∧ (j < k → st.g.fresh ≤ p)
          ∧ (p < st.g.fresh → (st.g.operands op)[j]? = some p))
      ∧ (∀ p, p ∈ st'.g.operands op → st.g.fresh ≤ p →
          st'.g.users p = [op] ∧ st'.pt.op2vmvmu p = st.pt.op2vmvmu op)
      ∧ (∀ q, q < st.g.fresh → q ∉ st.g.operands op → st'.g.users q = st.g.users q)
      ∧ (∀ i, i < st.g.fresh → st'.pt.op2vmvmu i = st.pt.op2vmvmu i) := by
  induction k with
  | zero =>
    intro _
    refine ⟨st, rfl, ?_, ?_, fun _ _ _ => rfl, fun _ _ => rfl⟩
    · intro j p hp
      have := hopnd p (List.getElem?_mem hp)
      exact ⟨this, fun h => absurd h (Nat.not_lt_zero j), fun _ => hp⟩
    · intro p hp hge
      have := hopnd p hp
      omega
  | succ k ih =>
    intro hk
    obtain ⟨s1, hs1, hpos, hgood, husers, hasg⟩ := ih (by omega)
    obtain ⟨s1', hs1', hfresh, hcls, hnew, hops, hlen, hdone, hframe, hunas⟩ :=
      insertCopies_operand_loop st op hI2 hc hmat k (by omega)
    rw [hs1] at hs1'
    simp only [Option.some.injEq] at hs1'
    subst hs1'
    have hk1 : k < (s1.g.operands op).length := by omega
    obtain ⟨producer, hprod⟩ : ∃ producer, (s1.g.operands op)[k]? = some producer :=
      ⟨(s1.g.operands op)[k], List.getElem?_eq_getElem hk1⟩
    have hmat1 : (s1.g.cls op).isMatrix = true := by rw [hcls op (Or.inl hc)]; exact hmat
    have hplt : producer < s1.g.fresh := by
      have := (hpos k producer hprod).1
      omega
    obtain ⟨s2, hs2, _, _, _, hopnd2, _, _⟩ :=
      insertCopiesOperand_spec s1 op k producer
        (fun i hi => hunas i (by omega)) (by omega) hmat1 hprod
    obtain ⟨s2', hs2', hu1, hu2, ha1, ha2⟩ :=
      insertCopiesOperand_users s1 op k producer
        (fun i hi => hunas i (by omega)) (by omega) hmat1 hprod hplt
    rw [hs2] at hs2'
    simp only [Option.some.injEq] at hs2'
    subst hs2'
    have hmem : ∀ (j p : Nat), (s2.g.operands op)[j]? = some p →
        (p = s1.g.fresh ∧ (s1.g.operands op)[j]? = some producer)
        ∨ (p ≠ producer ∧ (s1.g.operands op)[j]? = some p) := by
      intro j p hp
      rw [hopnd2, List.getElem?_map] at hp
      cases hq : (s1.g.operands op)[j]? with
      | none => rw [hq] at hp; simp at hp
      | some q =>
        rw [hq] at hp
        simp only [Option.map_some', Option.some.injEq] at hp
        by_cases hqp : q = producer
        · rw [if_pos hqp] at hp
          exact Or.inl ⟨hp.symm, by rw [hqp]⟩
        · rw [if_neg hqp] at hp
          subst hp
          exact Or.inr ⟨hqp, rfl⟩
    refine ⟨s2, ?_, ?_, ?_, ?_, ?_⟩
    · rw [List.range_succ, List.foldlM_append, hs1]
      simp only [Option.bind_eq_bind, Option.some_bind, List.foldlM_cons, List.foldlM_nil]
      rw [hs2]
      rfl
    · intro j p hp
      rcases hmem j p hp with ⟨e, _⟩ | ⟨hne, hq⟩
      · refine ⟨by omega, fun _ => by omega, fun h => ?_⟩
        omega
      · obtain ⟨h1, h2, h3⟩ := hpos j p hq
        refine ⟨by omega, fun hj => ?_, h3⟩
        rcases Nat.lt_succ_iff_lt_or_eq.mp hj with h | h
        · exact h2 h
        · subst h
          rw [hprod] at hq
          exact absurd (Option.some.inj hq).symm hne
    · intro p hp hge
      obtain ⟨j, hj, hjp⟩ := List.getElem_of_mem hp
      have hp' : (s2.g.operands op)[j]? = some p := by
        rw [List.getElem?_eq_getElem hj, hjp]
      rcases hmem j p hp' with ⟨e, _⟩ | ⟨hne, hq⟩
      · subst e
        refine ⟨hu1, ?_⟩
        rw [ha1]
        exact hasg op hc
      · have hq1 := (hpos j p hq).1
        have hpf : p ≠ s1.g.fresh := by omega
        obtain ⟨g1, g2⟩ := hgood p (List.getElem?_mem hq) hge
        rw [hu2 p hne hpf, ha2 p hpf]
        exact ⟨g1, g2⟩
    · intro q hq hqn
      have hq1 : q ≠ producer := by
        intro e
        subst e
        exact hqn (List.getElem?_mem ((hpos k q hprod).2.2 hq))
      rw [hu2 q hq1 (by omega)]
      exact husers q hq hqn
    · intro i hi
      rw [ha2 i (by omega)]
      exact hasg i hi
/-- C36: on a DAG whose operations and their operands lie below the next fresh address and
whose fresh addresses carry no virtual MVMU, `insertCopies` runs to completion, and
afterwards every operand of every MVM or training matrix operation is an operation that
did not exist before the pass, is registered in the model, is a Copy, has that matrix
operation as its only user, and has the virtual MVMU assignment of the matrix operation,
which the pass did not change. No condition on the operand is involved: it may have been a
matrix operation or not, and may have had one user or several. -/
theorem insertCopies_gives_every_matrix_operand_a_fresh_copy (st : PState)
    (hA : ∀ i, i ∈ st.g.operations → i < st.g.fresh)
    (hB : ∀ i, st.g.fresh ≤ i → st.pt.op2vmvmu i = none)
    (hO : ∀ i, i ∈ st.g.operations → ∀ p, p ∈ st.g.operands i → p < st.g.fresh) :
    ∃ st', insertCopies st = some st'
      ∧ ∀ c, c ∈ st'.g.operations → (st'.g.cls c).isMatrix = true →
          c ∈ st.g.operations ∧ st'.pt.getVMVMU c = st.pt.getVMVMU c
          ∧ (st'.g.operands c).length = (st.g.operands c).length
          ∧ ∀ p, p ∈ st'.g.operands c →
            p ∉ st.g.operations ∧ st.g.fresh ≤ p ∧ p ∈ st'.g.operations
            ∧ st'.g.cls p = OpClass.CopyOperation
            ∧ st'.g.users p = [c]
            ∧ st'.pt.getVMVMU p = st'.pt.getVMVMU c := by
  have key := foldlM_invariant insertCopiesAt
    (fun (s : PState) (done : List Nat) =>
      (∀ i, i ∈ s.g.operations → i ∈ st.g.operations ∨ st.g.fresh ≤ i)
      ∧ (∀ i, i ∈ s.g.operations → i < s.g.fresh)
      ∧ (∀ i, s.g.fresh ≤ i → s.pt.op2vmvmu i = none)
      ∧ st.g.fresh ≤ s.g.fresh
      ∧ (∀ i, i < st.g.fresh → s.g.cls i = st.g.cls i)
      ∧ (∀ i, st.g.fresh ≤ i → i < s.g.fresh →
          s.g.cls i = OpClass.CopyOperation ∧ i ∈ s.g.operations)
      ∧ (∀ i, i < st.g.fresh → s.pt.op2vmvmu i = st.pt.op2vmvmu i)
      ∧ (∀ c, c ∈ st.g.operations → ∀ p, p ∈ s.g.operands c →
          p < st.g.fresh ∨ (st.g.fresh ≤ p ∧ p < s.g.fresh ∧ s.g.users p = [c]
            ∧ s.pt.op2vmvmu p = st.pt.op2vmvmu c))
      ∧ (∀ c, c ∈ done → (st.g.cls c).isMatrix = true →
          ∀ p, p ∈ s.g.operands c → st.g.fresh ≤ p)
      ∧ (∀ c, c ∈ st.g.operations →
          (s.g.operands c).length = (st.g.operands c).length)
      ∧ (∀ c, c ∈ done → c < st.g.fresh))
    st.g.operations [] st
    ⟨fun i h => Or.inl h, hA, hB, le_refl _, fun _ _ => rfl,
      fun i h1 h2 => absurd h2 (by omega), fun _ _ => rfl,
      fun c hc p hp => Or.inl (hO c hc p hp),
      fun c hc => absurd hc (List.not_mem_nil c), fun _ _ => rfl,
      fun c hc => absurd hc (List.not_mem_nil c)⟩
    (by
      intro s done op hop ⟨h0, h1, h2, h3, h4, h5, h6, h7, h8, h9, hd⟩
      have hopf : op < st.g.fresh := hA op hop
      have hd' : ∀ c, c ∈ done ++ [op] → c < st.g.fresh := by
        intro c hc
        rcases List.mem_append.mp hc with h | h
        · exact hd c h
        · simp only [List.mem_singleton] at h
          rw [h]
          exact hopf
      by_cases hmat : (s.g.cls op).isMatrix = true
      · have hopnd : ∀ p, p ∈ s.g.operands op → p < s.g.fresh := by
          intro p hp
          rcases h7 op hop p hp with h | h
          · omega
          · exact h.2.1
        obtain ⟨s', hs', hfresh, hcls, hnew, hops, hlen, _, hframe, hunas⟩ :=
          insertCopies_operand_loop s op h2 (by omega) hmat (s.g.operands op).length
            (le_refl _)
        obtain ⟨s'', hs'', hpos, hgood, husers, hasg⟩ :=
          insertCopies_operand_loop_users s op h2 (by omega) hmat hopnd
            (s.g.operands op).length (le_refl _)
        rw [hs'] at hs''
        simp only [Option.some.injEq] at hs''
        subst hs''
        have hnewop : ∀ p, p ∈ s'.g.operands op →
            st.g.fresh ≤ p ∧ p < s'.g.fresh ∧ s'.g.users p = [op]
              ∧ s'.pt.op2vmvmu p = st.pt.op2vmvmu op := by
          intro p hp
          obtain ⟨j, hj, hjp⟩ := List.getElem_of_mem hp
          have hp' : (s'.g.operands op)[j]? = some p := by
            rw [List.getElem?_eq_getElem hj, hjp]
          obtain ⟨p1, p2, _⟩ := hpos j p hp'
          have hge : s.g.fresh ≤ p := p2 (by omega)
          obtain ⟨g1, g2⟩ := hgood p hp hge
          refine ⟨by omega, by omega, g1, ?_⟩
          rw [g2]
          exact h6 op hopf
        refine ⟨s', ?_, ?_, ?_, ?_, ?_, ?_, ?_, ?_, ?_, ?_, ?_, hd'⟩
        · have hcons := isMatrix_isConsumer _ hmat
          have hm : ((s.g.cls op).isMVM || (s.g.cls op).isTraining) = true := hmat
          simp only [insertCopiesAt, hcons, hm, if_true]
          exact hs'
        · intro i hi
          rcases (hops i).mp hi with h | h
          · exact h0 i h
          · exact Or.inr (by omega)
        · intro i hi
          rcases (hops i).mp hi with h | h
          · have := h1 i h
            omega
          · omega
        · intro i hi
          exact hunas i (by omega)
        · omega
        · intro i hi
          rw [hcls i (Or.inl (by omega)), h4 i hi]
        · intro i hi1 hi2
          by_cases hlt : i < s.g.fresh
          · rw [hcls i (Or.inl hlt)]
            exact ⟨(h5 i hi1 hlt).1, (hops i).mpr (Or.inl (h5 i hi1 hlt).2)⟩
          · exact ⟨hnew i (by omega) (by omega), (hops i).mpr (Or.inr ⟨by omega, by omega⟩)⟩
        · intro i hi
          rw [hasg i (by omega)]
          exact h6 i hi
        · intro c hc p hp
          by_cases hco : c = op
          · subst hco
            exact Or.inr (hnewop p hp)
          · have hcf : c < st.g.fresh := hA c hc
            rw [hframe c hco (by omega)] at hp
            rcases h7 c hc p hp with h | ⟨g1, g2, g3, g4⟩
            · exact Or.inl h
            · have hnot : p ∉ s.g.operands op := by
                intro hpo
                rcases h7 op hop p hpo with h | ⟨_, _, g3', _⟩
                · omega
                · rw [g3] at g3'
                  simp only [List.cons.injEq, and_true] at g3'
                  exact hco g3'
              refine Or.inr ⟨g1, by omega, ?_, ?_⟩
              · rw [husers p g2 hnot]
                exact g3
              · rw [hasg p g2]
                exact g4
        · intro c hc hcm p hp
          by_cases hco : c = op
          · subst hco
            exact (hnewop p hp).1
          · rcases List.mem_append.mp hc with hcd | hcd
            · have hcf : c < s.g.fresh := by
                have := hd c hcd
                omega
              rw [hframe c hco hcf] at hp
              exact h8 c hcd hcm p hp
            · simp only [List.mem_singleton] at hcd
              exact absurd hcd hco
        · intro c hc
          by_cases hco : c = op
          · subst hco
            rw [hlen]
            exact h9 c hc
          · rw [hframe c hco (by have := hA c hc; omega)]
            exact h9 c hc
      · refine ⟨s, ?_, h0, h1, h2, h3, h4, h5, h6, h7, ?_, h9, hd'⟩
        · have hm : ((s.g.cls op).isMVM || (s.g.cls op).isTraining) = false := by
            simpa [OpClass.isMatrix] using hmat
          simp only [insertCopiesAt, hm]
          split <;> rfl
        · intro c hc hcm p hp
          rcases List.mem_append.mp hc with hcd | hcd
          · exact h8 c hcd hcm p hp
          · simp only [List.mem_singleton] at hcd
            rw [hcd, ← h4 op hopf] at hcm
            exact absurd hcm hmat)
  obtain ⟨st', hst', h0, h1, h2, h3, h4, h5, h6, h7, h8, h9, _⟩ := key
  refine ⟨st', hst', ?_⟩
  intro c hc hcm
  have hcst : c ∈ st.g.operations := by
    rcases h0 c hc with h | h
    · exact h
    · rw [(h5 c h (h1 c hc)).1] at hcm
      exact absurd hcm (by decide)
  have hcf : c < st.g.fresh := hA c hcst
  have hcm' : (st.g.cls c).isMatrix = true := by
    rw [← h4 c hcf]
    exact hcm
  refine ⟨hcst, h6 c hcf, h9 c hcst, ?_⟩
  intro p hp
  have hge : st.g.fresh ≤ p := h8 c (by simpa using hcst) hcm' p hp
  rcases h7 c hcst p hp with h | ⟨g1, g2, g3, g4⟩
  · omega
  · refine ⟨fun hin => ?_, hge, (h5 p g1 g2).2, (h5 p g1 g2).1, g3, ?_⟩
    · have := hA p hin
      omega
    · show st'.pt.op2vmvmu p = st'.pt.op2vmvmu c
      rw [g4, h6 c hcf]
/-- Witness for C36 on `reusedMatrixState`: the MVM 4 reads the vector operation 3, which is
not a matrix operation and has no other user, and still gets the Copy 9 in between. -/
theorem insertCopies_gives_every_matrix_operand_a_fresh_copy_witness :
    ((∀ i, i ∈ reusedMatrixState.g.operations → i < reusedMatrixState.g.fresh)
      ∧ (∀ i, reusedMatrixState.g.fresh ≤ i → reusedMatrixState.pt.op2vmvmu i = none)
      ∧ (∀ i, i ∈ reusedMatrixState.g.operations →
          ∀ p, p ∈ reusedMatrixState.g.operands i → p < reusedMatrixState.g.fresh))
    ∧ (reusedMatrixState.g.users 3 = [4]
      ∧ (reusedMatrixState.g.cls 3).isMatrix = false)
    ∧ (insertCopies reusedMatrixState).map
        (fun s => (s.g.operands 2, s.g.operands 4, s.g.operands 5, s.g.operands 9,
          s.g.users 9)) = some ([8], [9], [10], [3], [4])
    ∧ ∃ st', insertCopies reusedMatrixState = some st'
      ∧ ∀ c, c ∈ st'.g.operations → (st'.g.cls c).isMatrix = true →
          c ∈ reusedMatrixState.g.operations
          ∧ st'.pt.getVMVMU c = reusedMatrixState.pt.getVMVMU c
          ∧ (st'.g.operands c).length = (reusedMatrixState.g.operands c).length
          ∧ ∀ p, p ∈ st'.g.operands c →
            p ∉ reusedMatrixState.g.operations ∧ reusedMatrixState.g.fresh ≤ p
            ∧ p ∈ st'.g.operations
            ∧ st'.g.cls p = OpClass.CopyOperation
            ∧ st'.g.users p = [c]
            ∧ st'.pt.getVMVMU p = st'.pt.getVMVMU c :=
  have hA : ∀ i, i ∈ reusedMatrixState.g.operations → i < reusedMatrixState.g.fresh := by
    decide
  have hB : ∀ i, reusedMatrixState.g.fresh ≤ i → reusedMatrixState.pt.op2vmvmu i = none := by
    intro i hi
    have hf : reusedMatrixState.g.fresh = 8 := by decide
    rw [hf] at hi
    show (if i < 8 then some 0 else none) = none
    rw [if_neg (by omega)]
  have hO : ∀ i, i ∈ reusedMatrixState.g.operations →
      ∀ p, p ∈ reusedMatrixState.g.operands i → p < reusedMatrixState.g.fresh := by
    decide
  ⟨⟨hA, hB, hO⟩, by decide, by decide,
    insertCopies_gives_every_matrix_operand_a_fresh_copy reusedMatrixState hA hB hO⟩

/-- What one iteration of the loop over the live reloads does when no register was found
yet and `producerToKill` has the live reload `r`: when the current operation is no consumer,
or is a consumer that uses neither `producerToKill` nor `r`, the reload is killed, its
registers are freed and the allocation is tried again; otherwise nothing changes. -/
theorem killReloadAt_cases (length : Nat) (consumer : Option Nat)
    (s s' : Option Nat × DataLoop) (producerToKill r : Nat) (hf : s.1 = none)
    (hr : s.2.spillTracker.producer2reload producerToKill = some r)
    (h : killReloadAt length consumer s producerToKill = some s') :
    ((consumer = none ∨ ∃ c, consumer = some c ∧ s.2.g.uses c producerToKill = false
          ∧ s.2.g.uses c r = false) →
      ∃ t reg a p, s.2.spillTracker.killLiveNowReload r = some t
        ∧ s.2.ra.getRegister r = some reg
        ∧ s.2.allocator.free reg (s.2.g.length r) = some a
        ∧ a.allocate length = some p
        ∧ s' = (if p.1 ≠ OUT_OF_REGISTERS then some p.1 else none,
                { s.2 with spillTracker := t, allocator := p.2 }))
    ∧ ((∃ c, consumer = some c ∧ (s.2.g.uses c producerToKill = true
          ∨ s.2.g.uses c r = true)) → s' = s) := by
  unfold killReloadAt at h
  rw [hf] at h
  simp only [hr, Option.some_bind] at h
  constructor
  · intro hel
    have hcond : consumer = none ∨ (consumer.all fun c =>
        !s.2.g.uses c producerToKill && !s.2.g.uses c r) = true := by
      rcases hel with h0 | ⟨c, hc, h1, h2⟩
      · exact Or.inl h0
      · right
        rw [hc]
        simp [h1, h2]
    rw [if_pos hcond] at h
    simp only [Option.bind_eq_some, Option.map_eq_some'] at h
    obtain ⟨t, ht, reg, hreg, a, ha, p, hp, hs⟩ := h
    exact ⟨t, reg, a, p, ht, hreg, ha, hp, hs.symm⟩
  · rintro ⟨c, hc, huse⟩
    have hcond : ¬ (consumer = none ∨ (consumer.all fun c =>
        !s.2.g.uses c producerToKill && !s.2.g.uses c r) = true) := by
      rw [hc]
      rintro (h0 | h0)
      · cases h0
      · simp only [Option.all_some, Bool.and_eq_true, Bool.not_eq_true'] at h0
        rcases huse with h1 | h1
        · rw [h0.1] at h1
          cases h1
        · rw [h0.2] at h1
          cases h1
    rw [if_neg hcond] at h
    simp only [Option.some.injEq] at h
    exact h.symm
theorem KillInv.atStart (consumer : Option Nat) (l : DataLoop) (a : CoreAllocator)
    (hcons : ∀ p, p ∈ l.spillTracker.reloadKeys → ∀ r,
      l.spillTracker.producer2reload p = some r →
      l.spillTracker.reload2producer r = some p) :
    KillInv consumer l.spillTracker.reloadKeys l
      ((none : Option Nat), { l with allocator := a }) where
  g := rfl
  ra := rfl
  liveNow := rfl
  out := rfl
  cons := hcons
  kept := fun _ _ _ h => Or.inl h
  other := fun _ _ => rfl

theorem killReloadAt_killInv (length : Nat) (consumer : Option Nat) (keys : List Nat)
    (l : DataLoop) (s s' : Option Nat × DataLoop) (k : Nat) (hk : k ∈ keys)
    (hinv : KillInv consumer keys l s)
    (h : killReloadAt length consumer s k = some s') : KillInv consumer keys l s' := by
  cases hf : s.1 with
  | some reg =>
    unfold killReloadAt at h
    rw [hf] at h
    simp only [Option.some.injEq] at h
    rw [← h]
    exact hinv
  | none =>
    have h0 := h
    unfold killReloadAt at h0
    rw [hf] at h0
    simp only [Option.bind_eq_some] at h0
    obtain ⟨r, hr, _⟩ := h0
    obtain ⟨c1, c2⟩ := killReloadAt_cases length consumer s s' k r hf hr h
    by_cases hel : consumer = none ∨ ∃ c, consumer = some c ∧ s.2.g.uses c k = false
        ∧ s.2.g.uses c r = false
    · obtain ⟨t, reg, a, p, ht, _, _, _, hs⟩ := c1 hel
      unfold SpillTracker.killLiveNowReload at ht
      simp only [Option.map_eq_some'] at ht
      obtain ⟨producer, hprod, et⟩ := ht
      have hpk : producer = k := by
        have := hinv.cons k hk r hr
        rw [this] at hprod
        exact (Option.some.inj hprod).symm
      subst hpk
      have e1 : s'.2.spillTracker.producer2reload
          = upd s.2.spillTracker.producer2reload producer none := by
        rw [hs, ← et]
      have e2 : s'.2.spillTracker.reload2producer
          = upd s.2.spillTracker.reload2producer r none := by
        rw [hs, ← et]
      constructor
      · rw [hs]
        exact hinv.g
      · rw [hs]
        exact hinv.ra
      · rw [hs]
        exact hinv.liveNow
      · rw [hs]
        exact hinv.out
      · intro p hp r' hr'
        rw [e1] at hr'
        have hpp : p ≠ producer := by
          intro e
          rw [e, upd_same] at hr'
          cases hr'
        rw [upd_other _ _ hpp] at hr'
        have h1 := hinv.cons p hp r' hr'
        have hrr : r' ≠ r := by
          intro e
          rw [e, hinv.cons producer hk r hr] at h1
          exact hpp (Option.some.inj h1).symm
        rw [e2, upd_other _ _ hrr]
        exact h1
      · intro p hp r0 hr0
        rw [e1]
        by_cases hpp : p = producer
        · subst hpp
          rw [upd_same]
          rcases hinv.kept p hp r0 hr0 with h1 | h1
          · rw [hr] at h1
            have : r = r0 := Option.some.inj h1
            subst this
            rw [hinv.g] at hel
            exact Or.inr ⟨rfl, hel⟩
          · exact Or.inr ⟨rfl, h1.2⟩
        · rw [upd_other _ _ hpp]
          exact hinv.kept p hp r0 hr0
      · intro p hp
        have hpp : p ≠ producer := fun e => hp (e ▸ hk)
        rw [e1, upd_other _ _ hpp]
        exact hinv.other p hp
    · have hs : s' = s := by
        apply c2
        cases hc : consumer with
        | none => exact absurd (Or.inl hc) hel
        | some c =>
          refine ⟨c, rfl, ?_⟩
          by_contra hno
          apply hel
          right
          refine ⟨c, hc, ?_, ?_⟩
          · cases hu : s.2.g.uses c k with
            | false => rfl
            | true => exact absurd (Or.inl hu) hno
          · cases hu : s.2.g.uses c r with
            | false => rfl
            | true => exact absurd (Or.inr hu) hno
      rw [hs]
      exact hinv

theorem spillAt_reloads (length spillAddressReg : Nat) (consumer : Option Nat)
    (s s' : Option Nat × DataLoop) (spillCandidate : Nat)
    (h : spillAt length spillAddressReg consumer s spillCandidate = some s') :
    s'.2.spillTracker.producer2reload = s.2.spillTracker.producer2reload := by
  unfold spillAt at h
  cases hf : s.1 with
  | some reg =>
    rw [hf] at h
    simp only [Option.some.injEq] at h
    rw [← h]
  | none =>
    rw [hf] at h
    simp only at h
    by_cases hcond : consumer = none
        ∨ Option.all (fun c => !s.2.g.uses c spillCandidate) consumer = true
    · rw [if_pos hcond] at h
      simp only [Option.bind_eq_some, Option.map_eq_some'] at h
      obtain ⟨vTile, _, m, hm, pt1, _, ra1, _, pt2, _, mem', hmem', g3, hg3, t, ht, reg, _,
        a, _, p, _, hs⟩ := h
      obtain ⟨_, _, t3⟩ := SpillTracker.setSpillOperation_spec _ _ _ _ ht
      rw [← hs]
      exact t3
    · rw [if_neg hcond] at h
      simp only [Option.some.injEq] at h
      rw [← h]
/-- The loop over the live reloads of `allocateRegistersWithSpilling`: it keeps `KillInv`,
and when it ends without a register, every key whose reload is still live is protected by
the consumer. -/
theorem killReloads_loop (length : Nat) (consumer : Option Nat) (l : DataLoop)
    (a : CoreAllocator) (s : Option Nat × DataLoop)
    (hcons : ∀ p, p ∈ l.spillTracker.reloadKeys → ∀ r,
      l.spillTracker.producer2reload p = some r →
      l.spillTracker.reload2producer r = some p)
    (h : l.spillTracker.reloadKeys.foldlM (killReloadAt length consumer)
      ((none : Option Nat), { l with allocator := a }) = some s) :
    KillInv consumer l.spillTracker.reloadKeys l s
    ∧ (s.1 = none → ∀ p, p ∈ l.spillTracker.reloadKeys → ∀ r,
        s.2.spillTracker.producer2reload p = some r →
        ∃ c, consumer = some c ∧ (l.g.uses c p = true ∨ l.g.uses c r = true)) := by
  have key := foldlM_prefix_invariant (killReloadAt length consumer)
    (fun (s : Option Nat × DataLoop) (done : List Nat) =>
      KillInv consumer l.spillTracker.reloadKeys l s
      ∧ (s.1 = none → ∀ p, p ∈ done → ∀ r,
          s.2.spillTracker.producer2reload p = some r →
          ∃ c, consumer = some c ∧ (l.g.uses c p = true ∨ l.g.uses c r = true)))
    l.spillTracker.reloadKeys [] _ s
    ⟨KillInv.atStart consumer l a hcons, fun _ p hp => absurd hp (List.not_mem_nil p)⟩
    (by
      intro b done k b1 hk ⟨hinv, hdone⟩ hstep
      refine ⟨killReloadAt_killInv length consumer _ l b b1 k hk hinv hstep, ?_⟩
      intro hnone p hp r hr
      cases hf : b.1 with
      | some reg =>
        exfalso
        unfold killReloadAt at hstep
        rw [hf] at hstep
        simp only [Option.some.injEq] at hstep
        rw [← hstep, hf] at hnone
        cases hnone
      | none =>
        have h0 := hstep
        unfold killReloadAt at h0
        rw [hf] at h0
        simp only [Option.bind_eq_some] at h0
        obtain ⟨rk, hrk, _⟩ := h0
        obtain ⟨c1, c2⟩ := killReloadAt_cases length consumer b b1 k rk hf hrk hstep
        by_cases hel : consumer = none ∨ ∃ c, consumer = some c ∧ b.2.g.uses c k = false
            ∧ b.2.g.uses c rk = false
        · obtain ⟨t, reg, a', p', ht, _, _, _, hs⟩ := c1 hel
          unfold SpillTracker.killLiveNowReload at ht
          simp only [Option.map_eq_some'] at ht
          obtain ⟨producer, hprod, et⟩ := ht
          have hpk : producer = k := by
            have := hinv.cons k hk rk hrk
            rw [this] at hprod
            exact (Option.some.inj hprod).symm
          subst hpk
          have e1 : b1.2.spillTracker.producer2reload
              = upd b.2.spillTracker.producer2reload producer none := by
            rw [hs, ← et]
          rw [e1] at hr
          have hpp : p ≠ producer := by
            intro e
            rw [e, upd_same] at hr
            cases hr
          rw [upd_other _ _ hpp] at hr
          rcases List.mem_append.mp hp with hpd | hpd
          · exact hdone hf p hpd r hr
          · simp only [List.mem_singleton] at hpd
            exact absurd hpd hpp
        · have hb : ∃ c, consumer = some c ∧ (b.2.g.uses c k = true
              ∨ b.2.g.uses c rk = true) := by
            cases hc : consumer with
            | none => exact absurd (Or.inl hc) hel
            | some c =>
              refine ⟨c, rfl, ?_⟩
              by_contra hno
              apply hel
              right
              refine ⟨c, hc, ?_, ?_⟩
              · cases hu : b.2.g.uses c k with
                | false => rfl
                | true => exact absurd (Or.inl hu) hno
              · cases hu : b.2.g.uses c rk with
                | false => rfl
                | true => exact absurd (Or.inr hu) hno
          have hs : b1 = b := c2 hb
          rw [hs] at hr
          rcases List.mem_append.mp hp with hpd | hpd
          · exact hdone hf p hpd r hr
          · simp only [List.mem_singleton] at hpd
            subst hpd
            rw [hrk] at hr
            have : rk = r := Option.some.inj hr
            subst this
            rw [hinv.g] at hb
            exact hb)
    h
  simpa using key
/-- C32: `allocateRegistersWithSpilling` is called at the operation `op` in a state whose
live reloads are recorded consistently in both maps of the tracker, and returns. A reload
`r` of a producer `p` that was live at the call and is not live at the return was killed by
the loop over the live reloads, and when `op` is a consumer it uses neither `p` nor `r`.
In that loop, an iteration that has no register yet and meets the live reload `r` of `p`
kills `r`, frees the registers of `r` and allocates again when `op` is no consumer or uses
neither `p` nor `r`, and changes nothing when `op` is a consumer that uses `p` or `r`.
Unless the call leaves the DAG, the live set and the list as they were (no live value was
spilled), every reload that is still live at the return is one whose producer or Load the
consumer `op` uses: when `op` is no consumer, none is left. -/
theorem live_reload_is_killed_only_when_the_consumer_uses_neither
    (length spillAddressReg op : Nat) (l : DataLoop) (q : Nat × DataLoop)
    (hcons : ∀ p, p ∈ l.spillTracker.reloadKeys → ∀ r,
      l.spillTracker.producer2reload p = some r →
      l.spillTracker.reload2producer r = some p)
    (h : allocateRegistersWithSpilling length spillAddressReg op l = some q) :
    (∀ p r, l.spillTracker.producer2reload p = some r →
        q.2.spillTracker.producer2reload p ≠ some r →
        p ∈ l.spillTracker.reloadKeys ∧ q.2.spillTracker.producer2reload p = none
        ∧ ((l.g.cls op).isConsumer = true →
            l.g.uses op p = false ∧ l.g.uses op r = false))
    ∧ (∀ (s s' : Option Nat × DataLoop) (p r : Nat), s.1 = none →
        s.2.spillTracker.producer2reload p = some r →
        killReloadAt length (if (l.g.cls op).isConsumer then some op else none) s p
          = some s' →
        (((l.g.cls op).isConsumer = false
            ∨ (s.2.g.uses op p = false ∧ s.2.g.uses op r = false)) →
          ∃ t reg a x, s.2.spillTracker.killLiveNowReload r = some t
            ∧ s.2.ra.getRegister r = some reg
            ∧ s.2.allocator.free reg (s.2.g.length r) = some a
            ∧ a.allocate length = some x
            ∧ s' = (if x.1 ≠ OUT_OF_REGISTERS then some x.1 else none,
                    { s.2 with spillTracker := t, allocator := x.2 }))
        ∧ ((l.g.cls op).isConsumer = true
            ∧ (s.2.g.uses op p = true ∨ s.2.g.uses op r = true) → s' = s))
    ∧ ((q.2.g = l.g ∧ q.2.liveNow = l.liveNow ∧ q.2.out = l.out)
        ∨ ∀ p, p ∈ l.spillTracker.reloadKeys → ∀ r,
            q.2.spillTracker.producer2reload p = some r →
            (l.g.cls op).isConsumer = true
            ∧ (l.g.uses op p = true ∨ l.g.uses op r = true)) := by
  have hcs : ∀ c, (if (l.g.cls op).isConsumer then some op else none) = some c →
      (l.g.cls op).isConsumer = true ∧ c = op := by
    intro c hc
    split at hc
    · rename_i hi
      exact ⟨hi, (Option.some.inj hc).symm⟩
    · cases hc
  have hstepspec : ∀ (s s' : Option Nat × DataLoop) (p r : Nat), s.1 = none →
      s.2.spillTracker.producer2reload p = some r →
      killReloadAt length (if (l.g.cls op).isConsumer then some op else none) s p
        = some s' →
      (((l.g.cls op).isConsumer = false
          ∨ (s.2.g.uses op p = false ∧ s.2.g.uses op r = false)) →
        ∃ t reg a x, s.2.spillTracker.killLiveNowReload r = some t
          ∧ s.2.ra.getRegister r = some reg
          ∧ s.2.allocator.free reg (s.2.g.length r) = some a
          ∧ a.allocate length = some x
          ∧ s' = (if x.1 ≠ OUT_OF_REGISTERS then some x.1 else none,
                  { s.2 with spillTracker := t, allocator := x.2 }))
      ∧ ((l.g.cls op).isConsumer = true
          ∧ (s.2.g.uses op p = true ∨ s.2.g.uses op r = true) → s' = s) := by
    intro s s' p r hf hr hstep
    obtain ⟨c1, c2⟩ := killReloadAt_cases length _ s s' p r hf hr hstep
    constructor
    · intro hel
      apply c1
      by_cases hi : (l.g.cls op).isConsumer = true
      · right
        rcases hel with h0 | h0
        · rw [hi] at h0
          cases h0
        · exact ⟨op, by rw [if_pos hi], h0.1, h0.2⟩
      · left
        rw [if_neg hi]
    · rintro ⟨hi, huse⟩
      exact c2 ⟨op, by rw [if_pos hi], huse⟩
  unfold allocateRegistersWithSpilling at h
  simp only [Option.bind_eq_some] at h
  obtain ⟨x, _, h⟩ := h
  by_cases hx : x.1 ≠ OUT_OF_REGISTERS
  · rw [if_pos hx] at h
    simp only [Option.some.injEq] at h
    rw [← h]
    refine ⟨?_, hstepspec, Or.inl ⟨rfl, rfl, rfl⟩⟩
    intro p r hp hq
    exact absurd hp hq
  · rw [if_neg hx] at h
    simp only [Option.bind_eq_some] at h
    obtain ⟨s, hs, h⟩ := h
    obtain ⟨hinv, hleft⟩ := killReloads_loop length _ l x.2 s hcons hs
    have hfinal : q.2.spillTracker.producer2reload = s.2.spillTracker.producer2reload := by
      cases hf : s.1 with
      | some reg =>
        rw [hf] at h
        simp only [Option.some.injEq] at h
        rw [← h]
      | none =>
        rw [hf] at h
        simp only [Option.bind_eq_some, Option.map_eq_some'] at h
        obtain ⟨s2, hs2, reg, _, hq⟩ := h
        rw [← hq]
        exact foldlM_preserves _
          (fun (y : Option Nat × DataLoop) =>
            y.2.spillTracker.producer2reload = s.2.spillTracker.producer2reload)
          (fun b a b' hb hstep =>
            (spillAt_reloads length spillAddressReg _ b b' a hstep).trans hb)
          _ s s2 rfl hs2
    refine ⟨?_, hstepspec, ?_⟩
    · intro p r hp hq
      rw [hfinal] at hq ⊢
      by_cases hk : p ∈ l.spillTracker.reloadKeys
      · rcases hinv.kept p hk r hp with h1 | ⟨h1, h2⟩
        · exact absurd h1 hq
        · refine ⟨hk, h1, ?_⟩
          intro hi
          rcases h2 with h3 | ⟨c, hc, u1, u2⟩
          · rw [if_pos hi] at h3
            cases h3
          · obtain ⟨_, e⟩ := hcs c hc
            subst e
            exact ⟨u1, u2⟩
      · rw [hinv.other p hk] at hq
        exact absurd hp hq
    · cases hf : s.1 with
      | some reg =>
        rw [hf] at h
        simp only [Option.some.injEq] at h
        rw [← h]
        exact Or.inl ⟨hinv.g, hinv.liveNow, hinv.out⟩
      | none =>
        right
        intro p hp r hr
        rw [hfinal] at hr
        obtain ⟨c, hc, hu⟩ := hleft hf p hp r hr
        obtain ⟨hi, e⟩ := hcs c hc
        subst e
        exact ⟨hi, hu⟩
set_option maxRecDepth 1000000 in
/-- Witness for C32 on `killState`: the first allocation of 4 registers for the operation 3
fails, the reload 4 of the producer 1, which the operation 3 does not read, is killed, and
its registers are handed out. -/
theorem live_reload_is_killed_only_when_the_consumer_uses_neither_witness :
    (∀ p, p ∈ killState.spillTracker.reloadKeys → ∀ r,
      killState.spillTracker.producer2reload p = some r →
      killState.spillTracker.reload2producer r = some p)
    ∧ ∃ q, allocateRegistersWithSpilling 4 (REGISTER_FILE_START_ADDRESS + 0) 3 killState
        = some q
      ∧ q.1 = REGISTER_FILE_START_ADDRESS + 1
      ∧ killState.spillTracker.producer2reload 1 = some 4
      ∧ q.2.spillTracker.producer2reload 1 = none
      ∧ ((killState.g.cls 3).isConsumer = true →
          killState.g.uses 3 1 = false ∧ killState.g.uses 3 4 = false) := by
  have hcons : ∀ p, p ∈ killState.spillTracker.reloadKeys → ∀ r,
      killState.spillTracker.producer2reload p = some r →
      killState.spillTracker.reload2producer r = some p := by
    intro p hp r hr
    have hp1 : p = 1 := by
      have : p ∈ [1] := hp
      simpa using this
    subst hp1
    have hr4 : r = 4 := by
      have : some 4 = some r := hr
      exact (Option.some.inj this).symm
    subst hr4
    rfl
  have hrun : ((allocateRegistersWithSpilling 4 (REGISTER_FILE_START_ADDRESS + 0) 3
      killState).bind fun q =>
        if q.1 = REGISTER_FILE_START_ADDRESS + 1
            ∧ q.2.spillTracker.producer2reload 1 = none then some q
        else none).isSome = true := by
    decide
  obtain ⟨q, hq⟩ := Option.isSome_iff_exists.mp hrun
  simp only [Option.bind_eq_some] at hq
  obtain ⟨q', hq', hq⟩ := hq
  split at hq
  · rename_i h1
    have hw := (live_reload_is_killed_only_when_the_consumer_uses_neither 4
      (REGISTER_FILE_START_ADDRESS + 0) 3 killState q' hcons hq').1 1 4 rfl
    have hkilled : q'.2.spillTracker.producer2reload 1 ≠ some 4 := by
      rw [h1.2]
      intro e
      cases e
    exact ⟨hcons, q', hq', h1.1, rfl, (hw hkilled).2.1, (hw hkilled).2.2⟩
  · cases hq
set_option maxRecDepth 100000 in
/-- C39 (the code diverges): on `squareState` the core list `[1, 2, 3, 4, 5]` has every
operand before its consumer, and the MUL 3 is a non-matrix consumer with two operands, both
the vector operation 2, which writes no reserved output register. When the iterator
reaches 3 the operation 2 is in the live set and all operands are available; the release
loop frees the registers of 2 at the first operand and erases 2 from the live set, and at
the second operand 2 is neither in the live set nor a Load, which is the failure
`Operand must either be a live operation or a spilled register load!`: the release fails,
and with it `allocateDataRegisters` and `registerAllocation`. -/
theorem release_of_a_repeated_operand_fails :
    (squareState.coreOperationLists[0]? = some [1, 2, 3, 4, 5]
      ∧ squareGraph.operands 3 = [2, 2]
      ∧ readsFromReservedInputRegister squareGraph 3 = false
      ∧ writesToReservedOutputRegister squareGraph 2 = false
      ∧ (squareGraph.cls 3).isConsumer = true)
    ∧ (squareLoopAtMul.bind fun l =>
        ((List.range (l.g.operands 3).length).foldlM
          (availableOperandAt (REGISTER_FILE_START_ADDRESS + 0) 3) l).bind fun l1 =>
        (freeOperandAt (liveRanges squareGraph [1, 2, 3, 4, 5] (some 4)) 3 l1 0).map fun l2 =>
          (l.liveNow, l1.liveNow, l2.liveNow, l2.g.operands 3,
            decide (l2.g.cls 2 = OpClass.LoadOperation),
            (freeOperandAt (liveRanges squareGraph [1, 2, 3, 4, 5] (some 4)) 3 l2 1).isSome))
      = some ([2], [2], [], [2, 2], false, false)
    ∧ (allocateDataRegisters squareState [1, 2, 3, 4, 5]).isSome = false
    ∧ (registerAllocation onePlacer squareState).isSome = false := by
  refine ⟨by decide, ?_, ?_, ?_⟩
  · decide
  · decide
  · decide

/-! ## Coalescer: every MVM above an output lies in one coalesced set -/

theorem CoalesceLoop.findCandidate_mem (l : CoalesceLoop) (mvm pMVMU cs : Nat) :
    ∀ (sets : List Nat), l.findCandidate mvm pMVMU sets = some (some cs) → cs ∈ sets := by
  intro sets
  induction sets with
  | nil =>
    intro h
    simp [CoalesceLoop.findCandidate] at h
  | cons s rest ih =>
    intro h
    unfold CoalesceLoop.findCandidate at h
    simp only [Option.bind_eq_some] at h
    obtain ⟨uses, _, h⟩ := h
    split at h
    · simp only [Option.some.injEq] at h
      rw [← h]
      exact List.mem_cons_self _ _
    · exact List.mem_cons_of_mem _ (ih h)

/-- The state after the hint-based phase satisfies the invariant of the greedy phase. -/
theorem CoalescedInv.afterHints (hints : List (List Nat)) (P : Placer) (pt : Partitioner)
    (c : Coalescer)
    (hr : hints.foldlM (coalesceHintSet P pt)
      { Coalescer.none with coalescedMVMSets := List.replicate P.nPCores [] } = some c)
    (honce : ∀ (idx idx' : Nat) (l l' : List Nat) (cs : Nat),
      c.coalescedMVMSets[idx]? = some l → cs ∈ l →
      c.coalescedMVMSets[idx']? = some l' → cs ∈ l' → idx = idx') :
    CoalescedInv P pt c := by
  have hH := coalesceHintSets_hint hints P pt c hr
  have hR := coalesceHintSets_retain hints P pt c hr
  refine ⟨hH.link, hH.back, ?_, fun cs hcs => (hR.retained cs hcs).1, ?_, honce⟩
  · intro cs i m hm
    rcases hR.kept cs i m hm with ⟨e, he, _⟩ | h
    · exact absurd he (List.not_mem_nil _)
    · exact h
  · intro idx l cs i m hl hcs hm
    obtain ⟨pTile, pCore, h1, h2, h3⟩ := hR.index idx l cs i m hl hcs hm
    unfold Placer.coreIndex
    rw [h1, h2, h3]
    rfl

theorem extractLocalSet_lists (P : Placer) (pt : Partitioner)
    (s s' : Coalescer × List ((Nat × Nat) × Nat)) (mvm : Nat)
    (hr : extractLocalSet P pt s mvm = some s') :
    s'.1.coalescedMVMSets = s.1.coalescedMVMSets := by
  unfold extractLocalSet at hr
  simp only [Option.bind_eq_some, Option.map_eq_some'] at hr
  obtain ⟨pMVMU, _, pCore, _, pTile, _, c', hadd, hs'⟩ := hr
  rw [← hs']
  have h5 := (Coalescer.addMVM_spec _ _ _ _ _ hadd).2.2.2.2
  show c'.coalescedMVMSets = _
  rw [h5]
  cases hf : localFind s.2 (pTile, pCore) with
  | some cs => rfl
  | none => rfl

theorem pushAt_once (v v' : List (List Nat)) (k x : Nat)
    (h : pushAt v k x = some v') (hx : x ∉ v.flatten)
    (honce : ∀ (idx idx' : Nat) (l l' : List Nat) (cs : Nat),
      v[idx]? = some l → cs ∈ l → v[idx']? = some l' → cs ∈ l' → idx = idx') :
    ∀ (idx idx' : Nat) (l l' : List Nat) (cs : Nat),
      v'[idx]? = some l → cs ∈ l → v'[idx']? = some l' → cs ∈ l' → idx = idx' := by
  obtain ⟨l0, hl0, hl0', hother⟩ := pushAt_spec v v' k x h
  have hold : ∀ (idx : Nat) (l : List Nat) (cs : Nat), v'[idx]? = some l → cs ∈ l →
      (cs = x ∧ idx = k) ∨ (cs ≠ x ∧ ∃ l1, v[idx]? = some l1 ∧ cs ∈ l1) := by
    intro idx l cs hl hcs
    by_cases hik : idx = k
    · subst hik
      rw [hl0'] at hl
      rw [← Option.some.inj hl] at hcs
      rcases List.mem_append.mp hcs with h1 | h1
      · right
        refine ⟨?_, l0, hl0, h1⟩
        intro e
        exact hx (List.mem_flatten.mpr ⟨l0, List.getElem?_mem hl0, e ▸ h1⟩)
      · exact Or.inl ⟨List.mem_singleton.mp h1, rfl⟩
    · rw [hother idx hik] at hl
      right
      refine ⟨?_, l, hl, hcs⟩
      intro e
      exact hx (List.mem_flatten.mpr ⟨l, List.getElem?_mem hl, e ▸ hcs⟩)
  intro idx idx' l l' cs hl hcs hl' hcs'
  rcases hold idx l cs hl hcs with ⟨e1, e2⟩ | ⟨n1, l1, h1, m1⟩
  · rcases hold idx' l' cs hl' hcs' with ⟨_, e4⟩ | ⟨n2, _⟩
    · rw [e2, e4]
    · exact absurd e1 n2
  · rcases hold idx' l' cs hl' hcs' with ⟨e3, _⟩ | ⟨_, l2, h2, m2⟩
    · exact absurd e3 n1
    · exact honce idx idx' l1 l2 cs h1 m1 h2 m2

theorem keepIfComplete_once (P : Placer) (pt : Partitioner) :
    ∀ (loc : List ((Nat × Nat) × Nat)) (c c' : Coalescer), RetainInv P pt c loc →
      (∀ (idx idx' : Nat) (l l' : List Nat) (cs : Nat),
        c.coalescedMVMSets[idx]? = some l → cs ∈ l →
        c.coalescedMVMSets[idx']? = some l' → cs ∈ l' → idx = idx') →
      loc.foldlM keepIfComplete c = some c' →
      ∀ (idx idx' : Nat) (l l' : List Nat) (cs : Nat),
        c'.coalescedMVMSets[idx]? = some l → cs ∈ l →
        c'.coalescedMVMSets[idx']? = some l' → cs ∈ l' → idx = idx' := by
  intro loc
  induction loc with
  | nil =>
    intro c c' _ honce hr
    simp only [List.foldlM_nil, Option.pure_def, Option.some.injEq] at hr
    rw [← hr]
    exact honce
  | cons e rest ih =>
    intro c c' h honce hr
    simp only [List.foldlM_cons, Option.bind_eq_bind, Option.bind_eq_some] at hr
    obtain ⟨c1, h1, h2⟩ := hr
    refine ih c1 c' (keepIfComplete_retain P pt c c1 e rest h h1) ?_ h2
    unfold keepIfComplete at h1
    by_cases hcomp : c.isCompleteMVM e.2 = true
    · rw [if_pos hcomp] at h1
      simp only [Option.map_eq_some'] at h1
      obtain ⟨v, hv, hc1⟩ := h1
      rw [← hc1]
      exact pushAt_once _ _ _ _ hv (h.localFresh e (List.mem_cons_self _ _)) honce
    · rw [if_neg hcomp] at h1
      simp only [Option.some.injEq] at h1
      rw [← h1]
      exact honce

theorem coalesceHintSets_once (hints : List (List Nat)) (P : Placer) (pt : Partitioner)
    (c : Coalescer)
    (hr : hints.foldlM (coalesceHintSet P pt)
      { Coalescer.none with coalescedMVMSets := List.replicate P.nPCores [] } = some c) :
    ∀ (idx idx' : Nat) (l l' : List Nat) (cs : Nat),
      c.coalescedMVMSets[idx]? = some l → cs ∈ l →
      c.coalescedMVMSets[idx']? = some l' → cs ∈ l' → idx = idx' := by
  have key := foldlM_preserves (coalesceHintSet P pt)
    (fun (c : Coalescer) => RetainInv P pt c [] ∧
      ∀ (idx idx' : Nat) (l l' : List Nat) (cs : Nat),
        c.coalescedMVMSets[idx]? = some l → cs ∈ l →
        c.coalescedMVMSets[idx']? = some l' → cs ∈ l' → idx = idx')
    (fun b H b' hb hf => by
      refine ⟨coalesceHintSet_retain P pt b b' H hb.1 hf, ?_⟩
      unfold coalesceHintSet at hf
      simp only [Option.bind_eq_some] at hf
      obtain ⟨s, hs, hk⟩ := hf
      have h1 := foldlM_preserves (extractLocalSet P pt)
        (fun s => RetainInv P pt s.1 s.2 ∧ s.1.coalescedMVMSets = b.coalescedMVMSets)
        (fun x a x' hx hf' =>
          ⟨extractLocalSet_retain P pt x x' a hx.1 hf',
            (extractLocalSet_lists P pt x x' a hf').trans hx.2⟩)
        H (b, []) s ⟨hb.1, rfl⟩ hs
      refine keepIfComplete_once P pt s.2 s.1 b' h1.1 ?_ hk
      rw [h1.2]
      exact hb.2)
    hints _ c ?_ hr
  · exact key.2
  · refine ⟨?_, ?_⟩
    · have hflat : ∀ cs, cs ∉ (List.replicate P.nPCores ([] : List Nat)).flatten := by
        intro cs hcs
        obtain ⟨l, hl, hcl⟩ := List.mem_flatten.mp hcs
        rw [(List.mem_replicate.mp hl).2] at hcl
        exact absurd hcl (List.not_mem_nil _)
      refine ⟨?_, ?_, ?_, ?_, List.nodup_nil, ?_, ?_, ?_, ?_, ?_⟩
      · intro cs hcs
        exact absurd hcs (Nat.not_lt_zero _)
      · intro cs i m hm
        simp [Coalescer.none] at hm
      · intro cs i m j m' hm
        simp [Coalescer.none] at hm
      · intro e he
        exact absurd he (List.not_mem_nil _)
      · intro e he
        exact absurd he (List.not_mem_nil _)
      · intro e he
        exact absurd he (List.not_mem_nil _)
      · intro cs hcs
        exact absurd hcs (hflat cs)
      · intro cs i m hm
        simp [Coalescer.none] at hm
      · intro idx l cs i m hl hcs hm
        simp [Coalescer.none] at hm
    · intro idx idx' l l' cs hl hcs
      have hl1 : l ∈ List.replicate P.nPCores ([] : List Nat) := List.getElem?_mem hl
      rw [(List.mem_replicate.mp hl1).2] at hcs
      exact absurd hcs (List.not_mem_nil _)

/-- `new CoalescedMVMSet()` pushed on the vector of the core `idx` keeps the invariant of
the greedy phase. -/
theorem CoalescedInv.pushNew (P : Placer) (pt : Partitioner) (c : Coalescer) (idx : Nat)
    (v : List (List Nat)) (h : CoalescedInv P pt c)
    (hv : pushAt c.newMVMSet.2.coalescedMVMSets idx c.newMVMSet.1 = some v) :
    CoalescedInv P pt { c.newMVMSet.2 with coalescedMVMSets := v }
    ∧ (∃ l, v[idx]? = some l ∧ c.freshSet ∈ l)
    ∧ ∀ (i m : Nat), (c.newMVMSet.2.mvms c.freshSet)[i]? ≠ some (some m) := by
  have hv' : pushAt c.coalescedMVMSets idx c.freshSet = some v := hv
  obtain ⟨l0, hl0, hl0', hother⟩ := pushAt_spec _ _ _ _ hv'
  have hflat := pushAt_flatten _ _ _ _ hv'
  have hfresh : c.freshSet ∉ c.coalescedMVMSets.flatten := by
    intro hin
    exact Nat.lt_irrefl _ (h.bound _ hin)
  have hempty : ∀ (i m : Nat), (c.newMVMSet.2.mvms c.freshSet)[i]? ≠ some (some m) := by
    intro i m hm
    have hmem := List.getElem?_mem hm
    simp only [Coalescer.newMVMSet, upd_same] at hmem
    rw [List.mem_replicate] at hmem
    exact absurd hmem.2 (by simp)
  have hslot : ∀ (cs i m : Nat), (c.newMVMSet.2.mvms cs)[i]? = some (some m) →
      cs ≠ c.freshSet ∧ (c.mvms cs)[i]? = some (some m) := by
    intro cs i m hm
    by_cases hcs : cs = c.freshSet
    · rw [hcs] at hm
      exact absurd hm (hempty i m)
    · refine ⟨hcs, ?_⟩
      have : (upd c.mvms c.freshSet (List.replicate N_CONSTANT_MVMUS_PER_CORE Option.none)
          cs)[i]? = some (some m) := hm
      rw [upd_other _ _ hcs] at this
      exact this
  refine ⟨⟨?_, ?_, ?_, ?_, ?_, ?_⟩, ⟨l0 ++ [c.freshSet], hl0',
    List.mem_append_right _ (List.mem_singleton.mpr rfl)⟩, hempty⟩
  · intro cs i m hm
    exact h.link cs i m (hslot cs i m hm).2
  · intro m cs hm
    obtain ⟨i, hi⟩ := h.back m cs hm
    refine ⟨i, ?_⟩
    have hcs : cs ≠ c.freshSet := by
      intro e
      exact hfresh (e ▸ h.kept cs i m hi)
    show (upd c.mvms c.freshSet _ cs)[i]? = _
    rw [upd_other _ _ hcs]
    exact hi
  · intro cs i m hm
    exact (hflat cs).mpr (Or.inl (h.kept cs i m (hslot cs i m hm).2))
  · intro cs hcs
    show cs < c.freshSet + 1
    rcases (hflat cs).mp hcs with h1 | h1
    · exact Nat.lt_succ_of_lt (h.bound cs h1)
    · rw [h1]
      exact Nat.lt_succ_self _
  · intro idx' l cs i m hl hcs hm
    obtain ⟨hne, hm'⟩ := hslot cs i m hm
    have hl' : v[idx']? = some l := hl
    by_cases hik : idx' = idx
    · subst hik
      rw [hl0'] at hl'
      rw [← Option.some.inj hl'] at hcs
      rcases List.mem_append.mp hcs with h1 | h1
      · exact h.index idx' l0 cs i m hl0 h1 hm'
      · exact absurd (List.mem_singleton.mp h1) hne
    · rw [hother idx' hik] at hl'
      exact h.index idx' l cs i m hl' hcs hm'
  · exact pushAt_once _ _ _ _ hv' hfresh h.once

/-- `CoalescedMVMSet::add` of an MVM to a set of the vector of its core keeps the invariant
of the greedy phase. -/
theorem CoalescedInv.addMember (P : Placer) (pt : Partitioner) (c c' : Coalescer)
    (cs y pM idx : Nat) (sets : List Nat) (h : CoalescedInv P pt c)
    (hidx : P.coreIndex pt y = some idx) (hsets : c.coalescedMVMSets[idx]? = some sets)
    (hcs : cs ∈ sets) (hadd : c.addMVM cs y pM = some c') :
    CoalescedInv P pt c' ∧ c'.coalescedSet y = some cs
    ∧ ∀ x s, c.coalescedSet x = some s → c'.coalescedSet x = some s := by
  obtain ⟨_, hnone, _, hset, hlists⟩ := Coalescer.addMVM_spec c c' cs y pM hadd
  have hslot := Coalescer.addMVM_slot c c' cs y pM hadd
  have hfresh := Coalescer.addMVM_freshSet c c' cs y pM hadd
  have hmono : ∀ x s, c.coalescedSet x = some s → c'.coalescedSet x = some s := by
    intro x s hx
    have hxy : x ≠ y := by
      intro e
      rw [e, hnone] at hx
      cases hx
    rw [hset, upd_other _ _ hxy]
    exact hx
  have hy : c'.coalescedSet y = some cs := by
    rw [hset, upd_same]
  have hin : cs ∈ c.coalescedMVMSets.flatten :=
    List.mem_flatten.mpr ⟨sets, List.getElem?_mem hsets, hcs⟩
  refine ⟨⟨?_, ?_, ?_, ?_, ?_, ?_⟩, hy, hmono⟩
  · intro s i m hm
    rcases (hslot s i m).mp hm with ⟨e1, _, e3⟩ | h1
    · rw [e1, e3]
      exact hy
    · exact hmono m s (h.link s i m h1)
  · intro m s hm
    by_cases hmy : m = y
    · subst hmy
      rw [hy] at hm
      have : cs = s := Option.some.inj hm
      subst this
      exact ⟨pM, (hslot cs pM m).mpr (Or.inl ⟨rfl, rfl, rfl⟩)⟩
    · rw [hset, upd_other _ _ hmy] at hm
      obtain ⟨i, hi⟩ := h.back m s hm
      exact ⟨i, (hslot s i m).mpr (Or.inr hi)⟩
  · intro s i m hm
    rw [hlists]
    rcases (hslot s i m).mp hm with ⟨e1, _, _⟩ | h1
    · rw [e1]
      exact hin
    · exact h.kept s i m h1
  · intro s hs
    rw [hfresh]
    rw [hlists] at hs
    exact h.bound s hs
  · intro idx' l s i m hl hs hm
    rw [hlists] at hl
    rcases (hslot s i m).mp hm with ⟨e1, _, e3⟩ | h1
    · rw [e3]
      rw [e1] at hs
      rw [← h.once idx idx' sets l cs hsets hcs hl hs]
      exact hidx
    · exact h.index idx' l s i m hl hs h1
  · rw [hlists]
    exact h.once

theorem CoalesceLoop.makeAllPredecessors_isVisited (l : CoalesceLoop) (x : Nat)
    (ms : List (Option Nat)) :
    (ms.foldl (fun (l : CoalesceLoop) m =>
      match m with
      | some m => (l.makePredecessors x m).makePredecessors m x
      | Option.none => l) l).isVisited = l.isVisited := by
  have hmk : ∀ (b : CoalesceLoop) (src dst : Nat),
      (b.makePredecessors src dst).isVisited = b.isVisited := by
    intro b src dst
    unfold CoalesceLoop.makePredecessors
    refine foldl_preserves _ (fun (x : CoalesceLoop) => x.isVisited = b.isVisited) ?_ _ b rfl
    intro b1 a hb
    refine foldl_preserves _ (fun (x : CoalesceLoop) => x.isVisited = b.isVisited) ?_ _ _ ?_
    · intro b' a' hb'
      exact hb'
    · exact hb
  refine foldl_preserves _ (fun (y : CoalesceLoop) => y.isVisited = l.isVisited) ?_ _ l rfl
  intro b a hb
  cases a with
  | none => exact hb
  | some m =>
    simp only
    rw [hmk, hmk]
    exact hb

/-- The body of `if(mvm->getCoalescedSet() == NULL)`: the MVM gets a coalesced set of the
vector of its core. -/
theorem CoalesceLoop.coalesce_sets (P : Placer) (pt : Partitioner)
    (l l' : CoalesceLoop) (mvm : Nat) (h : CoalescedInv P pt l.c)
    (hr : l.coalesce P pt mvm = some l') :
    CoalescedInv P pt l'.c ∧ (l'.c.coalescedSet mvm).isSome = true
    ∧ (∀ x s, l.c.coalescedSet x = some s → l'.c.coalescedSet x = some s)
    ∧ l'.isVisited = l.isVisited := by
  unfold CoalesceLoop.coalesce at hr
  simp only [Option.bind_eq_some, Option.map_eq_some'] at hr
  obtain ⟨idx, hidx, sets, hsets, pMVMU, _, found, hfc, r, hfound, c', hadd, hl'⟩ := hr
  rw [← hl']
  generalize hX : List.foldl _ r.1 (r.1.c.mvms r.2) = X at hadd
  have hXc : X.c = r.1.c := by
    rw [← hX]
    exact CoalesceLoop.makeAllPredecessors_c r.1 mvm (r.1.c.mvms r.2)
  have hXv : X.isVisited = r.1.isVisited := by
    rw [← hX]
    exact CoalesceLoop.makeAllPredecessors_isVisited r.1 mvm (r.1.c.mvms r.2)
  rw [hXc] at hadd
  cases found with
  | some cs =>
    simp only [Option.some.injEq] at hfound
    rw [← hfound] at hadd hXv
    obtain ⟨q1, q2, q3⟩ := CoalescedInv.addMember P pt l.c c' cs mvm pMVMU idx sets h hidx
      hsets (l.findCandidate_mem mvm pMVMU cs sets hfc) hadd
    refine ⟨q1, ?_, q3, hXv⟩
    show (c'.coalescedSet mvm).isSome = true
    rw [q2]
    rfl
  | none =>
    simp only [Option.map_eq_some'] at hfound
    obtain ⟨v, hv, hr1⟩ := hfound
    rw [← hr1] at hadd hXv
    obtain ⟨p1, ⟨l1, hl1, hmem⟩, _⟩ := CoalescedInv.pushNew P pt l.c idx v h hv
    obtain ⟨q1, q2, q3⟩ := CoalescedInv.addMember P pt _ c' l.c.freshSet mvm pMVMU idx l1
      p1 hidx hl1 hmem hadd
    refine ⟨q1, ?_, fun x s hx => q3 x s hx, hXv⟩
    show (c'.coalescedSet mvm).isSome = true
    rw [q2]
    rfl

theorem VisitGrows.growsRefl (l : CoalesceLoop) : VisitGrows l l :=
  ⟨fun _ h => h, fun _ _ h => h⟩

theorem VisitGrows.growsTrans {l1 l2 l3 : CoalesceLoop} (h1 : VisitGrows l1 l2)
    (h2 : VisitGrows l2 l3) : VisitGrows l1 l3 :=
  ⟨fun x h => h2.visited x (h1.visited x h), fun x s h => h2.links x s (h1.links x s h)⟩

theorem OpClass.isMVM_isConsumer (c : OpClass) (h : c.isMVM = true) : c.isConsumer = true := by
  cases c <;> simp_all [OpClass.isMVM, OpClass.isConsumer]

theorem Graph.mem_predecessors (g : Graph) (op p : Nat) (h : p ∈ g.predecessors op) :
    ((g.cls op).isConsumer = true ∧ p ∈ g.operands op)
    ∨ ((g.cls op).isTileMemoryRead = true ∧ p ∈ g.srcs op)
    ∨ (g.cls op = OpClass.ReceiveOperation ∧ g.recvSrc op = some p) := by
  unfold Graph.predecessors at h
  rcases List.mem_append.mp h with h1 | h1
  · rcases List.mem_append.mp h1 with h2 | h2
    · split at h2
      · rename_i hc
        exact Or.inl ⟨hc, h2⟩
      · exact absurd h2 (List.not_mem_nil _)
    · split at h2
      · rename_i hc
        exact Or.inr (Or.inl ⟨hc, h2⟩)
      · exact absurd h2 (List.not_mem_nil _)
  · split at h1
    · rename_i hc
      refine Or.inr (Or.inr ⟨hc, ?_⟩)
      cases hs : g.recvSrc op with
      | none =>
        rw [hs] at h1
        exact absurd h1 (List.not_mem_nil _)
      | some q =>
        rw [hs] at h1
        simp only [Option.toList_some, List.mem_singleton] at h1
        rw [h1]
    · exact absurd h1 (List.not_mem_nil _)

/-- `Coalescer::coalesceMVMPredecessors` visits the operation and everything it reads, and
leaves every visited MVM with a coalesced set. -/
theorem coalesceMVMPredecessors_visits (g : Graph) (P : Placer) (pt : Partitioner) :
    ∀ (fuel op : Nat) (l l' : CoalesceLoop),
      CoalescedInv P pt l.c → VisitInv g l →
      coalesceMVMPredecessors g P pt fuel op l = some l' →
      CoalescedInv P pt l'.c ∧ VisitInv g l' ∧ VisitGrows l l' ∧ op ∈ l'.isVisited := by
  intro fuel
  induction fuel with
  | zero =>
    intro op l l' _ _ hr
    simp [coalesceMVMPredecessors] at hr
  | succ fuel ih =>
    intro op l l' hc hv hr
    unfold coalesceMVMPredecessors at hr
    split at hr
    · rename_i hvis
      simp only [Option.some.injEq] at hr
      rw [← hr]
      exact ⟨hc, hv, VisitGrows.growsRefl l, hvis⟩
    · simp only [Option.bind_eq_some, Option.map_eq_some'] at hr
      obtain ⟨l1, h1, l2, h2, l3, h3, hl'⟩ := hr
      have hfold : ∀ (ops : List Nat) (a b : CoalesceLoop),
          CoalescedInv P pt a.c → VisitInv g a →
          ops.foldlM (fun l predecessor =>
            coalesceMVMPredecessors g P pt fuel predecessor l) a = some b →
          CoalescedInv P pt b.c ∧ VisitInv g b ∧ VisitGrows a b
            ∧ ∀ p, p ∈ ops → p ∈ b.isVisited := by
        intro ops
        induction ops with
        | nil =>
          intro a b ha1 ha2 hb
          simp only [List.foldlM_nil, Option.pure_def, Option.some.injEq] at hb
          rw [← hb]
          exact ⟨ha1, ha2, VisitGrows.growsRefl a, fun p hp => absurd hp (List.not_mem_nil p)⟩
        | cons p rest ihr =>
          intro a b ha1 ha2 hb
          simp only [List.foldlM_cons, Option.bind_eq_bind, Option.bind_eq_some] at hb
          obtain ⟨a1, hp1, hb⟩ := hb
          obtain ⟨x1, x2, x3, x4⟩ := ih p a a1 ha1 ha2 hp1
          obtain ⟨y1, y2, y3, y4⟩ := ihr a1 b x1 x2 hb
          refine ⟨y1, y2, x3.growsTrans y3, ?_⟩
          intro q hq
          rcases List.mem_cons.mp hq with e | hq'
          · rw [e]
            exact y3.visited p x4
          · exact y4 q hq'
      have q1 : CoalescedInv P pt l1.c ∧ VisitInv g l1 ∧ VisitGrows l l1
          ∧ ((g.cls op).isConsumer = true → ∀ p, p ∈ g.operands op → p ∈ l1.isVisited)
          ∧ ((g.cls op).isMVM = true → (l1.c.coalescedSet op).isSome = true) := by
        by_cases hcon : (g.cls op).isConsumer = true
        · rw [if_pos hcon] at h1
          simp only [Option.bind_eq_some] at h1
          obtain ⟨l0, h0, h1⟩ := h1
          obtain ⟨x1, x2, x3, x4⟩ := hfold _ _ _ hc hv h0
          by_cases hm : (g.cls op).isMVM = true
          · rw [if_pos hm] at h1
            by_cases hn : (l0.c.coalescedSet op).isNone = true
            · rw [if_pos hn] at h1
              obtain ⟨y1, y2, y3, y4⟩ := CoalesceLoop.coalesce_sets P pt l0 l1 op x1 h1
              have hg : VisitGrows l0 l1 := ⟨fun x hx => by rw [y4]; exact hx, y3⟩
              refine ⟨y1, ⟨?_, ?_⟩, x3.growsTrans hg, ?_, fun _ => y2⟩
              · intro x hx p hp
                rw [y4] at hx ⊢
                exact x2.closed x hx p hp
              · intro x hx hxm
                rw [y4] at hx
                obtain ⟨s, hs⟩ := Option.isSome_iff_exists.mp (x2.joined x hx hxm)
                rw [y3 x s hs]
                rfl
              · intro _ p hp
                rw [y4]
                exact x4 p hp
            · rw [if_neg hn] at h1
              simp only [Option.some.injEq] at h1
              rw [← h1]
              refine ⟨x1, x2, x3, fun _ => x4, fun _ => ?_⟩
              cases hs : l0.c.coalescedSet op with
              | none =>
                rw [hs] at hn
                exact absurd rfl hn
              | some s => rfl
          · rw [if_neg hm] at h1
            simp only [Option.some.injEq] at h1
            rw [← h1]
            exact ⟨x1, x2, x3, fun _ => x4, fun h => absurd h hm⟩
        · rw [if_neg hcon] at h1
          simp only [Option.some.injEq] at h1
          rw [← h1]
          exact ⟨hc, hv, VisitGrows.growsRefl l, fun h => absurd h hcon,
            fun h => absurd (OpClass.isMVM_isConsumer _ h) hcon⟩
      obtain ⟨a1, a2, a3, a4, a5⟩ := q1
      have q2 : CoalescedInv P pt l2.c ∧ VisitInv g l2 ∧ VisitGrows l1 l2
          ∧ ((g.cls op).isTileMemoryRead = true → ∀ p, p ∈ g.srcs op → p ∈ l2.isVisited) := by
        by_cases hrd : (g.cls op).isTileMemoryRead = true
        · rw [if_pos hrd] at h2
          obtain ⟨x1, x2, x3, x4⟩ := hfold _ _ _ a1 a2 h2
          exact ⟨x1, x2, x3, fun _ => x4⟩
        · rw [if_neg hrd] at h2
          simp only [Option.some.injEq] at h2
          rw [← h2]
          exact ⟨a1, a2, VisitGrows.growsRefl l1, fun h => absurd h hrd⟩
      obtain ⟨b1, b2, b3, b4⟩ := q2
      have q3 : CoalescedInv P pt l3.c ∧ VisitInv g l3 ∧ VisitGrows l2 l3
          ∧ (g.cls op = OpClass.ReceiveOperation → ∀ p, g.recvSrc op = some p →
              p ∈ l3.isVisited) := by
        by_cases hrc : g.cls op = OpClass.ReceiveOperation
        · rw [if_pos hrc] at h3
          simp only [Option.bind_eq_some] at h3
          obtain ⟨p, hp, h3⟩ := h3
          obtain ⟨x1, x2, x3, x4⟩ := ih p l2 l3 b1 b2 h3
          refine ⟨x1, x2, x3, ?_⟩
          intro _ q hq
          rw [hp] at hq
          rw [← Option.some.inj hq]
          exact x4
        · rw [if_neg hrc] at h3
          simp only [Option.some.injEq] at h3
          rw [← h3]
          exact ⟨b1, b2, VisitGrows.growsRefl l2, fun h => absurd h hrc⟩
      obtain ⟨c1, c2, c3, c4⟩ := q3
      rw [← hl']
      refine ⟨c1, ⟨?_, ?_⟩, ⟨?_, ?_⟩, ?_⟩
      · intro x hx p hp
        show p ∈ setInsert l3.isVisited op
        have hx' : x ∈ setInsert l3.isVisited op := hx
        rcases mem_setInsert.mp hx' with e | hx3
        · rw [e] at hp
          apply mem_setInsert.mpr
          right
          rcases g.mem_predecessors op p hp with ⟨k1, k2⟩ | ⟨k1, k2⟩ | ⟨k1, k2⟩
          · exact c3.visited p (b3.visited p (a4 k1 p k2))
          · exact c3.visited p (b4 k1 p k2)
          · exact c4 k1 p k2
        · exact mem_setInsert.mpr (Or.inr (c2.closed x hx3 p hp))
      · intro x hx hxm
        show (l3.c.coalescedSet x).isSome = true
        have hx' : x ∈ setInsert l3.isVisited op := hx
        rcases mem_setInsert.mp hx' with e | hx3
        · rw [e] at hxm ⊢
          obtain ⟨s, hs⟩ := Option.isSome_iff_exists.mp (a5 hxm)
          rw [c3.links op s (b3.links op s hs)]
          rfl
        · exact c2.joined x hx3 hxm
      · intro x hx
        show x ∈ setInsert l3.isVisited op
        exact mem_setInsert.mpr (Or.inr (c3.visited x (b3.visited x (a3.visited x hx))))
      · intro x s hx
        exact c3.links x s (b3.links x s (a3.links x s hx))
      · show op ∈ setInsert l3.isVisited op
        exact mem_setInsert.mpr (Or.inl rfl)

theorem extractMVMRelation_isVisited (g : Graph) (t : Nat → Option (List Nat))
    (l : CoalesceLoop) (op : Nat) :
    (extractMVMRelation g t l op).isVisited = l.isVisited := by
  unfold extractMVMRelation
  split
  · split
    · exact foldl_preserves (fun (l : CoalesceLoop) predMVM => l.relate predMVM op)
        (fun (x : CoalesceLoop) => x.isVisited = l.isVisited) (fun b a hb => hb) _ l rfl
    · rfl
  · rfl

theorem VisitInv.ancestor (g : Graph) (l : CoalesceLoop) (h : VisitInv g l) (a b : Nat)
    (hab : g.Ancestor a b) : b ∈ l.isVisited → a ∈ l.isVisited := by
  unfold Graph.Ancestor at hab
  induction hab with
  | single h1 =>
    intro hb
    exact h.closed _ hb a h1
  | tail _ h2 ih =>
    intro hb
    exact ih (h.closed _ hb _ h2)

/-- The state after the greedy phase of `Coalescer::coalesceMVMOperations`: the invariant
of the coalesced sets holds, the visited operations are closed under the edges, every
visited MVM has a set, and every ReadOutput of the model is visited. -/
theorem coalesceMVMOperations_visits (g : Graph) (P : Placer) (pt : Partitioner)
    (fuel : Nat) (hints : List (List Nat)) (l : CoalesceLoop)
    (hr : coalesceMVMOperations g P pt fuel hints = some l) :
    CoalescedInv P pt l.c ∧ VisitInv g l
    ∧ ∀ out, out ∈ g.operations → g.cls out = OpClass.ReadOutputOperation →
        out ∈ l.isVisited := by
  unfold coalesceMVMOperations at hr
  simp only [Option.bind_eq_some] at hr
  obtain ⟨c, hc, t, _, hl⟩ := hr
  have hinv0 : CoalescedInv P pt c :=
    CoalescedInv.afterHints hints P pt c hc (coalesceHintSets_once hints P pt c hc)
  have h2 : (g.operations.foldl (extractMVMRelation g t)
      { c := c, isVisited := [], preds := fun _ => [], succs := fun _ => [] }).c = c :=
    foldl_preserves (extractMVMRelation g t) (fun (x : CoalesceLoop) => x.c = c)
      (fun b a hb => by
        show (extractMVMRelation g t b a).c = c
        rw [extractMVMRelation_c]
        exact hb) _ _ rfl
  have h3 : (g.operations.foldl (extractMVMRelation g t)
      { c := c, isVisited := [], preds := fun _ => [], succs := fun _ => [] }).isVisited
      = [] :=
    foldl_preserves (extractMVMRelation g t) (fun (x : CoalesceLoop) => x.isVisited = [])
      (fun b a hb => by
        show (extractMVMRelation g t b a).isVisited = []
        rw [extractMVMRelation_isVisited]
        exact hb) _ _ rfl
  generalize g.operations.foldl (extractMVMRelation g t)
      { c := c, isVisited := [], preds := fun _ => [], succs := fun _ => [] } = l0
    at hl h2 h3
  have key := foldlM_prefix_invariant
    (fun (l : CoalesceLoop) (op : Nat) =>
      if g.cls op = OpClass.ReadOutputOperation then coalesceMVMPredecessors g P pt fuel op l
      else some l)
    (fun (s : CoalesceLoop) (done : List Nat) =>
      CoalescedInv P pt s.c ∧ VisitInv g s
      ∧ ∀ out, out ∈ done → g.cls out = OpClass.ReadOutputOperation → out ∈ s.isVisited)
    g.operations [] l0 l
    ⟨by rw [h2]; exact hinv0,
      ⟨fun x hx => by rw [h3] at hx; exact absurd hx (List.not_mem_nil x),
        fun x hx => by rw [h3] at hx; exact absurd hx (List.not_mem_nil x)⟩,
      fun out ho => absurd ho (List.not_mem_nil out)⟩
    (by
      intro b done op b1 _ ⟨q1, q2, q3⟩ hstep
      simp only at hstep
      by_cases hro : g.cls op = OpClass.ReadOutputOperation
      · rw [if_pos hro] at hstep
        obtain ⟨x1, x2, x3, x4⟩ := coalesceMVMPredecessors_visits g P pt fuel op b b1 q1 q2
          hstep
        refine ⟨x1, x2, ?_⟩
        intro out ho hcls
        rcases List.mem_append.mp ho with h1 | h1
        · exact x3.visited out (q3 out h1 hcls)
        · rw [List.mem_singleton.mp h1]
          exact x4
      · rw [if_neg hro] at hstep
        simp only [Option.some.injEq] at hstep
        rw [← hstep]
        refine ⟨q1, q2, ?_⟩
        intro out ho hcls
        rcases List.mem_append.mp ho with h1 | h1
        · exact q3 out h1 hcls
        · rw [List.mem_singleton.mp h1] at hcls
          exact absurd hcls hro)
    hl
  simpa using key

/-- C37: the coalescer runs on an inference model (`Coalescer::Coalescer` calls
`coalesceMVMOperations`) with a placer whose physical core numbers are below
`N_CORES_PER_TILE` and whose core indices fit an `unsigned int`, and finishes. Every MVM
from which a path of operand, tile-memory-source or Send-to-Receive edges leads to a
ReadOutput of the model has a coalesced set: the MVM is in a slot of the set, the set is in
the vector of a core, and no other set holds the MVM. Any two members of one coalesced set
are on the same physical tile and the same physical core. -/
theorem output_ancestor_mvm_is_in_one_coalesced_set_on_one_core (g : Graph) (P : Placer)
    (pt : Partitioner) (fuel : Nat) (hints : List (List Nat)) (l : CoalesceLoop)
    (hcore : ∀ pCore, pCore ∈ P.vcore2pcore → pCore < N_CORES_PER_TILE)
    (htile : ∀ pTile, pTile ∈ P.vtile2ptile →
      pTile * N_CORES_PER_TILE + N_CORES_PER_TILE ≤ UINT_MOD)
    (h : Coalescer.create g P pt fuel ModelType.INFERENCE hints = some l) :
    (∀ m out, out ∈ g.operations → g.cls out = OpClass.ReadOutputOperation →
        g.Ancestor m out → (g.cls m).isMVM = true →
        ∃ (cs i : Nat), l.c.coalescedSet m = some cs ∧ (l.c.mvms cs)[i]? = some (some m)
          ∧ cs ∈ l.c.coalescedMVMSets.flatten
          ∧ ∀ (cs' j : Nat), (l.c.mvms cs')[j]? = some (some m) → cs' = cs)
    ∧ (∀ (cs i j m m' : Nat), (l.c.mvms cs)[i]? = some (some m) →
        (l.c.mvms cs)[j]? = some (some m') →
        ∃ pTile pCore, P.getPTile pt m = some pTile ∧ P.getPCore pt m = some pCore
          ∧ P.getPTile pt m' = some pTile ∧ P.getPCore pt m' = some pCore) := by
  unfold Coalescer.create at h
  rw [if_pos rfl] at h
  obtain ⟨hinv, hvis, hout⟩ := coalesceMVMOperations_visits g P pt fuel hints l h
  constructor
  · intro m out ho hcls hanc hm
    have hmv : m ∈ l.isVisited := hvis.ancestor g l m out hanc (hout out ho hcls)
    obtain ⟨cs, hcs⟩ := Option.isSome_iff_exists.mp (hvis.joined m hmv hm)
    obtain ⟨i, hi⟩ := hinv.back m cs hcs
    refine ⟨cs, i, hcs, hi, hinv.kept cs i m hi, ?_⟩
    intro cs' j hj
    have := hinv.link cs' j m hj
    rw [hcs] at this
    exact (Option.some.inj this).symm
  · intro cs i j m m' hm hm'
    obtain ⟨l0, hl0, hcl0⟩ := List.mem_flatten.mp (hinv.kept cs i m hm)
    obtain ⟨idx, hidx⟩ := List.mem_iff_getElem?.mp hl0
    have e1 := hinv.index idx l0 cs i m hidx hcl0 hm
    have e2 := hinv.index idx l0 cs j m' hidx hcl0 hm'
    unfold Placer.coreIndex at e1 e2
    simp only [Option.bind_eq_some, Option.map_eq_some'] at e1 e2
    obtain ⟨pTile, ht, pCore, hc, e1⟩ := e1
    obtain ⟨pTile', ht', pCore', hc', e2⟩ := e2
    have hb : ∀ op pT pC, P.getPTile pt op = some pT → P.getPCore pt op = some pC →
        pC < N_CORES_PER_TILE ∧ pT * N_CORES_PER_TILE + N_CORES_PER_TILE ≤ UINT_MOD := by
      intro op pT pC h1 h2
      unfold Placer.getPTile at h1
      unfold Placer.getPCore at h2
      simp only [Option.bind_eq_some] at h1 h2
      obtain ⟨vt, _, h1⟩ := h1
      obtain ⟨vc, _, h2⟩ := h2
      exact ⟨hcore pC (List.getElem?_mem h2), htile pT (List.getElem?_mem h1)⟩
    obtain ⟨b1, b2⟩ := hb m pTile pCore ht hc
    obtain ⟨b3, b4⟩ := hb m' pTile' pCore' ht' hc'
    have hsame : pTile = pTile' ∧ pCore = pCore' := by
      rw [← e2] at e1
      unfold N_CORES_PER_TILE UINT_MOD at *
      omega
    refine ⟨pTile, pCore, ht, hc, ?_, ?_⟩
    · rw [ht', hsame.1]
    · rw [hc', hsame.2]

/-- Witness for C37: the program of `twoSumsGraph` compiled with coalescing. The MVM 2
reaches the ReadOutput 16 through the ADD 4, the Store 13, the Send 14 and the Receive 15;
it is in the coalesced set 2 and in no other set. -/
theorem output_ancestor_mvm_is_in_one_coalesced_set_on_one_core_witness :
    ∃ st P ms l,
      Partitioner.create twoSumsGraph 64 ModelType.INFERENCE [0, 1] twoSumsTileUsers = some st
      ∧ Placer.create ModelType.INFERENCE
          { nVMVMUs := st.pt.nVMVMUs, nVCores := st.pt.nVCores, nVTiles := st.pt.nVTiles,
            vmvmu2vcore := st.pt.vmvmu2vcore, vcore2vtile := st.pt.vcore2vtile } = some P
      ∧ MemoryAllocator.create st = some ms
      ∧ Coalescer.create ms.g P ms.pt 64 ModelType.INFERENCE [[2], [3]] = some l
      ∧ (∀ pCore, pCore ∈ P.vcore2pcore → pCore < N_CORES_PER_TILE)
      ∧ (∀ pTile, pTile ∈ P.vtile2ptile →
          pTile * N_CORES_PER_TILE + N_CORES_PER_TILE ≤ UINT_MOD)
      ∧ 16 ∈ ms.g.operations ∧ ms.g.cls 16 = OpClass.ReadOutputOperation
      ∧ ms.g.Ancestor 2 16 ∧ (ms.g.cls 2).isMVM = true
      ∧ l.c.coalescedSet 2 = some 2
      ∧ ∃ (cs i : Nat), l.c.coalescedSet 2 = some cs ∧ (l.c.mvms cs)[i]? = some (some 2)
          ∧ cs ∈ l.c.coalescedMVMSets.flatten
          ∧ ∀ (cs' j : Nat), (l.c.mvms cs')[j]? = some (some 2) → cs' = cs := by
  have h : ((Partitioner.create twoSumsGraph 64 ModelType.INFERENCE [0, 1]
      twoSumsTileUsers).bind fun st =>
    (Placer.create ModelType.INFERENCE
      { nVMVMUs := st.pt.nVMVMUs, nVCores := st.pt.nVCores, nVTiles := st.pt.nVTiles,
        vmvmu2vcore := st.pt.vmvmu2vcore, vcore2vtile := st.pt.vcore2vtile }).bind fun P =>
    (MemoryAllocator.create st).bind fun ms =>
    (Coalescer.create ms.g P ms.pt 64 ModelType.INFERENCE [[2], [3]]).bind fun l =>
      if (∀ pCore, pCore ∈ P.vcore2pcore → pCore < N_CORES_PER_TILE)
          ∧ (∀ pTile, pTile ∈ P.vtile2ptile →
              pTile * N_CORES_PER_TILE + N_CORES_PER_TILE ≤ UINT_MOD)
          ∧ 16 ∈ ms.g.operations ∧ ms.g.cls 16 = OpClass.ReadOutputOperation
          ∧ (ms.g.cls 2).isMVM = true
          ∧ l.c.coalescedSet 2 = some 2
          ∧ 2 ∈ ms.g.predecessors 4 ∧ 4 ∈ ms.g.predecessors 13
          ∧ 13 ∈ ms.g.predecessors 14 ∧ 14 ∈ ms.g.predecessors 15
          ∧ 15 ∈ ms.g.predecessors 16 then some (st, P, ms, l)
      else none).isSome = true := by decide
  obtain ⟨r, hr⟩ := Option.isSome_iff_exists.mp h
  simp only [Option.bind_eq_some] at hr
  obtain ⟨st, hst, P, hP, ms, hms, l, hl, hr⟩ := hr
  split at hr
  · rename_i hc
    obtain ⟨c1, c2, c3, c4, c5, c6, e1, e2, e3, e4, e5⟩ := hc
    have hanc : ms.g.Ancestor 2 16 :=
      ((((Relation.TransGen.single e1).tail e2).tail e3).tail e4).tail e5
    exact ⟨st, P, ms, l, hst, hP, hms, hl, c1, c2, c3, c4, hanc, c5, c6,
      (output_ancestor_mvm_is_in_one_coalesced_set_on_one_core ms.g P ms.pt 64 [[2], [3]] l
        c1 c2 hl).1 2 16 c3 c4 hanc c5⟩
  · cases hr

/-! ## Register allocator: live register ranges are disjoint -/

theorem CoreAllocator.allocateFrom_window (a : CoreAllocator) (size : Nat)
    (h2 : size ≤ 1536) :
    ∀ fuel i p, a.allocateFrom size (1536 - size) fuel i = some p →
      (p.1 = OUT_OF_REGISTERS ∧ p.2 = a)
      ∨ ∃ i0, p.1 = REGISTER_FILE_START_ADDRESS + i0 ∧ i0 + size ≤ 1536
          ∧ (∀ k, i0 ≤ k → k < i0 + size → a.memPool k = false)
          ∧ p.2 = a.setRange i0 (i0 + size) := by
  have hstart : REGISTER_FILE_START_ADDRESS = 1536 := by decide
  intro fuel
  induction fuel with
  | zero =>
    intro i p h
    simp [CoreAllocator.allocateFrom] at h
  | succ fuel ih =>
    intro i p h
    unfold CoreAllocator.allocateFrom at h
    by_cases hi : i ≤ 1536 - size
    · rw [if_pos hi] at h
      simp only [Option.bind_eq_some] at h
      obtain ⟨j, hj, h⟩ := h
      by_cases hji : j = i + size
      · rw [if_pos hji] at h
        simp only [Option.some.injEq] at h
        right
        refine ⟨i, ?_, by omega, ?_, ?_⟩
        · rw [← h]
          show (REGISTER_FILE_START_ADDRESS + i) % UINT_MOD = _
          rw [hstart]
          unfold UINT_MOD
          omega
        · intro k hk1 hk2
          exact (a.scan_first size i j hj).2.2.1 k hk1 (by omega)
        · rw [← h, hji]
      · rw [if_neg hji] at h
        exact ih (j + 1) p h
    · rw [if_neg hi] at h
      simp only [Option.some.injEq] at h
      left
      rw [← h]
      exact ⟨rfl, rfl⟩

/-- What a completed `allocate` returns: `OUT_OF_REGISTERS` with the pool unchanged, or the
start of a window inside the general register file that was free and is now set. -/
theorem CoreAllocator.allocate_window (a : CoreAllocator) (size : Nat)
    (p : Nat × CoreAllocator) (hsize : size ≤ REGISTER_FILE_SIZE)
    (h : a.allocate size = some p) :
    (∀ k, a.memPool k = true → p.2.memPool k = true)
    ∧ (p.1 ≠ OUT_OF_REGISTERS →
        REGISTER_FILE_START_ADDRESS ≤ p.1
        ∧ p.1 + size ≤ REGISTER_FILE_START_ADDRESS + REGISTER_FILE_SIZE
        ∧ ∀ k, p.1 ≤ REGISTER_FILE_START_ADDRESS + k →
            REGISTER_FILE_START_ADDRESS + k < p.1 + size →
            a.memPool k = false ∧ p.2.memPool k = true) := by
  have hreg : REGISTER_FILE_SIZE = 1536 := by decide
  have hstart : REGISTER_FILE_START_ADDRESS = 1536 := by decide
  rw [hreg] at hsize
  have hlast : (REGISTER_FILE_SIZE + UINT_MOD - size) % UINT_MOD = 1536 - size := by
    rw [hreg]
    unfold UINT_MOD
    omega
  unfold CoreAllocator.allocate at h
  rw [hlast] at h
  rcases a.allocateFrom_window size hsize _ 0 p h with ⟨h1, h2⟩ | ⟨i0, h1, h2, h3, h4⟩
  · refine ⟨?_, fun hne => absurd h1 hne⟩
    intro k hk
    rw [h2]
    exact hk
  · constructor
    · intro k hk
      rw [h4]
      show (if i0 ≤ k ∧ k < i0 + size then true else a.memPool k) = true
      split
      · rfl
      · exact hk
    · intro _
      rw [h1, hreg, hstart]
      refine ⟨by omega, by omega, ?_⟩
      intro k hk1 hk2
      refine ⟨h3 k (by omega) (by omega), ?_⟩
      rw [h4]
      show (if i0 ≤ k ∧ k < i0 + size then true else a.memPool k) = true
      rw [if_pos ⟨by omega, by omega⟩]

theorem CoreAllocator.free_spec (a a' : CoreAllocator) (reg size : Nat)
    (hreg : REGISTER_FILE_START_ADDRESS ≤ reg) (hlt : reg < UINT_MOD)
    (h : a.free reg size = some a') :
    ∀ k, a'.memPool k
      = if reg ≤ REGISTER_FILE_START_ADDRESS + k ∧ REGISTER_FILE_START_ADDRESS + k < reg + size
        then false else a.memPool k := by
  have hstart : REGISTER_FILE_START_ADDRESS = 1536 := by decide
  have hpos : (reg + UINT_MOD - REGISTER_FILE_START_ADDRESS) % UINT_MOD
      = reg - REGISTER_FILE_START_ADDRESS := by
    rw [hstart] at hreg ⊢
    unfold UINT_MOD at hlt ⊢
    omega
  unfold CoreAllocator.free at h
  simp only [hpos] at h
  split at h
  · simp only [Option.some.injEq] at h
    intro k
    rw [← h]
    dsimp only
    by_cases hk : reg ≤ REGISTER_FILE_START_ADDRESS + k
        ∧ REGISTER_FILE_START_ADDRESS + k < reg + size
    · rw [if_pos hk, if_pos ⟨by omega, by omega⟩]
    · rw [if_neg hk, if_neg (by omega)]
  · cases h

/-- The window that a successful `allocate` returns in a pool whose first bit is set. -/
theorem RegWindow.of_allocate (lo : Nat) (a : CoreAllocator) (size : Nat)
    (p : Nat × CoreAllocator) (hlo : lo ≤ 1) (hlo2 : lo ≤ size)
    (hsize : size ≤ REGISTER_FILE_SIZE) (h0 : a.memPool 0 = true)
    (h : a.allocate size = some p) (hne : p.1 ≠ OUT_OF_REGISTERS) :
    RegWindow lo p.2 p.1 size
    ∧ ∀ k, p.1 ≤ REGISTER_FILE_START_ADDRESS + k →
        REGISTER_FILE_START_ADDRESS + k < p.1 + size → a.memPool k = false := by
  obtain ⟨_, hw⟩ := a.allocate_window size p hsize h
  obtain ⟨w1, w2, w3⟩ := hw hne
  have hk0 : ∀ k, p.1 ≤ REGISTER_FILE_START_ADDRESS + k →
      REGISTER_FILE_START_ADDRESS + k < p.1 + size → k ≠ 0 := by
    intro k hk1 hk2 e
    subst e
    have := (w3 0 hk1 hk2).1
    rw [h0] at this
    cases this
  refine ⟨⟨?_, w2, fun k hk1 hk2 => ⟨(w3 k hk1 hk2).2, hk0 k hk1 hk2⟩⟩,
    fun k hk1 hk2 => (w3 k hk1 hk2).1⟩
  by_cases hl : lo = 0
  · omega
  · have hl1 : lo = 1 := by omega
    have := hk0 (p.1 - REGISTER_FILE_START_ADDRESS) (by omega) (by omega)
    omega

theorem RegsInv.held_lt {f0 lo sp : Nat} {ra0 : Nat → Option Nat} {ops : List Nat}
    {l : DataLoop} (h : RegsInv f0 lo sp ra0 ops l) (hops : ∀ x, x ∈ ops → x < f0)
    (x : Nat) (hx : l.holds x) : x < l.g.fresh := by
  rcases hx with h1 | ⟨p, h1⟩
  · have := hops x (h.live x h1)
    have := h.fresh_le
    omega
  · exact (h.reload p x h1).2

/-- The invariant of the registers carries over to a state in which the operations that
hold registers are among those that held registers before, with their registers, lengths
and set bits, and in which a register assigned since is the spill address register of a
new SetImmediate. -/
theorem RegsInv.transfer {f0 lo sp : Nat} {ra0 : Nat → Option Nat} {ops : List Nat}
    (l l' : DataLoop) (h : RegsInv f0 lo sp ra0 ops l) (hops : ∀ x, x ∈ ops → x < f0)
    (hfresh : l.g.fresh ≤ l'.g.fresh)
    (hlen : ∀ i, i < l.g.fresh → l'.g.length i = l.g.length i)
    (hcls : ∀ i, i < l.g.fresh → l'.g.cls i = l.g.cls i)
    (hreg : ∀ i, i < l.g.fresh → l'.ra.op2reg i = l.ra.op2reg i)
    (hnew : ∀ i reg, l.g.fresh ≤ i → l'.ra.op2reg i = some reg → ra0 i = none →
      i < l'.g.fresh ∧ l'.g.cls i = OpClass.SetImmediateOperation ∧ reg = sp)
    (hback : ∀ p r, l'.spillTracker.producer2reload p = some r →
      l'.spillTracker.reload2producer r = some p)
    (hforth : ∀ p r, l'.spillTracker.reload2producer r = some p →
      l'.spillTracker.producer2reload p = some r)
    (hsub : ∀ p r, l'.spillTracker.producer2reload p = some r →
      l.spillTracker.producer2reload p = some r)
    (hnodup : l'.liveNow.Nodup)
    (hlive : ∀ x, x ∈ l'.liveNow → x ∈ l.liveNow)
    (hspilled : ∀ p St, l'.spillTracker.producer2spill p = some St →
      l.spillTracker.producer2spill p = some St
      ∨ (St < l'.g.fresh ∧ lo ≤ l'.g.length St ∧ l'.g.length St ≤ REGISTER_FILE_SIZE))
    (hpool0 : l'.allocator.memPool 0 = true)
    (hpool : ∀ x reg, l'.holds x → l.ra.op2reg x = some reg →
      ∀ k, reg ≤ REGISTER_FILE_START_ADDRESS + k →
        REGISTER_FILE_START_ADDRESS + k < reg + l.g.length x →
        l.allocator.memPool k = true → l'.allocator.memPool k = true) :
    RegsInv f0 lo sp ra0 ops l' := by
  have hheld : ∀ x, l'.holds x → l.holds x := by
    intro x hx
    rcases hx with h1 | ⟨p, h1⟩
    · exact Or.inl (hlive x h1)
    · exact Or.inr ⟨p, hsub p x h1⟩
  have hlt : ∀ x, l'.holds x → x < l.g.fresh := fun x hx => h.held_lt hops x (hheld x hx)
  refine ⟨le_trans h.fresh_le hfresh, hpool0, hback, hforth, hnodup,
    fun x hx => h.live x (hlive x hx), ?_, ?_, ?_, ?_, ?_, ?_⟩
  · intro p r hp
    have := h.reload p r (hsub p r hp)
    exact ⟨this.1, lt_of_lt_of_le this.2 hfresh⟩
  · intro p St hp
    rcases hspilled p St hp with h1 | h1
    · obtain ⟨k1, k2, k3⟩ := h.spilled p St h1
      rw [hlen St k1]
      exact ⟨lt_of_lt_of_le k1 hfresh, k2, k3⟩
    · exact h1
  · intro x hx
    have hxf : x < l.g.fresh := lt_of_lt_of_le (hops x hx) h.fresh_le
    rw [hlen x hxf]
    exact h.sized x hx
  · intro x hx
    obtain ⟨reg, hr, hw⟩ := h.range x (hheld x hx)
    refine ⟨reg, ?_, ?_⟩
    · rw [hreg x (hlt x hx)]
      exact hr
    · rw [hlen x (hlt x hx)]
      exact ⟨hw.low, hw.high, fun k hk1 hk2 =>
        ⟨hpool x reg hx hr k hk1 hk2 (hw.bits k hk1 hk2).1, (hw.bits k hk1 hk2).2⟩⟩
  · intro x y rx ry hx hy hxy hrx hry
    rw [hreg x (hlt x hx)] at hrx
    rw [hreg y (hlt y hy)] at hry
    rw [hlen x (hlt x hx), hlen y (hlt y hy)]
    exact h.disj x y rx ry (hheld x hx) (hheld y hy) hxy hrx hry
  · intro x reg hra hx
    by_cases hxf : x < l.g.fresh
    · rw [hreg x hxf] at hx
      obtain ⟨_, k2⟩ := h.assigned x reg hra hx
      rw [hcls x hxf, hlen x hxf]
      exact ⟨lt_of_lt_of_le hxf hfresh, k2⟩
    · obtain ⟨k1, k2, k3⟩ := hnew x reg (by omega) hx hra
      have := h.fresh_le
      exact ⟨k1, Or.inl ⟨by omega, k2, k3⟩⟩

/-- A register window that was just allocated goes to the operation `x`, which begins to
hold registers. -/
theorem RegsInv.acquire {f0 lo sp : Nat} {ra0 : Nat → Option Nat} {ops : List Nat}
    (l l' : DataLoop) (x reg : Nat) (h : RegsInv f0 lo sp ra0 ops l)
    (hfresh : l'.g.fresh = l.g.fresh)
    (hlen : ∀ i, l'.g.length i = l.g.length i)
    (hcls : ∀ i, l'.g.cls i = l.g.cls i)
    (halloc : l'.allocator = l.allocator)
    (hnone : l.ra.op2reg x = none)
    (hreg : l'.ra.op2reg = upd l.ra.op2reg x (some reg))
    (hwin : FreshWindow lo l reg (l.g.length x))
    (hxf : x < l.g.fresh)
    (hheld : ∀ y, l'.holds y → y = x ∨ l.holds y)
    (hback : ∀ p r, l'.spillTracker.producer2reload p = some r →
      l'.spillTracker.reload2producer r = some p)
    (hforth : ∀ p r, l'.spillTracker.reload2producer r = some p →
      l'.spillTracker.producer2reload p = some r)
    (hreload : ∀ p r, l'.spillTracker.producer2reload p = some r → f0 ≤ r ∧ r < l.g.fresh)
    (hnodup : l'.liveNow.Nodup)
    (hlive : ∀ y, y ∈ l'.liveNow → y ∈ ops)
    (hspill : l'.spillTracker.producer2spill = l.spillTracker.producer2spill) :
    RegsInv f0 lo sp ra0 ops l' := by
  have hold : ∀ y, y ≠ x → l'.ra.op2reg y = l.ra.op2reg y := by
    intro y hy
    rw [hreg, upd_other _ _ hy]
  have hxr : l'.ra.op2reg x = some reg := by
    rw [hreg, upd_same]
  have hne : ∀ y, l.holds y → y ≠ x := by
    intro y hy e
    obtain ⟨r, hr, _⟩ := h.range y hy
    rw [e, hnone] at hr
    cases hr
  refine ⟨by rw [hfresh]; exact h.fresh_le, by rw [halloc]; exact h.pool0, hback, hforth,
    hnodup, hlive, ?_, ?_, ?_, ?_, ?_, ?_⟩
  · intro p r hp
    rw [hfresh]
    exact hreload p r hp
  · intro p St hp
    rw [hspill] at hp
    rw [hfresh, hlen]
    exact h.spilled p St hp
  · intro y hy
    rw [hlen]
    exact h.sized y hy
  · intro y hy
    rw [halloc, hlen]
    by_cases hyx : y = x
    · rw [hyx]
      exact ⟨reg, hxr, hwin.window⟩
    · rcases hheld y hy with e | hy'
      · exact absurd e hyx
      · rw [hold y hyx]
        exact h.range y hy'
  · intro y z ry rz hy hz hyz hry hrz
    rw [hlen, hlen]
    by_cases hyx : y = x
    · have hzx : z ≠ x := fun e => hyz (hyx.trans e.symm)
      rcases hheld z hz with e | hz'
      · exact absurd e hzx
      · rw [hyx, hxr] at hry
        rw [hold z hzx] at hrz
        rw [hyx, ← Option.some.inj hry]
        exact hwin.apart z rz hz' hrz
    · rcases hheld y hy with e | hy'
      · exact absurd e hyx
      · rw [hold y hyx] at hry
        by_cases hzx : z = x
        · rw [hzx, hxr] at hrz
          rw [hzx, ← Option.some.inj hrz]
          intro k hk
          exact hwin.apart y ry hy' hry k ⟨hk.2.2.1, hk.2.2.2, hk.1, hk.2.1⟩
        · rcases hheld z hz with e | hz'
          · exact absurd e hzx
          · rw [hold z hzx] at hrz
            exact h.disj y z ry rz hy' hz' hyz hry hrz
  · intro y r hra hy
    rw [hfresh, hcls, hlen]
    by_cases hyx : y = x
    · rw [hyx, hxr] at hy
      rw [hyx, ← Option.some.inj hy]
      exact ⟨hxf, Or.inr ⟨hwin.window.low, hwin.window.high⟩⟩
    · rw [hold y hyx] at hy
      exact h.assigned y r hra hy

theorem RegsStable.stableRefl (l : DataLoop) : RegsStable l l :=
  ⟨le_refl _, fun _ _ => rfl, fun _ _ => rfl, fun _ _ => rfl, fun _ _ h => h, fun _ h => h⟩

theorem RegsStable.stableTrans {l1 l2 l3 : DataLoop} (h1 : RegsStable l1 l2)
    (h2 : RegsStable l2 l3) : RegsStable l1 l3 :=
  ⟨le_trans h1.fresh_le h2.fresh_le,
    fun i hi => by rw [h2.length i (lt_of_lt_of_le hi h1.fresh_le), h1.length i hi],
    fun i hi => by rw [h2.cls i (lt_of_lt_of_le hi h1.fresh_le), h1.cls i hi],
    fun i hi => by rw [h2.regs i (lt_of_lt_of_le hi h1.fresh_le), h1.regs i hi],
    fun p r h => h1.reloads p r (h2.reloads p r h),
    fun x h => h1.live x (h2.live x h)⟩

/-- The registers of the operation `x` are freed and `x` no longer holds registers. -/
theorem RegsInv.released {f0 lo sp : Nat} {ra0 : Nat → Option Nat} {ops : List Nat}
    (l l' : DataLoop) (x reg : Nat) (h : RegsInv f0 lo sp ra0 ops l)
    (hops : ∀ x, x ∈ ops → x < f0)
    (hfresh : l.g.fresh ≤ l'.g.fresh)
    (hlen : ∀ i, i < l.g.fresh → l'.g.length i = l.g.length i)
    (hcls : ∀ i, i < l.g.fresh → l'.g.cls i = l.g.cls i)
    (hreg : ∀ i, i < l.g.fresh → l'.ra.op2reg i = l.ra.op2reg i)
    (hnew : ∀ i reg, l.g.fresh ≤ i → l'.ra.op2reg i = some reg → ra0 i = none →
      i < l'.g.fresh ∧ l'.g.cls i = OpClass.SetImmediateOperation ∧ reg = sp)
    (hback : ∀ p r, l'.spillTracker.producer2reload p = some r →
      l'.spillTracker.reload2producer r = some p)
    (hforth : ∀ p r, l'.spillTracker.reload2producer r = some p →
      l'.spillTracker.producer2reload p = some r)
    (hsub : ∀ p r, l'.spillTracker.producer2reload p = some r →
      l.spillTracker.producer2reload p = some r)
    (hnodup : l'.liveNow.Nodup)
    (hlive : ∀ x, x ∈ l'.liveNow → x ∈ l.liveNow)
    (hspilled : ∀ p St, l'.spillTracker.producer2spill p = some St →
      l.spillTracker.producer2spill p = some St
      ∨ (St < l'.g.fresh ∧ lo ≤ l'.g.length St ∧ l'.g.length St ≤ REGISTER_FILE_SIZE))
    (hx : l.holds x) (hxr : l.ra.op2reg x = some reg) (hnot : ¬ l'.holds x)
    (hfree : l.allocator.free reg (l.g.length x) = some l'.allocator) :
    RegsInv f0 lo sp ra0 ops l' := by
  have hsize : REGISTER_FILE_SIZE = 1536 := by decide
  have hstart : REGISTER_FILE_START_ADDRESS = 1536 := by decide
  obtain ⟨reg', hr', hw⟩ := h.range x hx
  rw [hxr] at hr'
  have hrr : reg = reg' := Option.some.inj hr'
  subst hrr
  have hfs := CoreAllocator.free_spec l.allocator l'.allocator reg (l.g.length x)
    (le_trans (Nat.le_add_right _ _) hw.low) (by
      have := hw.high
      rw [hsize, hstart] at this
      unfold UINT_MOD
      omega) hfree
  refine RegsInv.transfer l l' h hops hfresh hlen hcls hreg hnew hback hforth hsub hnodup
    hlive hspilled ?_ ?_
  · rw [hfs 0]
    by_cases hc : reg ≤ REGISTER_FILE_START_ADDRESS + 0
        ∧ REGISTER_FILE_START_ADDRESS + 0 < reg + l.g.length x
    · exact absurd rfl (hw.bits 0 hc.1 hc.2).2
    · rw [if_neg hc]
      exact h.pool0
  · intro y ry hy hry k hk1 hk2 hk
    have hy' : l.holds y := by
      rcases hy with h1 | ⟨p, h1⟩
      · exact Or.inl (hlive y h1)
      · exact Or.inr ⟨p, hsub p y h1⟩
    have hyx : y ≠ x := fun e => hnot (e ▸ hy)
    rw [hfs k]
    by_cases hc : reg ≤ REGISTER_FILE_START_ADDRESS + k
        ∧ REGISTER_FILE_START_ADDRESS + k < reg + l.g.length x
    · exact absurd ⟨hk1, hk2, hc.1, hc.2⟩
        (h.disj y x ry reg hy' hx hyx hry hxr (REGISTER_FILE_START_ADDRESS + k))
    · rw [if_neg hc]
      exact hk

/-- A call of `allocate` in the allocation loop: the invariant is kept, and a register that
is returned starts a window apart from the ranges of the operations that hold registers. -/
theorem RegsInv.allocated {f0 lo sp : Nat} {ra0 : Nat → Option Nat} {ops : List Nat}
    (l l' : DataLoop) (n : Nat) (p : Nat × CoreAllocator)
    (h : RegsInv f0 lo sp ra0 ops l) (hops : ∀ x, x ∈ ops → x < f0)
    (hlo : lo ≤ 1) (hn1 : lo ≤ n) (hn2 : n ≤ REGISTER_FILE_SIZE)
    (eg : l'.g = l.g) (era : l'.ra = l.ra) (et : l'.spillTracker = l.spillTracker)
    (elive : l'.liveNow = l.liveNow)
    (halloc : l.allocator.allocate n = some p) (ea : l'.allocator = p.2) :
    RegsInv f0 lo sp ra0 ops l'
    ∧ (p.1 ≠ OUT_OF_REGISTERS → FreshWindow lo l' p.1 n) := by
  obtain ⟨hmono, _⟩ := l.allocator.allocate_window n p hn2 halloc
  have hinv : RegsInv f0 lo sp ra0 ops l' := by
    refine RegsInv.transfer l l' h hops (by rw [eg]) (fun i _ => by rw [eg])
      (fun i _ => by rw [eg]) (fun i _ => by rw [era]) ?_ ?_ ?_ ?_ ?_ ?_ ?_ ?_ ?_
    · intro i reg hi hr hra
      rw [era] at hr
      have := (h.assigned i reg hra hr).1
      omega
    · rw [et]
      exact h.back
    · rw [et]
      exact h.forth
    · rw [et]
      exact fun _ _ hp => hp
    · rw [elive]
      exact h.nodup
    · rw [elive]
      exact fun _ hx => hx
    · rw [et]
      exact fun _ _ hp => Or.inl hp
    · rw [ea]
      exact hmono 0 h.pool0
    · intro x reg _ _ k _ _ hk
      rw [ea]
      exact hmono k hk
  refine ⟨hinv, ?_⟩
  intro hne
  obtain ⟨hw, hfree⟩ := RegWindow.of_allocate lo l.allocator n p hlo hn1 hn2 h.pool0 halloc hne
  refine ⟨by rw [ea]; exact hw, ?_⟩
  intro y ry hy hry k hk
  have hy' : l.holds y := by
    rcases hy with h1 | ⟨q, h1⟩
    · exact Or.inl (by rw [← elive]; exact h1)
    · exact Or.inr ⟨q, by rw [← et]; exact h1⟩
  rw [era] at hry
  rw [eg] at hk
  obtain ⟨r, hr, hwy⟩ := h.range y hy'
  rw [hry] at hr
  have hrr : ry = r := Option.some.inj hr
  subst hrr
  have hlow := hw.low
  have h1 := hfree (k - REGISTER_FILE_START_ADDRESS) (by omega) (by omega)
  have h2 := (hwy.bits (k - REGISTER_FILE_START_ADDRESS) (by omega) (by omega)).1
  rw [h1] at h2
  cases h2

theorem replaceOperand_length (g : Graph) (c P L : Nat) :
    (g.replaceOperand c P L).length = g.length := by
  unfold Graph.replaceOperand
  split
  · rfl
  · rfl

/-- The lengths of the SetImmediate and of the Store of a spill. -/
theorem newSpill_length (g g3 : Graph) (addr P : Nat) (hP : P < g.fresh)
    (h : ((g.newSetImmediate addr 1).2.newStore P).2.addStoreAddressOperand
      ((g.newSetImmediate addr 1).2.newStore P).1 (g.newSetImmediate addr 1).1 = some g3) :
    g3.length g.fresh = 1 ∧ g3.length (g.fresh + 1) = g.length P := by
  unfold Graph.addStoreAddressOperand at h
  split at h
  · simp only [Option.some.injEq] at h
    subst h
    have h1 : g.fresh ≠ g.fresh + 1 := by omega
    have h2 : P ≠ g.fresh := by omega
    constructor
    · show upd (upd g.length g.fresh 1) (g.fresh + 1) _ g.fresh = _
      rw [upd_other _ _ h1, upd_same]
    · show upd (upd g.length g.fresh 1) (g.fresh + 1) (upd g.length g.fresh 1 P)
        (g.fresh + 1) = _
      rw [upd_same, upd_other _ _ h2]
  · exact absurd h (by simp)

/-- The lengths of the SetImmediate and of the Load of a reload. -/
theorem newReload_length (g g3 : Graph) (addr St : Nat) (hSt : St < g.fresh)
    (h : ((g.newSetImmediate addr 1).2.newLoad St).2.addLoadAddressOperand
      ((g.newSetImmediate addr 1).2.newLoad St).1 (g.newSetImmediate addr 1).1 = some g3) :
    g3.length g.fresh = 1 ∧ g3.length (g.fresh + 1) = g.length St := by
  unfold Graph.addLoadAddressOperand at h
  split at h
  · simp only [Option.some.injEq] at h
    subst h
    have h1 : g.fresh ≠ g.fresh + 1 := by omega
    have h2 : St ≠ g.fresh := by omega
    constructor
    · show upd (upd g.length g.fresh 1) (g.fresh + 1) _ g.fresh = _
      rw [upd_other _ _ h1, upd_same]
    · show upd (upd g.length g.fresh 1) (g.fresh + 1) (upd g.length g.fresh 1 St)
        (g.fresh + 1) = _
      rw [upd_same, upd_other _ _ h2]
  · exact absurd h (by simp)

theorem setErase_nodup (l : List Nat) (x : Nat) (h : l.Nodup) : (setErase l x).Nodup :=
  List.Nodup.filter _ h

theorem setInsert_nodup (l : List Nat) (x : Nat) (h : l.Nodup) : (setInsert l x).Nodup := by
  unfold setInsert
  split
  · exact h
  · rename_i hx
    exact (List.perm_orderedInsert _ x l).nodup_iff.mpr (List.nodup_cons.mpr ⟨hx, h⟩)

theorem RegisterAllocator.assignRegister_op2reg (ra ra' : RegisterAllocator) (x reg : Nat)
    (h : ra.assignRegister x reg = some ra') :
    ra.op2reg x = none ∧ ra'.op2reg = upd ra.op2reg x (some reg) := by
  unfold RegisterAllocator.assignRegister at h
  split at h
  · exact absurd h (by simp)
  · rename_i hn
    simp only [Option.some.injEq] at h
    rw [← h]
    exact ⟨by simpa using hn, rfl⟩

/-- `SpillTracker::killLiveNowReload` keeps the two maps of the live reloads inverse to each
other and removes the pair of the load. -/
theorem SpillTracker.killLiveNowReload_inverse (t t' : SpillTracker) (load : Nat)
    (hback : ∀ p r, t.producer2reload p = some r → t.reload2producer r = some p)
    (hforth : ∀ p r, t.reload2producer r = some p → t.producer2reload p = some r)
    (h : t.killLiveNowReload load = some t') :
    (∀ p r, t'.producer2reload p = some r → t'.reload2producer r = some p)
    ∧ (∀ p r, t'.reload2producer r = some p → t'.producer2reload p = some r)
    ∧ (∀ p r, t'.producer2reload p = some r → t.producer2reload p = some r ∧ r ≠ load) := by
  unfold SpillTracker.killLiveNowReload at h
  simp only [Option.map_eq_some'] at h
  obtain ⟨producer, hp, ht⟩ := h
  subst ht
  have key : ∀ p r, upd t.producer2reload producer none p = some r →
      t.producer2reload p = some r ∧ p ≠ producer ∧ r ≠ load := by
    intro p r hpr
    by_cases hpp : p = producer
    · rw [hpp, upd_same] at hpr
      exact absurd hpr (by simp)
    · rw [upd_other _ _ hpp] at hpr
      refine ⟨hpr, hpp, ?_⟩
      intro hr
      have := hback p r hpr
      rw [hr, hp] at this
      simp only [Option.some.injEq] at this
      exact hpp this.symm
  refine ⟨?_, ?_, ?_⟩
  · intro p r hpr
    obtain ⟨k1, _, k3⟩ := key p r hpr
    show upd t.reload2producer load none r = some p
    rw [upd_other _ _ k3]
    exact hback p r k1
  · intro p r hpr
    have hpr' : upd t.reload2producer load none r = some p := hpr
    by_cases hrr : r = load
    · rw [hrr, upd_same] at hpr'
      exact absurd hpr' (by simp)
    · rw [upd_other _ _ hrr] at hpr'
      show upd t.producer2reload producer none p = some r
      have hne : p ≠ producer := by
        intro he
        have h1 := hforth p r hpr'
        have h2 := hforth producer load hp
        rw [he, h2] at h1
        simp only [Option.some.injEq] at h1
        exact hrr h1.symm
      rw [upd_other _ _ hne]
      exact hforth p r hpr'
  · intro p r hpr
    obtain ⟨k1, _, k3⟩ := key p r hpr
    exact ⟨k1, k3⟩

/-- `SpillTracker::setLiveNowReload` with a load that is no live reload keeps the two maps
of the live reloads inverse to each other. -/
theorem SpillTracker.setLiveNowReload_inverse (t t' : SpillTracker) (producer load : Nat)
    (hback : ∀ p r, t.producer2reload p = some r → t.reload2producer r = some p)
    (hforth : ∀ p r, t.reload2producer r = some p → t.producer2reload p = some r)
    (hload : ∀ p, t.producer2reload p ≠ some load)
    (h : t.setLiveNowReload producer load = some t') :
    (∀ p r, t'.producer2reload p = some r → t'.reload2producer r = some p)
    ∧ (∀ p r, t'.reload2producer r = some p → t'.producer2reload p = some r)
    ∧ t'.producer2reload = upd t.producer2reload producer (some load)
    ∧ t'.producer2spill = t.producer2spill := by
  unfold SpillTracker.setLiveNowReload at h
  split at h
  · exact absurd h (by simp)
  · rename_i hn
    have hnone : t.producer2reload producer = none := by simpa using hn
    simp only [Option.some.injEq] at h
    subst h
    refine ⟨?_, ?_, rfl, rfl⟩
    · intro p r hpr
      have hpr' : upd t.producer2reload producer (some load) p = some r := hpr
      show upd t.reload2producer load (some producer) r = some p
      by_cases hpp : p = producer
      · rw [hpp, upd_same] at hpr'
        simp only [Option.some.injEq] at hpr'
        rw [← hpr', hpp, upd_same]
      · rw [upd_other _ _ hpp] at hpr'
        have hrl : r ≠ load := by
          intro he
          rw [he] at hpr'
          exact hload p hpr'
        rw [upd_other _ _ hrl]
        exact hback p r hpr'
    · intro p r hpr
      have hpr' : upd t.reload2producer load (some producer) r = some p := hpr
      show upd t.producer2reload producer (some load) p = some r
      by_cases hrr : r = load
      · rw [hrr, upd_same] at hpr'
        simp only [Option.some.injEq] at hpr'
        rw [← hpr', hrr, upd_same]
      · rw [upd_other _ _ hrr] at hpr'
        have h1 := hforth p r hpr'
        have hpp : p ≠ producer := by
          intro he
          rw [he, hnone] at h1
          exact absurd h1 (by simp)
        rw [upd_other _ _ hpp]
        exact h1

theorem SpillTracker.setSpillOperation_reloads (t t' : SpillTracker) (p St : Nat)
    (h : t.setSpillOperation p St = some t') : t'.reload2producer = t.reload2producer := by
  unfold SpillTracker.setSpillOperation at h
  split at h
  · exact absurd h (by simp)
  · simp only [Option.some.injEq] at h
    rw [← h]

/-- A step of the first loop of `allocateRegistersWithSpilling` keeps the invariant of the
registers, and the register it finds is a window apart from every range in use. -/
theorem killReloadAt_regs {f0 lo sp : Nat} {ra0 : Nat → Option Nat} {ops : List Nat}
    (length : Nat) (consumer : Option Nat) (s s' : Option Nat × DataLoop) (k : Nat)
    (hops : ∀ x, x ∈ ops → x < f0) (hlo : lo ≤ 1) (hn1 : lo ≤ length)
    (hn2 : length ≤ REGISTER_FILE_SIZE)
    (hinv : RegsInv f0 lo sp ra0 ops s.2)
    (hwin : ∀ reg, s.1 = some reg → FreshWindow lo s.2 reg length)
    (h : killReloadAt length consumer s k = some s') :
    RegsInv f0 lo sp ra0 ops s'.2
    ∧ (∀ reg, s'.1 = some reg → FreshWindow lo s'.2 reg length)
    ∧ RegsStable s.2 s'.2 := by
  unfold killReloadAt at h
  cases hf : s.1 with
  | some reg =>
    rw [hf] at h
    simp only [Option.some.injEq] at h
    rw [← h]
    exact ⟨hinv, hwin, RegsStable.stableRefl _⟩
  | none =>
    rw [hf] at h
    simp only [Option.bind_eq_some] at h
    obtain ⟨rl, hrl, h⟩ := h
    split at h
    · simp only [Option.bind_eq_some, Option.map_eq_some'] at h
      obtain ⟨t, ht, r, hr, a, ha, p, hp, hs⟩ := h
      obtain ⟨k1, _⟩ := SpillTracker.killLiveNowReload_spec _ _ _ ht
      obtain ⟨b1, b2, b3⟩ :=
        SpillTracker.killLiveNowReload_inverse _ _ _ hinv.back hinv.forth ht
      have hmid : RegsInv f0 lo sp ra0 ops
          ({ s.2 with spillTracker := t, allocator := a } : DataLoop) := by
        apply RegsInv.released s.2
          ({ s.2 with spillTracker := t, allocator := a } : DataLoop) rl r hinv hops
          (le_refl _) (fun _ _ => rfl) (fun _ _ => rfl) (fun _ _ => rfl)
        · intro i reg hi h1 h2
          have := (hinv.assigned i reg h2 h1).1
          omega
        · exact b1
        · exact b2
        · exact fun p r hpr => (b3 p r hpr).1
        · exact hinv.nodup
        · exact fun _ hx => hx
        · intro p St hp
          left
          have hp' : t.producer2spill p = some St := hp
          rw [k1] at hp'
          exact hp'
        · exact Or.inr ⟨k, hrl⟩
        · exact hr
        · rintro (hl | ⟨q, hq⟩)
          · have h1 := hops rl (hinv.live rl hl)
            have h2 := (hinv.reload k rl hrl).1
            omega
          · exact (b3 q rl hq).2 rfl
        · exact ha
      obtain ⟨c1, c2⟩ := RegsInv.allocated
        ({ s.2 with spillTracker := t, allocator := a } : DataLoop)
        ({ s.2 with spillTracker := t, allocator := p.2 } : DataLoop) length p hmid hops hlo
        hn1 hn2 rfl rfl rfl rfl hp rfl
      rw [← hs]
      refine ⟨c1, ?_, ?_⟩
      · intro reg hreg
        have hreg' : (if p.1 ≠ OUT_OF_REGISTERS then some p.1 else none) = some reg := hreg
        by_cases hne : p.1 ≠ OUT_OF_REGISTERS
        · rw [if_pos hne] at hreg'
          simp only [Option.some.injEq] at hreg'
          rw [← hreg']
          exact c2 hne
        · rw [if_neg hne] at hreg'
          exact absurd hreg' (by simp)
      · exact ⟨le_refl _, fun _ _ => rfl, fun _ _ => rfl, fun _ _ => rfl,
          fun p r hpr => (b3 p r hpr).1, fun _ hx => hx⟩
    · simp only [Option.some.injEq] at h
      rw [← h]
      exact ⟨hinv, hwin, RegsStable.stableRefl _⟩

/-- A step of the second loop of `allocateRegistersWithSpilling` at an operation that is
live keeps the invariant of the registers, and the register it finds is a window apart from
every range in use. -/
theorem spillAt_regs {f0 lo sp : Nat} {ra0 : Nat → Option Nat} {ops : List Nat}
    (length : Nat) (consumer : Option Nat) (s s' : Option Nat × DataLoop) (cand : Nat)
    (hops : ∀ x, x ∈ ops → x < f0) (hlo : lo ≤ 1) (hn1 : lo ≤ length)
    (hn2 : length ≤ REGISTER_FILE_SIZE)
    (hinv : RegsInv f0 lo sp ra0 ops s.2)
    (hwin : ∀ reg, s.1 = some reg → FreshWindow lo s.2 reg length)
    (hcand : cand ∈ s.2.liveNow)
    (h : spillAt length sp consumer s cand = some s') :
    RegsInv f0 lo sp ra0 ops s'.2
    ∧ (∀ reg, s'.1 = some reg → FreshWindow lo s'.2 reg length)
    ∧ RegsStable s.2 s'.2
    ∧ (∀ x, x ∈ s.2.liveNow → x ≠ cand → x ∈ s'.2.liveNow) := by
  unfold spillAt at h
  cases hf : s.1 with
  | some reg =>
    rw [hf] at h
    simp only [Option.some.injEq] at h
    rw [← h]
    exact ⟨hinv, hwin, RegsStable.stableRefl _, fun _ hx _ => hx⟩
  | none =>
    rw [hf] at h
    simp only at h
    by_cases hcond : consumer = none
        ∨ Option.all (fun c => !s.2.g.uses c cand) consumer = true
    · rw [if_pos hcond] at h
      simp only [Option.bind_eq_some, Option.map_eq_some'] at h
      obtain ⟨vTile, _, m, hm, pt1, _, ra1, hra1, pt2, _, mem1, hmem1, g3, hg3, t, ht, reg,
        hreg, a, ha, p, hp, hs⟩ := h
      have hf0 := hinv.fresh_le
      have hP : cand < s.2.g.fresh := by
        have := hops cand (hinv.live cand hcand)
        omega
      obtain ⟨e1, e2, _, _, _, e6, e7, _, _, _⟩ := newSpill_spec s.2.g g3 m.1 cand hP hg3
      obtain ⟨n1, n2⟩ := newSpill_length s.2.g g3 m.1 cand hP hg3
      have hid : ((s.2.g.newSetImmediate m.1 1).2.newStore cand).1 = s.2.g.fresh + 1 := rfl
      have hid0 : (s.2.g.newSetImmediate m.1 1).1 = s.2.g.fresh := rfl
      rw [hid] at ht
      rw [hid0] at hra1
      obtain ⟨t1, t2, t3⟩ := SpillTracker.setSpillOperation_spec _ _ _ _ ht
      have t4 := SpillTracker.setSpillOperation_reloads _ _ _ _ ht
      obtain ⟨r1, r2⟩ := RegisterAllocator.assignRegister_op2reg _ _ _ _ hra1
      have hreg1 : upd s.2.ra.op2reg s.2.g.fresh (some sp) cand = some reg := by
        rw [← r2]
        exact hreg
      rw [upd_other _ _ (by omega)] at hreg1
      rw [e6 cand hP] at ha
      have hcs := hinv.sized cand (hinv.live cand hcand)
      have hmid : RegsInv f0 lo sp ra0 ops
          ({ g := g3, pt := pt2, mem := mem1,
             ra := { ra1 with numStoresFromSpilling :=
               (ra1.numStoresFromSpilling
                 + ((s.2.g.newSetImmediate m.1 1).2.newStore cand).2.length
                   ((s.2.g.newSetImmediate m.1 1).2.newStore cand).1) % UINT_MOD },
             allocator := a, spillTracker := t,
             liveNow := setErase s.2.liveNow cand,
             out := s.2.out ++ [(s.2.g.newSetImmediate m.1 1).1,
               ((s.2.g.newSetImmediate m.1 1).2.newStore cand).1] } : DataLoop) := by
        apply RegsInv.released s.2 _ cand reg hinv hops
        · show s.2.g.fresh ≤ g3.fresh
          omega
        · exact e6
        · exact e2
        · intro i hi
          show ra1.op2reg i = _
          rw [r2, upd_other _ _ (by omega)]
        · intro i rg hi h1 h2
          have h1' : upd s.2.ra.op2reg s.2.g.fresh (some sp) i = some rg := by
            rw [← r2]
            exact h1
          by_cases hie : i = s.2.g.fresh
          · rw [hie, upd_same] at h1'
            simp only [Option.some.injEq] at h1'
            rw [hie]
            refine ⟨?_, e7, h1'.symm⟩
            show s.2.g.fresh < g3.fresh
            omega
          · rw [upd_other _ _ hie] at h1'
            have := (hinv.assigned i rg h2 h1').1
            omega
        · intro q r hq
          have hq' : s.2.spillTracker.producer2reload q = some r := by
            rw [← t3]
            exact hq
          show t.reload2producer r = some q
          rw [t4]
          exact hinv.back q r hq'
        · intro q r hq
          have hq' : t.reload2producer r = some q := hq
          rw [t4] at hq'
          show t.producer2reload q = some r
          rw [t3]
          exact hinv.forth q r hq'
        · intro q r hq
          rw [← t3]
          exact hq
        · exact setErase_nodup _ _ hinv.nodup
        · exact fun x hx => (mem_setErase.mp hx).1
        · intro q St hq
          have hq' : upd s.2.spillTracker.producer2spill cand (some (s.2.g.fresh + 1)) q
              = some St := by
            rw [← t2]
            exact hq
          by_cases hqq : q = cand
          · rw [hqq, upd_same] at hq'
            simp only [Option.some.injEq] at hq'
            right
            rw [← hq']
            refine ⟨?_, ?_, ?_⟩
            · show s.2.g.fresh + 1 < g3.fresh
              omega
            · show lo ≤ g3.length (s.2.g.fresh + 1)
              rw [n2]
              exact hcs.1
            · show g3.length (s.2.g.fresh + 1) ≤ REGISTER_FILE_SIZE
              rw [n2]
              exact hcs.2
          · rw [upd_other _ _ hqq] at hq'
            exact Or.inl hq'
        · exact Or.inl hcand
        · exact hreg1
        · rintro (hl | ⟨q, hq⟩)
          · exact (mem_setErase.mp hl).2 rfl
          · have hq' : s.2.spillTracker.producer2reload q = some cand := by
              rw [← t3]
              exact hq
            have h1 := (hinv.reload q cand hq').1
            have h2 := hops cand (hinv.live cand hcand)
            omega
        · exact ha
      obtain ⟨c1, c2⟩ := RegsInv.allocated _
        ({ g := g3, pt := pt2, mem := mem1,
             ra := { ra1 with numStoresFromSpilling :=
               (ra1.numStoresFromSpilling
                 + ((s.2.g.newSetImmediate m.1 1).2.newStore cand).2.length
                   ((s.2.g.newSetImmediate m.1 1).2.newStore cand).1) % UINT_MOD },
             allocator := p.2, spillTracker := t,
             liveNow := setErase s.2.liveNow cand,
             out := s.2.out ++ [(s.2.g.newSetImmediate m.1 1).1,
               ((s.2.g.newSetImmediate m.1 1).2.newStore cand).1] } : DataLoop)
        length p hmid hops hlo hn1 hn2 rfl rfl rfl rfl hp rfl
      rw [← hs]
      refine ⟨c1, ?_, ?_, ?_⟩
      · intro rg hrg
        have hrg' : (if p.1 ≠ OUT_OF_REGISTERS then some p.1 else none) = some rg := hrg
        by_cases hne : p.1 ≠ OUT_OF_REGISTERS
        · rw [if_pos hne] at hrg'
          simp only [Option.some.injEq] at hrg'
          rw [← hrg']
          exact c2 hne
        · rw [if_neg hne] at hrg'
          exact absurd hrg' (by simp)
      · refine ⟨?_, e6, e2, ?_, ?_, ?_⟩
        · show s.2.g.fresh ≤ g3.fresh
          omega
        · intro i hi
          show ra1.op2reg i = _
          rw [r2, upd_other _ _ (by omega)]
        · intro q r hq
          rw [← t3]
          exact hq
        · exact fun x hx => (mem_setErase.mp hx).1
      · intro x hx hne
        exact mem_setErase.mpr ⟨hx, hne⟩
    · rw [if_neg hcond] at h
      simp only [Option.some.injEq] at h
      rw [← h]
      exact ⟨hinv, hwin, RegsStable.stableRefl _, fun _ hx _ => hx⟩

/-- `allocateRegistersWithSpilling` keeps the invariant of the registers and returns a
window of the general register file that is apart from every range in use. -/
theorem allocateRegistersWithSpilling_regs {f0 lo sp : Nat} {ra0 : Nat → Option Nat}
    {ops : List Nat} (length op : Nat) (l : DataLoop) (q : Nat × DataLoop)
    (hops : ∀ x, x ∈ ops → x < f0) (hlo : lo ≤ 1) (hn1 : lo ≤ length)
    (hn2 : length ≤ REGISTER_FILE_SIZE)
    (hinv : RegsInv f0 lo sp ra0 ops l)
    (h : allocateRegistersWithSpilling length sp op l = some q) :
    RegsInv f0 lo sp ra0 ops q.2 ∧ FreshWindow lo q.2 q.1 length ∧ RegsStable l q.2 := by
  unfold allocateRegistersWithSpilling at h
  simp only [Option.bind_eq_some] at h
  obtain ⟨p, hp, h⟩ := h
  obtain ⟨c1, c2⟩ := RegsInv.allocated l ({ l with allocator := p.2 } : DataLoop) length p
    hinv hops hlo hn1 hn2 rfl rfl rfl rfl hp rfl
  have hst0 : RegsStable l ({ l with allocator := p.2 } : DataLoop) :=
    ⟨le_refl _, fun _ _ => rfl, fun _ _ => rfl, fun _ _ => rfl, fun _ _ hq => hq,
      fun _ hx => hx⟩
  by_cases hne : p.1 ≠ OUT_OF_REGISTERS
  · rw [if_pos hne] at h
    simp only [Option.some.injEq] at h
    rw [← h]
    exact ⟨c1, c2 hne, hst0⟩
  · rw [if_neg hne] at h
    simp only [Option.bind_eq_some] at h
    obtain ⟨s, hs, h⟩ := h
    have h1 : RegsInv f0 lo sp ra0 ops s.2
        ∧ (∀ reg, s.1 = some reg → FreshWindow lo s.2 reg length) ∧ RegsStable l s.2 :=
      foldlM_preserves _
        (fun (x : Option Nat × DataLoop) => RegsInv f0 lo sp ra0 ops x.2
          ∧ (∀ reg, x.1 = some reg → FreshWindow lo x.2 reg length) ∧ RegsStable l x.2)
        (fun b a b' hb hstep => by
          obtain ⟨k1, k2, k3⟩ :=
            killReloadAt_regs length _ b b' a hops hlo hn1 hn2 hb.1 hb.2.1 hstep
          exact ⟨k1, k2, hb.2.2.stableTrans k3⟩)
        _ _ s ⟨c1, fun reg hr => absurd hr (by simp), hst0⟩ hs
    cases hf : s.1 with
    | some reg =>
      rw [hf] at h
      simp only [Option.some.injEq] at h
      rw [← h]
      exact ⟨h1.1, h1.2.1 reg hf, h1.2.2⟩
    | none =>
      rw [hf] at h
      simp only [Option.bind_eq_some, Option.map_eq_some'] at h
      obtain ⟨s2, hs2, reg, hreg, hq⟩ := h
      have h2 := foldlM_split_invariant (spillAt length sp
          (if (l.g.cls op).isConsumer = true then some op else none))
        (fun (x : Option Nat × DataLoop) (done : List Nat) =>
          RegsInv f0 lo sp ra0 ops x.2
          ∧ (∀ reg, x.1 = some reg → FreshWindow lo x.2 reg length) ∧ RegsStable l x.2
          ∧ ∀ y, y ∈ s.2.liveNow → y ∉ done → y ∈ x.2.liveNow)
        s.2.liveNow [] s s2 ⟨h1.1, h1.2.1, h1.2.2, fun _ hy _ => hy⟩
        (by
          intro b done a rest b1 hsplit hb hstep
          rw [List.nil_append] at hsplit
          have hnd := h1.1.nodup
          rw [hsplit] at hnd
          have hnot : a ∉ done := by
            intro ha
            have := List.nodup_append.mp hnd
            exact this.2.2 ha (List.mem_cons_self _ _)
          have hmem : a ∈ s.2.liveNow := by
            rw [hsplit]
            exact List.mem_append_right _ (List.mem_cons_self _ _)
          obtain ⟨k1, k2, k3, k4⟩ := spillAt_regs length _ b b1 a hops hlo hn1 hn2 hb.1
            hb.2.1 (hb.2.2.2 a hmem hnot) hstep
          refine ⟨k1, k2, hb.2.2.1.stableTrans k3, ?_⟩
          intro y hy hyd
          have hy1 : y ∉ done := fun hd => hyd (List.mem_append_left _ hd)
          have hy2 : y ≠ a := by
            intro he
            apply hyd
            rw [he]
            exact List.mem_append_right _ (List.mem_singleton_self _)
          exact k4 y (hb.2.2.2 y hy hy1) hy2)
        hs2
      rw [← hq]
      exact ⟨h2.1, h2.2.1 reg hreg, h2.2.2.1⟩

/-- A step that changes neither the lengths, the classes, the registers, the pool, the
tracker nor the live set keeps the invariant of the registers. -/
theorem RegsInv.relabel {f0 lo sp : Nat} {ra0 : Nat → Option Nat} {ops : List Nat}
    (l l' : DataLoop) (h : RegsInv f0 lo sp ra0 ops l) (hops : ∀ x, x ∈ ops → x < f0)
    (hfresh : l'.g.fresh = l.g.fresh)
    (hlen : l'.g.length = l.g.length) (hcls : l'.g.cls = l.g.cls)
    (hreg : l'.ra.op2reg = l.ra.op2reg) (halloc : l'.allocator = l.allocator)
    (ht : l'.spillTracker = l.spillTracker) (hlive : l'.liveNow = l.liveNow) :
    RegsInv f0 lo sp ra0 ops l' := by
  apply RegsInv.transfer l l' h hops (le_of_eq hfresh.symm)
  · intro i _
    rw [hlen]
  · intro i _
    rw [hcls]
  · intro i _
    rw [hreg]
  · intro i reg hi h1 h2
    rw [hreg] at h1
    have := (h.assigned i reg h2 h1).1
    omega
  · rw [ht]
    exact h.back
  · rw [ht]
    exact h.forth
  · rw [ht]
    exact fun _ _ hq => hq
  · rw [hlive]
    exact h.nodup
  · rw [hlive]
    exact fun _ hx => hx
  · rw [ht]
    exact fun _ _ hq => Or.inl hq
  · rw [halloc]
    exact h.pool0
  · rw [halloc]
    exact fun _ _ _ _ _ _ _ hk => hk

/-- The reload of a spilled operand keeps the invariant of the registers. -/
theorem reloadOperand_regs {f0 lo sp : Nat} {ra0 : Nat → Option Nat} {ops : List Nat}
    (consumer producer : Nat) (l l' : DataLoop)
    (hops : ∀ x, x ∈ ops → x < f0) (hlo : lo ≤ 1)
    (hinv : RegsInv f0 lo sp ra0 ops l)
    (h : reloadOperand sp consumer producer l = some l') :
    RegsInv f0 lo sp ra0 ops l' := by
  unfold reloadOperand at h
  simp only [Option.bind_eq_some, Option.map_eq_some'] at h
  obtain ⟨spillOp, hsp, address, _, pt1, _, ra1, hra1, g3, hg3, pt2, _, q, hq, ra2, hra2, t,
    ht, hl'⟩ := h
  have hf0 := hinv.fresh_le
  obtain ⟨s1, s2, s3⟩ := hinv.spilled producer spillOp hsp
  obtain ⟨e1, e2, _, _, _, e6, e7, _, _, _, _⟩ := newReload_spec l.g g3 address spillOp hg3
  obtain ⟨n1, n2⟩ := newReload_length l.g g3 address spillOp s1 hg3
  have hid : ((l.g.newSetImmediate address 1).2.newLoad spillOp).1 = l.g.fresh + 1 := rfl
  have hid0 : (l.g.newSetImmediate address 1).1 = l.g.fresh := rfl
  rw [hid] at hq hra2 ht
  rw [hid0] at hra1
  obtain ⟨r1, r2⟩ := RegisterAllocator.assignRegister_op2reg _ _ _ _ hra1
  have r2' : ra1.op2reg = upd l.ra.op2reg l.g.fresh (some sp) := r2
  have hext : RegsInv f0 lo sp ra0 ops
      ({ l with g := g3, pt := pt2,
                ra := { ra1 with numLoadsFromSpilling :=
                  (ra1.numLoadsFromSpilling
                    + ((l.g.newSetImmediate address 1).2.newLoad spillOp).2.length
                      ((l.g.newSetImmediate address 1).2.newLoad spillOp).1) % UINT_MOD } } :
        DataLoop) := by
    apply RegsInv.transfer l _ hinv hops
    · show l.g.fresh ≤ g3.fresh
      omega
    · exact e6
    · exact e2
    · intro i hi
      show ra1.op2reg i = _
      rw [r2', upd_other _ _ (by omega)]
    · intro i rg hi h1 h2
      have h1' : upd l.ra.op2reg l.g.fresh (some sp) i = some rg := by
        rw [← r2']
        exact h1
      by_cases hie : i = l.g.fresh
      · rw [hie, upd_same] at h1'
        simp only [Option.some.injEq] at h1'
        rw [hie]
        refine ⟨?_, e7, h1'.symm⟩
        show l.g.fresh < g3.fresh
        omega
      · rw [upd_other _ _ hie] at h1'
        have := (hinv.assigned i rg h2 h1').1
        omega
    · exact hinv.back
    · exact hinv.forth
    · exact fun _ _ hq => hq
    · exact hinv.nodup
    · exact fun _ hx => hx
    · exact fun _ _ hq => Or.inl hq
    · exact hinv.pool0
    · exact fun _ _ _ _ _ _ _ hk => hk
  have hlen1 : lo ≤ g3.length (l.g.fresh + 1) := by
    rw [n2]
    exact s2
  have hlen2 : g3.length (l.g.fresh + 1) ≤ REGISTER_FILE_SIZE := by
    rw [n2]
    exact s3
  obtain ⟨d1, d2, d3⟩ := allocateRegistersWithSpilling_regs (g3.length (l.g.fresh + 1))
    consumer _ q hops hlo hlen1 hlen2 hext hq
  have d3f : g3.fresh ≤ q.2.g.fresh := d3.fresh_le
  have d3l : q.2.g.length (l.g.fresh + 1) = g3.length (l.g.fresh + 1) :=
    d3.length (l.g.fresh + 1) (by show l.g.fresh + 1 < g3.fresh; omega)
  have d3r : ∀ p r, q.2.spillTracker.producer2reload p = some r →
      l.spillTracker.producer2reload p = some r := d3.reloads
  have hload : ∀ p, q.2.spillTracker.producer2reload p ≠ some (l.g.fresh + 1) := by
    intro p hp
    have := (hinv.reload p _ (d3r p _ hp)).2
    omega
  obtain ⟨b1, b2, b3, b4⟩ :=
    SpillTracker.setLiveNowReload_inverse _ _ _ _ d1.back d1.forth hload ht
  obtain ⟨a1, a2⟩ := RegisterAllocator.assignRegister_op2reg _ _ _ _ hra2
  obtain ⟨p1, p2, _, _, _, _⟩ := replaceOperand_spec q.2.g consumer producer (l.g.fresh + 1)
  rw [← hl']
  apply RegsInv.acquire q.2 _ (l.g.fresh + 1) q.1 d1
  · exact p1
  · intro i
    show (q.2.g.replaceOperand consumer producer (l.g.fresh + 1)).length i = _
    rw [replaceOperand_length]
  · intro i
    show (q.2.g.replaceOperand consumer producer (l.g.fresh + 1)).cls i = _
    rw [p2]
  · rfl
  · exact a1
  · exact a2
  · rw [d3l]
    exact d2
  · omega
  · rintro y (hy | ⟨p, hp⟩)
    · exact Or.inr (Or.inl hy)
    · have hp' : upd q.2.spillTracker.producer2reload producer (some (l.g.fresh + 1)) p
          = some y := by
        rw [← b3]
        exact hp
      by_cases hpp : p = producer
      · rw [hpp, upd_same] at hp'
        simp only [Option.some.injEq] at hp'
        exact Or.inl hp'.symm
      · rw [upd_other _ _ hpp] at hp'
        exact Or.inr (Or.inr ⟨p, hp'⟩)
  · exact b1
  · exact b2
  · intro p r hp
    have hp' : upd q.2.spillTracker.producer2reload producer (some (l.g.fresh + 1)) p
        = some r := by
      rw [← b3]
      exact hp
    by_cases hpp : p = producer
    · rw [hpp, upd_same] at hp'
      simp only [Option.some.injEq] at hp'
      rw [← hp']
      omega
    · rw [upd_other _ _ hpp] at hp'
      exact d1.reload p r hp'
  · exact d1.nodup
  · exact d1.live
  · exact b4

/-- The body of the loop `Make sure all operands are available` keeps the invariant of the
registers. -/
theorem availableOperandAt_regs {f0 lo sp : Nat} {ra0 : Nat → Option Nat} {ops : List Nat}
    (consumer : Nat) (l l' : DataLoop) (o : Nat)
    (hops : ∀ x, x ∈ ops → x < f0) (hlo : lo ≤ 1)
    (hinv : RegsInv f0 lo sp ra0 ops l)
    (h : availableOperandAt sp consumer l o = some l') :
    RegsInv f0 lo sp ra0 ops l' := by
  unfold availableOperandAt at h
  simp only [Option.bind_eq_some] at h
  obtain ⟨producer, _, h⟩ := h
  split at h
  · split at h
    · simp only [Option.some.injEq] at h
      rw [← h]
      exact RegsInv.relabel l _ hinv hops rfl rfl rfl rfl rfl rfl rfl
    · split at h
      · split at h
        · simp only [Option.some.injEq] at h
          rw [← h]
          rename_i load _
          obtain ⟨p1, p2, _, _, _, _⟩ := replaceOperand_spec l.g consumer producer load
          exact RegsInv.relabel l _ hinv hops p1 (replaceOperand_length _ _ _ _) p2 rfl rfl
            rfl rfl
        · exact reloadOperand_regs consumer producer l l' hops hlo hinv h
      · exact absurd h (by simp)
  · simp only [Option.some.injEq] at h
    rw [← h]
    exact hinv

/-- The body of the loop `Free registers for operands that are no longer live` keeps the
invariant of the registers. -/
theorem freeOperandAt_regs {f0 lo sp : Nat} {ra0 : Nat → Option Nat} {ops : List Nat}
    (liveOut : List Nat) (consumer : Nat) (l l' : DataLoop) (o : Nat)
    (hops : ∀ x, x ∈ ops → x < f0)
    (hinv : RegsInv f0 lo sp ra0 ops l)
    (h : freeOperandAt liveOut consumer l o = some l') :
    RegsInv f0 lo sp ra0 ops l' := by
  unfold freeOperandAt at h
  simp only [Option.bind_eq_some] at h
  obtain ⟨producer, _, h⟩ := h
  have hnew : ∀ i reg, l.g.fresh ≤ i → l.ra.op2reg i = some reg → ra0 i = none →
      i < l.g.fresh ∧ l.g.cls i = OpClass.SetImmediateOperation ∧ reg = sp := by
    intro i reg hi h1 h2
    have := (hinv.assigned i reg h2 h1).1
    omega
  split at h
  · by_cases hlive : producer ∈ l.liveNow
    · rw [if_pos hlive] at h
      split at h
      · simp only [Option.bind_eq_some, Option.map_eq_some'] at h
        obtain ⟨r, hr, a, ha, hl'⟩ := h
        rw [← hl']
        apply RegsInv.released l
          ({ l with liveNow := setErase l.liveNow producer, allocator := a } : DataLoop)
          producer r hinv hops (le_refl _) (fun _ _ => rfl) (fun _ _ => rfl)
          (fun _ _ => rfl) hnew hinv.back hinv.forth (fun _ _ hq => hq)
        · exact setErase_nodup _ _ hinv.nodup
        · exact fun x hx => (mem_setErase.mp hx).1
        · exact fun _ _ hq => Or.inl hq
        · exact Or.inl hlive
        · exact hr
        · rintro (hl | ⟨q, hq⟩)
          · exact (mem_setErase.mp hl).2 rfl
          · have h1 := (hinv.reload q producer hq).1
            have h2 := hops producer (hinv.live producer hlive)
            omega
        · exact ha
      · simp only [Option.some.injEq] at h
        rw [← h]
        exact hinv
    · rw [if_neg hlive] at h
      split at h
      · simp only [Option.bind_eq_some] at h
        obtain ⟨orig, horig, h⟩ := h
        split at h
        · simp only [Option.bind_eq_some, Option.map_eq_some'] at h
          obtain ⟨t, ht, r, hr, a, ha, hl'⟩ := h
          obtain ⟨k1, _⟩ := SpillTracker.killLiveNowReload_spec _ _ _ ht
          obtain ⟨b1, b2, b3⟩ :=
            SpillTracker.killLiveNowReload_inverse _ _ _ hinv.back hinv.forth ht
          rw [← hl']
          apply RegsInv.released l
            ({ l with spillTracker := t, allocator := a } : DataLoop)
            producer r hinv hops (le_refl _) (fun _ _ => rfl) (fun _ _ => rfl)
            (fun _ _ => rfl) hnew b1 b2 (fun p r hpr => (b3 p r hpr).1) hinv.nodup
            (fun _ hx => hx)
          · intro p St hp
            left
            have hp' : t.producer2spill p = some St := hp
            rw [k1] at hp'
            exact hp'
          · exact Or.inr ⟨orig, hinv.forth orig producer horig⟩
          · exact hr
          · rintro (hl | ⟨q, hq⟩)
            · exact hlive hl
            · exact (b3 q producer hq).2 rfl
          · exact ha
        · simp only [Option.some.injEq] at h
          rw [← h]
          exact hinv
      · exact absurd h (by simp)
  · simp only [Option.some.injEq] at h
    rw [← h]
    exact hinv

/-- The body of the allocation loop of `allocateDataRegisters` at an operation of the list
keeps the invariant of the registers. -/
theorem allocateDataRegistersAt_regs {f0 lo sp : Nat} {ra0 : Nat → Option Nat}
    {ops : List Nat} (liveIn : Option Nat → List Nat) (l l' : DataLoop)
    (x : Nat × Option Nat)
    (hops : ∀ x, x ∈ ops → x < f0) (hlo : lo ≤ 1) (hx : x.1 ∈ ops)
    (hinv : RegsInv f0 lo sp ra0 ops l)
    (h : allocateDataRegistersAt liveIn sp l x = some l') :
    RegsInv f0 lo sp ra0 ops l' := by
  unfold allocateDataRegistersAt at h
  simp only [Option.bind_eq_some, Option.map_eq_some'] at h
  obtain ⟨l1, hl1, l2, hl2, hl'⟩ := h
  have h1 : RegsInv f0 lo sp ra0 ops l1 := by
    by_cases hcond : ((l.g.cls x.1).isConsumer && !readsFromReservedInputRegister l.g x.1) = true
    · rw [if_pos hcond] at hl1
      simp only [Option.bind_eq_some] at hl1
      obtain ⟨la, hla, hlb⟩ := hl1
      have ha : RegsInv f0 lo sp ra0 ops la :=
        foldlM_preserves _ (fun (y : DataLoop) => RegsInv f0 lo sp ra0 ops y)
          (fun b o b' hb hstep => availableOperandAt_regs x.1 b b' o hops hlo hb hstep)
          _ _ la hinv hla
      exact foldlM_preserves _ (fun (y : DataLoop) => RegsInv f0 lo sp ra0 ops y)
        (fun b o b' hb hstep => freeOperandAt_regs (liveIn x.2) x.1 b b' o hops hb hstep)
        _ _ l1 ha hlb
    · rw [if_neg hcond] at hl1
      simp only [Option.some.injEq] at hl1
      rw [← hl1]
      exact hinv
  have h2 : RegsInv f0 lo sp ra0 ops l2 := by
    by_cases hprod : (l1.g.cls x.1).isProducer = true
    · rw [if_pos hprod] at hl2
      by_cases hin : x.1 ∈ liveIn (some x.1)
      · rw [if_pos hin] at hl2
        exact absurd hl2 (by simp)
      · rw [if_neg hin] at hl2
        by_cases hout : x.1 ∈ liveIn x.2
        · rw [if_pos hout] at hl2
          simp only [Option.bind_eq_some, Option.map_eq_some'] at hl2
          obtain ⟨q, hq, ra, hra, hl2⟩ := hl2
          obtain ⟨z1, z2⟩ := h1.sized x.1 hx
          obtain ⟨d1, d2, d3⟩ := allocateRegistersWithSpilling_regs (l1.g.length x.1) x.1 l1 q
            hops hlo z1 z2 h1 hq
          obtain ⟨a1, a2⟩ := RegisterAllocator.assignRegister_op2reg _ _ _ _ hra
          have hxf : x.1 < l1.g.fresh := by
            have := hops x.1 hx
            have := h1.fresh_le
            omega
          have hxq : x.1 < q.2.g.fresh := lt_of_lt_of_le hxf d3.fresh_le
          rw [← hl2]
          apply RegsInv.acquire q.2
            ({ q.2 with ra := ra, liveNow := setInsert q.2.liveNow x.1 } : DataLoop) x.1 q.1 d1
            rfl (fun _ => rfl) (fun _ => rfl) rfl a1 a2
          · rw [d3.length x.1 hxf]
            exact d2
          · exact hxq
          · rintro y (hy | ⟨p, hp⟩)
            · rcases mem_setInsert.mp hy with he | hm
              · exact Or.inl he
              · exact Or.inr (Or.inl hm)
            · exact Or.inr (Or.inr ⟨p, hp⟩)
          · exact d1.back
          · exact d1.forth
          · exact d1.reload
          · exact setInsert_nodup _ _ d1.nodup
          · intro y hy
            rcases mem_setInsert.mp hy with he | hm
            · rw [he]
              exact hx
            · exact d1.live y hm
          · rfl
        · rw [if_neg hout] at hl2
          split at hl2
          · simp only [Option.some.injEq] at hl2
            rw [← hl2]
            exact h1
          · exact absurd hl2 (by simp)
    · rw [if_neg hprod] at hl2
      simp only [Option.some.injEq] at hl2
      rw [← hl2]
      exact h1
  rw [← hl']
  exact RegsInv.relabel l2 _ h2 hops rfl rfl rfl rfl rfl rfl rfl

/-- The loop of `allocateDataRegisters` after all its iterations is the function itself. -/
theorem allocateDataRegistersUpTo_all (s : RegState) (list : List Nat) :
    allocateDataRegistersUpTo s list (withNext list).length = allocateDataRegisters s list := by
  unfold allocateDataRegistersUpTo allocateDataRegisters
  rw [List.take_length]

/-- The first allocation of `allocateDataRegisters`, of the spill address register, returns
the first general register and sets its bit. -/
theorem CoreAllocator.allocate_spillAddressReg :
    (CoreAllocator.mk fun _ => false).allocate 1
      = some (REGISTER_FILE_START_ADDRESS, (CoreAllocator.mk fun _ => false).setRange 0 1) := by
  rfl

/-- The invariant of the registers holds after any number of iterations of the allocation
loop of `allocateDataRegisters`. -/
theorem allocateDataRegistersUpTo_regs (lo : Nat) (s : RegState) (list : List Nat) (n : Nat)
    (l : DataLoop) (hlo : lo ≤ 1)
    (hlt : ∀ x, x ∈ list → x < s.g.fresh)
    (hlen : ∀ x, x ∈ list → lo ≤ s.g.length x ∧ s.g.length x ≤ REGISTER_FILE_SIZE)
    (h : allocateDataRegistersUpTo s list n = some l) :
    RegsInv s.g.fresh lo REGISTER_FILE_START_ADDRESS s.ra.op2reg list l := by
  unfold allocateDataRegistersUpTo at h
  rw [CoreAllocator.allocate_spillAddressReg] at h
  simp only [Option.some_bind] at h
  refine foldlM_preserves_mem _
    (fun (y : DataLoop) => RegsInv s.g.fresh lo REGISTER_FILE_START_ADDRESS s.ra.op2reg list y)
    _ (fun b a b' ha hb hstep =>
      allocateDataRegistersAt_regs _ b b' a hlt hlo
        (mem_withNext list a (List.mem_of_mem_take ha)) hb hstep) _ l ?_ h
  constructor
  · exact le_refl _
  · rfl
  · intro p r hp
    exact absurd hp (by simp)
  · intro p r hp
    exact absurd hp (by simp)
  · exact List.nodup_nil
  · intro x hx
    exact absurd hx (List.not_mem_nil _)
  · intro p r hp
    exact absurd hp (by simp)
  · intro p St hp
    exact absurd hp (by simp)
  · exact hlen
  · rintro x (hx | ⟨p, hp⟩)
    · exact absurd hx (List.not_mem_nil _)
    · exact absurd hp (by simp)
  · rintro x y rx ry (hx | ⟨p, hp⟩)
    · exact absurd hx (List.not_mem_nil _)
    · exact absurd hp (by simp)
  · intro x reg h1 h2
    have h2' : s.ra.op2reg x = some reg := h2
    rw [h1] at h2'
    exact absurd h2' (by simp)

/-- C38: after any number `n` of iterations of the forward allocation loop of
`allocateDataRegisters` on the list of a core, whose operations have at most
`REGISTER_FILE_SIZE` elements, every operation that holds registers (a producer in the live
set or a live reload) has a register range `[register, register + length)` that lies inside
the general register file and does not contain the spill address register, which is the
first general register; and the ranges of two different operations that hold registers have
no register in common. -/
theorem live_register_ranges_are_disjoint_inside_the_register_file (s : RegState)
    (list : List Nat) (n : Nat) (l : DataLoop)
    (hlt : ∀ x, x ∈ list → x < s.g.fresh)
    (hlen : ∀ x, x ∈ list → s.g.length x ≤ REGISTER_FILE_SIZE)
    (h : allocateDataRegistersUpTo s list n = some l) :
    (∃ p, (CoreAllocator.mk fun _ => false).allocate 1 = some p
      ∧ ∀ x, l.holds x → ∃ reg, l.ra.op2reg x = some reg
        ∧ REGISTER_FILE_START_ADDRESS ≤ reg
        ∧ reg + l.g.length x ≤ REGISTER_FILE_START_ADDRESS + REGISTER_FILE_SIZE
        ∧ ∀ k, reg ≤ k → k < reg + l.g.length x → k ≠ p.1)
    ∧ (∀ x y rx ry, l.holds x → l.holds y → x ≠ y →
        l.ra.op2reg x = some rx → l.ra.op2reg y = some ry →
        ∀ k, ¬ (rx ≤ k ∧ k < rx + l.g.length x ∧ ry ≤ k ∧ k < ry + l.g.length y)) := by
  have hinv := allocateDataRegistersUpTo_regs 0 s list n l (by omega) hlt
    (fun x hx => ⟨Nat.zero_le _, hlen x hx⟩) h
  refine ⟨⟨_, CoreAllocator.allocate_spillAddressReg, ?_⟩, hinv.disj⟩
  intro x hx
  obtain ⟨reg, hreg, hw⟩ := hinv.range x hx
  refine ⟨reg, hreg, by have := hw.low; omega, hw.high, ?_⟩
  intro k hk1 hk2 hk
  have hlow := hw.low
  have := (hw.bits (k - REGISTER_FILE_START_ADDRESS) (by omega) (by omega)).2
  have hk' : k = REGISTER_FILE_START_ADDRESS := hk
  omega

set_option maxRecDepth 1000000 in
/-- Witness for C38 on `spillState`: after three iterations the operation 1 is spilled, the
operations 2 and 3 are live, and their ranges of 512 registers from 2049 and from 1537 have
no register in common. -/
theorem live_register_ranges_are_disjoint_inside_the_register_file_witness :
    ∃ l, allocateDataRegistersUpTo spillState [1, 2, 3, 4, 5, 6, 7] 3 = some l
      ∧ l.liveNow = [2, 3] ∧ l.ra.op2reg 2 = some 2049 ∧ l.ra.op2reg 3 = some 1537
      ∧ l.g.length 2 = 512 ∧ l.g.length 3 = 512
      ∧ ∀ k, ¬ (2049 ≤ k ∧ k < 2049 + l.g.length 2 ∧ 1537 ≤ k ∧ k < 1537 + l.g.length 3) := by
  have hrun : ((allocateDataRegistersUpTo spillState [1, 2, 3, 4, 5, 6, 7] 3).bind fun l =>
      if l.liveNow = [2, 3] ∧ l.ra.op2reg 2 = some 2049 ∧ l.ra.op2reg 3 = some 1537
          ∧ l.g.length 2 = 512 ∧ l.g.length 3 = 512 then some l
      else none).isSome = true := by
    decide
  obtain ⟨q, hq⟩ := Option.isSome_iff_exists.mp hrun
  simp only [Option.bind_eq_some] at hq
  obtain ⟨l, hl, hq⟩ := hq
  split at hq
  · rename_i h1
    obtain ⟨k1, k2, k3, k4, k5⟩ := h1
    have hw := (live_register_ranges_are_disjoint_inside_the_register_file spillState
      [1, 2, 3, 4, 5, 6, 7] 3 l (by decide) (by decide) hl).2 2 3 2049 1537
      (Or.inl (by rw [k1]; decide)) (Or.inl (by rw [k1]; decide)) (by decide) k2 k3
    exact ⟨l, hl, k1, k2, k3, k4, k5, hw⟩
  · cases hq

/-! ## Register allocator: the spill address register -/

/-- A step that keeps the operations of `l` and their registers and appends to the core
list keeps the invariant of the SetImmediates, when the new SetImmediates satisfy it. -/
theorem SpillAddressInv.carry {f0 sp : Nat} (pend pend' : Option Nat) (l l' : DataLoop)
    (h : SpillAddressInv f0 sp pend l)
    (hfresh : l.g.fresh ≤ l'.g.fresh)
    (hcls : ∀ i, i < l.g.fresh → l'.g.cls i = l.g.cls i)
    (hopnd : ∀ i, f0 ≤ i → i < l.g.fresh → l'.g.operands i = l.g.operands i)
    (hreg : ∀ i reg, l.ra.op2reg i = some reg → l'.ra.op2reg i = some reg)
    (hout : ∃ added, l'.out = l.out ++ added)
    (hlive : ∀ x, x ∈ l'.liveNow → x < f0)
    (hpend : ∀ i, pend = some i →
      pend' = some i ∨ ∃ pre post, l'.out = pre ++ i :: (i + 1) :: post)
    (hnew : ∀ i, l.g.fresh ≤ i → i < l'.g.fresh →
      l'.g.cls i = OpClass.SetImmediateOperation → l'.spillAddress sp pend' i) :
    SpillAddressInv f0 sp pend' l' where
  fresh_le := le_trans h.fresh_le hfresh
  live := hlive
  seti := by
    intro i h1 h2 h3
    by_cases hi : i < l.g.fresh
    · rw [hcls i hi] at h3
      obtain ⟨a, b, c, d⟩ := h.seti i h1 hi h3
      refine ⟨hreg i sp a, lt_of_lt_of_le b hfresh, ?_, ?_⟩
      · rw [hcls (i + 1) b, hopnd (i + 1) (by omega) b]
        exact c
      · rcases d with d | ⟨pre, post, d⟩
        · exact hpend i d
        · obtain ⟨added, ha⟩ := hout
          right
          refine ⟨pre, post ++ added, ?_⟩
          rw [ha, d]
          simp
    · exact hnew i (by omega) h2 h3

/-- A step that changes neither the DAG, the registers nor the core list and adds no live
operation keeps the invariant of the SetImmediates. -/
theorem SpillAddressInv.sameGraph {f0 sp : Nat} (pend : Option Nat) (l l' : DataLoop)
    (h : SpillAddressInv f0 sp pend l) (hg : l'.g = l.g)
    (hreg : l'.ra.op2reg = l.ra.op2reg) (hout : l'.out = l.out)
    (hlive : ∀ x, x ∈ l'.liveNow → x ∈ l.liveNow) : SpillAddressInv f0 sp pend l' := by
  apply SpillAddressInv.carry pend pend l l' h
  · rw [hg]
  · intro i _
    rw [hg]
  · intro i _ _
    rw [hg]
  · intro i reg hi
    rw [hreg]
    exact hi
  · exact ⟨[], by rw [hout, List.append_nil]⟩
  · exact fun x hx => h.live x (hlive x hx)
  · exact fun i hi => Or.inl hi
  · intro i h1 h2
    rw [hg] at h2
    omega

/-- A step of the first loop of `allocateRegistersWithSpilling` changes neither the DAG, the
registers, the core list nor the live operations. -/
theorem killReloadAt_frame (length : Nat) (consumer : Option Nat)
    (s s' : Option Nat × DataLoop) (k : Nat)
    (h : killReloadAt length consumer s k = some s') :
    s'.2.g = s.2.g ∧ s'.2.ra = s.2.ra ∧ s'.2.out = s.2.out ∧ s'.2.liveNow = s.2.liveNow := by
  unfold killReloadAt at h
  cases hf : s.1 with
  | some reg =>
    rw [hf] at h
    simp only [Option.some.injEq] at h
    rw [← h]
    exact ⟨rfl, rfl, rfl, rfl⟩
  | none =>
    rw [hf] at h
    simp only [Option.bind_eq_some] at h
    obtain ⟨rl, _, h⟩ := h
    split at h
    · simp only [Option.bind_eq_some, Option.map_eq_some'] at h
      obtain ⟨t, _, r, _, a, _, p, _, hs⟩ := h
      rw [← hs]
      exact ⟨rfl, rfl, rfl, rfl⟩
    · simp only [Option.some.injEq] at h
      rw [← h]
      exact ⟨rfl, rfl, rfl, rfl⟩

/-- A step of the second loop of `allocateRegistersWithSpilling` keeps the invariant of the
SetImmediates: the SetImmediate of the spill gets the spill address register and is
inserted right before its Store. -/
theorem spillAt_seti {f0 sp : Nat} (pend : Option Nat) (length : Nat)
    (consumer : Option Nat) (s s' : Option Nat × DataLoop) (cand : Nat)
    (hcand : cand < f0) (hs : SpillAddressInv f0 sp pend s.2)
    (h : spillAt length sp consumer s cand = some s') :
    SpillAddressInv f0 sp pend s'.2 ∧ s.2.g.fresh ≤ s'.2.g.fresh
    ∧ ∀ i, i < s.2.g.fresh → s'.2.g.cls i = s.2.g.cls i := by
  unfold spillAt at h
  cases hf : s.1 with
  | some reg =>
    rw [hf] at h
    simp only [Option.some.injEq] at h
    rw [← h]
    exact ⟨hs, le_refl _, fun _ _ => rfl⟩
  | none =>
    rw [hf] at h
    simp only at h
    by_cases hcond : consumer = none
        ∨ Option.all (fun c => !s.2.g.uses c cand) consumer = true
    · rw [if_pos hcond] at h
      simp only [Option.bind_eq_some, Option.map_eq_some'] at h
      obtain ⟨vTile, _, m, hm, pt1, _, ra1, hra1, pt2, _, mem1, hmem1, g3, hg3, t, ht, reg,
        hreg, a, ha, p, hp, hq⟩ := h
      have hf0 := hs.fresh_le
      have hP : cand < s.2.g.fresh := by omega
      obtain ⟨e1, e2, _, _, e5, _, e7, _, e9, e10⟩ := newSpill_spec s.2.g g3 m.1 cand hP hg3
      have hid0 : (s.2.g.newSetImmediate m.1 1).1 = s.2.g.fresh := rfl
      rw [hid0] at hra1
      obtain ⟨r1, r2⟩ := RegisterAllocator.assignRegister_op2reg _ _ _ _ hra1
      rw [← hq]
      refine ⟨?_, ?_, e2⟩
      · apply SpillAddressInv.carry pend pend s.2 _ hs
        · show s.2.g.fresh ≤ g3.fresh
          omega
        · exact e2
        · exact fun i _ hi => e5 i hi
        · intro i rg hi
          show ra1.op2reg i = some rg
          rw [r2, upd_other _ _ (by
            intro he
            rw [he, r1] at hi
            exact absurd hi (by simp))]
          exact hi
        · exact ⟨[s.2.g.fresh, s.2.g.fresh + 1], rfl⟩
        · exact fun x hx => hs.live x (mem_setErase.mp hx).1
        · exact fun i hi => Or.inl hi
        · intro i h1 h2 h3
          have h2' : i < g3.fresh := h2
          have h3' : g3.cls i = OpClass.SetImmediateOperation := h3
          have hi : i = s.2.g.fresh := by
            by_contra hne
            have : i = s.2.g.fresh + 1 := by omega
            rw [this, e9] at h3'
            exact absurd h3' (by simp)
          rw [hi]
          refine ⟨?_, ?_, ?_, ?_⟩
          · show ra1.op2reg s.2.g.fresh = some sp
            rw [r2, upd_same]
          · show s.2.g.fresh + 1 < g3.fresh
            omega
          · left
            exact ⟨e9, cand, e10⟩
          · right
            exact ⟨s.2.out, [], rfl⟩
      · show s.2.g.fresh ≤ g3.fresh
        omega
    · rw [if_neg hcond] at h
      simp only [Option.some.injEq] at h
      rw [← h]
      exact ⟨hs, le_refl _, fun _ _ => rfl⟩

/-- `allocateRegistersWithSpilling` keeps the invariant of the SetImmediates, and the
classes of the operations present before. -/
theorem allocateRegistersWithSpilling_seti {f0 sp : Nat} (pend : Option Nat)
    (length op : Nat) (l : DataLoop) (q : Nat × DataLoop)
    (hs : SpillAddressInv f0 sp pend l)
    (h : allocateRegistersWithSpilling length sp op l = some q) :
    SpillAddressInv f0 sp pend q.2 ∧ l.g.fresh ≤ q.2.g.fresh
    ∧ ∀ i, i < l.g.fresh → q.2.g.cls i = l.g.cls i := by
  unfold allocateRegistersWithSpilling at h
  simp only [Option.bind_eq_some] at h
  obtain ⟨p, hp, h⟩ := h
  have h0 : SpillAddressInv f0 sp pend ({ l with allocator := p.2 } : DataLoop) :=
    SpillAddressInv.sameGraph pend l _ hs rfl rfl rfl (fun _ hx => hx)
  by_cases hne : p.1 ≠ OUT_OF_REGISTERS
  · rw [if_pos hne] at h
    simp only [Option.some.injEq] at h
    rw [← h]
    exact ⟨h0, le_refl _, fun _ _ => rfl⟩
  · rw [if_neg hne] at h
    simp only [Option.bind_eq_some] at h
    obtain ⟨s, hs1, h⟩ := h
    have h1 : SpillAddressInv f0 sp pend s.2 ∧ s.2.g = l.g :=
      foldlM_preserves _
        (fun (x : Option Nat × DataLoop) => SpillAddressInv f0 sp pend x.2 ∧ x.2.g = l.g)
        (fun b a b' hb hstep => by
          obtain ⟨k1, k2, k3, k4⟩ := killReloadAt_frame length _ b b' a hstep
          refine ⟨SpillAddressInv.sameGraph pend b.2 b'.2 hb.1 k1 (by rw [k2]) k3 ?_, ?_⟩
          · rw [k4]
            exact fun _ hx => hx
          · rw [k1]
            exact hb.2)
        _ _ s ⟨h0, rfl⟩ hs1
    cases hf : s.1 with
    | some reg =>
      rw [hf] at h
      simp only [Option.some.injEq] at h
      rw [← h]
      refine ⟨h1.1, ?_, ?_⟩
      · show l.g.fresh ≤ s.2.g.fresh
        rw [h1.2]
      · intro i _
        show s.2.g.cls i = l.g.cls i
        rw [h1.2]
    | none =>
      rw [hf] at h
      simp only [Option.bind_eq_some, Option.map_eq_some'] at h
      obtain ⟨s2, hs2, reg, hreg, hq⟩ := h
      have h2 := foldlM_preserves_mem _
        (fun (x : Option Nat × DataLoop) => SpillAddressInv f0 sp pend x.2
          ∧ l.g.fresh ≤ x.2.g.fresh ∧ ∀ i, i < l.g.fresh → x.2.g.cls i = l.g.cls i)
        s.2.liveNow
        (fun b a b' ha hb hstep => by
          obtain ⟨k1, k2, k3⟩ := spillAt_seti pend length _ b b' a (h1.1.live a ha) hb.1 hstep
          refine ⟨k1, le_trans hb.2.1 k2, ?_⟩
          intro i hi
          rw [k3 i (lt_of_lt_of_le hi hb.2.1), hb.2.2 i hi])
        s s2 ⟨h1.1, by rw [h1.2], fun i _ => by rw [h1.2]⟩ hs2
      rw [← hq]
      exact h2

/-- The reload of a spilled operand keeps the invariant of the SetImmediates: the
SetImmediate of the reload gets the spill address register and is inserted right before
its Load. -/
theorem reloadOperand_seti {f0 sp : Nat} (consumer producer : Nat) (l l' : DataLoop)
    (hc : consumer < f0) (hs : SpillAddressInv f0 sp none l)
    (h : reloadOperand sp consumer producer l = some l') :
    SpillAddressInv f0 sp none l' := by
  unfold reloadOperand at h
  simp only [Option.bind_eq_some, Option.map_eq_some'] at h
  obtain ⟨spillOp, hsp, address, _, pt1, _, ra1, hra1, g3, hg3, pt2, _, q, hq, ra2, hra2, t,
    ht, hl'⟩ := h
  have hf0 := hs.fresh_le
  obtain ⟨e1, e2, _, _, e5, _, e7, _, e9, e10, _⟩ := newReload_spec l.g g3 address spillOp hg3
  have hid : ((l.g.newSetImmediate address 1).2.newLoad spillOp).1 = l.g.fresh + 1 := rfl
  have hid0 : (l.g.newSetImmediate address 1).1 = l.g.fresh := rfl
  rw [hid] at hq hra2
  rw [hid0] at hra1
  obtain ⟨r1, r2⟩ := RegisterAllocator.assignRegister_op2reg _ _ _ _ hra1
  have r1' : l.ra.op2reg l.g.fresh = none := r1
  have r2' : ra1.op2reg = upd l.ra.op2reg l.g.fresh (some sp) := r2
  have hext : SpillAddressInv f0 sp (some l.g.fresh)
      ({ l with g := g3, pt := pt2,
                ra := { ra1 with numLoadsFromSpilling :=
                  (ra1.numLoadsFromSpilling
                    + ((l.g.newSetImmediate address 1).2.newLoad spillOp).2.length
                      ((l.g.newSetImmediate address 1).2.newLoad spillOp).1) % UINT_MOD } } :
        DataLoop) := by
    apply SpillAddressInv.carry none (some l.g.fresh) l _ hs
    · show l.g.fresh ≤ g3.fresh
      omega
    · exact e2
    · exact fun i _ hi => e5 i hi
    · intro i rg hi
      show ra1.op2reg i = some rg
      rw [r2', upd_other _ _ (by
        intro he
        rw [he, r1'] at hi
        exact absurd hi (by simp))]
      exact hi
    · exact ⟨[], (List.append_nil _).symm⟩
    · exact hs.live
    · intro i hi
      exact absurd hi (by simp)
    · intro i h1 h2 h3
      have h2' : i < g3.fresh := h2
      have h3' : g3.cls i = OpClass.SetImmediateOperation := h3
      have hi : i = l.g.fresh := by
        by_contra hne
        have : i = l.g.fresh + 1 := by omega
        rw [this, e9] at h3'
        exact absurd h3' (by simp)
      rw [hi]
      refine ⟨?_, ?_, ?_, Or.inl rfl⟩
      · show ra1.op2reg l.g.fresh = some sp
        rw [r2', upd_same]
      · show l.g.fresh + 1 < g3.fresh
        omega
      · right
        exact ⟨e9, e10⟩
  obtain ⟨d1, d2, d3⟩ := allocateRegistersWithSpilling_seti (some l.g.fresh)
    (g3.length (l.g.fresh + 1)) consumer _ q hext hq
  have d2' : g3.fresh ≤ q.2.g.fresh := d2
  obtain ⟨a1, a2⟩ := RegisterAllocator.assignRegister_op2reg _ _ _ _ hra2
  obtain ⟨p1, p2, _, _, _, p6⟩ := replaceOperand_spec q.2.g consumer producer (l.g.fresh + 1)
  rw [← hl']
  apply SpillAddressInv.carry (some l.g.fresh) none q.2 _ d1
  · exact le_of_eq p1.symm
  · intro i _
    show (q.2.g.replaceOperand consumer producer (l.g.fresh + 1)).cls i = _
    rw [p2]
  · intro i hi _
    exact p6 i (by omega)
  · intro i rg hi
    show ra2.op2reg i = some rg
    rw [a2, upd_other _ _ (by
      intro he
      rw [he, a1] at hi
      exact absurd hi (by simp))]
    exact hi
  · exact ⟨[l.g.fresh, l.g.fresh + 1], rfl⟩
  · exact d1.live
  · intro i hi
    simp only [Option.some.injEq] at hi
    right
    rw [← hi]
    exact ⟨q.2.out, [], rfl⟩
  · intro i h1 h2
    have h2' : i < (q.2.g.replaceOperand consumer producer (l.g.fresh + 1)).fresh := h2
    rw [p1] at h2'
    omega

/-- The body of the loop `Make sure all operands are available` keeps the invariant of the
SetImmediates. -/
theorem availableOperandAt_seti {f0 sp : Nat} (consumer : Nat) (l l' : DataLoop) (o : Nat)
    (hc : consumer < f0) (hs : SpillAddressInv f0 sp none l)
    (h : availableOperandAt sp consumer l o = some l') :
    SpillAddressInv f0 sp none l' := by
  unfold availableOperandAt at h
  simp only [Option.bind_eq_some] at h
  obtain ⟨producer, _, h⟩ := h
  split at h
  · split at h
    · simp only [Option.some.injEq] at h
      rw [← h]
      exact SpillAddressInv.sameGraph none l _ hs rfl rfl rfl (fun _ hx => hx)
    · split at h
      · split at h
        · simp only [Option.some.injEq] at h
          rw [← h]
          rename_i load _
          obtain ⟨p1, p2, _, _, _, p6⟩ := replaceOperand_spec l.g consumer producer load
          apply SpillAddressInv.carry none none l _ hs
          · exact le_of_eq p1.symm
          · intro i _
            show (l.g.replaceOperand consumer producer load).cls i = _
            rw [p2]
          · intro i hi _
            exact p6 i (by omega)
          · exact fun _ _ hi => hi
          · exact ⟨[], (List.append_nil _).symm⟩
          · exact hs.live
          · exact fun i hi => Or.inl hi
          · intro i h1 h2
            have h2' : i < (l.g.replaceOperand consumer producer load).fresh := h2
            rw [p1] at h2'
            omega
        · exact reloadOperand_seti consumer producer l l' hc hs h
      · exact absurd h (by simp)
  · simp only [Option.some.injEq] at h
    rw [← h]
    exact hs

/-- The body of the loop `Free registers for operands that are no longer live` keeps the
invariant of the SetImmediates. -/
theorem freeOperandAt_seti {f0 sp : Nat} (liveOut : List Nat) (consumer : Nat)
    (l l' : DataLoop) (o : Nat) (hs : SpillAddressInv f0 sp none l)
    (h : freeOperandAt liveOut consumer l o = some l') :
    SpillAddressInv f0 sp none l' := by
  unfold freeOperandAt at h
  simp only [Option.bind_eq_some] at h
  obtain ⟨producer, _, h⟩ := h
  split at h
  · split at h
    · split at h
      · simp only [Option.bind_eq_some, Option.map_eq_some'] at h
        obtain ⟨r, _, a, _, hl'⟩ := h
        rw [← hl']
        exact SpillAddressInv.sameGraph none l _ hs rfl rfl rfl
          (fun x hx => (mem_setErase.mp hx).1)
      · simp only [Option.some.injEq] at h
        rw [← h]
        exact hs
    · split at h
      · simp only [Option.bind_eq_some] at h
        obtain ⟨orig, _, h⟩ := h
        split at h
        · simp only [Option.bind_eq_some, Option.map_eq_some'] at h
          obtain ⟨t, _, r, _, a, _, hl'⟩ := h
          rw [← hl']
          exact SpillAddressInv.sameGraph none l _ hs rfl rfl rfl (fun _ hx => hx)
        · simp only [Option.some.injEq] at h
          rw [← h]
          exact hs
      · exact absurd h (by simp)
  · simp only [Option.some.injEq] at h
    rw [← h]
    exact hs

/-- The body of the allocation loop of `allocateDataRegisters` at an operation below `f0`
keeps the invariant of the SetImmediates. -/
theorem allocateDataRegistersAt_seti {f0 sp : Nat} (liveIn : Option Nat → List Nat)
    (l l' : DataLoop) (x : Nat × Option Nat) (hx : x.1 < f0)
    (hs : SpillAddressInv f0 sp none l)
    (h : allocateDataRegistersAt liveIn sp l x = some l') :
    SpillAddressInv f0 sp none l' := by
  unfold allocateDataRegistersAt at h
  simp only [Option.bind_eq_some, Option.map_eq_some'] at h
  obtain ⟨l1, hl1, l2, hl2, hl'⟩ := h
  have h1 : SpillAddressInv f0 sp none l1 := by
    by_cases hcond : ((l.g.cls x.1).isConsumer && !readsFromReservedInputRegister l.g x.1) = true
    · rw [if_pos hcond] at hl1
      simp only [Option.bind_eq_some] at hl1
      obtain ⟨la, hla, hlb⟩ := hl1
      have ha : SpillAddressInv f0 sp none la :=
        foldlM_preserves _ (fun (y : DataLoop) => SpillAddressInv f0 sp none y)
          (fun b o b' hb hstep => availableOperandAt_seti x.1 b b' o hx hb hstep)
          _ _ la hs hla
      exact foldlM_preserves _ (fun (y : DataLoop) => SpillAddressInv f0 sp none y)
        (fun b o b' hb hstep => freeOperandAt_seti (liveIn x.2) x.1 b b' o hb hstep)
        _ _ l1 ha hlb
    · rw [if_neg hcond] at hl1
      simp only [Option.some.injEq] at hl1
      rw [← hl1]
      exact hs
  have h2 : SpillAddressInv f0 sp none l2 := by
    by_cases hprod : (l1.g.cls x.1).isProducer = true
    · rw [if_pos hprod] at hl2
      by_cases hin : x.1 ∈ liveIn (some x.1)
      · rw [if_pos hin] at hl2
        exact absurd hl2 (by simp)
      · rw [if_neg hin] at hl2
        by_cases hout : x.1 ∈ liveIn x.2
        · rw [if_pos hout] at hl2
          simp only [Option.bind_eq_some, Option.map_eq_some'] at hl2
          obtain ⟨q, hq, ra, hra, hl2⟩ := hl2
          obtain ⟨d1, _, _⟩ := allocateRegistersWithSpilling_seti none (l1.g.length x.1) x.1
            l1 q h1 hq
          obtain ⟨a1, a2⟩ := RegisterAllocator.assignRegister_op2reg _ _ _ _ hra
          rw [← hl2]
          apply SpillAddressInv.carry none none q.2
            ({ q.2 with ra := ra, liveNow := setInsert q.2.liveNow x.1 } : DataLoop) d1
            (le_refl _) (fun _ _ => rfl) (fun _ _ _ => rfl)
          · intro i rg hi
            show ra.op2reg i = some rg
            rw [a2, upd_other _ _ (by
              intro he
              rw [he, a1] at hi
              exact absurd hi (by simp))]
            exact hi
          · exact ⟨[], (List.append_nil _).symm⟩
          · intro y hy
            rcases mem_setInsert.mp hy with he | hm
            · rw [he]
              exact hx
            · exact d1.live y hm
          · exact fun i hi => Or.inl hi
          · intro i h1 h2
            have h2' : i < q.2.g.fresh := h2
            omega
        · rw [if_neg hout] at hl2
          split at hl2
          · simp only [Option.some.injEq] at hl2
            rw [← hl2]
            exact h1
          · exact absurd hl2 (by simp)
    · rw [if_neg hprod] at hl2
      simp only [Option.some.injEq] at hl2
      rw [← hl2]
      exact h1
  rw [← hl']
  apply SpillAddressInv.carry none none l2
    ({ l2 with out := l2.out ++ [x.1] } : DataLoop) h2 (le_refl _) (fun _ _ => rfl)
    (fun _ _ _ => rfl) (fun _ _ hi => hi) ⟨[x.1], rfl⟩ h2.live (fun i hi => Or.inl hi)
  intro i h1 h2
  have h2' : i < l2.g.fresh := h2
  omega

/-- The invariant of the SetImmediates holds after any number of iterations of the
allocation loop of `allocateDataRegisters`. -/
theorem allocateDataRegistersUpTo_seti (s : RegState) (list : List Nat) (n : Nat)
    (l : DataLoop) (hlt : ∀ x, x ∈ list → x < s.g.fresh)
    (h : allocateDataRegistersUpTo s list n = some l) :
    SpillAddressInv s.g.fresh REGISTER_FILE_START_ADDRESS none l := by
  unfold allocateDataRegistersUpTo at h
  rw [CoreAllocator.allocate_spillAddressReg] at h
  simp only [Option.some_bind] at h
  refine foldlM_preserves_mem _
    (fun (y : DataLoop) => SpillAddressInv s.g.fresh REGISTER_FILE_START_ADDRESS none y)
    _ (fun b a b' ha hb hstep =>
      allocateDataRegistersAt_seti _ b b' a
        (hlt a.1 (mem_withNext list a (List.mem_of_mem_take ha))) hb hstep) _ l ?_ h
  constructor
  · exact le_refl _
  · intro x hx
    exact absurd hx (List.not_mem_nil _)
  · intro i h1 h2
    have h2' : i < s.g.fresh := h2
    omega

/-- C33: on the list of a core whose operations have from 1 to `REGISTER_FILE_SIZE`
elements, the spill address register that `allocateDataRegisters` reserves is the first
general register `REGISTER_FILE_START_ADDRESS`; after any number `n` of iterations of the
allocation loop, every SetImmediate that the pass created holds exactly that register, the
operation created with it is the spill Store or the reload Load that reads it as its
address, and the two are adjacent in the core list built so far, the SetImmediate first;
and every other operation that got a register during the pass got one above the spill
address register. -/
theorem spill_address_register_is_reserved_for_spill_addresses (s : RegState)
    (list : List Nat) (n : Nat) (l : DataLoop)
    (hlt : ∀ x, x ∈ list → x < s.g.fresh)
    (hlen : ∀ x, x ∈ list → 1 ≤ s.g.length x ∧ s.g.length x ≤ REGISTER_FILE_SIZE)
    (h : allocateDataRegistersUpTo s list n = some l) :
    ∃ p, (CoreAllocator.mk fun _ => false).allocate 1 = some p
      ∧ p.1 = REGISTER_FILE_START_ADDRESS
      ∧ (∀ i, s.g.fresh ≤ i → i < l.g.fresh →
          l.g.cls i = OpClass.SetImmediateOperation →
          l.ra.op2reg i = some p.1
          ∧ ((l.g.cls (i + 1) = OpClass.StoreOperation ∧ ∃ P, l.g.operands (i + 1) = [P, i])
              ∨ (l.g.cls (i + 1) = OpClass.LoadOperation ∧ l.g.operands (i + 1) = [i]))
          ∧ ∃ pre post, l.out = pre ++ i :: (i + 1) :: post)
      ∧ (∀ x reg, s.ra.op2reg x = none → l.ra.op2reg x = some reg →
          (s.g.fresh ≤ x ∧ x < l.g.fresh ∧ l.g.cls x = OpClass.SetImmediateOperation
            ∧ reg = p.1)
          ∨ p.1 < reg) := by
  have hregs := allocateDataRegistersUpTo_regs 1 s list n l (le_refl _) hlt hlen h
  have hseti := allocateDataRegistersUpTo_seti s list n l hlt h
  refine ⟨_, CoreAllocator.allocate_spillAddressReg, rfl, ?_, ?_⟩
  · intro i h1 h2 h3
    obtain ⟨a, _, c, d⟩ := hseti.seti i h1 h2 h3
    refine ⟨a, c, ?_⟩
    rcases d with d | d
    · exact absurd d (by simp)
    · exact d
  · intro x reg h1 h2
    obtain ⟨k1, k2⟩ := hregs.assigned x reg h1 h2
    rcases k2 with ⟨k2, k3, k4⟩ | ⟨k2, _⟩
    · exact Or.inl ⟨k2, k1, k3, k4⟩
    · right
      show REGISTER_FILE_START_ADDRESS < reg
      omega

set_option maxRecDepth 1000000 in
/-- Witness for C33 on `spillState`: the pass runs to its end and creates the SetImmediate
10 of the reload Load 11; it holds the first general register and stands right before the
Load 11 in the new core list. -/
theorem spill_address_register_is_reserved_for_spill_addresses_witness :
    ∃ l, allocateDataRegistersUpTo spillState [1, 2, 3, 4, 5, 6, 7] 7 = some l
      ∧ l.g.cls 10 = OpClass.SetImmediateOperation
      ∧ l.ra.op2reg 10 = some REGISTER_FILE_START_ADDRESS
      ∧ ((l.g.cls (10 + 1) = OpClass.StoreOperation ∧ ∃ P, l.g.operands (10 + 1) = [P, 10])
          ∨ (l.g.cls (10 + 1) = OpClass.LoadOperation ∧ l.g.operands (10 + 1) = [10]))
      ∧ ∃ pre post, l.out = pre ++ 10 :: (10 + 1) :: post := by
  have hrun : ((allocateDataRegistersUpTo spillState [1, 2, 3, 4, 5, 6, 7] 7).bind fun l =>
      if l.g.fresh = 16 ∧ l.g.cls 10 = OpClass.SetImmediateOperation then some l
      else none).isSome = true := by
    decide
  obtain ⟨q, hq⟩ := Option.isSome_iff_exists.mp hrun
  simp only [Option.bind_eq_some] at hq
  obtain ⟨l, hl, hq⟩ := hq
  split at hq
  · rename_i h1
    obtain ⟨k1, k2⟩ := h1
    obtain ⟨p, _, hp, hA, _⟩ := spill_address_register_is_reserved_for_spill_addresses
      spillState [1, 2, 3, 4, 5, 6, 7] 7 l (by decide) (by decide) hl
    obtain ⟨a, b, c⟩ := hA 10 (by decide) (by rw [k1]; decide) k2
    rw [hp] at a
    exact ⟨l, hl, k2, a, b, c⟩
  · cases hq

end Puma
